import Mathlib

/-!
cLox (Lox Interpreter 2): values, tables, scanner, compiler, machine, collector

A shallow embedding of the cLox bytecode interpreter
(`Value.h`, `Value.cpp`, `Table.cpp`, `Memory.h`, `Memory.cpp`, `Object.cpp`,
`Scanner.cpp`, `Compiler.cpp`, `Chunk.cpp`, `VM.cpp`) and theorems about it.

Conventions of the embedding.

* C `int` / `uint32_t` / `uint64_t` quantities are natural numbers; where the
  source relies on unsigned wrap-around (`uint32_t` index arithmetic, the FNV
  multiplication) the reduction `% 2 ^ 32` is written out.
* A pointer to a heap object is a natural number (its address); `NULL` keys of
  table entries are `none`.  The string objects are read through a heap
  `Nat → ObjString` giving the object stored at an address.
* An `Entry*` into an entries array is the index of the entry.
* A function whose C body may fail to return normally (a probe loop that does
  not stop, an access outside an array, an `int` overflow of the capacity)
  returns `none` in that case.
* The scanner, the compiler and the machine pass their global state
  explicitly; the recursive functions of the compiler and the loop of `Run`
  take a bound on the number of rounds and return `none` when it is used up.
-/

namespace CLox

/-! ## Values (`Value.h`, `NAN_BOXING` defined in `Common.h`) -/

/-- A NaN-boxed value: `typedef uint64_t Value`. -/
abbrev Value := Nat

def SIGN_BIT : Nat := 0x8000000000000000
def QNAN : Nat := 0x7ffc000000000000

def TAG_NIL : Nat := 1
def TAG_FALSE : Nat := 2
def TAG_TRUE : Nat := 3

def FALSE_VAL : Value := QNAN ||| TAG_FALSE
def TRUE_VAL : Value := QNAN ||| TAG_TRUE
def NIL_VAL : Value := QNAN ||| TAG_NIL

def IS_BOOL (value : Value) : Bool := (value ||| 1) == TRUE_VAL
def IS_NIL (value : Value) : Bool := value == NIL_VAL
def IS_NUMBER (value : Value) : Bool := (value &&& QNAN) != QNAN
def IS_OBJ (value : Value) : Bool :=
  (value &&& (QNAN ||| SIGN_BIT)) == (QNAN ||| SIGN_BIT)

def AS_BOOL (value : Value) : Bool := value == TRUE_VAL
def BOOL_VAL (b : Bool) : Value := if b then TRUE_VAL else FALSE_VAL
def OBJ_VAL (obj : Nat) : Value := SIGN_BIT ||| QNAN ||| obj

/-! ## String objects (`Object.h`) -/

/-- The fields of `struct ObjString` that the table and the interning code
read: `Length`, the bytes `Chars` points to, and `Hash`. -/
structure ObjString where
  Length : Nat
  Chars : List Nat
  Hash : Nat
deriving DecidableEq, Repr

/-! ## Hash table (`Table.h`, `Table.cpp`, `Memory.h`) -/

/-- A key/value pair of a table: `struct Entry`; `Key = none` is `NULL`. -/
structure Entry where
  Key : Option Nat
  Value : CLox.Value
deriving DecidableEq, Repr

/-- The hash table: `struct Table`. -/
structure Table where
  Count : Nat
  Capacity : Nat
  Entries : List Entry
deriving DecidableEq, Repr

/-- Largest value of a C `int`. -/
def INT_MAX : Nat := 2147483647

/-- Macro `GROW_CAPACITY(capacity)` of `Memory.h`. -/
def GROW_CAPACITY (capacity : Nat) : Nat :=
  if capacity < 8 then 8 else capacity * 2

/-- Function `InitTable`: count 0, capacity 0, no entries array. -/
def InitTable : Table := ⟨0, 0, []⟩

/-- The mask `(capacity - 1)` of an `int` capacity converted to `uint32_t`. -/
def mask32 (capacity : Nat) : Nat := (capacity + 2 ^ 32 - 1) % 2 ^ 32

/-- The index update `index = (index + 1) & (capacity - 1)` on `uint32_t`. -/
def nextIndex (index capacity : Nat) : Nat :=
  ((index + 1) % 2 ^ 32) &&& mask32 capacity

/-- The `for (;;)` loop of `FindEntry`; one unit of fuel per slot examined.
The result is the index of the returned entry. -/
def FindEntryLoop (entries : List Entry) (capacity : Nat) (key : Nat) :
    Nat → Nat → Option Nat → Option Nat
  | 0, _, _ => none
  | fuel + 1, index, tombstone =>
    match entries[index]? with
    | none => none
    | some entry =>
      match entry.Key with
      | none =>
        if IS_NIL entry.Value then
          some (match tombstone with
                | some t => t
                | none => index)
        else
          FindEntryLoop entries capacity key fuel (nextIndex index capacity)
            (match tombstone with
             | some t => some t
             | none => some index)
      | some k =>
        if k = key then some index
        else FindEntryLoop entries capacity key fuel (nextIndex index capacity) tombstone

/-- Function `FindEntry(entries, capacity, key)`: the probe starts at
`key->Hash & (capacity - 1)` and is run for at most `capacity` slots; on an
array of `capacity` slots more fuel never changes the result
(`FindEntryLoop_fuel_exact`). -/
def FindEntry (heap : Nat → ObjString) (entries : List Entry) (capacity : Nat)
    (key : Nat) : Option Nat :=
  FindEntryLoop entries capacity key capacity ((heap key).Hash &&& mask32 capacity) none

/-- Function `TableGet(table, key, &value)`: `some none` is the result `false`,
`some (some v)` is the result `true` with `*value = v`. -/
def TableGet (heap : Nat → ObjString) (table : Table) (key : Nat) :
    Option (Option Value) :=
  if table.Count = 0 then some none
  else
    match FindEntry heap table.Entries table.Capacity key with
    | none => none
    | some idx =>
      match table.Entries[idx]? with
      | none => none
      | some entry =>
        match entry.Key with
        | none => some none
        | some _ => some (some entry.Value)

/-- The copy loop of `AdjustCapacity` (`for (int i = 0; i < table->Capacity; i++)`):
`n` iterations remain, `i` is the loop variable, the state is the new entries
array and the running `table->Count`. -/
def AdjustCapacityCopy (heap : Nat → ObjString) (old : List Entry) (capacity : Nat) :
    Nat → Nat → List Entry × Nat → Option (List Entry × Nat)
  | 0, _, st => some st
  | n + 1, i, (entries, count) =>
    match old[i]? with
    | none => none
    | some entry =>
      match entry.Key with
      | none => AdjustCapacityCopy heap old capacity n (i + 1) (entries, count)
      | some k =>
        match FindEntry heap entries capacity k with
        | none => none
        | some dest =>
          AdjustCapacityCopy heap old capacity n (i + 1)
            (entries.set dest ⟨some k, entry.Value⟩, count + 1)

/-- Function `AdjustCapacity(table, capacity)`. -/
def AdjustCapacity (heap : Nat → ObjString) (table : Table) (capacity : Nat) :
    Option Table :=
  match AdjustCapacityCopy heap table.Entries capacity table.Capacity 0
      (List.replicate capacity ⟨none, NIL_VAL⟩, 0) with
  | none => none
  | some (entries, count) => some ⟨count, capacity, entries⟩

/-- The growth step at the head of `TableSet`.  The test
`Count + 1 > Capacity * 0.75` is exact in `double` for `int` operands and is
written `4 * (Count + 1) > 3 * Capacity`.  A grown capacity that does not fit
an `int` has no defined result. -/
def TableSetGrow (heap : Nat → ObjString) (table : Table) : Option Table :=
  if 4 * (table.Count + 1) > 3 * table.Capacity then
    if GROW_CAPACITY table.Capacity > INT_MAX then none
    else AdjustCapacity heap table (GROW_CAPACITY table.Capacity)
  else some table

/-- Function `TableSet(table, key, value)`: the returned boolean is `isNewKey`. -/
def TableSet (heap : Nat → ObjString) (table : Table) (key : Nat) (value : Value) :
    Option (Bool × Table) :=
  match TableSetGrow heap table with
  | none => none
  | some t =>
    match FindEntry heap t.Entries t.Capacity key with
    | none => none
    | some idx =>
      match t.Entries[idx]? with
      | none => none
      | some entry =>
        some (entry.Key.isNone,
          ⟨if entry.Key.isNone && IS_NIL entry.Value then t.Count + 1 else t.Count,
           t.Capacity, t.Entries.set idx ⟨some key, value⟩⟩)

/-- Function `TableDelete(table, key)`. -/
def TableDelete (heap : Nat → ObjString) (table : Table) (key : Nat) :
    Option (Bool × Table) :=
  if table.Count = 0 then some (false, table)
  else
    match FindEntry heap table.Entries table.Capacity key with
    | none => none
    | some idx =>
      match table.Entries[idx]? with
      | none => none
      | some entry =>
        match entry.Key with
        | none => some (false, table)
        | some _ =>
          some (true,
            ⟨table.Count, table.Capacity, table.Entries.set idx ⟨none, BOOL_VAL true⟩⟩)

/-- The loop of `TableAddAll(from, to)`: `n` iterations remain, `i` is the
loop variable. -/
def TableAddAllLoop (heap : Nat → ObjString) (fromTable : Table) :
    Nat → Nat → Table → Option Table
  | 0, _, toTable => some toTable
  | n + 1, i, toTable =>
    match fromTable.Entries[i]? with
    | none => none
    | some entry =>
      match entry.Key with
      | none => TableAddAllLoop heap fromTable n (i + 1) toTable
      | some k =>
        match TableSet heap toTable k entry.Value with
        | none => none
        | some r => TableAddAllLoop heap fromTable n (i + 1) r.2

/-- Function `TableAddAll(from, to)`. -/
def TableAddAll (heap : Nat → ObjString) (fromTable toTable : Table) : Option Table :=
  TableAddAllLoop heap fromTable fromTable.Capacity 0 toTable

/-- The `for (;;)` loop of `TableFindString`; `some none` is the result `NULL`. -/
def TableFindStringLoop (heap : Nat → ObjString) (table : Table) (chars : List Nat)
    (length hash : Nat) : Nat → Nat → Option (Option Nat)
  | 0, _ => none
  | fuel + 1, index =>
    match table.Entries[index]? with
    | none => none
    | some entry =>
      match entry.Key with
      | none =>
        if IS_NIL entry.Value then some none
        else TableFindStringLoop heap table chars length hash fuel
          (nextIndex index table.Capacity)
      | some k =>
        if (heap k).Length = length ∧ (heap k).Hash = hash ∧
            (heap k).Chars.take length = chars.take length then some (some k)
        else TableFindStringLoop heap table chars length hash fuel
          (nextIndex index table.Capacity)

/-- Function `TableFindString(table, chars, length, hash)`; the probe is run
for at most `Capacity` slots (`TableFindStringLoop_fuel_exact`). -/
def TableFindString (heap : Nat → ObjString) (table : Table) (chars : List Nat)
    (length hash : Nat) : Option (Option Nat) :=
  if table.Count = 0 then some none
  else TableFindStringLoop heap table chars length hash table.Capacity
    (hash &&& mask32 table.Capacity)

/-! ## Value equality and truthiness (`Value.cpp`, `VM.cpp`) -/

/-- The bit pattern is an IEEE-754 binary64 NaN: exponent all ones, mantissa
non-zero. -/
def isNaN64 (bits : Nat) : Bool :=
  (bits / 2 ^ 52) % 2 ^ 11 == 2047 && bits % 2 ^ 52 != 0

/-- C `==` on two `double`s given by their bit patterns (`AS_NUMBER` is a
`memcpy` of the bits): false when either is a NaN, true for `+0` and `-0`,
otherwise equality of the bits. -/
def doubleEq (a b : Nat) : Bool :=
  !isNaN64 a && !isNaN64 b && (a == b || (a % 2 ^ 63 == 0 && b % 2 ^ 63 == 0))

/-- Function `ValuesEqual(a, b)` as compiled with `NAN_BOXING` defined: the body is the
single `if (IS_NUMBER(a) && IS_NUMBER(b)) return ...;`; the `#else` branch is
not compiled and control then reaches the closing brace of the function without
a `return`, which is `none` here. -/
def ValuesEqual (a b : Value) : Option Bool :=
  if IS_NUMBER a && IS_NUMBER b then some (doubleEq a b) else none

/-- Function `IsFalsey(value)` of `VM.cpp`. -/
def IsFalsey (value : Value) : Bool :=
  IS_NIL value || (IS_BOOL value && !AS_BOOL value)

/-- Macro `READ_SHORT()`: advances the instruction pointer by two and yields the
16-bit operand `(IP[-2] << 8) | IP[-1]`; the result is the new instruction
pointer and the operand. -/
def READ_SHORT (code : List Nat) (ip : Nat) : Option (Nat × Nat) :=
  match code[ip]?, code[ip + 1]? with
  | some hi, some lo => some (ip + 2, ((hi <<< 8) ||| lo) % 2 ^ 16)
  | _, _ => none

/-- The handler of `OP_NOT`: `Push(BOOL_VAL(IsFalsey(Pop())))`.  The value
stack is a list with the top first. -/
def OP_NOT (stack : List Value) : Option (List Value) :=
  match stack with
  | [] => none
  | top :: rest => some (BOOL_VAL (IsFalsey top) :: rest)

/-- The handler of `OP_JUMP_IF_FALSE`: reads the operand and adds it to the
instruction pointer when `IsFalsey(Peek(0))`; the result is the new instruction
pointer (the stack is unchanged). -/
def OP_JUMP_IF_FALSE (code : List Nat) (ip : Nat) (stack : List Value) : Option Nat :=
  match READ_SHORT code ip with
  | none => none
  | some (ip2, offset) =>
    match stack with
    | [] => none
    | top :: _ => some (if IsFalsey top then ip2 + offset else ip2)

/-! ## Strings and interning (`Object.cpp`, `Memory.cpp`) -/

/-- The loop of `HashString`: `n` iterations remain, `i` is the loop variable;
`(uint8_t)key[i]` is `key[i] % 256` and the product is taken in `uint32_t`. -/
def HashStringLoop (key : List Nat) : Nat → Nat → Nat → Option Nat
  | 0, _, hash => some hash
  | n + 1, i, hash =>
    match key[i]? with
    | none => none
    | some c => HashStringLoop key n (i + 1) (((hash ^^^ (c % 256)) * 16777619) % 2 ^ 32)

/-- Function `HashString(key, length)`. -/
def HashString (key : List Nat) (length : Nat) : Option Nat :=
  HashStringLoop key length 0 2166136261

/-- The 32-bit FNV-1a hash of a byte sequence as the specification words it:
start from 2166136261; for each byte in order, XOR the hash with the byte as
an unsigned 8-bit value, then multiply by 16777619 modulo 2^32. -/
def FNV1a32 (s : List Nat) : Nat :=
  s.foldl (fun hash byte => ((hash ^^^ (byte % 256)) * 16777619) % 2 ^ 32) 2166136261

/-- The part of the VM state that string interning touches: the string object
stored at each address, the intern table `vm.Strings`, and the addresses of the
string objects on the allocation list `vm.Objects`. -/
structure VMState where
  Heap : Nat → ObjString
  Strings : Table
  Objects : List Nat

/-- The loop of `TableRemoveWhite`; `marked k` is `k->Obj.IsMarked`. -/
def TableRemoveWhiteLoop (heap : Nat → ObjString) (marked : Nat → Bool) :
    Nat → Nat → Table → Option Table
  | 0, _, table => some table
  | n + 1, i, table =>
    match table.Entries[i]? with
    | none => none
    | some entry =>
      match entry.Key with
      | none => TableRemoveWhiteLoop heap marked n (i + 1) table
      | some k =>
        if !marked k then
          match TableDelete heap table k with
          | none => none
          | some r => TableRemoveWhiteLoop heap marked n (i + 1) r.2
        else TableRemoveWhiteLoop heap marked n (i + 1) table

/-- Function `TableRemoveWhite(table)`. -/
def TableRemoveWhite (heap : Nat → ObjString) (marked : Nat → Bool) (table : Table) :
    Option Table :=
  TableRemoveWhiteLoop heap marked table.Capacity 0 table

/-- Function `CollectGarbage()` as far as interning sees it.  The outcome of
`MarkRoots` and `TraceReferences` is the mark bit `marked` of every object;
`TableRemoveWhite(&vm.Strings)` then deletes the unmarked keys and `Sweep`
removes the unmarked objects from `vm.Objects`. -/
def CollectGarbage (marked : Nat → Bool) (vm : VMState) : Option VMState :=
  match TableRemoveWhite vm.Heap marked vm.Strings with
  | none => none
  | some strings => some ⟨vm.Heap, strings, vm.Objects.filter marked⟩

/-- A call of `Reallocate` that grows an allocation: the collector may run
(`gc = some marked`) or not (`gc = none`). -/
def ReallocateGrow (gc : Option (Nat → Bool)) (vm : VMState) : Option VMState :=
  match gc with
  | none => some vm
  | some marked => CollectGarbage marked vm

/-- The call `TableSet(&vm.Strings, string, NIL_VAL)` inside `AllocateString`.  When
the table grows, the `ALLOCATE` at the head of `AdjustCapacity` is a growing
`Reallocate`, so the collector may run there before the entries are copied;
`string` has been pushed on the value stack, so it is marked. -/
def TableSetStrings (vm : VMState) (string : Nat) (gc : Option (Nat → Bool)) :
    Option VMState :=
  match (if 4 * (vm.Strings.Count + 1) > 3 * vm.Strings.Capacity then
      ReallocateGrow (gc.map (fun marked p => p == string || marked p)) vm
    else some vm) with
  | none => none
  | some vm1 =>
    match TableSet vm1.Heap vm1.Strings string NIL_VAL with
    | none => none
    | some r => some ⟨vm1.Heap, r.2, vm1.Objects⟩

/-- Function `AllocateString(chars, length, hash)`.  `ALLOCATE_OBJ` is a growing
`Reallocate` (collector choice `gcObj`) returning `addr`, the address of no
live object; the object is filled in, linked into `vm.Objects` and interned.
The result is the new string and the new state. -/
def AllocateString (vm : VMState) (chars : List Nat) (length hash : Nat) (addr : Nat)
    (gcObj gcTable : Option (Nat → Bool)) : Option (Nat × VMState) :=
  match ReallocateGrow gcObj vm with
  | none => none
  | some vm1 =>
    if addr ∈ vm1.Objects then none
    else
      match TableSetStrings
          ⟨fun p => if p = addr then ⟨length, chars, hash⟩ else vm1.Heap p, vm1.Strings,
            addr :: vm1.Objects⟩ addr gcTable with
      | none => none
      | some vm2 => some (addr, vm2)

/-- Function `TakeString(chars, length)`. -/
def TakeString (vm : VMState) (chars : List Nat) (length : Nat) (addr : Nat)
    (gcObj gcTable : Option (Nat → Bool)) : Option (Nat × VMState) :=
  match HashString chars length with
  | none => none
  | some hash =>
    match TableFindString vm.Heap vm.Strings chars length hash with
    | none => none
    | some (some interned) => some (interned, vm)
    | some none => AllocateString vm chars length hash addr gcObj gcTable

/-- Function `CopyString(chars, length)`: `ALLOCATE(char, length + 1)` is a growing
`Reallocate` (collector choice `gcChars`); the copy is the first `length`
bytes followed by a zero byte. -/
def CopyString (vm : VMState) (chars : List Nat) (length : Nat) (addr : Nat)
    (gcChars gcObj gcTable : Option (Nat → Bool)) : Option (Nat × VMState) :=
  match HashString chars length with
  | none => none
  | some hash =>
    match TableFindString vm.Heap vm.Strings chars length hash with
    | none => none
    | some (some interned) => some (interned, vm)
    | some none =>
      match ReallocateGrow gcChars vm with
      | none => none
      | some vm1 =>
        AllocateString vm1 (chars.take length ++ [0]) length hash addr gcObj gcTable

/-- The bytes of `"init"`. -/
def initChars : List Nat := [105, 110, 105, 116]

/-- The bytes of `"clock"`. -/
def clockChars : List Nat := [99, 108, 111, 99, 107]

/-- Function `InitVM()` as far as interning sees it: the tables are initialised, then
`CopyString("init", 4)` and, in `DefineNativeFunction`, `CopyString("clock", 5)`
run; `heap` is the content of memory at start and `addr1`, `addr2` are the
addresses the allocator returns.  No collection runs, `vm.NextGC` being
`1024 * 1024`. -/
def InitVM (heap : Nat → ObjString) (addr1 addr2 : Nat) : Option VMState :=
  match CopyString ⟨heap, InitTable, []⟩ initChars 4 addr1 none none none with
  | none => none
  | some r =>
    match CopyString r.2 clockChars 5 addr2 none none none with
    | none => none
    | some r2 => some r2.2

/-! ## Scanner (`Scanner.h`, `Scanner.cpp`)

Characters are their byte values.  The source is the NUL-terminated buffer
given to `InitScanner`, held without its terminator: reading at the end of the
list yields the terminating `0`. -/

/-- The bytes of a string literal. -/
def chars (s : String) : List Nat := s.toList.map Char.toNat

/-- The token types: `enum TokenType`. -/
inductive TokenType
  | TOKEN_LEFT_PAREN | TOKEN_RIGHT_PAREN
  | TOKEN_LEFT_BRACE | TOKEN_RIGHT_BRACE
  | TOKEN_COMMA | TOKEN_DOT | TOKEN_MINUS | TOKEN_PLUS
  | TOKEN_SEMICOLON | TOKEN_SLASH | TOKEN_STAR
  | TOKEN_BANG | TOKEN_BANG_EQUAL
  | TOKEN_EQUAL | TOKEN_EQUAL_EQUAL
  | TOKEN_GREATER | TOKEN_GREATER_EQUAL
  | TOKEN_LESS | TOKEN_LESS_EQUAL
  | TOKEN_IDENTIFIER | TOKEN_STRING | TOKEN_NUMBER
  | TOKEN_AND | TOKEN_CLASS | TOKEN_ELSE | TOKEN_FALSE
  | TOKEN_FOR | TOKEN_FUN | TOKEN_IF | TOKEN_NIL | TOKEN_OR
  | TOKEN_PRINT | TOKEN_RETURN | TOKEN_SUPER | TOKEN_THIS
  | TOKEN_TRUE | TOKEN_VAR | TOKEN_WHILE
  | TOKEN_ERROR | TOKEN_EOF
deriving DecidableEq, Repr

open TokenType

/-- A `const char*` held by a token: a position in the source buffer, or a
string literal of the program (an error message, `"this"`, `"super"`, `""`). -/
inductive CharPtr
  | src (offset : Nat)
  | lit (chars : List Nat)
deriving DecidableEq, Repr

/-- A token: `struct Token` (`Type_` is its field `Type`). -/
structure Token where
  Type_ : TokenType
  Start : CharPtr
  Length : Nat
  Line : Nat
deriving DecidableEq, Repr

/-- The scanner: `struct Scanner`, with the buffer its pointers point into;
`Start` and `Current` are offsets into `Source`. -/
structure Scanner where
  Source : List Nat
  Start : Nat
  Current : Nat
  line : Nat
deriving DecidableEq, Repr

/-- Function `InitScanner(source)`. -/
def InitScanner (source : List Nat) : Scanner := ⟨source, 0, 0, 1⟩

/-- The character at offset `i` of the buffer; the terminator reads as 0. -/
def Scanner.charAt (sc : Scanner) (i : Nat) : Nat := sc.Source.getD i 0

/-- Scanner function `Advance()`: the consumed character and the new state. -/
def Scanner.Advance (sc : Scanner) : Nat × Scanner :=
  (sc.charAt sc.Current, { sc with Current := sc.Current + 1 })

/-- Scanner function `IsAtEnd()`. -/
def Scanner.IsAtEnd (sc : Scanner) : Bool := sc.charAt sc.Current == 0

/-- Scanner function `Peek()`. -/
def Scanner.Peek (sc : Scanner) : Nat := sc.charAt sc.Current

/-- Scanner function `PeekNext()`. -/
def Scanner.PeekNext (sc : Scanner) : Nat :=
  if sc.IsAtEnd then 0 else sc.charAt (sc.Current + 1)

/-- Function `IsAlpha(c)`: `a`..`z`, `A`..`Z` or `_`. -/
def IsAlpha (c : Nat) : Bool :=
  (97 ≤ c && c ≤ 122) || (65 ≤ c && c ≤ 90) || c == 95

/-- Function `IsDigit(c)`: `0`..`9`. -/
def IsDigit (c : Nat) : Bool := 48 ≤ c && c ≤ 57

/-- Function `MakeToken(type)`. -/
def Scanner.MakeToken (sc : Scanner) (type : TokenType) : Token :=
  ⟨type, CharPtr.src sc.Start, sc.Current - sc.Start, sc.line⟩

/-- Function `ErrorToken(message)`. -/
def Scanner.ErrorToken (sc : Scanner) (message : String) : Token :=
  ⟨TOKEN_ERROR, CharPtr.lit (chars message), (chars message).length, sc.line⟩

/-- The loop `while (IsDigit(Peek())) Advance();` of `Number`; one unit of
fuel per test of the condition. -/
def Scanner.SkipDigits : Nat → Scanner → Option Scanner
  | 0, _ => none
  | fuel + 1, sc =>
    if IsDigit sc.Peek then Scanner.SkipDigits fuel sc.Advance.2 else some sc

/-- The fuel the scanner loops are run with: they consume one character per
iteration and stop at the terminator at the latest. -/
def Scanner.fuel (sc : Scanner) : Nat := sc.Source.length + 1 - sc.Current

/-- Function `Number()`. -/
def Scanner.Number (sc : Scanner) : Option (Token × Scanner) :=
  match Scanner.SkipDigits sc.fuel sc with
  | none => none
  | some sc1 =>
    if sc1.Peek == 46 /- . -/ && IsDigit sc1.PeekNext then
      match Scanner.SkipDigits sc1.Advance.2.fuel sc1.Advance.2 with
      | none => none
      | some sc2 => some (sc2.MakeToken TOKEN_NUMBER, sc2)
    else some (sc1.MakeToken TOKEN_NUMBER, sc1)

/-- Scanner function `Match(expected)`. -/
def Scanner.Match (sc : Scanner) (expected : Nat) : Bool × Scanner :=
  if sc.IsAtEnd then (false, sc)
  else if sc.charAt sc.Current ≠ expected then (false, sc)
  else (true, { sc with Current := sc.Current + 1 })

/-- The loop `while (Peek() != '\n' && !IsAtEnd()) Advance();` that skips a
comment in `SkipWhiteSpace`. -/
def Scanner.SkipComment : Nat → Scanner → Option Scanner
  | 0, _ => none
  | fuel + 1, sc =>
    if sc.Peek ≠ 10 ∧ ¬ sc.IsAtEnd then Scanner.SkipComment fuel sc.Advance.2 else some sc

/-- The `for (;;)` loop of `SkipWhiteSpace`. -/
def Scanner.SkipWhiteSpaceLoop : Nat → Scanner → Option Scanner
  | 0, _ => none
  | fuel + 1, sc =>
    match sc.Peek with
    | 32 /- space -/ => Scanner.SkipWhiteSpaceLoop fuel sc.Advance.2
    | 13 /- \r -/ => Scanner.SkipWhiteSpaceLoop fuel sc.Advance.2
    | 9 /- \t -/ => Scanner.SkipWhiteSpaceLoop fuel sc.Advance.2
    | 10 /- \n -/ =>
      Scanner.SkipWhiteSpaceLoop fuel ({ sc with line := sc.line + 1 }).Advance.2
    | 47 /- / -/ =>
      if sc.PeekNext == 47 then
        match Scanner.SkipComment sc.fuel sc with
        | none => none
        | some sc1 => Scanner.SkipWhiteSpaceLoop fuel sc1
      else some sc
    | _ => some sc

/-- Function `SkipWhiteSpace()`. -/
def Scanner.SkipWhiteSpace (sc : Scanner) : Option Scanner :=
  Scanner.SkipWhiteSpaceLoop sc.fuel sc

/-- The loop of `String`: runs to the closing quote or the terminator,
counting newlines. -/
def Scanner.StringLoop : Nat → Scanner → Option Scanner
  | 0, _ => none
  | fuel + 1, sc =>
    if sc.Peek ≠ 34 ∧ ¬ sc.IsAtEnd then
      Scanner.StringLoop fuel
        (if sc.Peek == 10 then { sc with line := sc.line + 1 } else sc).Advance.2
    else some sc

/-- Function `String()`. -/
def Scanner.String (sc : Scanner) : Option (Token × Scanner) :=
  match Scanner.StringLoop sc.fuel sc with
  | none => none
  | some sc1 =>
    if sc1.IsAtEnd then some (sc1.ErrorToken "Unterminated string.", sc1)
    else some (sc1.Advance.2.MakeToken TOKEN_STRING, sc1.Advance.2)

/-- Function `CheckKeyword(start, length, rest, type)`. -/
def Scanner.CheckKeyword (sc : Scanner) (start length : Nat) (rest : List Nat)
    (type : TokenType) : TokenType :=
  if sc.Current - sc.Start = start + length ∧
      (sc.Source.drop (sc.Start + start)).take length = rest.take length then type
  else TOKEN_IDENTIFIER

/-- Function `IndentifierType()`: the keyword trie. -/
def Scanner.IndentifierType (sc : Scanner) : TokenType :=
  match sc.charAt sc.Start with
  | 97 /- a -/ => sc.CheckKeyword 1 2 [110, 100] TOKEN_AND
  | 99 /- c -/ => sc.CheckKeyword 1 4 [108, 97, 115, 115] TOKEN_CLASS
  | 101 /- e -/ => sc.CheckKeyword 1 3 [108, 115, 101] TOKEN_ELSE
  | 102 /- f -/ =>
    if sc.Current - sc.Start > 1 then
      match sc.charAt (sc.Start + 1) with
      | 97 /- a -/ => sc.CheckKeyword 2 3 [108, 115, 101] TOKEN_FALSE
      | 111 /- o -/ => sc.CheckKeyword 2 1 [114] TOKEN_FOR
      | 117 /- u -/ => sc.CheckKeyword 2 1 [110] TOKEN_FUN
      | _ => TOKEN_IDENTIFIER
    else TOKEN_IDENTIFIER
  | 105 /- i -/ => sc.CheckKeyword 1 1 [102] TOKEN_IF
  | 110 /- n -/ => sc.CheckKeyword 1 2 [105, 108] TOKEN_NIL
  | 111 /- o -/ => sc.CheckKeyword 1 1 [114] TOKEN_OR
  | 112 /- p -/ => sc.CheckKeyword 1 4 [114, 105, 110, 116] TOKEN_PRINT
  | 114 /- r -/ => sc.CheckKeyword 1 5 [101, 116, 117, 114, 110] TOKEN_RETURN
  | 115 /- s -/ => sc.CheckKeyword 1 4 [117, 112, 101, 114] TOKEN_SUPER
  | 116 /- t -/ =>
    if sc.Current - sc.Start > 1 then
      match sc.charAt (sc.Start + 1) with
      | 104 /- h -/ => sc.CheckKeyword 2 2 [105, 115] TOKEN_THIS
      | 114 /- r -/ => sc.CheckKeyword 2 2 [117, 101] TOKEN_TRUE
      | _ => TOKEN_IDENTIFIER
    else TOKEN_IDENTIFIER
  | 118 /- v -/ => sc.CheckKeyword 1 2 [97, 114] TOKEN_VAR
  | 119 /- w -/ => sc.CheckKeyword 1 4 [104, 105, 108, 101] TOKEN_WHILE
  | _ => TOKEN_IDENTIFIER

/-- The loop `while (IsAlpha(Peek()) || IsDigit(Peek())) Advance();` of
`Identifier`. -/
def Scanner.SkipIdentifier : Nat → Scanner → Option Scanner
  | 0, _ => none
  | fuel + 1, sc =>
    if IsAlpha sc.Peek || IsDigit sc.Peek then Scanner.SkipIdentifier fuel sc.Advance.2
    else some sc

/-- Function `Identifier()`. -/
def Scanner.Identifier (sc : Scanner) : Option (Token × Scanner) :=
  match Scanner.SkipIdentifier sc.fuel sc with
  | none => none
  | some sc1 => some (sc1.MakeToken sc1.IndentifierType, sc1)

/-- Function `ScanToken()`: the token and the new scanner state. -/
def ScanToken (sc0 : Scanner) : Option (Token × Scanner) :=
  match sc0.SkipWhiteSpace with
  | none => none
  | some sc1 =>
    let sc : Scanner := { sc1 with Start := sc1.Current }
    if sc.IsAtEnd then some (sc.MakeToken TOKEN_EOF, sc)
    else
      let c := sc.Advance.1
      let sc2 := sc.Advance.2
      if IsAlpha c then sc2.Identifier
      else if IsDigit c then sc2.Number
      else
        match c with
        | 40 /- ( -/ => some (sc2.MakeToken TOKEN_LEFT_PAREN, sc2)
        | 41 /- ) -/ => some (sc2.MakeToken TOKEN_RIGHT_PAREN, sc2)
        | 123 /- left brace -/ => some (sc2.MakeToken TOKEN_LEFT_BRACE, sc2)
        | 125 /- right brace -/ => some (sc2.MakeToken TOKEN_RIGHT_BRACE, sc2)
        | 59 /- ; -/ => some (sc2.MakeToken TOKEN_SEMICOLON, sc2)
        | 44 /- , -/ => some (sc2.MakeToken TOKEN_COMMA, sc2)
        | 46 /- . -/ => some (sc2.MakeToken TOKEN_DOT, sc2)
        | 45 /- - -/ => some (sc2.MakeToken TOKEN_MINUS, sc2)
        | 43 /- + -/ => some (sc2.MakeToken TOKEN_PLUS, sc2)
        | 47 /- / -/ => some (sc2.MakeToken TOKEN_SLASH, sc2)
        | 42 /- * -/ => some (sc2.MakeToken TOKEN_STAR, sc2)
        | 33 /- ! -/ =>
          some ((sc2.Match 61).2.MakeToken
            (if (sc2.Match 61).1 then TOKEN_BANG_EQUAL else TOKEN_BANG), (sc2.Match 61).2)
        | 61 /- = -/ =>
          some ((sc2.Match 61).2.MakeToken
            (if (sc2.Match 61).1 then TOKEN_EQUAL_EQUAL else TOKEN_EQUAL), (sc2.Match 61).2)
        | 60 /- < -/ =>
          some ((sc2.Match 61).2.MakeToken
            (if (sc2.Match 61).1 then TOKEN_LESS_EQUAL else TOKEN_LESS), (sc2.Match 61).2)
        | 62 /- > -/ =>
          some ((sc2.Match 61).2.MakeToken
            (if (sc2.Match 61).1 then TOKEN_GREATER_EQUAL else TOKEN_GREATER),
            (sc2.Match 61).2)
        | 34 /- double quote -/ => sc2.String
        | _ => some (sc2.ErrorToken "Unexpected character.", sc2)

/-! ## Chunks (`Chunk.h`, `Chunk.cpp`)

The dynamic arrays of a chunk are lists; `Count` is the length of `Code`, and
the capacities, which only govern reallocation, are not represented. -/

namespace OpCode
/-! The values of `enum OpCodes`, in the order of declaration. -/
def OP_CONSTANT : Nat := 0
def OP_NIL : Nat := 1
def OP_TRUE : Nat := 2
def OP_FALSE : Nat := 3
def OP_POP : Nat := 4
def OP_GET_LOCAL : Nat := 5
def OP_SET_LOCAL : Nat := 6
def OP_GET_GLOBAL : Nat := 7
def OP_DEFINE_GLOBAL : Nat := 8
def OP_SET_GLOBAL : Nat := 9
def OP_GET_UPVALUE : Nat := 10
def OP_SET_UPVALUE : Nat := 11
def OP_GET_PROPERTY : Nat := 12
def OP_SET_PROPERTY : Nat := 13
def OP_GET_SUPER : Nat := 14
def OP_EQUAL : Nat := 15
def OP_GREATER : Nat := 16
def OP_LESS : Nat := 17
def OP_ADD : Nat := 18
def OP_SUBTRACT : Nat := 19
def OP_MULTIPLY : Nat := 20
def OP_DIVIDE : Nat := 21
def OP_NOT : Nat := 22
def OP_NEGATE : Nat := 23
def OP_PRINT : Nat := 24
def OP_JUMP : Nat := 25
def OP_JUMP_IF_FALSE : Nat := 26
def OP_LOOP : Nat := 27
def OP_CALL : Nat := 28
def OP_INVOKE : Nat := 29
def OP_SUPER_INVOKE : Nat := 30
def OP_CLOSURE : Nat := 31
def OP_CLOSE_UPVALUE : Nat := 32
def OP_RETURN : Nat := 33
def OP_CLASS : Nat := 34
def OP_INHERIT : Nat := 35
def OP_METHOD : Nat := 36
end OpCode

/-- A chunk of bytecode: `struct Chunk`. -/
structure Chunk where
  Code : List Nat
  Lines : List Nat
  Constants : List Value

/-- Function `InitChunk`. -/
def InitChunk : Chunk := ⟨[], [], []⟩

/-- The field `Count` of a chunk. -/
def Chunk.Count (chunk : Chunk) : Nat := chunk.Code.length

/-- Function `WriteChunk(chunk, byte, line)`. -/
def WriteChunk (chunk : Chunk) (byte line : Nat) : Chunk :=
  { chunk with Code := chunk.Code ++ [byte], Lines := chunk.Lines ++ [line] }

/-- Function `AddConstant(chunk, value)`: the index of the new constant and
the chunk.  The `Push`/`Pop` pair around the write only keeps the value
visible to the collector. -/
def AddConstant (chunk : Chunk) (value : Value) : Nat × Chunk :=
  ((chunk.Constants ++ [value]).length - 1,
   { chunk with Constants := chunk.Constants ++ [value] })

/-! ## Compiler (`Compiler.cpp`) -/

def UINT8_MAX : Nat := 255
def UINT8_COUNT : Nat := UINT8_MAX + 1
def UINT16_MAX : Nat := 65535

/-- The parser: `struct Parser`. -/
structure Parser where
  Current : Token
  Previous : Token
  HadError : Bool
  PanicMode : Bool

/-- The precedence levels, `enum Precedence`, as their values. -/
abbrev Precedence := Nat

def PREC_NONE : Precedence := 0
def PREC_ASSIGNMENT : Precedence := 1
def PREC_OR : Precedence := 2
def PREC_AND : Precedence := 3
def PREC_EQUALITY : Precedence := 4
def PREC_COMPARISON : Precedence := 5
def PREC_TERM : Precedence := 6
def PREC_FACTOR : Precedence := 7
def PREC_UNARY : Precedence := 8
def PREC_CALL : Precedence := 9
def PREC_PRIMARY : Precedence := 10

/-- The parse functions a `ParseRule` can point to (`ParseFunction` pointers). -/
inductive ParseFunction
  | ParseGroupingExpression | ParseCallExpression | ParseDotExpression
  | ParseUnaryExpression | ParseBinaryExpression | ParseVariableExpression
  | ParseStringExpression | ParseNumberExpression | ParseAnd_ | ParseOr_
  | ParseLiteralExpression | ParseSuperExpression | ParseThisExpression
deriving DecidableEq, Repr

/-- A row of the rule table: `struct ParseRule`; `none` is a `NULL` pointer. -/
structure ParseRule where
  Prefix : Option ParseFunction
  Infix : Option ParseFunction
  Precedence : Precedence

/-- A local variable: `struct Local`. -/
structure Local where
  Name : Token
  Depth : Int
  IsCaptured : Bool

/-- A captured variable: `struct UpValue`. -/
structure UpValue where
  Index : Nat
  IsLocal : Bool

/-- The kinds of function being compiled: `enum FunctionType`. -/
inductive FunctionType
  | TYPE_FUNCTION | TYPE_INITIALIZER | TYPE_METHOD | TYPE_SCRIPT
deriving DecidableEq, Repr

open FunctionType

/-- A function object: `struct ObjFunction`; `Name` is `none` for `NULL`. -/
structure ObjFunction where
  Arity : Nat
  UpValueCount : Nat
  Chunk : Chunk
  Name : Option Nat

/-- A compiler: `struct Compiler`.  The function object it points to is held
with it (`Function`) next to its address (`FunctionAddr`); `Locals` is the
first `LocalCount` entries of the array, so `LocalCount` is its length, and
`UpValues` the first `Function.UpValueCount` entries; `Enclosing` is the rest
of the list the compiler stands in.  `Type_` is the field `Type`. -/
structure Compiler where
  FunctionAddr : Nat
  Function : ObjFunction
  Type_ : FunctionType
  Locals : List Local
  UpValues : List UpValue
  ScopeDepth : Int

/-- Field `LocalCount` of a compiler. -/
def Compiler.LocalCount (c : Compiler) : Nat := c.Locals.length

/-- A class being compiled: `struct ClassCompiler`. -/
structure ClassCompiler where
  HasSuperClass : Bool

/-- What the compiler takes from its environment: the addresses the allocator
hands out (`alloc k` for the `k`-th object) and the C library function
`strtod`, from the text at a pointer to the bits of the `double`. -/
structure CompileEnv where
  alloc : Nat → Nat
  strtod : List Nat → Value

/-- The global state of `Compiler.cpp` and what it shares with the rest of the
program: the scanner, `parser`, the chain of compilers from `current` outwards
(`[]` for `NULL`), the chain of class compilers from `currentClass` outwards,
the heap with the string table, the function objects whose compilation has
ended, the number of objects allocated so far, and the diagnostics written to
`stderr`, each as the token and the message given to `ErrorAt`. -/
structure CompileState where
  scanner : Scanner
  parser : Parser
  current : List Compiler
  currentClass : List ClassCompiler
  vm : VMState
  Functions : List (Nat × ObjFunction)
  Allocs : Nat
  stderr : List (Token × List Nat)

/-- The NUL-terminated text a `const char*` points to (without the NUL). -/
def CharPtr.read (source : List Nat) : CharPtr → List Nat
  | CharPtr.src offset => source.drop offset
  | CharPtr.lit cs => cs

/-- The text at the start of a token, in the source buffer of the scanner. -/
def CompileState.textAt (st : CompileState) (t : Token) : List Nat :=
  t.Start.read st.scanner.Source

/-- Function `CurrentChunk()`; `none` when `current` is `NULL`. -/
def CurrentChunk (st : CompileState) : Option Chunk :=
  match st.current with
  | [] => none
  | c :: _ => some c.Function.Chunk

/-- Assignment through `CurrentChunk()`. -/
def setCurrentChunk (st : CompileState) (chunk : Chunk) : Option CompileState :=
  match st.current with
  | [] => none
  | c :: cs =>
    some { st with current := { c with Function := { c.Function with Chunk := chunk } } :: cs }

/-- Function `ErrorAt(token, message)`. -/
def ErrorAt (token : Token) (message : List Nat) (st : CompileState) : CompileState :=
  if st.parser.PanicMode then st
  else
    { st with
      parser := { st.parser with PanicMode := true, HadError := true }
      stderr := st.stderr ++ [(token, message)] }

/-- Function `Error(message)`. -/
def Error (message : List Nat) (st : CompileState) : CompileState :=
  ErrorAt st.parser.Previous message st

/-- Function `ErrorAtCurrent(message)`. -/
def ErrorAtCurrent (message : List Nat) (st : CompileState) : CompileState :=
  ErrorAt st.parser.Current message st

/-- The `for (;;)` loop of the compiler function `Advance`. -/
def AdvanceLoop : Nat → CompileState → Option CompileState
  | 0, _ => none
  | fuel + 1, st =>
    match ScanToken st.scanner with
    | none => none
    | some (token, sc) =>
      let st1 : CompileState :=
        { st with scanner := sc, parser := { st.parser with Current := token } }
      if token.Type_ ≠ TOKEN_ERROR then some st1
      else AdvanceLoop fuel (ErrorAtCurrent (st1.textAt token) st1)

/-- Compiler function `Advance()`.  Every error token consumes a character, so
the loop is run with the scanner's fuel. -/
def Advance (st : CompileState) : Option CompileState :=
  AdvanceLoop st.scanner.fuel { st with parser := { st.parser with Previous := st.parser.Current } }

/-- Function `Consume(type, message)`. -/
def Consume (type : TokenType) (message : List Nat) (st : CompileState) :
    Option CompileState :=
  if st.parser.Current.Type_ = type then Advance st
  else some (ErrorAtCurrent message st)

/-- Function `Check(type)`. -/
def Check (type : TokenType) (st : CompileState) : Bool :=
  st.parser.Current.Type_ = type

/-- Compiler function `Match(type)`. -/
def Match (type : TokenType) (st : CompileState) : Option (Bool × CompileState) :=
  if ¬ Check type st then some (false, st)
  else (Advance st).map (fun st1 => (true, st1))

/-- Function `EmitByte(byte)`; the argument is converted to `uint8_t`. -/
def EmitByte (byte : Nat) (st : CompileState) : Option CompileState :=
  match CurrentChunk st with
  | none => none
  | some chunk => setCurrentChunk st (WriteChunk chunk (byte % 256) st.parser.Previous.Line)

/-- Function `EmitBytes(byte1, byte2)`. -/
def EmitBytes (byte1 byte2 : Nat) (st : CompileState) : Option CompileState :=
  (EmitByte byte1 st).bind (EmitByte byte2)

/-- Function `EmitLoop(loopStart)`. -/
def EmitLoop (loopStart : Nat) (st : CompileState) : Option CompileState := do
  let st1 ← EmitByte OpCode.OP_LOOP st
  let chunk ← CurrentChunk st1
  let offset := chunk.Count - loopStart + 2
  let st2 :=
    if offset > UINT16_MAX then
      Error (chars "Loop body contains too many instructions to jump over.") st1
    else st1
  let st3 ← EmitByte ((offset >>> 8) &&& 0xff) st2
  EmitByte (offset &&& 0xff) st3

/-- Function `EmitJump(instruction)`: the offset of the operand and the state. -/
def EmitJump (instruction : Nat) (st : CompileState) : Option (Nat × CompileState) := do
  let st1 ← EmitByte instruction st
  let st2 ← EmitByte 0xff st1
  let st3 ← EmitByte 0xff st2
  let chunk ← CurrentChunk st3
  some (chunk.Count - 2, st3)

/-- Function `EmitReturn()`. -/
def EmitReturn (st : CompileState) : Option CompileState :=
  match st.current with
  | [] => none
  | c :: _ =>
    (if c.Type_ = TYPE_INITIALIZER then EmitBytes OpCode.OP_GET_LOCAL 0 st
     else EmitByte OpCode.OP_NIL st).bind (EmitByte OpCode.OP_RETURN)

/-- Function `MakeConstant(value)`: the operand byte and the state. -/
def MakeConstant (value : Value) (st : CompileState) : Option (Nat × CompileState) := do
  let chunk ← CurrentChunk st
  let st1 ← setCurrentChunk st (AddConstant chunk value).2
  let constant := (AddConstant chunk value).1
  if constant > UINT8_MAX then
    some (0, Error (chars "Cannot add any more constants in this bytecode chunk.") st1)
  else some (constant % 256, st1)

/-- Function `EmitConstant(value)`. -/
def EmitConstant (value : Value) (st : CompileState) : Option CompileState := do
  let (constant, st1) ← MakeConstant value st
  EmitBytes OpCode.OP_CONSTANT constant st1

/-- Function `PatchJump(offset)`.  The two operand bytes at `offset` lie in the
written code: `offset` is a value returned by `EmitJump` on this chunk. -/
def PatchJump (offset : Nat) (st : CompileState) : Option CompileState := do
  let chunk ← CurrentChunk st
  if chunk.Count < offset + 2 then none
  else
    let jump := chunk.Count - offset - 2
    let st1 := if jump > UINT16_MAX then Error (chars "Too much code to jump over.") st else st
    setCurrentChunk st1
      { chunk with
        Code := (chunk.Code.set offset ((jump >>> 8) &&& 0xff)).set (offset + 1) (jump &&& 0xff) }

/-- Function `NewFunction()`: the allocator returns `env.alloc st.Allocs`, the
address of no live object; the collector does not run (`vm.BytesAllocated`
stays below `vm.NextGC` during compilation). -/
def NewFunction (env : CompileEnv) (st : CompileState) : Option (Nat × CompileState) :=
  if env.alloc st.Allocs ∈ st.vm.Objects then none
  else
    some (env.alloc st.Allocs,
      { st with
        vm := { st.vm with Objects := env.alloc st.Allocs :: st.vm.Objects }
        Allocs := st.Allocs + 1 })

/-- A call `CopyString(text, length)` from the compiler: the allocator would
return `env.alloc st.Allocs`, and the collector does not run. -/
def CopyStringAt (env : CompileEnv) (text : List Nat) (length : Nat) (st : CompileState) :
    Option (Nat × CompileState) :=
  match CopyString st.vm text length (env.alloc st.Allocs) none none none with
  | none => none
  | some (string, vm) => some (string, { st with vm := vm, Allocs := st.Allocs + 1 })

/-- Function `SyntheticToken(text)`; the fields `Type` and `Line` are not set by
the source, and never read. -/
def SyntheticToken (text : List Nat) : Token :=
  ⟨TOKEN_LEFT_PAREN, CharPtr.lit text, text.length, 0⟩

/-- Function `InitCompiler(compiler, type)`: the new compiler becomes `current`.
Slot 0 of the locals is named `this` except in a plain function. -/
def InitCompiler (env : CompileEnv) (type : FunctionType) (st : CompileState) :
    Option CompileState := do
  let (addr, st1) ← NewFunction env st
  let (name, st2) ←
    if type ≠ TYPE_SCRIPT then
      (CopyStringAt env (st1.textAt st1.parser.Previous) st1.parser.Previous.Length st1).map
        (fun r => (some r.1, r.2))
    else some (none, st1)
  let local0 : Local :=
    ⟨SyntheticToken (if type ≠ TYPE_FUNCTION then chars "this" else []), 0, false⟩
  some { st2 with
    current := ⟨addr, ⟨0, 0, InitChunk, name⟩, type, [local0], [], 0⟩ :: st2.current }

/-- Function `EndCompiler()`: the compiler that ends (with the finished function
and its address) and the state, in which `current` is the enclosing compiler
and the function object is recorded. -/
def EndCompiler (st : CompileState) : Option (Compiler × CompileState) := do
  let st1 ← EmitReturn st
  match st1.current with
  | [] => none
  | c :: cs =>
    some (c, { st1 with current := cs, Functions := (c.FunctionAddr, c.Function) :: st1.Functions })

/-- Function `BeginScope()`. -/
def BeginScope (st : CompileState) : Option CompileState :=
  match st.current with
  | [] => none
  | c :: cs => some { st with current := { c with ScopeDepth := c.ScopeDepth + 1 } :: cs }

/-- The loop of `EndScope`: one instruction for every local of the scope that ends. -/
def EndScopeLoop : Nat → CompileState → Option CompileState
  | 0, _ => none
  | fuel + 1, st =>
    match st.current with
    | [] => none
    | c :: _ =>
      match c.Locals.getLast? with
      | none => some st
      | some l =>
        if l.Depth > c.ScopeDepth then
          match (if l.IsCaptured then EmitByte OpCode.OP_CLOSE_UPVALUE st
                 else EmitByte OpCode.OP_POP st) with
          | none => none
          | some st1 =>
            match st1.current with
            | [] => none
            | c1 :: cs1 =>
              EndScopeLoop fuel { st1 with current := { c1 with Locals := c1.Locals.dropLast } :: cs1 }
        else some st

/-- Function `EndScope()`. -/
def EndScope (st : CompileState) : Option CompileState :=
  match st.current with
  | [] => none
  | c :: cs =>
    EndScopeLoop (c.Locals.length + 1)
      { st with current := { c with ScopeDepth := c.ScopeDepth - 1 } :: cs }

/-- Function `IdentifierConstant(name)`. -/
def IdentifierConstant (env : CompileEnv) (name : Token) (st : CompileState) :
    Option (Nat × CompileState) := do
  let (string, st1) ← CopyStringAt env (st.textAt name) name.Length st
  MakeConstant (OBJ_VAL string) st1

/-- Function `IdentifiersEqual(a, b)`. -/
def IdentifiersEqual (source : List Nat) (a b : Token) : Bool :=
  if a.Length ≠ b.Length then false
  else (a.Start.read source).take a.Length = (b.Start.read source).take a.Length

/-- The loop of `ResolveLocal` with `i + 1 = n`: the index of the innermost
local with the name and whether its `Depth` is `-1`, or `none`. -/
def ResolveLocalLoop (source : List Nat) (locals : List Local) (name : Token) :
    Nat → Option (Nat × Bool)
  | 0 => none
  | i + 1 =>
    match locals[i]? with
    | none => ResolveLocalLoop source locals name i
    | some l =>
      if IdentifiersEqual source name l.Name then some (i, l.Depth == -1)
      else ResolveLocalLoop source locals name i

/-- Function `ResolveLocal(compiler, name)`: the slot or `-1`, and the state. -/
def ResolveLocal (compiler : Compiler) (name : Token) (st : CompileState) :
    Int × CompileState :=
  match ResolveLocalLoop st.scanner.Source compiler.Locals name compiler.LocalCount with
  | none => (-1, st)
  | some (i, uninitialized) =>
    (i,
     if uninitialized then
       Error (chars "You can\x27t read a local variable in its own initializer.") st
     else st)

/-- The search loop of `AddUpValue`, from index `i` over the entries that follow. -/
def AddUpValueFind (index : Nat) (isLocal : Bool) : List UpValue → Nat → Option Nat
  | [], _ => none
  | u :: us, i =>
    if u.Index = index ∧ u.IsLocal = isLocal then some i
    else AddUpValueFind index isLocal us (i + 1)

/-- Function `AddUpValue(compiler, index, isLocal)`: the result, the compiler
and the state. -/
def AddUpValue (compiler : Compiler) (index : Nat) (isLocal : Bool) (st : CompileState) :
    Int × Compiler × CompileState :=
  match AddUpValueFind index isLocal (compiler.UpValues.take compiler.Function.UpValueCount) 0
    with
  | some i => (i, compiler, st)
  | none =>
    if compiler.Function.UpValueCount = UINT8_COUNT then
      (0, compiler, Error (chars "Too many closure variables in function.") st)
    else
      (compiler.Function.UpValueCount,
       { compiler with
         UpValues := compiler.UpValues.take compiler.Function.UpValueCount ++ [⟨index, isLocal⟩]
         Function :=
           { compiler.Function with UpValueCount := compiler.Function.UpValueCount + 1 } },
       st)

/-- Function `ResolveUpValue(compiler, name)` on the chain that starts at
`compiler`: the result, the chain and the state. -/
def ResolveUpValue (name : Token) :
    List Compiler → CompileState → Int × List Compiler × CompileState
  | [], st => (-1, [], st)
  | compiler :: chain, st =>
    match chain with
    | [] => (-1, [compiler], st)
    | enclosing :: rest =>
      if (ResolveLocal enclosing name st).1 ≠ -1 then
        let r := AddUpValue compiler ((ResolveLocal enclosing name st).1.toNat % 256) true
          (ResolveLocal enclosing name st).2
        (r.1, r.2.1 ::
          { enclosing with
            Locals := enclosing.Locals.modify (fun l => { l with IsCaptured := true })
              (ResolveLocal enclosing name st).1.toNat } :: rest, r.2.2)
      else
        let up := ResolveUpValue name chain (ResolveLocal enclosing name st).2
        if up.1 ≠ -1 then
          let r := AddUpValue compiler (up.1.toNat % 256) false up.2.2
          (r.1, r.2.1 :: up.2.1, r.2.2)
        else (-1, compiler :: up.2.1, up.2.2)

/-- Function `AddLocal(name)`. -/
def AddLocal (name : Token) (st : CompileState) : Option CompileState :=
  match st.current with
  | [] => none
  | c :: cs =>
    if c.LocalCount = UINT8_COUNT then
      some (Error (chars "There are too many local variables in this function.") st)
    else some { st with current := { c with Locals := c.Locals ++ [⟨name, -1, false⟩] } :: cs }

/-- The loop of `DeclareVariable` with `i + 1 = n`: over the locals of the
current scope, an error for each one that has the name. -/
def DeclareVariableLoop (name : Token) (locals : List Local) (scopeDepth : Int) :
    Nat → CompileState → CompileState
  | 0, st => st
  | i + 1, st =>
    match locals[i]? with
    | none => st
    | some l =>
      if l.Depth ≠ -1 ∧ l.Depth < scopeDepth then st
      else
        DeclareVariableLoop name locals scopeDepth i
          (if IdentifiersEqual st.scanner.Source name l.Name then
            Error (chars "There is already a variable with this name in this scope.") st
           else st)

/-- Function `DeclareVariable()`. -/
def DeclareVariable (st : CompileState) : Option CompileState :=
  match st.current with
  | [] => none
  | c :: _ =>
    if c.ScopeDepth = 0 then some st
    else
      AddLocal st.parser.Previous
        (DeclareVariableLoop st.parser.Previous c.Locals c.ScopeDepth c.LocalCount st)

/-- Function `MarkInitialized()`. -/
def MarkInitialized (st : CompileState) : Option CompileState :=
  match st.current with
  | [] => none
  | c :: cs =>
    if c.ScopeDepth = 0 then some st
    else
      some { st with
        current :=
          { c with
            Locals := c.Locals.modify (fun l => { l with Depth := c.ScopeDepth })
              (c.LocalCount - 1) } :: cs }

/-- Function `DefineVariable(global)`. -/
def DefineVariable (global : Nat) (st : CompileState) : Option CompileState :=
  match st.current with
  | [] => none
  | c :: _ =>
    if c.ScopeDepth > 0 then MarkInitialized st
    else EmitBytes OpCode.OP_DEFINE_GLOBAL global st

/-- Function `ParseVariable(errorMessage)`. -/
def ParseVariable (env : CompileEnv) (errorMessage : List Nat) (st : CompileState) :
    Option (Nat × CompileState) := do
  let st1 ← Consume TOKEN_IDENTIFIER errorMessage st
  let st2 ← DeclareVariable st1
  match st2.current with
  | [] => none
  | c :: _ =>
    if c.ScopeDepth > 0 then some (0, st2)
    else IdentifierConstant env st2.parser.Previous st2

/-- The rule table `rules[]` read through `GetRule(type)`. -/
def GetRule : TokenType → ParseRule
  | TOKEN_LEFT_PAREN =>
    ⟨some ParseFunction.ParseGroupingExpression, some ParseFunction.ParseCallExpression, PREC_CALL⟩
  | TOKEN_RIGHT_PAREN => ⟨none, none, PREC_NONE⟩
  | TOKEN_LEFT_BRACE => ⟨none, none, PREC_NONE⟩
  | TOKEN_RIGHT_BRACE => ⟨none, none, PREC_NONE⟩
  | TOKEN_COMMA => ⟨none, none, PREC_NONE⟩
  | TOKEN_DOT => ⟨none, some ParseFunction.ParseDotExpression, PREC_CALL⟩
  | TOKEN_MINUS =>
    ⟨some ParseFunction.ParseUnaryExpression, some ParseFunction.ParseBinaryExpression, PREC_TERM⟩
  | TOKEN_PLUS => ⟨none, some ParseFunction.ParseBinaryExpression, PREC_TERM⟩
  | TOKEN_SEMICOLON => ⟨none, none, PREC_NONE⟩
  | TOKEN_SLASH => ⟨none, some ParseFunction.ParseBinaryExpression, PREC_FACTOR⟩
  | TOKEN_STAR => ⟨none, some ParseFunction.ParseBinaryExpression, PREC_FACTOR⟩
  | TOKEN_BANG => ⟨some ParseFunction.ParseUnaryExpression, none, PREC_NONE⟩
  | TOKEN_BANG_EQUAL => ⟨none, some ParseFunction.ParseBinaryExpression, PREC_EQUALITY⟩
  | TOKEN_EQUAL => ⟨none, none, PREC_NONE⟩
  | TOKEN_EQUAL_EQUAL => ⟨none, some ParseFunction.ParseBinaryExpression, PREC_EQUALITY⟩
  | TOKEN_GREATER => ⟨none, some ParseFunction.ParseBinaryExpression, PREC_COMPARISON⟩
  | TOKEN_GREATER_EQUAL => ⟨none, some ParseFunction.ParseBinaryExpression, PREC_COMPARISON⟩
  | TOKEN_LESS => ⟨none, some ParseFunction.ParseBinaryExpression, PREC_COMPARISON⟩
  | TOKEN_LESS_EQUAL => ⟨none, some ParseFunction.ParseBinaryExpression, PREC_COMPARISON⟩
  | TOKEN_IDENTIFIER => ⟨some ParseFunction.ParseVariableExpression, none, PREC_NONE⟩
  | TOKEN_STRING => ⟨some ParseFunction.ParseStringExpression, none, PREC_NONE⟩
  | TOKEN_NUMBER => ⟨some ParseFunction.ParseNumberExpression, none, PREC_NONE⟩
  | TOKEN_AND => ⟨none, some ParseFunction.ParseAnd_, PREC_AND⟩
  | TOKEN_CLASS => ⟨none, none, PREC_NONE⟩
  | TOKEN_ELSE => ⟨none, none, PREC_NONE⟩
  | TOKEN_FALSE => ⟨some ParseFunction.ParseLiteralExpression, none, PREC_NONE⟩
  | TOKEN_FOR => ⟨none, none, PREC_NONE⟩
  | TOKEN_FUN => ⟨none, none, PREC_NONE⟩
  | TOKEN_IF => ⟨none, none, PREC_NONE⟩
  | TOKEN_NIL => ⟨some ParseFunction.ParseLiteralExpression, none, PREC_NONE⟩
  | TOKEN_OR => ⟨none, some ParseFunction.ParseOr_, PREC_OR⟩
  | TOKEN_PRINT => ⟨none, none, PREC_NONE⟩
  | TOKEN_RETURN => ⟨none, none, PREC_NONE⟩
  | TOKEN_SUPER => ⟨some ParseFunction.ParseSuperExpression, none, PREC_NONE⟩
  | TOKEN_THIS => ⟨some ParseFunction.ParseThisExpression, none, PREC_NONE⟩
  | TOKEN_TRUE => ⟨some ParseFunction.ParseLiteralExpression, none, PREC_NONE⟩
  | TOKEN_VAR => ⟨none, none, PREC_NONE⟩
  | TOKEN_WHILE => ⟨none, none, PREC_NONE⟩
  | TOKEN_ERROR => ⟨none, none, PREC_NONE⟩
  | TOKEN_EOF => ⟨none, none, PREC_NONE⟩

/-! The parse functions call one another through `ParsePrecedence`.  Each takes
the function it calls for that as its first argument `pp`; the knot is tied in
`ParsePrecedence` below, by recursion on the fuel, which bounds the depth of
the calls and the iterations of each loop. -/

/-- The type of `ParsePrecedence`. -/
abbrev ParsePrecedenceFn := Precedence → CompileState → Option CompileState

/-- Function `ParseBinaryExpression(canAssign)`. -/
def ParseBinaryExpression (pp : ParsePrecedenceFn) (_canAssign : Bool) (st : CompileState) :
    Option CompileState := do
  let operatorType := st.parser.Previous.Type_
  let st1 ← pp ((GetRule operatorType).Precedence + 1) st
  match operatorType with
  | TOKEN_BANG_EQUAL => EmitBytes OpCode.OP_EQUAL OpCode.OP_NOT st1
  | TOKEN_EQUAL_EQUAL => EmitByte OpCode.OP_EQUAL st1
  | TOKEN_GREATER => EmitByte OpCode.OP_GREATER st1
  | TOKEN_GREATER_EQUAL => EmitBytes OpCode.OP_LESS OpCode.OP_NOT st1
  | TOKEN_LESS => EmitByte OpCode.OP_LESS st1
  | TOKEN_LESS_EQUAL => EmitBytes OpCode.OP_GREATER OpCode.OP_NOT st1
  | TOKEN_PLUS => EmitByte OpCode.OP_ADD st1
  | TOKEN_MINUS => EmitByte OpCode.OP_SUBTRACT st1
  | TOKEN_STAR => EmitByte OpCode.OP_MULTIPLY st1
  | TOKEN_SLASH => EmitByte OpCode.OP_DIVIDE st1
  | _ => some st1

/-- The `do ... while (Match(TOKEN_COMMA))` loop of `ParseArgumentList`;
`argCount` is a `uint8_t`. -/
def ParseArgumentListLoop (pp : ParsePrecedenceFn) :
    Nat → Nat → CompileState → Option (Nat × CompileState)
  | 0, _, _ => none
  | fuel + 1, argCount, st =>
    match pp PREC_ASSIGNMENT st with
    | none => none
    | some st1 =>
      match Match TOKEN_COMMA
        (if argCount = 255 then
          Error (chars "Can\x27t have more than 255 function arguments.") st1
         else st1) with
      | none => none
      | some (true, st2) => ParseArgumentListLoop pp fuel ((argCount + 1) % 256) st2
      | some (false, st2) => some ((argCount + 1) % 256, st2)

/-- Function `ParseArgumentList()`: the argument count and the state. -/
def ParseArgumentList (pp : ParsePrecedenceFn) (fuel : Nat) (st : CompileState) :
    Option (Nat × CompileState) := do
  let (argCount, st1) ←
    if ¬ Check TOKEN_RIGHT_PAREN st then ParseArgumentListLoop pp fuel 0 st else some (0, st)
  let st2 ← Consume TOKEN_RIGHT_PAREN (chars "Expected \x27)\x27 after function arguments.") st1
  some (argCount, st2)

/-- Function `ParseCallExpression(canAssign)`. -/
def ParseCallExpression (pp : ParsePrecedenceFn) (fuel : Nat) (_canAssign : Bool)
    (st : CompileState) : Option CompileState := do
  let (argCount, st1) ← ParseArgumentList pp fuel st
  EmitBytes OpCode.OP_CALL argCount st1

/-- Function `ParseDotExpression(canAssign)`. -/
def ParseDotExpression (env : CompileEnv) (pp : ParsePrecedenceFn) (fuel : Nat)
    (canAssign : Bool) (st : CompileState) : Option CompileState := do
  let st1 ← Consume TOKEN_IDENTIFIER (chars "Expected property name after \x27.\x27.") st
  let (name, st2) ← IdentifierConstant env st1.parser.Previous st1
  let (isSet, st3) ← if canAssign then Match TOKEN_EQUAL st2 else some (false, st2)
  if isSet then
    let st4 ← pp PREC_ASSIGNMENT st3
    EmitBytes OpCode.OP_SET_PROPERTY name st4
  else
    let (isCall, st4) ← Match TOKEN_LEFT_PAREN st3
    if isCall then
      let (argCount, st5) ← ParseArgumentList pp fuel st4
      let st6 ← EmitBytes OpCode.OP_INVOKE name st5
      EmitByte argCount st6
    else EmitBytes OpCode.OP_GET_PROPERTY name st4

/-- Function `ParseLiteralExpression(canAssign)`. -/
def ParseLiteralExpression (_canAssign : Bool) (st : CompileState) : Option CompileState :=
  match st.parser.Previous.Type_ with
  | TOKEN_FALSE => EmitByte OpCode.OP_FALSE st
  | TOKEN_NIL => EmitByte OpCode.OP_NIL st
  | TOKEN_TRUE => EmitByte OpCode.OP_TRUE st
  | _ => some st

/-- Function `ParseGroupingExpression(canAssign)`. -/
def ParseGroupingExpression (pp : ParsePrecedenceFn) (_canAssign : Bool) (st : CompileState) :
    Option CompileState := do
  let st1 ← pp PREC_ASSIGNMENT st
  Consume TOKEN_RIGHT_PAREN (chars "Expected \x27)\x27 after expression.") st1

/-- Function `ParseNumberExpression(canAssign)`: `strtod` reads the text at the
start of the number token. -/
def ParseNumberExpression (env : CompileEnv) (_canAssign : Bool) (st : CompileState) :
    Option CompileState :=
  EmitConstant (env.strtod (st.textAt st.parser.Previous)) st

/-- Function `ParseAnd_(canAssign)`. -/
def ParseAnd_ (pp : ParsePrecedenceFn) (_canAssign : Bool) (st : CompileState) :
    Option CompileState := do
  let (endJump, st1) ← EmitJump OpCode.OP_JUMP_IF_FALSE st
  let st2 ← EmitByte OpCode.OP_POP st1
  let st3 ← pp PREC_AND st2
  PatchJump endJump st3

/-- Function `ParseOr_(canAssign)`. -/
def ParseOr_ (pp : ParsePrecedenceFn) (_canAssign : Bool) (st : CompileState) :
    Option CompileState := do
  let (elseJump, st1) ← EmitJump OpCode.OP_JUMP_IF_FALSE st
  let (endJump, st2) ← EmitJump OpCode.OP_JUMP st1
  let st3 ← PatchJump elseJump st2
  let st4 ← EmitByte OpCode.OP_POP st3
  let st5 ← pp PREC_OR st4
  PatchJump endJump st5

/-- Function `ParseStringExpression(canAssign)`: the lexeme without its quotes. -/
def ParseStringExpression (env : CompileEnv) (_canAssign : Bool) (st : CompileState) :
    Option CompileState := do
  let (string, st1) ←
    CopyStringAt env ((st.textAt st.parser.Previous).drop 1) (st.parser.Previous.Length - 2) st
  EmitConstant (OBJ_VAL string) st1

/-- Function `NamedVariable(name, canAssign)`. -/
def NamedVariable (env : CompileEnv) (pp : ParsePrecedenceFn) (name : Token) (canAssign : Bool)
    (st : CompileState) : Option CompileState :=
  match st.current with
  | [] => none
  | c :: _ =>
    let r := ResolveLocal c name st
    match
      (if r.1 ≠ -1 then
        some (OpCode.OP_GET_LOCAL, OpCode.OP_SET_LOCAL, r.1.toNat, r.2)
      else
        let u := ResolveUpValue name r.2.current r.2
        if u.1 ≠ -1 then
          some (OpCode.OP_GET_UPVALUE, OpCode.OP_SET_UPVALUE, u.1.toNat,
            { u.2.2 with current := u.2.1 })
        else
          (IdentifierConstant env name { u.2.2 with current := u.2.1 }).map
            (fun k => (OpCode.OP_GET_GLOBAL, OpCode.OP_SET_GLOBAL, k.1, k.2))) with
    | none => none
    | some (getOp, setOp, arg, st1) =>
      match (if canAssign then Match TOKEN_EQUAL st1 else some (false, st1)) with
      | none => none
      | some (true, st2) => (pp PREC_ASSIGNMENT st2).bind (EmitBytes setOp arg)
      | some (false, st2) => EmitBytes getOp arg st2

/-- Function `ParseVariableExpression(canAssign)`. -/
def ParseVariableExpression (env : CompileEnv) (pp : ParsePrecedenceFn) (canAssign : Bool)
    (st : CompileState) : Option CompileState :=
  NamedVariable env pp st.parser.Previous canAssign st

/-- Function `ParseSuperExpression(canAssign)`. -/
def ParseSuperExpression (env : CompileEnv) (pp : ParsePrecedenceFn) (fuel : Nat)
    (_canAssign : Bool) (st : CompileState) : Option CompileState := do
  let st0 :=
    match st.currentClass with
    | [] => Error (chars "Can\x27t use \x27super\x27 outside of a class.") st
    | k :: _ =>
      if ¬ k.HasSuperClass then
        Error (chars "Can\x27t use \x27super\x27 in a class with no superclass.") st
      else st
  let st1 ← Consume TOKEN_DOT (chars "Expected \x27.\x27 after \x27super\x27.") st0
  let st2 ← Consume TOKEN_IDENTIFIER (chars "Expected superclass method name.") st1
  let (name, st3) ← IdentifierConstant env st2.parser.Previous st2
  let st4 ← NamedVariable env pp (SyntheticToken (chars "this")) false st3
  let (isCall, st5) ← Match TOKEN_LEFT_PAREN st4
  if isCall then
    let (argCount, st6) ← ParseArgumentList pp fuel st5
    let st7 ← NamedVariable env pp (SyntheticToken (chars "super")) false st6
    let st8 ← EmitBytes OpCode.OP_SUPER_INVOKE name st7
    EmitByte argCount st8
  else
    let st6 ← NamedVariable env pp (SyntheticToken (chars "super")) false st5
    EmitBytes OpCode.OP_GET_SUPER name st6

/-- Function `ParseThisExpression(canAssign)`. -/
def ParseThisExpression (env : CompileEnv) (pp : ParsePrecedenceFn) (_canAssign : Bool)
    (st : CompileState) : Option CompileState :=
  match st.currentClass with
  | [] => some (Error (chars "Can\x27t use \x27this\x27 outside of a class.") st)
  | _ :: _ => ParseVariableExpression env pp false st

/-- Function `ParseUnaryExpression(canAssign)`. -/
def ParseUnaryExpression (pp : ParsePrecedenceFn) (_canAssign : Bool) (st : CompileState) :
    Option CompileState := do
  let operatorType := st.parser.Previous.Type_
  let st1 ← pp PREC_UNARY st
  match operatorType with
  | TOKEN_BANG => EmitByte OpCode.OP_NOT st1
  | TOKEN_MINUS => EmitByte OpCode.OP_NEGATE st1
  | _ => some st1

/-- A call through a `ParseFunction` pointer. -/
def callParseFunction (env : CompileEnv) (pp : ParsePrecedenceFn) (fuel : Nat) :
    ParseFunction → Bool → CompileState → Option CompileState
  | ParseFunction.ParseGroupingExpression => ParseGroupingExpression pp
  | ParseFunction.ParseCallExpression => ParseCallExpression pp fuel
  | ParseFunction.ParseDotExpression => ParseDotExpression env pp fuel
  | ParseFunction.ParseUnaryExpression => ParseUnaryExpression pp
  | ParseFunction.ParseBinaryExpression => ParseBinaryExpression pp
  | ParseFunction.ParseVariableExpression => ParseVariableExpression env pp
  | ParseFunction.ParseStringExpression => ParseStringExpression env
  | ParseFunction.ParseNumberExpression => ParseNumberExpression env
  | ParseFunction.ParseAnd_ => ParseAnd_ pp
  | ParseFunction.ParseOr_ => ParseOr_ pp
  | ParseFunction.ParseLiteralExpression => ParseLiteralExpression
  | ParseFunction.ParseSuperExpression => ParseSuperExpression env pp fuel
  | ParseFunction.ParseThisExpression => ParseThisExpression env pp

/-- The `while` loop of `ParsePrecedence`: the infix operators of precedence at
least `precedence`.  A token of such a precedence has an infix rule. -/
def ParseInfixLoop (env : CompileEnv) (pp : ParsePrecedenceFn) (precedence : Precedence)
    (canAssign : Bool) (fuel : Nat) : Nat → CompileState → Option CompileState
  | 0, _ => none
  | n + 1, st =>
    if precedence ≤ (GetRule st.parser.Current.Type_).Precedence then
      match Advance st with
      | none => none
      | some st1 =>
        match (GetRule st1.parser.Previous.Type_).Infix with
        | none => none
        | some infixRule =>
          match callParseFunction env pp fuel infixRule canAssign st1 with
          | none => none
          | some st2 => ParseInfixLoop env pp precedence canAssign fuel n st2
    else some st

/-- The body of `ParsePrecedence(precedence)`, calling `pp` for the nested calls. -/
def ParsePrecedenceBody (env : CompileEnv) (pp : ParsePrecedenceFn) (fuel : Nat)
    (precedence : Precedence) (st : CompileState) : Option CompileState := do
  let st1 ← Advance st
  match (GetRule st1.parser.Previous.Type_).Prefix with
  | none => some (Error (chars "Expected expression.") st1)
  | some prefixRule =>
    let canAssign : Bool := precedence ≤ PREC_ASSIGNMENT
    let st2 ← callParseFunction env pp fuel prefixRule canAssign st1
    let st3 ← ParseInfixLoop env pp precedence canAssign fuel fuel st2
    let (isEqual, st4) ← if canAssign then Match TOKEN_EQUAL st3 else some (false, st3)
    if isEqual then some (Error (chars "Invalid assignment target.") st4) else some st4

/-- Function `ParsePrecedence(precedence)`; `fuel` bounds the nesting of the
expression and the number of operators and arguments in a row. -/
def ParsePrecedence (env : CompileEnv) : Nat → ParsePrecedenceFn
  | 0, _, _ => none
  | fuel + 1, precedence, st =>
    ParsePrecedenceBody env (ParsePrecedence env fuel) (fuel + 1) precedence st

/-- Function `ParseExpression()`. -/
def ParseExpression (env : CompileEnv) (fuel : Nat) (st : CompileState) :
    Option CompileState :=
  ParsePrecedence env fuel PREC_ASSIGNMENT st

/-! The statement functions call one another through `ParseDeclarationStatement`
and `ParseStatement`, taken as the arguments `decl` and `stmt`; expressions are
compiled with the given fuel. -/

/-- The type of `ParseDeclarationStatement` and `ParseStatement`. -/
abbrev ParseStatementFn := CompileState → Option CompileState

/-- The `while` loop of `ParseBlock`. -/
def ParseBlockLoop (decl : ParseStatementFn) : Nat → CompileState → Option CompileState
  | 0, _ => none
  | n + 1, st =>
    if ¬ Check TOKEN_RIGHT_BRACE st ∧ ¬ Check TOKEN_EOF st then
      (decl st).bind (ParseBlockLoop decl n)
    else some st

/-- Function `ParseBlock()`. -/
def ParseBlock (decl : ParseStatementFn) (fuel : Nat) (st : CompileState) :
    Option CompileState :=
  (ParseBlockLoop decl fuel st).bind
    (Consume TOKEN_RIGHT_BRACE (chars "Expected \x27\x7d\x27 after block."))

/-- The body and the condition of the `do ... while (Match(TOKEN_COMMA))` loop
over the parameters in `ParseFunctionBody`: one parameter is compiled; the
result tells whether a comma follows. -/
def ParseParameter (env : CompileEnv) (st : CompileState) : Option (Bool × CompileState) :=
  match st.current with
  | [] => none
  | c :: cs =>
    let st1 : CompileState :=
      { st with
        current := { c with Function := { c.Function with Arity := c.Function.Arity + 1 } } :: cs }
    match ParseVariable env (chars "Expected function parameter name.")
      (if c.Function.Arity + 1 > 255 then
        ErrorAtCurrent (chars "Can\x27t have more than 255 function parameters.") st1
       else st1) with
    | none => none
    | some (constant, st2) => (DefineVariable constant st2).bind (Match TOKEN_COMMA)

/-- The `do ... while (Match(TOKEN_COMMA))` loop over the parameters in
`ParseFunctionBody`. -/
def ParseParametersLoop (env : CompileEnv) : Nat → CompileState → Option CompileState
  | 0, _ => none
  | n + 1, st =>
    match ParseParameter env st with
    | none => none
    | some (true, st1) => ParseParametersLoop env n st1
    | some (false, st1) => some st1

/-- The loop of `ParseFunctionBody` that emits the captured variables. -/
def EmitUpValues : List UpValue → CompileState → Option CompileState
  | [], st => some st
  | u :: us, st =>
    ((EmitByte (if u.IsLocal then 1 else 0) st).bind (EmitByte u.Index)).bind (EmitUpValues us)

/-- Function `ParseFunctionBody(type)`. -/
def ParseFunctionBody (env : CompileEnv) (decl : ParseStatementFn) (fuel : Nat)
    (type : FunctionType) (st : CompileState) : Option CompileState := do
  let st1 ← InitCompiler env type st
  let st2 ← BeginScope st1
  let st3 ← Consume TOKEN_LEFT_PAREN (chars "Expected \x27(\x27 after function name.") st2
  let st4 ← if ¬ Check TOKEN_RIGHT_PAREN st3 then ParseParametersLoop env fuel st3 else some st3
  let st5 ← Consume TOKEN_RIGHT_PAREN (chars "Expected \x27)\x27 after function parameters.") st4
  let st6 ← Consume TOKEN_LEFT_BRACE (chars "Expected \x27\x7b\x27 before function body.") st5
  let st7 ← ParseBlock decl fuel st6
  let (compiler, st8) ← EndCompiler st7
  let (constant, st9) ← MakeConstant (OBJ_VAL compiler.FunctionAddr) st8
  let st10 ← EmitBytes OpCode.OP_CLOSURE constant st9
  EmitUpValues (compiler.UpValues.take compiler.Function.UpValueCount) st10

/-- Function `ParseFunctionDeclaration()`. -/
def ParseFunctionDeclaration (env : CompileEnv) (decl : ParseStatementFn) (fuel : Nat)
    (st : CompileState) : Option CompileState := do
  let (global, st1) ← ParseVariable env (chars "Expected function name.") st
  let st2 ← MarkInitialized st1
  let st3 ← ParseFunctionBody env decl fuel TYPE_FUNCTION st2
  DefineVariable global st3

/-- Function `ParseClassMethodDeclaration()`. -/
def ParseClassMethodDeclaration (env : CompileEnv) (decl : ParseStatementFn) (fuel : Nat)
    (st : CompileState) : Option CompileState := do
  let st1 ← Consume TOKEN_IDENTIFIER (chars "Expected class method name.") st
  let (constant, st2) ← IdentifierConstant env st1.parser.Previous st1
  let type : FunctionType :=
    if st2.parser.Previous.Length = 4 ∧
        (st2.textAt st2.parser.Previous).take 4 = chars "init" then TYPE_INITIALIZER
    else TYPE_METHOD
  let st3 ← ParseFunctionBody env decl fuel type st2
  EmitBytes OpCode.OP_METHOD constant st3

/-- The `while` loop over the methods in `ParseClassDeclaration`. -/
def ParseMethodsLoop (env : CompileEnv) (decl : ParseStatementFn) (fuel : Nat) :
    Nat → CompileState → Option CompileState
  | 0, _ => none
  | n + 1, st =>
    if ¬ Check TOKEN_RIGHT_BRACE st ∧ ¬ Check TOKEN_EOF st then
      (ParseClassMethodDeclaration env decl fuel st).bind (ParseMethodsLoop env decl fuel n)
    else some st

/-- The part of `ParseClassDeclaration` for the clause `< superclass`. -/
def ParseSuperClassClause (env : CompileEnv) (fuel : Nat) (className : Token)
    (st : CompileState) : Option CompileState := do
  let st1 ← Consume TOKEN_IDENTIFIER (chars "Expected superclass name.") st
  let st2 ← ParseVariableExpression env (ParsePrecedence env fuel) false st1
  let st3 :=
    if IdentifiersEqual st2.scanner.Source className st2.parser.Previous then
      Error (chars "A class can\x27t inherit from itself.") st2
    else st2
  let st4 ← BeginScope st3
  let st5 ← AddLocal (SyntheticToken (chars "super")) st4
  let st6 ← DefineVariable 0 st5
  let st7 ← NamedVariable env (ParsePrecedence env fuel) className false st6
  let st8 ← EmitByte OpCode.OP_INHERIT st7
  match st8.currentClass with
  | [] => none
  | _ :: ks => some { st8 with currentClass := ⟨true⟩ :: ks }

/-- The end of `ParseClassDeclaration`: the scope of `super` is closed and
`currentClass` goes back to the enclosing class. -/
def ParseClassEnd (st : CompileState) : Option CompileState :=
  match st.currentClass with
  | [] => none
  | k :: ks =>
    (if k.HasSuperClass then EndScope st else some st).map
      (fun st1 => { st1 with currentClass := ks })

/-- The part of `ParseClassDeclaration` from the superclass clause to the end
of the class body. -/
def ParseClassBody (env : CompileEnv) (decl : ParseStatementFn) (fuel : Nat)
    (className : Token) (st : CompileState) : Option CompileState :=
  match Match TOKEN_LESS st with
  | none => none
  | some (hasSuper, st1) =>
    (((((if hasSuper then ParseSuperClassClause env fuel className st1 else some st1).bind
      (NamedVariable env (ParsePrecedence env fuel) className false)).bind
      (Consume TOKEN_LEFT_BRACE (chars "Expected \x27\x7b\x27 before class body."))).bind
      (ParseMethodsLoop env decl fuel fuel)).bind
      (Consume TOKEN_RIGHT_BRACE (chars "Expected \x27\x7d\x27 after class body."))).bind
      (EmitByte OpCode.OP_POP)

/-- Function `ParseClassDeclaration()`. -/
def ParseClassDeclaration (env : CompileEnv) (decl : ParseStatementFn) (fuel : Nat)
    (st : CompileState) : Option CompileState :=
  match Consume TOKEN_IDENTIFIER (chars "Expected class name.") st with
  | none => none
  | some st1 =>
    match IdentifierConstant env st1.parser.Previous st1 with
    | none => none
    | some (nameConstant, st2) =>
      match ((DeclareVariable st2).bind (EmitBytes OpCode.OP_CLASS nameConstant)).bind
          (DefineVariable nameConstant) with
      | none => none
      | some st5 =>
        (ParseClassBody env decl fuel st1.parser.Previous
          { st5 with currentClass := ⟨false⟩ :: st5.currentClass }).bind ParseClassEnd

/-- Function `ParseVarDeclarationStatement()`. -/
def ParseVarDeclarationStatement (env : CompileEnv) (fuel : Nat) (st : CompileState) :
    Option CompileState := do
  let (global, st1) ← ParseVariable env (chars "Expected variable name.") st
  let (hasInit, st2) ← Match TOKEN_EQUAL st1
  let st3 ← if hasInit then ParseExpression env fuel st2 else EmitByte OpCode.OP_NIL st2
  let st4 ← Consume TOKEN_SEMICOLON (chars "Expected \x27;\x27 after variable declaration.") st3
  DefineVariable global st4

/-- Function `ParseExpressionStatement()`. -/
def ParseExpressionStatement (env : CompileEnv) (fuel : Nat) (st : CompileState) :
    Option CompileState := do
  let st1 ← ParseExpression env fuel st
  let st2 ← Consume TOKEN_SEMICOLON (chars "Expected \x27;\x27 after expression.") st1
  EmitByte OpCode.OP_POP st2

/-- The initializer clause of `ParseForStatement`. -/
def ParseForInitializer (env : CompileEnv) (fuel : Nat) (st : CompileState) :
    Option CompileState :=
  match Match TOKEN_SEMICOLON st with
  | none => none
  | some (true, st1) => some st1
  | some (false, st1) =>
    match Match TOKEN_VAR st1 with
    | none => none
    | some (true, st2) => ParseVarDeclarationStatement env fuel st2
    | some (false, st2) => ParseExpressionStatement env fuel st2

/-- The condition clause of `ParseForStatement`: `exitJump` (`none` for `-1`)
and the state. -/
def ParseForCondition (env : CompileEnv) (fuel : Nat) (st : CompileState) :
    Option (Option Nat × CompileState) :=
  match Match TOKEN_SEMICOLON st with
  | none => none
  | some (true, st1) => some (none, st1)
  | some (false, st1) =>
    match ((ParseExpression env fuel st1).bind
        (Consume TOKEN_SEMICOLON (chars "Expected \x27;\x27 after for loop condition."))).bind
        (EmitJump OpCode.OP_JUMP_IF_FALSE) with
    | none => none
    | some (exitJump, st2) => (EmitByte OpCode.OP_POP st2).map (fun st3 => (some exitJump, st3))

/-- The increment clause of `ParseForStatement`: the new `loopStart` and the
state. -/
def ParseForIncrement (env : CompileEnv) (fuel : Nat) (loopStart : Nat) (st : CompileState) :
    Option (Nat × CompileState) :=
  match Match TOKEN_RIGHT_PAREN st with
  | none => none
  | some (true, st1) => some (loopStart, st1)
  | some (false, st1) =>
    match EmitJump OpCode.OP_JUMP st1 with
    | none => none
    | some (bodyJump, st2) =>
      match CurrentChunk st2 with
      | none => none
      | some chunk =>
        (((((ParseExpression env fuel st2).bind (EmitByte OpCode.OP_POP)).bind
          (Consume TOKEN_RIGHT_PAREN (chars "Expected \x27)\x27 after for loop clauses."))).bind
          (EmitLoop loopStart)).bind (PatchJump bodyJump)).map (fun st3 => (chunk.Count, st3))

/-- The end of `ParseForStatement`, after the body. -/
def ParseForEnd (loopStart : Nat) (exitJump : Option Nat) (st : CompileState) :
    Option CompileState :=
  match EmitLoop loopStart st with
  | none => none
  | some st1 =>
    match exitJump with
    | some exitJump =>
      (((PatchJump exitJump st1).bind (EmitByte OpCode.OP_POP))).bind EndScope
    | none => EndScope st1

/-- Function `ParseForStatement()`. -/
def ParseForStatement (env : CompileEnv) (stmt : ParseStatementFn) (fuel : Nat)
    (st : CompileState) : Option CompileState :=
  match ((BeginScope st).bind
      (Consume TOKEN_LEFT_PAREN (chars "Expected \x27(\x27 after \x27for\x27."))).bind
      (ParseForInitializer env fuel) with
  | none => none
  | some st1 =>
    match CurrentChunk st1 with
    | none => none
    | some chunk =>
      match ParseForCondition env fuel st1 with
      | none => none
      | some (exitJump, st2) =>
        match ParseForIncrement env fuel chunk.Count st2 with
        | none => none
        | some (loopStart, st3) => (stmt st3).bind (ParseForEnd loopStart exitJump)

/-- Function `ParseIfStatement()`. -/
def ParseIfStatement (env : CompileEnv) (stmt : ParseStatementFn) (fuel : Nat)
    (st : CompileState) : Option CompileState := do
  let st1 ← Consume TOKEN_LEFT_PAREN (chars "Expected \x27(\x27 after \x27if\x27.") st
  let st2 ← ParseExpression env fuel st1
  let st3 ← Consume TOKEN_RIGHT_PAREN (chars "Expected \x27)\x27 after if condition.") st2
  let (thenJump, st4) ← EmitJump OpCode.OP_JUMP_IF_FALSE st3
  let st5 ← EmitByte OpCode.OP_POP st4
  let st6 ← stmt st5
  let (elseJump, st7) ← EmitJump OpCode.OP_JUMP st6
  let st8 ← PatchJump thenJump st7
  let st9 ← EmitByte OpCode.OP_POP st8
  let (hasElse, st10) ← Match TOKEN_ELSE st9
  let st11 ← if hasElse then stmt st10 else some st10
  PatchJump elseJump st11

/-- Function `ParsePrintStatement()`. -/
def ParsePrintStatement (env : CompileEnv) (fuel : Nat) (st : CompileState) :
    Option CompileState := do
  let st1 ← ParseExpression env fuel st
  let st2 ← Consume TOKEN_SEMICOLON (chars "Expected \x27;\x27 after print statement value") st1
  EmitByte OpCode.OP_PRINT st2

/-- Function `ParseReturnStatement()`. -/
def ParseReturnStatement (env : CompileEnv) (fuel : Nat) (st : CompileState) :
    Option CompileState :=
  match st.current with
  | [] => none
  | c :: _ => do
    let st1 :=
      if c.Type_ = TYPE_SCRIPT then Error (chars "Can\x27t return from top-level code.") st
      else st
    let (noValue, st2) ← Match TOKEN_SEMICOLON st1
    if noValue then EmitReturn st2
    else
      let st3 :=
        if c.Type_ = TYPE_INITIALIZER then
          Error (chars "Can\x27t return a value from a class initializer.") st2
        else st2
      let st4 ← ParseExpression env fuel st3
      let st5 ← Consume TOKEN_SEMICOLON (chars "Expected \x27;\x27 after return value.") st4
      EmitByte OpCode.OP_RETURN st5

/-- Function `ParseWhileStatement()`. -/
def ParseWhileStatement (env : CompileEnv) (stmt : ParseStatementFn) (fuel : Nat)
    (st : CompileState) : Option CompileState := do
  let loopStart := (← CurrentChunk st).Count
  let st1 ← Consume TOKEN_LEFT_PAREN (chars "Expected \x27(\x27 after \x27while\x27.") st
  let st2 ← ParseExpression env fuel st1
  let st3 ← Consume TOKEN_RIGHT_PAREN (chars "Expected \x27)\x27 after while loop condition.") st2
  let (exitJump, st4) ← EmitJump OpCode.OP_JUMP_IF_FALSE st3
  let st5 ← EmitByte OpCode.OP_POP st4
  let st6 ← stmt st5
  let st7 ← EmitLoop loopStart st6
  let st8 ← PatchJump exitJump st7
  EmitByte OpCode.OP_POP st8

/-- The `while` loop of `Synchronize`. -/
def SynchronizeLoop : Nat → CompileState → Option CompileState
  | 0, _ => none
  | n + 1, st =>
    if st.parser.Current.Type_ ≠ TOKEN_EOF then
      if st.parser.Previous.Type_ = TOKEN_SEMICOLON then some st
      else
        match st.parser.Current.Type_ with
        | TOKEN_CLASS => some st
        | TOKEN_FUN => some st
        | TOKEN_VAR => some st
        | TOKEN_FOR => some st
        | TOKEN_IF => some st
        | TOKEN_WHILE => some st
        | TOKEN_PRINT => some st
        | TOKEN_RETURN => some st
        | _ => (Advance st).bind (SynchronizeLoop n)
    else some st

/-- Function `Synchronize()`: every iteration consumes a token, so the loop is
run with the scanner's fuel. -/
def Synchronize (st : CompileState) : Option CompileState :=
  SynchronizeLoop (st.scanner.fuel + 1) { st with parser := { st.parser with PanicMode := false } }

/-- The body of `ParseStatement()`. -/
def ParseStatementBody (env : CompileEnv) (decl stmt : ParseStatementFn) (fuel : Nat)
    (st : CompileState) : Option CompileState := do
  let (isPrint, st1) ← Match TOKEN_PRINT st
  if isPrint then ParsePrintStatement env fuel st1
  else
    let (isFor, st2) ← Match TOKEN_FOR st1
    if isFor then ParseForStatement env stmt fuel st2
    else
      let (isIf, st3) ← Match TOKEN_IF st2
      if isIf then ParseIfStatement env stmt fuel st3
      else
        let (isReturn, st4) ← Match TOKEN_RETURN st3
        if isReturn then ParseReturnStatement env fuel st4
        else
          let (isWhile, st5) ← Match TOKEN_WHILE st4
          if isWhile then ParseWhileStatement env stmt fuel st5
          else
            let (isBlock, st6) ← Match TOKEN_LEFT_BRACE st5
            if isBlock then
              let st7 ← BeginScope st6
              let st8 ← ParseBlock decl fuel st7
              EndScope st8
            else ParseExpressionStatement env fuel st6

/-- The body of `ParseDeclarationStatement()`. -/
def ParseDeclarationStatementBody (env : CompileEnv) (decl stmt : ParseStatementFn)
    (fuel : Nat) (st : CompileState) : Option CompileState := do
  let (isClass, st1) ← Match TOKEN_CLASS st
  let st4 ←
    if isClass then ParseClassDeclaration env decl fuel st1
    else do
      let (isFun, st2) ← Match TOKEN_FUN st1
      if isFun then ParseFunctionDeclaration env decl fuel st2
      else
        let (isVar, st3) ← Match TOKEN_VAR st2
        if isVar then ParseVarDeclarationStatement env fuel st3
        else stmt st3
  if st4.parser.PanicMode then Synchronize st4 else some st4

/-- The functions `ParseDeclarationStatement` and `ParseStatement` together;
`fuel` bounds the nesting of statements, the statements in a row and the
expressions in them. -/
def ParseStatements (env : CompileEnv) : Nat → ParseStatementFn × ParseStatementFn
  | 0 => (fun _ => none, fun _ => none)
  | fuel + 1 =>
    (ParseDeclarationStatementBody env (ParseStatements env fuel).1 (ParseStatements env fuel).2
      (fuel + 1),
     ParseStatementBody env (ParseStatements env fuel).1 (ParseStatements env fuel).2 (fuel + 1))

/-- Function `ParseDeclarationStatement()`. -/
def ParseDeclarationStatement (env : CompileEnv) (fuel : Nat) : ParseStatementFn :=
  (ParseStatements env fuel).1

/-- Function `ParseStatement()`. -/
def ParseStatement (env : CompileEnv) (fuel : Nat) : ParseStatementFn :=
  (ParseStatements env fuel).2

/-- The loop `while (!Match(TOKEN_EOF)) ParseDeclarationStatement();` of `Compile`. -/
def CompileLoop (env : CompileEnv) (fuel : Nat) : Nat → CompileState → Option CompileState
  | 0, _ => none
  | n + 1, st =>
    match Match TOKEN_EOF st with
    | none => none
    | some (true, st1) => some st1
    | some (false, st1) => (ParseDeclarationStatement env fuel st1).bind (CompileLoop env fuel n)

/-- A token of the zero-initialised static `parser`. -/
def zeroToken : Token := ⟨TOKEN_LEFT_PAREN, CharPtr.lit [], 0, 0⟩

/-- Function `Compile(source)` in a fresh process, with `vm` the heap and string
table after `InitVM`: the function (`none` for `NULL`) and the final state. -/
def Compile (env : CompileEnv) (fuel : Nat) (vm : VMState) (source : List Nat) :
    Option (Option Nat × CompileState) := do
  let st0 : CompileState :=
    ⟨InitScanner source, ⟨zeroToken, zeroToken, false, false⟩, [], [], vm, [], 0, []⟩
  let st1 ← InitCompiler env TYPE_SCRIPT st0
  let st2 : CompileState :=
    { st1 with parser := { st1.parser with HadError := false, PanicMode := false } }
  let st3 ← Advance st2
  let st4 ← CompileLoop env fuel fuel st3
  let (compiler, st5) ← EndCompiler st4
  some (if st5.parser.HadError then none else some compiler.FunctionAddr, st5)

/-! ## Objects and the virtual machine (`Object.h`, `Object.cpp`, `VM.h`, `VM.cpp`)

Heap objects live in a heap `Nat → Option Obj` (`none`: no object at the
address).  The value stack is a list with the top first; a `Value*` into it
(`CallFrame.Slots`, the location of an open upvalue) is the index of the slot
counted from the bottom.  An instruction pointer is an index into the code of
the chunk it points into.  The call frames `Frames[0 .. FrameCount)` are a list
with the innermost frame first.  The collector is not run by the allocations
made here (`vm.BytesAllocated` stays below `vm.NextGC`), and the trace that
`DEBUG_TRACE_EXECUTION` prints before every instruction is not represented. -/

/-- Macro `AS_OBJ(value)`: the bits outside `SIGN_BIT | QNAN`. -/
def AS_OBJ (value : Value) : Nat := value &&& 0x0003ffffffffffff

/-- The native functions (`NativeFn` pointers): only `ClockNative`. -/
inductive NativeFn
  | ClockNative
deriving DecidableEq, Repr

/-- The target of `ObjUpValue.Location`: a stack slot, or the `Closed` field of
the upvalue itself. -/
inductive UpValueLocation
  | Stack (slot : Nat)
  | Closed
deriving DecidableEq, Repr

/-- A heap object: the structs of `Object.h`, tagged as by `Obj.Type`. -/
inductive Obj
  | BoundMethod (Receiver : Value) (Method : Nat)
  | Class (Name : Nat) (Methods : Table)
  | Closure (Function : Nat) (UpValues : List (Option Nat))
  | Function (function : ObjFunction)
  | Instance (Klass : Nat) (Fields : Table)
  | NativeFunction (Function : NativeFn)
  | String (string : ObjString)
  | UpValue (Location : UpValueLocation) (Closed : Value) (Next : Option Nat)

/-- A call frame: `struct CallFrame`. -/
structure CallFrame where
  Closure : Nat
  IP : Nat
  Slots : Nat
deriving DecidableEq, Repr

def FRAMES_MAX : Nat := 64
def STACK_MAX : Nat := FRAMES_MAX * UINT8_COUNT

/-- The results of `Interpret`: `enum InterpretResult`. -/
inductive InterpretResult
  | INTERPRET_OK | INTERPRET_COMPILE_ERROR | INTERPRET_RUNTIME_ERROR
deriving DecidableEq, Repr

open InterpretResult

/-- A runtime error message written to `stderr`: the format given to
`RuntimeError`, its `%d` arguments and its `%s` argument. -/
structure RuntimeErrorMessage where
  Format : List Nat
  Ints : List Nat
  Text : List Nat
deriving DecidableEq, Repr

/-- The virtual machine: `struct VM`, with the heap, the number of objects
allocated so far, the values printed by `OP_PRINT` and the runtime errors
reported. -/
structure VM where
  Frames : List CallFrame
  Stack : List Value
  Globals : Table
  Strings : Table
  InitString : Option Nat
  OpenUpValues : Option Nat
  Objects : List Nat
  Heap : Nat → Option Obj
  Allocs : Nat
  stdout : List Value
  stderr : List RuntimeErrorMessage

/-- What the virtual machine takes from its environment: the addresses the
allocator hands out, the value `ClockNative` returns at its `k`-th call point,
`strtod`, and the arithmetic of the machine on `double`s, given on the bits:
`add a b` is `NUMBER_VAL(AS_NUMBER(a) + AS_NUMBER(b))`, and so on. -/
structure VMEnv where
  alloc : Nat → Nat
  clock : Nat → Value
  strtod : List Nat → Value
  add : Value → Value → Value
  sub : Value → Value → Value
  mul : Value → Value → Value
  div : Value → Value → Value
  neg : Value → Value
  less : Value → Value → Bool
  greater : Value → Value → Bool

/-- The string objects of the heap, as the hash table reads them. -/
def VM.strings (vm : VM) : Nat → ObjString :=
  fun p =>
    match vm.Heap p with
    | some (Obj.String s) => s
    | _ => ⟨0, [], 0⟩

/-- Function `ResetStack()`. -/
def ResetStack (vm : VM) : VM :=
  { vm with Stack := [], Frames := [], OpenUpValues := none }

/-- Function `RuntimeError(format, ...)`: the message is written (the lines of
the stack trace are not represented) and the stack is reset. -/
def RuntimeError (format : List Nat) (ints : List Nat) (text : List Nat) (vm : VM) : VM :=
  ResetStack { vm with stderr := vm.stderr ++ [⟨format, ints, text⟩] }

/-- Function `Push(value)`; writing beyond `Stack[STACK_MAX - 1]` has no result. -/
def Push (value : Value) (vm : VM) : Option VM :=
  if vm.Stack.length < STACK_MAX then some { vm with Stack := value :: vm.Stack } else none

/-- Function `Pop()`. -/
def Pop (vm : VM) : Option (Value × VM) :=
  match vm.Stack with
  | [] => none
  | value :: rest => some (value, { vm with Stack := rest })

/-- Function `Peek(distance)`. -/
def Peek (distance : Nat) (vm : VM) : Option Value := vm.Stack[distance]?

/-- Reads the stack slot `slot`, counted from the bottom. -/
def VM.getSlot (vm : VM) (slot : Nat) : Option Value :=
  if slot < vm.Stack.length then vm.Stack[vm.Stack.length - 1 - slot]? else none

/-- Writes the stack slot `slot`, counted from the bottom. -/
def VM.setSlot (vm : VM) (slot : Nat) (value : Value) : Option VM :=
  if slot < vm.Stack.length then
    some { vm with Stack := vm.Stack.set (vm.Stack.length - 1 - slot) value }
  else none

/-- The assignment `vm.StackTop[-argCount - 1] = value`. -/
def VM.setBelowArgs (vm : VM) (argCount : Nat) (value : Value) : Option VM :=
  if argCount < vm.Stack.length then some { vm with Stack := vm.Stack.set argCount value }
  else none

/-- Function `AllocateObject` followed by the initialisation of the object:
`object` is stored at the address the allocator returns, which is the address
of no live object, and linked into `vm.Objects`. -/
def AllocateObject (env : VMEnv) (object : Obj) (vm : VM) : Option (Nat × VM) :=
  if env.alloc vm.Allocs ∈ vm.Objects then none
  else
    some (env.alloc vm.Allocs,
      { vm with
        Heap := fun p => if p = env.alloc vm.Allocs then some object else vm.Heap p
        Objects := env.alloc vm.Allocs :: vm.Objects
        Allocs := vm.Allocs + 1 })

/-- Function `Call(closure, argCount)`. -/
def Call (closure : Nat) (argCount : Nat) (vm : VM) : Option (Bool × VM) :=
  match vm.Heap closure with
  | some (Obj.Closure function _) =>
    match vm.Heap function with
    | some (Obj.Function f) =>
      if argCount ≠ f.Arity then
        some (false,
          RuntimeError (chars "Expected %d arguments, but got %d.") [f.Arity, argCount] [] vm)
      else if vm.Frames.length = FRAMES_MAX then
        some (false, RuntimeError (chars "Stack overflow.") [] [] vm)
      else
        some (true,
          { vm with Frames := ⟨closure, 0, vm.Stack.length - argCount - 1⟩ :: vm.Frames })
    | _ => none
  | _ => none

/-- Function `CallValue(callee, argCount)`. -/
def CallValue (env : VMEnv) (callee : Value) (argCount : Nat) (vm : VM) : Option (Bool × VM) :=
  if IS_OBJ callee then
    match vm.Heap (AS_OBJ callee) with
    | none => none
    | some (Obj.BoundMethod receiver method) =>
      (vm.setBelowArgs argCount receiver).bind (Call method argCount)
    | some (Obj.Class _ methods) =>
      match AllocateObject env (Obj.Instance (AS_OBJ callee) InitTable) vm with
      | none => none
      | some (newInstance, vm1) =>
        match vm1.setBelowArgs argCount (OBJ_VAL newInstance), vm1.InitString with
        | some vm2, some initString =>
          match TableGet vm2.strings methods initString with
          | none => none
          | some (some initializer) => Call (AS_OBJ initializer) argCount vm2
          | some none =>
            if argCount ≠ 0 then
              some (false,
                RuntimeError (chars "Expected 0 arguments but got %d.") [argCount] [] vm2)
            else some (true, vm2)
        | _, _ => none
    | some (Obj.Closure _ _) => Call (AS_OBJ callee) argCount vm
    | some (Obj.NativeFunction _) =>
      if argCount + 1 ≤ vm.Stack.length then
        (Push (env.clock vm.Allocs) { vm with Stack := vm.Stack.drop (argCount + 1) }).map
          (fun vm1 => (true, vm1))
      else none
    | some _ =>
      some (false, RuntimeError (chars "You can only call functions and classes.") [] [] vm)
  else some (false, RuntimeError (chars "You can only call functions and classes.") [] [] vm)

/-- Function `InvokeFromClass(klass, name, argCount)`. -/
def InvokeFromClass (klass name : Nat) (argCount : Nat) (vm : VM) : Option (Bool × VM) :=
  match vm.Heap klass with
  | some (Obj.Class _ methods) =>
    match TableGet vm.strings methods name with
    | none => none
    | some none =>
      some (false,
        RuntimeError (chars "Undefined property \x27%s\x27.") [] (vm.strings name).Chars vm)
    | some (some method) => Call (AS_OBJ method) argCount vm
  | _ => none

/-- Function `Invoke(name, argCount)`. -/
def Invoke (env : VMEnv) (name : Nat) (argCount : Nat) (vm : VM) : Option (Bool × VM) :=
  match Peek argCount vm with
  | none => none
  | some receiver =>
    if IS_OBJ receiver then
      match vm.Heap (AS_OBJ receiver) with
      | none => none
      | some (Obj.Instance klass fields) =>
        match TableGet vm.strings fields name with
        | none => none
        | some (some value) =>
          (vm.setBelowArgs argCount value).bind (CallValue env value argCount)
        | some none => InvokeFromClass klass name argCount vm
      | some _ => some (false, RuntimeError (chars "Only instances have methods.") [] [] vm)
    else some (false, RuntimeError (chars "Only instances have methods.") [] [] vm)

/-- Stores an object at an address of the heap. -/
def VM.store (vm : VM) (p : Nat) (object : Obj) : VM :=
  { vm with Heap := fun q => if q = p then some object else vm.Heap q }

/-- Function `BindMethod(klass, name)`. -/
def BindMethod (env : VMEnv) (klass name : Nat) (vm : VM) : Option (Bool × VM) :=
  match vm.Heap klass with
  | some (Obj.Class _ methods) =>
    match TableGet vm.strings methods name with
    | none => none
    | some none =>
      some (false,
        RuntimeError (chars "Undefined property \x27%s\x27.") [] (vm.strings name).Chars vm)
    | some (some method) => do
      let receiver ← Peek 0 vm
      let (bound, vm1) ← AllocateObject env (Obj.BoundMethod receiver (AS_OBJ method)) vm
      let (_, vm2) ← Pop vm1
      let vm3 ← Push (OBJ_VAL bound) vm2
      some (true, vm3)
  | _ => none

/-- The search loop of `CaptureUpValue(local)`: the last upvalue passed
(`prevUpValue`) and the first one whose location is not above `local`. -/
def CaptureUpValueLoop (vm : VM) (local_ : Nat) :
    Nat → Option Nat → Option Nat → Option (Option Nat × Option Nat)
  | 0, _, _ => none
  | fuel + 1, prevUpValue, upValue =>
    match upValue with
    | none => some (prevUpValue, none)
    | some u =>
      match vm.Heap u with
      | some (Obj.UpValue (UpValueLocation.Stack slot) _ next) =>
        if slot > local_ then CaptureUpValueLoop vm local_ fuel (some u) next
        else some (prevUpValue, some u)
      | _ => none

/-- Function `CaptureUpValue(local)`, `local` being a stack slot. -/
def CaptureUpValue (env : VMEnv) (local_ : Nat) (vm : VM) : Option (Nat × VM) :=
  match CaptureUpValueLoop vm local_ (vm.Objects.length + 1) none vm.OpenUpValues with
  | none => none
  | some (prevUpValue, upValue) =>
    match (match upValue with
        | none => some false
        | some u =>
          match vm.Heap u with
          | some (Obj.UpValue (UpValueLocation.Stack slot) _ _) => some (decide (slot = local_))
          | _ => none) with
    | none => none
    | some true => upValue.map (fun u => (u, vm))
    | some false =>
      match AllocateObject env (Obj.UpValue (UpValueLocation.Stack local_) NIL_VAL upValue) vm
        with
      | none => none
      | some (created, vm1) =>
        match prevUpValue with
        | none => some (created, { vm1 with OpenUpValues := some created })
        | some p =>
          match vm1.Heap p with
          | some (Obj.UpValue location closed _) =>
            some (created, vm1.store p (Obj.UpValue location closed (some created)))
          | _ => none

/-- The loop of `CloseUpValues(last)`, `last` being a stack slot. -/
def CloseUpValuesLoop (last : Nat) : Nat → VM → Option VM
  | 0, _ => none
  | fuel + 1, vm =>
    match vm.OpenUpValues with
    | none => some vm
    | some u =>
      match vm.Heap u with
      | some (Obj.UpValue (UpValueLocation.Stack slot) _ next) =>
        if slot ≥ last then
          match vm.getSlot slot with
          | none => none
          | some value =>
            CloseUpValuesLoop last fuel
              { vm.store u (Obj.UpValue UpValueLocation.Closed value next) with
                OpenUpValues := next }
        else some vm
      | _ => none

/-- Function `CloseUpValues(last)`. -/
def CloseUpValues (last : Nat) (vm : VM) : Option VM :=
  CloseUpValuesLoop last (vm.Objects.length + 1) vm

/-- Function `DefineClassMethod(name)`. -/
def DefineClassMethod (name : Nat) (vm : VM) : Option VM := do
  let method ← Peek 0 vm
  let klass ← Peek 1 vm
  match vm.Heap (AS_OBJ klass) with
  | some (Obj.Class className methods) =>
    let (_, methods1) ← TableSet vm.strings methods name method
    let (_, vm1) ← Pop (vm.store (AS_OBJ klass) (Obj.Class className methods1))
    some vm1
  | _ => none

/-- Function `TakeString(chars, length)` called from the virtual machine. -/
def VM.TakeString (env : VMEnv) (text : List Nat) (length : Nat) (vm : VM) :
    Option (Nat × VM) :=
  match CLox.TakeString ⟨vm.strings, vm.Strings, vm.Objects⟩ text length
      (env.alloc vm.Allocs) none none with
  | none => none
  | some (string, vms) =>
    some (string,
      { vm with
        Heap := fun p => if p = string then some (Obj.String (vms.Heap string)) else vm.Heap p
        Strings := vms.Strings
        Objects := vms.Objects
        Allocs := vm.Allocs + 1 })

/-- Function `Concatenate()`. -/
def Concatenate (env : VMEnv) (vm : VM) : Option VM := do
  let b ← Peek 0 vm
  let a ← Peek 1 vm
  match vm.Heap (AS_OBJ a), vm.Heap (AS_OBJ b) with
  | some (Obj.String sa), some (Obj.String sb) =>
    let (result, vm1) ←
      vm.TakeString env (sa.Chars.take sa.Length ++ sb.Chars.take sb.Length ++ [0])
        (sa.Length + sb.Length)
    let (_, vm2) ← Pop vm1
    let (_, vm3) ← Pop vm2
    Push (OBJ_VAL result) vm3
  | _, _ => none

/-- The function of the innermost frame, `frame->Closure->Function`. -/
def VM.frameFunction (vm : VM) : Option ObjFunction :=
  match vm.Frames with
  | [] => none
  | frame :: _ =>
    match vm.Heap frame.Closure with
    | some (Obj.Closure function _) =>
      match vm.Heap function with
      | some (Obj.Function f) => some f
      | _ => none
    | _ => none

/-- The upvalues of the innermost frame, `frame->Closure->UpValues`. -/
def VM.frameUpValues (vm : VM) : Option (List (Option Nat)) :=
  match vm.Frames with
  | [] => none
  | frame :: _ =>
    match vm.Heap frame.Closure with
    | some (Obj.Closure _ upValues) => some upValues
    | _ => none

/-- The assignment `frame->IP = ip`. -/
def VM.setIP (vm : VM) (ip : Nat) : VM :=
  match vm.Frames with
  | [] => vm
  | frame :: frames => { vm with Frames := { frame with IP := ip } :: frames }

/-- Macro `READ_BYTE()`. -/
def READ_BYTE (vm : VM) : Option (Nat × VM) := do
  let frame ← vm.Frames.head?
  let f ← vm.frameFunction
  let byte ← f.Chunk.Code[frame.IP]?
  some (byte, vm.setIP (frame.IP + 1))

/-- Macro `READ_CONSTANT()`. -/
def READ_CONSTANT (vm : VM) : Option (Value × VM) := do
  let (index, vm1) ← READ_BYTE vm
  let f ← vm.frameFunction
  let constant ← f.Chunk.Constants[index]?
  some (constant, vm1)

/-- Macro `READ_STRING()`. -/
def READ_STRING (vm : VM) : Option (Nat × VM) :=
  (READ_CONSTANT vm).map (fun r => (AS_OBJ r.1, r.2))

/-- The handler of `OP_JUMP` on the code and the instruction pointer after the
opcode: the new instruction pointer. -/
def OP_JUMP (code : List Nat) (ip : Nat) : Option Nat :=
  match READ_SHORT code ip with
  | none => none
  | some (ip2, offset) => some (ip2 + offset)

/-- The handler of `OP_LOOP` on the code and the instruction pointer after the
opcode: the new instruction pointer. -/
def OP_LOOP (code : List Nat) (ip : Nat) : Option Nat :=
  match READ_SHORT code ip with
  | none => none
  | some (ip2, offset) => if offset ≤ ip2 then some (ip2 - offset) else none

/-- The outcome of one iteration of the loop of `Run`: the loop goes on, or
`Run` returns. -/
inductive StepResult
  | Continue (vm : VM)
  | Return (result : InterpretResult) (vm : VM)

open StepResult

/-- Macro `BINARY_OP(valueType, op)`, with `valueType(a op b)` given on the bits. -/
def BINARY_OP (op : Value → Value → Value) (vm : VM) : Option StepResult := do
  let b ← Peek 0 vm
  let a ← Peek 1 vm
  if ¬ IS_NUMBER b ∨ ¬ IS_NUMBER a then
    some (Return INTERPRET_RUNTIME_ERROR (RuntimeError (chars "Operands must be numbers.") [] [] vm))
  else
    let (_, vm1) ← Pop vm
    let (_, vm2) ← Pop vm1
    (Push (op a b) vm2).map Continue

/-- Whether a value is an object of the heap with the given property of its
type tag (`IsObjType`); `none` when the pointer points to no object. -/
def IsObjType (vm : VM) (value : Value) (isType : Obj → Bool) : Option Bool :=
  if IS_OBJ value then (vm.Heap (AS_OBJ value)).map isType else some false

/-- The loop of `OP_CLOSURE` that fills `closure->UpValues[i]` for `i` from
`i` on, `n` being the number of upvalues left. -/
def ClosureUpValuesLoop (env : VMEnv) (closure : Nat) (slots : Nat) : Nat → Nat → VM → Option VM
  | 0, _, vm => some vm
  | n + 1, i, vm => do
    let (isLocal, vm1) ← READ_BYTE vm
    let (index, vm2) ← READ_BYTE vm1
    let (upValue, vm3) ←
      if isLocal ≠ 0 then (CaptureUpValue env (slots + index) vm2).map (fun r => (some r.1, r.2))
      else do
        let upValues ← vm2.frameUpValues
        let u ← upValues[index]?
        some (u, vm2)
    match vm3.Heap closure with
    | some (Obj.Closure function upValues) =>
      ClosureUpValuesLoop env closure slots n (i + 1)
        (vm3.store closure (Obj.Closure function (upValues.set i upValue)))
    | _ => none

namespace Run

/-! The cases of the `switch` in `Run`, on the state after the opcode has been
read. -/

def OP_CONSTANT (vm : VM) : Option StepResult := do
  let (constant, vm1) ← READ_CONSTANT vm
  (Push constant vm1).map Continue

def OP_NIL (vm : VM) : Option StepResult := (Push NIL_VAL vm).map Continue

def OP_TRUE (vm : VM) : Option StepResult := (Push (BOOL_VAL true) vm).map Continue

def OP_FALSE (vm : VM) : Option StepResult := (Push (BOOL_VAL false) vm).map Continue

def OP_POP (vm : VM) : Option StepResult := (Pop vm).map (fun r => Continue r.2)

def OP_GET_LOCAL (vm : VM) : Option StepResult := do
  let (slot, vm1) ← READ_BYTE vm
  let frame ← vm1.Frames.head?
  let value ← vm1.getSlot (frame.Slots + slot)
  (Push value vm1).map Continue

def OP_SET_LOCAL (vm : VM) : Option StepResult := do
  let (slot, vm1) ← READ_BYTE vm
  let frame ← vm1.Frames.head?
  let value ← Peek 0 vm1
  (vm1.setSlot (frame.Slots + slot) value).map Continue

def OP_GET_GLOBAL (vm : VM) : Option StepResult := do
  let (name, vm1) ← READ_STRING vm
  match ← TableGet vm1.strings vm1.Globals name with
  | none =>
    some (Return INTERPRET_RUNTIME_ERROR
      (RuntimeError (chars "Undefined variable \x27%s\x27.") [] (vm1.strings name).Chars vm1))
  | some value => (Push value vm1).map Continue

def OP_DEFINE_GLOBAL (vm : VM) : Option StepResult := do
  let (name, vm1) ← READ_STRING vm
  let value ← Peek 0 vm1
  let (_, globals) ← TableSet vm1.strings vm1.Globals name value
  (Pop { vm1 with Globals := globals }).map (fun r => Continue r.2)

def OP_SET_GLOBAL (vm : VM) : Option StepResult := do
  let (name, vm1) ← READ_STRING vm
  let value ← Peek 0 vm1
  let (isNewKey, globals) ← TableSet vm1.strings vm1.Globals name value
  if isNewKey then
    let (_, globals1) ← TableDelete vm1.strings globals name
    some (Return INTERPRET_RUNTIME_ERROR
      (RuntimeError (chars "Undefined variable \x27%s\x27.") [] (vm1.strings name).Chars
        { vm1 with Globals := globals1 }))
  else some (Continue { vm1 with Globals := globals })

def OP_GET_UPVALUE (vm : VM) : Option StepResult := do
  let (slot, vm1) ← READ_BYTE vm
  let upValues ← vm1.frameUpValues
  let upValue ← upValues[slot]?
  match upValue.bind vm1.Heap with
  | some (Obj.UpValue (UpValueLocation.Stack s) _ _) =>
    (vm1.getSlot s).bind (fun value => (Push value vm1).map Continue)
  | some (Obj.UpValue UpValueLocation.Closed closed _) => (Push closed vm1).map Continue
  | _ => none

def OP_SET_UPVALUE (vm : VM) : Option StepResult := do
  let (slot, vm1) ← READ_BYTE vm
  let upValues ← vm1.frameUpValues
  let upValue ← upValues[slot]?
  let value ← Peek 0 vm1
  match upValue, upValue.bind vm1.Heap with
  | _, some (Obj.UpValue (UpValueLocation.Stack s) _ _) => (vm1.setSlot s value).map Continue
  | some u, some (Obj.UpValue UpValueLocation.Closed _ next) =>
    some (Continue (vm1.store u (Obj.UpValue UpValueLocation.Closed value next)))
  | _, _ => none

def OP_GET_PROPERTY (env : VMEnv) (vm : VM) : Option StepResult := do
  let receiver ← Peek 0 vm
  match ← IsObjType vm receiver (fun o => match o with | Obj.Instance _ _ => true | _ => false),
      vm.Heap (AS_OBJ receiver) with
  | true, some (Obj.Instance klass fields) =>
    let (name, vm1) ← READ_STRING vm
    match ← TableGet vm1.strings fields name with
    | some value =>
      let (_, vm2) ← Pop vm1
      (Push value vm2).map Continue
    | none =>
      let (ok, vm2) ← BindMethod env klass name vm1
      if ok then some (Continue vm2) else some (Return INTERPRET_RUNTIME_ERROR vm2)
  | _, _ =>
    some (Return INTERPRET_RUNTIME_ERROR
      (RuntimeError (chars "Only instances have properties.") [] [] vm))

def OP_SET_PROPERTY (vm : VM) : Option StepResult := do
  let receiver ← Peek 1 vm
  match ← IsObjType vm receiver (fun o => match o with | Obj.Instance _ _ => true | _ => false),
      vm.Heap (AS_OBJ receiver) with
  | true, some (Obj.Instance klass fields) =>
    let (name, vm1) ← READ_STRING vm
    let value ← Peek 0 vm1
    let (_, fields1) ← TableSet vm1.strings fields name value
    let vm2 := vm1.store (AS_OBJ receiver) (Obj.Instance klass fields1)
    let (value1, vm3) ← Pop vm2
    let (_, vm4) ← Pop vm3
    (Push value1 vm4).map Continue
  | _, _ =>
    some (Return INTERPRET_RUNTIME_ERROR
      (RuntimeError (chars "Only instances have fields.") [] [] vm))

def OP_GET_SUPER (env : VMEnv) (vm : VM) : Option StepResult := do
  let (name, vm1) ← READ_STRING vm
  let (superClass, vm2) ← Pop vm1
  let (ok, vm3) ← BindMethod env (AS_OBJ superClass) name vm2
  if ok then some (Continue vm3) else some (Return INTERPRET_RUNTIME_ERROR vm3)

def OP_EQUAL (vm : VM) : Option StepResult := do
  let (b, vm1) ← Pop vm
  let (a, vm2) ← Pop vm1
  let equal ← ValuesEqual a b
  (Push (BOOL_VAL equal) vm2).map Continue

def OP_GREATER (env : VMEnv) (vm : VM) : Option StepResult :=
  BINARY_OP (fun a b => BOOL_VAL (env.greater a b)) vm

def OP_LESS (env : VMEnv) (vm : VM) : Option StepResult :=
  BINARY_OP (fun a b => BOOL_VAL (env.less a b)) vm

def OP_ADD (env : VMEnv) (vm : VM) : Option StepResult := do
  let b ← Peek 0 vm
  let a ← Peek 1 vm
  let isString := fun o => match o with | Obj.String _ => true | _ => false
  let bothStrings ←
    match IsObjType vm b isString with
    | none => none
    | some false => some false
    | some true => IsObjType vm a isString
  if bothStrings then (Concatenate env vm).map Continue
  else if IS_NUMBER b && IS_NUMBER a then
    let (_, vm1) ← Pop vm
    let (_, vm2) ← Pop vm1
    (Push (env.add a b) vm2).map Continue
  else
    some (Return INTERPRET_RUNTIME_ERROR
      (RuntimeError (chars "Operands must be two numbers or two strings.") [] [] vm))

def OP_SUBTRACT (env : VMEnv) (vm : VM) : Option StepResult := BINARY_OP env.sub vm

def OP_MULTIPLY (env : VMEnv) (vm : VM) : Option StepResult := BINARY_OP env.mul vm

def OP_DIVIDE (env : VMEnv) (vm : VM) : Option StepResult := BINARY_OP env.div vm

def OP_NOT (vm : VM) : Option StepResult :=
  (CLox.OP_NOT vm.Stack).map (fun stack => Continue { vm with Stack := stack })

def OP_NEGATE (env : VMEnv) (vm : VM) : Option StepResult := do
  let value ← Peek 0 vm
  if ¬ IS_NUMBER value then
    some (Return INTERPRET_RUNTIME_ERROR
      (RuntimeError (chars "Operand must be a number.") [] [] vm))
  else
    let (_, vm1) ← Pop vm
    (Push (env.neg value) vm1).map Continue

def OP_PRINT (vm : VM) : Option StepResult :=
  (Pop vm).map (fun r => Continue { r.2 with stdout := r.2.stdout ++ [r.1] })

def OP_JUMP (vm : VM) : Option StepResult := do
  let frame ← vm.Frames.head?
  let f ← vm.frameFunction
  (CLox.OP_JUMP f.Chunk.Code frame.IP).map (fun ip => Continue (vm.setIP ip))

def OP_JUMP_IF_FALSE (vm : VM) : Option StepResult := do
  let frame ← vm.Frames.head?
  let f ← vm.frameFunction
  (CLox.OP_JUMP_IF_FALSE f.Chunk.Code frame.IP vm.Stack).map (fun ip => Continue (vm.setIP ip))

def OP_LOOP (vm : VM) : Option StepResult := do
  let frame ← vm.Frames.head?
  let f ← vm.frameFunction
  (CLox.OP_LOOP f.Chunk.Code frame.IP).map (fun ip => Continue (vm.setIP ip))

def OP_CALL (env : VMEnv) (vm : VM) : Option StepResult := do
  let (argCount, vm1) ← READ_BYTE vm
  let callee ← Peek argCount vm1
  let (ok, vm2) ← CallValue env callee argCount vm1
  if ok then some (Continue vm2) else some (Return INTERPRET_RUNTIME_ERROR vm2)

def OP_INVOKE (env : VMEnv) (vm : VM) : Option StepResult := do
  let (method, vm1) ← READ_STRING vm
  let (argCount, vm2) ← READ_BYTE vm1
  let (ok, vm3) ← Invoke env method argCount vm2
  if ok then some (Continue vm3) else some (Return INTERPRET_RUNTIME_ERROR vm3)

def OP_SUPER_INVOKE (vm : VM) : Option StepResult := do
  let (method, vm1) ← READ_STRING vm
  let (argCount, vm2) ← READ_BYTE vm1
  let (superClass, vm3) ← Pop vm2
  let (ok, vm4) ← InvokeFromClass (AS_OBJ superClass) method argCount vm3
  if ok then some (Continue vm4) else some (Return INTERPRET_RUNTIME_ERROR vm4)

def OP_CLOSURE (env : VMEnv) (vm : VM) : Option StepResult := do
  let (constant, vm1) ← READ_CONSTANT vm
  match vm1.Heap (AS_OBJ constant) with
  | some (Obj.Function f) =>
    let (closure, vm2) ←
      AllocateObject env (Obj.Closure (AS_OBJ constant) (List.replicate f.UpValueCount none)) vm1
    let vm3 ← Push (OBJ_VAL closure) vm2
    let frame ← vm3.Frames.head?
    (ClosureUpValuesLoop env closure frame.Slots f.UpValueCount 0 vm3).map Continue
  | _ => none

def OP_CLOSE_UPVALUE (vm : VM) : Option StepResult := do
  let vm1 ← if vm.Stack.length = 0 then none else CloseUpValues (vm.Stack.length - 1) vm
  (Pop vm1).map (fun r => Continue r.2)

def OP_RETURN (vm : VM) : Option StepResult := do
  let (result, vm1) ← Pop vm
  let frame ← vm1.Frames.head?
  let vm2 ← CloseUpValues frame.Slots vm1
  let vm3 : VM := { vm2 with Frames := vm2.Frames.tail }
  if vm3.Frames.length = 0 then
    (Pop vm3).map (fun r => Return INTERPRET_OK r.2)
  else if frame.Slots ≤ vm3.Stack.length then
    (Push result { vm3 with Stack := vm3.Stack.drop (vm3.Stack.length - frame.Slots) }).map
      Continue
  else none

def OP_CLASS (env : VMEnv) (vm : VM) : Option StepResult := do
  let (name, vm1) ← READ_STRING vm
  let (klass, vm2) ← AllocateObject env (Obj.Class name InitTable) vm1
  (Push (OBJ_VAL klass) vm2).map Continue

def OP_INHERIT (vm : VM) : Option StepResult := do
  let superClass ← Peek 1 vm
  match ← IsObjType vm superClass (fun o => match o with | Obj.Class _ _ => true | _ => false),
      vm.Heap (AS_OBJ superClass) with
  | true, some (Obj.Class _ superMethods) =>
    let subClass ← Peek 0 vm
    match vm.Heap (AS_OBJ subClass) with
    | some (Obj.Class name methods) =>
      let methods1 ← TableAddAll vm.strings superMethods methods
      (Pop (vm.store (AS_OBJ subClass) (Obj.Class name methods1))).map (fun r => Continue r.2)
    | _ => none
  | _, _ =>
    some (Return INTERPRET_RUNTIME_ERROR
      (RuntimeError (chars "Superclass must be a class.") [] [] vm))

def OP_METHOD (vm : VM) : Option StepResult := do
  let (name, vm1) ← READ_STRING vm
  (DefineClassMethod name vm1).map Continue

end Run

/-- One iteration of the `for (;;)` loop of `Run`: the opcode is read and its
case of the `switch` is run; a byte that is no opcode has no case. -/
def RunStep (env : VMEnv) (vm : VM) : Option StepResult :=
  match READ_BYTE vm with
  | none => none
  | some (instruction, vm1) =>
    if instruction = OpCode.OP_CONSTANT then Run.OP_CONSTANT vm1
    else if instruction = OpCode.OP_NIL then Run.OP_NIL vm1
    else if instruction = OpCode.OP_TRUE then Run.OP_TRUE vm1
    else if instruction = OpCode.OP_FALSE then Run.OP_FALSE vm1
    else if instruction = OpCode.OP_POP then Run.OP_POP vm1
    else if instruction = OpCode.OP_GET_LOCAL then Run.OP_GET_LOCAL vm1
    else if instruction = OpCode.OP_SET_LOCAL then Run.OP_SET_LOCAL vm1
    else if instruction = OpCode.OP_GET_GLOBAL then Run.OP_GET_GLOBAL vm1
    else if instruction = OpCode.OP_DEFINE_GLOBAL then Run.OP_DEFINE_GLOBAL vm1
    else if instruction = OpCode.OP_SET_GLOBAL then Run.OP_SET_GLOBAL vm1
    else if instruction = OpCode.OP_GET_UPVALUE then Run.OP_GET_UPVALUE vm1
    else if instruction = OpCode.OP_SET_UPVALUE then Run.OP_SET_UPVALUE vm1
    else if instruction = OpCode.OP_GET_PROPERTY then Run.OP_GET_PROPERTY env vm1
    else if instruction = OpCode.OP_SET_PROPERTY then Run.OP_SET_PROPERTY vm1
    else if instruction = OpCode.OP_GET_SUPER then Run.OP_GET_SUPER env vm1
    else if instruction = OpCode.OP_EQUAL then Run.OP_EQUAL vm1
    else if instruction = OpCode.OP_GREATER then Run.OP_GREATER env vm1
    else if instruction = OpCode.OP_LESS then Run.OP_LESS env vm1
    else if instruction = OpCode.OP_ADD then Run.OP_ADD env vm1
    else if instruction = OpCode.OP_SUBTRACT then Run.OP_SUBTRACT env vm1
    else if instruction = OpCode.OP_MULTIPLY then Run.OP_MULTIPLY env vm1
    else if instruction = OpCode.OP_DIVIDE then Run.OP_DIVIDE env vm1
    else if instruction = OpCode.OP_NOT then Run.OP_NOT vm1
    else if instruction = OpCode.OP_NEGATE then Run.OP_NEGATE env vm1
    else if instruction = OpCode.OP_PRINT then Run.OP_PRINT vm1
    else if instruction = OpCode.OP_JUMP then Run.OP_JUMP vm1
    else if instruction = OpCode.OP_JUMP_IF_FALSE then Run.OP_JUMP_IF_FALSE vm1
    else if instruction = OpCode.OP_LOOP then Run.OP_LOOP vm1
    else if instruction = OpCode.OP_CALL then Run.OP_CALL env vm1
    else if instruction = OpCode.OP_INVOKE then Run.OP_INVOKE env vm1
    else if instruction = OpCode.OP_SUPER_INVOKE then Run.OP_SUPER_INVOKE vm1
    else if instruction = OpCode.OP_CLOSURE then Run.OP_CLOSURE env vm1
    else if instruction = OpCode.OP_CLOSE_UPVALUE then Run.OP_CLOSE_UPVALUE vm1
    else if instruction = OpCode.OP_RETURN then Run.OP_RETURN vm1
    else if instruction = OpCode.OP_CLASS then Run.OP_CLASS env vm1
    else if instruction = OpCode.OP_INHERIT then Run.OP_INHERIT vm1
    else if instruction = OpCode.OP_METHOD then Run.OP_METHOD vm1
    else some (Continue vm1)

/-- Function `Run()`: at most `fuel` instructions are executed. -/
def RunLoop (env : VMEnv) : Nat → VM → Option (InterpretResult × VM)
  | 0, _ => none
  | fuel + 1, vm =>
    match RunStep env vm with
    | none => none
    | some (Return result vm1) => some (result, vm1)
    | some (Continue vm1) => RunLoop env fuel vm1

/-- Function `NewClosure(function)`. -/
def NewClosure (env : VMEnv) (function : Nat) (vm : VM) : Option (Nat × VM) :=
  match vm.Heap function with
  | some (Obj.Function f) =>
    AllocateObject env (Obj.Closure function (List.replicate f.UpValueCount none)) vm
  | _ => none

/-- Function `CopyString(chars, length)` called from the virtual machine. -/
def VM.CopyString (env : VMEnv) (text : List Nat) (length : Nat) (vm : VM) :
    Option (Nat × VM) :=
  match CLox.CopyString ⟨vm.strings, vm.Strings, vm.Objects⟩ text length
      (env.alloc vm.Allocs) none none none with
  | none => none
  | some (string, vms) =>
    some (string,
      { vm with
        Heap := fun p => if p = string then some (Obj.String (vms.Heap string)) else vm.Heap p
        Strings := vms.Strings
        Objects := vms.Objects
        Allocs := vm.Allocs + 1 })

/-- Function `DefineNativeFunction(name, function)`. -/
def DefineNativeFunction (env : VMEnv) (name : List Nat) (function : NativeFn) (vm : VM) :
    Option VM := do
  let (string, vm1) ← vm.CopyString env name name.length
  let vm2 ← Push (OBJ_VAL string) vm1
  let (native, vm3) ← AllocateObject env (Obj.NativeFunction function) vm2
  let vm4 ← Push (OBJ_VAL native) vm3
  let key ← vm4.getSlot 0
  let value ← vm4.getSlot 1
  let (_, globals) ← TableSet vm4.strings vm4.Globals (AS_OBJ key) value
  let (_, vm5) ← Pop { vm4 with Globals := globals }
  let (_, vm6) ← Pop vm5
  some vm6

/-- Function `InitVM()` for the whole machine, on an empty heap. -/
def VM.InitVM (env : VMEnv) : Option VM := do
  let vm0 : VM := ⟨[], [], InitTable, InitTable, none, none, [], fun _ => none, 0, [], []⟩
  let (initString, vm1) ← vm0.CopyString env (chars "init") 4
  DefineNativeFunction env (chars "clock") NativeFn.ClockNative
    { vm1 with InitString := some initString }

/-- The heap of the machine after a compilation: the functions and the strings
the compiler has created are the objects at their addresses. -/
def VM.afterCompile (vm : VM) (st : CompileState) : VM :=
  { vm with
    Heap := fun p =>
      match st.Functions.lookup p with
      | some f => some (Obj.Function f)
      | none =>
        if p ∈ st.vm.Objects ∧ p ∉ vm.Objects then some (Obj.String (st.vm.Heap p))
        else vm.Heap p
    Strings := st.vm.Strings
    Objects := st.vm.Objects
    Allocs := vm.Allocs + st.Allocs }

/-- Function `Interpret(source)`: the result, the machine and the diagnostics
of the compiler.  `fuel` bounds the compilation and the number of
instructions executed. -/
def Interpret (env : VMEnv) (fuel : Nat) (vm : VM) (source : List Nat) :
    Option (InterpretResult × VM × List (Token × List Nat)) :=
  match Compile ⟨fun k => env.alloc (vm.Allocs + k), env.strtod⟩ fuel
      ⟨vm.strings, vm.Strings, vm.Objects⟩ source with
  | none => none
  | some (none, st) => some (INTERPRET_COMPILE_ERROR, vm.afterCompile st, st.stderr)
  | some (some function, st) => do
    let vm1 ← Push (OBJ_VAL function) (vm.afterCompile st)
    let (closure, vm2) ← NewClosure env function vm1
    let (_, vm3) ← Pop vm2
    let vm4 ← Push (OBJ_VAL closure) vm3
    let (_, vm5) ← Call closure 0 vm4
    let (result, vm6) ← RunLoop env fuel vm5
    some (result, vm6, st.stderr)
/-! ## The garbage collector (`Memory.cpp`, `MarkTable` of `Table.cpp`,
`MarkCompilerRoots` of `Compiler.cpp`)

The mark bit `IsMarked` of the objects is the list `Marked` of the addresses
of the marked objects; the gray stack `vm.GrayStack[0 .. GrayCount)` is a list
with the top first.  Growing the gray stack is taken to succeed, and the
threshold `vm.NextGC` is not represented. -/

/-- The mark bits and the gray stack of the collector. -/
structure Collector where
  Marked : List Nat
  GrayStack : List Nat
deriving DecidableEq, Repr

/-- Function `MarkObject(object)`; a pointer to no object has no result. -/
def MarkObject (heap : Nat → Option Obj) (object : Option Nat) (gc : Collector) :
    Option Collector :=
  match object with
  | none => some gc
  | some p =>
    match heap p with
    | none => none
    | some _ =>
      if p ∈ gc.Marked then some gc
      else some ⟨p :: gc.Marked, p :: gc.GrayStack⟩

/-- Function `MarkValue(value)`. -/
def MarkValue (heap : Nat → Option Obj) (value : Value) (gc : Collector) : Option Collector :=
  if IS_OBJ value then MarkObject heap (some (AS_OBJ value)) gc else some gc

/-- Function `MarkArray(array)`, on the values of the array in order. -/
def MarkArray (heap : Nat → Option Obj) : List Value → Collector → Option Collector
  | [], gc => some gc
  | value :: values, gc => (MarkValue heap value gc).bind (MarkArray heap values)

/-- The loop of `MarkTable` for `n` more entries from index `i`. -/
def MarkTableLoop (heap : Nat → Option Obj) (entries : List Entry) :
    Nat → Nat → Collector → Option Collector
  | 0, _, gc => some gc
  | n + 1, i, gc =>
    match entries[i]? with
    | none => none
    | some entry =>
      (MarkObject heap entry.Key gc).bind fun gc1 =>
        (MarkValue heap entry.Value gc1).bind (MarkTableLoop heap entries n (i + 1))

/-- Function `MarkTable(table)`. -/
def MarkTable (heap : Nat → Option Obj) (table : Table) (gc : Collector) : Option Collector :=
  MarkTableLoop heap table.Entries table.Capacity 0 gc

/-- The loop of `BlackenObject` over the upvalues of a closure, and the loops
of `MarkRoots` over the closures of the frames and over the functions of the
compilers: `MarkObject` on each pointer in order. -/
def MarkObjects (heap : Nat → Option Obj) : List (Option Nat) → Collector → Option Collector
  | [], gc => some gc
  | object :: objects, gc => (MarkObject heap object gc).bind (MarkObjects heap objects)

/-- Function `BlackenObject(object)`. -/
def BlackenObject (heap : Nat → Option Obj) (object : Nat) (gc : Collector) :
    Option Collector :=
  match heap object with
  | none => none
  | some (Obj.BoundMethod receiver method) =>
    (MarkValue heap receiver gc).bind (MarkObject heap (some method))
  | some (Obj.Class name methods) =>
    (MarkObject heap (some name) gc).bind (MarkTable heap methods)
  | some (Obj.Closure function upValues) =>
    (MarkObject heap (some function) gc).bind (MarkObjects heap upValues)
  | some (Obj.Function function) =>
    (MarkObject heap function.Name gc).bind (MarkArray heap function.Chunk.Constants)
  | some (Obj.Instance klass fields) =>
    (MarkObject heap (some klass) gc).bind (MarkTable heap fields)
  | some (Obj.UpValue _ closed _) => MarkValue heap closed gc
  | some (Obj.NativeFunction _) => some gc
  | some (Obj.String _) => some gc

/-- The loop of `MarkRoots` over the open upvalues. -/
def MarkOpenUpValues (heap : Nat → Option Obj) :
    Nat → Option Nat → Collector → Option Collector
  | 0, _, _ => none
  | fuel + 1, upValue, gc =>
    match upValue with
    | none => some gc
    | some u =>
      match heap u with
      | some (Obj.UpValue _ _ next) =>
        (MarkObject heap (some u) gc).bind (MarkOpenUpValues heap fuel next)
      | _ => none

/-- Function `MarkRoots()`; `compilers` are the functions of the compilers
from `current` outwards (`MarkCompilerRoots`). -/
def MarkRoots (vm : VM) (compilers : List Nat) (gc : Collector) : Option Collector := do
  let gc1 ← MarkArray vm.Heap vm.Stack.reverse gc
  let gc2 ← MarkObjects vm.Heap (vm.Frames.reverse.map (fun frame => some frame.Closure)) gc1
  let gc3 ← MarkOpenUpValues vm.Heap (vm.Objects.length + 1) vm.OpenUpValues gc2
  let gc4 ← MarkTable vm.Heap vm.Globals gc3
  let gc5 ← MarkObjects vm.Heap (compilers.map some) gc4
  MarkObject vm.Heap vm.InitString gc5

/-- Function `TraceReferences()`; every object is blackened once, so the loop
runs at most once for each object. -/
def TraceReferences (heap : Nat → Option Obj) : Nat → Collector → Option Collector
  | 0, _ => none
  | fuel + 1, gc =>
    match gc.GrayStack with
    | [] => some gc
    | object :: rest =>
      (BlackenObject heap object { gc with GrayStack := rest }).bind (TraceReferences heap fuel)

/-- Function `Sweep()`: the unmarked objects are unlinked from `vm.Objects`
and freed, and the mark of the others is cleared. -/
def Sweep (vm : VM) (gc : Collector) : VM × Collector :=
  ({ vm with
      Objects := vm.Objects.filter (fun p => decide (p ∈ gc.Marked))
      Heap := fun p => if p ∈ vm.Objects ∧ p ∉ gc.Marked then none else vm.Heap p },
    { gc with Marked := gc.Marked.filter (fun p => decide (p ∉ vm.Objects)) })

/-- Function `CollectGarbage()`. -/
def VM.CollectGarbage (vm : VM) (compilers : List Nat) (gc : Collector) :
    Option (VM × Collector) := do
  let gc1 ← MarkRoots vm compilers gc
  let gc2 ← TraceReferences vm.Heap (vm.Objects.length + 1) gc1
  let strings ← TableRemoveWhite vm.strings (fun k => decide (k ∈ gc2.Marked)) vm.Strings
  some (Sweep { vm with Strings := strings } gc2)

/-! ## The disassembler (`Debug.cpp`)

Of the disassembler the reads of the arrays and the offset it returns are
represented: a function returns `none` when it reads a byte of code or a
constant outside the written part of its array, or takes a constant for a
function that is none.  The text printed, with the line column read from
`Lines`, is not represented. -/

/-- Function `ConstantInstruction(name, chunk, offset)`: the offset of the next
instruction. -/
def ConstantInstruction (chunk : Chunk) (offset : Nat) : Option Nat :=
  match chunk.Code[offset + 1]? with
  | none => none
  | some constant =>
    match chunk.Constants[constant]? with
    | none => none
    | some _ => some (offset + 2)

/-- Function `InvokeInstruction(name, chunk, offset)`. -/
def InvokeInstruction (chunk : Chunk) (offset : Nat) : Option Nat :=
  match chunk.Code[offset + 1]? with
  | none => none
  | some constant =>
    match chunk.Code[offset + 2]? with
    | none => none
    | some _ =>
      match chunk.Constants[constant]? with
      | none => none
      | some _ => some (offset + 3)

/-- Function `SimpleInstruction(name, offset)`. -/
def SimpleInstruction (offset : Nat) : Option Nat := some (offset + 1)

/-- Function `ByteInstruction(name, chunk, offset)`. -/
def ByteInstruction (chunk : Chunk) (offset : Nat) : Option Nat :=
  match chunk.Code[offset + 1]? with
  | none => none
  | some _ => some (offset + 2)

/-- Function `JumpInstruction(name, sign, chunk, offset)`. -/
def JumpInstruction (chunk : Chunk) (offset : Nat) : Option Nat :=
  match chunk.Code[offset + 1]? with
  | none => none
  | some _ =>
    match chunk.Code[offset + 2]? with
    | none => none
    | some _ => some (offset + 3)

/-- The loop `for (j = 0; j < function->UpValueCount; j++)` of the case
`OP_CLOSURE`, with `n` iterations to go: two bytes are read in each. -/
def ClosureUpValues (chunk : Chunk) : Nat → Nat → Option Nat
  | 0, offset => some offset
  | n + 1, offset =>
    match chunk.Code[offset]? with
    | none => none
    | some _ =>
      match chunk.Code[offset + 1]? with
      | none => none
      | some _ => ClosureUpValues chunk n (offset + 2)

/-- The case `OP_CLOSURE` of `DisassembleInstruction`: `functions` gives the
function object at an address, for `AS_FUNCTION`. -/
def ClosureInstruction (functions : Nat → Option ObjFunction) (chunk : Chunk) (offset : Nat) :
    Option Nat :=
  match chunk.Code[offset + 1]? with
  | none => none
  | some constant =>
    match chunk.Constants[constant]? with
    | none => none
    | some value =>
      match functions (AS_OBJ value) with
      | none => none
      | some function => ClosureUpValues chunk function.UpValueCount (offset + 2)

/-- Function `DisassembleInstruction(chunk, offset)`: the offset of the next
instruction.  An unknown opcode is one byte long. -/
def DisassembleInstruction (functions : Nat → Option ObjFunction) (chunk : Chunk)
    (offset : Nat) : Option Nat :=
  match chunk.Code[offset]? with
  | none => none
  | some instruction =>
    if instruction = OpCode.OP_CONSTANT then ConstantInstruction chunk offset
    else if instruction = OpCode.OP_NIL then SimpleInstruction offset
    else if instruction = OpCode.OP_TRUE then SimpleInstruction offset
    else if instruction = OpCode.OP_FALSE then SimpleInstruction offset
    else if instruction = OpCode.OP_POP then SimpleInstruction offset
    else if instruction = OpCode.OP_GET_LOCAL then ByteInstruction chunk offset
    else if instruction = OpCode.OP_SET_LOCAL then ByteInstruction chunk offset
    else if instruction = OpCode.OP_GET_GLOBAL then ConstantInstruction chunk offset
    else if instruction = OpCode.OP_DEFINE_GLOBAL then ConstantInstruction chunk offset
    else if instruction = OpCode.OP_SET_GLOBAL then ConstantInstruction chunk offset
    else if instruction = OpCode.OP_GET_UPVALUE then ByteInstruction chunk offset
    else if instruction = OpCode.OP_SET_UPVALUE then ByteInstruction chunk offset
    else if instruction = OpCode.OP_GET_PROPERTY then ConstantInstruction chunk offset
    else if instruction = OpCode.OP_SET_PROPERTY then ConstantInstruction chunk offset
    else if instruction = OpCode.OP_GET_SUPER then ConstantInstruction chunk offset
    else if instruction = OpCode.OP_EQUAL then SimpleInstruction offset
    else if instruction = OpCode.OP_GREATER then SimpleInstruction offset
    else if instruction = OpCode.OP_LESS then SimpleInstruction offset
    else if instruction = OpCode.OP_ADD then SimpleInstruction offset
    else if instruction = OpCode.OP_SUBTRACT then SimpleInstruction offset
    else if instruction = OpCode.OP_MULTIPLY then SimpleInstruction offset
    else if instruction = OpCode.OP_DIVIDE then SimpleInstruction offset
    else if instruction = OpCode.OP_NOT then SimpleInstruction offset
    else if instruction = OpCode.OP_NEGATE then SimpleInstruction offset
    else if instruction = OpCode.OP_PRINT then SimpleInstruction offset
    else if instruction = OpCode.OP_JUMP then JumpInstruction chunk offset
    else if instruction = OpCode.OP_JUMP_IF_FALSE then JumpInstruction chunk offset
    else if instruction = OpCode.OP_LOOP then JumpInstruction chunk offset
    else if instruction = OpCode.OP_CALL then ByteInstruction chunk offset
    else if instruction = OpCode.OP_INVOKE then InvokeInstruction chunk offset
    else if instruction = OpCode.OP_SUPER_INVOKE then InvokeInstruction chunk offset
    else if instruction = OpCode.OP_CLOSURE then ClosureInstruction functions chunk offset
    else if instruction = OpCode.OP_CLOSE_UPVALUE then SimpleInstruction offset
    else if instruction = OpCode.OP_RETURN then SimpleInstruction offset
    else if instruction = OpCode.OP_CLASS then ConstantInstruction chunk offset
    else if instruction = OpCode.OP_INHERIT then SimpleInstruction offset
    else if instruction = OpCode.OP_METHOD then ConstantInstruction chunk offset
    else SimpleInstruction offset

/-- A capacity the table uses: a power of two between 8 and 2^30. -/
def Pow2Cap (c : Nat) : Prop := ∃ n, 3 ≤ n ∧ n ≤ 30 ∧ c = 2 ^ n

/-- A truly empty slot: `Key == NULL` and `IS_NIL(Value)`. -/
def Entry.isEmpty (e : Entry) : Bool := e.Key.isNone && IS_NIL e.Value

/-- Slot `i` holds a live entry or a tombstone. -/
def UsedAt (entries : List Entry) (i : Nat) : Prop :=
  ∃ e, entries[i]? = some e ∧ e.isEmpty = false

/-- Slot `i` holds the live key `k`. -/
def KeyAt (entries : List Entry) (i k : Nat) : Prop :=
  ∃ e, entries[i]? = some e ∧ e.Key = some k

/-- Slot `i` is truly empty. -/
def EmptyAt (entries : List Entry) (i : Nat) : Prop :=
  ∃ e, entries[i]? = some e ∧ e.isEmpty = true

/-- Slot `i` exists and has `Key == NULL` (empty or tombstone). -/
def NoKeyAt (entries : List Entry) (i : Nat) : Prop :=
  ∃ e, entries[i]? = some e ∧ e.Key = none

/-- Slot `i` holds a live entry. -/
def LiveAt (entries : List Entry) (i : Nat) : Prop :=
  ∃ e k, entries[i]? = some e ∧ e.Key = some k

/-- Number of slots that hold a live entry or a tombstone. -/
def slotsUsed (entries : List Entry) : Nat := entries.countP (fun e => !e.isEmpty)

/-- Number of live entries. -/
def liveCount (entries : List Entry) : Nat := entries.countP (fun e => e.Key.isSome)

/-- Invariant of an entries array of capacity `c`: keys are unique, and every
live key is reached from its home slot through used slots only. -/
structure ArrWF (heap : Nat → ObjString) (entries : List Entry) (c : Nat) : Prop where
  len : entries.length = c
  pow : Pow2Cap c
  uniq : ∀ i j k, KeyAt entries i k → KeyAt entries j k → i = j
  probe : ∀ i k, KeyAt entries i k → ∃ d, d < c ∧ ((heap k).Hash % c + d) % c = i ∧
    ∀ d', d' < d → UsedAt entries (((heap k).Hash % c + d') % c)

/-- Slot `i` holds the live key `k` with value `v`. -/
def ValAt (entries : List Entry) (i k : Nat) (v : Value) : Prop :=
  ∃ e, entries[i]? = some e ∧ e.Key = some k ∧ e.Value = v

/-- The entries array maps key `k` to value `v`. -/
def Holds (entries : List Entry) (k : Nat) (v : Value) : Prop :=
  ∃ i, ValAt entries i k v

/-- The copy loop of `AdjustCapacity` as a recursion over the list of the old
entries still to be visited; `AdjustCapacityCopy_eq_copyList` relates it to the
index loop. -/
def copyList (heap : Nat → ObjString) (capacity : Nat) :
    List Entry → List Entry × Nat → Option (List Entry × Nat)
  | [], st => some st
  | entry :: rest, (entries, count) =>
    match entry.Key with
    | none => copyList heap capacity rest (entries, count)
    | some k =>
      match FindEntry heap entries capacity k with
      | none => none
      | some dest =>
        copyList heap capacity rest (entries.set dest ⟨some k, entry.Value⟩, count + 1)

/-- No tombstones: every key-less slot is truly empty. -/
def NoTomb (entries : List Entry) : Prop :=
  ∀ e ∈ entries, e.Key = none → e.isEmpty = true

/-- In a list of entries with pairwise distinct keys, no key occurs twice. -/
def KeysDistinct (l : List Entry) : Prop :=
  List.Pairwise (fun a b => ∀ k, a.Key = some k → b.Key ≠ some k) l

/-- Representation invariant of a `Table`. -/
structure TableWF (heap : Nat → ObjString) (t : Table) : Prop where
  count_eq : t.Count = slotsUsed t.Entries
  load : 4 * t.Count ≤ 3 * t.Capacity
  arr : (t.Capacity = 0 ∧ t.Entries = []) ∨ ArrWF heap t.Entries t.Capacity

/-- The reachable tables: those reached from `InitTable` through
`TableSet`, `TableDelete` and `TableAddAll` calls that return. -/
inductive Reachable (heap : Nat → ObjString) : Table → Prop
  | init : Reachable heap InitTable
  | set {t t2 : Table} {b : Bool} (key : Nat) (value : Value) :
      Reachable heap t → TableSet heap t key value = some (b, t2) → Reachable heap t2
  | delete {t t2 : Table} {b : Bool} (key : Nat) :
      Reachable heap t → TableDelete heap t key = some (b, t2) → Reachable heap t2
  | addAll {t t2 : Table} (fromTable : Table) :
      Reachable heap t → TableAddAll heap fromTable t = some t2 → Reachable heap t2

/-- The comparison of `TableFindString`: same length, same hash, same bytes. -/
def StrMatch (heap : Nat → ObjString) (k : Nat) (chars : List Nat) (length hash : Nat) :
    Prop :=
  (heap k).Length = length ∧ (heap k).Hash = hash ∧
    (heap k).Chars.take length = chars.take length

/-- The byte content of a string object: the first `Length` bytes of `Chars`. -/
def content (s : ObjString) : List Nat := s.Chars.take s.Length

/-- A string object as `AllocateString` builds it: `Chars` holds at least
`Length` bytes and `Hash` is the FNV-1a hash of the content. -/
def StrObjWF (s : ObjString) : Prop :=
  s.Length ≤ s.Chars.length ∧ s.Hash = FNV1a32 (content s)

/-- Key `k` is a live key of table `t`. -/
def IsKey (t : Table) (k : Nat) : Prop := ∃ i, KeyAt t.Entries i k

/-- Invariant of the interning state: the intern table is well formed, its
keys are live string objects built by `AllocateString`, and no two keys have
the same content. -/
structure InternInv (vm : VMState) : Prop where
  wf : TableWF vm.Heap vm.Strings
  objs : ∀ k, IsKey vm.Strings k → k ∈ vm.Objects ∧ StrObjWF (vm.Heap k)
  uniq : ∀ k1 k2, IsKey vm.Strings k1 → IsKey vm.Strings k2 →
    content (vm.Heap k1) = content (vm.Heap k2) → k1 = k2

/-- The interning states reached after `InitVM` by `CopyString` and
`TakeString` calls that return, for any addresses handed out by the allocator
and any behaviour of the collector. -/
inductive VMReach : VMState → Prop
  | init (heap : Nat → ObjString) (addr1 addr2 : Nat) {vm : VMState} :
      InitVM heap addr1 addr2 = some vm → VMReach vm
  | copy {vm vm2 : VMState} (chars : List Nat) (length addr : Nat)
      (gcChars gcObj gcTable : Option (Nat → Bool)) {p : Nat} :
      VMReach vm → CopyString vm chars length addr gcChars gcObj gcTable = some (p, vm2) →
      VMReach vm2
  | take {vm vm2 : VMState} (chars : List Nat) (length addr : Nat)
      (gcObj gcTable : Option (Nat → Bool)) {p : Nat} :
      VMReach vm → TakeString vm chars length addr gcObj gcTable = some (p, vm2) →
      VMReach vm2

/-! ## Scenarios and sample data used in the statements -/

/-- A sample heap: the string at address `p` has hash `p` and no bytes. -/
def sampleHeap : Nat → ObjString := fun p => ⟨0, [], p⟩

/-- A live entry: `Key != NULL`. -/
def Entry.isLive (e : Entry) : Bool := e.Key.isSome

/-- A tombstone: `Key == NULL` with a non-nil value. -/
def Entry.isTombstone (e : Entry) : Bool := e.Key.isNone && !IS_NIL e.Value

/-- A sequence of `TableSet` calls, one per key/value pair, in order. -/
def runSets (heap : Nat → ObjString) : Table → List (Nat × Value) → Option Table
  | t, [] => some t
  | t, (k, v) :: rest =>
    match TableSet heap t k v with
    | none => none
    | some r => runSets heap r.2 rest

/-- A sequence of `TableDelete` calls, one per key, in order. -/
def runDeletes (heap : Nat → ObjString) : Table → List Nat → Option Table
  | t, [] => some t
  | t, k :: rest =>
    match TableDelete heap t k with
    | none => none
    | some r => runDeletes heap r.2 rest

/-- The table obtained from `InitTable` by the `TableSet` calls `kvs` followed
by the `TableDelete` calls `ds`. -/
def setsThenDeletes (heap : Nat → ObjString) (kvs : List (Nat × Value)) (ds : List Nat) :
    Option Table :=
  match runSets heap InitTable kvs with
  | none => none
  | some t => runDeletes heap t ds

/-- The entries array of capacity 8 holding the single key 9 with value 42. -/
def sampleEntries : List Entry :=
  [⟨none, NIL_VAL⟩, ⟨some 9, 42⟩, ⟨none, NIL_VAL⟩, ⟨none, NIL_VAL⟩,
   ⟨none, NIL_VAL⟩, ⟨none, NIL_VAL⟩, ⟨none, NIL_VAL⟩, ⟨none, NIL_VAL⟩]

/-- The table `InitTable` becomes by `TableSet(t, 9, 42)` under `sampleHeap`. -/
def sampleTable : Table := ⟨1, 8, sampleEntries⟩

/-- The interning state `InitVM` produces when memory initially reads as
`sampleHeap` and the allocator hands out the addresses 100 and 200: `"init"`
lives at 100 and `"clock"` at 200. -/
def sampleVM : VMState :=
  ⟨fun q => if q = 200 then ⟨5, [99, 108, 111, 99, 107, 0], 363073373⟩
      else if q = 100 then ⟨4, [105, 110, 105, 116, 0], 380752755⟩ else sampleHeap q,
    ⟨2, 8, [⟨none, NIL_VAL⟩, ⟨none, NIL_VAL⟩, ⟨none, NIL_VAL⟩, ⟨some 100, NIL_VAL⟩,
      ⟨none, NIL_VAL⟩, ⟨some 200, NIL_VAL⟩, ⟨none, NIL_VAL⟩, ⟨none, NIL_VAL⟩]⟩,
    [200, 100]⟩

/-! ## Specification-side definitions for the scanner claims -/

/-- The sixteen reserved words of Lox with their token types. -/
def keywords : List (List Nat × TokenType) :=
  [(chars "and", TOKEN_AND), (chars "class", TOKEN_CLASS), (chars "else", TOKEN_ELSE),
   (chars "false", TOKEN_FALSE), (chars "for", TOKEN_FOR), (chars "fun", TOKEN_FUN),
   (chars "if", TOKEN_IF), (chars "nil", TOKEN_NIL), (chars "or", TOKEN_OR),
   (chars "print", TOKEN_PRINT), (chars "return", TOKEN_RETURN),
   (chars "super", TOKEN_SUPER), (chars "this", TOKEN_THIS), (chars "true", TOKEN_TRUE),
   (chars "var", TOKEN_VAR), (chars "while", TOKEN_WHILE)]

/-- The token type the specification gives an identifier-shaped lexeme: the
keyword spelled by it, otherwise `TOKEN_IDENTIFIER`. -/
def keywordType (w : List Nat) : TokenType := (keywords.lookup w).getD TOKEN_IDENTIFIER

/-- An identifier character: a letter, an underscore or a digit. -/
def IsIdentChar (c : Nat) : Bool := IsAlpha c || IsDigit c

/-- The text `digit+` or `digit+ '.' digit+`: the form of a number lexeme. -/
def IsNumberForm (l : List Nat) : Prop :=
  ∃ d1 d2 : List Nat, d1 ≠ [] ∧ (∀ c ∈ d1, IsDigit c = true) ∧ (∀ c ∈ d2, IsDigit c = true) ∧
    (l = d1 ∨ (d2 ≠ [] ∧ l = d1 ++ 46 :: d2))

/-- The tokens of a source, up to and including the first `TOKEN_EOF`, as
(type, lexeme start, length); `limit` bounds the number of tokens. -/
def scanAll : Nat → Scanner → List (TokenType × CharPtr × Nat)
  | 0, _ => []
  | limit + 1, sc =>
    match ScanToken sc with
    | none => []
    | some (t, sc2) =>
      (t.Type_, t.Start, t.Length) :: (if t.Type_ = TOKEN_EOF then [] else scanAll limit sc2)

/-- The length of the number lexeme at the head of the text `t`: its leading
digits, and a `.` with the digits after it when the `.` is followed by a digit. -/
def numberLength (t : List Nat) : Nat :=
  match t.dropWhile IsDigit with
  | 46 :: c :: r =>
    if IsDigit c then (t.takeWhile IsDigit).length + 1 + ((c :: r).takeWhile IsDigit).length
    else (t.takeWhile IsDigit).length
  | _ => (t.takeWhile IsDigit).length

/-! ## Specification-side definitions for the compiler claims -/

/-- The chunk being compiled, `InitChunk` when there is no current compiler. -/
def CompileState.chunk (st : CompileState) : Chunk :=
  match st.current with
  | [] => InitChunk
  | c :: _ => c.Function.Chunk

/-- The code of the chunk being compiled. -/
def CompileState.code (st : CompileState) : List Nat := st.chunk.Code

/-- The constants of the chunk being compiled. -/
def CompileState.constants (st : CompileState) : List Value := st.chunk.Constants

/-- The state with `chunk` as the chunk being compiled. -/
def CompileState.withChunk (st : CompileState) (chunk : Chunk) : CompileState :=
  match st.current with
  | [] => st
  | c :: cs => { st with current := { c with Function := { c.Function with Chunk := chunk } } :: cs }

/-- The state after the bytes `bytes` have been written to the chunk being
compiled, each with the line of the previous token. -/
def CompileState.emit (st : CompileState) (bytes : List Nat) : CompileState :=
  st.withChunk
    { st.chunk with
      Code := st.chunk.Code ++ bytes
      Lines := st.chunk.Lines ++ List.replicate bytes.length st.parser.Previous.Line }

/-- The state after `value` has been added to the constants of the chunk being
compiled. -/
def CompileState.addConstant (st : CompileState) (value : Value) : CompileState :=
  st.withChunk { st.chunk with Constants := st.chunk.Constants ++ [value] }

/-- The code after `PatchJump(offset)` has written the distance `jump`. -/
def patchedCode (code : List Nat) (offset jump : Nat) : List Nat :=
  (code.set offset ((jump >>> 8) &&& 0xff)).set (offset + 1) (jump &&& 0xff)

/-- A compile state with an empty script function as the current compiler. -/
def sampleCompileState : CompileState :=
  ⟨InitScanner (chars "1;"), ⟨zeroToken, zeroToken, false, false⟩,
   [⟨5000, ⟨0, 0, InitChunk, none⟩, TYPE_SCRIPT, [SyntheticToken (chars "this") |> fun t => ⟨t, 0, false⟩], [], 0⟩],
   [], sampleVM, [], 1, []⟩

/-- The values of `strtod` on the texts that start with the literals `1`, `2`
and `3` followed by a character that continues no number: the bits of the
doubles 1, 2 and 3. -/
def sampleStrtod (text : List Nat) : Value :=
  match text.headD 0 with
  | 49 => 0x3ff0000000000000
  | 50 => 0x4000000000000000
  | 51 => 0x4008000000000000
  | _ => 0

/-- An environment for the examples: the allocator hands out the addresses
5000, 5008, 5016 and so on. -/
def sampleEnv : CompileEnv := ⟨fun k => 5000 + 8 * k, sampleStrtod⟩

/-- The result of a compilation as far as the examples look at it: the
function returned, the messages written and the code of the script. -/
def compileSummary (r : Option (Option Nat × CompileState)) :
    Option (Option Nat × List (List Nat) × List Nat) :=
  r.map (fun x =>
    (x.1, x.2.stderr.map Prod.snd, ((x.2.Functions.getLast?).map (fun f => f.2.Chunk.Code)).getD []))

/-- The state in which the compilation of the expression at the head of
`source` starts: the script compiler is set up and the first token is the
current one. -/
def expressionStart (source : List Nat) : CompileState :=
  ((InitCompiler sampleEnv TYPE_SCRIPT
      ⟨InitScanner source, ⟨zeroToken, zeroToken, false, false⟩, [], [], sampleVM, [], 0, []⟩).bind
    Advance).getD sampleCompileState

/-- The state after `Advance` has scanned the token `token`, the scanner being
left in `sc`. -/
def CompileState.advanced (st : CompileState) (token : Token) (sc : Scanner) : CompileState :=
  { st with
    scanner := sc
    parser := { st.parser with Previous := st.parser.Current, Current := token } }

/-- From `st` to `st1` the compiler has appended the bytes `bytes` to the code
and the values `consts` to the constants of the chunk being compiled, and has
reported no error. -/
structure Emitted (st st1 : CompileState) (bytes : List Nat) (consts : List Value) : Prop where
  current : st1.current ≠ []
  code : st1.code = st.code ++ bytes
  constants : st1.constants = st.constants ++ consts
  stderr : st1.stderr = st.stderr
  hadError : st1.parser.HadError = st.parser.HadError
  panicMode : st1.parser.PanicMode = st.parser.PanicMode
  source : st1.scanner.Source = st.scanner.Source
/-! ## The machine at a position of the code -/

/-- The machine with the instruction pointer of the innermost frame at `ip`
and the value stack `stack`. -/
def VM.resume (vm : VM) (ip : Nat) (stack : List Value) : VM :=
  { vm.setIP ip with Stack := stack }

/-- The innermost frame of the machine runs the function `f`, and its
instruction pointer is at `ip`. -/
structure Executing (vm : VM) (f : ObjFunction) (ip : Nat) : Prop where
  frames : ∃ frame rest, vm.Frames = frame :: rest ∧ frame.IP = ip
  function : vm.frameFunction = some f

/-- The machine at the entry of `Run` in `Interpret(source)`, with the
diagnostics of the compiler; `none` also when the compilation fails. -/
def InterpretStart (env : VMEnv) (fuel : Nat) (vm : VM) (source : List Nat) :
    Option (VM × List (Token × List Nat)) :=
  match Compile ⟨fun k => env.alloc (vm.Allocs + k), env.strtod⟩ fuel
      ⟨vm.strings, vm.Strings, vm.Objects⟩ source with
  | some (some function, st) => do
    let vm1 ← Push (OBJ_VAL function) (vm.afterCompile st)
    let (closure, vm2) ← NewClosure env function vm1
    let (_, vm3) ← Pop vm2
    let vm4 ← Push (OBJ_VAL closure) vm3
    let (_, vm5) ← Call closure 0 vm4
    some (vm5, st.stderr)
  | _ => none

/-- The result of `Interpret` as far as the examples look at it: the result
code, the values printed, the runtime errors and the messages of the
compiler. -/
def runSummary (r : Option (InterpretResult × VM × List (Token × List Nat))) :
    Option (InterpretResult × List Value × List RuntimeErrorMessage × List (List Nat)) :=
  r.map (fun x => (x.1, x.2.1.stdout, x.2.1.stderr, x.2.2.map Prod.snd))

/-- An environment of the machine for the examples: the allocator and `strtod`
of `sampleEnv`, and of the arithmetic on doubles the two results the examples
need, given on the bits: 2 * 3 = 6 and 1 + 6 = 7. -/
def sampleVMEnv : VMEnv :=
  ⟨sampleEnv.alloc, fun _ => 0, sampleStrtod,
    fun a b => if a = 0x3ff0000000000000 ∧ b = 0x4018000000000000 then 0x401c000000000000 else 0,
    fun _ _ => 0,
    fun a b => if a = 0x4000000000000000 ∧ b = 0x4008000000000000 then 0x4018000000000000 else 0,
    fun _ _ => 0, fun _ => 0, fun _ _ => false, fun _ _ => false⟩

/-- The state in which `ParseAnd_` is entered on `a and b;`: the code of `a`
is written and `and` is the previous token. -/
def andStart : CompileState :=
  (((Advance (expressionStart (chars "a and b;"))).bind
    (callParseFunction sampleEnv (ParsePrecedence sampleEnv 3) 4
      ParseFunction.ParseVariableExpression true)).bind Advance).getD sampleCompileState

/-- The state after the right operand of `a and b;` has been compiled. -/
def andRight : CompileState :=
  (ParsePrecedence sampleEnv 3 PREC_AND
    (andStart.emit [OpCode.OP_JUMP_IF_FALSE, 0xff, 0xff, OpCode.OP_POP])).getD sampleCompileState

/-- A machine with a closure at address 8 of the function at address 16, which
takes one parameter. -/
def arityVM : VM :=
  ⟨[], [OBJ_VAL 8], InitTable, InitTable, none, none, [8, 16],
    fun p =>
      if p = 8 then some (Obj.Closure 16 [])
      else if p = 16 then some (Obj.Function ⟨1, 0, InitChunk, none⟩)
      else none,
    2, [], []⟩

/-- The states of `ParseIfStatement` on `if (a) b;`: at its entry, after `(`,
after the condition, after `)`, and after the statement of the `then` branch. -/
def ifStart : CompileState :=
  (Advance (expressionStart (chars "if (a) b;"))).getD sampleCompileState

def ifState1 : CompileState :=
  (Consume TOKEN_LEFT_PAREN (chars "Expected \x27(\x27 after \x27if\x27.") ifStart).getD
    sampleCompileState

def ifState2 : CompileState := (ParseExpression sampleEnv 3 ifState1).getD sampleCompileState

def ifState3 : CompileState :=
  (Consume TOKEN_RIGHT_PAREN (chars "Expected \x27)\x27 after if condition.") ifState2).getD
    sampleCompileState

def ifState6 : CompileState :=
  (ParseStatement sampleEnv 3
    (ifState3.emit [OpCode.OP_JUMP_IF_FALSE, 0xff, 0xff, OpCode.OP_POP])).getD sampleCompileState

/-- The instruction `EndScope` emits for a local that leaves the scope. -/
def scopeExitInstruction (l : Local) : Nat :=
  if l.IsCaptured then OpCode.OP_CLOSE_UPVALUE else OpCode.OP_POP

/-- The state in which the compiler at the head of `current` is `c` with the
locals `locals` and the bytes `bytes` appended to its chunk, each with the
line of the previous token. -/
def CompileState.afterScope (st : CompileState) (c : Compiler) (cs : List Compiler)
    (locals : List Local) (bytes : List Nat) : CompileState :=
  { st with
    current :=
      { c with
        Locals := locals
        Function :=
          { c.Function with
            Chunk :=
              { c.Function.Chunk with
                Code := c.Function.Chunk.Code ++ bytes
                Lines := c.Function.Chunk.Lines ++
                  List.replicate bytes.length st.parser.Previous.Line } } } :: cs }

/-- The compiler at the closing brace of the inner block of
`{ var a; { var b; var c; } }`, with `b` captured by a closure. -/
def scopeEndCompiler : Compiler :=
  ⟨5000, ⟨0, 0, InitChunk, none⟩, TYPE_SCRIPT,
   [⟨SyntheticToken (chars "this"), 0, false⟩,
    ⟨⟨TOKEN_IDENTIFIER, CharPtr.src 6, 1, 1⟩, 1, false⟩,
    ⟨⟨TOKEN_IDENTIFIER, CharPtr.src 15, 1, 1⟩, 2, true⟩,
    ⟨⟨TOKEN_IDENTIFIER, CharPtr.src 22, 1, 1⟩, 2, false⟩], [], 2⟩

/-- The state in which the inner block of `{ var a; { var b; var c; } }`
ends. -/
def scopeEndState : CompileState :=
  ⟨⟨chars "\x7b var a; \x7b var b; var c; \x7d \x7d", 27, 28, 1⟩,
   ⟨⟨TOKEN_RIGHT_BRACE, CharPtr.src 27, 1, 1⟩, ⟨TOKEN_RIGHT_BRACE, CharPtr.src 25, 1, 1⟩,
    false, false⟩,
   [scopeEndCompiler], [], sampleVM, [], 1, []⟩

/-- The machine after `vm.StackTop[-argCount - 1] = OBJ_VAL(NewInstance(klass))`
when the allocator returns the address `p`: the new instance of `klass` with an
empty field table is on the heap at `p` and in the callee slot. -/
def VM.withInstance (vm : VM) (p klass argCount : Nat) : VM :=
  { vm with
    Heap := fun q => if q = p then some (Obj.Instance klass InitTable) else vm.Heap q
    Objects := p :: vm.Objects
    Allocs := vm.Allocs + 1
    Stack := vm.Stack.set argCount (OBJ_VAL p) }

/-- A machine with the string `init` at address 8, a class without methods at
address 16, and the class and one argument on the stack. -/
def classVM : VM :=
  ⟨[], [NIL_VAL, OBJ_VAL 16], InitTable, InitTable, some 8, none, [8, 16],
    fun p =>
      if p = 8 then some (Obj.String ⟨4, chars "init", 0⟩)
      else if p = 16 then some (Obj.Class 8 InitTable)
      else none,
    2, [], []⟩

/-- Whether the list `vm.OpenUpValues` linked through `Next` from `head` is the
list `l` of open upvalues, each given as its address and the stack slot its
`Location` points to. -/
def isOpenList (heap : Nat → Option Obj) : Option Nat → List (Nat × Nat) → Bool
  | head, [] => head.isNone
  | head, (a, slot) :: rest =>
    head == some a &&
      match heap a with
      | some (Obj.UpValue (UpValueLocation.Stack s) _ next) =>
        s == slot && isOpenList heap next rest
      | _ => false

/-- The open upvalues of the machine are the list `l`, their stack slots
strictly decrease from head to tail, and each is a live object. -/
def OpenSorted (vm : VM) (l : List (Nat × Nat)) : Prop :=
  isOpenList vm.Heap vm.OpenUpValues l = true ∧
    (l.map Prod.snd).Pairwise (fun a b => a > b) ∧ ∀ x ∈ l, x.1 ∈ vm.Objects

/-- A change of the machine that leaves the call frames (up to the instruction
pointers), the list of open upvalues and the open upvalue objects as they
are, and frees no object. -/
structure Keeps (vm vm1 : VM) : Prop where
  frames : vm1.Frames.map (fun f => (f.Closure, f.Slots)) =
    vm.Frames.map (fun f => (f.Closure, f.Slots))
  openUpValues : vm1.OpenUpValues = vm.OpenUpValues
  objects : ∀ p, p ∈ vm.Objects → p ∈ vm1.Objects
  heap : ∀ p slot closed next, p ∈ vm.Objects →
    vm.Heap p = some (Obj.UpValue (UpValueLocation.Stack slot) closed next) →
    vm1.Heap p = vm.Heap p

/-- The bound on the call frames: at most `FRAMES_MAX` frames, and the window
of the outermost frame starts at the bottom of the stack. -/
def FramesInv (vm : VM) : Prop :=
  vm.Frames.length ≤ FRAMES_MAX ∧ ∀ f, vm.Frames.getLast? = some f → f.Slots = 0

/-- The invariant of the machine while `Run` executes. -/
def RunInv (vm : VM) : Prop := FramesInv vm ∧ ∃ l, OpenSorted vm l

/-- The state of the machine between two calls of `Interpret`: no frame and no
open upvalue. -/
def EntryInv (vm : VM) : Prop := vm.Frames = [] ∧ vm.OpenUpValues = none

/-- The machine of a step result. -/
def StepResult.vm : StepResult → VM
  | Continue vm => vm
  | Return _ vm => vm

/-- The outcomes of a call (`Call`, `CallValue`, `Invoke`, `InvokeFromClass`)
from the machine `vm`: `false` after a runtime error, which resets the stack,
or `true` with at most one frame pushed, and only below `FRAMES_MAX` frames. -/
def CallOutcome (vm : VM) (b : Bool) (vm2 : VM) : Prop :=
  (b = false ∧ ∃ format ints text vm0, vm2 = RuntimeError format ints text vm0) ∨
  (b = true ∧ ∃ vm1, Keeps vm vm1 ∧
    (vm2 = vm1 ∨ ∃ frame, vm1.Frames.length ≠ FRAMES_MAX ∧
      vm2 = { vm1 with Frames := frame :: vm1.Frames }))

/-- The address of the first upvalue of a list of open upvalues. -/
def headOf (l : List (Nat × Nat)) : Option Nat := l.head?.map Prod.fst

/-- The upvalue `prevUpValue` of `CaptureUpValue` after the upvalues `above`
have been passed, starting from `prev`. -/
def prevOf (above : List (Nat × Nat)) (prev : Option Nat) : Option Nat :=
  match above.getLast? with
  | some x => some x.1
  | none => prev

/-- The open upvalues above the stack slot `local_`. -/
def aboveSlot (local_ : Nat) (l : List (Nat × Nat)) : List (Nat × Nat) :=
  l.takeWhile (fun x => decide (x.2 > local_))

/-- The open upvalues from the first one that is not above the stack slot
`local_`. -/
def fromSlot (local_ : Nat) (l : List (Nat × Nat)) : List (Nat × Nat) :=
  l.dropWhile (fun x => decide (x.2 > local_))

/-- The result of an instruction that neither calls nor returns and touches no
upvalue: the loop goes on with the frames and the open upvalues kept, or `Run`
returns after a runtime error. -/
def SimpleResult (vm : VM) : StepResult → Prop
  | Continue vm1 => Keeps vm vm1
  | Return _ vm1 => ∃ format ints text vm0, vm1 = RuntimeError format ints text vm0

/-- What holds of the result of an instruction: the invariant of `Run`; a
frame is left when the loop goes on, and when `Run` returns no frame and no
open upvalue is left, and after an error the value stack is empty. -/
def StepInv : StepResult → Prop
  | Continue vm1 => RunInv vm1 ∧ vm1.Frames ≠ []
  | Return res vm1 => EntryInv vm1 ∧ RunInv vm1 ∧ (res ≠ INTERPRET_OK → vm1.Stack = [])

/-- The states of the machine that `InitVM` and `Interpret` can produce:
the state after `InitVM`, the state after a compilation (whatever the compiler
has allocated), the states between the steps of `Interpret` (the pushes and
pops around `NewClosure`, and the call of the script), and the state after
every instruction that `Run` executes. -/
inductive RunReachable (env : VMEnv) : VM → Prop
  | init {vm : VM} : VM.InitVM env = some vm → RunReachable env vm
  | compiled {vm : VM} (st : CompileState) : RunReachable env vm → RunReachable env (vm.afterCompile st)
  | push {vm vm1 : VM} {v : Value} : RunReachable env vm → Push v vm = some vm1 → RunReachable env vm1
  | pop {vm vm1 : VM} {v : Value} : RunReachable env vm → Pop vm = some (v, vm1) → RunReachable env vm1
  | closure {vm vm1 : VM} {function c : Nat} :
    RunReachable env vm → NewClosure env function vm = some (c, vm1) → RunReachable env vm1
  | call {vm vm1 : VM} {c n : Nat} {ok : Bool} :
    RunReachable env vm → Call c n vm = some (ok, vm1) → RunReachable env vm1
  | step {vm : VM} {r : StepResult} :
    RunReachable env vm → RunStep env vm = some r → RunReachable env r.vm

/-- The effect of an instruction on the number of frames: it does not grow, or
it grows by one from a number other than `FRAMES_MAX`. -/
def FrameEffect (vm vm1 : VM) : Prop :=
  vm1.Frames.length ≤ vm.Frames.length ∨
    (vm.Frames.length ≠ FRAMES_MAX ∧ vm1.Frames.length = vm.Frames.length + 1)

/-- A machine with 64 frames of the closure at address 8 of `arityVM`. -/
def fullFramesVM : VM := { arityVM with Frames := List.replicate 64 ⟨8, 0, 0⟩ }

/-- A machine with three values on the stack and two open upvalues: the one at
address 8 for slot 2 (the top) and the one at address 16 for slot 0. -/
def closeVM : VM :=
  ⟨[], [BOOL_VAL true, NIL_VAL, BOOL_VAL false], InitTable, InitTable, none, some 8, [8, 16],
    fun p =>
      if p = 8 then some (Obj.UpValue (UpValueLocation.Stack 2) NIL_VAL (some 16))
      else if p = 16 then some (Obj.UpValue (UpValueLocation.Stack 0) NIL_VAL none)
      else none,
    2, [], []⟩

/-- The fields `Closed` and `Next` of a closed upvalue at an address. -/
def closedUpValue (vm : VM) (a : Nat) : Option (Value × Option Nat) :=
  match vm.Heap a with
  | some (Obj.UpValue UpValueLocation.Closed value next) => some (value, next)
  | _ => none

/-- The slot and the field `Next` of an open upvalue at an address. -/
def openUpValue (vm : VM) (a : Nat) : Option (Nat × Option Nat) :=
  match vm.Heap a with
  | some (Obj.UpValue (UpValueLocation.Stack slot) _ next) => some (slot, next)
  | _ => none

/-! ### Reachability, as the collector sees it -/

/-- The object a value refers to, if it refers to one. -/
def objOf (value : Value) : List Nat := if IS_OBJ value then [AS_OBJ value] else []

/-- The objects the entries of a table refer to: each key and each value. -/
def tableRefs (table : Table) : List Nat :=
  (table.Entries.take table.Capacity).flatMap (fun entry => entry.Key.toList ++ objOf entry.Value)

/-- The references of an object that `BlackenObject` follows. -/
def references : Obj → List Nat
  | Obj.BoundMethod receiver method => objOf receiver ++ [method]
  | Obj.Class name methods => name :: tableRefs methods
  | Obj.Closure function upValues => function :: upValues.flatMap Option.toList
  | Obj.Function function => function.Name.toList ++ function.Chunk.Constants.flatMap objOf
  | Obj.Instance klass fields => klass :: tableRefs fields
  | Obj.UpValue _ closed _ => objOf closed
  | Obj.NativeFunction _ => []
  | Obj.String _ => []

/-- The references of the object at an address. -/
def referencesAt (heap : Nat → Option Obj) (p : Nat) : List Nat :=
  match heap p with
  | some object => references object
  | none => []

/-- The roots: the objects in the live slots of the value stack, the closures
of the frames, the open upvalues `l`, the keys and values of the globals, the
functions of the compilers and the `init` string. -/
def gcRoots (vm : VM) (l : List (Nat × Nat)) (compilers : List Nat) : List Nat :=
  vm.Stack.reverse.flatMap objOf ++ vm.Frames.reverse.map (fun frame => frame.Closure) ++
    l.map Prod.fst ++ tableRefs vm.Globals ++ compilers ++ vm.InitString.toList

/-- An object is reachable: it is a root, or a reference of a reachable
object. -/
inductive GCReach (heap : Nat → Option Obj) (roots : List Nat) : Nat → Prop
  | root {p : Nat} : p ∈ roots → GCReach heap roots p
  | ref {p q : Nat} : GCReach heap roots p → q ∈ referencesAt heap p → GCReach heap roots q

/-- Marking an object: what `MarkObject` does to the collector. -/
def markOne (gc : Collector) (p : Nat) : Collector :=
  if p ∈ gc.Marked then gc else ⟨p :: gc.Marked, p :: gc.GrayStack⟩

/-- Marking the objects of a list in order. -/
def markAll (ps : List Nat) (gc : Collector) : Collector := ps.foldl markOne gc

/-- The tables of an object hold as many entries as their capacity says. -/
def ObjSized : Obj → Prop
  | Obj.Class _ methods => methods.Capacity ≤ methods.Entries.length
  | Obj.Instance _ fields => fields.Capacity ≤ fields.Entries.length
  | _ => True

/-- The invariant of the marking: the marked objects are distinct reachable
objects, the gray objects are marked, and the references of the marked objects
that are not gray are marked, but for the object `except` that is being
blackened. -/
structure MarkInv (heap : Nat → Option Obj) (roots : List Nat) (except : Option Nat)
    (gc : Collector) : Prop where
  nodupMarked : gc.Marked.Nodup
  nodupGray : gc.GrayStack.Nodup
  reach : ∀ p ∈ gc.Marked, GCReach heap roots p
  gray : ∀ p ∈ gc.GrayStack, p ∈ gc.Marked
  black : ∀ p ∈ gc.Marked, p ∉ gc.GrayStack → some p ≠ except →
    ∀ q ∈ referencesAt heap p, q ∈ gc.Marked

/-- A machine with a closure on the stack that reaches a function, a closed
upvalue, an instance, its class and a string, and two objects nothing refers
to: the string at address 56 and the bound method at address 64. -/
def gcVM : VM :=
  ⟨[], [OBJ_VAL 8], InitTable, InitTable, none, none, [64, 56, 48, 40, 32, 24, 16, 8],
    fun p =>
      if p = 8 then some (Obj.Closure 16 [some 24])
      else if p = 16 then some (Obj.Function ⟨0, 1, ⟨[], [], [OBJ_VAL 32]⟩, none⟩)
      else if p = 24 then some (Obj.UpValue UpValueLocation.Closed (OBJ_VAL 40) none)
      else if p = 32 then some (Obj.String ⟨1, [97, 0], 0⟩)
      else if p = 40 then some (Obj.Instance 48 InitTable)
      else if p = 48 then some (Obj.Class 32 InitTable)
      else if p = 56 then some (Obj.String ⟨1, [98, 0], 0⟩)
      else if p = 64 then some (Obj.BoundMethod (OBJ_VAL 40) 8)
      else none,
    8, [], []⟩

/-- The states of the machine in calls of `Interpret` that are entered with an
empty value stack, as after `InitVM` and after a call that has ended with an
error: the state after `InitVM`, the state after a compilation while no frame
is active, the state at the entry of `Run`, and the state after every
instruction that `Run` executes. -/
inductive OpenReachable (env : VMEnv) : VM → Prop
  | init {vm : VM} : VM.InitVM env = some vm → OpenReachable env vm
  | compiled {vm : VM} (st : CompileState) :
    OpenReachable env vm → vm.Frames = [] → OpenReachable env (vm.afterCompile st)
  | start {vm vm5 : VM} {fuel : Nat} {source : List Nat} {errs : List (Token × List Nat)} :
    OpenReachable env vm → vm.Frames = [] → vm.Stack = [] →
    InterpretStart env fuel vm source = some (vm5, errs) → OpenReachable env vm5
  | step {vm : VM} {r : StepResult} :
    OpenReachable env vm → RunStep env vm = some r → OpenReachable env r.vm

/-- The invariant of the reachable states: the invariant of `Run`, and no open
upvalue while no frame is active. -/
def OpenInv (vm : VM) : Prop := RunInv vm ∧ (vm.Frames = [] → vm.OpenUpValues = none)

/-- A machine with two values on the stack and one open upvalue, at address 8
for slot 1. -/
def captureVM : VM :=
  ⟨[], [NIL_VAL, BOOL_VAL true, NIL_VAL], InitTable, InitTable, none, some 8, [8],
    fun p => if p = 8 then some (Obj.UpValue (UpValueLocation.Stack 1) NIL_VAL none) else none,
    1, [], []⟩

/-! ## Specification predicates for the termination of `Compile` -/

/-- What a scanner function does to the scanner: the buffer and the start of the
token are kept, and the position moves forward inside the buffer. -/
structure ScStep (sc sc1 : Scanner) : Prop where
  source : sc1.Source = sc.Source
  start : sc1.Start = sc.Start
  le : sc.Current ≤ sc1.Current
  pos : sc1.Current ≤ sc1.Source.length

/-- The text of a token lies in the buffer it points to. -/
def TokOK (src : List Nat) (t : Token) : Prop :=
  match t.Start with
  | CharPtr.src o => o + t.Length ≤ src.length
  | CharPtr.lit cs => t.Length ≤ cs.length

/-- What `ScanToken` returns: a token that lies in the buffer, the end-of-file
token exactly at the terminator, and otherwise at least one character is
consumed. -/
structure Scanned (sc : Scanner) (t : Token) (sc1 : Scanner) : Prop where
  source : sc1.Source = sc.Source
  le : sc.Current ≤ sc1.Current
  pos : sc1.Current ≤ sc1.Source.length
  tok : TokOK sc.Source t
  eof : t.Type_ = TOKEN_EOF → sc1.IsAtEnd = true
  moved : t.Type_ ≠ TOKEN_EOF → sc.Current < sc1.Current
  atEnd : sc.IsAtEnd = true → t.Type_ = TOKEN_EOF

/-- The bounds of one compilation: the environment, the source text, the number
of entries of the string table at the start and the number of allocations the
text can cause. -/
structure CompileBound where
  env : CompileEnv
  src : List Nat
  count0 : Nat
  budget : Nat

/-- A bound on the number of tokens the parser has still to consume: none once
the current token is the end-of-file token, otherwise one more than the number
of characters the scanner has not read. -/
def tokensLeft (st : CompileState) : Nat :=
  if st.parser.Current.Type_ = TOKEN_EOF then 0
  else st.scanner.Source.length + 1 - st.scanner.Current

/-- The allocations made so far plus 32 for every token that may follow. -/
def potential (st : CompileState) : Nat := st.Allocs + 32 * tokensLeft st

/-- The invariant of the compiler state on which every compiler function
returns: the scanner is inside the buffer, the tokens of the parser lie in
their buffers, a compiler is current, the string table is well formed and has
room, the allocator hands out unused addresses, and `HadError` is set exactly
when a message has been written. -/
structure CompileInv (P : CompileBound) (st : CompileState) : Prop where
  source : st.scanner.Source = P.src
  pos : st.scanner.Current ≤ P.src.length
  eof : st.parser.Current.Type_ = TOKEN_EOF → st.scanner.IsAtEnd = true
  cur : TokOK P.src st.parser.Current
  prev : TokOK P.src st.parser.Previous
  current : st.current ≠ []
  intern : InternInv st.vm
  cap : st.vm.Strings.Capacity < 2 ^ 30
  cnt : st.vm.Strings.Count ≤ P.count0 + st.Allocs
  fresh : ∀ k, st.Allocs ≤ k → P.env.alloc k ∉ st.vm.Objects
  inj : ∀ j k, P.env.alloc j = P.env.alloc k → j = k
  room : 4 * (P.count0 + P.budget + 1) ≤ 3 * 2 ^ 29
  err : st.parser.HadError = true ↔ st.stderr ≠ []

/-- What the compilation of a construct keeps of a compiler on the chain: its
function object, its type and the name of the function; code is only added. -/
def CompilerKept (c c1 : Compiler) : Prop :=
  c1.FunctionAddr = c.FunctionAddr ∧ c1.Type_ = c.Type_ ∧
    c1.Function.Name = c.Function.Name ∧
    c.Function.Chunk.Code.length ≤ c1.Function.Chunk.Code.length

/-- A step of the compiler that reads no token and allocates nothing: only the
compilers on the chain (kept as `CompilerKept` says), the error flags and the
messages written change. -/
structure ErrStep (st st1 : CompileState) : Prop where
  scanner : st1.scanner = st.scanner
  cur : st1.parser.Current = st.parser.Current
  prev : st1.parser.Previous = st.parser.Previous
  shape : List.Forall₂ CompilerKept st.current st1.current
  classes : st1.currentClass = st.currentClass
  vm : st1.vm = st.vm
  allocs : st1.Allocs = st.Allocs
  err : (st.parser.HadError = true ↔ st.stderr ≠ []) →
    (st1.parser.HadError = true ↔ st1.stderr ≠ [])

/-- A step of the compiler from `st` to `st1` that allocates at most `c` objects
beyond those paid for by the tokens it consumes: the invariant holds again, the
chain of compilers is the same and that of classes as long, no token comes back, and a step
that consumes a token leaves 16 allocations of its payment unused. -/
structure CompileStep (P : CompileBound) (st st1 : CompileState) (c : Nat) : Prop where
  inv : CompileInv P st1
  shape : List.Forall₂ CompilerKept st.current st1.current
  classes : st1.currentClass.length = st.currentClass.length
  left : tokensLeft st1 ≤ tokensLeft st
  cost : potential st1 ≤ potential st + c
  slack : tokensLeft st1 < tokensLeft st → potential st1 + 16 ≤ potential st + c

/-- The precondition of a compiler function that may allocate `a` objects
before it consumes a token. -/
def CompilePre (P : CompileBound) (st : CompileState) (a : Nat) : Prop :=
  CompileInv P st ∧ potential st + a ≤ P.budget

/-- What the loop of the compiler function `Advance` does: the scanner moves
on, the new current token lies in the buffer, and only the error flags and the
messages change besides. -/
structure Advanced (st st1 : CompileState) : Prop where
  source : st1.scanner.Source = st.scanner.Source
  le : st.scanner.Current ≤ st1.scanner.Current
  pos : st1.scanner.Current ≤ st1.scanner.Source.length
  tok : TokOK st.scanner.Source st1.parser.Current
  eof : st1.parser.Current.Type_ = TOKEN_EOF → st1.scanner.IsAtEnd = true
  moved : st1.parser.Current.Type_ ≠ TOKEN_EOF → st.scanner.Current < st1.scanner.Current
  atEnd : st.scanner.IsAtEnd = true → st1.parser.Current.Type_ = TOKEN_EOF
  prev : st1.parser.Previous = st.parser.Previous
  current : st1.current = st.current
  classes : st1.currentClass = st.currentClass
  vm : st1.vm = st.vm
  allocs : st1.Allocs = st.Allocs
  err : (st.parser.HadError = true ↔ st.stderr ≠ []) →
    (st1.parser.HadError = true ↔ st1.stderr ≠ [])

/-- The function `pp` behaves as `ParsePrecedence` has to on the states with
fewer than `n` tokens left: called with a precedence above `PREC_NONE` it
returns, allocates only what the tokens it consumes pay for, and consumes a
token unless the current one is the end-of-file token. -/
def ParsesExpressions (P : CompileBound) (pp : ParsePrecedenceFn) (n : Nat) : Prop :=
  ∀ (prec : Precedence) (st : CompileState), 1 ≤ prec → CompilePre P st 0 →
    tokensLeft st < n →
    ∃ st1, pp prec st = some st1 ∧ CompileStep P st st1 0 ∧
      (0 < tokensLeft st → tokensLeft st1 < tokensLeft st)

/-- The function `s` behaves as `ParseDeclarationStatement` and `ParseStatement`
have to on the states with fewer than `n` tokens left: it returns, allocates
only what the tokens it consumes pay for, and consumes a token unless the
current one is the end-of-file token. -/
def ParsesStatements (P : CompileBound) (s : ParseStatementFn) (n : Nat) : Prop :=
  ∀ st : CompileState, CompilePre P st 0 → tokensLeft st < n →
    ∃ st1, s st = some st1 ∧ CompileStep P st st1 0 ∧
      (0 < tokensLeft st → tokensLeft st1 < tokensLeft st)

/-- The bounds of the compilation of `source` started with `count0` strings in
the table: every token pays for 32 allocations. -/
def compileBound (env : CompileEnv) (source : List Nat) (count0 : Nat) : CompileBound :=
  ⟨env, source, count0, 32 * source.length + 40⟩

/-- A machine in which nothing has been allocated. -/
def freshVM : VM := ⟨[], [], InitTable, InitTable, none, none, [], fun _ => none, 0, [], []⟩

/-! ## The probe sequence and the tombstones of a table -/

/-- The index of the slot that the loop of `FindEntry` examines in its
iteration `d`: `key->Hash & (capacity - 1)` at first, then
`(index + 1) & (capacity - 1)`. -/
def probeIndex (heap : Nat → ObjString) (capacity key : Nat) : Nat → Nat
  | 0 => (heap key).Hash &&& mask32 capacity
  | d + 1 => nextIndex (probeIndex heap capacity key d) capacity

/-- Slot `i` holds a tombstone: `Key == NULL` with a value that is not nil. -/
def TombAt (entries : List Entry) (i : Nat) : Prop :=
  ∃ e, entries[i]? = some e ∧ e.isTombstone = true

/-- The table after `TableSet` of the keys 9, 1, 17 (all of hash 1 modulo 8)
and `TableDelete` of the key 1 under `sampleHeap`: a tombstone in slot 2
between the keys 9 and 17. -/
def tombTable : Table :=
  ⟨3, 8, [⟨none, NIL_VAL⟩, ⟨some 9, 42⟩, ⟨none, TRUE_VAL⟩, ⟨some 17, 3⟩,
    ⟨none, NIL_VAL⟩, ⟨none, NIL_VAL⟩, ⟨none, NIL_VAL⟩, ⟨none, NIL_VAL⟩]⟩

/-- The table after `TableSet` of the keys 0 to 5 and `TableDelete` of the keys
2 and 3 under `sampleHeap`: six slots of eight are counted, two of them
tombstones. -/
def fullTombTable : Table :=
  ⟨6, 8, [⟨some 0, 7⟩, ⟨some 1, 7⟩, ⟨none, TRUE_VAL⟩, ⟨none, TRUE_VAL⟩,
    ⟨some 4, 7⟩, ⟨some 5, 7⟩, ⟨none, NIL_VAL⟩, ⟨none, NIL_VAL⟩]⟩

/-! ## Sample machines for the globals and for inheritance -/

/-- A machine in the middle of `OP_SET_GLOBAL 0`: the frame of the closure at
address 8 has read the opcode, the constant 0 of its function (address 16) is
the string `x` at address 24, and the number 0 is on the stack; no global is
defined. -/
def globalVM : VM :=
  ⟨[⟨8, 1, 0⟩], [0], InitTable, InitTable, none, none, [8, 16, 24],
    fun p =>
      if p = 8 then some (Obj.Closure 16 [])
      else if p = 16 then
        some (Obj.Function ⟨0, 0, ⟨[OpCode.OP_SET_GLOBAL, 0], [1, 1], [OBJ_VAL 24]⟩, none⟩)
      else if p = 24 then some (Obj.String ⟨1, chars "x", 1⟩)
      else none,
    3, [], []⟩

/-- The method table of the superclass of `inheritVM`: the method named by the
string at address 8 is the closure at address 32. -/
def superMethods : Table :=
  ⟨1, 8, [⟨none, NIL_VAL⟩, ⟨some 8, OBJ_VAL 32⟩, ⟨none, NIL_VAL⟩, ⟨none, NIL_VAL⟩,
    ⟨none, NIL_VAL⟩, ⟨none, NIL_VAL⟩, ⟨none, NIL_VAL⟩, ⟨none, NIL_VAL⟩]⟩

/-- A machine at `OP_INHERIT`: the superclass at address 16 with one method and
the new subclass at address 24 without methods are on the stack, the subclass
on top. -/
def inheritVM : VM :=
  ⟨[], [OBJ_VAL 24, OBJ_VAL 16], InitTable, InitTable, none, none, [8, 16, 24, 32, 40],
    fun p =>
      if p = 8 then some (Obj.String ⟨1, chars "m", 1⟩)
      else if p = 16 then some (Obj.Class 8 superMethods)
      else if p = 24 then some (Obj.Class 8 InitTable)
      else if p = 32 then some (Obj.Closure 40 [])
      else if p = 40 then some (Obj.Function ⟨0, 0, InitChunk, none⟩)
      else none,
    5, [], []⟩

/-- The result of an instruction as far as the examples look at it: the result
code if the loop of `Run` is left, the value stack and the runtime errors. -/
def runStepSummary (r : Option StepResult) :
    Option (Option InterpretResult × List Value × List RuntimeErrorMessage) :=
  r.map (fun x =>
    match x with
    | Continue vm => (none, vm.Stack, vm.stderr)
    | Return code vm => (some code, vm.Stack, vm.stderr))

/-! ## The place of a token in the buffer -/

/-- Where `ScanToken` leaves the scanner: the token starts (`Start`) at or
after the old position and ends at the new one (`Current`), it is not empty
unless it is the end-of-file token, and a token that is no error token is the
text between the two. -/
structure Placed (sc0 : Scanner) (t : Token) (sc1 : Scanner) : Prop where
  start_ge : sc0.Current ≤ sc1.Start
  start_le : sc1.Start ≤ sc1.Current
  nonempty : t.Type_ ≠ TOKEN_EOF → sc1.Start < sc1.Current
  shape : t.Type_ ≠ TOKEN_ERROR → t = sc1.MakeToken t.Type_
  empty : t.Type_ = TOKEN_EOF → sc1.Start = sc1.Current

/-! ## The object list and `Sweep` (`Object.h`, `Object.cpp`, `Memory.cpp`)

The loop of `Sweep` on the linked list itself: every object has its header
(`IsMarked` and `Next` of `struct Obj`), `vm.Objects` points to the first
object, and the objects given to `FreeObject` are recorded in order. -/

/-- The fields `IsMarked` and `Next` of `struct Obj`. -/
structure ObjHeader where
  IsMarked : Bool
  Next : Option Nat
deriving DecidableEq, Repr

/-- The headers of the objects (`none` at an address that holds no object),
the pointer `vm.Objects`, and the objects passed to `FreeObject` so far. -/
structure ObjectList where
  Header : Nat → Option ObjHeader
  Objects : Option Nat
  Freed : List Nat

/-- A write to the header of the object at `p`. -/
def ObjectList.setHeader (st : ObjectList) (p : Nat) (h : Option ObjHeader) : ObjectList :=
  { st with Header := fun q => if q = p then h else st.Header q }

/-- Function `FreeObject(object)`: no object is at the address afterwards. -/
def FreeObject (object : Nat) (st : ObjectList) : ObjectList :=
  { st.setHeader object none with Freed := st.Freed ++ [object] }

/-- The `while (object != NULL)` loop of `Sweep`, with the local variables
`previous` and `object`; one unit of fuel per iteration. -/
def SweepLoop : Nat → Option Nat → Option Nat → ObjectList → Option ObjectList
  | 0, _, _, _ => none
  | fuel + 1, previous, object, st =>
    match object with
    | none => some st
    | some o =>
      match st.Header o with
      | none => none
      | some h =>
        if h.IsMarked then
          SweepLoop fuel (some o) h.Next (st.setHeader o (some { h with IsMarked := false }))
        else
          match previous with
          | some p =>
            match st.Header p with
            | none => none
            | some hp =>
              SweepLoop fuel previous h.Next
                (FreeObject o (st.setHeader p (some { hp with Next := h.Next })))
          | none => SweepLoop fuel previous h.Next (FreeObject o { st with Objects := h.Next })

/-- Function `Sweep()` on the object list. -/
def SweepObjects (fuel : Nat) (st : ObjectList) : Option ObjectList :=
  SweepLoop fuel none st.Objects st

/-- The header part of `AllocateObject` when the allocator returns `p`: the
object is unmarked and linked in front of the list. -/
def AllocateHeader (p : Nat) (st : ObjectList) : ObjectList :=
  { st.setHeader p (some ⟨false, st.Objects⟩) with Objects := some p }

/-- The `Next` pointers lead from `a` through the objects `l`, in order, to
`b`. -/
def Linked (header : Nat → Option ObjHeader) : Option Nat → List Nat → Option Nat → Prop
  | a, [], b => a = b
  | a, p :: l, b => a = some p ∧ ∃ h, header p = some h ∧ Linked header h.Next l b

/-- Whether the object at `p` is marked. -/
def ObjectList.marked (st : ObjectList) (p : Nat) : Bool :=
  match st.Header p with
  | some h => h.IsMarked
  | none => false

/-- An object list of four objects, 8, 16, 24, 32 in this order, of which 16
and 32 are marked. -/
def sampleObjects : ObjectList :=
  ⟨fun p =>
      if p = 8 then some ⟨false, some 16⟩
      else if p = 16 then some ⟨true, some 24⟩
      else if p = 24 then some ⟨false, some 32⟩
      else if p = 32 then some ⟨true, none⟩
      else none,
    some 8, []⟩

/-! ## Sample states for the declaration of a local variable -/

/-- The state `scopeEndState` (inside the inner block of
`{ var a; { var b; var c; } }`, with the locals `a` of depth 1 and `b`, `c` of
depth 2) when the previous token is `name`. -/
def declareState (name : Token) : CompileState :=
  { scopeEndState with parser := { scopeEndState.parser with Previous := name } }

/-- The locals of a function of which all 256 slots are in use: slot 0, then the
255 variables `b`, `bb`, `bbb`, ... of the block of depth 1. -/
def fullLocals : List Local :=
  ⟨SyntheticToken [], 0, false⟩ ::
    (List.range 255).map (fun i => ⟨⟨TOKEN_IDENTIFIER, CharPtr.src 0, i + 1, 1⟩, 1, false⟩)

/-- A state inside a block of depth 2 of a function whose 256 local slots are
in use by enclosing scopes, the first variable being `b`; the previous token is
the name `b`, and the parser is not in panic mode. -/
def fullLocalsState : CompileState :=
  ⟨⟨List.replicate 300 98, 0, 1, 1⟩,
   ⟨⟨TOKEN_SEMICOLON, CharPtr.src 1, 1, 1⟩, ⟨TOKEN_IDENTIFIER, CharPtr.src 0, 1, 1⟩,
    false, false⟩,
   [⟨5000, ⟨0, 0, InitChunk, none⟩, TYPE_SCRIPT, fullLocals, [], 2⟩], [], sampleVM, [], 1, []⟩

/-! ## The unfused path of a method call -/

/-- The machine with one more object: `object` at the address `p`, linked into
`vm.Objects` (what `AllocateObject` makes of the machine when the allocator
returns `p`). -/
def VM.withObject (vm : VM) (p : Nat) (object : Obj) : VM :=
  { vm with
    Heap := fun q => if q = p then some object else vm.Heap q
    Objects := p :: vm.Objects
    Allocs := vm.Allocs + 1 }

/-- The value the specification has `OP_GET_PROPERTY` produce for the instance
`receiver` and the property `name`: the value of the field if the instance has
the field, otherwise a new bound method of the receiver and the method of its
class; `none` as the value is the runtime error for a name that is neither. -/
def GetPropertyValue (env : VMEnv) (receiver : Value) (name : Nat) (vm : VM) :
    Option (Option Value × VM) :=
  match vm.Heap (AS_OBJ receiver) with
  | some (Obj.Instance klass fields) =>
    match TableGet vm.strings fields name with
    | none => none
    | some (some value) => some (some value, vm)
    | some none =>
      match vm.Heap klass with
      | some (Obj.Class _ methods) =>
        match TableGet vm.strings methods name with
        | none => none
        | some none =>
          some (none,
            RuntimeError (chars "Undefined property \x27%s\x27.") [] (vm.strings name).Chars vm)
        | some (some method) =>
          (AllocateObject env (Obj.BoundMethod receiver (AS_OBJ method)) vm).map
            (fun r => (some (OBJ_VAL r.1), r.2))
      | _ => none
  | _ => none

/-- The unfused path the specification compares `Invoke(name, argCount)` with:
the slot of the receiver is replaced by the value `OP_GET_PROPERTY` produces
for it, and `CallValue` is called on that value. -/
def InvokeUnfused (env : VMEnv) (name : Nat) (argCount : Nat) (vm : VM) : Option (Bool × VM) :=
  match Peek argCount vm with
  | none => none
  | some receiver =>
    match GetPropertyValue env receiver name vm with
    | none => none
    | some (none, vm1) => some (false, vm1)
    | some (some value, vm1) =>
      (vm1.setBelowArgs argCount value).bind (CallValue env value argCount)

/-- A machine at `OP_INVOKE` of the method named by the string at address 8,
with no argument: the instance at address 48 of the class at address 16 (of
`inheritVM`) is on the stack. -/
def invokeVM : VM :=
  ⟨[], [OBJ_VAL 48], InitTable, InitTable, none, none, [8, 16, 24, 32, 40, 48],
    fun p =>
      if p = 48 then some (Obj.Instance 16 InitTable) else inheritVM.Heap p,
    6, [], []⟩

/-! ## A recursion that outgrows the value stack -/

/-- The first `n` iterations of the loop of `Run`, none of which leaves the
loop. -/
def RunSteps (env : VMEnv) : Nat → VM → Option VM
  | 0, vm => some vm
  | n + 1, vm =>
    match RunStep env vm with
    | some (Continue vm1) => RunSteps env n vm1
    | _ => none

/-- The code of the body of `fun f(g) { g(g( ... g(g) ... )); }` with `d`
nested calls: `d + 1` times `OP_GET_LOCAL 1`, `d` times `OP_CALL 1`, then
`OP_POP`, `OP_NIL`, `OP_RETURN`. -/
def deepCode (d : Nat) : List Nat :=
  (List.replicate (d + 1) [OpCode.OP_GET_LOCAL, 1]).flatten ++
    ((List.replicate d [OpCode.OP_CALL, 1]).flatten ++
      [OpCode.OP_POP, OpCode.OP_NIL, OpCode.OP_RETURN])

/-- The function object of `f`: one parameter, no upvalue, the code
`deepCode d` on line 1, and the name at address 5008. -/
def deepFunction (d : Nat) : ObjFunction :=
  ⟨1, 0, ⟨deepCode d, List.replicate (deepCode d).length 1, []⟩, some 5008⟩

/-- The objects that the recursion reads, at the addresses of `sampleVMEnv`:
the closure of `f` at 5056, its function at 5016, and the closure of the
script at 5048. -/
def deepHeap (d : Nat) : Nat → Option Obj :=
  fun p =>
    if p = 5056 then some (Obj.Closure 5016 [])
    else if p = 5016 then some (Obj.Function (deepFunction d))
    else if p = 5048 then some (Obj.Closure 5000 [])
    else none

/-- The frames below the running one after `k` nested calls of `f`: each
suspended after its innermost `OP_CALL`, and the frame of the script. -/
def deepFrames (d : Nat) : Nat → List CallFrame
  | 0 => [⟨5048, 10, 0⟩]
  | k + 1 => ⟨5056, 2 * (d + 1) + 2, 1 + k * (d + 1)⟩ :: deepFrames d k

/-- The machine in the call `f(f)` of the script after `k` nested calls of `f`,
when the running frame has pushed `j` callees: the script closure is in slot 0,
and every other slot holds the closure of `f`. -/
def deepState (d k j : Nat) : VM :=
  ⟨⟨5056, 2 * j, 1 + k * (d + 1)⟩ :: deepFrames d k,
    List.replicate (2 + k * (d + 1) + j) (OBJ_VAL 5056) ++ [OBJ_VAL 5048],
    InitTable, InitTable, none, none, [5056, 5048, 5016, 5008, 5000], deepHeap d, 8, [], []⟩

/-- The program `fun f(g){g(g( ... g(g) ... ));}f(f);` with `d` nested
calls in the body of `f`. -/
def deepSource (d : Nat) : List Nat :=
  chars "fun f(g)\x7b" ++ ((List.replicate d (chars "g(")).flatten ++
    (chars "g" ++ ((List.replicate d (chars ")")).flatten ++ chars ";\x7df(f);")))

/-- The machine of `Interpret(source)` after the first five instructions of
the script. -/
def deepStart (env : VMEnv) (fuel : Nat) (vm : VM) (source : List Nat) : Option VM :=
  (InterpretStart env fuel vm source).bind (fun x => RunSteps env 5 x.1)

/-- What the recursion reads of a machine: the frames, the value stack and the
function of the running frame; and the objects allocated. -/
structure DeepSummary where
  Frames : List CallFrame
  Stack : List Nat
  Function : Option (Nat × Nat × Option Nat)
  Code : Option (List Nat × List Nat × List Nat)
  Objects : List Nat
  Allocs : Nat
deriving DecidableEq

/-- The summary of a machine. -/
def deepSummary (vm : VM) : DeepSummary :=
  ⟨vm.Frames, vm.Stack, vm.frameFunction.map (fun f => (f.Arity, f.UpValueCount, f.Name)),
    vm.frameFunction.map (fun f => (f.Chunk.Code, f.Chunk.Lines, f.Chunk.Constants)),
    vm.Objects, vm.Allocs⟩

/-! ## Specification predicates for the operands of the compiled code -/

/-- The function objects whose compilation has ended, by address. -/
def CompileState.functionAt (st : CompileState) : Nat → Option ObjFunction :=
  fun a => st.Functions.lookup a

/-- The bytes `ins` are one instruction for the disassembler, wherever they
stand in a chunk whose constants start with `constants`: from their first byte
`DisassembleInstruction` reads inside the arrays only and returns the offset
behind their last byte. -/
def InstrOK (functions : Nat → Option ObjFunction) (constants : List Value)
    (ins : List Nat) : Prop :=
  ins ≠ [] ∧ ∀ (pre post lines : List Nat) (more : List Value),
    DisassembleInstruction functions ⟨pre ++ (ins ++ post), lines, constants ++ more⟩
      pre.length = some (pre.length + ins.length)

/-- The bytes `code` are a sequence of instructions, each as `InstrOK` says. -/
def CodeOK (functions : Nat → Option ObjFunction) (constants : List Value)
    (code : List Nat) : Prop :=
  ∃ I : List (List Nat), code = I.flatten ∧ ∀ ins ∈ I, InstrOK functions constants ins

/-- What the compiler keeps of its bookkeeping while no error is flagged: a
compiler is current, panic mode implies `HadError`, the function objects of
the compilers on the chain are allocated at pairwise distinct addresses and not
yet recorded, the recorded ones are allocated, and every compiler has as many
captured variables as its function counts. -/
structure OpInv (st : CompileState) : Prop where
  current : st.current ≠ []
  panic : st.parser.PanicMode = true → st.parser.HadError = true
  addrs : ∀ c ∈ st.current, c.FunctionAddr ∈ st.vm.Objects
  nodup : (st.current.map (fun c => c.FunctionAddr)).Nodup
  keys : ∀ p ∈ st.Functions, p.1 ∈ st.vm.Objects
  pending : ∀ c ∈ st.current, st.Functions.lookup c.FunctionAddr = none
  ups : ∀ c ∈ st.current, c.Function.UpValueCount ≤ c.UpValues.length

/-- What a step of the compiler does to the current compiler: instructions are
appended to its code and values to its constants. -/
def HeadExt (functions : Nat → Option ObjFunction) (c c1 : Compiler) : Prop :=
  c1.FunctionAddr = c.FunctionAddr ∧
    (∃ tail, c1.Function.Chunk.Code = c.Function.Chunk.Code ++ tail ∧
      CodeOK functions c1.Function.Chunk.Constants tail) ∧
    ∃ more, c1.Function.Chunk.Constants = c.Function.Chunk.Constants ++ more

/-- What a step of the compiler keeps of an enclosing compiler: its function
object, its chunk and its scope depth. -/
def TailExt (c c1 : Compiler) : Prop :=
  c1.FunctionAddr = c.FunctionAddr ∧ c1.Function.Chunk = c.Function.Chunk ∧
    c1.ScopeDepth = c.ScopeDepth

/-- A step of the compiler from `st` to `st1` in which no error is flagged: the
bookkeeping holds again, the current compiler has grown as `HeadExt` says (and
kept its scope depth, if `d` is set), the enclosing ones are kept, the
recorded functions are kept, every function recorded in the step is a sequence
of instructions, and no object is freed. -/
structure Ext (d : Bool) (st st1 : CompileState) : Prop where
  inv : OpInv st1
  chain : ∃ c cs c1 cs1, st.current = c :: cs ∧ st1.current = c1 :: cs1 ∧
    HeadExt st1.functionAt c c1 ∧ (d = true → c1.ScopeDepth = c.ScopeDepth) ∧
    List.Forall₂ TailExt cs cs1
  fns : ∀ a f, st.functionAt a = some f → st1.functionAt a = some f
  recorded : ∀ p ∈ st1.Functions, p ∈ st.Functions ∨
    CodeOK st1.functionAt p.2.Chunk.Constants p.2.Chunk.Code
  objs : ∀ a ∈ st.vm.Objects, a ∈ st1.vm.Objects

/-- The addresses of the function objects recorded fit in the 50 bits that a
value has for an object pointer. -/
def Fits (st : CompileState) : Prop :=
  ∀ p ∈ st.Functions, p.1 < 2 ^ 50

/-- A step of the compiler: an error flagged stays flagged, the functions
recorded before stay recorded, and a step that ends with no error flagged and
function objects whose addresses fit is as `Ext` says. -/
def Track (d : Bool) (st st1 : CompileState) : Prop :=
  (st.parser.HadError = true → st1.parser.HadError = true) ∧
    st.Functions <:+ st1.Functions ∧
    (OpInv st → st1.parser.HadError = false → Fits st1 → Ext d st st1)

/-- The opcodes of the jumps, whose operand is written by `PatchJump` and
`EmitLoop`. -/
def jumpOpcodes : List Nat := [OpCode.OP_JUMP, OpCode.OP_JUMP_IF_FALSE, OpCode.OP_LOOP]

/-- A jump emitted in the state `base` waits to be patched at offset `o`: the
state `st` has been reached from the one in which `EmitJump` returned by steps
that flag no error. -/
structure Pending (d : Bool) (base st : CompileState) (o : Nat) : Prop where
  inv : OpInv base
  offset : o = base.code.length + 1
  ext : ∃ op x y, op ∈ jumpOpcodes ∧ Ext d (base.emit [op, x, y]) st

theorem Pow2Cap.pos {c : Nat} (h : Pow2Cap c) : 0 < c := by
  obtain ⟨n, _, _, rfl⟩ := h
  exact Nat.pos_pow_of_pos n (by decide)

theorem Pow2Cap.ge_eight {c : Nat} (h : Pow2Cap c) : 8 ≤ c := by
  obtain ⟨n, h3, _, rfl⟩ := h
  calc 8 = 2 ^ 3 := by norm_num
    _ ≤ 2 ^ n := Nat.pow_le_pow_right (by decide) h3

theorem Pow2Cap.le_max {c : Nat} (h : Pow2Cap c) : c ≤ 2 ^ 30 := by
  obtain ⟨n, _, h30, rfl⟩ := h
  exact Nat.pow_le_pow_right (by decide) h30

theorem mask32_of_pow2 {c : Nat} (h : Pow2Cap c) : mask32 c = c - 1 := by
  have h1 := h.pos
  have h2 := h.le_max
  unfold mask32
  have : c + 2 ^ 32 - 1 = (c - 1) + 2 ^ 32 := by omega
  rw [this, Nat.add_mod_right, Nat.mod_eq_of_lt]
  have : (2:Nat) ^ 30 < 2 ^ 32 := by norm_num
  omega

theorem and_mask32 {c : Nat} (h : Pow2Cap c) (x : Nat) : x &&& mask32 c = x % c := by
  rw [mask32_of_pow2 h]
  obtain ⟨n, _, _, rfl⟩ := h
  exact Nat.and_pow_two_sub_one_eq_mod x n

theorem nextIndex_eq {c : Nat} (h : Pow2Cap c) {i : Nat} (hi : i < c) :
    nextIndex i c = (i + 1) % c := by
  unfold nextIndex
  rw [and_mask32 h]
  have h2 := h.le_max
  have : (2:Nat) ^ 30 < 2 ^ 32 := by norm_num
  rw [Nat.mod_eq_of_lt (by omega : i + 1 < 2 ^ 32)]

theorem probe_succ (c s d : Nat) : ((s + 1) % c + d) % c = (s + (d + 1)) % c := by
  rw [Nat.mod_add_mod]; congr 1; omega

theorem probe_reach {c s i : Nat} (hs : s < c) (hi : i < c) :
    (i + c - s) % c < c ∧ (s + (i + c - s) % c) % c = i := by
  refine ⟨Nat.mod_lt _ (by omega), ?_⟩
  rw [Nat.add_mod_mod]
  have : s + (i + c - s) = i + c := by omega
  rw [this, Nat.add_mod_right, Nat.mod_eq_of_lt hi]

theorem FindEntryLoop_zero (entries : List Entry) (c key s : Nat) (t : Option Nat) :
    FindEntryLoop entries c key 0 s t = none := rfl

theorem FindEntryLoop_succ (entries : List Entry) (c key f s : Nat) (t : Option Nat) :
    FindEntryLoop entries c key (f + 1) s t =
      match entries[s]? with
      | none => none
      | some entry =>
        match entry.Key with
        | none =>
          if IS_NIL entry.Value then
            some (match t with
                  | some t => t
                  | none => s)
          else
            FindEntryLoop entries c key f (nextIndex s c)
              (match t with
               | some t => some t
               | none => some s)
        | some k =>
          if k = key then some s
          else FindEntryLoop entries c key f (nextIndex s c) t := rfl

theorem probe_zero {c s : Nat} (hs : s < c) : (s + 0) % c = s := by
  simp [Nat.mod_eq_of_lt hs]

theorem FindEntryLoop_found (entries : List Entry) (c key : Nat) (hc : Pow2Cap c) :
    ∀ (e s fuel : Nat) (tomb : Option Nat), s < c → e < fuel →
      (∀ d, d < e → UsedAt entries ((s + d) % c) ∧ ¬ KeyAt entries ((s + d) % c) key) →
      KeyAt entries ((s + e) % c) key →
      FindEntryLoop entries c key fuel s tomb = some ((s + e) % c) := by
  intro e
  induction e with
  | zero =>
    intro s fuel tomb hs hf _ hk
    obtain ⟨f, rfl⟩ : ∃ f, fuel = f + 1 := ⟨fuel - 1, by omega⟩
    rw [probe_zero hs] at hk ⊢
    obtain ⟨x, hx, hxk⟩ := hk
    rw [FindEntryLoop_succ, hx]
    simp [hxk]
  | succ e ih =>
    intro s fuel tomb hs hf hpath hk
    obtain ⟨f, rfl⟩ : ∃ f, fuel = f + 1 := ⟨fuel - 1, by omega⟩
    have h0 := hpath 0 (by omega)
    rw [probe_zero hs] at h0
    obtain ⟨⟨x, hx, hxe⟩, hnk⟩ := h0
    have hnext : nextIndex s c = (s + 1) % c := nextIndex_eq hc hs
    have hlt : (s + 1) % c < c := Nat.mod_lt _ hc.pos
    have key2 : ∀ tomb2, FindEntryLoop entries c key f ((s + 1) % c) tomb2
        = some ((s + (e + 1)) % c) := by
      intro tomb2
      have := ih ((s + 1) % c) f tomb2 hlt (by omega)
        (by intro d hd; rw [probe_succ]; exact hpath (d + 1) (by omega))
        (by rw [probe_succ]; exact hk)
      rw [probe_succ] at this
      exact this
    rw [FindEntryLoop_succ, hx]
    rcases hxk : x.Key with _ | k
    · have : IS_NIL x.Value = false := by
        simpa [Entry.isEmpty, hxk] using hxe
      simp [hxk, this, hnext, key2]
    · have hne : k ≠ key := by
        intro h; exact hnk ⟨x, hx, by rw [hxk, h]⟩
      simp [hxk, hne, hnext, key2]

theorem FindEntryLoop_absent (entries : List Entry) (c key : Nat) (hc : Pow2Cap c) :
    ∀ (e s fuel : Nat) (tomb : Option Nat), s < c → e < fuel →
      (∀ d, d < e → UsedAt entries ((s + d) % c) ∧ ¬ KeyAt entries ((s + d) % c) key) →
      EmptyAt entries ((s + e) % c) →
      ∃ r, FindEntryLoop entries c key fuel s tomb = some r ∧
        (∀ t, tomb = some t → r = t) ∧
        (tomb = none → ∃ d0, d0 ≤ e ∧ r = (s + d0) % c ∧ NoKeyAt entries r ∧
          ∀ d, d < d0 → LiveAt entries ((s + d) % c)) := by
  intro e
  induction e with
  | zero =>
    intro s fuel tomb hs hf _ hk
    obtain ⟨f, rfl⟩ : ∃ f, fuel = f + 1 := ⟨fuel - 1, by omega⟩
    rw [probe_zero hs] at hk
    obtain ⟨x, hx, hxe⟩ := hk
    have hkn : x.Key = none := by
      cases h : x.Key with
      | none => rfl
      | some k => simp [Entry.isEmpty, h] at hxe
    have hnil : IS_NIL x.Value = true := by
      simpa [Entry.isEmpty, hkn] using hxe
    rw [FindEntryLoop_succ, hx]
    simp only [hkn, hnil, if_true]
    cases tomb with
    | some t => exact ⟨t, rfl, fun t' h => (by cases h; rfl), fun h => (by cases h)⟩
    | none =>
      refine ⟨s, rfl, fun t' h => (by cases h), fun _ => ⟨0, le_refl _, (probe_zero hs).symm,
        ⟨x, hx, hkn⟩, fun d hd => absurd hd (Nat.not_lt_zero d)⟩⟩
  | succ e ih =>
    intro s fuel tomb hs hf hpath hk
    obtain ⟨f, rfl⟩ : ∃ f, fuel = f + 1 := ⟨fuel - 1, by omega⟩
    have h0 := hpath 0 (by omega)
    rw [probe_zero hs] at h0
    obtain ⟨⟨x, hx, hxe⟩, hnk⟩ := h0
    have hnext : nextIndex s c = (s + 1) % c := nextIndex_eq hc hs
    have hlt : (s + 1) % c < c := Nat.mod_lt _ hc.pos
    have ih2 := fun tomb2 => ih ((s + 1) % c) f tomb2 hlt (by omega)
        (by intro d hd; rw [probe_succ]; exact hpath (d + 1) (by omega))
        (by rw [probe_succ]; exact hk)
    rw [FindEntryLoop_succ, hx]
    dsimp only
    cases hxk : x.Key with
    | none =>
      have hnil : IS_NIL x.Value = false := by
        simpa [Entry.isEmpty, hxk] using hxe
      simp only [hnil, hnext]
      cases tomb with
      | some t =>
        obtain ⟨r, hr, hr1, _⟩ := ih2 (some t)
        refine ⟨r, by simpa using hr, fun t' h => ?_, fun h => by cases h⟩
        cases h
        exact hr1 t rfl
      | none =>
        obtain ⟨r, hr, hr1, _⟩ := ih2 (some s)
        have hrs : r = s := hr1 s rfl
        subst hrs
        refine ⟨r, by simpa using hr, fun t' h => (by cases h), fun _ =>
          ⟨0, Nat.zero_le _, (probe_zero hs).symm, ⟨x, hx, hxk⟩,
            fun d hd => absurd hd (Nat.not_lt_zero d)⟩⟩
    | some k =>
      have hne : k ≠ key := by
        intro h; exact hnk ⟨x, hx, by rw [hxk, h]⟩
      simp only [hne, hnext, if_false]
      obtain ⟨r, hr, hr1, hr2⟩ := ih2 tomb
      refine ⟨r, hr, hr1, fun hn => ?_⟩
      obtain ⟨d0, hd0, hrd, hnokey, hlive⟩ := hr2 hn
      refine ⟨d0 + 1, by omega, by rw [hrd, probe_succ], hnokey, fun d hd => ?_⟩
      cases d with
      | zero => rw [probe_zero hs]; exact ⟨x, k, hx, hxk⟩
      | succ d =>
        have := hlive d (by omega)
        rw [probe_succ] at this
        exact this

theorem exists_empty {entries : List Entry} (h : slotsUsed entries < entries.length) :
    ∃ i, i < entries.length ∧ EmptyAt entries i := by
  by_contra hcon
  have hall : ∀ a ∈ entries, (fun e : Entry => !e.isEmpty) a = true := by
    intro a ha
    obtain ⟨n, hn⟩ := List.mem_iff_getElem?.1 ha
    by_contra hne
    apply hcon
    have hlt : n < entries.length := by
      obtain ⟨hlt, _⟩ := List.getElem?_eq_some.1 hn
      exact hlt
    refine ⟨n, hlt, a, hn, ?_⟩
    simpa using hne
  have := List.countP_eq_length.2 hall
  unfold slotsUsed at h
  omega

theorem LiveAt.used {entries : List Entry} {i : Nat} (h : LiveAt entries i) :
    UsedAt entries i := by
  obtain ⟨e, k, he, hk⟩ := h
  exact ⟨e, he, by simp [Entry.isEmpty, hk]⟩

theorem slot_cases {entries : List Entry} {i : Nat} (hi : i < entries.length) (key : Nat) :
    EmptyAt entries i ∨ KeyAt entries i key ∨
      (UsedAt entries i ∧ ¬ KeyAt entries i key) := by
  have hx : entries[i]? = some entries[i] := List.getElem?_eq_getElem hi
  by_cases h1 : entries[i].isEmpty = true
  · exact Or.inl ⟨_, hx, h1⟩
  · by_cases h2 : entries[i].Key = some key
    · exact Or.inr (Or.inl ⟨_, hx, h2⟩)
    · refine Or.inr (Or.inr ⟨⟨_, hx, by simpa using h1⟩, ?_⟩)
      rintro ⟨e, he, hk⟩
      rw [hx] at he
      cases he
      exact h2 hk

theorem FindEntryLoop_spec {heap : Nat → ObjString} {entries : List Entry} {c : Nat}
    (h : ArrWF heap entries c) (hroom : slotsUsed entries < c) (key fuel : Nat)
    (hfuel : c ≤ fuel) :
    ∃ r, FindEntryLoop entries c key fuel ((heap key).Hash &&& mask32 c) none = some r ∧
      (KeyAt entries r key ∨
        (NoKeyAt entries r ∧ (∀ i, ¬ KeyAt entries i key) ∧
          ∃ d0, d0 < c ∧ r = ((heap key).Hash % c + d0) % c ∧
            ∀ d, d < d0 → LiveAt entries (((heap key).Hash % c + d) % c))) := by
  classical
  rw [and_mask32 h.pow]
  have hcpos := h.pow.pos
  set s := (heap key).Hash % c with hs_def
  have hs : s < c := Nat.mod_lt _ hcpos
  have hlen := h.len
  obtain ⟨ie, hie, hempty⟩ := exists_empty (by rw [hlen]; exact hroom)
  rw [hlen] at hie
  obtain ⟨hdlt, hdeq⟩ := probe_reach hs hie
  -- the first position on the probe path that is empty or holds the key
  have hex : ∃ d, EmptyAt entries ((s + d) % c) ∨ KeyAt entries ((s + d) % c) key :=
    ⟨_, Or.inl (by rw [hdeq]; exact hempty)⟩
  have hele : Nat.find hex ≤ (ie + c - s) % c :=
    Nat.find_min' hex (Or.inl (by rw [hdeq]; exact hempty))
  have hpath : ∀ d, d < Nat.find hex →
      UsedAt entries ((s + d) % c) ∧ ¬ KeyAt entries ((s + d) % c) key := by
    intro d hd
    have hmin := Nat.find_min hex hd
    have hlt : (s + d) % c < entries.length := by rw [hlen]; exact Nat.mod_lt _ hcpos
    rcases slot_cases hlt key with h1 | h1 | h1
    · exact absurd (Or.inl h1) hmin
    · exact absurd (Or.inr h1) hmin
    · exact h1
  rcases Nat.find_spec hex with hE | hK
  · obtain ⟨r, hr, _, hr2⟩ := FindEntryLoop_absent entries c key h.pow (Nat.find hex) s fuel
      none hs (by omega) hpath hE
    obtain ⟨d0, hd0, hrd, hnokey, hlive⟩ := hr2 rfl
    refine ⟨r, hr, Or.inr ⟨hnokey, ?_, d0, by omega, hrd, hlive⟩⟩
    intro i hki
    obtain ⟨d, hd, hdi, hused⟩ := h.probe i key hki
    rw [← hs_def] at hdi hused
    rcases Nat.lt_trichotomy (Nat.find hex) d with hlt | heq | hgt
    · obtain ⟨x, hx, hxe⟩ := hused _ hlt
      obtain ⟨y, hy, hye⟩ := hE
      rw [hx] at hy
      cases hy
      rw [hxe] at hye
      cases hye
    · obtain ⟨y, hy, hye⟩ := hE
      rw [heq, hdi] at hy
      obtain ⟨x, hx, hxk⟩ := hki
      rw [hx] at hy
      cases hy
      simp [Entry.isEmpty, hxk] at hye
    · exact (hpath d hgt).2 (by rw [hdi]; exact hki)
  · exact ⟨_, FindEntryLoop_found entries c key h.pow (Nat.find hex) s fuel none hs
      (by omega) hpath hK, Or.inl hK⟩

theorem UsedAt_set {entries : List Entry} {r j : Nat} {a : Entry}
    (ha : a.isEmpty = false) (h : UsedAt entries j) : UsedAt (entries.set r a) j := by
  obtain ⟨e, he, hee⟩ := h
  have hj : j < entries.length := (List.getElem?_eq_some.1 he).1
  by_cases hrj : r = j
  · subst hrj
    exact ⟨a, by rw [List.getElem?_set]; simp [hj], ha⟩
  · exact ⟨e, by rw [List.getElem?_set_ne hrj]; exact he, hee⟩

theorem KeyAt_set {entries : List Entry} {r : Nat} (hr : r < entries.length) (a : Entry)
    (j k : Nat) :
    KeyAt (entries.set r a) j k ↔ (j = r ∧ a.Key = some k) ∨ (j ≠ r ∧ KeyAt entries j k) := by
  unfold KeyAt
  by_cases hrj : r = j
  · subst hrj
    rw [List.getElem?_set]
    simp [hr]
  · rw [List.getElem?_set_ne hrj]
    have : j ≠ r := fun h => hrj h.symm
    simp [this]

theorem ArrWF_set {heap : Nat → ObjString} {entries : List Entry} {c : Nat}
    (h : ArrWF heap entries c) {r : Nat} {a : Entry} (hr : r < c)
    (ha : a.isEmpty = false)
    (huniq : ∀ k, a.Key = some k → ∀ i, KeyAt entries i k → i = r)
    (hprobe : ∀ k, a.Key = some k → ∃ d, d < c ∧ ((heap k).Hash % c + d) % c = r ∧
      ∀ d', d' < d → UsedAt entries (((heap k).Hash % c + d') % c)) :
    ArrWF heap (entries.set r a) c := by
  have hrl : r < entries.length := by rw [h.len]; exact hr
  refine ⟨by rw [List.length_set]; exact h.len, h.pow, ?_, ?_⟩
  · intro i j k hi hj
    rw [KeyAt_set hrl] at hi hj
    rcases hi with ⟨hi, hak⟩ | ⟨hi, hik⟩ <;> rcases hj with ⟨hj, hak2⟩ | ⟨hj, hjk⟩
    · rw [hi, hj]
    · exact absurd (huniq k hak j hjk) hj
    · exact absurd (huniq k hak2 i hik) hi
    · exact h.uniq i j k hik hjk
  · intro i k hi
    rw [KeyAt_set hrl] at hi
    rcases hi with ⟨hi, hak⟩ | ⟨hi, hik⟩
    · obtain ⟨d, hd, hdr, hu⟩ := hprobe k hak
      exact ⟨d, hd, by rw [hdr, hi], fun d' hd' => UsedAt_set ha (hu d' hd')⟩
    · obtain ⟨d, hd, hdr, hu⟩ := h.probe i k hik
      exact ⟨d, hd, hdr, fun d' hd' => UsedAt_set ha (hu d' hd')⟩

theorem ValAt.keyAt {entries : List Entry} {i k : Nat} {v : Value}
    (h : ValAt entries i k v) : KeyAt entries i k := by
  obtain ⟨e, he, hk, _⟩ := h
  exact ⟨e, he, hk⟩

theorem ValAt_set {entries : List Entry} {r : Nat} (hr : r < entries.length) (a : Entry)
    (j k : Nat) (v : Value) :
    ValAt (entries.set r a) j k v ↔
      (j = r ∧ a.Key = some k ∧ a.Value = v) ∨ (j ≠ r ∧ ValAt entries j k v) := by
  unfold ValAt
  by_cases hrj : r = j
  · subst hrj
    rw [List.getElem?_set]
    simp [hr]
  · rw [List.getElem?_set_ne hrj]
    have : j ≠ r := fun h => hrj h.symm
    simp [this]

/-- Writing `key ↦ value` into a slot that holds `key` or no key, when no other
slot holds `key`. -/
theorem Holds_set_key {entries : List Entry} {r key : Nat} (hr : r < entries.length)
    (value : Value) (honly : ∀ i, KeyAt entries i key → i = r)
    (hslot : ∀ k, KeyAt entries r k → k = key) (k : Nat) (v : Value) :
    Holds (entries.set r ⟨some key, value⟩) k v ↔
      (k = key ∧ v = value) ∨ (k ≠ key ∧ Holds entries k v) := by
  constructor
  · rintro ⟨i, hi⟩
    rw [ValAt_set hr] at hi
    rcases hi with ⟨_, hk, hv⟩ | ⟨hir, hv⟩
    · simp only [Option.some.injEq] at hk
      exact Or.inl ⟨hk.symm, hv.symm⟩
    · by_cases hkk : k = key
      · subst hkk
        exact absurd (honly i hv.keyAt) hir
      · exact Or.inr ⟨hkk, i, hv⟩
  · rintro (⟨hk, hv⟩ | ⟨hk, i, hi⟩)
    · exact ⟨r, (ValAt_set hr _ _ _ _).2 (Or.inl ⟨rfl, by rw [hk], by rw [hv]⟩)⟩
    · refine ⟨i, (ValAt_set hr _ _ _ _).2 (Or.inr ⟨?_, hi⟩)⟩
      intro hir
      subst hir
      exact hk (hslot k hi.keyAt)

/-- Replacing the live entry of `key` by a tombstone. -/
theorem Holds_set_tombstone {entries : List Entry} {r key : Nat} (hr : r < entries.length)
    (value : Value) (honly : ∀ i, KeyAt entries i key → i = r)
    (hslot : ∀ k, KeyAt entries r k → k = key) (k : Nat) (v : Value) :
    Holds (entries.set r ⟨none, value⟩) k v ↔ (k ≠ key ∧ Holds entries k v) := by
  constructor
  · rintro ⟨i, hi⟩
    rw [ValAt_set hr] at hi
    rcases hi with ⟨_, hk, _⟩ | ⟨hir, hv⟩
    · cases hk
    · by_cases hkk : k = key
      · subst hkk
        exact absurd (honly i hv.keyAt) hir
      · exact ⟨hkk, i, hv⟩
  · rintro ⟨hk, i, hi⟩
    refine ⟨i, (ValAt_set hr _ _ _ _).2 (Or.inr ⟨?_, hi⟩)⟩
    intro hir
    subst hir
    exact hk (hslot k hi.keyAt)

theorem slotsUsed_set {entries : List Entry} {r : Nat} (hr : r < entries.length)
    (a : Entry) (ha : a.isEmpty = false) :
    slotsUsed (entries.set r a) =
      slotsUsed entries + (if entries[r].isEmpty then 1 else 0) := by
  unfold slotsUsed
  rw [List.countP_set _ _ _ _ hr]
  have hpos : entries[r].isEmpty = false → 0 < List.countP (fun e => !e.isEmpty) entries := by
    intro hne
    apply List.countP_pos_iff.2
    exact ⟨entries[r], List.getElem_mem hr, by simp [hne]⟩
  cases hre : entries[r].isEmpty
  · have := hpos hre
    simp [ha]
    omega
  · simp [ha]

theorem liveCount_set {entries : List Entry} {r : Nat} (hr : r < entries.length)
    (a : Entry) :
    liveCount (entries.set r a) + (if entries[r].Key.isSome then 1 else 0) =
      liveCount entries + (if a.Key.isSome then 1 else 0) := by
  unfold liveCount
  rw [List.countP_set _ _ _ _ hr]
  have hpos : entries[r].Key.isSome = true →
      0 < List.countP (fun e => e.Key.isSome) entries := by
    intro hne
    apply List.countP_pos_iff.2
    exact ⟨entries[r], List.getElem_mem hr, hne⟩
  cases hre : entries[r].Key.isSome
  · simp
  · have := hpos hre
    simp
    omega

/-- What `FindEntry` returns on a well-formed array with a free slot: the slot
of `key` when the key is live, otherwise the first key-less slot of the probe
path, every slot before it being live. -/
theorem FindEntry_spec {heap : Nat → ObjString} {entries : List Entry} {c : Nat}
    (h : ArrWF heap entries c) (hroom : slotsUsed entries < c) (key : Nat) :
    ∃ r x, FindEntry heap entries c key = some r ∧ entries[r]? = some x ∧ r < c ∧
      ((x.Key = some key ∧ ∀ i, KeyAt entries i key → i = r) ∨
        (x.Key = none ∧ (∀ i, ¬ KeyAt entries i key) ∧
          ∃ d0, d0 < c ∧ r = ((heap key).Hash % c + d0) % c ∧
            ∀ d, d < d0 → LiveAt entries (((heap key).Hash % c + d) % c))) := by
  obtain ⟨r, hr, hcase⟩ := FindEntryLoop_spec h hroom key c (le_refl c)
  rcases hcase with hk | ⟨hnk, habs, hpath⟩
  · obtain ⟨x, hx, hxk⟩ := hk
    have hrl : r < entries.length := (List.getElem?_eq_some.1 hx).1
    exact ⟨r, x, hr, hx, by rw [← h.len]; exact hrl,
      Or.inl ⟨hxk, fun i hi => h.uniq i r key hi ⟨x, hx, hxk⟩⟩⟩
  · obtain ⟨x, hx, hxk⟩ := hnk
    have hrl : r < entries.length := (List.getElem?_eq_some.1 hx).1
    exact ⟨r, x, hr, hx, by rw [← h.len]; exact hrl, Or.inr ⟨hxk, habs, hpath⟩⟩

theorem Holds_iff_keyAt {entries : List Entry} {k : Nat} :
    (∃ v, Holds entries k v) ↔ ∃ i, KeyAt entries i k := by
  constructor
  · rintro ⟨v, i, hi⟩
    exact ⟨i, hi.keyAt⟩
  · rintro ⟨i, e, he, hk⟩
    exact ⟨e.Value, i, e, he, hk, rfl⟩

/-- Storing `key ↦ value` at the slot `FindEntry` returns. -/
theorem insert_spec {heap : Nat → ObjString} {entries : List Entry} {c : Nat}
    (h : ArrWF heap entries c) (hroom : slotsUsed entries < c) (key : Nat) (value : Value) :
    ∃ r x, FindEntry heap entries c key = some r ∧ entries[r]? = some x ∧
      ArrWF heap (entries.set r ⟨some key, value⟩) c ∧
      (∀ k v, Holds (entries.set r ⟨some key, value⟩) k v ↔
        (k = key ∧ v = value) ∨ (k ≠ key ∧ Holds entries k v)) ∧
      (x.Key.isNone = true ↔ ∀ v, ¬ Holds entries key v) ∧
      slotsUsed (entries.set r ⟨some key, value⟩) =
        slotsUsed entries + (if x.isEmpty then 1 else 0) ∧
      liveCount (entries.set r ⟨some key, value⟩) =
        liveCount entries + (if x.Key.isNone then 1 else 0) := by
  obtain ⟨r, x, hr, hx, hrc, hcase⟩ := FindEntry_spec h hroom key
  have hrl : r < entries.length := (List.getElem?_eq_some.1 hx).1
  have hxe : entries[r] = x := (List.getElem?_eq_some.1 hx).2
  have hnew : (⟨some key, value⟩ : Entry).isEmpty = false := by simp [Entry.isEmpty]
  have hsl := slotsUsed_set hrl ⟨some key, value⟩ hnew
  have hlv := liveCount_set hrl ⟨some key, value⟩
  rw [hxe] at hsl hlv
  refine ⟨r, x, hr, hx, ?_, ?_, ?_, hsl, ?_⟩
  · apply ArrWF_set h hrc hnew
    · intro k hk i hi
      simp only [Option.some.injEq] at hk
      subst hk
      rcases hcase with ⟨_, honly⟩ | ⟨_, habs, _⟩
      · exact honly i hi
      · exact absurd hi (habs i)
    · intro k hk
      simp only [Option.some.injEq] at hk
      subst hk
      rcases hcase with ⟨hxk, _⟩ | ⟨_, _, d0, hd0, hrd, hlive⟩
      · exact h.probe r key ⟨x, hx, hxk⟩
      · exact ⟨d0, hd0, hrd.symm, fun d hd => (hlive d hd).used⟩
  · intro k v
    apply Holds_set_key hrl
    · intro i hi
      rcases hcase with ⟨_, honly⟩ | ⟨_, habs, _⟩
      · exact honly i hi
      · exact absurd hi (habs i)
    · rintro k ⟨y, hy, hyk⟩
      rw [hx] at hy
      cases hy
      rcases hcase with ⟨hxk, _⟩ | ⟨hxk, _⟩
      · rw [hxk] at hyk
        cases hyk
        rfl
      · rw [hxk] at hyk
        cases hyk
  · rcases hcase with ⟨hxk, _⟩ | ⟨hxk, habs, _⟩
    · simp only [hxk, Option.isNone_some, Bool.false_eq_true, false_iff, not_forall,
        not_not]
      exact ⟨x.Value, r, x, hx, hxk, rfl⟩
    · simp only [hxk, Option.isNone_none, true_iff]
      intro v hv
      obtain ⟨i, hi⟩ := Holds_iff_keyAt.1 ⟨v, hv⟩
      exact habs i hi
  · rcases hcase with ⟨hxk, _⟩ | ⟨hxk, _⟩
    · simp [hxk] at hlv ⊢
      omega
    · simp [hxk] at hlv ⊢
      omega

/-! ### `AdjustCapacity` -/

theorem AdjustCapacityCopy_succ (heap : Nat → ObjString) (old : List Entry)
    (capacity n i : Nat) (entries : List Entry) (count : Nat) :
    AdjustCapacityCopy heap old capacity (n + 1) i (entries, count) =
      match old[i]? with
      | none => none
      | some entry =>
        match entry.Key with
        | none => AdjustCapacityCopy heap old capacity n (i + 1) (entries, count)
        | some k =>
          match FindEntry heap entries capacity k with
          | none => none
          | some dest =>
            AdjustCapacityCopy heap old capacity n (i + 1)
              (entries.set dest ⟨some k, entry.Value⟩, count + 1) := rfl

theorem copyList_cons (heap : Nat → ObjString) (capacity : Nat) (entry : Entry)
    (rest entries : List Entry) (count : Nat) :
    copyList heap capacity (entry :: rest) (entries, count) =
      match entry.Key with
      | none => copyList heap capacity rest (entries, count)
      | some k =>
        match FindEntry heap entries capacity k with
        | none => none
        | some dest =>
          copyList heap capacity rest (entries.set dest ⟨some k, entry.Value⟩, count + 1) :=
  rfl

theorem AdjustCapacityCopy_eq_copyList (heap : Nat → ObjString) (old : List Entry)
    (capacity : Nat) :
    ∀ (n i : Nat) (st : List Entry × Nat), i + n = old.length →
      AdjustCapacityCopy heap old capacity n i st =
        copyList heap capacity (old.drop i) st := by
  intro n
  induction n with
  | zero =>
    intro i st hi
    have : old.drop i = [] := List.drop_eq_nil_of_le (by omega)
    rw [this]
    rfl
  | succ n ih =>
    rintro i ⟨entries, count⟩ hi
    have hlt : i < old.length := by omega
    rw [List.drop_eq_getElem_cons hlt, AdjustCapacityCopy_succ, copyList_cons,
      List.getElem?_eq_getElem hlt]
    dsimp only
    cases old[i].Key with
    | none => exact ih (i + 1) _ (by omega)
    | some k =>
      dsimp only
      cases FindEntry heap entries capacity k with
      | none => rfl
      | some dest => exact ih (i + 1) _ (by omega)

theorem NoTomb_set {entries : List Entry} (h : NoTomb entries) (r k : Nat) (v : Value) :
    NoTomb (entries.set r ⟨some k, v⟩) := by
  intro e he hk
  rcases List.mem_or_eq_of_mem_set he with h1 | h1
  · exact h e h1 hk
  · subst h1
    cases hk

theorem Holds_iff_mem {entries : List Entry} {k : Nat} {v : Value} :
    Holds entries k v ↔ ∃ e ∈ entries, e.Key = some k ∧ e.Value = v := by
  constructor
  · rintro ⟨i, e, he, hk, hv⟩
    exact ⟨e, List.mem_iff_getElem?.2 ⟨i, he⟩, hk, hv⟩
  · rintro ⟨e, he, hk, hv⟩
    obtain ⟨i, hi⟩ := List.mem_iff_getElem?.1 he
    exact ⟨i, e, hi, hk, hv⟩

theorem copyList_spec (heap : Nat → ObjString) (c : Nat) :
    ∀ (rest entries : List Entry) (count : Nat),
      ArrWF heap entries c → NoTomb entries → count = slotsUsed entries →
      slotsUsed entries + liveCount rest < c → KeysDistinct rest →
      (∀ e ∈ rest, ∀ k, e.Key = some k → ∀ v, ¬ Holds entries k v) →
      ∃ entries2, copyList heap c rest (entries, count) =
          some (entries2, count + liveCount rest) ∧
        ArrWF heap entries2 c ∧ NoTomb entries2 ∧
        slotsUsed entries2 = count + liveCount rest ∧
        liveCount entries2 = liveCount entries + liveCount rest ∧
        ∀ k v, Holds entries2 k v ↔ (Holds entries k v ∨ Holds rest k v) := by
  intro rest
  induction rest with
  | nil =>
    intro entries count h _ hc _ _ _
    refine ⟨entries, rfl, h, ‹NoTomb entries›, by simp [liveCount, hc], by simp [liveCount], ?_⟩
    intro k v
    simp [Holds_iff_mem]
  | cons e rest ih =>
    intro entries count h hnt hc hroom hdist hfresh
    rw [copyList_cons]
    have hdist2 : KeysDistinct rest := (List.pairwise_cons.1 hdist).2
    have hhead := (List.pairwise_cons.1 hdist).1
    cases hek : e.Key with
    | none =>
      have hlc : liveCount (e :: rest) = liveCount rest := by
        simp [liveCount, List.countP_cons, hek]
      rw [hlc] at hroom ⊢
      obtain ⟨entries2, h1, h2, h3, h4, h5, h6⟩ := ih entries count h hnt hc hroom hdist2
        (fun e2 he2 => hfresh e2 (List.mem_cons_of_mem _ he2))
      refine ⟨entries2, h1, h2, h3, h4, h5, ?_⟩
      intro k v
      rw [h6 k v]
      simp [Holds_iff_mem, hek]
    | some key =>
      have hlc : liveCount (e :: rest) = liveCount rest + 1 := by
        simp [liveCount, List.countP_cons, hek]
      rw [hlc] at hroom ⊢
      obtain ⟨r, x, hr, hx, hwf, hholds, hnew, hsl, hlv⟩ :=
        insert_spec h (by omega) key e.Value
      have habsent : ∀ v, ¬ Holds entries key v := hfresh e (List.mem_cons_self _ _) key hek
      have hxnone : x.Key.isNone = true := hnew.2 habsent
      have hxk : x.Key = none := by
        cases hxx : x.Key with
        | none => rfl
        | some _ => simp [hxx] at hxnone
      have hxe : x.isEmpty = true :=
        hnt x (List.mem_iff_getElem?.2 ⟨r, hx⟩) hxk
      simp only [hxe, if_true] at hsl
      simp only [hxk, Option.isNone_none, if_true] at hlv
      dsimp only
      rw [hr]
      dsimp only
      obtain ⟨entries2, h1, h2, h3, h4, h5, h6⟩ :=
        ih (entries.set r ⟨some key, e.Value⟩) (count + 1) hwf (NoTomb_set hnt _ _ _)
          (by omega) (by omega) hdist2
          (by
            intro e2 he2 k hk2 v hv
            rcases (hholds k v).1 hv with ⟨hkk, _⟩ | ⟨_, hold⟩
            · subst hkk
              exact hhead e2 he2 k hek hk2
            · exact hfresh e2 (List.mem_cons_of_mem _ he2) k hk2 v hold)
      refine ⟨entries2, ?_, h2, h3, by omega, by omega, ?_⟩
      · rw [h1]
        congr 2
        omega
      · intro k v
        rw [h6 k v, hholds k v]
        constructor
        · rintro ((⟨hk, hv⟩ | ⟨_, hold⟩) | hrest)
          · exact Or.inr (Holds_iff_mem.2 ⟨e, List.mem_cons_self _ _, by rw [hek, hk], by rw [hv]⟩)
          · exact Or.inl hold
          · obtain ⟨e2, he2, hk2, hv2⟩ := Holds_iff_mem.1 hrest
            exact Or.inr (Holds_iff_mem.2 ⟨e2, List.mem_cons_of_mem _ he2, hk2, hv2⟩)
        · rintro (hold | hcons)
          · by_cases hkk : k = key
            · subst hkk
              exact absurd hold (habsent v)
            · exact Or.inl (Or.inr ⟨hkk, hold⟩)
          · obtain ⟨e2, he2, hk2, hv2⟩ := Holds_iff_mem.1 hcons
            rcases List.mem_cons.1 he2 with heq | hmem
            · subst heq
              rw [hek] at hk2
              cases hk2
              exact Or.inl (Or.inl ⟨rfl, hv2.symm⟩)
            · exact Or.inr (Holds_iff_mem.2 ⟨e2, hmem, hk2, hv2⟩)

/-! ### Table invariant -/

theorem TableWF.length {heap : Nat → ObjString} {t : Table} (h : TableWF heap t) :
    t.Entries.length = t.Capacity := by
  rcases h.arr with ⟨h1, h2⟩ | h1
  · rw [h1, h2]; rfl
  · exact h1.len

theorem TableWF.uniq {heap : Nat → ObjString} {t : Table} (h : TableWF heap t) :
    ∀ i j k, KeyAt t.Entries i k → KeyAt t.Entries j k → i = j := by
  rcases h.arr with ⟨_, h2⟩ | h1
  · rintro i j k ⟨e, he, _⟩
    rw [h2] at he
    simp at he
  · exact h1.uniq

theorem keysDistinct_of_uniq {l : List Entry}
    (h : ∀ i j k, KeyAt l i k → KeyAt l j k → i = j) : KeysDistinct l := by
  unfold KeysDistinct
  rw [List.pairwise_iff_getElem]
  intro i j hi hj hij k hk1 hk2
  have := h i j k ⟨l[i], List.getElem?_eq_getElem hi, hk1⟩
    ⟨l[j], List.getElem?_eq_getElem hj, hk2⟩
  omega

theorem liveCount_le_slotsUsed (l : List Entry) : liveCount l ≤ slotsUsed l := by
  unfold liveCount slotsUsed
  apply List.countP_mono_left
  intro e _ he
  cases hk : e.Key with
  | none => simp [hk] at he
  | some k => simp [Entry.isEmpty, hk]

theorem slotsUsed_eq_liveCount {l : List Entry} (h : NoTomb l) :
    slotsUsed l = liveCount l := by
  unfold liveCount slotsUsed
  apply List.countP_congr
  intro e he
  cases hk : e.Key with
  | none => simp [h e he hk]
  | some k => simp [Entry.isEmpty, hk]

theorem not_Holds_of_slotsUsed_zero {l : List Entry} (h : slotsUsed l = 0) (k : Nat)
    (v : Value) : ¬ Holds l k v := by
  intro hh
  obtain ⟨e, he, hk, _⟩ := Holds_iff_mem.1 hh
  unfold slotsUsed at h
  rw [List.countP_eq_zero] at h
  have := h e he
  simp [Entry.isEmpty, hk] at this

theorem emptyEntry_isEmpty : (⟨none, NIL_VAL⟩ : Entry).isEmpty = true := by decide

theorem ArrWF_replicate (heap : Nat → ObjString) {c : Nat} (hc : Pow2Cap c) :
    ArrWF heap (List.replicate c ⟨none, NIL_VAL⟩) c := by
  have hno : ∀ i k, ¬ KeyAt (List.replicate c (⟨none, NIL_VAL⟩ : Entry)) i k := by
    rintro i k ⟨e, he, hk⟩
    have hmem : e ∈ List.replicate c (⟨none, NIL_VAL⟩ : Entry) :=
      List.mem_iff_getElem?.2 ⟨i, he⟩
    rw [List.eq_of_mem_replicate hmem] at hk
    cases hk
  exact ⟨List.length_replicate _ _, hc, fun i j k hi _ => absurd hi (hno i k),
    fun i k hi => absurd hi (hno i k)⟩

theorem NoTomb_replicate (c : Nat) : NoTomb (List.replicate c ⟨none, NIL_VAL⟩) := by
  intro e he _
  rw [List.eq_of_mem_replicate he]
  exact emptyEntry_isEmpty

theorem slotsUsed_replicate (c : Nat) :
    slotsUsed (List.replicate c ⟨none, NIL_VAL⟩) = 0 := by
  unfold slotsUsed
  rw [List.countP_replicate]
  simp [emptyEntry_isEmpty]

theorem liveCount_replicate (c : Nat) :
    liveCount (List.replicate c ⟨none, NIL_VAL⟩) = 0 := by
  unfold liveCount
  rw [List.countP_replicate]
  simp

theorem AdjustCapacity_spec {heap : Nat → ObjString} {t : Table} (hwf : TableWF heap t)
    {c : Nat} (hc : Pow2Cap c) (hroom : liveCount t.Entries < c) :
    ∃ t2, AdjustCapacity heap t c = some t2 ∧ t2.Capacity = c ∧
      ArrWF heap t2.Entries c ∧ NoTomb t2.Entries ∧
      t2.Count = slotsUsed t2.Entries ∧ t2.Count = liveCount t.Entries ∧
      liveCount t2.Entries = liveCount t.Entries ∧
      ∀ k v, Holds t2.Entries k v ↔ Holds t.Entries k v := by
  have hbridge := AdjustCapacityCopy_eq_copyList heap t.Entries c t.Capacity 0
    (List.replicate c ⟨none, NIL_VAL⟩, 0) (by rw [hwf.length]; omega)
  rw [List.drop_zero] at hbridge
  obtain ⟨entries2, h1, h2, h3, h4, h5, h6⟩ :=
    copyList_spec heap c t.Entries (List.replicate c ⟨none, NIL_VAL⟩) 0
      (ArrWF_replicate heap hc) (NoTomb_replicate c) (slotsUsed_replicate c).symm
      (by rw [slotsUsed_replicate]; omega) (keysDistinct_of_uniq hwf.uniq)
      (fun e _ k _ v hv =>
        not_Holds_of_slotsUsed_zero (slotsUsed_replicate c) k v hv)
  rw [Nat.zero_add] at h1 h4
  rw [liveCount_replicate, Nat.zero_add] at h5
  refine ⟨⟨liveCount t.Entries, c, entries2⟩, ?_, rfl, h2, h3, h4.symm, rfl, h5, ?_⟩
  · unfold AdjustCapacity
    rw [hbridge, h1]
  · intro k v
    rw [h6 k v]
    constructor
    · rintro (h | h)
      · exact absurd h (not_Holds_of_slotsUsed_zero (slotsUsed_replicate c) k v)
      · exact h
    · exact Or.inr

theorem Pow2Cap_grow {c : Nat} (h : c = 0 ∨ Pow2Cap c) (hmax : GROW_CAPACITY c ≤ INT_MAX) :
    Pow2Cap (GROW_CAPACITY c) := by
  unfold GROW_CAPACITY at hmax ⊢
  rcases h with h | h
  · subst h
    exact ⟨3, le_refl _, by decide, by norm_num⟩
  · have h8 := h.ge_eight
    obtain ⟨n, h3, h30, rfl⟩ := h
    have hn8 : ¬ 2 ^ n < 8 := by omega
    simp only [hn8, if_false] at hmax ⊢
    refine ⟨n + 1, by omega, ?_, by rw [pow_succ]⟩
    by_contra hcon
    have h30' : n = 30 := by omega
    subst h30'
    unfold INT_MAX at hmax
    norm_num at hmax

theorem TableWF.cap {heap : Nat → ObjString} {t : Table} (h : TableWF heap t) :
    t.Capacity = 0 ∨ Pow2Cap t.Capacity := by
  rcases h.arr with ⟨h1, _⟩ | h1
  · exact Or.inl h1
  · exact Or.inr h1.pow

/-- The growth step of `TableSet` on a well-formed table, when the grown
capacity fits an `int`. -/
theorem TableSetGrow_spec {heap : Nat → ObjString} {t : Table} (hwf : TableWF heap t)
    (hmax : 4 * (t.Count + 1) > 3 * t.Capacity → GROW_CAPACITY t.Capacity ≤ INT_MAX) :
    ∃ t1, TableSetGrow heap t = some t1 ∧ ArrWF heap t1.Entries t1.Capacity ∧
      t1.Count = slotsUsed t1.Entries ∧ 4 * (t1.Count + 1) ≤ 3 * t1.Capacity ∧
      liveCount t1.Entries = liveCount t.Entries ∧
      (NoTomb t.Entries → NoTomb t1.Entries) ∧
      (∀ k v, Holds t1.Entries k v ↔ Holds t.Entries k v) := by
  unfold TableSetGrow
  by_cases hg : 4 * (t.Count + 1) > 3 * t.Capacity
  · have hm := hmax hg
    have hnot : ¬ GROW_CAPACITY t.Capacity > INT_MAX := by omega
    simp only [hg, hnot, if_true, if_false]
    have hpow := Pow2Cap_grow hwf.cap hm
    have hlive : liveCount t.Entries ≤ t.Count := by
      rw [hwf.count_eq]; exact liveCount_le_slotsUsed _
    have hload := hwf.load
    have hgc : 8 ≤ GROW_CAPACITY t.Capacity ∧ 2 * t.Capacity ≤ GROW_CAPACITY t.Capacity := by
      unfold GROW_CAPACITY
      rcases hwf.cap with h0 | hp
      · rw [h0]; simp
      · have := hp.ge_eight
        split <;> omega
    obtain ⟨t2, h1, h2, h3, h4, h5, h6, h7, h8⟩ :=
      AdjustCapacity_spec hwf hpow (by omega)
    refine ⟨t2, h1, by rw [h2]; exact h3, h5, ?_, h7, fun _ => h4, h8⟩
    rw [h2, h6]
    rcases hwf.cap with h0 | hp
    · rw [h0] at hload
      omega
    · have := hp.ge_eight
      omega
  · simp only [hg, if_false]
    have hcpos : 0 < t.Capacity := by omega
    have harr : ArrWF heap t.Entries t.Capacity := by
      rcases hwf.arr with ⟨h0, _⟩ | h1
      · omega
      · exact h1
    exact ⟨t, rfl, harr, hwf.count_eq, by omega, rfl, id, fun _ _ => Iff.rfl⟩

theorem TableSetGrow_none_iff {heap : Nat → ObjString} {t : Table} (hwf : TableWF heap t) :
    TableSetGrow heap t = none ↔
      (4 * (t.Count + 1) > 3 * t.Capacity ∧ GROW_CAPACITY t.Capacity > INT_MAX) := by
  constructor
  · intro hnone
    by_contra hcon
    obtain ⟨t1, h1, _⟩ := TableSetGrow_spec hwf (by
      intro hg
      by_contra h2
      exact hcon ⟨hg, by omega⟩)
    rw [hnone] at h1
    cases h1
  · rintro ⟨h1, h2⟩
    unfold TableSetGrow
    simp [h1, h2]

/-- Behaviour of `TableSet` on a well-formed table whose growth step succeeded. -/
theorem TableSet_spec {heap : Nat → ObjString} {t : Table} (hwf : TableWF heap t)
    (key : Nat) (value : Value)
    (hmax : 4 * (t.Count + 1) > 3 * t.Capacity → GROW_CAPACITY t.Capacity ≤ INT_MAX) :
    ∃ b t2, TableSet heap t key value = some (b, t2) ∧ TableWF heap t2 ∧
      (∀ k v, Holds t2.Entries k v ↔
        (k = key ∧ v = value) ∨ (k ≠ key ∧ Holds t.Entries k v)) ∧
      (b = true ↔ ∀ v, ¬ Holds t.Entries key v) ∧
      liveCount t2.Entries = liveCount t.Entries + (if b then 1 else 0) ∧
      (NoTomb t.Entries → NoTomb t2.Entries) ∧
      0 < t2.Count ∧ Pow2Cap t2.Capacity := by
  obtain ⟨t1, hg, harr, hcnt, hload, hlive, hnt, hholds⟩ := TableSetGrow_spec hwf hmax
  have hroom : slotsUsed t1.Entries < t1.Capacity := by omega
  obtain ⟨r, x, hr, hx, hwf2, hh2, hnew, hsl, hlv⟩ :=
    insert_spec harr hroom key value
  have hrl : r < t1.Entries.length := (List.getElem?_eq_some.1 hx).1
  refine ⟨x.Key.isNone,
    ⟨if x.Key.isNone && IS_NIL x.Value then t1.Count + 1 else t1.Count, t1.Capacity,
      t1.Entries.set r ⟨some key, value⟩⟩, ?_, ?_, ?_, ?_, ?_, ?_, ?_, hwf2.pow⟩
  · unfold TableSet
    rw [hg]
    dsimp only
    rw [hr]
    dsimp only
    rw [hx]
  · refine ⟨?_, ?_, Or.inr hwf2⟩
    · dsimp only
      rw [hsl, ← hcnt]
      cases hxk : x.Key with
      | none =>
        simp only [Entry.isEmpty, hxk, Option.isNone_none, Bool.true_and]
        split <;> rfl
      | some k => simp [Entry.isEmpty, hxk]
    · dsimp only
      split <;> omega
  · intro k v
    rw [hh2 k v, hholds k v]
  · rw [hnew]
    constructor
    · intro h v hv
      exact h v ((hholds key v).2 hv)
    · intro h v hv
      exact h v ((hholds key v).1 hv)
  · dsimp only
    rw [hlv, hlive]
  · intro h
    exact NoTomb_set (hnt h) _ _ _
  · dsimp only
    have hused : 0 < slotsUsed (t1.Entries.set r ⟨some key, value⟩) := by
      unfold slotsUsed
      apply List.countP_pos_iff.2
      refine ⟨⟨some key, value⟩, ?_, by simp [Entry.isEmpty]⟩
      apply List.mem_iff_getElem?.2
      exact ⟨r, by rw [List.getElem?_set]; simp [hrl]⟩
    rw [hsl] at hused
    cases hxk : x.Key with
    | none =>
      cases hnil : IS_NIL x.Value with
      | true => simp
      | false =>
        simp [Entry.isEmpty, hxk, hnil] at hused ⊢
        omega
    | some k =>
      simp [Entry.isEmpty, hxk] at hused ⊢
      omega

theorem TableSet_none_iff {heap : Nat → ObjString} {t : Table} (hwf : TableWF heap t)
    (key : Nat) (value : Value) :
    TableSet heap t key value = none ↔
      (4 * (t.Count + 1) > 3 * t.Capacity ∧ GROW_CAPACITY t.Capacity > INT_MAX) := by
  constructor
  · intro hnone
    by_contra hcon
    obtain ⟨b, t2, h1, _⟩ := TableSet_spec hwf key value (by
      intro hg
      by_contra h2
      exact hcon ⟨hg, by omega⟩)
    rw [hnone] at h1
    cases h1
  · intro h
    unfold TableSet
    rw [(TableSetGrow_none_iff hwf).2 h]

theorem TableWF.arr_of_cap {heap : Nat → ObjString} {t : Table} (hwf : TableWF heap t)
    (hc : 0 < t.Capacity) :
    ArrWF heap t.Entries t.Capacity ∧ slotsUsed t.Entries < t.Capacity := by
  have hload := hwf.load
  have hcnt := hwf.count_eq
  rcases hwf.arr with ⟨h0, _⟩ | h1
  · omega
  · exact ⟨h1, by omega⟩

theorem TableWF.arr_of_count {heap : Nat → ObjString} {t : Table} (hwf : TableWF heap t)
    (hc : t.Count ≠ 0) : ArrWF heap t.Entries t.Capacity ∧ slotsUsed t.Entries < t.Capacity := by
  have hload := hwf.load
  exact hwf.arr_of_cap (by omega)

/-- On a well-formed table `TableGet` returns, and finds exactly the value the
entries array holds for the key. -/
theorem TableGet_spec {heap : Nat → ObjString} {t : Table} (hwf : TableWF heap t)
    (key : Nat) :
    ∃ r, TableGet heap t key = some r ∧ ∀ v, r = some v ↔ Holds t.Entries key v := by
  unfold TableGet
  by_cases hc : t.Count = 0
  · simp only [hc, if_true]
    refine ⟨none, rfl, fun v => ⟨fun h => (by cases h), fun h => ?_⟩⟩
    exact absurd h (not_Holds_of_slotsUsed_zero (by rw [← hwf.count_eq]; exact hc) key v)
  · simp only [hc, if_false]
    obtain ⟨harr, hroom⟩ := hwf.arr_of_count hc
    obtain ⟨r, x, hr, hx, _, hcase⟩ := FindEntry_spec harr hroom key
    rw [hr]
    dsimp only
    rw [hx]
    dsimp only
    rcases hcase with ⟨hxk, honly⟩ | ⟨hxk, habs, _⟩
    · rw [hxk]
      refine ⟨some x.Value, rfl, fun v => ⟨fun h => ?_, fun h => ?_⟩⟩
      · cases h
        exact ⟨r, x, hx, hxk, rfl⟩
      · obtain ⟨i, y, hy, hyk, hyv⟩ := h
        have := honly i ⟨y, hy, hyk⟩
        subst this
        rw [hx] at hy
        cases hy
        rw [hyv]
    · rw [hxk]
      refine ⟨none, rfl, fun v => ⟨fun h => (by cases h), fun h => ?_⟩⟩
      obtain ⟨i, hi⟩ := h
      exact absurd hi.keyAt (habs i)

/-- Behaviour of `TableDelete` on a well-formed table. -/
theorem TableDelete_spec {heap : Nat → ObjString} {t : Table} (hwf : TableWF heap t)
    (key : Nat) :
    ∃ b t2, TableDelete heap t key = some (b, t2) ∧ TableWF heap t2 ∧
      (b = true ↔ ∃ v, Holds t.Entries key v) ∧
      (∀ k v, Holds t2.Entries k v ↔ (k ≠ key ∧ Holds t.Entries k v)) ∧
      t2.Count = t.Count ∧ t2.Capacity = t.Capacity ∧
      liveCount t2.Entries + (if b then 1 else 0) = liveCount t.Entries ∧
      (b = true → ∃ i, KeyAt t.Entries i key ∧
        t2.Entries = t.Entries.set i ⟨none, TRUE_VAL⟩) ∧
      (b = false → t2 = t) := by
  have hunchanged : (∀ v, ¬ Holds t.Entries key v) →
      ∀ k v, Holds t.Entries k v ↔ (k ≠ key ∧ Holds t.Entries k v) := by
    intro habs k v
    constructor
    · intro h
      refine ⟨?_, h⟩
      rintro rfl
      exact habs v h
    · exact fun h => h.2
  unfold TableDelete
  by_cases hc : t.Count = 0
  · rw [if_pos hc]
    have habs : ∀ v, ¬ Holds t.Entries key v := fun v =>
      not_Holds_of_slotsUsed_zero (by rw [← hwf.count_eq]; exact hc) key v
    refine ⟨false, t, rfl, hwf, ?_, hunchanged habs, rfl, rfl, by simp,
      fun hb => (by cases hb), fun _ => rfl⟩
    simp only [Bool.false_eq_true, false_iff, not_exists]
    exact habs
  · simp only [hc, if_false]
    obtain ⟨harr, hroom⟩ := hwf.arr_of_count hc
    obtain ⟨r, x, hr, hx, hrc, hcase⟩ := FindEntry_spec harr hroom key
    have hrl : r < t.Entries.length := (List.getElem?_eq_some.1 hx).1
    have hxe : t.Entries[r] = x := (List.getElem?_eq_some.1 hx).2
    rw [hr]
    dsimp only
    rw [hx]
    dsimp only
    rcases hcase with ⟨hxk, honly⟩ | ⟨hxk, habs, _⟩
    · rw [hxk]
      dsimp only
      have htomb : (⟨none, BOOL_VAL true⟩ : Entry).isEmpty = false := by decide
      have hsl := slotsUsed_set hrl ⟨none, BOOL_VAL true⟩ htomb
      have hlv := liveCount_set hrl ⟨none, BOOL_VAL true⟩
      rw [hxe] at hsl hlv
      have hxne : x.isEmpty = false := by simp [Entry.isEmpty, hxk]
      simp only [hxne, Bool.false_eq_true, if_false, Nat.add_zero] at hsl
      simp only [hxk, Option.isSome_some, if_true, Option.isSome_none,
        Bool.false_eq_true, if_false, Nat.add_zero] at hlv
      refine ⟨true, _, rfl, ⟨?_, hwf.load, Or.inr ?_⟩, ?_, ?_, rfl, rfl, ?_,
        fun _ => ⟨r, ⟨x, hx, hxk⟩, rfl⟩, fun hb => (by cases hb)⟩
      · dsimp only
        rw [hsl]
        exact hwf.count_eq
      · apply ArrWF_set harr hrc htomb
        · intro k hk
          cases hk
        · intro k hk
          cases hk
      · simp only [true_iff]
        exact ⟨x.Value, r, x, hx, hxk, rfl⟩
      · intro k v
        apply Holds_set_tombstone hrl _ honly
        rintro k ⟨y, hy, hyk⟩
        rw [hx] at hy
        cases hy
        rw [hxk] at hyk
        cases hyk
        rfl
      · simpa using hlv
    · rw [hxk]
      dsimp only
      have habs2 : ∀ v, ¬ Holds t.Entries key v := by
        rintro v ⟨i, hi⟩
        exact habs i hi.keyAt
      refine ⟨false, t, rfl, hwf, ?_, hunchanged habs2, rfl, rfl, by simp,
        fun hb => (by cases hb), fun _ => rfl⟩
      simp only [Bool.false_eq_true, false_iff, not_exists]
      exact habs2

theorem TableSet_of_some {heap : Nat → ObjString} {t : Table} (hwf : TableWF heap t)
    {key : Nat} {value : Value} {b : Bool} {t2 : Table}
    (h : TableSet heap t key value = some (b, t2)) :
    TableWF heap t2 ∧
      (∀ k v, Holds t2.Entries k v ↔
        (k = key ∧ v = value) ∨ (k ≠ key ∧ Holds t.Entries k v)) ∧
      (b = true ↔ ∀ v, ¬ Holds t.Entries key v) ∧
      liveCount t2.Entries = liveCount t.Entries + (if b then 1 else 0) ∧
      (NoTomb t.Entries → NoTomb t2.Entries) ∧
      0 < t2.Count ∧ Pow2Cap t2.Capacity := by
  have hmax : 4 * (t.Count + 1) > 3 * t.Capacity → GROW_CAPACITY t.Capacity ≤ INT_MAX := by
    intro hg
    by_contra hcon
    have := (TableSet_none_iff hwf key value).2 ⟨hg, by omega⟩
    rw [this] at h
    cases h
  obtain ⟨b', t2', h1, h2⟩ := TableSet_spec hwf key value hmax
  rw [h1] at h
  cases h
  exact h2

theorem TableSet_isSome {heap : Nat → ObjString} {t : Table} (hwf : TableWF heap t)
    (key : Nat) (value : Value) (hcap : t.Capacity < 2 ^ 30) :
    ∃ r, TableSet heap t key value = some r := by
  have hmax : 4 * (t.Count + 1) > 3 * t.Capacity → GROW_CAPACITY t.Capacity ≤ INT_MAX := by
    intro _
    unfold GROW_CAPACITY INT_MAX
    have : (2:Nat) ^ 30 = 1073741824 := by norm_num
    split <;> omega
  obtain ⟨b, t2, h1, _⟩ := TableSet_spec hwf key value hmax
  exact ⟨(b, t2), h1⟩

theorem TableAddAllLoop_succ (heap : Nat → ObjString) (fromTable : Table) (n i : Nat)
    (toTable : Table) :
    TableAddAllLoop heap fromTable (n + 1) i toTable =
      match fromTable.Entries[i]? with
      | none => none
      | some entry =>
        match entry.Key with
        | none => TableAddAllLoop heap fromTable n (i + 1) toTable
        | some k =>
          match TableSet heap toTable k entry.Value with
          | none => none
          | some r => TableAddAllLoop heap fromTable n (i + 1) r.2 := rfl

theorem TableAddAllLoop_wf (heap : Nat → ObjString) (fromTable : Table) :
    ∀ (n i : Nat) (toTable t2 : Table), TableWF heap toTable →
      TableAddAllLoop heap fromTable n i toTable = some t2 → TableWF heap t2 := by
  intro n
  induction n with
  | zero =>
    intro i toTable t2 hwf h
    cases h
    exact hwf
  | succ n ih =>
    intro i toTable t2 hwf h
    rw [TableAddAllLoop_succ] at h
    cases hx : fromTable.Entries[i]? with
    | none => rw [hx] at h; cases h
    | some entry =>
      rw [hx] at h
      dsimp only at h
      cases hk : entry.Key with
      | none =>
        rw [hk] at h
        exact ih _ _ _ hwf h
      | some k =>
        rw [hk] at h
        dsimp only at h
        cases hs : TableSet heap toTable k entry.Value with
        | none => rw [hs] at h; cases h
        | some r =>
          rw [hs] at h
          obtain ⟨b, t3⟩ := r
          exact ih _ _ _ (TableSet_of_some hwf hs).1 h

theorem TableWF_init (heap : Nat → ObjString) : TableWF heap InitTable :=
  ⟨rfl, by simp [InitTable], Or.inl ⟨rfl, rfl⟩⟩

theorem Reachable.wf {heap : Nat → ObjString} {t : Table} (h : Reachable heap t) :
    TableWF heap t := by
  induction h with
  | init => exact TableWF_init heap
  | set key value _ hs ih => exact (TableSet_of_some ih hs).1
  | delete key _ hd ih =>
    obtain ⟨b, t2, h1, h2, _⟩ := TableDelete_spec ih key
    rw [h1] at hd
    cases hd
    exact h2
  | addAll fromTable _ ha ih => exact TableAddAllLoop_wf heap fromTable _ _ _ _ ih ha

/-! ### `TableFindString` -/

theorem TableFindStringLoop_succ (heap : Nat → ObjString) (table : Table)
    (chars : List Nat) (length hash fuel index : Nat) :
    TableFindStringLoop heap table chars length hash (fuel + 1) index =
      match table.Entries[index]? with
      | none => none
      | some entry =>
        match entry.Key with
        | none =>
          if IS_NIL entry.Value then some none
          else TableFindStringLoop heap table chars length hash fuel
            (nextIndex index table.Capacity)
        | some k =>
          if (heap k).Length = length ∧ (heap k).Hash = hash ∧
              (heap k).Chars.take length = chars.take length then some (some k)
          else TableFindStringLoop heap table chars length hash fuel
            (nextIndex index table.Capacity) := rfl

theorem TableFindStringLoop_walk (heap : Nat → ObjString) (t : Table)
    (chars : List Nat) (length hash : Nat) (hc : Pow2Cap t.Capacity) :
    ∀ (e s fuel : Nat), s < t.Capacity → e < fuel →
      (∀ d, d < e → UsedAt t.Entries ((s + d) % t.Capacity) ∧
        ∀ k, KeyAt t.Entries ((s + d) % t.Capacity) k → ¬ StrMatch heap k chars length hash) →
      (EmptyAt t.Entries ((s + e) % t.Capacity) →
        TableFindStringLoop heap t chars length hash fuel s = some none) ∧
      (∀ k, KeyAt t.Entries ((s + e) % t.Capacity) k → StrMatch heap k chars length hash →
        TableFindStringLoop heap t chars length hash fuel s = some (some k)) := by
  intro e
  induction e with
  | zero =>
    intro s fuel hs hf _
    obtain ⟨f, rfl⟩ : ∃ f, fuel = f + 1 := ⟨fuel - 1, by omega⟩
    rw [probe_zero hs, TableFindStringLoop_succ]
    constructor
    · rintro ⟨x, hx, hxe⟩
      have hkn : x.Key = none := by
        cases h : x.Key with
        | none => rfl
        | some k => simp [Entry.isEmpty, h] at hxe
      have hnil : IS_NIL x.Value = true := by
        simpa [Entry.isEmpty, hkn] using hxe
      rw [hx]
      simp [hkn, hnil]
    · rintro k ⟨x, hx, hxk⟩ hm
      rw [hx]
      dsimp only
      rw [hxk]
      dsimp only
      exact if_pos hm
  | succ e ih =>
    intro s fuel hs hf hpath
    obtain ⟨f, rfl⟩ : ∃ f, fuel = f + 1 := ⟨fuel - 1, by omega⟩
    have h0 := hpath 0 (by omega)
    rw [probe_zero hs] at h0
    obtain ⟨⟨x, hx, hxe⟩, hnm⟩ := h0
    have hnext : nextIndex s t.Capacity = (s + 1) % t.Capacity := nextIndex_eq hc hs
    have hlt : (s + 1) % t.Capacity < t.Capacity := Nat.mod_lt _ hc.pos
    have ih2 := ih ((s + 1) % t.Capacity) f hlt (by omega)
        (by intro d hd; rw [probe_succ]; exact hpath (d + 1) (by omega))
    rw [probe_succ] at ih2
    have hstep : TableFindStringLoop heap t chars length hash (f + 1) s =
        TableFindStringLoop heap t chars length hash f ((s + 1) % t.Capacity) := by
      rw [TableFindStringLoop_succ, hx]
      dsimp only
      cases hxk : x.Key with
      | none =>
        have hnil : IS_NIL x.Value = false := by
          simpa [Entry.isEmpty, hxk] using hxe
        simp [hnil, hnext]
      | some k =>
        have hne : ¬ StrMatch heap k chars length hash := hnm k ⟨x, hx, hxk⟩
        dsimp only
        rw [hnext]
        exact if_neg hne
    rw [hstep]
    exact ih2

/-- On a well-formed table `TableFindString` returns; a returned key is a live
key with the requested content, and `NULL` is returned only when no live key
has that content. -/
theorem TableFindStringLoop_spec {heap : Nat → ObjString} {t : Table}
    (hwf : TableWF heap t) (hcap : 0 < t.Capacity) (chars : List Nat)
    (length hash fuel : Nat) (hfuel : t.Capacity ≤ fuel) :
    ∃ r, TableFindStringLoop heap t chars length hash fuel (hash &&& mask32 t.Capacity)
        = some r ∧
      (r = none → ∀ i k, KeyAt t.Entries i k → ¬ StrMatch heap k chars length hash) ∧
      (∀ k, r = some k → (∃ i, KeyAt t.Entries i k) ∧ StrMatch heap k chars length hash) := by
  classical
  obtain ⟨h, hroom⟩ := hwf.arr_of_cap hcap
  rw [and_mask32 h.pow]
  have hcpos := h.pow.pos
  set c := t.Capacity with hc_def
  set s := hash % c with hs_def
  have hs : s < c := Nat.mod_lt _ hcpos
  have hlen := h.len
  obtain ⟨ie, hie, hempty⟩ := exists_empty (by rw [hlen]; exact hroom)
  rw [hlen] at hie
  obtain ⟨hdlt, hdeq⟩ := probe_reach hs hie
  have hex : ∃ d, EmptyAt t.Entries ((s + d) % c) ∨
      ∃ k, KeyAt t.Entries ((s + d) % c) k ∧ StrMatch heap k chars length hash :=
    ⟨_, Or.inl (by rw [hdeq]; exact hempty)⟩
  have hele : Nat.find hex ≤ (ie + c - s) % c :=
    Nat.find_min' hex (Or.inl (by rw [hdeq]; exact hempty))
  have hpath : ∀ d, d < Nat.find hex →
      UsedAt t.Entries ((s + d) % c) ∧
        ∀ k, KeyAt t.Entries ((s + d) % c) k → ¬ StrMatch heap k chars length hash := by
    intro d hd
    have hmin := Nat.find_min hex hd
    have hlt : (s + d) % c < t.Entries.length := by rw [hlen]; exact Nat.mod_lt _ hcpos
    refine ⟨?_, fun k hk hm => hmin (Or.inr ⟨k, hk, hm⟩)⟩
    rcases slot_cases hlt 0 with h1 | h1 | h1
    · exact absurd (Or.inl h1) hmin
    · obtain ⟨x, hx, hxk⟩ := h1
      exact ⟨x, hx, by simp [Entry.isEmpty, hxk]⟩
    · exact h1.1
  have hwalk := TableFindStringLoop_walk heap t chars length hash h.pow (Nat.find hex) s fuel
    hs (by omega) hpath
  rcases Nat.find_spec hex with hE | ⟨k, hK, hM⟩
  · refine ⟨none, hwalk.1 hE, fun _ i k hki hm => ?_, fun k hk => (by cases hk)⟩
    obtain ⟨d, hd, hdi, hused⟩ := h.probe i k hki
    rw [hm.2.1, ← hs_def] at hdi hused
    rcases Nat.lt_trichotomy (Nat.find hex) d with hlt | heq | hgt
    · obtain ⟨x, hx, hxe⟩ := hused _ hlt
      obtain ⟨y, hy, hye⟩ := hE
      rw [hx] at hy
      cases hy
      rw [hxe] at hye
      cases hye
    · obtain ⟨y, hy, hye⟩ := hE
      rw [heq, hdi] at hy
      obtain ⟨x, hx, hxk⟩ := hki
      rw [hx] at hy
      cases hy
      simp [Entry.isEmpty, hxk] at hye
    · exact (hpath d hgt).2 k (by rw [hdi]; exact hki) hm
  · refine ⟨some k, hwalk.2 k hK hM, fun hn => (by cases hn), fun k2 hk2 => ?_⟩
    cases hk2
    exact ⟨⟨_, hK⟩, hM⟩

theorem FindEntryLoop_mono (entries : List Entry) (c key : Nat) :
    ∀ (fuel s : Nat) (tomb : Option Nat) (r : Nat),
      FindEntryLoop entries c key fuel s tomb = some r →
      ∀ fuel2, fuel ≤ fuel2 → FindEntryLoop entries c key fuel2 s tomb = some r := by
  intro fuel
  induction fuel with
  | zero =>
    intro s tomb r h
    cases h
  | succ f ih =>
    intro s tomb r h fuel2 hle
    obtain ⟨f2, rfl⟩ : ∃ f2, fuel2 = f2 + 1 := ⟨fuel2 - 1, by omega⟩
    rw [FindEntryLoop_succ] at h ⊢
    cases hx : entries[s]? with
    | none => rw [hx] at h; cases h
    | some x =>
      rw [hx] at h
      dsimp only at h ⊢
      cases hk : x.Key with
      | none =>
        rw [hk] at h
        dsimp only at h ⊢
        cases hn : IS_NIL x.Value with
        | true =>
          rw [hn] at h
          simpa using h
        | false =>
          rw [hn] at h
          simp only [Bool.false_eq_true, if_false] at h ⊢
          exact ih _ _ _ h _ (by omega)
      | some k =>
        rw [hk] at h
        dsimp only at h ⊢
        by_cases hkk : k = key
        · simp only [hkk, if_true] at h ⊢
          exact h
        · simp only [hkk, if_false] at h ⊢
          exact ih _ _ _ h _ (by omega)

theorem TableFindStringLoop_mono (heap : Nat → ObjString) (t : Table) (chars : List Nat)
    (length hash : Nat) :
    ∀ (fuel s : Nat) (r : Option Nat),
      TableFindStringLoop heap t chars length hash fuel s = some r →
      ∀ fuel2, fuel ≤ fuel2 → TableFindStringLoop heap t chars length hash fuel2 s = some r := by
  intro fuel
  induction fuel with
  | zero =>
    intro s r h
    cases h
  | succ f ih =>
    intro s r h fuel2 hle
    obtain ⟨f2, rfl⟩ : ∃ f2, fuel2 = f2 + 1 := ⟨fuel2 - 1, by omega⟩
    rw [TableFindStringLoop_succ] at h ⊢
    cases hx : t.Entries[s]? with
    | none => rw [hx] at h; cases h
    | some x =>
      rw [hx] at h
      dsimp only at h ⊢
      cases hk : x.Key with
      | none =>
        rw [hk] at h
        dsimp only at h ⊢
        cases hn : IS_NIL x.Value with
        | true =>
          rw [hn] at h
          simpa using h
        | false =>
          rw [hn] at h
          simp only [Bool.false_eq_true, if_false] at h ⊢
          exact ih _ _ h _ (by omega)
      | some k =>
        rw [hk] at h
        dsimp only at h ⊢
        by_cases hm : (heap k).Length = length ∧ (heap k).Hash = hash ∧
            (heap k).Chars.take length = chars.take length
        · rw [if_pos hm] at h ⊢
          exact h
        · rw [if_neg hm] at h ⊢
          exact ih _ _ h _ (by omega)

theorem probe_wrap {c s e : Nat} (h : c ≤ e) : (s + (e - c)) % c = (s + e) % c := by
  have : s + e = s + (e - c) + c := by omega
  rw [this, Nat.add_mod_right]

theorem FindEntryLoop_exists_stop (entries : List Entry) (c key : Nat) (hc : Pow2Cap c) :
    ∀ (fuel s : Nat) (tomb : Option Nat) (r : Nat), s < c →
      FindEntryLoop entries c key fuel s tomb = some r →
      ∃ e, e < fuel ∧ (EmptyAt entries ((s + e) % c) ∨ KeyAt entries ((s + e) % c) key) := by
  intro fuel
  induction fuel with
  | zero =>
    intro s tomb r _ h
    cases h
  | succ f ih =>
    intro s tomb r hs h
    rw [FindEntryLoop_succ] at h
    cases hx : entries[s]? with
    | none => rw [hx] at h; cases h
    | some x =>
      rw [hx] at h
      dsimp only at h
      have hnext : nextIndex s c = (s + 1) % c := nextIndex_eq hc hs
      have hlt : (s + 1) % c < c := Nat.mod_lt _ hc.pos
      have hrec : ∀ tomb2, FindEntryLoop entries c key f (nextIndex s c) tomb2 = some r →
          ∃ e, e < f + 1 ∧
            (EmptyAt entries ((s + e) % c) ∨ KeyAt entries ((s + e) % c) key) := by
        intro tomb2 h2
        rw [hnext] at h2
        obtain ⟨e, he, hstop⟩ := ih _ _ _ hlt h2
        rw [probe_succ] at hstop
        exact ⟨e + 1, by omega, hstop⟩
      cases hk : x.Key with
      | none =>
        rw [hk] at h
        dsimp only at h
        cases hn : IS_NIL x.Value with
        | true =>
          refine ⟨0, by omega, Or.inl ?_⟩
          rw [probe_zero hs]
          exact ⟨x, hx, by simp [Entry.isEmpty, hk, hn]⟩
        | false =>
          rw [hn] at h
          simp only [Bool.false_eq_true, if_false] at h
          exact hrec _ h
      | some k =>
        rw [hk] at h
        dsimp only at h
        by_cases hkk : k = key
        · refine ⟨0, by omega, Or.inr ?_⟩
          rw [probe_zero hs]
          exact ⟨x, hx, by rw [hk, hkk]⟩
        · rw [if_neg hkk] at h
          exact hrec _ h

/-- Running the probe loop of `FindEntry` for `capacity` slots loses nothing:
whatever the loop returns with any amount of fuel, it returns with `capacity`
units. -/
theorem FindEntryLoop_fuel_exact {entries : List Entry} {c : Nat} (hc : Pow2Cap c)
    (hlen : entries.length = c) (key fuel s : Nat) (r : Nat) (hs : s < c)
    (h : FindEntryLoop entries c key fuel s none = some r) :
    FindEntryLoop entries c key c s none = some r := by
  classical
  obtain ⟨e1, _, hstop1⟩ := FindEntryLoop_exists_stop entries c key hc fuel s none r hs h
  have hex : ∃ e, EmptyAt entries ((s + e) % c) ∨ KeyAt entries ((s + e) % c) key :=
    ⟨e1, hstop1⟩
  have hlt : Nat.find hex < c := by
    by_contra hge
    have hge : c ≤ Nat.find hex := by omega
    have hsp := Nat.find_spec hex
    rw [← probe_wrap hge] at hsp
    exact Nat.find_min hex (by have := hc.pos; omega) hsp
  have hpath : ∀ d, d < Nat.find hex →
      UsedAt entries ((s + d) % c) ∧ ¬ KeyAt entries ((s + d) % c) key := by
    intro d hd
    have hmin := Nat.find_min hex hd
    have hl : (s + d) % c < entries.length := by rw [hlen]; exact Nat.mod_lt _ hc.pos
    rcases slot_cases hl key with h1 | h1 | h1
    · exact absurd (Or.inl h1) hmin
    · exact absurd (Or.inr h1) hmin
    · exact h1
  have hres : ∃ r2, FindEntryLoop entries c key c s none = some r2 := by
    rcases Nat.find_spec hex with hE | hK
    · obtain ⟨r2, hr2, _⟩ := FindEntryLoop_absent entries c key hc (Nat.find hex) s c none
        hs hlt hpath hE
      exact ⟨r2, hr2⟩
    · exact ⟨_, FindEntryLoop_found entries c key hc (Nat.find hex) s c none hs hlt hpath hK⟩
  obtain ⟨r2, hr2⟩ := hres
  have h1 := FindEntryLoop_mono entries c key fuel s none r h (max fuel c) (le_max_left _ _)
  have h2 := FindEntryLoop_mono entries c key c s none r2 hr2 (max fuel c) (le_max_right _ _)
  rw [h1] at h2
  cases h2
  exact hr2

theorem TableFindStringLoop_exists_stop (heap : Nat → ObjString) (t : Table)
    (chars : List Nat) (length hash : Nat) (hc : Pow2Cap t.Capacity) :
    ∀ (fuel s : Nat) (r : Option Nat), s < t.Capacity →
      TableFindStringLoop heap t chars length hash fuel s = some r →
      ∃ e, e < fuel ∧ (EmptyAt t.Entries ((s + e) % t.Capacity) ∨
        ∃ k, KeyAt t.Entries ((s + e) % t.Capacity) k ∧
          StrMatch heap k chars length hash) := by
  intro fuel
  induction fuel with
  | zero =>
    intro s r _ h
    cases h
  | succ f ih =>
    intro s r hs h
    rw [TableFindStringLoop_succ] at h
    cases hx : t.Entries[s]? with
    | none => rw [hx] at h; cases h
    | some x =>
      rw [hx] at h
      dsimp only at h
      have hnext : nextIndex s t.Capacity = (s + 1) % t.Capacity := nextIndex_eq hc hs
      have hlt : (s + 1) % t.Capacity < t.Capacity := Nat.mod_lt _ hc.pos
      have hrec : TableFindStringLoop heap t chars length hash f
          (nextIndex s t.Capacity) = some r →
          ∃ e, e < f + 1 ∧ (EmptyAt t.Entries ((s + e) % t.Capacity) ∨
            ∃ k, KeyAt t.Entries ((s + e) % t.Capacity) k ∧
              StrMatch heap k chars length hash) := by
        intro h2
        rw [hnext] at h2
        obtain ⟨e, he, hstop⟩ := ih _ _ hlt h2
        rw [probe_succ] at hstop
        exact ⟨e + 1, by omega, hstop⟩
      cases hk : x.Key with
      | none =>
        rw [hk] at h
        dsimp only at h
        cases hn : IS_NIL x.Value with
        | true =>
          refine ⟨0, by omega, Or.inl ?_⟩
          rw [probe_zero hs]
          exact ⟨x, hx, by simp [Entry.isEmpty, hk, hn]⟩
        | false =>
          rw [hn] at h
          simp only [Bool.false_eq_true, if_false] at h
          exact hrec h
      | some k =>
        rw [hk] at h
        dsimp only at h
        by_cases hm : (heap k).Length = length ∧ (heap k).Hash = hash ∧
            (heap k).Chars.take length = chars.take length
        · refine ⟨0, by omega, Or.inr ⟨k, ?_, hm⟩⟩
          rw [probe_zero hs]
          exact ⟨x, hx, hk⟩
        · rw [if_neg hm] at h
          exact hrec h

/-- Running the probe loop of `TableFindString` for `Capacity` slots loses
nothing: whatever the loop returns with any amount of fuel, it returns with
`Capacity` units. -/
theorem TableFindStringLoop_fuel_exact {heap : Nat → ObjString} {t : Table}
    (hc : Pow2Cap t.Capacity) (hlen : t.Entries.length = t.Capacity) (chars : List Nat)
    (length hash fuel s : Nat) (r : Option Nat) (hs : s < t.Capacity)
    (h : TableFindStringLoop heap t chars length hash fuel s = some r) :
    TableFindStringLoop heap t chars length hash t.Capacity s = some r := by
  classical
  obtain ⟨e1, _, hstop1⟩ :=
    TableFindStringLoop_exists_stop heap t chars length hash hc fuel s r hs h
  have hex : ∃ e, EmptyAt t.Entries ((s + e) % t.Capacity) ∨
      ∃ k, KeyAt t.Entries ((s + e) % t.Capacity) k ∧ StrMatch heap k chars length hash :=
    ⟨e1, hstop1⟩
  have hlt : Nat.find hex < t.Capacity := by
    by_contra hge
    have hge : t.Capacity ≤ Nat.find hex := by omega
    have hsp := Nat.find_spec hex
    rw [← probe_wrap hge] at hsp
    exact Nat.find_min hex (by have := hc.pos; omega) hsp
  have hpath : ∀ d, d < Nat.find hex →
      UsedAt t.Entries ((s + d) % t.Capacity) ∧
        ∀ k, KeyAt t.Entries ((s + d) % t.Capacity) k →
          ¬ StrMatch heap k chars length hash := by
    intro d hd
    have hmin := Nat.find_min hex hd
    have hl : (s + d) % t.Capacity < t.Entries.length := by
      rw [hlen]; exact Nat.mod_lt _ hc.pos
    refine ⟨?_, fun k hk hm => hmin (Or.inr ⟨k, hk, hm⟩)⟩
    rcases slot_cases hl 0 with h1 | h1 | h1
    · exact absurd (Or.inl h1) hmin
    · obtain ⟨x, hx, hxk⟩ := h1
      exact ⟨x, hx, by simp [Entry.isEmpty, hxk]⟩
    · exact h1.1
  have hwalk := TableFindStringLoop_walk heap t chars length hash hc (Nat.find hex) s
    t.Capacity hs hlt hpath
  have hres : ∃ r2, TableFindStringLoop heap t chars length hash t.Capacity s = some r2 := by
    rcases Nat.find_spec hex with hE | ⟨k, hK, hM⟩
    · exact ⟨_, hwalk.1 hE⟩
    · exact ⟨_, hwalk.2 k hK hM⟩
  obtain ⟨r2, hr2⟩ := hres
  have h1 := TableFindStringLoop_mono heap t chars length hash fuel s r h
    (max fuel t.Capacity) (le_max_left _ _)
  have h2 := TableFindStringLoop_mono heap t chars length hash t.Capacity s r2 hr2
    (max fuel t.Capacity) (le_max_right _ _)
  rw [h1] at h2
  cases h2
  exact hr2

/-! ## Lemmas on strings and interning -/

theorem HashStringLoop_succ (key : List Nat) (n i hash : Nat) :
    HashStringLoop key (n + 1) i hash =
      match key[i]? with
      | none => none
      | some c =>
        HashStringLoop key n (i + 1) (((hash ^^^ (c % 256)) * 16777619) % 2 ^ 32) := rfl

theorem HashStringLoop_eq (key : List Nat) :
    ∀ (n i hash : Nat), i + n ≤ key.length →
      HashStringLoop key n i hash = some (((key.drop i).take n).foldl
        (fun hash byte => ((hash ^^^ (byte % 256)) * 16777619) % 2 ^ 32) hash) := by
  intro n
  induction n with
  | zero =>
    intro i hash _
    simp [HashStringLoop]
  | succ n ih =>
    intro i hash hi
    have hlt : i < key.length := by omega
    rw [HashStringLoop_succ, List.getElem?_eq_getElem hlt]
    dsimp only
    rw [ih (i + 1) _ (by omega), List.drop_eq_getElem_cons hlt, List.take_succ_cons,
      List.foldl_cons]

theorem HashStringLoop_none (key : List Nat) :
    ∀ (n i hash : Nat), i ≤ key.length → key.length < i + n →
      HashStringLoop key n i hash = none := by
  intro n
  induction n with
  | zero =>
    intro i hash h1 h2
    omega
  | succ n ih =>
    intro i hash h1 h2
    rw [HashStringLoop_succ]
    cases hx : key[i]? with
    | none => rfl
    | some c =>
      dsimp only
      have hlt : i < key.length := (List.getElem?_eq_some.1 hx).1
      exact ih (i + 1) _ (by omega) (by omega)

theorem HashString_eq {chars : List Nat} {length : Nat} (h : length ≤ chars.length) :
    HashString chars length = some (FNV1a32 (chars.take length)) := by
  unfold HashString FNV1a32
  rw [HashStringLoop_eq chars length 0 _ (by omega), List.drop_zero]

theorem HashString_some {chars : List Nat} {length hash : Nat}
    (h : HashString chars length = some hash) :
    length ≤ chars.length ∧ hash = FNV1a32 (chars.take length) := by
  by_cases hle : length ≤ chars.length
  · rw [HashString_eq hle] at h
    cases h
    exact ⟨hle, rfl⟩
  · unfold HashString at h
    rw [HashStringLoop_none chars length 0 _ (by omega) (by omega)] at h
    cases h

theorem content_length {s : ObjString} (h : StrObjWF s) : (content s).length = s.Length := by
  unfold content
  rw [List.length_take]
  exact Nat.min_eq_left h.1

/-- Changing the heap away from the keys of an array keeps it well formed. -/
theorem ArrWF_heap_congr {heap heap2 : Nat → ObjString} {entries : List Entry} {c : Nat}
    (h : ArrWF heap entries c)
    (hagree : ∀ i k, KeyAt entries i k → (heap2 k).Hash = (heap k).Hash) :
    ArrWF heap2 entries c := by
  refine ⟨h.len, h.pow, h.uniq, fun i k hk => ?_⟩
  rw [hagree i k hk]
  exact h.probe i k hk

theorem TableWF_heap_congr {heap heap2 : Nat → ObjString} {t : Table}
    (h : TableWF heap t)
    (hagree : ∀ i k, KeyAt t.Entries i k → (heap2 k).Hash = (heap k).Hash) :
    TableWF heap2 t := by
  refine ⟨h.count_eq, h.load, ?_⟩
  rcases h.arr with h0 | h1
  · exact Or.inl h0
  · exact Or.inr (ArrWF_heap_congr h1 hagree)

theorem TableRemoveWhiteLoop_succ (heap : Nat → ObjString) (marked : Nat → Bool)
    (n i : Nat) (table : Table) :
    TableRemoveWhiteLoop heap marked (n + 1) i table =
      match table.Entries[i]? with
      | none => none
      | some entry =>
        match entry.Key with
        | none => TableRemoveWhiteLoop heap marked n (i + 1) table
        | some k =>
          if !marked k then
            match TableDelete heap table k with
            | none => none
            | some r => TableRemoveWhiteLoop heap marked n (i + 1) r.2
          else TableRemoveWhiteLoop heap marked n (i + 1) table := rfl

theorem TableRemoveWhiteLoop_spec (heap : Nat → ObjString) (marked : Nat → Bool) :
    ∀ (n i : Nat) (t : Table), TableWF heap t → i + n = t.Capacity →
      (∀ j k, j < i → KeyAt t.Entries j k → marked k = true) →
      ∃ t2, TableRemoveWhiteLoop heap marked n i t = some t2 ∧ TableWF heap t2 ∧
        t2.Count = t.Count ∧ t2.Capacity = t.Capacity ∧
        (∀ j k, KeyAt t2.Entries j k → KeyAt t.Entries j k ∧ marked k = true) := by
  intro n
  induction n with
  | zero =>
    intro i t hwf hi hm
    refine ⟨t, rfl, hwf, rfl, rfl, fun j k hk => ⟨hk, hm j k ?_ hk⟩⟩
    obtain ⟨e, he, _⟩ := hk
    have := (List.getElem?_eq_some.1 he).1
    rw [hwf.length] at this
    omega
  | succ n ih =>
    intro i t hwf hi hm
    have hlt : i < t.Entries.length := by rw [hwf.length]; omega
    rw [TableRemoveWhiteLoop_succ, List.getElem?_eq_getElem hlt]
    dsimp only
    have hx : t.Entries[i]? = some t.Entries[i] := List.getElem?_eq_getElem hlt
    have hkeep : (∀ k, KeyAt t.Entries i k → marked k = true) →
        ∃ t2, TableRemoveWhiteLoop heap marked n (i + 1) t = some t2 ∧ TableWF heap t2 ∧
          t2.Count = t.Count ∧ t2.Capacity = t.Capacity ∧
          (∀ j k, KeyAt t2.Entries j k → KeyAt t.Entries j k ∧ marked k = true) := by
      intro hik
      apply ih (i + 1) t hwf (by omega)
      intro j k hj hk
      rcases Nat.lt_or_ge j i with h1 | h1
      · exact hm j k h1 hk
      · have : j = i := by omega
        subst this
        exact hik k hk
    cases hk : t.Entries[i].Key with
    | none =>
      dsimp only
      apply hkeep
      rintro k ⟨e, he, hek⟩
      rw [hx] at he
      cases he
      rw [hk] at hek
      cases hek
    | some k =>
      dsimp only
      cases hmk : marked k with
      | true =>
        simp only [Bool.not_true, Bool.false_eq_true, if_false]
        apply hkeep
        rintro k2 ⟨e, he, hek⟩
        rw [hx] at he
        cases he
        rw [hk] at hek
        cases hek
        exact hmk
      | false =>
        simp only [Bool.not_false, if_true]
        obtain ⟨b, t1, hd, hwf1, hb, _, hcnt, hcap, _, htomb, _⟩ := TableDelete_spec hwf k
        have hbt : b = true := hb.2 ⟨t.Entries[i].Value, i, t.Entries[i], hx, hk, rfl⟩
        obtain ⟨r, hrk, hset⟩ := htomb hbt
        have hri : r = i := hwf.uniq r i k hrk ⟨_, hx, hk⟩
        subst hri
        have hsub : ∀ j k2, KeyAt t1.Entries j k2 → j ≠ r ∧ KeyAt t.Entries j k2 := by
          intro j k2 hj
          rw [hset, KeyAt_set hlt] at hj
          rcases hj with ⟨_, h2⟩ | h2
          · cases h2
          · exact h2
        rw [hd]
        dsimp only
        obtain ⟨t2, h1, h2, h3, h4, h5⟩ := ih (r + 1) t1 hwf1 (by omega) (by
          intro j k2 hj hk2
          obtain ⟨hne, hold⟩ := hsub j k2 hk2
          exact hm j k2 (by omega) hold)
        refine ⟨t2, h1, h2, by rw [h3, hcnt], by rw [h4, hcap], fun j k2 hj => ?_⟩
        obtain ⟨h6, h7⟩ := h5 j k2 hj
        exact ⟨(hsub j k2 h6).2, h7⟩

theorem TableRemoveWhite_spec {heap : Nat → ObjString} (marked : Nat → Bool) {t : Table}
    (hwf : TableWF heap t) :
    ∃ t2, TableRemoveWhite heap marked t = some t2 ∧ TableWF heap t2 ∧
      t2.Count = t.Count ∧ t2.Capacity = t.Capacity ∧
      (∀ j k, KeyAt t2.Entries j k → KeyAt t.Entries j k ∧ marked k = true) :=
  TableRemoveWhiteLoop_spec heap marked t.Capacity 0 t hwf (by omega)
    (fun j k hj _ => absurd hj (Nat.not_lt_zero j))

theorem IsKey_iff_Holds {t : Table} {k : Nat} : IsKey t k ↔ ∃ v, Holds t.Entries k v :=
  Holds_iff_keyAt.symm

theorem CollectGarbage_spec (marked : Nat → Bool) {vm : VMState} (h : InternInv vm) :
    ∃ vm2, CollectGarbage marked vm = some vm2 ∧ InternInv vm2 ∧ vm2.Heap = vm.Heap ∧
      vm2.Strings.Count = vm.Strings.Count ∧ vm2.Strings.Capacity = vm.Strings.Capacity ∧
      (∀ k, IsKey vm2.Strings k → IsKey vm.Strings k) ∧
      (∀ a, a ∈ vm2.Objects ↔ a ∈ vm.Objects ∧ marked a = true) := by
  obtain ⟨t2, h1, h2, h3, h4, h5⟩ := TableRemoveWhite_spec marked h.wf
  have hsub : ∀ k, IsKey t2 k → IsKey vm.Strings k ∧ marked k = true := by
    rintro k ⟨i, hi⟩
    exact ⟨⟨i, (h5 i k hi).1⟩, (h5 i k hi).2⟩
  refine ⟨⟨vm.Heap, t2, vm.Objects.filter marked⟩, ?_, ⟨h2, ?_, ?_⟩, rfl, h3, h4,
    fun k hk => (hsub k hk).1, fun a => by simp [List.mem_filter]⟩
  · unfold CollectGarbage
    rw [h1]
  · intro k hk
    obtain ⟨hk1, hk2⟩ := hsub k hk
    exact ⟨List.mem_filter.2 ⟨(h.objs k hk1).1, hk2⟩, (h.objs k hk1).2⟩
  · intro k1 k2 hk1 hk2 hc
    exact h.uniq k1 k2 (hsub k1 hk1).1 (hsub k2 hk2).1 hc

theorem ReallocateGrow_spec (gc : Option (Nat → Bool)) {vm : VMState} (h : InternInv vm) :
    ∃ vm2, ReallocateGrow gc vm = some vm2 ∧ InternInv vm2 ∧ vm2.Heap = vm.Heap ∧
      vm2.Strings.Count = vm.Strings.Count ∧ vm2.Strings.Capacity = vm.Strings.Capacity ∧
      (∀ k, IsKey vm2.Strings k → IsKey vm.Strings k) ∧
      (∀ a, a ∈ vm2.Objects → a ∈ vm.Objects) ∧
      (∀ a, a ∈ vm.Objects → (∀ m, gc = some m → m a = true) → a ∈ vm2.Objects) := by
  cases gc with
  | none => exact ⟨vm, rfl, h, rfl, rfl, rfl, fun _ hk => hk, fun _ ha => ha, fun _ ha _ => ha⟩
  | some marked =>
    obtain ⟨vm2, h1, h2, h3, h4, h5, h6, h7⟩ := CollectGarbage_spec marked h
    exact ⟨vm2, h1, h2, h3, h4, h5, h6, fun a ha => ((h7 a).1 ha).1,
      fun a ha hm => (h7 a).2 ⟨ha, hm marked rfl⟩⟩

theorem TableSetStrings_spec {vm vm2 : VMState} (h : InternInv vm) {string : Nat}
    (gc : Option (Nat → Bool)) (hobj : string ∈ vm.Objects)
    (hstr : StrObjWF (vm.Heap string))
    (hnew : ∀ k, IsKey vm.Strings k → content (vm.Heap k) ≠ content (vm.Heap string))
    (hset : TableSetStrings vm string gc = some vm2) :
    InternInv vm2 ∧ vm2.Heap = vm.Heap ∧ IsKey vm2.Strings string := by
  unfold TableSetStrings at hset
  have hgrow : ∃ vm1, (if 4 * (vm.Strings.Count + 1) > 3 * vm.Strings.Capacity then
      ReallocateGrow (gc.map (fun marked p => p == string || marked p)) vm
      else some vm) = some vm1 ∧ InternInv vm1 ∧ vm1.Heap = vm.Heap ∧
      (∀ k, IsKey vm1.Strings k → IsKey vm.Strings k) ∧ string ∈ vm1.Objects := by
    split
    · obtain ⟨vm1, h1, h2, h3, _, _, h6, _, h8⟩ :=
        ReallocateGrow_spec (gc.map (fun marked p => p == string || marked p)) h
      refine ⟨vm1, h1, h2, h3, h6, h8 string hobj ?_⟩
      intro m hm
      cases gc with
      | none => cases hm
      | some marked =>
        simp only [Option.map_some', Option.some.injEq] at hm
        subst hm
        simp
    · exact ⟨vm, rfl, h, rfl, fun _ hk => hk, hobj⟩
  obtain ⟨vm1, hg, hinv1, hheap1, hkeys1, hobj1⟩ := hgrow
  rw [hg] at hset
  dsimp only at hset
  cases hts : TableSet vm1.Heap vm1.Strings string NIL_VAL with
  | none => rw [hts] at hset; cases hset
  | some r =>
    rw [hts] at hset
    obtain ⟨b, t2⟩ := r
    dsimp only at hset
    cases hset
    obtain ⟨hwf2, hholds, _⟩ := TableSet_of_some hinv1.wf hts
    have hkeys2 : ∀ k, IsKey t2 k ↔ (k = string ∨ (k ≠ string ∧ IsKey vm1.Strings k)) := by
      intro k
      rw [IsKey_iff_Holds, IsKey_iff_Holds]
      constructor
      · rintro ⟨v, hv⟩
        rcases (hholds k v).1 hv with ⟨hk, _⟩ | ⟨hk, hold⟩
        · exact Or.inl hk
        · exact Or.inr ⟨hk, v, hold⟩
      · rintro (hk | ⟨hk, v, hv⟩)
        · exact ⟨NIL_VAL, (hholds k NIL_VAL).2 (Or.inl ⟨hk, rfl⟩)⟩
        · exact ⟨v, (hholds k v).2 (Or.inr ⟨hk, hv⟩)⟩
    refine ⟨⟨hwf2, ?_, ?_⟩, hheap1, (hkeys2 string).2 (Or.inl rfl)⟩
    · intro k hk
      dsimp only at hk ⊢
      rcases (hkeys2 k).1 hk with hks | ⟨_, hold⟩
      · subst hks
        rw [hheap1]
        exact ⟨hobj1, hstr⟩
      · exact hinv1.objs k hold
    · intro k1 k2 hk1 hk2 hc
      dsimp only at hk1 hk2 hc
      rw [hheap1] at hc
      rcases (hkeys2 k1).1 hk1 with hks1 | ⟨_, hold1⟩ <;>
        rcases (hkeys2 k2).1 hk2 with hks2 | ⟨_, hold2⟩
      · rw [hks1, hks2]
      · subst hks1
        exact absurd hc.symm (hnew k2 (hkeys1 k2 hold2))
      · subst hks2
        exact absurd hc (hnew k1 (hkeys1 k1 hold1))
      · have := hinv1.uniq k1 k2 hold1 hold2
        rw [hheap1] at this
        exact this hc

theorem take_append_zero (chars : List Nat) {length : Nat} (h : length ≤ chars.length) :
    (chars.take length ++ [0]).take length = chars.take length := by
  have hl : (chars.take length).length = length := by
    rw [List.length_take]; exact Nat.min_eq_left h
  rw [List.take_append_of_le_length (by omega), List.take_of_length_le (by omega)]

/-- The lookup `TableFindString` performs in `CopyString` and `TakeString`. -/
theorem intern_lookup {vm : VMState} (h : InternInv vm) {chars : List Nat}
    {length hash : Nat} (hh : HashString chars length = some hash) :
    ∃ r, TableFindString vm.Heap vm.Strings chars length hash = some r ∧
      (∀ k, r = some k → IsKey vm.Strings k ∧ content (vm.Heap k) = chars.take length ∧
        (vm.Heap k).Length = length) ∧
      (r = none → ∀ k, IsKey vm.Strings k → content (vm.Heap k) ≠ chars.take length) := by
  obtain ⟨hlen, hhash⟩ := HashString_some hh
  have hmatch : ∀ k, IsKey vm.Strings k → content (vm.Heap k) = chars.take length →
      StrMatch vm.Heap k chars length hash := by
    intro k hk hc
    obtain ⟨_, hs⟩ := h.objs k hk
    have hL : (vm.Heap k).Length = length := by
      rw [← content_length hs, hc, List.length_take]
      exact Nat.min_eq_left hlen
    refine ⟨hL, ?_, ?_⟩
    · rw [hs.2, hc, hhash]
    · have hcl : content (vm.Heap k) = (vm.Heap k).Chars.take length := by
        unfold content
        rw [hL]
      rw [← hcl]
      exact hc
  unfold TableFindString
  by_cases hc : vm.Strings.Count = 0
  · rw [if_pos hc]
    refine ⟨none, rfl, fun k hk => (by cases hk), fun _ k hk => ?_⟩
    obtain ⟨v, hv⟩ := IsKey_iff_Holds.1 hk
    exact absurd hv (not_Holds_of_slotsUsed_zero (by rw [← h.wf.count_eq]; exact hc) k v)
  · rw [if_neg hc]
    have hcap : 0 < vm.Strings.Capacity := by
      have := h.wf.load
      omega
    obtain ⟨r, hr, hr1, hr2⟩ := TableFindStringLoop_spec h.wf hcap chars length hash
      vm.Strings.Capacity (le_refl _)
    refine ⟨r, hr, fun k hk => ?_, fun hn k hk hcont => ?_⟩
    · obtain ⟨hkey, hm⟩ := hr2 k hk
      refine ⟨hkey, ?_, hm.1⟩
      unfold content
      rw [hm.1]
      exact hm.2.2
    · obtain ⟨i, hi⟩ := hk
      exact hr1 hn i k hi (hmatch k ⟨i, hi⟩ hcont)

theorem intern_lookup_found {vm : VMState} (h : InternInv vm) {chars : List Nat}
    {length k : Nat} (hlen : length ≤ chars.length) (hk : IsKey vm.Strings k)
    (hcont : content (vm.Heap k) = chars.take length) :
    HashString chars length = some (FNV1a32 (chars.take length)) ∧
    TableFindString vm.Heap vm.Strings chars length (FNV1a32 (chars.take length))
      = some (some k) := by
  have hh := HashString_eq hlen
  refine ⟨hh, ?_⟩
  obtain ⟨r, hr, hr1, hr2⟩ := intern_lookup h hh
  rw [hr]
  cases r with
  | none => exact absurd hcont (hr2 rfl k hk)
  | some k2 =>
    obtain ⟨hk2, hc2, _⟩ := hr1 k2 rfl
    rw [h.uniq k2 k hk2 hk (by rw [hc2, hcont])]

theorem InternInv_alloc {vm1 : VMState} (hinv1 : InternInv vm1) {addr : Nat}
    (hmem : addr ∉ vm1.Objects) (obj : ObjString) :
    InternInv ⟨fun q => if q = addr then obj else vm1.Heap q, vm1.Strings,
      addr :: vm1.Objects⟩ ∧ ∀ k, IsKey vm1.Strings k → k ≠ addr := by
  have hne : ∀ k, IsKey vm1.Strings k → k ≠ addr := by
    rintro k hk rfl
    exact hmem (hinv1.objs k hk).1
  refine ⟨⟨TableWF_heap_congr hinv1.wf ?_, ?_, ?_⟩, hne⟩
  · intro i k hk
    dsimp only
    rw [if_neg (hne k ⟨i, hk⟩)]
  · intro k hk
    dsimp only at hk ⊢
    rw [if_neg (hne k hk)]
    exact ⟨List.mem_cons_of_mem _ (hinv1.objs k hk).1, (hinv1.objs k hk).2⟩
  · intro k1 k2 hk1 hk2 hc
    dsimp only at hk1 hk2 hc
    rw [if_neg (hne k1 hk1), if_neg (hne k2 hk2)] at hc
    exact hinv1.uniq k1 k2 hk1 hk2 hc

theorem AllocateString_spec {vm vm2 : VMState} (h : InternInv vm) {chars : List Nat}
    {length hash addr p : Nat} (gcObj gcTable : Option (Nat → Bool))
    (hlen : length ≤ chars.length) (hhash : hash = FNV1a32 (chars.take length))
    (hnew : ∀ k, IsKey vm.Strings k → content (vm.Heap k) ≠ chars.take length)
    (ha : AllocateString vm chars length hash addr gcObj gcTable = some (p, vm2)) :
    InternInv vm2 ∧ p = addr ∧ IsKey vm2.Strings p ∧ vm2.Heap p = ⟨length, chars, hash⟩ := by
  unfold AllocateString at ha
  obtain ⟨vm1, h1, hinv1, hheap1, _, _, hkeys1, _, _⟩ := ReallocateGrow_spec gcObj h
  rw [h1] at ha
  dsimp only at ha
  by_cases hmem : addr ∈ vm1.Objects
  · rw [if_pos hmem] at ha
    cases ha
  · rw [if_neg hmem] at ha
    obtain ⟨hinvA, hne⟩ := InternInv_alloc hinv1 hmem ⟨length, chars, hash⟩
    cases hts : TableSetStrings ⟨fun q => if q = addr then ⟨length, chars, hash⟩
        else vm1.Heap q, vm1.Strings, addr :: vm1.Objects⟩ addr gcTable with
    | none => rw [hts] at ha; cases ha
    | some vm3 =>
      rw [hts] at ha
      dsimp only at ha
      cases ha
      obtain ⟨hinv3, hheap3, hkey3⟩ := TableSetStrings_spec hinvA gcTable
        (List.mem_cons_self _ _)
        (by
          dsimp only
          rw [if_pos rfl]
          exact ⟨hlen, hhash⟩)
        (by
          intro k hk
          dsimp only at hk ⊢
          rw [if_neg (hne k hk), if_pos rfl]
          have := hnew k (hkeys1 k hk)
          rw [← hheap1] at this
          exact this) hts
      refine ⟨hinv3, rfl, hkey3, ?_⟩
      rw [hheap3]
      dsimp only
      rw [if_pos rfl]

theorem TableSetStrings_isSome {vm : VMState} (h : InternInv vm) (string : Nat)
    (gc : Option (Nat → Bool)) (hcap : vm.Strings.Capacity < 2 ^ 30) :
    ∃ vm2, TableSetStrings vm string gc = some vm2 := by
  unfold TableSetStrings
  have hgrow : ∃ vm1, (if 4 * (vm.Strings.Count + 1) > 3 * vm.Strings.Capacity then
      ReallocateGrow (gc.map (fun marked p => p == string || marked p)) vm
      else some vm) = some vm1 ∧ InternInv vm1 ∧
      vm1.Strings.Capacity = vm.Strings.Capacity := by
    split
    · obtain ⟨vm1, h1, h2, _, _, h5, _⟩ :=
        ReallocateGrow_spec (gc.map (fun marked p => p == string || marked p)) h
      exact ⟨vm1, h1, h2, h5⟩
    · exact ⟨vm, rfl, h, rfl⟩
  obtain ⟨vm1, hg, hinv1, hcap1⟩ := hgrow
  rw [hg]
  dsimp only
  obtain ⟨r, hr⟩ := TableSet_isSome hinv1.wf string NIL_VAL (by rw [hcap1]; exact hcap)
  rw [hr]
  exact ⟨_, rfl⟩

theorem AllocateString_isSome {vm : VMState} (h : InternInv vm) (chars : List Nat)
    (length hash : Nat) {addr : Nat} (gcObj gcTable : Option (Nat → Bool))
    (hfresh : addr ∉ vm.Objects) (hcap : vm.Strings.Capacity < 2 ^ 30) :
    ∃ r, AllocateString vm chars length hash addr gcObj gcTable = some r := by
  unfold AllocateString
  obtain ⟨vm1, h1, hinv1, _, _, hcap1, _, hsub, _⟩ := ReallocateGrow_spec gcObj h
  rw [h1]
  dsimp only
  have hmem : addr ∉ vm1.Objects := fun hm => hfresh (hsub addr hm)
  rw [if_neg hmem]
  obtain ⟨hinvA, _⟩ := InternInv_alloc hinv1 hmem ⟨length, chars, hash⟩
  obtain ⟨vm2, h2⟩ := TableSetStrings_isSome hinvA addr gcTable (by
    dsimp only
    rw [hcap1]
    exact hcap)
  rw [h2]
  exact ⟨_, rfl⟩

theorem TakeString_spec {vm vm2 : VMState} (h : InternInv vm) {chars : List Nat}
    {length addr p : Nat} (gcObj gcTable : Option (Nat → Bool))
    (ht : TakeString vm chars length addr gcObj gcTable = some (p, vm2)) :
    InternInv vm2 ∧ IsKey vm2.Strings p ∧ content (vm2.Heap p) = chars.take length ∧
      (vm2.Heap p).Hash = FNV1a32 (chars.take length) ∧ length ≤ chars.length := by
  unfold TakeString at ht
  cases hh : HashString chars length with
  | none => rw [hh] at ht; cases ht
  | some hash =>
    rw [hh] at ht
    dsimp only at ht
    obtain ⟨hlen, hhash⟩ := HashString_some hh
    obtain ⟨r, hr, hr1, hr2⟩ := intern_lookup h hh
    rw [hr] at ht
    cases r with
    | some k =>
      dsimp only at ht
      cases ht
      obtain ⟨hk, hc, _⟩ := hr1 p rfl
      refine ⟨h, hk, hc, ?_, hlen⟩
      rw [(h.objs p hk).2.2, hc]
    | none =>
      dsimp only at ht
      obtain ⟨hinv2, hp, hkey, hobj⟩ := AllocateString_spec h gcObj gcTable hlen hhash
        (hr2 rfl) ht
      refine ⟨hinv2, hkey, ?_, ?_, hlen⟩
      · rw [hobj]
        rfl
      · rw [hobj]
        exact hhash

theorem CopyString_spec {vm vm2 : VMState} (h : InternInv vm) {chars : List Nat}
    {length addr p : Nat} (gcChars gcObj gcTable : Option (Nat → Bool))
    (ht : CopyString vm chars length addr gcChars gcObj gcTable = some (p, vm2)) :
    InternInv vm2 ∧ IsKey vm2.Strings p ∧ content (vm2.Heap p) = chars.take length ∧
      (vm2.Heap p).Hash = FNV1a32 (chars.take length) ∧ length ≤ chars.length := by
  unfold CopyString at ht
  cases hh : HashString chars length with
  | none => rw [hh] at ht; cases ht
  | some hash =>
    rw [hh] at ht
    dsimp only at ht
    obtain ⟨hlen, hhash⟩ := HashString_some hh
    obtain ⟨r, hr, hr1, hr2⟩ := intern_lookup h hh
    rw [hr] at ht
    cases r with
    | some k =>
      dsimp only at ht
      cases ht
      obtain ⟨hk, hc, _⟩ := hr1 p rfl
      refine ⟨h, hk, hc, ?_, hlen⟩
      rw [(h.objs p hk).2.2, hc]
    | none =>
      dsimp only at ht
      obtain ⟨vm1, h1, hinv1, hheap1, _, _, hkeys1, _, _⟩ := ReallocateGrow_spec gcChars h
      rw [h1] at ht
      dsimp only at ht
      have htake := take_append_zero chars hlen
      obtain ⟨hinv2, hp, hkey, hobj⟩ := AllocateString_spec hinv1 gcObj gcTable
        (by rw [List.length_append, List.length_take]; simp; omega)
        (by rw [htake]; exact hhash)
        (by
          intro k hk
          rw [htake, hheap1]
          exact hr2 rfl k (hkeys1 k hk)) ht
      refine ⟨hinv2, hkey, ?_, ?_, hlen⟩
      · rw [hobj]
        exact htake
      · rw [hobj]
        exact hhash

theorem TakeString_isSome {vm : VMState} (h : InternInv vm) {chars : List Nat}
    {length addr : Nat} (gcObj gcTable : Option (Nat → Bool))
    (hlen : length ≤ chars.length) (hfresh : addr ∉ vm.Objects)
    (hcap : vm.Strings.Capacity < 2 ^ 30) :
    ∃ r, TakeString vm chars length addr gcObj gcTable = some r := by
  unfold TakeString
  have hh := HashString_eq hlen
  rw [hh]
  dsimp only
  obtain ⟨r, hr, _⟩ := intern_lookup h hh
  rw [hr]
  cases r with
  | some k => exact ⟨_, rfl⟩
  | none =>
    dsimp only
    exact AllocateString_isSome h _ _ _ gcObj gcTable hfresh hcap

theorem CopyString_isSome {vm : VMState} (h : InternInv vm) {chars : List Nat}
    {length addr : Nat} (gcChars gcObj gcTable : Option (Nat → Bool))
    (hlen : length ≤ chars.length) (hfresh : addr ∉ vm.Objects)
    (hcap : vm.Strings.Capacity < 2 ^ 30) :
    ∃ r, CopyString vm chars length addr gcChars gcObj gcTable = some r := by
  unfold CopyString
  have hh := HashString_eq hlen
  rw [hh]
  dsimp only
  obtain ⟨r, hr, _⟩ := intern_lookup h hh
  rw [hr]
  cases r with
  | some k => exact ⟨_, rfl⟩
  | none =>
    dsimp only
    obtain ⟨vm1, h1, hinv1, _, _, hcap1, _, hsub, _⟩ := ReallocateGrow_spec gcChars h
    rw [h1]
    dsimp only
    exact AllocateString_isSome hinv1 _ _ _ gcObj gcTable
      (fun hm => hfresh (hsub addr hm)) (by rw [hcap1]; exact hcap)

theorem InternInv_empty (heap : Nat → ObjString) : InternInv ⟨heap, InitTable, []⟩ := by
  have hno : ∀ k, ¬ IsKey InitTable k := by
    rintro k ⟨i, e, he, _⟩
    simp [InitTable] at he
  exact ⟨TableWF_init heap, fun k hk => absurd hk (hno k), fun k1 _ hk => absurd hk (hno k1)⟩

theorem VMReach.inv {vm : VMState} (h : VMReach vm) : InternInv vm := by
  induction h with
  | init heap addr1 addr2 hi =>
    unfold InitVM at hi
    cases h1 : CopyString ⟨heap, InitTable, []⟩ initChars 4 addr1 none none none with
    | none => rw [h1] at hi; cases hi
    | some r =>
      rw [h1] at hi
      dsimp only at hi
      obtain ⟨p1, vm1⟩ := r
      have hinv1 := (CopyString_spec (InternInv_empty heap) none none none h1).1
      cases h2 : CopyString vm1 clockChars 5 addr2 none none none with
      | none => rw [h2] at hi; cases hi
      | some r2 =>
        rw [h2] at hi
        obtain ⟨p2, vm2⟩ := r2
        cases hi
        exact (CopyString_spec hinv1 none none none h2).1
  | copy chars length addr g1 g2 g3 _ hc ih => exact (CopyString_spec ih g1 g2 g3 hc).1
  | take chars length addr g2 g3 _ ht ih => exact (TakeString_spec ih g2 g3 ht).1

/-! ## Theorems on the hash table -/

theorem sampleTable_reachable : Reachable sampleHeap sampleTable :=
  Reachable.set 9 42 Reachable.init
    (by decide : TableSet sampleHeap InitTable 9 42 = some (true, sampleTable))

/-- C1: on every table reached from `InitTable` through `TableSet`,
`TableDelete` and `TableAddAll`, whenever `TableSet(t, k, v)` returns, a
following `TableGet(t, k, &out)` returns true with `out = v` (absent key,
overwrite, reused tombstone or growth alike); and `TableSet` does return
whenever the capacity is below 2^30. -/
theorem C1_TableSet_then_TableGet (heap : Nat → ObjString) (t : Table)
    (h : Reachable heap t) (k : Nat) (v : Value) :
    (∀ b t2, TableSet heap t k v = some (b, t2) → TableGet heap t2 k = some (some v)) ∧
    (t.Capacity < 2 ^ 30 → ∃ b t2, TableSet heap t k v = some (b, t2) ∧
      TableGet heap t2 k = some (some v)) := by
  have hget : ∀ b t2, TableSet heap t k v = some (b, t2) →
      TableGet heap t2 k = some (some v) := by
    intro b t2 hs
    obtain ⟨hwf2, hholds, _⟩ := TableSet_of_some h.wf hs
    obtain ⟨r, hr, hrv⟩ := TableGet_spec hwf2 k
    rw [hr]
    have : r = some v := (hrv v).2 ((hholds k v).2 (Or.inl ⟨rfl, rfl⟩))
    rw [this]
  refine ⟨hget, fun hcap => ?_⟩
  obtain ⟨⟨b, t2⟩, hs⟩ := TableSet_isSome h.wf k v hcap
  exact ⟨b, t2, hs, hget b t2 hs⟩

theorem C1_TableSet_then_TableGet_witness :
    Reachable sampleHeap InitTable ∧
      TableGet sampleHeap sampleTable 9 = some (some 42) :=
  ⟨Reachable.init,
    (C1_TableSet_then_TableGet sampleHeap InitTable Reachable.init 9 42).1 true sampleTable
      (by decide)⟩

/-- C2: on every reached table `TableDelete(t, k)` returns, and returns true
exactly when `TableGet(t, k)` returned true; a deleted entry is replaced by the
tombstone (key `NULL`, value `true`); afterwards `TableGet` of `k` returns
false and `TableGet` of every other key returns what it returned before. -/
theorem C2_TableDelete (heap : Nat → ObjString) (t : Table) (h : Reachable heap t)
    (k : Nat) :
    ∃ b t2, TableDelete heap t k = some (b, t2) ∧
      (b = true ↔ ∃ v, TableGet heap t k = some (some v)) ∧
      (b = true → ∃ i e, t.Entries[i]? = some e ∧ e.Key = some k ∧
        t2 = ⟨t.Count, t.Capacity, t.Entries.set i ⟨none, TRUE_VAL⟩⟩) ∧
      (b = false → t2 = t) ∧
      TableGet heap t2 k = some none ∧
      ∀ k2, k2 ≠ k → TableGet heap t2 k2 = TableGet heap t k2 := by
  obtain ⟨b, t2, hd, hwf2, hb, hholds, hcnt, hcap, _, htomb, hsame⟩ :=
    TableDelete_spec h.wf k
  obtain ⟨r, hr, hrv⟩ := TableGet_spec h.wf k
  obtain ⟨r2, hr2, hrv2⟩ := TableGet_spec hwf2 k
  refine ⟨b, t2, hd, ?_, ?_, ?_, ?_, ?_⟩
  · rw [hb, hr]
    constructor
    · rintro ⟨v, hv⟩
      exact ⟨v, by rw [(hrv v).2 hv]⟩
    · rintro ⟨v, hv⟩
      simp only [Option.some.injEq] at hv
      exact ⟨v, (hrv v).1 hv⟩
  · intro hbt
    obtain ⟨i, ⟨e, he, hek⟩, hset⟩ := htomb hbt
    refine ⟨i, e, he, hek, ?_⟩
    rw [← hcnt, ← hcap, ← hset]
  · exact hsame
  · rw [hr2]
    cases r2 with
    | none => rfl
    | some v =>
      have := ((hholds k v).1 ((hrv2 v).1 rfl)).1
      exact absurd rfl this
  · intro k2 hk2
    obtain ⟨s, hs, hsv⟩ := TableGet_spec h.wf k2
    obtain ⟨s2, hs2, hsv2⟩ := TableGet_spec hwf2 k2
    rw [hs, hs2]
    cases s2 with
    | none =>
      cases s with
      | none => rfl
      | some v =>
        have := (hsv2 v).2 ((hholds k2 v).2 ⟨hk2, (hsv v).1 rfl⟩)
        cases this
    | some v =>
      have := (hsv v).2 ((hholds k2 v).1 ((hsv2 v).1 rfl)).2
      rw [this]

theorem C2_TableDelete_witness :
    Reachable sampleHeap sampleTable ∧
    ∃ b t2, TableDelete sampleHeap sampleTable 9 = some (b, t2) ∧
      (b = true ↔ ∃ v, TableGet sampleHeap sampleTable 9 = some (some v)) ∧
      (b = true → ∃ i e, sampleTable.Entries[i]? = some e ∧ e.Key = some 9 ∧
        t2 = ⟨sampleTable.Count, sampleTable.Capacity,
          sampleTable.Entries.set i ⟨none, TRUE_VAL⟩⟩) ∧
      (b = false → t2 = sampleTable) ∧
      TableGet sampleHeap t2 9 = some none ∧
      ∀ k2, k2 ≠ 9 → TableGet sampleHeap t2 k2 = TableGet sampleHeap sampleTable k2 :=
  ⟨sampleTable_reachable, C2_TableDelete sampleHeap sampleTable sampleTable_reachable 9⟩

theorem runSets_spec (heap : Nat → ObjString) :
    ∀ (kvs : List (Nat × Value)) (t t2 : Table), TableWF heap t → NoTomb t.Entries →
      (kvs.map Prod.fst).Nodup →
      (∀ k ∈ kvs.map Prod.fst, ∀ v, ¬ Holds t.Entries k v) →
      runSets heap t kvs = some t2 →
      TableWF heap t2 ∧ NoTomb t2.Entries ∧
        liveCount t2.Entries = liveCount t.Entries + kvs.length ∧
        ∀ k, (∃ v, Holds t2.Entries k v) ↔
          ((∃ v, Holds t.Entries k v) ∨ k ∈ kvs.map Prod.fst) := by
  intro kvs
  induction kvs with
  | nil =>
    intro t t2 hwf hnt _ _ h
    cases h
    exact ⟨hwf, hnt, rfl, fun k => by simp⟩
  | cons kv rest ih =>
    intro t t2 hwf hnt hnd hfresh h
    obtain ⟨k0, v0⟩ := kv
    have hnd2 := List.nodup_cons.1 hnd
    change (match TableSet heap t k0 v0 with
      | none => none
      | some r => runSets heap r.2 rest) = some t2 at h
    cases hs : TableSet heap t k0 v0 with
    | none => rw [hs] at h; cases h
    | some r =>
      rw [hs] at h
      obtain ⟨b, t1⟩ := r
      obtain ⟨hwf1, hholds, hb, hlive, hnt1, _⟩ := TableSet_of_some hwf hs
      have hbt : b = true :=
        hb.2 (hfresh k0 (by simp))
      obtain ⟨h1, h2, h3, h4⟩ := ih t1 t2 hwf1 (hnt1 hnt) hnd2.2
        (by
          intro k hk v hv
          rcases (hholds k v).1 hv with ⟨hkk, _⟩ | ⟨_, hold⟩
          · subst hkk
            exact hnd2.1 hk
          · exact hfresh k (List.mem_cons_of_mem _ hk) v hold) h
      refine ⟨h1, h2, ?_, ?_⟩
      · rw [h3, hlive, hbt]
        simp
        omega
      · intro k
        rw [h4 k]
        constructor
        · rintro (⟨v, hv⟩ | hk)
          · rcases (hholds k v).1 hv with ⟨hkk, _⟩ | ⟨_, hold⟩
            · exact Or.inr (by simp [hkk])
            · exact Or.inl ⟨v, hold⟩
          · exact Or.inr (List.mem_cons_of_mem _ hk)
        · rintro (⟨v, hv⟩ | hk)
          · by_cases hkk : k = k0
            · exact Or.inl ⟨v0, (hholds k v0).2 (Or.inl ⟨hkk, rfl⟩)⟩
            · exact Or.inl ⟨v, (hholds k v).2 (Or.inr ⟨hkk, hv⟩)⟩
          · rcases List.mem_cons.1 hk with heq | hmem
            · exact Or.inl ⟨v0, (hholds k v0).2 (Or.inl ⟨heq, rfl⟩)⟩
            · exact Or.inr hmem

theorem runDeletes_spec (heap : Nat → ObjString) :
    ∀ (ds : List Nat) (t : Table), TableWF heap t → ds.Nodup →
      (∀ k ∈ ds, ∃ v, Holds t.Entries k v) →
      ∃ t2, runDeletes heap t ds = some t2 ∧ TableWF heap t2 ∧ t2.Count = t.Count ∧
        liveCount t2.Entries + ds.length = liveCount t.Entries := by
  intro ds
  induction ds with
  | nil =>
    intro t hwf _ _
    exact ⟨t, rfl, hwf, rfl, rfl⟩
  | cons k0 rest ih =>
    intro t hwf hnd hpres
    have hnd2 := List.nodup_cons.1 hnd
    obtain ⟨b, t1, hd, hwf1, hb, hholds, hcnt, _, hlive, _⟩ := TableDelete_spec hwf k0
    have hbt : b = true := hb.2 (hpres k0 (List.mem_cons_self _ _))
    obtain ⟨t2, h1, h2, h3, h4⟩ := ih t1 hwf1 hnd2.2 (by
      intro k hk
      obtain ⟨v, hv⟩ := hpres k (List.mem_cons_of_mem _ hk)
      refine ⟨v, (hholds k v).2 ⟨?_, hv⟩⟩
      rintro rfl
      exact hnd2.1 hk)
    refine ⟨t2, ?_, h2, by rw [h3, hcnt], ?_⟩
    · change (match TableDelete heap t k0 with
        | none => none
        | some r => runDeletes heap r.2 rest) = some t2
      rw [hd]
      exact h1
    · rw [hbt] at hlive
      simp at hlive ⊢
      omega

/-- C3 (counterexample to `Count = n - k`): after `TableSet` of key 9 and `TableDelete`
of key 9, starting from `InitTable`, `Count` is 1, not `n - k = 1 - 1 = 0`. -/
theorem C3_count_counterexample :
    ∃ t, setsThenDeletes sampleHeap [(9, 42)] [9] = some t ∧ t.Count = 1 ∧
      t.Count ≠ [((9 : Nat), (42 : Value))].length - [(9 : Nat)].length :=
  ⟨⟨1, 8, sampleEntries.set 1 ⟨none, TRUE_VAL⟩⟩, by decide, by decide, by decide⟩

/-- C3 (amended): after `n` `TableSet` calls with pairwise distinct keys on
`InitTable` followed by `k` `TableDelete` calls on distinct keys among them,
the deletes all return, `Count` equals `n` (tombstones stay counted) and the
number of live entries equals `n - k`. -/
theorem C3_count_after_sets_and_deletes (heap : Nat → ObjString)
    (kvs : List (Nat × Value)) (ds : List Nat) (t1 : Table)
    (hkeys : (kvs.map Prod.fst).Nodup) (hds : ds.Nodup)
    (hsub : ∀ k ∈ ds, k ∈ kvs.map Prod.fst)
    (hsets : runSets heap InitTable kvs = some t1) :
    ∃ t, setsThenDeletes heap kvs ds = some t ∧ t.Count = kvs.length ∧
      liveCount t.Entries = kvs.length - ds.length := by
  obtain ⟨hwf1, hnt1, hlive1, hmem1⟩ := runSets_spec heap kvs InitTable t1
    (TableWF_init heap) (by intro e he; cases he) hkeys
    (by
      intro k _ v hv
      obtain ⟨i, e, he, _⟩ := hv
      simp [InitTable] at he) hsets
  obtain ⟨t, h1, _, h3, h4⟩ := runDeletes_spec heap ds t1 hwf1 hds (by
    intro k hk
    exact (hmem1 k).2 (Or.inr (hsub k hk)))
  have hl0 : liveCount InitTable.Entries = 0 := rfl
  have hc1 : t1.Count = kvs.length := by
    rw [hwf1.count_eq, slotsUsed_eq_liveCount hnt1, hlive1, hl0]
    omega
  refine ⟨t, ?_, by rw [h3, hc1], by omega⟩
  unfold setsThenDeletes
  rw [hsets]
  exact h1

theorem C3_count_after_sets_and_deletes_witness :
    ∃ t, setsThenDeletes sampleHeap [(9, 42), (1, 7), (17, 3)] [1] = some t ∧
      t.Count = [((9 : Nat), (42 : Value)), (1, 7), (17, 3)].length ∧
      liveCount t.Entries =
        [((9 : Nat), (42 : Value)), (1, 7), (17, 3)].length - [(1 : Nat)].length :=
  C3_count_after_sets_and_deletes sampleHeap [(9, 42), (1, 7), (17, 3)] [1]
    ⟨3, 8, [⟨none, NIL_VAL⟩, ⟨some 9, 42⟩, ⟨some 1, 7⟩, ⟨some 17, 3⟩,
      ⟨none, NIL_VAL⟩, ⟨none, NIL_VAL⟩, ⟨none, NIL_VAL⟩, ⟨none, NIL_VAL⟩]⟩
    (by decide) (by decide) (by decide) (by decide)

theorem slotsUsed_eq_live_or_tombstone (l : List Entry) :
    slotsUsed l = l.countP (fun e => e.isLive || e.isTombstone) := by
  unfold slotsUsed
  apply List.countP_congr
  intro e _
  cases hk : e.Key <;> cases hn : IS_NIL e.Value <;>
    simp [Entry.isEmpty, Entry.isLive, Entry.isTombstone, hk, hn]

/-- C4: in every table reached from `InitTable` through `TableSet`,
`TableDelete` and `TableAddAll`, `Capacity` is 0 or a power of two that is at
least 8, the entries array has `Capacity` slots, `Count` is the number of
slots that are live entries or tombstones, `Count <= 0.75 * Capacity`
(written `4 * Count <= 3 * Capacity`), and for a non-zero capacity the slot
index `hash & (Capacity - 1)` equals `hash mod Capacity`. -/
theorem C4_table_invariant (heap : Nat → ObjString) (t : Table) (h : Reachable heap t) :
    (t.Capacity = 0 ∨ ∃ n, 3 ≤ n ∧ t.Capacity = 2 ^ n) ∧
    (t.Capacity = 0 ∨ 8 ≤ t.Capacity) ∧
    t.Entries.length = t.Capacity ∧
    t.Count = t.Entries.countP (fun e => e.isLive || e.isTombstone) ∧
    4 * t.Count ≤ 3 * t.Capacity ∧
    (0 < t.Capacity → ∀ hash, hash &&& mask32 t.Capacity = hash % t.Capacity) := by
  have hwf := h.wf
  refine ⟨?_, ?_, hwf.length, ?_, hwf.load, ?_⟩
  · rcases hwf.cap with h0 | ⟨n, h3, _, hn⟩
    · exact Or.inl h0
    · exact Or.inr ⟨n, h3, hn⟩
  · rcases hwf.cap with h0 | hp
    · exact Or.inl h0
    · exact Or.inr hp.ge_eight
  · rw [hwf.count_eq, slotsUsed_eq_live_or_tombstone]
  · intro hpos hash
    exact and_mask32 (hwf.arr_of_cap hpos).1.pow hash

theorem C4_table_invariant_witness :
    Reachable sampleHeap sampleTable ∧
    ((sampleTable.Capacity = 0 ∨ ∃ n, 3 ≤ n ∧ sampleTable.Capacity = 2 ^ n) ∧
    (sampleTable.Capacity = 0 ∨ 8 ≤ sampleTable.Capacity) ∧
    sampleTable.Entries.length = sampleTable.Capacity ∧
    sampleTable.Count = sampleTable.Entries.countP (fun e => e.isLive || e.isTombstone) ∧
    4 * sampleTable.Count ≤ 3 * sampleTable.Capacity ∧
    (0 < sampleTable.Capacity →
      ∀ hash, hash &&& mask32 sampleTable.Capacity = hash % sampleTable.Capacity)) :=
  ⟨sampleTable_reachable, C4_table_invariant sampleHeap sampleTable sampleTable_reachable⟩

/-- C5: in every reached table with `Capacity > 0` some slot is truly empty
(key `NULL`, value nil), and for every key the probe loop of `FindEntry`
returns after examining at most `Capacity` slots: run with `Capacity` units of
fuel it returns, and more fuel gives the same result.  The same holds for the
probe loop of `TableFindString`. -/
theorem C5_probe_terminates (heap : Nat → ObjString) (t : Table) (h : Reachable heap t)
    (hcap : 0 < t.Capacity) :
    (∃ i e, i < t.Capacity ∧ t.Entries[i]? = some e ∧ e.Key = none ∧ e.Value = NIL_VAL) ∧
    (∀ key, ∃ r,
      FindEntryLoop t.Entries t.Capacity key t.Capacity
        ((heap key).Hash &&& mask32 t.Capacity) none = some r ∧
      ∀ fuel, t.Capacity ≤ fuel →
        FindEntryLoop t.Entries t.Capacity key fuel
          ((heap key).Hash &&& mask32 t.Capacity) none = some r) ∧
    (∀ chars length hash, ∃ r,
      TableFindStringLoop heap t chars length hash t.Capacity
        (hash &&& mask32 t.Capacity) = some r ∧
      ∀ fuel, t.Capacity ≤ fuel →
        TableFindStringLoop heap t chars length hash fuel
          (hash &&& mask32 t.Capacity) = some r) := by
  have hwf := h.wf
  obtain ⟨harr, hroom⟩ := hwf.arr_of_cap hcap
  refine ⟨?_, ?_, ?_⟩
  · obtain ⟨i, hi, e, he, hee⟩ := exists_empty (by rw [harr.len]; exact hroom)
    refine ⟨i, e, by rw [← harr.len]; exact hi, he, ?_, ?_⟩
    · cases hk : e.Key with
      | none => rfl
      | some k => simp [Entry.isEmpty, hk] at hee
    · have : IS_NIL e.Value = true := by
        cases hk : e.Key with
        | none => simpa [Entry.isEmpty, hk] using hee
        | some k => simp [Entry.isEmpty, hk] at hee
      simpa [IS_NIL] using this
  · intro key
    obtain ⟨r, hr, _⟩ := FindEntryLoop_spec harr hroom key t.Capacity (le_refl _)
    exact ⟨r, hr, fun fuel hf => FindEntryLoop_mono _ _ _ _ _ _ _ hr fuel hf⟩
  · intro chars length hash
    obtain ⟨r, hr, _⟩ := TableFindStringLoop_spec hwf hcap chars length hash t.Capacity
      (le_refl _)
    exact ⟨r, hr, fun fuel hf => TableFindStringLoop_mono _ _ _ _ _ _ _ _ hr fuel hf⟩

theorem C5_probe_terminates_witness :
    Reachable sampleHeap sampleTable ∧ 0 < sampleTable.Capacity ∧
    ∃ r, FindEntryLoop sampleTable.Entries sampleTable.Capacity 17 sampleTable.Capacity
        ((sampleHeap 17).Hash &&& mask32 sampleTable.Capacity) none = some r ∧
      ∀ fuel, sampleTable.Capacity ≤ fuel →
        FindEntryLoop sampleTable.Entries sampleTable.Capacity 17 fuel
          ((sampleHeap 17).Hash &&& mask32 sampleTable.Capacity) none = some r :=
  ⟨sampleTable_reachable, by decide,
    (C5_probe_terminates sampleHeap sampleTable sampleTable_reachable (by decide)).2.1 17⟩

/-- C6: on every reached table, whenever `TableSet(t, k, v)` returns, it
returns true exactly when `TableGet(t, k)` found no live entry before the call
(a tombstone slot counts as no entry) and false exactly when a live entry for
`k` existed, whose value it overwrote; and it does return whenever the
capacity is below 2^30. -/
theorem C6_TableSet_result (heap : Nat → ObjString) (t : Table) (h : Reachable heap t)
    (k : Nat) (v : Value) :
    (∀ b t2, TableSet heap t k v = some (b, t2) →
      (b = true ↔ TableGet heap t k = some none) ∧
      (b = false ↔ ∃ v0, TableGet heap t k = some (some v0)) ∧
      TableGet heap t2 k = some (some v)) ∧
    (t.Capacity < 2 ^ 30 → ∃ r, TableSet heap t k v = some r) := by
  refine ⟨fun b t2 hs => ?_, TableSet_isSome h.wf k v⟩
  obtain ⟨hwf2, hholds, hb, _⟩ := TableSet_of_some h.wf hs
  obtain ⟨r, hr, hrv⟩ := TableGet_spec h.wf k
  obtain ⟨r2, hr2, hrv2⟩ := TableGet_spec hwf2 k
  have hnone : b = true ↔ r = none := by
    rw [hb]
    constructor
    · intro habs
      cases r with
      | none => rfl
      | some v0 => exact absurd ((hrv v0).1 rfl) (habs v0)
    · intro hn v0 hv0
      have := (hrv v0).2 hv0
      rw [hn] at this
      cases this
  refine ⟨?_, ?_, ?_⟩
  · rw [hr, hnone]
    simp
  · rw [hr]
    cases b with
    | true =>
      have := hnone.1 rfl
      simp [this]
    | false =>
      cases r with
      | none => exact absurd (hnone.2 rfl) (by simp)
      | some v0 => simp
  · rw [hr2, (hrv2 v).2 ((hholds k v).2 (Or.inl ⟨rfl, rfl⟩))]

theorem C6_TableSet_result_witness :
    Reachable sampleHeap sampleTable ∧
    ((∀ b t2, TableSet sampleHeap sampleTable 9 5 = some (b, t2) →
      (b = true ↔ TableGet sampleHeap sampleTable 9 = some none) ∧
      (b = false ↔ ∃ v0, TableGet sampleHeap sampleTable 9 = some (some v0)) ∧
      TableGet sampleHeap t2 9 = some (some 5)) ∧
    (sampleTable.Capacity < 2 ^ 30 → ∃ r, TableSet sampleHeap sampleTable 9 5 = some r)) :=
  ⟨sampleTable_reachable, C6_TableSet_result sampleHeap sampleTable sampleTable_reachable 9 5⟩

/-! ## Interning, value equality, truthiness and hashing -/

theorem sampleVM_init : InitVM sampleHeap 100 200 = some sampleVM := rfl

theorem sampleVM_reachable : VMReach sampleVM := VMReach.init sampleHeap 100 200 sampleVM_init

theorem take_length_le {chars chars2 : List Nat} {length : Nat}
    (h : chars2.take length = chars.take length) (hlen : length ≤ chars.length) :
    length ≤ chars2.length := by
  have := congrArg List.length h
  rw [List.length_take, List.length_take] at this
  omega

/-- C7: in every interning state reached after `InitVM` by `CopyString` and
`TakeString` calls (whatever addresses the allocator returns and whenever the
collector runs), no two keys of `vm.Strings` have equal byte content; a call of
`CopyString` or `TakeString` with bytes equal to the content of an interned
string returns that string and leaves the state unchanged (no allocation);
the string a call returns is interned with the given content, so a following
call with equal content returns the same pointer; and the calls return when
the bytes are readable, the address is fresh and the capacity is below 2^30. -/
theorem C7_intern_uniqueness (vm : VMState) (h : VMReach vm) :
    (∀ i j k1 k2, KeyAt vm.Strings.Entries i k1 → KeyAt vm.Strings.Entries j k2 →
      content (vm.Heap k1) = content (vm.Heap k2) → k1 = k2 ∧ i = j) ∧
    (∀ k chars length, IsKey vm.Strings k → length ≤ chars.length →
      content (vm.Heap k) = chars.take length →
      ∀ addr gcChars gcObj gcTable,
        CopyString vm chars length addr gcChars gcObj gcTable = some (k, vm) ∧
        TakeString vm chars length addr gcObj gcTable = some (k, vm)) ∧
    (∀ chars length addr gcChars gcObj gcTable p vm2,
      (CopyString vm chars length addr gcChars gcObj gcTable = some (p, vm2) ∨
        TakeString vm chars length addr gcObj gcTable = some (p, vm2)) →
      IsKey vm2.Strings p ∧ content (vm2.Heap p) = chars.take length ∧
      ∀ chars2 addr2 gcChars2 gcObj2 gcTable2, chars2.take length = chars.take length →
        CopyString vm2 chars2 length addr2 gcChars2 gcObj2 gcTable2 = some (p, vm2) ∧
        TakeString vm2 chars2 length addr2 gcObj2 gcTable2 = some (p, vm2)) ∧
    (∀ chars length addr gcChars gcObj gcTable, length ≤ chars.length →
      addr ∉ vm.Objects → vm.Strings.Capacity < 2 ^ 30 →
      (∃ r, CopyString vm chars length addr gcChars gcObj gcTable = some r) ∧
      (∃ r, TakeString vm chars length addr gcObj gcTable = some r)) := by
  have hinv := h.inv
  have hfound : ∀ {vm : VMState}, InternInv vm → ∀ k chars length, IsKey vm.Strings k →
      length ≤ chars.length → content (vm.Heap k) = chars.take length →
      ∀ addr gcChars gcObj gcTable,
        CopyString vm chars length addr gcChars gcObj gcTable = some (k, vm) ∧
        TakeString vm chars length addr gcObj gcTable = some (k, vm) := by
    intro vm hinv k chars length hk hlen hc addr g1 g2 g3
    obtain ⟨hh, hf⟩ := intern_lookup_found hinv hlen hk hc
    constructor
    · unfold CopyString
      rw [hh]
      dsimp only
      rw [hf]
    · unfold TakeString
      rw [hh]
      dsimp only
      rw [hf]
  refine ⟨?_, hfound hinv, ?_, ?_⟩
  · intro i j k1 k2 h1 h2 hc
    have hk := hinv.uniq k1 k2 ⟨i, h1⟩ ⟨j, h2⟩ hc
    subst hk
    exact ⟨rfl, hinv.wf.uniq i j k1 h1 h2⟩
  · intro chars length addr g1 g2 g3 p vm2 hcall
    have hspec : InternInv vm2 ∧ IsKey vm2.Strings p ∧
        content (vm2.Heap p) = chars.take length ∧
        (vm2.Heap p).Hash = FNV1a32 (chars.take length) ∧ length ≤ chars.length := by
      rcases hcall with hc | ht
      · exact CopyString_spec hinv g1 g2 g3 hc
      · exact TakeString_spec hinv g2 g3 ht
    obtain ⟨hinv2, hkey, hcont, _, hlen⟩ := hspec
    refine ⟨hkey, hcont, ?_⟩
    intro chars2 addr2 h1 h2 h3 htake
    exact hfound hinv2 p chars2 length hkey (take_length_le htake hlen)
      (by rw [hcont, htake]) addr2 h1 h2 h3
  · intro chars length addr g1 g2 g3 hlen hfresh hcap
    exact ⟨CopyString_isSome hinv g1 g2 g3 hlen hfresh hcap,
      TakeString_isSome hinv g2 g3 hlen hfresh hcap⟩

theorem C7_intern_uniqueness_witness :
    VMReach sampleVM ∧ IsKey sampleVM.Strings 100 ∧
      CopyString sampleVM [105, 110, 105, 116, 33] 4 300 none none none
        = some (100, sampleVM) ∧
      TakeString sampleVM [105, 110, 105, 116, 33] 4 300 none none
        = some (100, sampleVM) :=
  ⟨sampleVM_reachable, ⟨3, _, rfl, rfl⟩,
    (C7_intern_uniqueness sampleVM sampleVM_reachable).2.1 100 [105, 110, 105, 116, 33] 4
      ⟨3, _, rfl, rfl⟩ (by decide) (by decide) 300 none none none⟩

/-- C8 (code at the failing inputs): with `NAN_BOXING` defined `ValuesEqual`
has no `return` for operands that are not both numbers: for nil with nil, for
two equal booleans, for the same object pointer twice and for values of
different kinds the function ends without a result; only two numbers are
compared. -/
theorem C8_ValuesEqual_no_result :
    ValuesEqual NIL_VAL NIL_VAL = none ∧
    ValuesEqual TRUE_VAL TRUE_VAL = none ∧
    ValuesEqual TRUE_VAL FALSE_VAL = none ∧
    ValuesEqual (OBJ_VAL 4096) (OBJ_VAL 4096) = none ∧
    ValuesEqual NIL_VAL FALSE_VAL = none ∧
    ValuesEqual 0 0 = some true := by
  decide

theorem or_one_eq (v : Nat) : v ||| 1 = v / 2 * 2 + 1 := by
  apply Nat.eq_of_testBit_eq
  intro i
  rw [Nat.testBit_or]
  cases i with
  | zero =>
    simp [Nat.testBit_zero]
    omega
  | succ i =>
    rw [Nat.testBit_succ, Nat.testBit_succ, Nat.testBit_succ]
    have h1 : (1 : Nat) / 2 = 0 := by norm_num
    have h2 : (v / 2 * 2 + 1) / 2 = v / 2 := by omega
    rw [h1, h2]
    simp

theorem IS_BOOL_iff (v : Nat) : IS_BOOL v = true ↔ v = FALSE_VAL ∨ v = TRUE_VAL := by
  unfold IS_BOOL
  rw [beq_iff_eq, or_one_eq]
  have hT : TRUE_VAL = (9222246136947933187 : Nat) := by decide
  have hF : FALSE_VAL = (9222246136947933186 : Nat) := by decide
  rw [hT, hF]
  change (v / 2 * 2 + 1 : Nat) = (9222246136947933187 : Nat) ↔
    (v : Nat) = (9222246136947933186 : Nat) ∨ (v : Nat) = (9222246136947933187 : Nat)
  omega

/-- C10: `HashString(s, n)` is the 32-bit FNV-1a hash of the `n` bytes of `s`
(start 2166136261; per byte: XOR with the byte as an unsigned 8-bit value, then
multiply by 16777619 modulo 2^32); the `Hash` field of every string returned
by `CopyString` or `TakeString`, and of every key of `vm.Strings`, is this
hash of its content. -/
theorem C10_HashString_is_FNV1a :
    (∀ s : List Nat, HashString s s.length = some (FNV1a32 s)) ∧
    (∀ (chars : List Nat) (length : Nat), length ≤ chars.length →
      HashString chars length = some (FNV1a32 (chars.take length))) ∧
    (∀ vm, VMReach vm → ∀ chars length addr gcChars gcObj gcTable p vm2,
      (CopyString vm chars length addr gcChars gcObj gcTable = some (p, vm2) ∨
        TakeString vm chars length addr gcObj gcTable = some (p, vm2)) →
      content (vm2.Heap p) = chars.take length ∧
      (vm2.Heap p).Hash = FNV1a32 (chars.take length) ∧
      HashString (vm2.Heap p).Chars (vm2.Heap p).Length = some (vm2.Heap p).Hash) ∧
    (∀ vm, VMReach vm → ∀ k, IsKey vm.Strings k →
      HashString (vm.Heap k).Chars (vm.Heap k).Length = some (vm.Heap k).Hash) := by
  have hkey : ∀ {vm : VMState}, InternInv vm → ∀ k, IsKey vm.Strings k →
      HashString (vm.Heap k).Chars (vm.Heap k).Length = some (vm.Heap k).Hash := by
    intro vm hinv k hk
    obtain ⟨_, hlen, hhash⟩ := hinv.objs k hk
    rw [HashString_eq hlen, hhash]
    rfl
  refine ⟨fun s => ?_, fun chars length hlen => HashString_eq hlen, ?_,
    fun vm h k hk => hkey h.inv k hk⟩
  · have := HashString_eq (le_refl s.length)
    rw [List.take_length] at this
    exact this
  · intro vm h chars length addr g1 g2 g3 p vm2 hcall
    have hspec : InternInv vm2 ∧ IsKey vm2.Strings p ∧
        content (vm2.Heap p) = chars.take length ∧
        (vm2.Heap p).Hash = FNV1a32 (chars.take length) ∧ length ≤ chars.length := by
      rcases hcall with hc | ht
      · exact CopyString_spec h.inv g1 g2 g3 hc
      · exact TakeString_spec h.inv g2 g3 ht
    obtain ⟨hinv2, hk, hcont, hhash, _⟩ := hspec
    exact ⟨hcont, hhash, hkey hinv2 p hk⟩

theorem C10_HashString_is_FNV1a_witness :
    HashString [104, 105] 2 = some 1748694682 ∧
    HashString (sampleVM.Heap 100).Chars (sampleVM.Heap 100).Length
      = some (sampleVM.Heap 100).Hash :=
  ⟨C10_HashString_is_FNV1a.1 [104, 105],
    C10_HashString_is_FNV1a.2.2.2 sampleVM sampleVM_reachable 100 ⟨3, _, rfl, rfl⟩⟩

/-! ## Lemmas on the scanner -/

theorem keywords_eq : keywords =
    [([97, 110, 100], TOKEN_AND), ([99, 108, 97, 115, 115], TOKEN_CLASS),
     ([101, 108, 115, 101], TOKEN_ELSE), ([102, 97, 108, 115, 101], TOKEN_FALSE),
     ([102, 111, 114], TOKEN_FOR), ([102, 117, 110], TOKEN_FUN), ([105, 102], TOKEN_IF),
     ([110, 105, 108], TOKEN_NIL), ([111, 114], TOKEN_OR),
     ([112, 114, 105, 110, 116], TOKEN_PRINT), ([114, 101, 116, 117, 114, 110], TOKEN_RETURN),
     ([115, 117, 112, 101, 114], TOKEN_SUPER), ([116, 104, 105, 115], TOKEN_THIS),
     ([116, 114, 117, 101], TOKEN_TRUE), ([118, 97, 114], TOKEN_VAR),
     ([119, 104, 105, 108, 101], TOKEN_WHILE)] := by decide

theorem drop_inside (pre w rest : List Nat) (k : Nat) (hk : k ≤ w.length) :
    (pre ++ w ++ rest).drop (pre.length + k) = w.drop k ++ rest := by
  rw [List.append_assoc, List.drop_append, List.drop_append_of_le_length hk]

theorem charAt_inside (pre w rest : List Nat) (a b l : Nat) (k : Nat) (hk : k < w.length) :
    Scanner.charAt ⟨pre ++ w ++ rest, a, b, l⟩ (pre.length + k) = w.getD k 0 := by
  unfold Scanner.charAt
  simp only [List.getD_eq_getElem?_getD]
  rw [List.append_assoc, List.getElem?_append_right (by omega), Nat.add_sub_cancel_left,
    List.getElem?_append_left hk]

theorem CheckKeyword_inside (pre w rest : List Nat) (l start length : Nat) (rst : List Nat)
    (type : TokenType) (hs : start ≤ w.length) (hr : rst.length = length) :
    Scanner.CheckKeyword ⟨pre ++ w ++ rest, pre.length, pre.length + w.length, l⟩
      start length rst type = if w.drop start = rst then type else TOKEN_IDENTIFIER := by
  unfold Scanner.CheckKeyword
  simp only [Nat.add_sub_cancel_left]
  rw [drop_inside pre w rest start hs]
  by_cases h : w.drop start = rst
  · have hl : w.length = start + length := by
      have := congrArg List.length h
      simp at this; omega
    rw [if_pos h, if_pos]
    refine ⟨hl, ?_⟩
    rw [h, ← hr, List.take_length, List.take_left' rfl]
  · rw [if_neg h, if_neg]
    rintro ⟨hl, ht⟩
    apply h
    rw [List.take_append_of_le_length (by simp; omega), ← hr, List.take_length] at ht
    rw [← ht, List.take_of_length_le (by simp; omega)]

/-- On a lexeme the keyword trie computes the keyword table. -/
theorem IndentifierType_inside (pre w rest : List Nat) (l : Nat) (hw : w ≠ []) :
    Scanner.IndentifierType ⟨pre ++ w ++ rest, pre.length, pre.length + w.length, l⟩ =
      keywordType w := by
  obtain ⟨c0, t, rfl⟩ := List.exists_cons_of_ne_nil hw
  have h0 := charAt_inside pre (c0 :: t) rest pre.length (pre.length + (c0 :: t).length) l 0
    (by simp)
  have hck := fun s n r ty => CheckKeyword_inside pre (c0 :: t) rest l s n r ty
  unfold Scanner.IndentifierType
  rw [Nat.add_zero] at h0
  rw [h0]
  simp only [List.getD_cons_zero, Nat.add_sub_cancel_left]
  unfold keywordType
  rw [keywords_eq]
  have key : ∀ (rst : List Nat) (ty : TokenType) (u : List Nat),
      ((u == rst) = false → (match u == rst with
        | true => some ty
        | false => (none : Option TokenType)).getD TOKEN_IDENTIFIER = TOKEN_IDENTIFIER) := by
    intro rst ty u h; rw [h]; rfl
  split
  case h_4 =>
    cases t with
    | nil => rfl
    | cons c1 t2 =>
      have h1 := charAt_inside pre (102 :: c1 :: t2) rest pre.length
        (pre.length + (102 :: c1 :: t2).length) l 1 (by simp)
      rw [if_pos (by simp), h1]
      simp only [List.getD_cons_succ, List.getD_cons_zero]
      split
      case h_4 =>
        rename_i h1 h2 h3
        have e : ∀ n : Nat, (c1 = n → False) → (c1 == n) = false :=
          fun n h => beq_eq_false_iff_ne.mpr h
        simp [List.lookup, e _ h1, e _ h2, e _ h3]
      all_goals
        rw [hck _ _ _ _ (by simp) (by rfl)]
        simp only [List.drop_succ_cons, List.drop_zero]
        split
        · rename_i h; subst h; rfl
        · rename_i h; simp [List.lookup]
          exact (key _ _ _ (beq_eq_false_iff_ne.mpr h)).symm
  case h_11 =>
    cases t with
    | nil => rfl
    | cons c1 t2 =>
      have h1 := charAt_inside pre (116 :: c1 :: t2) rest pre.length
        (pre.length + (116 :: c1 :: t2).length) l 1 (by simp)
      rw [if_pos (by simp), h1]
      simp only [List.getD_cons_succ, List.getD_cons_zero]
      split
      case h_3 =>
        rename_i h1 h2
        have e : ∀ n : Nat, (c1 = n → False) → (c1 == n) = false :=
          fun n h => beq_eq_false_iff_ne.mpr h
        simp [List.lookup, e _ h1, e _ h2]
      all_goals
        rw [hck _ _ _ _ (by simp) (by rfl)]
        simp only [List.drop_succ_cons, List.drop_zero]
        split
        · rename_i h; subst h; rfl
        · rename_i h; simp [List.lookup]
          exact (key _ _ _ (beq_eq_false_iff_ne.mpr h)).symm
  case h_14 =>
    rename_i h1 h2 h3 h4 h5 h6 h7 h8 h9 h10 h11 h12 h13
    have e : ∀ n : Nat, (c0 = n → False) → (c0 == n) = false :=
      fun n h => beq_eq_false_iff_ne.mpr h
    simp [List.lookup, e _ h1, e _ h2, e _ h3, e _ h4, e _ h5, e _ h6, e _ h7, e _ h8,
      e _ h9, e _ h10, e _ h11, e _ h12, e _ h13]
  all_goals
    rw [hck _ _ _ _ (by simp) (by rfl)]
    simp only [List.drop_succ_cons, List.drop_zero]
    split
    · rename_i h; subst h; rfl
    · rename_i h; simp [List.lookup]
      exact (key _ _ _ (beq_eq_false_iff_ne.mpr h)).symm
theorem charAt_eq_headD (sc : Scanner) (i : Nat) :
    sc.charAt i = (sc.Source.drop i).headD 0 := by
  unfold Scanner.charAt
  rw [List.getD_eq_getElem?_getD, List.headD_eq_head?_getD, List.head?_drop]

/-- The identifier loop consumes exactly a maximal run of identifier characters. -/
theorem SkipIdentifier_run (rest : List Nat)
    (hrest : IsIdentChar (rest.headD 0) = false) :
    ∀ (ws : List Nat) (sc : Scanner) (fuel : Nat),
      (∀ c ∈ ws, IsIdentChar c = true) → sc.Source.drop sc.Current = ws ++ rest →
      ws.length < fuel →
      Scanner.SkipIdentifier fuel sc = some { sc with Current := sc.Current + ws.length } := by
  intro ws
  induction ws with
  | nil =>
    intro sc fuel _ hd hf
    obtain ⟨f, rfl⟩ : ∃ f, fuel = f + 1 := ⟨fuel - 1, by simp at hf; omega⟩
    have hp : sc.Peek = rest.headD 0 := by
      unfold Scanner.Peek; rw [charAt_eq_headD, hd]; rfl
    unfold Scanner.SkipIdentifier
    have : (IsAlpha sc.Peek || IsDigit sc.Peek) = false := by rw [hp]; exact hrest
    simp [this]
  | cons c ws ih =>
    intro sc fuel hall hd hf
    obtain ⟨f, rfl⟩ : ∃ f, fuel = f + 1 := ⟨fuel - 1, by simp at hf; omega⟩
    have hp : sc.Peek = c := by
      unfold Scanner.Peek; rw [charAt_eq_headD, hd]; rfl
    unfold Scanner.SkipIdentifier
    have hc : (IsAlpha sc.Peek || IsDigit sc.Peek) = true := by
      rw [hp]; exact hall c (List.mem_cons_self _ _)
    rw [if_pos hc]
    have hd2 : sc.Advance.2.Source.drop sc.Advance.2.Current = ws ++ rest := by
      show sc.Source.drop (sc.Current + 1) = ws ++ rest
      rw [← List.drop_drop, hd]; rfl
    rw [ih sc.Advance.2 f (fun x hx => hall x (List.mem_cons_of_mem _ hx)) hd2
      (by simp at hf; omega)]
    simp [Scanner.Advance]; omega


theorem source_split (sc : Scanner) (w rest : List Nat) (hw : w ≠ [])
    (hd : sc.Source.drop sc.Current = w ++ rest) :
    sc.Source = sc.Source.take sc.Current ++ w ++ rest ∧
      (sc.Source.take sc.Current).length = sc.Current := by
  have hlt : sc.Current < sc.Source.length := by
    by_contra h
    rw [List.drop_of_length_le (by omega)] at hd
    cases w with
    | nil => exact hw rfl
    | cons a t => cases hd
  refine ⟨?_, by simp; omega⟩
  rw [List.append_assoc, ← hd, List.take_append_drop]

/-- Scanning at an identifier-shaped lexeme `w`: the token spans exactly `w`
and its type is the keyword table's. -/
theorem ScanToken_identifier (sc0 sc1 : Scanner) (w rest : List Nat)
    (hskip : sc0.SkipWhiteSpace = some sc1)
    (hd : sc1.Source.drop sc1.Current = w ++ rest) (hw : w ≠ [])
    (h0 : IsAlpha (w.headD 0) = true) (hall : ∀ c ∈ w, IsIdentChar c = true)
    (hrest : IsIdentChar (rest.headD 0) = false) :
    ScanToken sc0 = some
      (⟨keywordType w, CharPtr.src sc1.Current, w.length, sc1.line⟩,
       ⟨sc1.Source, sc1.Current, sc1.Current + w.length, sc1.line⟩) := by
  obtain ⟨c0, t, rfl⟩ := List.exists_cons_of_ne_nil hw
  obtain ⟨hsrc, hlen⟩ := source_split sc1 (c0 :: t) rest hw hd
  replace h0 : IsAlpha c0 = true := h0
  have hc0 : Scanner.charAt { sc1 with Start := sc1.Current } sc1.Current = c0 := by
    rw [charAt_eq_headD]; show (sc1.Source.drop sc1.Current).headD 0 = c0; rw [hd]; rfl
  have hc0ne : c0 ≠ 0 := by
    rintro rfl; simp [IsAlpha] at h0
  unfold ScanToken
  rw [hskip]
  simp only [Scanner.IsAtEnd, Scanner.Advance, hc0]
  rw [if_neg (by simpa using hc0ne), if_pos h0]
  unfold Scanner.Identifier
  have hlen2 : sc1.Source.length = sc1.Current + (t.length + 1 + rest.length) := by
    have := congrArg List.length hd
    simp at this; omega
  rw [SkipIdentifier_run rest hrest t _ _ (fun c hc => hall c (List.mem_cons_of_mem _ hc))
    (by show sc1.Source.drop (sc1.Current + 1) = t ++ rest
        rw [← List.drop_drop, hd]; rfl)
    (by simp [Scanner.fuel]; omega)]
  simp only [Scanner.MakeToken]
  have hit := IndentifierType_inside (sc1.Source.take sc1.Current) (c0 :: t) rest sc1.line hw
  rw [← hsrc, hlen] at hit
  simp only [List.length_cons] at hit ⊢
  rw [show sc1.Current + 1 + t.length = sc1.Current + (t.length + 1) by omega, hit]
  simp

theorem keywordType_of_mem (p : List Nat × TokenType) (hp : p ∈ keywords) :
    keywordType p.1 = p.2 := by
  rw [keywords_eq] at hp
  simp only [List.mem_cons, List.mem_singleton, List.not_mem_nil, or_false] at hp
  rcases hp with h | h | h | h | h | h | h | h | h | h | h | h | h | h | h | h <;>
    (subst h; rfl)

theorem mem_of_lookup_eq_some {α β : Type} [BEq α] [LawfulBEq α] (k : α) (v : β) :
    ∀ l : List (α × β), l.lookup k = some v → (k, v) ∈ l := by
  intro l
  induction l with
  | nil => intro h; cases h
  | cons p l ih =>
    obtain ⟨a, b⟩ := p
    intro h
    rw [List.lookup_cons] at h
    cases hk : (k == a) with
    | true =>
      rw [hk] at h
      have hab : k = a := by simpa using hk
      cases h
      rw [hab]
      exact List.mem_cons_self _ _
    | false =>
      rw [hk] at h
      exact List.mem_cons_of_mem _ (ih h)

theorem keywordType_cases (w : List Nat) :
    (w, keywordType w) ∈ keywords ∨
      ((∀ p ∈ keywords, w ≠ p.1) ∧ keywordType w = TOKEN_IDENTIFIER) := by
  unfold keywordType
  cases h : keywords.lookup w with
  | none =>
    right
    refine ⟨?_, rfl⟩
    intro p hp hwp
    have := List.lookup_eq_none_iff.mp h p hp
    simp [hwp] at this
  | some ty =>
    left
    exact mem_of_lookup_eq_some w ty keywords h


theorem takeWhile_append_all {p : Nat → Bool} (a b : List Nat) (h : ∀ c ∈ a, p c = true) :
    (a ++ b).takeWhile p = a ++ b.takeWhile p := by
  induction a with
  | nil => rfl
  | cons x a ih =>
    rw [List.cons_append, List.takeWhile_cons, h x (List.mem_cons_self _ _)]
    simp only [if_true, List.cons_append]
    rw [ih (fun c hc => h c (List.mem_cons_of_mem _ hc))]

theorem dropWhile_append_all {p : Nat → Bool} (a b : List Nat) (h : ∀ c ∈ a, p c = true) :
    (a ++ b).dropWhile p = b.dropWhile p := by
  induction a with
  | nil => rfl
  | cons x a ih =>
    rw [List.cons_append, List.dropWhile_cons, h x (List.mem_cons_self _ _)]
    simp only [if_true]
    exact ih (fun c hc => h c (List.mem_cons_of_mem _ hc))

theorem takeWhile_all {p : Nat → Bool} (t : List Nat) : ∀ c ∈ t.takeWhile p, p c = true :=
  fun _ hc => List.mem_takeWhile_imp hc

theorem dropWhile_head {p : Nat → Bool} (t : List Nat) (hp0 : p 0 = false) :
    p ((t.dropWhile p).headD 0) = false := by
  induction t with
  | nil => exact hp0
  | cons x t ih =>
    rw [List.dropWhile_cons]
    by_cases hx : p x = true
    · rw [if_pos hx]; exact ih
    · rw [if_neg hx]; simpa using hx

/-- The digit loop consumes exactly the leading digits. -/
theorem SkipDigits_run (sc : Scanner) (fuel : Nat)
    (hf : (sc.Source.drop sc.Current).length < fuel) :
    Scanner.SkipDigits fuel sc = some { sc with Current := sc.Current +
      ((sc.Source.drop sc.Current).takeWhile IsDigit).length } := by
  induction fuel generalizing sc with
  | zero => omega
  | succ f ih =>
    unfold Scanner.SkipDigits
    have hp : sc.Peek = (sc.Source.drop sc.Current).headD 0 := charAt_eq_headD sc _
    cases ht : sc.Source.drop sc.Current with
    | nil =>
      rw [ht] at hp
      rw [hp]
      simp [IsDigit]
    | cons c t =>
      rw [ht] at hp hf
      rw [hp]
      simp only [List.headD_cons, List.takeWhile_cons]
      by_cases hc : IsDigit c = true
      · rw [if_pos hc, if_pos hc]
        have hd2 : sc.Advance.2.Source.drop sc.Advance.2.Current = t := by
          show sc.Source.drop (sc.Current + 1) = t
          rw [← List.drop_drop, ht]; rfl
        rw [ih sc.Advance.2 (by rw [hd2]; simp at hf; omega), hd2]
        simp [Scanner.Advance]; omega
      · rw [if_neg hc, if_neg hc]; simp


theorem drop_takeWhile_length {p : Nat → Bool} (t : List Nat) :
    t.drop (t.takeWhile p).length = t.dropWhile p := by
  have h := @List.drop_left' _ (t.takeWhile p) (t.dropWhile p) _ rfl
  rwa [List.takeWhile_append_dropWhile] at h

theorem numberLength_cases (t : List Nat) :
    ((t.dropWhile IsDigit = [] ∨ (∃ x r, t.dropWhile IsDigit = x :: r ∧ x ≠ 46) ∨
        t.dropWhile IsDigit = [46] ∨
        (∃ c r, t.dropWhile IsDigit = 46 :: c :: r ∧ IsDigit c = false)) ∧
      numberLength t = (t.takeWhile IsDigit).length) ∨
    (∃ c r, t.dropWhile IsDigit = 46 :: c :: r ∧ IsDigit c = true ∧
      numberLength t =
        (t.takeWhile IsDigit).length + 1 + ((c :: r).takeWhile IsDigit).length) := by
  unfold numberLength
  cases h : t.dropWhile IsDigit with
  | nil => left; exact ⟨Or.inl rfl, rfl⟩
  | cons x r =>
    by_cases hx : x = 46
    · subst hx
      cases r with
      | nil => left; exact ⟨Or.inr (Or.inr (Or.inl rfl)), rfl⟩
      | cons c r2 =>
        by_cases hc : IsDigit c = true
        · right; exact ⟨c, r2, rfl, hc, by simp [hc]⟩
        · left
          refine ⟨Or.inr (Or.inr (Or.inr ⟨c, r2, rfl, by simpa using hc⟩)), by simp [hc]⟩
    · left
      refine ⟨Or.inr (Or.inl ⟨x, r, rfl, hx⟩), ?_⟩
      split
      · rename_i heq; cases heq; exact absurd rfl hx
      · rfl

/-- Function `Number` advances over exactly `numberLength` characters. -/
theorem Number_spec (sc : Scanner) (hle : sc.Current ≤ sc.Source.length) :
    sc.Number = some
      (Scanner.MakeToken
        ⟨sc.Source, sc.Start, sc.Current + numberLength (sc.Source.drop sc.Current), sc.line⟩
        TOKEN_NUMBER,
       ⟨sc.Source, sc.Start, sc.Current + numberLength (sc.Source.drop sc.Current), sc.line⟩) := by
  have hfuel : ∀ s : Scanner, s.Current ≤ s.Source.length →
      (s.Source.drop s.Current).length < s.fuel := by
    intro s hs; rw [List.length_drop]; unfold Scanner.fuel; omega
  unfold Scanner.Number
  rw [SkipDigits_run sc _ (hfuel sc hle)]
  dsimp only
  generalize ht : sc.Source.drop sc.Current = t
  have hdrop : sc.Source.drop (sc.Current + (t.takeWhile IsDigit).length) =
      t.dropWhile IsDigit := by
    rw [← List.drop_drop, ht, drop_takeWhile_length]
  have hpeek : Scanner.Peek { sc with Current := sc.Current + (t.takeWhile IsDigit).length } =
      (t.dropWhile IsDigit).headD 0 := by
    rw [Scanner.Peek, charAt_eq_headD]; dsimp only; rw [hdrop]
  have hcur : Scanner.charAt { sc with Current := sc.Current + (t.takeWhile IsDigit).length }
      (sc.Current + (t.takeWhile IsDigit).length) = (t.dropWhile IsDigit).headD 0 := hpeek
  have hnext : Scanner.charAt { sc with Current := sc.Current + (t.takeWhile IsDigit).length }
      (sc.Current + (t.takeWhile IsDigit).length + 1) = ((t.dropWhile IsDigit).drop 1).headD 0 := by
    rw [charAt_eq_headD]; dsimp only; rw [← List.drop_drop, hdrop]
  rcases numberLength_cases t with ⟨hc, hn⟩ | ⟨c, r, hc, hdig, hn⟩
  · rw [hn, if_neg]
    rw [hpeek]
    rcases hc with h | ⟨x, r, h, hx⟩ | h | ⟨c, r, h, hdig⟩
    · rw [h]; simp
    · rw [h]; simp [hx]
    · simp [Scanner.PeekNext, Scanner.IsAtEnd, hnext, hcur, h, IsDigit]
    · simp only [Scanner.PeekNext, Scanner.IsAtEnd, hnext, hcur, h]
      simp [hdig]
  · rw [hn, if_pos]
    · have hlen := congrArg List.length hdrop
      rw [hc, List.length_drop] at hlen
      simp only [List.length_cons] at hlen
      rw [SkipDigits_run _ _ (hfuel _ (by simp only [Scanner.Advance]; omega))]
      simp only [Scanner.Advance]
      rw [← List.drop_drop, hdrop, hc]
      simp only [List.drop_succ_cons, List.drop_zero]
      simp [Nat.add_assoc]
    · rw [hpeek]
      simp only [Scanner.PeekNext, Scanner.IsAtEnd, hnext, hcur, hc]
      simp [hdig]

theorem numberLength_cons (c : Nat) (t : List Nat) (hc : IsDigit c = true) :
    numberLength (c :: t) = numberLength t + 1 := by
  unfold numberLength
  rw [List.dropWhile_cons, List.takeWhile_cons, if_pos hc, if_pos hc]
  split <;> [split; skip] <;> (simp only [List.length_cons]; try omega)

/-- The lexeme of a number token has the number form. -/
theorem numberLength_form (t : List Nat) (h0 : IsDigit (t.headD 0) = true) :
    numberLength t ≤ t.length ∧ IsNumberForm (t.take (numberLength t)) := by
  have hsplit := List.takeWhile_append_dropWhile IsDigit t
  have hne : t.takeWhile IsDigit ≠ [] := by
    cases t with
    | nil => simp [IsDigit] at h0
    | cons c t =>
      replace h0 : IsDigit c = true := h0
      rw [List.takeWhile_cons, if_pos h0]; simp
  have hlen : t.length = (t.takeWhile IsDigit).length + (t.dropWhile IsDigit).length := by
    have := congrArg List.length hsplit
    rw [List.length_append] at this
    omega
  rcases numberLength_cases t with ⟨_, hn⟩ | ⟨c, r, hc, hdig, hn⟩
  · rw [hn]
    refine ⟨by omega, t.takeWhile IsDigit, [], hne, takeWhile_all t, by simp, Or.inl ?_⟩
    have h := @List.take_left' _ (t.takeWhile IsDigit) (t.dropWhile IsDigit) _ rfl
    rwa [hsplit] at h
  · have hsplit2 := List.takeWhile_append_dropWhile IsDigit (c :: r)
    have hlen2 : (c :: r).length = ((c :: r).takeWhile IsDigit).length +
        ((c :: r).dropWhile IsDigit).length := by
      have := congrArg List.length hsplit2
      rw [List.length_append] at this
      omega
    rw [hn]
    refine ⟨?_, t.takeWhile IsDigit, (c :: r).takeWhile IsDigit, hne, takeWhile_all t,
      takeWhile_all _, Or.inr ⟨?_, ?_⟩⟩
    · rw [hlen, hc]; simp only [List.length_cons] at hlen2 ⊢; omega
    · rw [List.takeWhile_cons, if_pos hdig]; simp
    · have ht : t = (t.takeWhile IsDigit ++ 46 :: (c :: r).takeWhile IsDigit) ++
          (c :: r).dropWhile IsDigit := by
        rw [List.append_assoc, List.cons_append, hsplit2, ← hc, hsplit]
      have h := @List.take_left' _ (t.takeWhile IsDigit ++ 46 :: (c :: r).takeWhile IsDigit)
        ((c :: r).dropWhile IsDigit) _ rfl
      rw [← ht] at h
      rw [← h]
      congr 1
      simp only [List.length_append, List.length_cons]
      omega

theorem all_take_le_takeWhile {p : Nat → Bool} :
    ∀ (t : List Nat) (n : Nat), n ≤ t.length → (∀ c ∈ t.take n, p c = true) →
      n ≤ (t.takeWhile p).length := by
  intro t
  induction t with
  | nil => intro n hn _; simpa using hn
  | cons x t ih =>
    intro n hn hall
    cases n with
    | zero => omega
    | succ n =>
      have hx : p x = true := hall x (by simp)
      rw [List.takeWhile_cons, if_pos hx]
      simp only [List.length_cons] at hn ⊢
      have := ih n (by omega) (fun c hc => hall c (by simp [hc]))
      omega

/-- No longer prefix of the text has the number form. -/
theorem numberLength_maximal (t : List Nat) (n : Nat) (hn : n ≤ t.length)
    (hform : IsNumberForm (t.take n)) : n ≤ numberLength t := by
  obtain ⟨d1, d2, hd1, hall1, hall2, hl⟩ := hform
  have hge : (t.takeWhile IsDigit).length ≤ numberLength t := by
    rcases numberLength_cases t with ⟨_, h⟩ | ⟨c, r, _, _, h⟩ <;> omega
  rcases hl with hl | ⟨hd2, hl⟩
  · have := all_take_le_takeWhile t n hn (by rw [hl]; exact hall1)
    omega
  · obtain ⟨u, hu⟩ : ∃ u, t.drop n = u := ⟨_, rfl⟩
    have ht : t = d1 ++ (46 :: (d2 ++ u)) := by
      conv_lhs => rw [← List.take_append_drop n t, hl, hu]
      simp
    have hn' : n = d1.length + 1 + d2.length := by
      have := congrArg List.length hl
      rw [List.length_take, Nat.min_eq_left hn] at this
      simp only [List.length_append, List.length_cons] at this
      omega
    obtain ⟨c, e, rfl⟩ := List.exists_cons_of_ne_nil hd2
    have hcd : IsDigit c = true := hall2 c (List.mem_cons_self _ _)
    have htw : t.takeWhile IsDigit = d1 := by
      rw [ht, takeWhile_append_all d1 _ hall1, List.takeWhile_cons, if_neg (by decide)]
      simp
    have hdw : t.dropWhile IsDigit = 46 :: c :: (e ++ u) := by
      rw [ht, dropWhile_append_all d1 _ hall1, List.dropWhile_cons, if_neg (by decide)]
      simp
    rcases numberLength_cases t with ⟨hc, _⟩ | ⟨c2, r, hc, _, h⟩
    · rw [hdw] at hc
      rcases hc with h | ⟨x, r, h, hx⟩ | h | ⟨c2, r, h, hdig⟩
      · cases h
      · cases h; exact absurd rfl hx
      · cases h
      · cases h; rw [hcd] at hdig; cases hdig
    · rw [hdw] at hc
      cases hc
      have h2 : ((c :: e) ++ u).takeWhile IsDigit =
          (c :: e) ++ u.takeWhile IsDigit := takeWhile_append_all _ _ hall2
      rw [List.cons_append] at h2
      rw [h2, htw] at h
      simp only [List.length_cons, List.length_append] at h hn'
      omega

theorem numberForm_chars (l : List Nat) (h : IsNumberForm l) :
    ∀ c ∈ l, IsDigit c = true ∨ c = 46 := by
  obtain ⟨d1, d2, _, hall1, hall2, hl⟩ := h
  intro c hc
  rcases hl with hl | ⟨_, hl⟩
  · rw [hl] at hc; exact Or.inl (hall1 c hc)
  · rw [hl] at hc
    simp only [List.mem_append, List.mem_cons] at hc
    rcases hc with h | h | h
    · exact Or.inl (hall1 c h)
    · exact Or.inr h
    · exact Or.inl (hall2 c h)

/-- Scanning at a digit yields the number token of length `numberLength`. -/
theorem ScanToken_number (sc0 sc1 : Scanner) (hskip : sc0.SkipWhiteSpace = some sc1)
    (h0 : IsDigit ((sc1.Source.drop sc1.Current).headD 0) = true) :
    ScanToken sc0 = some
      (⟨TOKEN_NUMBER, CharPtr.src sc1.Current, numberLength (sc1.Source.drop sc1.Current),
          sc1.line⟩,
       ⟨sc1.Source, sc1.Current,
          sc1.Current + numberLength (sc1.Source.drop sc1.Current), sc1.line⟩) := by
  cases ht : sc1.Source.drop sc1.Current with
  | nil => rw [ht] at h0; simp [IsDigit] at h0
  | cons c t =>
    rw [ht] at h0
    replace h0 : IsDigit c = true := h0
    have hlt : sc1.Current < sc1.Source.length := by
      by_contra h
      rw [List.drop_of_length_le (by omega)] at ht
      cases ht
    have hc0 : Scanner.charAt { sc1 with Start := sc1.Current } sc1.Current = c := by
      rw [charAt_eq_headD]; show (sc1.Source.drop sc1.Current).headD 0 = c; rw [ht]; rfl
    have hne : c ≠ 0 := by rintro rfl; simp [IsDigit] at h0
    have hna : IsAlpha c = false := by
      simp only [IsDigit, IsAlpha] at h0 ⊢
      simp only [Bool.and_eq_true, decide_eq_true_eq] at h0
      simp only [Bool.or_eq_false_iff, Bool.and_eq_false_iff, decide_eq_false_iff_not,
        beq_eq_false_iff_ne]
      omega
    unfold ScanToken
    rw [hskip]
    simp only [Scanner.IsAtEnd, Scanner.Advance, hc0]
    rw [if_neg (by simpa using hne), if_neg (by simp [hna]), if_pos h0]
    rw [Number_spec _ (by show sc1.Current + 1 ≤ sc1.Source.length; omega)]
    have hd2 : sc1.Source.drop (sc1.Current + 1) = t := by
      rw [← List.drop_drop, ht]; rfl
    simp only [Scanner.MakeToken, hd2, numberLength_cons c t h0]
    simp only [Option.some.injEq, Prod.mk.injEq, Token.mk.injEq, Scanner.mk.injEq, true_and,
      and_true]
    omega


/-! ## Lemmas on the compiler -/

theorem withChunk_chunk (st : CompileState) (chunk : Chunk) (h : st.current ≠ []) :
    (st.withChunk chunk).chunk = chunk := by
  unfold CompileState.withChunk CompileState.chunk
  cases hc : st.current with
  | nil => exact absurd hc h
  | cons c cs => rfl

theorem withChunk_current_ne (st : CompileState) (chunk : Chunk) (h : st.current ≠ []) :
    (st.withChunk chunk).current ≠ [] := by
  unfold CompileState.withChunk
  cases hc : st.current with
  | nil => exact absurd hc h
  | cons c cs => simp

theorem withChunk_parserEq (st : CompileState) (chunk : Chunk) :
    (st.withChunk chunk).parser = st.parser := by
  obtain ⟨sc, pa, cur, cls, vm, fns, al, se⟩ := st
  cases cur <;> rfl

theorem withChunk_stderr (st : CompileState) (chunk : Chunk) :
    (st.withChunk chunk).stderr = st.stderr := by
  obtain ⟨sc, pa, cur, cls, vm, fns, al, se⟩ := st
  cases cur <;> rfl

theorem withChunk_scanner (st : CompileState) (chunk : Chunk) :
    (st.withChunk chunk).scanner = st.scanner := by
  obtain ⟨sc, pa, cur, cls, vm, fns, al, se⟩ := st
  cases cur <;> rfl

theorem withChunk_withChunk (st : CompileState) (a b : Chunk) :
    (st.withChunk a).withChunk b = st.withChunk b := by
  obtain ⟨sc, pa, cur, cls, vm, fns, al, se⟩ := st
  cases cur <;> rfl

theorem withChunk_self (st : CompileState) : st.withChunk st.chunk = st := by
  obtain ⟨sc, pa, cur, cls, vm, fns, al, se⟩ := st
  cases cur <;> rfl

theorem CurrentChunk_eq (st : CompileState) (h : st.current ≠ []) :
    CurrentChunk st = some st.chunk := by
  unfold CurrentChunk CompileState.chunk
  cases hc : st.current with
  | nil => exact absurd hc h
  | cons c cs => rfl

theorem setCurrentChunk_eq (st : CompileState) (chunk : Chunk) (h : st.current ≠ []) :
    setCurrentChunk st chunk = some (st.withChunk chunk) := by
  unfold setCurrentChunk CompileState.withChunk
  cases hc : st.current with
  | nil => exact absurd hc h
  | cons c cs => rfl

theorem EmitByte_eq (byte : Nat) (st : CompileState) (h : st.current ≠ []) :
    EmitByte byte st = some (st.emit [byte % 256]) := by
  unfold EmitByte
  rw [CurrentChunk_eq st h]
  exact setCurrentChunk_eq st _ h

theorem emit_current_ne (st : CompileState) (bytes : List Nat) (h : st.current ≠ []) :
    (st.emit bytes).current ≠ [] := withChunk_current_ne st _ h

theorem emit_parserEq (st : CompileState) (bytes : List Nat) :
    (st.emit bytes).parser = st.parser := withChunk_parserEq st _

theorem emit_stderr (st : CompileState) (bytes : List Nat) :
    (st.emit bytes).stderr = st.stderr := withChunk_stderr st _

theorem emit_scanner (st : CompileState) (bytes : List Nat) :
    (st.emit bytes).scanner = st.scanner := withChunk_scanner st _

theorem emit_code (st : CompileState) (bytes : List Nat) (h : st.current ≠ []) :
    (st.emit bytes).code = st.code ++ bytes := by
  unfold CompileState.code CompileState.emit
  rw [withChunk_chunk st _ h]

theorem emit_constants (st : CompileState) (bytes : List Nat) (h : st.current ≠ []) :
    (st.emit bytes).constants = st.constants := by
  unfold CompileState.constants CompileState.emit
  rw [withChunk_chunk st _ h]

theorem emit_emit (st : CompileState) (a b : List Nat) (h : st.current ≠ []) :
    (st.emit a).emit b = st.emit (a ++ b) := by
  unfold CompileState.emit
  rw [withChunk_chunk st _ h, withChunk_withChunk, withChunk_parserEq]
  congr 1
  show Chunk.mk _ _ _ = Chunk.mk _ _ _
  congr 1
  · exact List.append_assoc _ _ _
  · rw [List.append_assoc, List.length_append, List.replicate_add]

theorem emit_nil (st : CompileState) : st.emit [] = st := by
  unfold CompileState.emit
  simp only [List.append_nil, List.length_nil, List.replicate_zero]
  exact withChunk_self st

theorem EmitBytes_eq (byte1 byte2 : Nat) (st : CompileState) (h : st.current ≠ []) :
    EmitBytes byte1 byte2 st = some (st.emit [byte1 % 256, byte2 % 256]) := by
  unfold EmitBytes
  rw [EmitByte_eq byte1 st h, Option.some_bind, EmitByte_eq byte2 _ (emit_current_ne st _ h),
    emit_emit st _ _ h]
  rfl


theorem ErrorAt_current (t : Token) (m : List Nat) (st : CompileState) :
    (ErrorAt t m st).current = st.current := by
  unfold ErrorAt; split <;> rfl

theorem ErrorAt_scanner (t : Token) (m : List Nat) (st : CompileState) :
    (ErrorAt t m st).scanner = st.scanner := by
  unfold ErrorAt; split <;> rfl

theorem ErrorAt_chunk (t : Token) (m : List Nat) (st : CompileState) :
    (ErrorAt t m st).chunk = st.chunk := by
  unfold CompileState.chunk; rw [ErrorAt_current]

theorem ErrorAt_panic (t : Token) (m : List Nat) (st : CompileState) :
    (ErrorAt t m st).parser.PanicMode = true := by
  unfold ErrorAt
  split
  · assumption
  · rfl

theorem ErrorAt_hadError (t : Token) (m : List Nat) (st : CompileState)
    (hinv : st.parser.PanicMode = true → st.parser.HadError = true) :
    (ErrorAt t m st).parser.HadError = true := by
  unfold ErrorAt
  split
  · rename_i h; exact hinv h
  · rfl

theorem ErrorAt_withChunk (t : Token) (m : List Nat) (st : CompileState) (chunk : Chunk) :
    (ErrorAt t m st).withChunk chunk = ErrorAt t m (st.withChunk chunk) := by
  obtain ⟨sc, pa, cur, cls, vm, fns, al, se⟩ := st
  cases cur <;> cases hp : pa.PanicMode <;> simp [ErrorAt, CompileState.withChunk, hp]

theorem addConstant_current_ne (st : CompileState) (v : Value) (h : st.current ≠ []) :
    (st.addConstant v).current ≠ [] := withChunk_current_ne st _ h

theorem addConstant_constants (st : CompileState) (v : Value) (h : st.current ≠ []) :
    (st.addConstant v).constants = st.constants ++ [v] := by
  unfold CompileState.constants CompileState.addConstant
  rw [withChunk_chunk st _ h]

theorem addConstant_code (st : CompileState) (v : Value) (h : st.current ≠ []) :
    (st.addConstant v).code = st.code := by
  unfold CompileState.code CompileState.addConstant
  rw [withChunk_chunk st _ h]

theorem addConstant_parserEq (st : CompileState) (v : Value) :
    (st.addConstant v).parser = st.parser := withChunk_parserEq st _

/-- Function `MakeConstant` on a state with a current compiler. -/
theorem MakeConstant_eq (value : Value) (st : CompileState) (h : st.current ≠ []) :
    MakeConstant value st = some
      (if st.constants.length > 255 then
        (0, Error (chars "Cannot add any more constants in this bytecode chunk.")
          (st.addConstant value))
       else (st.constants.length, st.addConstant value)) := by
  unfold MakeConstant
  rw [CurrentChunk_eq st h]
  simp only [Option.bind_eq_bind, Option.some_bind]
  rw [setCurrentChunk_eq st _ h]
  simp only [Option.some_bind, AddConstant, UINT8_MAX, List.length_append, List.length_singleton,
    Nat.add_sub_cancel]
  unfold CompileState.constants CompileState.addConstant
  split
  · rfl
  · rename_i hk
    rw [Nat.mod_eq_of_lt (by omega)]

theorem bytes_of_short (j : Nat) (hj : j ≤ 65535) :
    ((((j >>> 8) &&& 0xff) <<< 8) ||| (j &&& 0xff)) % 2 ^ 16 = j := by
  have h1 : j &&& 0xff = j % 256 := Nat.and_pow_two_sub_one_eq_mod j 8
  have h2 : (j >>> 8) &&& 0xff = (j / 256) % 256 := by
    rw [Nat.shiftRight_eq_div_pow]
    exact Nat.and_pow_two_sub_one_eq_mod _ 8
  rw [h1, h2, Nat.shiftLeft_eq, Nat.mul_comm,
    ← Nat.mul_add_lt_is_or (Nat.mod_lt _ (by norm_num)) _]
  omega


theorem EmitJump_eq (instruction : Nat) (st : CompileState) (h : st.current ≠ []) :
    EmitJump instruction st =
      some (st.code.length + 1, st.emit [instruction % 256, 0xff, 0xff]) := by
  unfold EmitJump
  simp only [Option.bind_eq_bind]
  rw [EmitByte_eq _ st h, Option.some_bind, EmitByte_eq _ _ (emit_current_ne st _ h),
    Option.some_bind, emit_emit st _ _ h,
    EmitByte_eq _ _ (emit_current_ne st _ h), Option.some_bind, emit_emit st _ _ h,
    CurrentChunk_eq _ (emit_current_ne st _ h), Option.some_bind]
  have hc := emit_code st ([instruction % 256] ++ [255 % 256] ++ [255 % 256]) h
  unfold CompileState.code at hc
  unfold Chunk.Count CompileState.code
  rw [hc]
  simp

theorem PatchJump_eq (offset : Nat) (st : CompileState) (h : st.current ≠ [])
    (ho : offset + 2 ≤ st.code.length) :
    PatchJump offset st = some
      ((if st.code.length - offset - 2 > 65535 then
          Error (chars "Too much code to jump over.") st else st).withChunk
        { st.chunk with Code := patchedCode st.code offset (st.code.length - offset - 2) }) := by
  unfold PatchJump
  simp only [Option.bind_eq_bind]
  rw [CurrentChunk_eq st h, Option.some_bind]
  unfold CompileState.code at ho ⊢
  rw [if_neg (by unfold Chunk.Count; omega)]
  unfold Chunk.Count UINT16_MAX patchedCode
  apply setCurrentChunk_eq
  split
  · unfold Error; rw [ErrorAt_current]; exact h
  · exact h


theorem EmitReturn_eq (st : CompileState) (c : Compiler) (cs : List Compiler)
    (h : st.current = c :: cs) :
    EmitReturn st = some (st.emit
      (if c.Type_ = TYPE_INITIALIZER then [OpCode.OP_GET_LOCAL, 0, OpCode.OP_RETURN]
       else [OpCode.OP_NIL, OpCode.OP_RETURN])) := by
  have hne : st.current ≠ [] := by rw [h]; simp
  unfold EmitReturn
  rw [h]
  dsimp only
  split
  · rw [EmitBytes_eq _ _ st hne, Option.some_bind, EmitByte_eq _ _ (emit_current_ne st _ hne),
      emit_emit st _ _ hne]
    rfl
  · rw [EmitByte_eq _ st hne, Option.some_bind, EmitByte_eq _ _ (emit_current_ne st _ hne),
      emit_emit st _ _ hne]
    rfl

theorem withChunk_code (st : CompileState) (chunk : Chunk) (h : st.current ≠ []) :
    (st.withChunk chunk).code = chunk.Code := by
  unfold CompileState.code; rw [withChunk_chunk st chunk h]

theorem ParsePrecedence_succ (env : CompileEnv) (fuel : Nat) (precedence : Precedence)
    (st : CompileState) :
    ParsePrecedence env (fuel + 1) precedence st =
      ParsePrecedenceBody env (ParsePrecedence env fuel) (fuel + 1) precedence st := rfl

theorem SkipDigits_source : ∀ (fuel : Nat) (sc sc1 : Scanner),
    Scanner.SkipDigits fuel sc = some sc1 → sc1.Source = sc.Source := by
  intro fuel
  induction fuel with
  | zero => intro sc sc1 h; cases h
  | succ n ih =>
    intro sc sc1 h
    unfold Scanner.SkipDigits at h
    split at h
    · have e := ih _ _ h
      exact e
    · cases h; rfl

theorem SkipIdentifier_source : ∀ (fuel : Nat) (sc sc1 : Scanner),
    Scanner.SkipIdentifier fuel sc = some sc1 → sc1.Source = sc.Source := by
  intro fuel
  induction fuel with
  | zero => intro sc sc1 h; cases h
  | succ n ih =>
    intro sc sc1 h
    unfold Scanner.SkipIdentifier at h
    split at h
    · have e := ih _ _ h
      exact e
    · cases h; rfl

theorem SkipComment_source : ∀ (fuel : Nat) (sc sc1 : Scanner),
    Scanner.SkipComment fuel sc = some sc1 → sc1.Source = sc.Source := by
  intro fuel
  induction fuel with
  | zero => intro sc sc1 h; cases h
  | succ n ih =>
    intro sc sc1 h
    unfold Scanner.SkipComment at h
    split at h
    · have e := ih _ _ h
      exact e
    · cases h; rfl

theorem StringLoop_source : ∀ (fuel : Nat) (sc sc1 : Scanner),
    Scanner.StringLoop fuel sc = some sc1 → sc1.Source = sc.Source := by
  intro fuel
  induction fuel with
  | zero => intro sc sc1 h; cases h
  | succ n ih =>
    intro sc sc1 h
    unfold Scanner.StringLoop at h
    split at h
    · have e := ih _ _ h
      rw [e]
      split <;> rfl
    · cases h; rfl

theorem SkipWhiteSpaceLoop_source : ∀ (fuel : Nat) (sc sc1 : Scanner),
    Scanner.SkipWhiteSpaceLoop fuel sc = some sc1 → sc1.Source = sc.Source := by
  intro fuel
  induction fuel with
  | zero => intro sc sc1 h; cases h
  | succ n ih =>
    intro sc sc1 h
    unfold Scanner.SkipWhiteSpaceLoop at h
    split at h
    · have e := ih _ _ h
      exact e
    · have e := ih _ _ h
      exact e
    · have e := ih _ _ h
      exact e
    · have e := ih _ _ h
      exact e
    · split at h
      · cases hc : Scanner.SkipComment sc.fuel sc with
        | none => rw [hc] at h; cases h
        | some sc2 =>
          rw [hc] at h
          exact (ih _ _ h).trans (SkipComment_source _ _ _ hc)
      · cases h; rfl
    · cases h; rfl

theorem ScanToken_source (sc sc1 : Scanner) (t : Token) (h : ScanToken sc = some (t, sc1)) :
    sc1.Source = sc.Source := by
  unfold ScanToken at h
  cases hw : sc.SkipWhiteSpace with
  | none => rw [hw] at h; cases h
  | some sw =>
    rw [hw] at h
    have hsw : sw.Source = sc.Source := SkipWhiteSpaceLoop_source _ _ _ hw
    dsimp only at h
    split at h
    · cases h; exact hsw
    · split at h
      · unfold Scanner.Identifier at h
        split at h
        · cases h
        · rename_i s2 hs
          cases h
          exact (SkipIdentifier_source _ _ _ hs).trans hsw
      · split at h
        · unfold Scanner.Number at h
          split at h
          · cases h
          · rename_i s2 hs
            split at h
            · split at h
              · cases h
              · rename_i s3 hs3
                cases h
                exact (SkipDigits_source _ _ _ hs3).trans
                  ((SkipDigits_source _ _ _ hs).trans hsw)
            · cases h
              exact (SkipDigits_source _ _ _ hs).trans hsw
        · have hm : ∀ c, ((Scanner.Advance { sw with Start := sw.Current }).2.Match c).2.Source =
              sc.Source := by
            intro c
            unfold Scanner.Match
            split
            · exact hsw
            · split <;> exact hsw
          split at h
          all_goals first
            | (cases h; exact hsw)
            | (cases h; exact hm _)
            | skip
          unfold Scanner.String at h
          split at h
          · cases h
          · rename_i s2 hs
            split at h
            · cases h
              exact (StringLoop_source _ _ _ hs).trans hsw
            · cases h
              exact (StringLoop_source _ _ _ hs).trans hsw

theorem ScanToken_fuel (sc : Scanner) (r : Token × Scanner) (h : ScanToken sc = some r) :
    sc.fuel ≠ 0 := by
  intro h0
  unfold ScanToken Scanner.SkipWhiteSpace at h
  rw [h0] at h
  cases h

/-- Function `Advance` when the next token is no error token. -/
theorem Advance_scan (st : CompileState) (token : Token) (sc : Scanner)
    (hscan : ScanToken st.scanner = some (token, sc)) (hte : token.Type_ ≠ TOKEN_ERROR) :
    Advance st = some (st.advanced token sc) := by
  unfold Advance
  obtain ⟨n, hn⟩ : ∃ n, st.scanner.fuel = n + 1 :=
    ⟨st.scanner.fuel - 1, by have := ScanToken_fuel _ _ hscan; omega⟩
  rw [hn]
  unfold AdvanceLoop
  dsimp only
  rw [hscan]
  dsimp only
  rw [if_pos hte]
  rfl

/-! ### Steps of the expression compiler -/

theorem Emitted.refl (st : CompileState) (h : st.current ≠ []) : Emitted st st [] [] :=
  ⟨h, by simp, by simp, rfl, rfl, rfl, rfl⟩

theorem Emitted.trans {a b c : CompileState} {x y : List Nat} {u v : List Value}
    (h1 : Emitted a b x u) (h2 : Emitted b c y v) : Emitted a c (x ++ y) (u ++ v) :=
  ⟨h2.current, by rw [h2.code, h1.code, List.append_assoc],
    by rw [h2.constants, h1.constants, List.append_assoc],
    h2.stderr.trans h1.stderr, h2.hadError.trans h1.hadError,
    h2.panicMode.trans h1.panicMode, h2.source.trans h1.source⟩

theorem Emitted.advanced (st : CompileState) (token : Token) (sc : Scanner)
    (h : st.current ≠ []) (hs : sc.Source = st.scanner.Source) :
    Emitted st (st.advanced token sc) [] [] :=
  ⟨h, by simp [CompileState.code, CompileState.chunk, CompileState.advanced],
    by simp [CompileState.constants, CompileState.chunk, CompileState.advanced],
    rfl, rfl, rfl, hs⟩

theorem Emitted.emit (st : CompileState) (bytes : List Nat) (h : st.current ≠ []) :
    Emitted st (st.emit bytes) bytes [] :=
  ⟨emit_current_ne st _ h, emit_code st _ h, by rw [emit_constants st _ h]; simp,
    emit_stderr st _, by rw [emit_parserEq], by rw [emit_parserEq], by rw [emit_scanner]⟩

theorem addConstant_stderr (st : CompileState) (v : Value) :
    (st.addConstant v).stderr = st.stderr := withChunk_stderr st _

theorem addConstant_scanner (st : CompileState) (v : Value) :
    (st.addConstant v).scanner = st.scanner := withChunk_scanner st _

theorem Emitted.addConstant (st : CompileState) (v : Value) (h : st.current ≠ []) :
    Emitted st (st.addConstant v) [] [v] :=
  ⟨addConstant_current_ne st v h, by rw [addConstant_code st v h]; simp,
    addConstant_constants st v h, addConstant_stderr st v, by rw [addConstant_parserEq],
    by rw [addConstant_parserEq], by rw [addConstant_scanner]⟩

/-- Function `ParseNumberExpression` while the pool has room: the constant is
added and `OP_CONSTANT` with its index is emitted. -/
theorem ParseNumberExpression_eq (env : CompileEnv) (canAssign : Bool) (st : CompileState)
    (h : st.current ≠ []) (hk : st.constants.length ≤ 255) :
    ParseNumberExpression env canAssign st = some
      ((st.addConstant (env.strtod (st.textAt st.parser.Previous))).emit
        [OpCode.OP_CONSTANT, st.constants.length]) := by
  unfold ParseNumberExpression EmitConstant
  simp only [Option.bind_eq_bind]
  rw [MakeConstant_eq _ st h, if_neg (by omega), Option.some_bind]
  dsimp only
  have e2 : st.constants.length % 256 = st.constants.length := Nat.mod_eq_of_lt (by omega)
  rw [EmitBytes_eq _ _ _ (addConstant_current_ne st _ h), e2]
  rfl

theorem ParseInfixLoop_exit (env : CompileEnv) (pp : ParsePrecedenceFn) (precedence : Precedence)
    (canAssign : Bool) (fuel n : Nat) (st : CompileState)
    (h : ¬ precedence ≤ (GetRule st.parser.Current.Type_).Precedence) :
    ParseInfixLoop env pp precedence canAssign fuel (n + 1) st = some st := by
  unfold ParseInfixLoop
  rw [if_neg h]

theorem ParseInfixLoop_step (env : CompileEnv) (pp : ParsePrecedenceFn) (precedence : Precedence)
    (canAssign : Bool) (fuel n : Nat) (st st1 : CompileState) (infixRule : ParseFunction)
    (h : precedence ≤ (GetRule st.parser.Current.Type_).Precedence)
    (hadv : Advance st = some st1)
    (hrule : (GetRule st1.parser.Previous.Type_).Infix = some infixRule) :
    ParseInfixLoop env pp precedence canAssign fuel (n + 1) st =
      (callParseFunction env pp fuel infixRule canAssign st1).bind
        (ParseInfixLoop env pp precedence canAssign fuel n) := by
  conv_lhs => unfold ParseInfixLoop
  rw [if_pos h, hadv]
  dsimp only
  rw [hrule]
  dsimp only
  cases callParseFunction env pp fuel infixRule canAssign st1 <;> rfl

theorem ParseBinaryExpression_plus (pp : ParsePrecedenceFn) (canAssign : Bool)
    (st : CompileState) (h : st.parser.Previous.Type_ = TOKEN_PLUS) :
    ParseBinaryExpression pp canAssign st =
      (pp PREC_FACTOR st).bind (EmitByte OpCode.OP_ADD) := by
  unfold ParseBinaryExpression
  simp only [Option.bind_eq_bind, h]
  rfl

theorem ParseBinaryExpression_star (pp : ParsePrecedenceFn) (canAssign : Bool)
    (st : CompileState) (h : st.parser.Previous.Type_ = TOKEN_STAR) :
    ParseBinaryExpression pp canAssign st =
      (pp PREC_UNARY st).bind (EmitByte OpCode.OP_MULTIPLY) := by
  unfold ParseBinaryExpression
  simp only [Option.bind_eq_bind, h]
  rfl

/-- The start of `ParsePrecedence` at a number token: the token is consumed and
its constant emitted; the infix loop and the check for `=` follow. -/
theorem ParsePrecedenceBody_number (env : CompileEnv) (pp : ParsePrecedenceFn) (fuel : Nat)
    (precedence : Precedence) (st : CompileState) (token : Token) (sc : Scanner)
    (h : st.current ≠ []) (hcur : st.parser.Current.Type_ = TOKEN_NUMBER)
    (hscan : ScanToken st.scanner = some (token, sc)) (hte : token.Type_ ≠ TOKEN_ERROR)
    (hk : st.constants.length ≤ 255) :
    ∃ s2, Emitted st s2 [OpCode.OP_CONSTANT, st.constants.length]
        [env.strtod (st.parser.Current.Start.read st.scanner.Source)] ∧
      s2.parser.Current = token ∧ s2.parser.Previous = st.parser.Current ∧ s2.scanner = sc ∧
      ParsePrecedenceBody env pp fuel precedence st =
        (ParseInfixLoop env pp precedence (decide (precedence ≤ PREC_ASSIGNMENT)) fuel fuel
          s2).bind (fun st3 =>
            (if decide (precedence ≤ PREC_ASSIGNMENT) = true then Match TOKEN_EQUAL st3
              else some (false, st3)).bind (fun r =>
                if r.1 = true then some (Error (chars "Invalid assignment target.") r.2)
                else some r.2)) := by
  have hsrc := ScanToken_source _ _ _ hscan
  have ha : (st.advanced token sc).current ≠ [] := h
  have hk2 : (st.advanced token sc).constants.length ≤ 255 := hk
  refine ⟨_, ((Emitted.advanced st token sc h hsrc).trans
    (Emitted.addConstant _ _ ha)).trans (Emitted.emit _ _ (addConstant_current_ne _ _ ha)),
    ?_, ?_, ?_, ?_⟩
  · rw [emit_parserEq, addConstant_parserEq]; rfl
  · rw [emit_parserEq, addConstant_parserEq]; rfl
  · rw [emit_scanner, addConstant_scanner]; rfl
  · unfold ParsePrecedenceBody
    simp only [Option.bind_eq_bind]
    rw [Advance_scan st token sc hscan hte, Option.some_bind]
    have hprev : (st.advanced token sc).parser.Previous.Type_ = TOKEN_NUMBER := hcur
    rw [hprev]
    simp only [GetRule, callParseFunction]
    rw [ParseNumberExpression_eq env _ _ ha hk2, Option.some_bind]
    have htext : (st.advanced token sc).textAt (st.advanced token sc).parser.Previous =
        st.parser.Current.Start.read st.scanner.Source := by
      show st.parser.Current.Start.read sc.Source = _
      rw [hsrc]
    rw [htext]
    show (ParseInfixLoop env pp precedence (decide (precedence ≤ PREC_ASSIGNMENT)) fuel fuel
      (((st.advanced token sc).addConstant
        (env.strtod (CharPtr.read st.scanner.Source st.parser.Current.Start))).emit
          [OpCode.OP_CONSTANT, st.constants.length])).bind _ = _
    congr 1
    funext st3
    split <;> rfl

/-- A number literal followed by a token that continues no expression at the
precedence asked for: `ParsePrecedence` emits the constant and returns with
that token as the lookahead. -/
theorem ParsePrecedence_number (env : CompileEnv) (m : Nat) (precedence : Precedence)
    (st : CompileState) (token : Token) (sc : Scanner)
    (h : st.current ≠ []) (hcur : st.parser.Current.Type_ = TOKEN_NUMBER)
    (hscan : ScanToken st.scanner = some (token, sc)) (hte : token.Type_ ≠ TOKEN_ERROR)
    (hk : st.constants.length ≤ 255)
    (hexit : ¬ precedence ≤ (GetRule token.Type_).Precedence)
    (heq : token.Type_ ≠ TOKEN_EQUAL) :
    ∃ s, ParsePrecedence env (m + 1) precedence st = some s ∧
      Emitted st s [OpCode.OP_CONSTANT, st.constants.length]
        [env.strtod (st.parser.Current.Start.read st.scanner.Source)] ∧
      s.parser.Current = token ∧ s.scanner = sc := by
  obtain ⟨s2, he, hc, _, hs, hb⟩ := ParsePrecedenceBody_number env (ParsePrecedence env m)
    (m + 1) precedence st token sc h hcur hscan hte hk
  refine ⟨s2, ?_, he, hc, hs⟩
  rw [ParsePrecedence_succ, hb, ParseInfixLoop_exit _ _ _ _ _ _ _ (by rw [hc]; exact hexit),
    Option.some_bind]
  have hm : Match TOKEN_EQUAL s2 = some (false, s2) := by
    unfold Match Check
    rw [hc]
    simp [heq]
  rw [hm]
  split <;> rfl

theorem Emitted.emitByte {st s : CompileState} {bytes : List Nat} {consts : List Value}
    (he : Emitted st s bytes consts) (byte : Nat) (hb : byte < 256) :
    ∃ s1, EmitByte byte s = some s1 ∧ Emitted st s1 (bytes ++ [byte]) consts ∧
      s1.parser = s.parser ∧ s1.scanner = s.scanner := by
  refine ⟨s.emit [byte], ?_, ?_, emit_parserEq _ _, emit_scanner _ _⟩
  · rw [EmitByte_eq _ _ he.current, Nat.mod_eq_of_lt hb]
  · have := he.trans (Emitted.emit s [byte] he.current)
    simpa using this

/-- One round of the infix loop at `+` or `*`: the operator is consumed, the
right operand is compiled at the precedence of the operator plus one, and the
instruction of the operator is emitted. -/
theorem ParseInfixLoop_binary (env : CompileEnv) (pp : ParsePrecedenceFn)
    (precedence : Precedence) (canAssign : Bool) (fuel j : Nat) (st s1 : CompileState)
    (token : Token) (sc : Scanner)
    (hop : st.parser.Current.Type_ = TOKEN_PLUS ∨ st.parser.Current.Type_ = TOKEN_STAR)
    (hp : precedence ≤ (GetRule st.parser.Current.Type_).Precedence)
    (hscan : ScanToken st.scanner = some (token, sc)) (hte : token.Type_ ≠ TOKEN_ERROR)
    (hright : pp ((GetRule st.parser.Current.Type_).Precedence + 1) (st.advanced token sc) =
      some s1) :
    ParseInfixLoop env pp precedence canAssign fuel (j + 1) st =
      (EmitByte (if st.parser.Current.Type_ = TOKEN_PLUS then OpCode.OP_ADD
        else OpCode.OP_MULTIPLY) s1).bind (ParseInfixLoop env pp precedence canAssign fuel j) := by
  have hprev : (st.advanced token sc).parser.Previous = st.parser.Current := rfl
  rcases hop with hop | hop
  · rw [ParseInfixLoop_step env pp precedence canAssign fuel j st _
      ParseFunction.ParseBinaryExpression hp (Advance_scan st token sc hscan hte)
      (by rw [hprev, hop]; rfl)]
    show (ParseBinaryExpression pp canAssign _).bind _ = _
    rw [ParseBinaryExpression_plus _ _ _ (by rw [hprev, hop])]
    rw [hop] at hright
    have hr : pp PREC_FACTOR (st.advanced token sc) = some s1 := hright
    rw [hr, hop, if_pos rfl]
    rfl
  · rw [ParseInfixLoop_step env pp precedence canAssign fuel j st _
      ParseFunction.ParseBinaryExpression hp (Advance_scan st token sc hscan hte)
      (by rw [hprev, hop]; rfl)]
    show (ParseBinaryExpression pp canAssign _).bind _ = _
    rw [ParseBinaryExpression_star _ _ _ (by rw [hprev, hop])]
    rw [hop] at hright
    have hr : pp PREC_UNARY (st.advanced token sc) = some s1 := hright
    rw [hr, hop, if_neg (by decide)]
    rfl

theorem Match_equal_none (st : CompileState) (h : st.parser.Current.Type_ ≠ TOKEN_EQUAL) :
    Match TOKEN_EQUAL st = some (false, st) := by
  unfold Match Check
  simp [h]

/-- The code of `a + b * c`. -/
theorem ParseExpression_add_mul (env : CompileEnv) (n : Nat) (st : CompileState)
    (tPlus tB tStar tC tEnd : Token) (s1 s2 s3 s4 s5 : Scanner)
    (h : st.current ≠ []) (hk : st.constants.length + 2 ≤ 255)
    (hA : st.parser.Current.Type_ = TOKEN_NUMBER)
    (h1 : ScanToken st.scanner = some (tPlus, s1)) (hPlus : tPlus.Type_ = TOKEN_PLUS)
    (h2 : ScanToken s1 = some (tB, s2)) (hB : tB.Type_ = TOKEN_NUMBER)
    (h3 : ScanToken s2 = some (tStar, s3)) (hStar : tStar.Type_ = TOKEN_STAR)
    (h4 : ScanToken s3 = some (tC, s4)) (hC : tC.Type_ = TOKEN_NUMBER)
    (h5 : ScanToken s4 = some (tEnd, s5))
    (hEnd : (GetRule tEnd.Type_).Precedence = PREC_NONE)
    (hEndE : tEnd.Type_ ≠ TOKEN_ERROR) (hEndQ : tEnd.Type_ ≠ TOKEN_EQUAL) :
    ∃ st1, ParseExpression env (n + 3) st = some st1 ∧
      Emitted st st1
        [OpCode.OP_CONSTANT, st.constants.length, OpCode.OP_CONSTANT, st.constants.length + 1,
          OpCode.OP_CONSTANT, st.constants.length + 2, OpCode.OP_MULTIPLY, OpCode.OP_ADD]
        [env.strtod (st.parser.Current.Start.read st.scanner.Source),
          env.strtod (tB.Start.read st.scanner.Source),
          env.strtod (tC.Start.read st.scanner.Source)] ∧
      st1.parser.Current = tEnd ∧ st1.scanner = s5 := by
  have src1 := ScanToken_source _ _ _ h1
  have src2 := ScanToken_source _ _ _ h2
  have src3 := ScanToken_source _ _ _ h3
  have src4 := ScanToken_source _ _ _ h4
  -- the left operand
  obtain ⟨sa, hea, hca, _, hsa, hba⟩ := ParsePrecedenceBody_number env
    (ParsePrecedence env (n + 2)) (n + 3) PREC_ASSIGNMENT st tPlus s1 h hA h1
    (by rw [hPlus]; decide) (by omega)
  have hka : sa.constants.length = st.constants.length + 1 := by rw [hea.constants]; simp
  -- the operand `b` of `+`, compiled at `PREC_FACTOR`
  have hscanb : ScanToken (sa.advanced tB s2).scanner = some (tStar, s3) := h3
  obtain ⟨sb, heb, hcb, _, hsb, hbb⟩ := ParsePrecedenceBody_number env
    (ParsePrecedence env (n + 1)) (n + 2) PREC_FACTOR (sa.advanced tB s2) tStar s3
    hea.current hB hscanb (by rw [hStar]; decide)
    (by show sa.constants.length ≤ 255; omega)
  have heb2 : Emitted sa sb [OpCode.OP_CONSTANT, st.constants.length + 1]
      [env.strtod (tB.Start.read st.scanner.Source)] := by
    have e := (Emitted.advanced sa tB s2 hea.current (by rw [hsa]; exact src2)).trans heb
    have e1 : (sa.advanced tB s2).constants.length = st.constants.length + 1 := hka
    have e2 : (sa.advanced tB s2).parser.Current = tB := rfl
    have e3 : (sa.advanced tB s2).scanner.Source = st.scanner.Source := by
      show s2.Source = _
      rw [src2, src1]
    rw [e1, e2, e3] at e
    simpa using e
  have hkb : sb.constants.length = st.constants.length + 2 := by
    rw [heb2.constants, List.length_append, hka]; rfl
  -- the operand `c` of `*`, compiled at `PREC_UNARY`
  obtain ⟨sc, hpc, hec, hcc, hsc⟩ := ParsePrecedence_number env n PREC_UNARY
    (sb.advanced tC s4) tEnd s5 heb2.current hC (by show ScanToken s4 = _; exact h5) hEndE
    (by show sb.constants.length ≤ 255; omega) (by rw [hEnd]; decide) hEndQ
  have hec2 : Emitted sb sc [OpCode.OP_CONSTANT, st.constants.length + 2]
      [env.strtod (tC.Start.read st.scanner.Source)] := by
    have e := (Emitted.advanced sb tC s4 heb2.current (by rw [hsb]; exact src4)).trans hec
    have e1 : (sb.advanced tC s4).constants.length = st.constants.length + 2 := hkb
    have e2 : (sb.advanced tC s4).parser.Current = tC := rfl
    have e3 : (sb.advanced tC s4).scanner.Source = st.scanner.Source := by
      show s4.Source = _
      rw [src4, src3, src2, src1]
    rw [e1, e2, e3] at e
    simpa using e
  obtain ⟨sm, hem, hem2, hpm, hsm⟩ := hec2.emitByte OpCode.OP_MULTIPLY (by decide)
  -- the infix loop of the right operand of `+`
  have hloopb : ParseInfixLoop env (ParsePrecedence env (n + 1)) PREC_FACTOR
      (decide (PREC_FACTOR ≤ PREC_ASSIGNMENT)) (n + 2) (n + 2) sb = some sm := by
    rw [ParseInfixLoop_binary env _ PREC_FACTOR _ (n + 2) (n + 1) sb sc tC s4
      (Or.inr (by rw [hcb]; exact hStar)) (by rw [hcb, hStar]; decide)
      (by rw [hsb]; exact h4) (by rw [hC]; decide)
      (by rw [hcb, hStar]; exact hpc)]
    rw [hcb, hStar, if_neg (by decide), hem, Option.some_bind]
    exact ParseInfixLoop_exit _ _ _ _ _ _ _ (by rw [hpm, hcc, hEnd]; decide)
  have hright : ParsePrecedence env (n + 2) PREC_FACTOR (sa.advanced tB s2) = some sm := by
    rw [ParsePrecedence_succ, hbb, hloopb]
    rfl
  obtain ⟨sp, hep, hep2, hpp, hsp⟩ := (heb2.trans hem2).emitByte OpCode.OP_ADD (by decide)
  -- the infix loop of the whole expression
  have hloopa : ParseInfixLoop env (ParsePrecedence env (n + 2)) PREC_ASSIGNMENT
      (decide (PREC_ASSIGNMENT ≤ PREC_ASSIGNMENT)) (n + 3) (n + 3) sa = some sp := by
    rw [ParseInfixLoop_binary env _ PREC_ASSIGNMENT _ (n + 3) (n + 2) sa sm tB s2
      (Or.inl (by rw [hca]; exact hPlus)) (by rw [hca, hPlus]; decide)
      (by rw [hsa]; exact h2) (by rw [hB]; decide)
      (by rw [hca, hPlus]; exact hright)]
    rw [hca, hPlus, if_pos rfl, hep, Option.some_bind]
    exact ParseInfixLoop_exit _ _ _ _ _ _ _ (by rw [hpp, hpm, hcc, hEnd]; decide)
  refine ⟨sp, ?_, ?_, by rw [hpp, hpm, hcc], by rw [hsp, hsm, hsc]⟩
  · unfold ParseExpression
    rw [ParsePrecedence_succ, hba, hloopa, Option.some_bind,
      Match_equal_none sp (by rw [hpp, hpm, hcc]; exact hEndQ)]
    rfl
  · have e := hea.trans hep2
    simpa using e

/-- The code of `a * b + c`. -/
theorem ParseExpression_mul_add (env : CompileEnv) (n : Nat) (st : CompileState)
    (tStar tB tPlus tC tEnd : Token) (s1 s2 s3 s4 s5 : Scanner)
    (h : st.current ≠ []) (hk : st.constants.length + 2 ≤ 255)
    (hA : st.parser.Current.Type_ = TOKEN_NUMBER)
    (h1 : ScanToken st.scanner = some (tStar, s1)) (hStar : tStar.Type_ = TOKEN_STAR)
    (h2 : ScanToken s1 = some (tB, s2)) (hB : tB.Type_ = TOKEN_NUMBER)
    (h3 : ScanToken s2 = some (tPlus, s3)) (hPlus : tPlus.Type_ = TOKEN_PLUS)
    (h4 : ScanToken s3 = some (tC, s4)) (hC : tC.Type_ = TOKEN_NUMBER)
    (h5 : ScanToken s4 = some (tEnd, s5))
    (hEnd : (GetRule tEnd.Type_).Precedence = PREC_NONE)
    (hEndE : tEnd.Type_ ≠ TOKEN_ERROR) (hEndQ : tEnd.Type_ ≠ TOKEN_EQUAL) :
    ∃ st1, ParseExpression env (n + 3) st = some st1 ∧
      Emitted st st1
        [OpCode.OP_CONSTANT, st.constants.length, OpCode.OP_CONSTANT, st.constants.length + 1,
          OpCode.OP_MULTIPLY, OpCode.OP_CONSTANT, st.constants.length + 2, OpCode.OP_ADD]
        [env.strtod (st.parser.Current.Start.read st.scanner.Source),
          env.strtod (tB.Start.read st.scanner.Source),
          env.strtod (tC.Start.read st.scanner.Source)] ∧
      st1.parser.Current = tEnd ∧ st1.scanner = s5 := by
  have src1 := ScanToken_source _ _ _ h1
  have src2 := ScanToken_source _ _ _ h2
  have src3 := ScanToken_source _ _ _ h3
  have src4 := ScanToken_source _ _ _ h4
  -- the left operand
  obtain ⟨sa, hea, hca, _, hsa, hba⟩ := ParsePrecedenceBody_number env
    (ParsePrecedence env (n + 2)) (n + 3) PREC_ASSIGNMENT st tStar s1 h hA h1
    (by rw [hStar]; decide) (by omega)
  have hka : sa.constants.length = st.constants.length + 1 := by
    rw [hea.constants, List.length_append]; rfl
  -- the operand `b` of `*`, compiled at `PREC_UNARY`: it ends before `+`
  obtain ⟨sb, hpb, heb, hcb, hsb⟩ := ParsePrecedence_number env (n + 1) PREC_UNARY
    (sa.advanced tB s2) tPlus s3 hea.current hB (by show ScanToken s2 = _; exact h3)
    (by rw [hPlus]; decide) (by show sa.constants.length ≤ 255; omega)
    (by rw [hPlus]; decide) (by rw [hPlus]; decide)
  have heb2 : Emitted sa sb [OpCode.OP_CONSTANT, st.constants.length + 1]
      [env.strtod (tB.Start.read st.scanner.Source)] := by
    have e := (Emitted.advanced sa tB s2 hea.current (by rw [hsa]; exact src2)).trans heb
    have e1 : (sa.advanced tB s2).constants.length = st.constants.length + 1 := hka
    have e2 : (sa.advanced tB s2).parser.Current = tB := rfl
    have e3 : (sa.advanced tB s2).scanner.Source = st.scanner.Source := by
      show s2.Source = _
      rw [src2, src1]
    rw [e1, e2, e3] at e
    simpa using e
  obtain ⟨sm, hem, hem2, hpm, hsm⟩ := heb2.emitByte OpCode.OP_MULTIPLY (by decide)
  have hkm : sm.constants.length = st.constants.length + 2 := by
    rw [hem2.constants, List.length_append, hka]; rfl
  -- the operand `c` of `+`, compiled at `PREC_FACTOR`
  obtain ⟨sc, hpc, hec, hcc, hsc⟩ := ParsePrecedence_number env (n + 1) PREC_FACTOR
    (sm.advanced tC s4) tEnd s5 hem2.current hC (by show ScanToken s4 = _; exact h5) hEndE
    (by show sm.constants.length ≤ 255; omega) (by rw [hEnd]; decide) hEndQ
  have hec2 : Emitted sm sc [OpCode.OP_CONSTANT, st.constants.length + 2]
      [env.strtod (tC.Start.read st.scanner.Source)] := by
    have e := (Emitted.advanced sm tC s4 hem2.current
      (by rw [hsm, hsb]; exact src4)).trans hec
    have e1 : (sm.advanced tC s4).constants.length = st.constants.length + 2 := hkm
    have e2 : (sm.advanced tC s4).parser.Current = tC := rfl
    have e3 : (sm.advanced tC s4).scanner.Source = st.scanner.Source := by
      show s4.Source = _
      rw [src4, src3, src2, src1]
    rw [e1, e2, e3] at e
    simpa using e
  obtain ⟨sp, hep, hep2, hpp, hsp⟩ := hec2.emitByte OpCode.OP_ADD (by decide)
  -- the infix loop of the whole expression: `*`, then `+`
  have hloopa : ParseInfixLoop env (ParsePrecedence env (n + 2)) PREC_ASSIGNMENT
      (decide (PREC_ASSIGNMENT ≤ PREC_ASSIGNMENT)) (n + 3) (n + 3) sa = some sp := by
    rw [ParseInfixLoop_binary env _ PREC_ASSIGNMENT _ (n + 3) (n + 2) sa sb tB s2
      (Or.inr (by rw [hca]; exact hStar)) (by rw [hca, hStar]; decide)
      (by rw [hsa]; exact h2) (by rw [hB]; decide)
      (by rw [hca, hStar]; exact hpb)]
    rw [hca, hStar, if_neg (by decide), hem, Option.some_bind]
    rw [ParseInfixLoop_binary env _ PREC_ASSIGNMENT _ (n + 3) (n + 1) sm sc tC s4
      (Or.inl (by rw [hpm, hcb]; exact hPlus)) (by rw [hpm, hcb, hPlus]; decide)
      (by rw [hsm, hsb]; exact h4) (by rw [hC]; decide)
      (by rw [hpm, hcb, hPlus]; exact hpc)]
    rw [hpm, hcb, hPlus, if_pos rfl, hep, Option.some_bind]
    exact ParseInfixLoop_exit _ _ _ _ _ _ _ (by rw [hpp, hcc, hEnd]; decide)
  refine ⟨sp, ?_, ?_, by rw [hpp, hcc], by rw [hsp, hsc]⟩
  · unfold ParseExpression
    rw [ParsePrecedence_succ, hba, hloopa, Option.some_bind,
      Match_equal_none sp (by rw [hpp, hcc]; exact hEndQ)]
    rfl
  · have e : Emitted st sp _ _ := hea.trans (hem2.trans hep2)
    simpa using e

/-! ### Steps of the virtual machine -/

theorem setIP_Stack (vm : VM) (ip : Nat) : (vm.setIP ip).Stack = vm.Stack := by
  unfold VM.setIP; split <;> rfl

theorem setIP_Heap (vm : VM) (ip : Nat) : (vm.setIP ip).Heap = vm.Heap := by
  unfold VM.setIP; split <;> rfl

theorem setIP_stdout (vm : VM) (ip : Nat) : (vm.setIP ip).stdout = vm.stdout := by
  unfold VM.setIP; split <;> rfl

theorem setIP_stderr (vm : VM) (ip : Nat) : (vm.setIP ip).stderr = vm.stderr := by
  unfold VM.setIP; split <;> rfl

theorem setIP_Frames (vm : VM) (ip : Nat) (frame : CallFrame) (rest : List CallFrame)
    (h : vm.Frames = frame :: rest) :
    (vm.setIP ip).Frames = { frame with IP := ip } :: rest := by
  unfold VM.setIP; rw [h]

theorem setIP_setIP (vm : VM) (i j : Nat) : (vm.setIP i).setIP j = vm.setIP j := by
  obtain ⟨fr, st, g, s, i0, o, ob, hp, al, so, se⟩ := vm
  cases fr <;> rfl

theorem resume_resume (vm : VM) (i j : Nat) (s t : List Value) :
    (vm.resume i s).resume j t = vm.resume j t := by
  obtain ⟨fr, st, g, s0, i0, o, ob, hp, al, so, se⟩ := vm
  cases fr <;> rfl

theorem resume_own_Stack (vm : VM) (ip : Nat) : vm.resume ip vm.Stack = vm.setIP ip := by
  obtain ⟨fr, st, g, s0, i0, o, ob, hp, al, so, se⟩ := vm
  cases fr <;> rfl

theorem resume_Stack (vm : VM) (ip : Nat) (s : List Value) : (vm.resume ip s).Stack = s := rfl

theorem resume_stdout (vm : VM) (ip : Nat) (s : List Value) :
    (vm.resume ip s).stdout = vm.stdout := setIP_stdout vm ip

theorem resume_stderr (vm : VM) (ip : Nat) (s : List Value) :
    (vm.resume ip s).stderr = vm.stderr := setIP_stderr vm ip

theorem resume_Heap (vm : VM) (ip : Nat) (s : List Value) :
    (vm.resume ip s).Heap = vm.Heap := setIP_Heap vm ip

theorem resume_Frames (vm : VM) (ip : Nat) (s : List Value) (frame : CallFrame)
    (rest : List CallFrame) (h : vm.Frames = frame :: rest) :
    (vm.resume ip s).Frames = { frame with IP := ip } :: rest := setIP_Frames vm ip frame rest h

theorem frameFunction_congr (vm vm1 : VM) (frame frame1 : CallFrame) (rest rest1 : List CallFrame)
    (h : vm.Frames = frame :: rest) (h1 : vm1.Frames = frame1 :: rest1)
    (hc : frame1.Closure = frame.Closure) (hh : vm1.Heap = vm.Heap) :
    vm1.frameFunction = vm.frameFunction := by
  unfold VM.frameFunction
  rw [h, h1]
  dsimp only
  rw [hc, hh]

theorem Executing.resume {vm : VM} {f : ObjFunction} {ip : Nat} (h : Executing vm f ip)
    (ip1 : Nat) (s : List Value) : Executing (vm.resume ip1 s) f ip1 := by
  obtain ⟨frame, rest, hfr, _⟩ := h.frames
  refine ⟨⟨_, rest, resume_Frames vm ip1 s frame rest hfr, rfl⟩, ?_⟩
  rw [frameFunction_congr vm _ frame _ rest rest hfr (resume_Frames vm ip1 s frame rest hfr) rfl
    (resume_Heap vm ip1 s)]
  exact h.function

theorem resume_self (vm : VM) (f : ObjFunction) (ip : Nat) (h : Executing vm f ip) :
    vm.resume ip vm.Stack = vm := by
  obtain ⟨frame, rest, hfr, hip⟩ := h.frames
  obtain ⟨fr, st, g, s0, i0, o, ob, hp, al, so, se⟩ := vm
  simp only at hfr
  subst hfr
  subst hip
  rfl

/-- Macro `READ_BYTE()` at a position of the code. -/
theorem READ_BYTE_eq (vm : VM) (f : ObjFunction) (ip byte : Nat) (h : Executing vm f ip)
    (hb : f.Chunk.Code[ip]? = some byte) :
    READ_BYTE vm = some (byte, vm.resume (ip + 1) vm.Stack) := by
  obtain ⟨frame, rest, hfr, hip⟩ := h.frames
  unfold READ_BYTE
  simp only [Option.bind_eq_bind]
  rw [hfr, h.function]
  simp only [List.head?_cons, Option.some_bind]
  rw [hip, hb, Option.some_bind, resume_own_Stack]

theorem RunStep_OP_CONSTANT (env : VMEnv) (vm : VM) (f : ObjFunction) (ip : Nat)
    (h : Executing vm f ip) (hb : f.Chunk.Code[ip]? = some OpCode.OP_CONSTANT) :
    RunStep env vm = Run.OP_CONSTANT (vm.resume (ip + 1) vm.Stack) := by
  unfold RunStep
  rw [READ_BYTE_eq vm f ip _ h hb]
  rfl

theorem RunStep_OP_MULTIPLY (env : VMEnv) (vm : VM) (f : ObjFunction) (ip : Nat)
    (h : Executing vm f ip) (hb : f.Chunk.Code[ip]? = some OpCode.OP_MULTIPLY) :
    RunStep env vm = Run.OP_MULTIPLY env (vm.resume (ip + 1) vm.Stack) := by
  unfold RunStep
  rw [READ_BYTE_eq vm f ip _ h hb]
  rfl

theorem RunStep_OP_ADD (env : VMEnv) (vm : VM) (f : ObjFunction) (ip : Nat)
    (h : Executing vm f ip) (hb : f.Chunk.Code[ip]? = some OpCode.OP_ADD) :
    RunStep env vm = Run.OP_ADD env (vm.resume (ip + 1) vm.Stack) := by
  unfold RunStep
  rw [READ_BYTE_eq vm f ip _ h hb]
  rfl

theorem RunStep_OP_PRINT (env : VMEnv) (vm : VM) (f : ObjFunction) (ip : Nat)
    (h : Executing vm f ip) (hb : f.Chunk.Code[ip]? = some OpCode.OP_PRINT) :
    RunStep env vm = Run.OP_PRINT (vm.resume (ip + 1) vm.Stack) := by
  unfold RunStep
  rw [READ_BYTE_eq vm f ip _ h hb]
  rfl

theorem RunStep_OP_NIL (env : VMEnv) (vm : VM) (f : ObjFunction) (ip : Nat)
    (h : Executing vm f ip) (hb : f.Chunk.Code[ip]? = some OpCode.OP_NIL) :
    RunStep env vm = Run.OP_NIL (vm.resume (ip + 1) vm.Stack) := by
  unfold RunStep
  rw [READ_BYTE_eq vm f ip _ h hb]
  rfl

theorem RunStep_OP_RETURN (env : VMEnv) (vm : VM) (f : ObjFunction) (ip : Nat)
    (h : Executing vm f ip) (hb : f.Chunk.Code[ip]? = some OpCode.OP_RETURN) :
    RunStep env vm = Run.OP_RETURN (vm.resume (ip + 1) vm.Stack) := by
  unfold RunStep
  rw [READ_BYTE_eq vm f ip _ h hb]
  rfl

/-- Instruction `OP_CONSTANT k` pushes the constant `k`. -/
theorem step_OP_CONSTANT (env : VMEnv) (vm : VM) (f : ObjFunction) (ip k : Nat) (v : Value)
    (h : Executing vm f ip) (hb : f.Chunk.Code[ip]? = some OpCode.OP_CONSTANT)
    (hk : f.Chunk.Code[ip + 1]? = some k) (hv : f.Chunk.Constants[k]? = some v)
    (hs : vm.Stack.length < STACK_MAX) :
    RunStep env vm = some (Continue (vm.resume (ip + 2) (v :: vm.Stack))) := by
  rw [RunStep_OP_CONSTANT env vm f ip h hb]
  have h1 := h.resume (ip + 1) vm.Stack
  unfold Run.OP_CONSTANT READ_CONSTANT
  simp only [Option.bind_eq_bind]
  rw [READ_BYTE_eq _ f (ip + 1) k h1 hk, Option.some_bind, h1.function, Option.some_bind, hv,
    Option.some_bind, Option.some_bind, resume_resume]
  unfold Push
  rw [resume_Stack, resume_Stack, if_pos hs]
  rfl

theorem Pop_resume (vm : VM) (ip : Nat) (v : Value) (s : List Value) :
    Pop (vm.resume ip (v :: s)) = some (v, vm.resume ip s) := rfl

theorem Push_resume (vm : VM) (ip : Nat) (v : Value) (s : List Value)
    (h : s.length < STACK_MAX) :
    Push v (vm.resume ip s) = some (vm.resume ip (v :: s)) := by
  unfold Push
  rw [resume_Stack, if_pos h]
  rfl

theorem IS_OBJ_of_IS_NUMBER (v : Value) (h : IS_NUMBER v = true) : IS_OBJ v = false := by
  unfold IS_NUMBER at h
  unfold IS_OBJ
  rw [beq_eq_false_iff_ne]
  intro e
  have e2 : v &&& QNAN = QNAN := by
    have e3 : (v &&& (QNAN ||| SIGN_BIT)) &&& QNAN = v &&& QNAN := by
      rw [Nat.land_assoc]
      rfl
    rw [← e3, e]
    rfl
  simp [e2] at h

/-- Macro `BINARY_OP` on two numbers. -/
theorem BINARY_OP_numbers (op : Value → Value → Value) (vm : VM) (ip : Nat) (a b : Value)
    (rest : List Value) (ha : IS_NUMBER a = true) (hb : IS_NUMBER b = true)
    (hs : rest.length < STACK_MAX) :
    BINARY_OP op (vm.resume ip (b :: a :: rest)) =
      some (Continue (vm.resume ip (op a b :: rest))) := by
  unfold BINARY_OP Peek
  simp only [Option.bind_eq_bind, resume_Stack]
  simp only [List.getElem?_cons_zero, List.getElem?_cons_succ, Option.some_bind, ha, hb]
  simp only [Pop_resume, Option.some_bind, Push_resume _ _ _ _ hs]
  rfl

/-- Instruction `OP_MULTIPLY` on two numbers. -/
theorem step_OP_MULTIPLY (env : VMEnv) (vm : VM) (f : ObjFunction) (ip : Nat) (a b : Value)
    (rest : List Value) (h : Executing vm f ip)
    (hb : f.Chunk.Code[ip]? = some OpCode.OP_MULTIPLY) (hst : vm.Stack = b :: a :: rest)
    (hna : IS_NUMBER a = true) (hnb : IS_NUMBER b = true) (hs : rest.length < STACK_MAX) :
    RunStep env vm = some (Continue (vm.resume (ip + 1) (env.mul a b :: rest))) := by
  rw [RunStep_OP_MULTIPLY env vm f ip h hb, hst]
  exact BINARY_OP_numbers env.mul vm (ip + 1) a b rest hna hnb hs

/-- Instruction `OP_ADD` on two numbers. -/
theorem step_OP_ADD (env : VMEnv) (vm : VM) (f : ObjFunction) (ip : Nat) (a b : Value)
    (rest : List Value) (h : Executing vm f ip)
    (hb : f.Chunk.Code[ip]? = some OpCode.OP_ADD) (hst : vm.Stack = b :: a :: rest)
    (hna : IS_NUMBER a = true) (hnb : IS_NUMBER b = true) (hs : rest.length < STACK_MAX) :
    RunStep env vm = some (Continue (vm.resume (ip + 1) (env.add a b :: rest))) := by
  rw [RunStep_OP_ADD env vm f ip h hb, hst]
  unfold Run.OP_ADD Peek IsObjType
  simp only [Option.bind_eq_bind, resume_Stack]
  simp only [List.getElem?_cons_zero, List.getElem?_cons_succ, Option.some_bind,
    IS_OBJ_of_IS_NUMBER b hnb, hna, hnb]
  simp only [Pop_resume, Option.some_bind, Push_resume _ _ _ _ hs]
  rfl

/-- Instruction `OP_PRINT`. -/
theorem step_OP_PRINT (env : VMEnv) (vm : VM) (f : ObjFunction) (ip : Nat) (v : Value)
    (rest : List Value) (h : Executing vm f ip)
    (hb : f.Chunk.Code[ip]? = some OpCode.OP_PRINT) (hst : vm.Stack = v :: rest) :
    RunStep env vm = some (Continue
      { vm.resume (ip + 1) rest with stdout := vm.stdout ++ [v] }) := by
  rw [RunStep_OP_PRINT env vm f ip h hb, hst]
  unfold Run.OP_PRINT
  rw [Pop_resume]
  simp only [Option.map_some']
  rw [resume_stdout]

/-- Instruction `OP_NIL`. -/
theorem step_OP_NIL (env : VMEnv) (vm : VM) (f : ObjFunction) (ip : Nat)
    (h : Executing vm f ip) (hb : f.Chunk.Code[ip]? = some OpCode.OP_NIL)
    (hs : vm.Stack.length < STACK_MAX) :
    RunStep env vm = some (Continue (vm.resume (ip + 1) (NIL_VAL :: vm.Stack))) := by
  rw [RunStep_OP_NIL env vm f ip h hb]
  unfold Run.OP_NIL
  rw [Push_resume _ _ _ _ hs]
  rfl

theorem setIP_OpenUpValues (vm : VM) (ip : Nat) :
    (vm.setIP ip).OpenUpValues = vm.OpenUpValues := by
  unfold VM.setIP; split <;> rfl

theorem resume_OpenUpValues (vm : VM) (ip : Nat) (s : List Value) :
    (vm.resume ip s).OpenUpValues = vm.OpenUpValues := setIP_OpenUpValues vm ip

/-- Instruction `OP_RETURN` in the only frame, with no open upvalue: `Run`
returns `INTERPRET_OK`. -/
theorem step_OP_RETURN_script (env : VMEnv) (vm : VM) (f : ObjFunction) (ip : Nat)
    (frame : CallFrame) (result bottom : Value) (rest : List Value)
    (h : Executing vm f ip) (hb : f.Chunk.Code[ip]? = some OpCode.OP_RETURN)
    (hfr : vm.Frames = [frame]) (hst : vm.Stack = result :: bottom :: rest)
    (hopen : vm.OpenUpValues = none) :
    RunStep env vm = some (Return INTERPRET_OK { vm.resume (ip + 1) rest with Frames := [] }) := by
  rw [RunStep_OP_RETURN env vm f ip h hb, hst]
  unfold Run.OP_RETURN
  simp only [Option.bind_eq_bind, Pop_resume, Option.some_bind]
  rw [resume_Frames vm _ _ frame [] hfr]
  simp only [List.head?_cons, Option.some_bind]
  have hc : ∀ last, CloseUpValues last (vm.resume (ip + 1) (bottom :: rest)) =
      some (vm.resume (ip + 1) (bottom :: rest)) := by
    intro last
    unfold CloseUpValues CloseUpValuesLoop
    rw [resume_OpenUpValues, hopen]
  rw [hc, Option.some_bind]
  rw [resume_Frames vm _ _ frame [] hfr]
  rfl

theorem RunLoop_continue (env : VMEnv) (n : Nat) (vm vm1 : VM)
    (h : RunStep env vm = some (Continue vm1)) :
    RunLoop env (n + 1) vm = RunLoop env n vm1 := by
  conv_lhs => unfold RunLoop
  rw [h]

theorem RunLoop_return (env : VMEnv) (n : Nat) (vm vm1 : VM) (result : InterpretResult)
    (h : RunStep env vm = some (Return result vm1)) :
    RunLoop env (n + 1) vm = some (result, vm1) := by
  conv_lhs => unfold RunLoop
  rw [h]

theorem code_at (code l : List Nat) (ip n i : Nat) (h : (code.drop ip).take n = l)
    (hi : i < l.length) : code[ip + i]? = l[i]? := by
  subst h
  rw [List.getElem?_take_of_lt (by
    rw [List.length_take] at hi
    omega), List.getElem?_drop]

/-- The machine on the code of `a + b * c`: the product of `b` and `c` is
computed first, then the sum of `a` and the product. -/
theorem RunLoop_add_mul (env : VMEnv) (n : Nat) (vm : VM) (f : ObjFunction) (ip k : Nat)
    (a b c : Value) (h : Executing vm f ip)
    (hcode : (f.Chunk.Code.drop ip).take 8 =
      [OpCode.OP_CONSTANT, k, OpCode.OP_CONSTANT, k + 1, OpCode.OP_CONSTANT, k + 2,
        OpCode.OP_MULTIPLY, OpCode.OP_ADD])
    (ha : f.Chunk.Constants[k]? = some a) (hb : f.Chunk.Constants[k + 1]? = some b)
    (hc : f.Chunk.Constants[k + 2]? = some c)
    (hna : IS_NUMBER a = true) (hnb : IS_NUMBER b = true) (hnc : IS_NUMBER c = true)
    (hnm : IS_NUMBER (env.mul b c) = true) (hs : vm.Stack.length + 3 ≤ STACK_MAX) :
    RunLoop env (n + 4) vm =
      RunLoop env n (vm.resume (ip + 7) (env.mul b c :: a :: vm.Stack)) ∧
    RunLoop env (n + 5) vm =
      RunLoop env n (vm.resume (ip + 8) (env.add a (env.mul b c) :: vm.Stack)) := by
  have hat : ∀ i, i < 8 → f.Chunk.Code[ip + i]? =
      [OpCode.OP_CONSTANT, k, OpCode.OP_CONSTANT, k + 1, OpCode.OP_CONSTANT, k + 2,
        OpCode.OP_MULTIPLY, OpCode.OP_ADD][i]? :=
    fun i hi => code_at _ _ ip 8 i hcode hi
  have s1 := step_OP_CONSTANT env vm f ip k a h (hat 0 (by omega)) (hat 1 (by omega)) ha
    (by omega)
  have h1 := h.resume (ip + 2) (a :: vm.Stack)
  have s2 := step_OP_CONSTANT env _ f (ip + 2) (k + 1) b h1 (hat 2 (by omega))
    (hat 3 (by omega)) hb (by rw [resume_Stack]; simp; omega)
  rw [resume_resume, resume_Stack] at s2
  have h2 := h.resume (ip + 2 + 2) (b :: a :: vm.Stack)
  have s3 := step_OP_CONSTANT env _ f (ip + 2 + 2) (k + 2) c h2 (hat 4 (by omega))
    (hat 5 (by omega)) hc (by rw [resume_Stack]; simp; omega)
  rw [resume_resume, resume_Stack] at s3
  have h3 := h.resume (ip + 2 + 2 + 2) (c :: b :: a :: vm.Stack)
  have s4 := step_OP_MULTIPLY env _ f (ip + 2 + 2 + 2) b c (a :: vm.Stack) h3
    (hat 6 (by omega)) (resume_Stack _ _ _) hnb hnc (by simp; omega)
  rw [resume_resume] at s4
  have h4 := h.resume (ip + 2 + 2 + 2 + 1) (env.mul b c :: a :: vm.Stack)
  have s5 := step_OP_ADD env _ f (ip + 2 + 2 + 2 + 1) a (env.mul b c) vm.Stack h4
    (hat 7 (by omega)) (resume_Stack _ _ _) hna hnm (by omega)
  rw [resume_resume] at s5
  have r4 : RunLoop env (n + 4) vm =
      RunLoop env n (vm.resume (ip + 7) (env.mul b c :: a :: vm.Stack)) := by
    rw [RunLoop_continue env (n + 3) _ _ s1, RunLoop_continue env (n + 2) _ _ s2,
      RunLoop_continue env (n + 1) _ _ s3, RunLoop_continue env n _ _ s4]
  refine ⟨r4, ?_⟩
  rw [RunLoop_continue env (n + 4) _ _ s1, RunLoop_continue env (n + 3) _ _ s2,
    RunLoop_continue env (n + 2) _ _ s3, RunLoop_continue env (n + 1) _ _ s4,
    RunLoop_continue env n _ _ s5]

theorem InitVM_congr (env1 env2 : VMEnv) (h : env1.alloc = env2.alloc) :
    VM.InitVM env1 = VM.InitVM env2 := by
  unfold VM.InitVM DefineNativeFunction VM.CopyString AllocateObject
  simp only [h]

theorem InterpretStart_congr (env1 env2 : VMEnv) (h : env1.alloc = env2.alloc)
    (hs : env1.strtod = env2.strtod) (fuel : Nat) (vm : VM) (source : List Nat) :
    InterpretStart env1 fuel vm source = InterpretStart env2 fuel vm source := by
  unfold InterpretStart NewClosure AllocateObject
  simp only [h, hs]

theorem Interpret_of_start (env : VMEnv) (fuel : Nat) (vm vm5 : VM) (source : List Nat)
    (errors : List (Token × List Nat))
    (h : InterpretStart env fuel vm source = some (vm5, errors)) :
    Interpret env fuel vm source =
      (RunLoop env fuel vm5).map (fun r => (r.1, r.2, errors)) := by
  unfold InterpretStart at h
  unfold Interpret
  split at h
  · rename_i function st hc
    rw [hc]
    simp only [Option.bind_eq_bind] at h ⊢
    cases h1 : Push (OBJ_VAL function) (vm.afterCompile st) with
    | none => rw [h1] at h; cases h
    | some vm1 =>
      rw [h1, Option.some_bind] at h
      rw [Option.some_bind]
      cases h2 : NewClosure env function vm1 with
      | none => rw [h2] at h; cases h
      | some r2 =>
        rw [h2, Option.some_bind] at h
        rw [Option.some_bind]
        cases h3 : Pop r2.2 with
        | none => rw [h3] at h; cases h
        | some r3 =>
          rw [h3, Option.some_bind] at h
          rw [Option.some_bind]
          cases h4 : Push (OBJ_VAL r2.1) r3.2 with
          | none => rw [h4] at h; cases h
          | some vm4 =>
            rw [h4, Option.some_bind] at h
            rw [Option.some_bind]
            cases h5 : Call r2.1 0 vm4 with
            | none => rw [h5] at h; cases h
            | some r5 =>
              rw [h5, Option.some_bind] at h
              rw [Option.some_bind]
              simp only [Option.some.injEq, Prod.mk.injEq] at h
              obtain ⟨e1, e2⟩ := h
              subst e1 e2
              cases RunLoop env fuel r5.2 <;> rfl
  · cases h

/-- The machine at the entry of `Run` for `print 1 + 2 * 3;`. -/
theorem sample_start :
    ((VM.InitVM sampleVMEnv).bind (fun vm =>
      InterpretStart sampleVMEnv 30 vm (chars "print 1 + 2 * 3;"))).map
        (fun x => (x.1.Frames,
          x.1.frameFunction.map (fun f => (f.Chunk.Code, f.Chunk.Constants)),
          x.1.Stack, x.1.OpenUpValues, x.1.stdout, x.1.stderr, x.2.map Prod.snd)) =
      some ([⟨5032, 0, 0⟩],
        some ([OpCode.OP_CONSTANT, 0, OpCode.OP_CONSTANT, 1, OpCode.OP_CONSTANT, 2,
            OpCode.OP_MULTIPLY, OpCode.OP_ADD, OpCode.OP_PRINT, OpCode.OP_NIL, OpCode.OP_RETURN],
          [0x3ff0000000000000, 0x4000000000000000, 0x4008000000000000]),
        [OBJ_VAL 5032], none, [], [], []) := by
  rfl

theorem Executing.stdout {vm : VM} {f : ObjFunction} {ip : Nat} (h : Executing vm f ip)
    (out : List Value) : Executing { vm with stdout := out } f ip :=
  ⟨h.frames, h.function⟩

/-- The run of `print 1 + 2 * 3;`. -/
theorem sample_run (env : VMEnv) (ha : env.alloc = sampleVMEnv.alloc)
    (hs : env.strtod = sampleVMEnv.strtod)
    (hmul : env.mul 0x4000000000000000 0x4008000000000000 = 0x4018000000000000)
    (hadd : env.add 0x3ff0000000000000 0x4018000000000000 = 0x401c000000000000) :
    runSummary ((VM.InitVM env).bind (fun vm => Interpret env 30 vm (chars "print 1 + 2 * 3;"))) =
      some (INTERPRET_OK, [0x401c000000000000], [], []) := by
  rw [InitVM_congr env sampleVMEnv ha]
  have hst := sample_start
  cases h0 : VM.InitVM sampleVMEnv with
  | none => rw [h0] at hst; cases hst
  | some vm0 =>
    rw [h0, Option.some_bind] at hst
    rw [Option.some_bind]
    cases h5 : InterpretStart sampleVMEnv 30 vm0 (chars "print 1 + 2 * 3;") with
    | none => rw [h5] at hst; cases hst
    | some x =>
      obtain ⟨vm5, errors⟩ := x
      rw [h5] at hst
      simp only [Option.map_some', Option.some.injEq, Prod.mk.injEq] at hst
      obtain ⟨hfr, hf, hstack, hopen, hout, herr, herrors⟩ := hst
      cases hff : vm5.frameFunction with
      | none => rw [hff] at hf; cases hf
      | some f =>
        rw [hff] at hf
        simp only [Option.map_some', Option.some.injEq, Prod.mk.injEq] at hf
        obtain ⟨hcode, hconsts⟩ := hf
        rw [Interpret_of_start env 30 vm0 vm5 _ errors
          (by rw [InterpretStart_congr env sampleVMEnv ha hs]; exact h5)]
        have hex : Executing vm5 f 0 := ⟨⟨_, _, hfr, rfl⟩, hff⟩
        have r5 := (RunLoop_add_mul env 25 vm5 f 0 0 0x3ff0000000000000 0x4000000000000000
          0x4008000000000000 hex (by rw [hcode]; rfl) (by rw [hconsts]; rfl)
          (by rw [hconsts]; rfl) (by rw [hconsts]; rfl) (by decide) (by decide) (by decide)
          (by rw [hmul]; decide) (by rw [hstack]; decide)).2
        rw [r5, hmul, hadd, hstack]
        have e6 := step_OP_PRINT env _ f (0 + 8) 0x401c000000000000 [OBJ_VAL 5032]
          (hex.resume (0 + 8) (0x401c000000000000 :: [OBJ_VAL 5032])) (by rw [hcode]; rfl)
          (resume_Stack _ _ _)
        rw [resume_resume, resume_stdout, hout] at e6
        rw [RunLoop_continue env 24 _ _ e6]
        have e7 := step_OP_NIL env _ f (0 + 8 + 1)
          ((hex.resume (0 + 8 + 1) [OBJ_VAL 5032]).stdout ([] ++ [0x401c000000000000]))
          (by rw [hcode]; rfl) (by show [OBJ_VAL 5032].length < STACK_MAX; decide)
        rw [RunLoop_continue env 23 _ _ e7]
        have e8 := step_OP_RETURN_script env _ f (0 + 8 + 1 + 1) ⟨5032, 0 + 8 + 1 + 1, 0⟩
          NIL_VAL (OBJ_VAL 5032) []
          (((hex.resume (0 + 8 + 1) [OBJ_VAL 5032]).stdout ([] ++ [0x401c000000000000])).resume
            (0 + 8 + 1 + 1) [NIL_VAL, OBJ_VAL 5032])
          (by rw [hcode]; rfl)
          (by
            rw [resume_Frames _ _ _ ⟨5032, 0 + 8 + 1, 0⟩ []]
            show (vm5.resume (0 + 8 + 1) [OBJ_VAL 5032]).Frames = _
            rw [resume_Frames _ _ _ _ _ hfr])
          (resume_Stack _ _ _)
          (by
            rw [resume_OpenUpValues]
            show (vm5.resume (0 + 8 + 1) [OBJ_VAL 5032]).OpenUpValues = _
            rw [resume_OpenUpValues, hopen])
        erw [RunLoop_return env 22 _ _ _ e8]
        unfold runSummary
        simp only [Option.map_some', resume_resume]
        rw [resume_stdout, resume_stderr _ _ [], herrors]
        show some (INTERPRET_OK, [] ++ [0x401c000000000000],
          (vm5.resume (0 + 8 + 1) [OBJ_VAL 5032]).stderr, []) = _
        rw [resume_stderr, herr]
        rfl

/-! ### The loops over arguments and parameters -/

theorem set_append_left {α : Type} (pre l : List α) (i : Nat) (a : α) :
    (pre ++ l).set (pre.length + i) a = pre ++ l.set i a := by
  induction pre with
  | nil => simp
  | cons x xs ih =>
    simp only [List.cons_append, List.length_cons]
    rw [show xs.length + 1 + i = (xs.length + i) + 1 by omega, List.set_cons_succ, ih]

theorem patchedCode_append (pre mid : List Nat) (op x y j : Nat) :
    patchedCode (pre ++ ([op, x, y] ++ mid)) (pre.length + 1) j =
      pre ++ ([op, (j >>> 8) &&& 0xff, j &&& 0xff] ++ mid) := by
  unfold patchedCode
  rw [set_append_left, show pre.length + 1 + 1 = pre.length + 2 by omega, set_append_left]
  rfl

theorem short_bytes (j : Nat) (hj : j ≤ 65535) :
    (j >>> 8) &&& 0xff = j / 256 ∧ j &&& 0xff = j % 256 := by
  constructor
  · rw [Nat.shiftRight_eq_div_pow]
    have := Nat.and_pow_two_sub_one_eq_mod (j / 2 ^ 8) 8
    show j / 2 ^ 8 &&& 2 ^ 8 - 1 = _
    rw [this]
    omega
  · exact Nat.and_pow_two_sub_one_eq_mod j 8

theorem withChunk_constants (st : CompileState) (chunk : Chunk) (h : st.current ≠ []) :
    (st.withChunk chunk).constants = chunk.Constants := by
  unfold CompileState.constants; rw [withChunk_chunk st chunk h]

/-- Patching a jump of the code emitted since `st`: only the two operand bytes
change. -/
theorem PatchJump_emitted (st s : CompileState) (front mid : List Nat) (op x y : Nat)
    (consts : List Value) (he : Emitted st s (front ++ ([op, x, y] ++ mid)) consts)
    (hj : mid.length ≤ 65535) :
    ∃ s1, PatchJump (st.code.length + front.length + 1) s = some s1 ∧
      Emitted st s1 (front ++ ([op, mid.length / 256, mid.length % 256] ++ mid)) consts ∧
      s1.parser = s.parser ∧ s1.scanner = s.scanner := by
  have hlen : s.code.length = st.code.length + front.length + 3 + mid.length := by
    rw [he.code]; simp; omega
  have hp := PatchJump_eq (st.code.length + front.length + 1) s he.current (by omega)
  have hjump : s.code.length - (st.code.length + front.length + 1) - 2 = mid.length := by omega
  rw [hjump, if_neg (by omega)] at hp
  refine ⟨_, hp, ⟨withChunk_current_ne _ _ he.current, ?_, ?_, ?_, ?_, ?_, ?_⟩,
    withChunk_parserEq _ _, withChunk_scanner _ _⟩
  · rw [withChunk_code _ _ he.current]
    show patchedCode s.code _ _ = _
    rw [he.code, ← List.append_assoc st.code front,
      show st.code.length + front.length + 1 = (st.code ++ front).length + 1 by simp,
      patchedCode_append, (short_bytes _ hj).1, (short_bytes _ hj).2, List.append_assoc]
  · rw [withChunk_constants _ _ he.current]
    exact he.constants
  · rw [withChunk_stderr]; exact he.stderr
  · rw [withChunk_parserEq]; exact he.hadError
  · rw [withChunk_parserEq]; exact he.panicMode
  · rw [withChunk_scanner]; exact he.source

/-- The code of `L and R`, the code of `L` being in `st`. -/
theorem ParseAnd_emitted (pp : ParsePrecedenceFn) (canAssign : Bool) (st s3 : CompileState)
    (codeR : List Nat) (consts : List Value) (h : st.current ≠ [])
    (hpp : pp PREC_AND (st.emit [OpCode.OP_JUMP_IF_FALSE, 0xff, 0xff, OpCode.OP_POP]) = some s3)
    (he : Emitted (st.emit [OpCode.OP_JUMP_IF_FALSE, 0xff, 0xff, OpCode.OP_POP]) s3 codeR consts)
    (hj : codeR.length + 1 ≤ 65535) :
    ∃ st1, ParseAnd_ pp canAssign st = some st1 ∧
      Emitted st st1
        ([OpCode.OP_JUMP_IF_FALSE, (codeR.length + 1) / 256, (codeR.length + 1) % 256,
          OpCode.OP_POP] ++ codeR) consts ∧
      st1.parser = s3.parser ∧ st1.scanner = s3.scanner := by
  have e0 : Emitted st s3 ([] ++ ([OpCode.OP_JUMP_IF_FALSE, 0xff, 0xff] ++
      (OpCode.OP_POP :: codeR))) consts := by
    have := (Emitted.emit st [OpCode.OP_JUMP_IF_FALSE, 0xff, 0xff, OpCode.OP_POP] h).trans he
    simpa using this
  obtain ⟨s4, hp, e4, hpa, hsc⟩ := PatchJump_emitted st s3 [] (OpCode.OP_POP :: codeR)
    OpCode.OP_JUMP_IF_FALSE 0xff 0xff consts e0 (by simpa using hj)
  refine ⟨s4, ?_, by simpa using e4, hpa, hsc⟩
  unfold ParseAnd_
  simp only [Option.bind_eq_bind]
  rw [EmitJump_eq _ st h, Option.some_bind]
  dsimp only
  rw [EmitByte_eq _ _ (emit_current_ne st _ h), Option.some_bind, emit_emit st _ _ h]
  have hs : st.emit ([OpCode.OP_JUMP_IF_FALSE % 256, 255, 255] ++ [OpCode.OP_POP % 256]) =
      st.emit [OpCode.OP_JUMP_IF_FALSE, 0xff, 0xff, OpCode.OP_POP] := rfl
  rw [hs, hpp, Option.some_bind]
  simpa using hp

/-- The code of `L or R` up to the right operand, the code of `L` being in
`st`: the state in which `R` is compiled. -/
theorem ParseOr_start (st : CompileState) (h : st.current ≠ []) :
    ∃ s4, ((EmitJump OpCode.OP_JUMP_IF_FALSE st).bind (fun r1 =>
        (EmitJump OpCode.OP_JUMP r1.2).bind (fun r2 =>
          (PatchJump r1.1 r2.2).bind (fun s3 =>
            (EmitByte OpCode.OP_POP s3).map (fun s => (r2.1, s)))))) =
        some (st.code.length + 4, s4) ∧
      Emitted st s4 [OpCode.OP_JUMP_IF_FALSE, 0, 3, OpCode.OP_JUMP, 0xff, 0xff, OpCode.OP_POP] [] ∧
      s4.parser = st.parser ∧ s4.scanner = st.scanner := by
  have e1 := Emitted.emit st [OpCode.OP_JUMP_IF_FALSE, 0xff, 0xff] h
  have h1 := emit_current_ne st [OpCode.OP_JUMP_IF_FALSE, 0xff, 0xff] h
  have e2 := e1.trans (Emitted.emit _ [OpCode.OP_JUMP, 0xff, 0xff] h1)
  have e2b : Emitted st ((st.emit [OpCode.OP_JUMP_IF_FALSE, 0xff, 0xff]).emit
      [OpCode.OP_JUMP, 0xff, 0xff])
      ([] ++ ([OpCode.OP_JUMP_IF_FALSE, 0xff, 0xff] ++ [OpCode.OP_JUMP, 0xff, 0xff])) [] := by
    simpa using e2
  obtain ⟨s3, hp, e3, hpa, hsc⟩ := PatchJump_emitted st _ [] [OpCode.OP_JUMP, 0xff, 0xff]
    OpCode.OP_JUMP_IF_FALSE 0xff 0xff [] e2b (by decide)
  obtain ⟨s4, hb, e4, hpa4, hsc4⟩ := e3.emitByte OpCode.OP_POP (by decide)
  refine ⟨s4, ?_, by simpa using e4, ?_, ?_⟩
  · have hm1 : OpCode.OP_JUMP_IF_FALSE % 256 = OpCode.OP_JUMP_IF_FALSE := rfl
    have hm2 : OpCode.OP_JUMP % 256 = OpCode.OP_JUMP := rfl
    rw [EmitJump_eq _ st h, Option.some_bind]
    dsimp only
    rw [hm1, EmitJump_eq _ _ h1, Option.some_bind]
    dsimp only
    rw [hm2]
    have hp2 : PatchJump (st.code.length + 1)
        ((st.emit [OpCode.OP_JUMP_IF_FALSE, 255, 255]).emit
          [OpCode.OP_JUMP, 255, 255]) = some s3 := by
      simpa using hp
    rw [hp2, Option.some_bind, hb]
    simp only [Option.map_some', Option.some.injEq, Prod.mk.injEq, and_true]
    rw [emit_code st _ h]
    simp
  · rw [hpa4, hpa, emit_parserEq, emit_parserEq]
  · rw [hsc4, hsc, emit_scanner, emit_scanner]

/-- The code of `L or R`. -/
theorem ParseOr_emitted (pp : ParsePrecedenceFn) (canAssign : Bool) (st : CompileState)
    (h : st.current ≠ []) :
    ∃ s4, Emitted st s4
        [OpCode.OP_JUMP_IF_FALSE, 0, 3, OpCode.OP_JUMP, 0xff, 0xff, OpCode.OP_POP] [] ∧
      s4.parser = st.parser ∧ s4.scanner = st.scanner ∧
      ∀ (s5 : CompileState) (codeR : List Nat) (consts : List Value),
        pp PREC_OR s4 = some s5 → Emitted s4 s5 codeR consts → codeR.length + 1 ≤ 65535 →
        ∃ st1, ParseOr_ pp canAssign st = some st1 ∧
          Emitted st st1
            ([OpCode.OP_JUMP_IF_FALSE, 0, 3, OpCode.OP_JUMP, (codeR.length + 1) / 256,
              (codeR.length + 1) % 256, OpCode.OP_POP] ++ codeR) consts ∧
          st1.parser = s5.parser ∧ st1.scanner = s5.scanner := by
  obtain ⟨s4, hstart, e4, hpa, hsc⟩ := ParseOr_start st h
  refine ⟨s4, e4, hpa, hsc, fun s5 codeR consts hpp he hj => ?_⟩
  have e5 : Emitted st s5 ([OpCode.OP_JUMP_IF_FALSE, 0, 3] ++ ([OpCode.OP_JUMP, 0xff, 0xff] ++
      (OpCode.OP_POP :: codeR))) consts := by
    have := e4.trans he
    simpa using this
  obtain ⟨s6, hp, e6, hpa6, hsc6⟩ := PatchJump_emitted st s5 [OpCode.OP_JUMP_IF_FALSE, 0, 3]
    (OpCode.OP_POP :: codeR) OpCode.OP_JUMP 0xff 0xff consts e5 (by simpa using hj)
  refine ⟨s6, ?_, by simpa using e6, hpa6, hsc6⟩
  unfold ParseOr_
  simp only [Option.bind_eq_bind]
  simp only [Option.bind_eq_some, Option.map_eq_some'] at hstart
  obtain ⟨r1, hr1, r2, hr2, s3, hs3, s4b, hs4, heq⟩ := hstart
  rw [hr1, Option.some_bind]
  rw [hr2, Option.some_bind]
  rw [hs3, Option.some_bind, hs4, Option.some_bind]
  simp only [Prod.mk.injEq] at heq
  obtain ⟨hr, hs⟩ := heq
  subst hs
  rw [hpp, Option.some_bind, hr]
  simpa using hp

/-! ### Jumps in the virtual machine -/

theorem RunStep_OP_JUMP_IF_FALSE (env : VMEnv) (vm : VM) (f : ObjFunction) (ip : Nat)
    (h : Executing vm f ip) (hb : f.Chunk.Code[ip]? = some OpCode.OP_JUMP_IF_FALSE) :
    RunStep env vm = Run.OP_JUMP_IF_FALSE (vm.resume (ip + 1) vm.Stack) := by
  unfold RunStep
  rw [READ_BYTE_eq vm f ip _ h hb]
  rfl

theorem RunStep_OP_JUMP (env : VMEnv) (vm : VM) (f : ObjFunction) (ip : Nat)
    (h : Executing vm f ip) (hb : f.Chunk.Code[ip]? = some OpCode.OP_JUMP) :
    RunStep env vm = Run.OP_JUMP (vm.resume (ip + 1) vm.Stack) := by
  unfold RunStep
  rw [READ_BYTE_eq vm f ip _ h hb]
  rfl

theorem RunStep_OP_POP (env : VMEnv) (vm : VM) (f : ObjFunction) (ip : Nat)
    (h : Executing vm f ip) (hb : f.Chunk.Code[ip]? = some OpCode.OP_POP) :
    RunStep env vm = Run.OP_POP (vm.resume (ip + 1) vm.Stack) := by
  unfold RunStep
  rw [READ_BYTE_eq vm f ip _ h hb]
  rfl

theorem READ_SHORT_bytes (code : List Nat) (ip j : Nat) (hj : j ≤ 65535)
    (h1 : code[ip]? = some (j / 256)) (h2 : code[ip + 1]? = some (j % 256)) :
    READ_SHORT code ip = some (ip + 2, j) := by
  unfold READ_SHORT
  rw [h1, h2]
  simp only [Option.some.injEq, Prod.mk.injEq, true_and]
  rw [← (short_bytes j hj).1, ← (short_bytes j hj).2]
  exact bytes_of_short j hj

/-- Instruction `OP_JUMP_IF_FALSE` with the operand `j`: the value on top of the
stack stays. -/
theorem step_OP_JUMP_IF_FALSE (env : VMEnv) (vm : VM) (f : ObjFunction) (ip j : Nat)
    (v : Value) (rest : List Value) (h : Executing vm f ip) (hj : j ≤ 65535)
    (hb : f.Chunk.Code[ip]? = some OpCode.OP_JUMP_IF_FALSE)
    (h1 : f.Chunk.Code[ip + 1]? = some (j / 256)) (h2 : f.Chunk.Code[ip + 2]? = some (j % 256))
    (hst : vm.Stack = v :: rest) :
    RunStep env vm = some (Continue
      (vm.resume (if IsFalsey v then ip + 3 + j else ip + 3) (v :: rest))) := by
  rw [RunStep_OP_JUMP_IF_FALSE env vm f ip h hb, hst]
  have hx := h.resume (ip + 1) (v :: rest)
  obtain ⟨frame, fs, hfr, hip⟩ := hx.frames
  unfold Run.OP_JUMP_IF_FALSE CLox.OP_JUMP_IF_FALSE
  simp only [Option.bind_eq_bind]
  rw [hfr, hx.function]
  simp only [List.head?_cons, Option.some_bind]
  rw [hip, READ_SHORT_bytes _ (ip + 1) j hj h1 h2, resume_Stack]
  simp only [Option.map_some']
  have e : ∀ p, (vm.resume (ip + 1) (v :: rest)).setIP p = vm.resume p (v :: rest) := by
    intro p
    rw [← resume_own_Stack, resume_resume, resume_Stack]
  rw [e]

/-- Instruction `OP_JUMP` with the operand `j`. -/
theorem step_OP_JUMP (env : VMEnv) (vm : VM) (f : ObjFunction) (ip j : Nat)
    (h : Executing vm f ip) (hj : j ≤ 65535)
    (hb : f.Chunk.Code[ip]? = some OpCode.OP_JUMP)
    (h1 : f.Chunk.Code[ip + 1]? = some (j / 256)) (h2 : f.Chunk.Code[ip + 2]? = some (j % 256)) :
    RunStep env vm = some (Continue (vm.resume (ip + 3 + j) vm.Stack)) := by
  rw [RunStep_OP_JUMP env vm f ip h hb]
  have hx := h.resume (ip + 1) vm.Stack
  obtain ⟨frame, fs, hfr, hip⟩ := hx.frames
  unfold Run.OP_JUMP CLox.OP_JUMP
  simp only [Option.bind_eq_bind]
  rw [hfr, hx.function]
  simp only [List.head?_cons, Option.some_bind]
  rw [hip, READ_SHORT_bytes _ (ip + 1) j hj h1 h2]
  simp only [Option.map_some']
  rw [← resume_own_Stack, resume_resume, resume_Stack, show ip + 1 + 2 + j = ip + 3 + j by omega]

/-- Instruction `OP_POP`. -/
theorem step_OP_POP (env : VMEnv) (vm : VM) (f : ObjFunction) (ip : Nat) (v : Value)
    (rest : List Value) (h : Executing vm f ip)
    (hb : f.Chunk.Code[ip]? = some OpCode.OP_POP) (hst : vm.Stack = v :: rest) :
    RunStep env vm = some (Continue (vm.resume (ip + 1) rest)) := by
  rw [RunStep_OP_POP env vm f ip h hb, hst]
  unfold Run.OP_POP
  rw [Pop_resume]
  rfl


/-! ## Claims C11, C12: the scanner -/

/-- Claim C11 (keyword recognition): for every identifier-shaped lexeme `w`
(a letter or underscore followed by letters, digits and underscores, not
followed by another such character) standing after the skipped white space,
`ScanToken` returns a token that spans exactly `w`; its type is the keyword
type `K` if and only if `w` is exactly the spelling of `K`, for each of the
sixteen reserved words, and it is `TOKEN_IDENTIFIER` for every other lexeme. -/
theorem C11_keyword_recognition (sc0 sc1 : Scanner) (w rest : List Nat)
    (hskip : sc0.SkipWhiteSpace = some sc1)
    (hd : sc1.Source.drop sc1.Current = w ++ rest) (hw : w ≠ [])
    (h0 : IsAlpha (w.headD 0) = true) (hall : ∀ c ∈ w, IsIdentChar c = true)
    (hrest : IsIdentChar (rest.headD 0) = false) :
    ∃ tok sc2, ScanToken sc0 = some (tok, sc2) ∧
      tok.Start = CharPtr.src sc1.Current ∧ tok.Length = w.length ∧
      sc2.Current = sc1.Current + w.length ∧
      (∀ p ∈ keywords, tok.Type_ = p.2 ↔ w = p.1) ∧
      ((∀ p ∈ keywords, w ≠ p.1) → tok.Type_ = TOKEN_IDENTIFIER) := by
  refine ⟨_, _, ScanToken_identifier sc0 sc1 w rest hskip hd hw h0 hall hrest,
    rfl, rfl, rfl, ?_, ?_⟩
  · intro p hp
    show keywordType w = p.2 ↔ w = p.1
    constructor
    · intro h
      rcases keywordType_cases w with hm | ⟨_, hid⟩
      · rw [h] at hm
        have huniq : ∀ q ∈ keywords, ∀ r ∈ keywords, q.2 = r.2 → q.1 = r.1 := by decide
        exact huniq (w, p.2) hm p hp rfl
      · rw [hid] at h
        have hne : ∀ q ∈ keywords, q.2 ≠ TOKEN_IDENTIFIER := by decide
        exact absurd h.symm (hne p hp)
    · intro h
      rw [h]
      exact keywordType_of_mem p hp
  · intro hnot
    show keywordType w = TOKEN_IDENTIFIER
    rcases keywordType_cases w with hm | ⟨_, hid⟩
    · exact absurd rfl (hnot _ hm)
    · exact hid

/-- Witness for C11: in `  // c` newline `fort+1` the lexeme `fort` is an identifier. -/
theorem C11_keyword_recognition_witness :
    ∃ tok sc2, ScanToken (InitScanner (chars "  // c\nfort+1")) = some (tok, sc2) ∧
      tok.Start = CharPtr.src 7 ∧ tok.Length = (chars "fort").length ∧
      sc2.Current = 7 + (chars "fort").length ∧
      (∀ p ∈ keywords, tok.Type_ = p.2 ↔ chars "fort" = p.1) ∧
      ((∀ p ∈ keywords, chars "fort" ≠ p.1) → tok.Type_ = TOKEN_IDENTIFIER) :=
  C11_keyword_recognition (InitScanner (chars "  // c\nfort+1"))
    ⟨chars "  // c\nfort+1", 0, 7, 2⟩ (chars "fort") (chars "+1")
    (by decide) (by decide) (by decide) (by decide) (by decide) (by decide)

/-- Claim C12 (number lexeme shape): when the next character after the skipped
white space is a digit, `ScanToken` returns a `TOKEN_NUMBER` token whose
lexeme is the longest prefix of the remaining text of the form `digit+` or
`digit+ . digit+`; it holds only digits and at most that one dot, so no sign
and no exponent.  In particular `12.` scans as the number `12` and a dot, and
`1.5.3` as the number `1.5`, a dot and the number `3`. -/
theorem C12_number_lexeme (sc0 sc1 : Scanner) (hskip : sc0.SkipWhiteSpace = some sc1)
    (h0 : IsDigit ((sc1.Source.drop sc1.Current).headD 0) = true) :
    (∃ tok sc2, ScanToken sc0 = some (tok, sc2) ∧ tok.Type_ = TOKEN_NUMBER ∧
      tok.Start = CharPtr.src sc1.Current ∧ sc2.Current = sc1.Current + tok.Length ∧
      tok.Length ≤ (sc1.Source.drop sc1.Current).length ∧
      IsNumberForm ((sc1.Source.drop sc1.Current).take tok.Length) ∧
      (∀ n, n ≤ (sc1.Source.drop sc1.Current).length →
        IsNumberForm ((sc1.Source.drop sc1.Current).take n) → n ≤ tok.Length) ∧
      (∀ c ∈ (sc1.Source.drop sc1.Current).take tok.Length, IsDigit c = true ∨ c = 46)) ∧
    scanAll 4 (InitScanner (chars "12.")) =
      [(TOKEN_NUMBER, CharPtr.src 0, 2), (TOKEN_DOT, CharPtr.src 2, 1),
       (TOKEN_EOF, CharPtr.src 3, 0)] ∧
    scanAll 5 (InitScanner (chars "1.5.3")) =
      [(TOKEN_NUMBER, CharPtr.src 0, 3), (TOKEN_DOT, CharPtr.src 3, 1),
       (TOKEN_NUMBER, CharPtr.src 4, 1), (TOKEN_EOF, CharPtr.src 5, 0)] := by
  refine ⟨⟨_, _, ScanToken_number sc0 sc1 hskip h0, rfl, rfl, rfl,
    (numberLength_form _ h0).1, (numberLength_form _ h0).2,
    fun n hn hf => numberLength_maximal _ n hn hf,
    numberForm_chars _ (numberLength_form _ h0).2⟩, by decide, by decide⟩

/-- Witness for C12: after a blank and a comment line, `12.5e3-1` yields the
number token `12.5`. -/
theorem C12_number_lexeme_witness :
    (∃ tok sc2, ScanToken (InitScanner (chars " //c\n12.5e3-1")) = some (tok, sc2) ∧
      tok.Type_ = TOKEN_NUMBER ∧
      tok.Start = CharPtr.src 5 ∧ sc2.Current = 5 + tok.Length ∧
      tok.Length ≤ ((chars " //c\n12.5e3-1").drop 5).length ∧
      IsNumberForm (((chars " //c\n12.5e3-1").drop 5).take tok.Length) ∧
      (∀ n, n ≤ ((chars " //c\n12.5e3-1").drop 5).length →
        IsNumberForm (((chars " //c\n12.5e3-1").drop 5).take n) → n ≤ tok.Length) ∧
      (∀ c ∈ ((chars " //c\n12.5e3-1").drop 5).take tok.Length, IsDigit c = true ∨ c = 46)) ∧
    scanAll 4 (InitScanner (chars "12.")) =
      [(TOKEN_NUMBER, CharPtr.src 0, 2), (TOKEN_DOT, CharPtr.src 2, 1),
       (TOKEN_EOF, CharPtr.src 3, 0)] ∧
    scanAll 5 (InitScanner (chars "1.5.3")) =
      [(TOKEN_NUMBER, CharPtr.src 0, 3), (TOKEN_DOT, CharPtr.src 3, 1),
       (TOKEN_NUMBER, CharPtr.src 4, 1), (TOKEN_EOF, CharPtr.src 5, 0)] :=
  C12_number_lexeme (InitScanner (chars " //c\n12.5e3-1"))
    ⟨chars " //c\n12.5e3-1", 0, 5, 2⟩ (by decide) (by decide)

/-! ## Claims C13 to C15 and C17 to C19: the compiler -/

/-- Claim C13 (operator precedence in the emitted code): an infix handler
compiles its right operand at the precedence of its operator plus one, so the
three number literals `a`, `b`, `c` with `+` then `*` between them, followed by
a token that continues no expression, compile to `CONSTANT a, CONSTANT b,
CONSTANT c, OP_MULTIPLY, OP_ADD`, and with `*` then `+` to `CONSTANT a,
CONSTANT b, OP_MULTIPLY, CONSTANT c, OP_ADD`, whenever the fuel is at least 3
and the constant pool has room.  The machine runs the first code by computing
the product of `b` and `c` first and then the sum of `a` and the product;
`print 1 + 2 * 3;` compiles to that code followed by `OP_PRINT`, and
`Interpret` prints the double 7 and returns `INTERPRET_OK`, the arithmetic on
doubles giving 2 * 3 = 6 and 1 + 6 = 7. -/
theorem C13_operator_precedence (env : CompileEnv) (n : Nat) (st : CompileState)
    (tOp1 tB tOp2 tC tEnd : Token) (s1 s2 s3 s4 s5 : Scanner)
    (h : st.current ≠ []) (hk : st.constants.length + 2 ≤ 255)
    (hA : st.parser.Current.Type_ = TOKEN_NUMBER)
    (h1 : ScanToken st.scanner = some (tOp1, s1))
    (h2 : ScanToken s1 = some (tB, s2)) (hB : tB.Type_ = TOKEN_NUMBER)
    (h3 : ScanToken s2 = some (tOp2, s3))
    (h4 : ScanToken s3 = some (tC, s4)) (hC : tC.Type_ = TOKEN_NUMBER)
    (h5 : ScanToken s4 = some (tEnd, s5))
    (hEnd : (GetRule tEnd.Type_).Precedence = PREC_NONE)
    (hEndE : tEnd.Type_ ≠ TOKEN_ERROR) (hEndQ : tEnd.Type_ ≠ TOKEN_EQUAL) :
    (tOp1.Type_ = TOKEN_PLUS → tOp2.Type_ = TOKEN_STAR →
      ∃ st1, ParseExpression env (n + 3) st = some st1 ∧
        Emitted st st1
          [OpCode.OP_CONSTANT, st.constants.length, OpCode.OP_CONSTANT, st.constants.length + 1,
            OpCode.OP_CONSTANT, st.constants.length + 2, OpCode.OP_MULTIPLY, OpCode.OP_ADD]
          [env.strtod (st.parser.Current.Start.read st.scanner.Source),
            env.strtod (tB.Start.read st.scanner.Source),
            env.strtod (tC.Start.read st.scanner.Source)] ∧
        st1.parser.Current = tEnd ∧ st1.scanner = s5) ∧
    (tOp1.Type_ = TOKEN_STAR → tOp2.Type_ = TOKEN_PLUS →
      ∃ st1, ParseExpression env (n + 3) st = some st1 ∧
        Emitted st st1
          [OpCode.OP_CONSTANT, st.constants.length, OpCode.OP_CONSTANT, st.constants.length + 1,
            OpCode.OP_MULTIPLY, OpCode.OP_CONSTANT, st.constants.length + 2, OpCode.OP_ADD]
          [env.strtod (st.parser.Current.Start.read st.scanner.Source),
            env.strtod (tB.Start.read st.scanner.Source),
            env.strtod (tC.Start.read st.scanner.Source)] ∧
        st1.parser.Current = tEnd ∧ st1.scanner = s5) ∧
    (∀ (pp : ParsePrecedenceFn) (canAssign : Bool) (s : CompileState),
      (s.parser.Previous.Type_ = TOKEN_PLUS →
        ParseBinaryExpression pp canAssign s =
          (pp (PREC_TERM + 1) s).bind (EmitByte OpCode.OP_ADD)) ∧
      (s.parser.Previous.Type_ = TOKEN_STAR →
        ParseBinaryExpression pp canAssign s =
          (pp (PREC_FACTOR + 1) s).bind (EmitByte OpCode.OP_MULTIPLY))) ∧
    (∀ (venv : VMEnv) (m : Nat) (vm : VM) (f : ObjFunction) (ip k : Nat) (a b c : Value),
      Executing vm f ip →
      (f.Chunk.Code.drop ip).take 8 =
        [OpCode.OP_CONSTANT, k, OpCode.OP_CONSTANT, k + 1, OpCode.OP_CONSTANT, k + 2,
          OpCode.OP_MULTIPLY, OpCode.OP_ADD] →
      f.Chunk.Constants[k]? = some a → f.Chunk.Constants[k + 1]? = some b →
      f.Chunk.Constants[k + 2]? = some c →
      IS_NUMBER a = true → IS_NUMBER b = true → IS_NUMBER c = true →
      IS_NUMBER (venv.mul b c) = true → vm.Stack.length + 3 ≤ STACK_MAX →
      RunLoop venv (m + 4) vm =
        RunLoop venv m (vm.resume (ip + 7) (venv.mul b c :: a :: vm.Stack)) ∧
      RunLoop venv (m + 5) vm =
        RunLoop venv m (vm.resume (ip + 8) (venv.add a (venv.mul b c) :: vm.Stack))) ∧
    compileSummary (Compile sampleEnv 10 sampleVM (chars "print 1 + 2 * 3;")) =
      some (some 5000, [],
        [OpCode.OP_CONSTANT, 0, OpCode.OP_CONSTANT, 1, OpCode.OP_CONSTANT, 2,
          OpCode.OP_MULTIPLY, OpCode.OP_ADD, OpCode.OP_PRINT, OpCode.OP_NIL,
          OpCode.OP_RETURN]) ∧
    (∀ venv : VMEnv, venv.alloc = sampleVMEnv.alloc → venv.strtod = sampleVMEnv.strtod →
      venv.mul 0x4000000000000000 0x4008000000000000 = 0x4018000000000000 →
      venv.add 0x3ff0000000000000 0x4018000000000000 = 0x401c000000000000 →
      runSummary ((VM.InitVM venv).bind (fun vm =>
        Interpret venv 30 vm (chars "print 1 + 2 * 3;"))) =
        some (INTERPRET_OK, [0x401c000000000000], [], [])) := by
  refine ⟨fun hp hs => ?_, fun hs hp => ?_, fun pp canAssign s => ⟨fun hp => ?_, fun hs => ?_⟩,
    ?_, by decide, sample_run⟩
  · exact ParseExpression_add_mul env n st tOp1 tB tOp2 tC tEnd s1 s2 s3 s4 s5 h hk hA h1 hp
      h2 hB h3 hs h4 hC h5 hEnd hEndE hEndQ
  · exact ParseExpression_mul_add env n st tOp1 tB tOp2 tC tEnd s1 s2 s3 s4 s5 h hk hA h1 hs
      h2 hB h3 hp h4 hC h5 hEnd hEndE hEndQ
  · exact ParseBinaryExpression_plus pp canAssign s hp
  · exact ParseBinaryExpression_star pp canAssign s hs
  · intro venv m vm f ip k a b c hex hcode ha hb hc hna hnb hnc hnm hst
    exact RunLoop_add_mul venv m vm f ip k a b c hex hcode ha hb hc hna hnb hnc hnm hst

/-- Witness for C13: the expression `1 + 2 * 3` before `;`, and the run of
`print 1 + 2 * 3;` in the sample environment. -/
theorem C13_operator_precedence_witness :
    (∃ st1, ParseExpression sampleEnv 3 (expressionStart (chars "1 + 2 * 3;")) = some st1 ∧
      Emitted (expressionStart (chars "1 + 2 * 3;")) st1
        [OpCode.OP_CONSTANT, 0, OpCode.OP_CONSTANT, 1, OpCode.OP_CONSTANT, 2,
          OpCode.OP_MULTIPLY, OpCode.OP_ADD]
        [0x3ff0000000000000, 0x4000000000000000, 0x4008000000000000] ∧
      st1.parser.Current = ⟨TOKEN_SEMICOLON, CharPtr.src 9, 1, 1⟩ ∧
      st1.scanner = ⟨chars "1 + 2 * 3;", 9, 10, 1⟩) ∧
    runSummary ((VM.InitVM sampleVMEnv).bind (fun vm =>
      Interpret sampleVMEnv 30 vm (chars "print 1 + 2 * 3;"))) =
      some (INTERPRET_OK, [0x401c000000000000], [], []) :=
  have c := C13_operator_precedence sampleEnv 0 (expressionStart (chars "1 + 2 * 3;"))
    ⟨TOKEN_PLUS, CharPtr.src 2, 1, 1⟩ ⟨TOKEN_NUMBER, CharPtr.src 4, 1, 1⟩
    ⟨TOKEN_STAR, CharPtr.src 6, 1, 1⟩ ⟨TOKEN_NUMBER, CharPtr.src 8, 1, 1⟩
    ⟨TOKEN_SEMICOLON, CharPtr.src 9, 1, 1⟩
    ⟨chars "1 + 2 * 3;", 2, 3, 1⟩ ⟨chars "1 + 2 * 3;", 4, 5, 1⟩ ⟨chars "1 + 2 * 3;", 6, 7, 1⟩
    ⟨chars "1 + 2 * 3;", 8, 9, 1⟩ ⟨chars "1 + 2 * 3;", 9, 10, 1⟩
    (fun e => absurd (congrArg List.isEmpty e) (by decide)) (by decide) (by decide)
    (by decide) (by decide) (by decide) (by decide) (by decide) (by decide) (by decide)
    (by decide) (by decide) (by decide)
  ⟨c.1 rfl rfl, c.2.2.2.2.2 sampleVMEnv rfl rfl (by decide) (by decide)⟩

/-- Claim C19 (short circuit).  With the code of `L` written, `ParseAnd_`
appends `OP_JUMP_IF_FALSE` with the operand `len(code(R)) + 1` (high byte
first), `OP_POP` and `code(R)`, and `ParseOr_` appends `OP_JUMP_IF_FALSE` with
the operand 3, `OP_JUMP` with the operand `len(code(R)) + 1`, `OP_POP` and
`code(R)`, `code(R)` being what the compilation of the right operand appends
(at most 65534 bytes).  On this code, the value `v` of `L` on top of the stack:
under `and` a falsey `v` takes the machine in one step to the instruction after
`code(R)` with the stack unchanged, and a truthy `v` takes it in two steps to
the first instruction of `code(R)` with `v` popped; under `or` a truthy `v`
takes it in two steps to the instruction after `code(R)` with the stack
unchanged, and a falsey `v` in two steps to the first instruction of `code(R)`
with `v` popped.  So `false and f()` and `true or f()` never call `f`. -/
theorem C19_short_circuit (pp : ParsePrecedenceFn) (canAssign : Bool) (st : CompileState)
    (h : st.current ≠ []) :
    (∀ (s3 : CompileState) (codeR : List Nat) (consts : List Value),
      pp PREC_AND (st.emit [OpCode.OP_JUMP_IF_FALSE, 0xff, 0xff, OpCode.OP_POP]) = some s3 →
      Emitted (st.emit [OpCode.OP_JUMP_IF_FALSE, 0xff, 0xff, OpCode.OP_POP]) s3 codeR consts →
      codeR.length + 1 ≤ 65535 →
      ∃ st1, ParseAnd_ pp canAssign st = some st1 ∧
        Emitted st st1
          ([OpCode.OP_JUMP_IF_FALSE, (codeR.length + 1) / 256, (codeR.length + 1) % 256,
            OpCode.OP_POP] ++ codeR) consts ∧
        st1.parser = s3.parser ∧ st1.scanner = s3.scanner) ∧
    (∃ s4, Emitted st s4
        [OpCode.OP_JUMP_IF_FALSE, 0, 3, OpCode.OP_JUMP, 0xff, 0xff, OpCode.OP_POP] [] ∧
      s4.parser = st.parser ∧ s4.scanner = st.scanner ∧
      ∀ (s5 : CompileState) (codeR : List Nat) (consts : List Value),
        pp PREC_OR s4 = some s5 → Emitted s4 s5 codeR consts → codeR.length + 1 ≤ 65535 →
        ∃ st1, ParseOr_ pp canAssign st = some st1 ∧
          Emitted st st1
            ([OpCode.OP_JUMP_IF_FALSE, 0, 3, OpCode.OP_JUMP, (codeR.length + 1) / 256,
              (codeR.length + 1) % 256, OpCode.OP_POP] ++ codeR) consts ∧
          st1.parser = s5.parser ∧ st1.scanner = s5.scanner) ∧
    (∀ (venv : VMEnv) (m : Nat) (vm : VM) (f : ObjFunction) (ip n : Nat) (v : Value)
        (rest : List Value),
      Executing vm f ip → n + 1 ≤ 65535 →
      (f.Chunk.Code.drop ip).take 4 =
        [OpCode.OP_JUMP_IF_FALSE, (n + 1) / 256, (n + 1) % 256, OpCode.OP_POP] →
      vm.Stack = v :: rest →
      (IsFalsey v = true →
        RunStep venv vm = some (Continue (vm.resume (ip + 4 + n) (v :: rest))) ∧
        RunLoop venv (m + 1) vm = RunLoop venv m (vm.resume (ip + 4 + n) (v :: rest))) ∧
      (IsFalsey v = false →
        RunLoop venv (m + 2) vm = RunLoop venv m (vm.resume (ip + 4) rest))) ∧
    (∀ (venv : VMEnv) (m : Nat) (vm : VM) (f : ObjFunction) (ip n : Nat) (v : Value)
        (rest : List Value),
      Executing vm f ip → n + 1 ≤ 65535 →
      (f.Chunk.Code.drop ip).take 7 =
        [OpCode.OP_JUMP_IF_FALSE, 0, 3, OpCode.OP_JUMP, (n + 1) / 256, (n + 1) % 256,
          OpCode.OP_POP] →
      vm.Stack = v :: rest →
      (IsFalsey v = false →
        RunLoop venv (m + 2) vm = RunLoop venv m (vm.resume (ip + 7 + n) (v :: rest))) ∧
      (IsFalsey v = true →
        RunLoop venv (m + 2) vm = RunLoop venv m (vm.resume (ip + 7) rest))) ∧
    compileSummary (Compile sampleEnv 10 sampleVM (chars "a and b;")) =
      some (some 5000, [],
        [OpCode.OP_GET_GLOBAL, 0, OpCode.OP_JUMP_IF_FALSE, 0, 3, OpCode.OP_POP,
          OpCode.OP_GET_GLOBAL, 1, OpCode.OP_POP, OpCode.OP_NIL, OpCode.OP_RETURN]) ∧
    compileSummary (Compile sampleEnv 10 sampleVM (chars "a or b;")) =
      some (some 5000, [],
        [OpCode.OP_GET_GLOBAL, 0, OpCode.OP_JUMP_IF_FALSE, 0, 3, OpCode.OP_JUMP, 0, 3,
          OpCode.OP_POP, OpCode.OP_GET_GLOBAL, 1, OpCode.OP_POP, OpCode.OP_NIL,
          OpCode.OP_RETURN]) ∧
    runSummary ((VM.InitVM sampleVMEnv).bind (fun vm => Interpret sampleVMEnv 60 vm
      (chars "fun f() \x7b print 3; \x7d print false and f(); print true or f(); print nil or f();"))) =
      some (INTERPRET_OK, [FALSE_VAL, TRUE_VAL, 0x4008000000000000, NIL_VAL], [], []) := by
  refine ⟨fun s3 codeR consts hpp he hj => ParseAnd_emitted pp canAssign st s3 codeR consts h hpp
    he hj, ParseOr_emitted pp canAssign st h, ?_, ?_, by decide, by decide, by rfl⟩
  · intro venv m vm f ip n v rest hex hn hcode hst
    have hat : ∀ i, i < 4 → f.Chunk.Code[ip + i]? =
        [OpCode.OP_JUMP_IF_FALSE, (n + 1) / 256, (n + 1) % 256, OpCode.OP_POP][i]? :=
      fun i hi => code_at _ _ ip 4 i hcode hi
    have s1 := step_OP_JUMP_IF_FALSE venv vm f ip (n + 1) v rest hex hn (hat 0 (by omega))
      (hat 1 (by omega)) (hat 2 (by omega)) hst
    refine ⟨fun hv => ?_, fun hv => ?_⟩
    · rw [if_pos hv, show ip + 3 + (n + 1) = ip + 4 + n by omega] at s1
      exact ⟨s1, RunLoop_continue venv m _ _ s1⟩
    · rw [if_neg (by rw [hv]; decide)] at s1
      have s2 := step_OP_POP venv _ f (ip + 3) v rest (hex.resume (ip + 3) (v :: rest))
        (hat 3 (by omega)) (resume_Stack _ _ _)
      rw [resume_resume] at s2
      rw [RunLoop_continue venv (m + 1) _ _ s1, RunLoop_continue venv m _ _ s2]
  · intro venv m vm f ip n v rest hex hn hcode hst
    have hat : ∀ i, i < 7 → f.Chunk.Code[ip + i]? =
        [OpCode.OP_JUMP_IF_FALSE, 0, 3, OpCode.OP_JUMP, (n + 1) / 256, (n + 1) % 256,
          OpCode.OP_POP][i]? :=
      fun i hi => code_at _ _ ip 7 i hcode hi
    have s1 := step_OP_JUMP_IF_FALSE venv vm f ip 3 v rest hex (by omega) (hat 0 (by omega))
      (hat 1 (by omega)) (hat 2 (by omega)) hst
    refine ⟨fun hv => ?_, fun hv => ?_⟩
    · rw [if_neg (by rw [hv]; decide)] at s1
      have s2 := step_OP_JUMP venv _ f (ip + 3) (n + 1) (hex.resume (ip + 3) (v :: rest)) hn
        (hat 3 (by omega)) (hat 4 (by omega)) (hat 5 (by omega))
      rw [resume_resume, resume_Stack, show ip + 3 + 3 + (n + 1) = ip + 7 + n by omega] at s2
      rw [RunLoop_continue venv (m + 1) _ _ s1, RunLoop_continue venv m _ _ s2]
    · rw [if_pos hv] at s1
      have s2 := step_OP_POP venv _ f (ip + 3 + 3) v rest (hex.resume (ip + 3 + 3) (v :: rest))
        (hat 6 (by omega)) (resume_Stack _ _ _)
      rw [resume_resume] at s2
      rw [RunLoop_continue venv (m + 1) _ _ s1, RunLoop_continue venv m _ _ s2]

/-- Witness for C19: the code of `a and b` in `a and b;`. -/
theorem C19_short_circuit_witness :
    ∃ st1, ParseAnd_ (ParsePrecedence sampleEnv 3) false andStart = some st1 ∧
      Emitted andStart st1
        ([OpCode.OP_JUMP_IF_FALSE, (2 + 1) / 256, (2 + 1) % 256, OpCode.OP_POP] ++
          [OpCode.OP_GET_GLOBAL, 1]) [OBJ_VAL 5016] ∧
      st1.parser = andRight.parser ∧ st1.scanner = andRight.scanner :=
  (C19_short_circuit (ParsePrecedence sampleEnv 3) false andStart
    (fun e => absurd (congrArg List.isEmpty e) (by decide))).1 andRight
    [OpCode.OP_GET_GLOBAL, 1] [OBJ_VAL 5016] rfl
    ⟨fun e => absurd (congrArg List.isEmpty e) (by decide), rfl, rfl, rfl, rfl, rfl, rfl⟩
    (by decide)

/-! ### Calls with a wrong number of arguments -/

theorem Call_arity (vm : VM) (c fn : Nat) (ups : List (Option Nat)) (f : ObjFunction) (n : Nat)
    (hc : vm.Heap c = some (Obj.Closure fn ups)) (hf : vm.Heap fn = some (Obj.Function f))
    (hn : n ≠ f.Arity) :
    Call c n vm = some (false,
      RuntimeError (chars "Expected %d arguments, but got %d.") [f.Arity, n] [] vm) := by
  unfold Call
  rw [hc]
  dsimp only
  rw [hf]
  dsimp only
  rw [if_pos hn]

theorem setBelowArgs_eq (vm : VM) (n : Nat) (v : Value) (h : n < vm.Stack.length) :
    vm.setBelowArgs n v = some { vm with Stack := vm.Stack.set n v } := by
  unfold VM.setBelowArgs
  rw [if_pos h]

theorem READ_CONSTANT_eq (vm : VM) (f : ObjFunction) (ip k : Nat) (v : Value)
    (h : Executing vm f ip) (hk : f.Chunk.Code[ip]? = some k)
    (hv : f.Chunk.Constants[k]? = some v) :
    READ_CONSTANT vm = some (v, vm.resume (ip + 1) vm.Stack) := by
  unfold READ_CONSTANT
  simp only [Option.bind_eq_bind]
  rw [READ_BYTE_eq vm f ip k h hk, Option.some_bind, h.function, Option.some_bind, hv,
    Option.some_bind]

theorem RunStep_OP_CALL (env : VMEnv) (vm : VM) (f : ObjFunction) (ip : Nat)
    (h : Executing vm f ip) (hb : f.Chunk.Code[ip]? = some OpCode.OP_CALL) :
    RunStep env vm = Run.OP_CALL env (vm.resume (ip + 1) vm.Stack) := by
  unfold RunStep
  rw [READ_BYTE_eq vm f ip _ h hb]
  rfl

theorem RunStep_OP_INVOKE (env : VMEnv) (vm : VM) (f : ObjFunction) (ip : Nat)
    (h : Executing vm f ip) (hb : f.Chunk.Code[ip]? = some OpCode.OP_INVOKE) :
    RunStep env vm = Run.OP_INVOKE env (vm.resume (ip + 1) vm.Stack) := by
  unfold RunStep
  rw [READ_BYTE_eq vm f ip _ h hb]
  rfl

theorem RunStep_OP_SUPER_INVOKE (env : VMEnv) (vm : VM) (f : ObjFunction) (ip : Nat)
    (h : Executing vm f ip) (hb : f.Chunk.Code[ip]? = some OpCode.OP_SUPER_INVOKE) :
    RunStep env vm = Run.OP_SUPER_INVOKE (vm.resume (ip + 1) vm.Stack) := by
  unfold RunStep
  rw [READ_BYTE_eq vm f ip _ h hb]
  rfl

/-- Instruction `OP_CALL n` when `CallValue` returns `false`: `Run` returns
`INTERPRET_RUNTIME_ERROR`. -/
theorem step_OP_CALL_false (env : VMEnv) (vm vm2 : VM) (f : ObjFunction) (ip n : Nat)
    (callee : Value) (h : Executing vm f ip) (hb : f.Chunk.Code[ip]? = some OpCode.OP_CALL)
    (hn : f.Chunk.Code[ip + 1]? = some n) (hp : vm.Stack[n]? = some callee)
    (hcall : CallValue env callee n (vm.resume (ip + 2) vm.Stack) = some (false, vm2)) :
    RunStep env vm = some (Return INTERPRET_RUNTIME_ERROR vm2) := by
  rw [RunStep_OP_CALL env vm f ip h hb]
  unfold Run.OP_CALL
  simp only [Option.bind_eq_bind]
  rw [READ_BYTE_eq _ f (ip + 1) n (h.resume _ _) hn, Option.some_bind, resume_resume,
    resume_Stack]
  unfold Peek
  rw [resume_Stack, hp, Option.some_bind, hcall]
  rfl

/-- Instruction `OP_INVOKE name n` when `Invoke` returns `false`. -/
theorem step_OP_INVOKE_false (env : VMEnv) (vm vm2 : VM) (f : ObjFunction) (ip k n : Nat)
    (name : Value) (h : Executing vm f ip) (hb : f.Chunk.Code[ip]? = some OpCode.OP_INVOKE)
    (hk : f.Chunk.Code[ip + 1]? = some k) (hname : f.Chunk.Constants[k]? = some name)
    (hn : f.Chunk.Code[ip + 2]? = some n)
    (hcall : Invoke env (AS_OBJ name) n (vm.resume (ip + 3) vm.Stack) = some (false, vm2)) :
    RunStep env vm = some (Return INTERPRET_RUNTIME_ERROR vm2) := by
  rw [RunStep_OP_INVOKE env vm f ip h hb]
  unfold Run.OP_INVOKE READ_STRING
  simp only [Option.bind_eq_bind]
  rw [READ_CONSTANT_eq _ f (ip + 1) k name (h.resume _ _) hk hname]
  simp only [Option.map_some', Option.some_bind]
  rw [resume_resume, resume_Stack,
    READ_BYTE_eq _ f (ip + 1 + 1) n (h.resume _ _) hn, Option.some_bind, resume_resume,
    resume_Stack, hcall]
  rfl

/-- Instruction `OP_SUPER_INVOKE name n` when `InvokeFromClass` returns `false`. -/
theorem step_OP_SUPER_INVOKE_false (env : VMEnv) (vm vm2 : VM) (f : ObjFunction) (ip k n : Nat)
    (name superClass : Value) (rest : List Value) (h : Executing vm f ip)
    (hb : f.Chunk.Code[ip]? = some OpCode.OP_SUPER_INVOKE)
    (hk : f.Chunk.Code[ip + 1]? = some k) (hname : f.Chunk.Constants[k]? = some name)
    (hn : f.Chunk.Code[ip + 2]? = some n) (hst : vm.Stack = superClass :: rest)
    (hcall : InvokeFromClass (AS_OBJ superClass) (AS_OBJ name) n (vm.resume (ip + 3) rest) =
      some (false, vm2)) :
    RunStep env vm = some (Return INTERPRET_RUNTIME_ERROR vm2) := by
  rw [RunStep_OP_SUPER_INVOKE env vm f ip h hb]
  unfold Run.OP_SUPER_INVOKE READ_STRING
  simp only [Option.bind_eq_bind]
  rw [READ_CONSTANT_eq _ f (ip + 1) k name (h.resume _ _) hk hname]
  simp only [Option.map_some', Option.some_bind]
  rw [resume_resume, resume_Stack,
    READ_BYTE_eq _ f (ip + 1 + 1) n (h.resume _ _) hn, Option.some_bind, resume_resume,
    resume_Stack, hst, Pop_resume, Option.some_bind, hcall]
  rfl

theorem AllocateObject_eq (env : VMEnv) (object : Obj) (vm vm1 : VM) (p : Nat)
    (h : AllocateObject env object vm = some (p, vm1)) :
    p ∉ vm.Objects ∧ ∀ q, q ≠ p → vm1.Heap q = vm.Heap q := by
  unfold AllocateObject at h
  split at h
  · cases h
  · rename_i hno
    simp only [Option.some.injEq, Prod.mk.injEq] at h
    obtain ⟨hp, hv⟩ := h
    subst hp
    subst hv
    exact ⟨hno, fun q hq => by simp [hq]⟩

/-- Claim C20 (arity mismatch never enters the callee): for a closure `c` of a
function `f` and `n != f.Arity`, `Call(c, n)` reports
`Expected %d arguments, but got %d.` with `f.Arity` and `n`, resets the stack
(no frame is left, none is pushed) and returns `false`.  The same result comes
out of `CallValue` on the closure, on a bound method of `c`, and on a class
whose `init` is `c`, out of `Invoke` on an instance whose class has `c` as the
method, and out of `InvokeFromClass`; and whenever the call of `OP_CALL`,
`OP_INVOKE` or `OP_SUPER_INVOKE` returns `false`, `Run` returns
`INTERPRET_RUNTIME_ERROR` at once, so no instruction of the callee is
executed. -/
theorem C20_arity_mismatch (env : VMEnv) (vm : VM) (c fn : Nat) (ups : List (Option Nat))
    (f : ObjFunction) (n : Nat)
    (hc : vm.Heap c = some (Obj.Closure fn ups)) (hf : vm.Heap fn = some (Obj.Function f))
    (hn : n ≠ f.Arity) :
    (Call c n vm = some (false,
        RuntimeError (chars "Expected %d arguments, but got %d.") [f.Arity, n] [] vm) ∧
      (RuntimeError (chars "Expected %d arguments, but got %d.") [f.Arity, n] [] vm).Frames = [] ∧
      (RuntimeError (chars "Expected %d arguments, but got %d.") [f.Arity, n] [] vm).stderr =
        vm.stderr ++ [⟨chars "Expected %d arguments, but got %d.", [f.Arity, n], []⟩] ∧
      (RuntimeError (chars "Expected %d arguments, but got %d.") [f.Arity, n] [] vm).stdout =
        vm.stdout) ∧
    (∀ callee, IS_OBJ callee = true → AS_OBJ callee = c →
      CallValue env callee n vm = some (false,
        RuntimeError (chars "Expected %d arguments, but got %d.") [f.Arity, n] [] vm)) ∧
    (∀ callee receiver, IS_OBJ callee = true →
      vm.Heap (AS_OBJ callee) = some (Obj.BoundMethod receiver c) → n < vm.Stack.length →
      CallValue env callee n vm = some (false,
        RuntimeError (chars "Expected %d arguments, but got %d.") [f.Arity, n] []
          { vm with Stack := vm.Stack.set n receiver })) ∧
    (∀ callee name methods initString initializer newInstance vm1, IS_OBJ callee = true →
      vm.Heap (AS_OBJ callee) = some (Obj.Class name methods) →
      c ∈ vm.Objects → fn ∈ vm.Objects → vm.InitString = some initString →
      n < vm.Stack.length →
      AllocateObject env (Obj.Instance (AS_OBJ callee) InitTable) vm = some (newInstance, vm1) →
      TableGet { vm1 with Stack := vm1.Stack.set n (OBJ_VAL newInstance) }.strings methods
        initString = some (some initializer) →
      AS_OBJ initializer = c →
      CallValue env callee n vm = some (false,
        RuntimeError (chars "Expected %d arguments, but got %d.") [f.Arity, n] []
          { vm1 with Stack := vm1.Stack.set n (OBJ_VAL newInstance) })) ∧
    (∀ name receiver klass fields className methods method, vm.Stack[n]? = some receiver →
      IS_OBJ receiver = true → vm.Heap (AS_OBJ receiver) = some (Obj.Instance klass fields) →
      TableGet vm.strings fields name = some none →
      vm.Heap klass = some (Obj.Class className methods) →
      TableGet vm.strings methods name = some (some method) → AS_OBJ method = c →
      Invoke env name n vm = some (false,
        RuntimeError (chars "Expected %d arguments, but got %d.") [f.Arity, n] [] vm)) ∧
    (∀ name klass className methods method,
      vm.Heap klass = some (Obj.Class className methods) →
      TableGet vm.strings methods name = some (some method) → AS_OBJ method = c →
      InvokeFromClass klass name n vm = some (false,
        RuntimeError (chars "Expected %d arguments, but got %d.") [f.Arity, n] [] vm)) ∧
    (∀ (vm0 vm2 : VM) (g : ObjFunction) (ip : Nat) (callee : Value) (m : Nat),
      Executing vm0 g ip → g.Chunk.Code[ip]? = some OpCode.OP_CALL →
      g.Chunk.Code[ip + 1]? = some n → vm0.Stack[n]? = some callee →
      CallValue env callee n (vm0.resume (ip + 2) vm0.Stack) = some (false, vm2) →
      RunStep env vm0 = some (Return INTERPRET_RUNTIME_ERROR vm2) ∧
      RunLoop env (m + 1) vm0 = some (INTERPRET_RUNTIME_ERROR, vm2)) ∧
    (∀ (vm0 vm2 : VM) (g : ObjFunction) (ip k : Nat) (name : Value) (m : Nat),
      Executing vm0 g ip → g.Chunk.Code[ip]? = some OpCode.OP_INVOKE →
      g.Chunk.Code[ip + 1]? = some k → g.Chunk.Constants[k]? = some name →
      g.Chunk.Code[ip + 2]? = some n →
      Invoke env (AS_OBJ name) n (vm0.resume (ip + 3) vm0.Stack) = some (false, vm2) →
      RunStep env vm0 = some (Return INTERPRET_RUNTIME_ERROR vm2) ∧
      RunLoop env (m + 1) vm0 = some (INTERPRET_RUNTIME_ERROR, vm2)) ∧
    (∀ (vm0 vm2 : VM) (g : ObjFunction) (ip k : Nat) (name superClass : Value)
        (rest : List Value) (m : Nat),
      Executing vm0 g ip → g.Chunk.Code[ip]? = some OpCode.OP_SUPER_INVOKE →
      g.Chunk.Code[ip + 1]? = some k → g.Chunk.Constants[k]? = some name →
      g.Chunk.Code[ip + 2]? = some n → vm0.Stack = superClass :: rest →
      InvokeFromClass (AS_OBJ superClass) (AS_OBJ name) n (vm0.resume (ip + 3) rest) =
        some (false, vm2) →
      RunStep env vm0 = some (Return INTERPRET_RUNTIME_ERROR vm2) ∧
      RunLoop env (m + 1) vm0 = some (INTERPRET_RUNTIME_ERROR, vm2)) ∧
    runSummary ((VM.InitVM sampleVMEnv).bind (fun vm => Interpret sampleVMEnv 100 vm
      (chars "fun f(a) \x7b print a; \x7d f();"))) =
      some (INTERPRET_RUNTIME_ERROR, [],
        [⟨chars "Expected %d arguments, but got %d.", [1, 0], []⟩], []) ∧
    runSummary ((VM.InitVM sampleVMEnv).bind (fun vm => Interpret sampleVMEnv 100 vm
      (chars "class A \x7b init(x) \x7b print x; \x7d \x7d A();"))) =
      some (INTERPRET_RUNTIME_ERROR, [],
        [⟨chars "Expected %d arguments, but got %d.", [1, 0], []⟩], []) ∧
    runSummary ((VM.InitVM sampleVMEnv).bind (fun vm => Interpret sampleVMEnv 100 vm
      (chars "class A \x7b m(x) \x7b print x; \x7d \x7d var a = A(); var m = a.m; m();"))) =
      some (INTERPRET_RUNTIME_ERROR, [],
        [⟨chars "Expected %d arguments, but got %d.", [1, 0], []⟩], []) ∧
    runSummary ((VM.InitVM sampleVMEnv).bind (fun vm => Interpret sampleVMEnv 100 vm
      (chars "class A \x7b m(x) \x7b print x; \x7d \x7d A().m();"))) =
      some (INTERPRET_RUNTIME_ERROR, [],
        [⟨chars "Expected %d arguments, but got %d.", [1, 0], []⟩], []) ∧
    runSummary ((VM.InitVM sampleVMEnv).bind (fun vm => Interpret sampleVMEnv 100 vm
      (chars "class A \x7b m(x) \x7b print x; \x7d \x7d class B < A \x7b t() \x7b super.m(); \x7d \x7d B().t();"))) =
      some (INTERPRET_RUNTIME_ERROR, [],
        [⟨chars "Expected %d arguments, but got %d.", [1, 0], []⟩], []) := by
  have hcall := Call_arity vm c fn ups f n hc hf hn
  refine ⟨⟨hcall, rfl, rfl, rfl⟩, ?_, ?_, ?_, ?_, ?_, ?_, ?_, ?_, by rfl, by rfl, by rfl, by rfl,
    by rfl⟩
  · intro callee hobj hc2
    unfold CallValue
    rw [if_pos hobj, hc2, hc]
    exact hcall
  · intro callee receiver hobj hb hlen
    unfold CallValue
    rw [if_pos hobj, hb]
    dsimp only
    rw [setBelowArgs_eq vm n receiver hlen, Option.some_bind]
    exact Call_arity _ c fn ups f n hc hf hn
  · intro callee name methods initString initializer newInstance vm1 hobj hk hcm hfm hinit hlen
      halloc hget hinit2
    obtain ⟨hnew, hheap⟩ := AllocateObject_eq env _ vm vm1 newInstance halloc
    have hst : vm1.Stack = vm.Stack := by
      unfold AllocateObject at halloc
      split at halloc
      · cases halloc
      · cases halloc; rfl
    have his : vm1.InitString = vm.InitString := by
      unfold AllocateObject at halloc
      split at halloc
      · cases halloc
      · cases halloc; rfl
    unfold CallValue
    rw [if_pos hobj, hk]
    dsimp only
    rw [halloc]
    dsimp only
    rw [setBelowArgs_eq vm1 n _ (by rw [hst]; exact hlen), his, hinit]
    dsimp only
    erw [hget]
    dsimp only
    rw [hinit2]
    refine (Call_arity _ c fn ups f n ?_ ?_ hn).trans ?_
    rotate_left 2
    · rfl
    · show vm1.Heap c = _
      rw [hheap c (fun e => hnew (e ▸ hcm))]; exact hc
    · show vm1.Heap fn = _
      rw [hheap fn (fun e => hnew (e ▸ hfm))]; exact hf
  · intro name receiver klass fields className methods method hp hobj hi hfield hk hm hm2
    unfold Invoke Peek
    rw [hp]
    dsimp only
    rw [if_pos hobj, hi]
    dsimp only
    rw [hfield]
    dsimp only
    unfold InvokeFromClass
    rw [hk]
    dsimp only
    rw [hm]
    dsimp only
    rw [hm2]
    exact hcall
  · intro name klass className methods method hk hm hm2
    unfold InvokeFromClass
    rw [hk]
    dsimp only
    rw [hm]
    dsimp only
    rw [hm2]
    exact hcall
  · intro vm0 vm2 g ip callee m hex hb hn2 hp hcv
    have s := step_OP_CALL_false env vm0 vm2 g ip n callee hex hb hn2 hp hcv
    exact ⟨s, RunLoop_return env m _ _ _ s⟩
  · intro vm0 vm2 g ip k name m hex hb hk hname hn2 hcv
    have s := step_OP_INVOKE_false env vm0 vm2 g ip k n name hex hb hk hname hn2 hcv
    exact ⟨s, RunLoop_return env m _ _ _ s⟩
  · intro vm0 vm2 g ip k name superClass rest m hex hb hk hname hn2 hst hcv
    have s := step_OP_SUPER_INVOKE_false env vm0 vm2 g ip k n name superClass rest hex hb hk
      hname hn2 hst hcv
    exact ⟨s, RunLoop_return env m _ _ _ s⟩

/-- Witness for C20: the closure at 8 of a function of one parameter, called
with no argument. -/
theorem C20_arity_mismatch_witness :
    Call 8 0 arityVM = some (false,
      RuntimeError (chars "Expected %d arguments, but got %d.") [1, 0] [] arityVM) ∧
    (RuntimeError (chars "Expected %d arguments, but got %d.") [1, 0] [] arityVM).Frames = [] :=
  have c := (C20_arity_mismatch sampleVMEnv arityVM 8 16 [] ⟨1, 0, InitChunk, none⟩ 0 rfl rfl
    (by decide)).1
  ⟨c.1, c.2.1⟩

/-! ### Backward jumps -/

theorem Error_withChunk (m : List Nat) (st : CompileState) (chunk : Chunk) :
    (Error m st).withChunk chunk = Error m (st.withChunk chunk) := by
  unfold Error
  rw [ErrorAt_withChunk, withChunk_parserEq]

theorem CurrentChunk_count (st : CompileState) (h : st.current ≠ []) :
    (CurrentChunk st).map Chunk.Count = some st.code.length := by
  rw [CurrentChunk_eq st h]
  rfl

/-- The code of `if (c) T` up to the place where `else` is looked for. -/
theorem ParseIfStatement_then (s3 s6 : CompileState) (codeT : List Nat) (kT : List Value)
    (h3 : s3.current ≠ [])
    (e6 : Emitted (s3.emit [OpCode.OP_JUMP_IF_FALSE, 0xff, 0xff, OpCode.OP_POP]) s6 codeT kT)
    (hlen : codeT.length + 4 ≤ 65535) :
    ∃ s9, ((EmitJump OpCode.OP_JUMP s6).bind (fun r =>
        (PatchJump (s3.code.length + 1) r.2).bind (fun s8 =>
          (EmitByte OpCode.OP_POP s8).map (fun s => (r.1, s))))) =
        some (s3.code.length + 4 + codeT.length + 1, s9) ∧
      Emitted s3 s9
        ([OpCode.OP_JUMP_IF_FALSE, (codeT.length + 4) / 256, (codeT.length + 4) % 256,
          OpCode.OP_POP] ++ codeT ++ [OpCode.OP_JUMP, 0xff, 0xff, OpCode.OP_POP]) kT ∧
      s9.parser = s6.parser ∧ s9.scanner = s6.scanner := by
  have e5 := Emitted.emit s3 [OpCode.OP_JUMP_IF_FALSE, 0xff, 0xff, OpCode.OP_POP] h3
  have e36 := e5.trans e6
  have hs6 := e6.current
  have hl6 : s6.code.length = s3.code.length + 4 + codeT.length := by
    rw [e36.code]; simp; omega
  have e7 : Emitted s3 (s6.emit [OpCode.OP_JUMP, 0xff, 0xff])
      ([] ++ ([OpCode.OP_JUMP_IF_FALSE, 0xff, 0xff] ++ (OpCode.OP_POP :: (codeT ++
        [OpCode.OP_JUMP, 0xff, 0xff])))) kT := by
    have := e36.trans (Emitted.emit s6 [OpCode.OP_JUMP, 0xff, 0xff] hs6)
    simpa using this
  obtain ⟨s8, hp, e8, hpa8, hsc8⟩ := PatchJump_emitted s3 _ [] _ OpCode.OP_JUMP_IF_FALSE 0xff 0xff
    kT e7 (by simp; omega)
  obtain ⟨s9, hb9, e9, hpa9, hsc9⟩ := e8.emitByte OpCode.OP_POP (by decide)
  refine ⟨s9, ?_, ?_, ?_, ?_⟩
  · have hm2 : OpCode.OP_JUMP % 256 = OpCode.OP_JUMP := rfl
    rw [EmitJump_eq _ s6 hs6, Option.some_bind]
    dsimp only
    rw [hm2]
    have hp2 : PatchJump (s3.code.length + 1) (s6.emit [OpCode.OP_JUMP, 255, 255]) = some s8 := by
      simpa using hp
    rw [hp2, Option.some_bind, hb9, hl6]
    rfl
  · have hm : (OpCode.OP_POP :: (codeT ++ [OpCode.OP_JUMP, 0xff, 0xff])).length =
        codeT.length + 4 := by simp
    rw [hm] at e9
    simpa using e9
  · rw [hpa9, hpa8, emit_parserEq]
  · rw [hsc9, hsc8, emit_scanner]

/-- The last step of `ParseIfStatement`: the jump over the `else` branch is
patched. -/
theorem ParseIfStatement_end (s3 s11 : CompileState) (codeT codeE : List Nat) (k : List Value)
    (e : Emitted s3 s11
      ([OpCode.OP_JUMP_IF_FALSE, (codeT.length + 4) / 256, (codeT.length + 4) % 256,
        OpCode.OP_POP] ++ codeT ++ [OpCode.OP_JUMP, 0xff, 0xff, OpCode.OP_POP] ++ codeE) k)
    (hlen : codeE.length + 1 ≤ 65535) :
    ∃ s12, PatchJump (s3.code.length + 4 + codeT.length + 1) s11 = some s12 ∧
      Emitted s3 s12
        ([OpCode.OP_JUMP_IF_FALSE, (codeT.length + 4) / 256, (codeT.length + 4) % 256,
          OpCode.OP_POP] ++ codeT ++
          [OpCode.OP_JUMP, (codeE.length + 1) / 256, (codeE.length + 1) % 256, OpCode.OP_POP] ++
          codeE) k ∧
      s12.parser = s11.parser ∧ s12.scanner = s11.scanner := by
  have e' : Emitted s3 s11
      (([OpCode.OP_JUMP_IF_FALSE, (codeT.length + 4) / 256, (codeT.length + 4) % 256,
        OpCode.OP_POP] ++ codeT) ++ ([OpCode.OP_JUMP, 0xff, 0xff] ++ (OpCode.OP_POP :: codeE))) k := by
    simpa using e
  obtain ⟨s12, hp, e12, hpa, hsc⟩ := PatchJump_emitted s3 s11 _ _ OpCode.OP_JUMP 0xff 0xff k e'
    (by simpa using hlen)
  refine ⟨s12, ?_, ?_, hpa, hsc⟩
  · have hl : s3.code.length + ([OpCode.OP_JUMP_IF_FALSE, (codeT.length + 4) / 256,
        (codeT.length + 4) % 256, OpCode.OP_POP] ++ codeT).length + 1 =
        s3.code.length + 4 + codeT.length + 1 := by simp; omega
    rw [← hl]
    exact hp
  · have hm : (OpCode.OP_POP :: codeE).length = codeE.length + 1 := by simp
    rw [hm] at e12
    simpa using e12

/-- The code of `if (c) T` and of `if (c) T else E`. -/
theorem ParseIfStatement_emitted (env : CompileEnv) (stmt : ParseStatementFn) (fuel : Nat)
    (st s1 s2 s3 s6 : CompileState) (codeC codeT : List Nat) (kC kT : List Value)
    (h1 : Consume TOKEN_LEFT_PAREN (chars "Expected \x27(\x27 after \x27if\x27.") st = some s1)
    (e1 : Emitted st s1 [] [])
    (h2 : ParseExpression env fuel s1 = some s2) (e2 : Emitted s1 s2 codeC kC)
    (h3 : Consume TOKEN_RIGHT_PAREN (chars "Expected \x27)\x27 after if condition.") s2 = some s3)
    (e3 : Emitted s2 s3 [] [])
    (h6 : stmt (s3.emit [OpCode.OP_JUMP_IF_FALSE, 0xff, 0xff, OpCode.OP_POP]) = some s6)
    (e6 : Emitted (s3.emit [OpCode.OP_JUMP_IF_FALSE, 0xff, 0xff, OpCode.OP_POP]) s6 codeT kT)
    (hlen : codeT.length + 4 ≤ 65535) :
    ∃ s9, Emitted st s9
        (codeC ++ ([OpCode.OP_JUMP_IF_FALSE, (codeT.length + 4) / 256, (codeT.length + 4) % 256,
          OpCode.OP_POP] ++ codeT ++ [OpCode.OP_JUMP, 0xff, 0xff, OpCode.OP_POP])) (kC ++ kT) ∧
      s9.parser = s6.parser ∧ s9.scanner = s6.scanner ∧
      (s6.parser.Current.Type_ ≠ TOKEN_ELSE →
        ∃ st1, ParseIfStatement env stmt fuel st = some st1 ∧
          Emitted st st1
            (codeC ++ ([OpCode.OP_JUMP_IF_FALSE, (codeT.length + 4) / 256,
              (codeT.length + 4) % 256, OpCode.OP_POP] ++ codeT ++
              [OpCode.OP_JUMP, 0, 1, OpCode.OP_POP])) (kC ++ kT)) ∧
      (∀ (s10 s11 : CompileState) (codeE : List Nat) (kE : List Value),
        Match TOKEN_ELSE s9 = some (true, s10) → Emitted s9 s10 [] [] →
        stmt s10 = some s11 → Emitted s10 s11 codeE kE → codeE.length + 1 ≤ 65535 →
        ∃ st1, ParseIfStatement env stmt fuel st = some st1 ∧
          Emitted st st1
            (codeC ++ ([OpCode.OP_JUMP_IF_FALSE, (codeT.length + 4) / 256,
              (codeT.length + 4) % 256, OpCode.OP_POP] ++ codeT ++
              [OpCode.OP_JUMP, (codeE.length + 1) / 256, (codeE.length + 1) % 256,
                OpCode.OP_POP] ++ codeE)) (kC ++ kT ++ kE)) := by
  have e03 : Emitted st s3 codeC kC := by
    have := (e1.trans e2).trans e3
    simpa using this
  have hs3 := e03.current
  obtain ⟨s9, hstart, e9, hpa9, hsc9⟩ := ParseIfStatement_then s3 s6 codeT kT hs3 e6 hlen
  have hhead : ParseIfStatement env stmt fuel st =
        ((Match TOKEN_ELSE s9).bind (fun r =>
          (if r.1 = true then stmt r.2 else some r.2).bind
            (PatchJump (s3.code.length + 4 + codeT.length + 1)))) := by
    unfold ParseIfStatement
    simp only [Option.bind_eq_bind]
    rw [h1, Option.some_bind, h2, Option.some_bind, h3, Option.some_bind, EmitJump_eq _ s3 hs3,
      Option.some_bind]
    dsimp only
    rw [EmitByte_eq _ _ (emit_current_ne s3 _ hs3), Option.some_bind, emit_emit s3 _ _ hs3]
    have hs : s3.emit ([OpCode.OP_JUMP_IF_FALSE % 256, 255, 255] ++ [OpCode.OP_POP % 256]) =
        s3.emit [OpCode.OP_JUMP_IF_FALSE, 0xff, 0xff, OpCode.OP_POP] := rfl
    rw [hs, h6, Option.some_bind]
    simp only [Option.bind_eq_some, Option.map_eq_some'] at hstart
    obtain ⟨r, hr, s8, hs8, s9b, hs9, heq⟩ := hstart
    simp only [Prod.mk.injEq] at heq
    obtain ⟨hr1, hr2⟩ := heq
    subst hr2
    rw [hr, Option.some_bind, hs8, Option.some_bind, hs9, Option.some_bind, hr1]
    cases Match TOKEN_ELSE s9b with
    | none => rfl
    | some x =>
      obtain ⟨b, sx⟩ := x
      cases b <;> rfl
  refine ⟨s9, ?_, hpa9, hsc9, fun hno => ?_, fun s10 s11 codeE kE hm e10 h11 e11 hle => ?_⟩
  · have := e03.trans e9
    simpa using this
  · have hmatch : Match TOKEN_ELSE s9 = some (false, s9) := by
      unfold Match Check
      rw [hpa9]
      simp [hno]
    have e9' : Emitted s3 s9
        ([OpCode.OP_JUMP_IF_FALSE, (codeT.length + 4) / 256, (codeT.length + 4) % 256,
          OpCode.OP_POP] ++ codeT ++ [OpCode.OP_JUMP, 0xff, 0xff, OpCode.OP_POP] ++ []) kT := by
      simpa using e9
    obtain ⟨s12, hp, e12, _, _⟩ := ParseIfStatement_end s3 s9 codeT [] kT e9' (by decide)
    refine ⟨s12, ?_, ?_⟩
    · rw [hhead, hmatch, Option.some_bind]
      simp only [Bool.false_eq_true, if_false, Option.some_bind]
      exact hp
    · have := e03.trans e12
      simpa using this
  · have e911 : Emitted s3 s11
        ([OpCode.OP_JUMP_IF_FALSE, (codeT.length + 4) / 256, (codeT.length + 4) % 256,
          OpCode.OP_POP] ++ codeT ++ [OpCode.OP_JUMP, 0xff, 0xff, OpCode.OP_POP] ++ codeE)
        (kT ++ kE) := by
      have := (e9.trans e10).trans e11
      simpa using this
    obtain ⟨s12, hp, e12, _, _⟩ := ParseIfStatement_end s3 s11 codeT codeE (kT ++ kE) e911 hle
    refine ⟨s12, ?_, ?_⟩
    · rw [hhead, hm, Option.some_bind]
      simp only [if_true, h11, Option.some_bind]
      exact hp
    · have := e03.trans e12
      simpa [List.append_assoc] using this

/-- Claim C28 (lowering of `if`): with the parts of the statement compiled
without error (`code(c)` by `ParseExpression`, `code(T)` and `code(E)` by
`ParseStatement`), `ParseIfStatement` appends exactly `code(c)`,
`OP_JUMP_IF_FALSE` with the operand `len(code(T)) + 4`, `OP_POP`, `code(T)`,
`OP_JUMP` with the operand `len(code(E)) + 1`, `OP_POP`, `code(E)`, where
`code(E)` is empty when no `else` follows.  At the `OP_JUMP_IF_FALSE` with the
value `v` of the condition on top of the stack: a truthy `v` takes the machine
in two steps to the first byte of `code(T)` with `v` popped by the first
`OP_POP`, and the `OP_JUMP` after `code(T)` takes it past the second `OP_POP`
and `code(E)`; a falsey `v` takes it in two steps to the first byte of
`code(E)` with `v` popped by the second `OP_POP`. -/
theorem C28_if_lowering (env : CompileEnv) (stmt : ParseStatementFn) (fuel : Nat)
    (st s1 s2 s3 s6 : CompileState) (codeC codeT : List Nat) (kC kT : List Value)
    (h1 : Consume TOKEN_LEFT_PAREN (chars "Expected \x27(\x27 after \x27if\x27.") st = some s1)
    (e1 : Emitted st s1 [] [])
    (h2 : ParseExpression env fuel s1 = some s2) (e2 : Emitted s1 s2 codeC kC)
    (h3 : Consume TOKEN_RIGHT_PAREN (chars "Expected \x27)\x27 after if condition.") s2 = some s3)
    (e3 : Emitted s2 s3 [] [])
    (h6 : stmt (s3.emit [OpCode.OP_JUMP_IF_FALSE, 0xff, 0xff, OpCode.OP_POP]) = some s6)
    (e6 : Emitted (s3.emit [OpCode.OP_JUMP_IF_FALSE, 0xff, 0xff, OpCode.OP_POP]) s6 codeT kT)
    (hlen : codeT.length + 4 ≤ 65535) :
    (∃ s9, Emitted st s9
        (codeC ++ ([OpCode.OP_JUMP_IF_FALSE, (codeT.length + 4) / 256, (codeT.length + 4) % 256,
          OpCode.OP_POP] ++ codeT ++ [OpCode.OP_JUMP, 0xff, 0xff, OpCode.OP_POP])) (kC ++ kT) ∧
      s9.parser = s6.parser ∧ s9.scanner = s6.scanner ∧
      (s6.parser.Current.Type_ ≠ TOKEN_ELSE →
        ∃ st1, ParseIfStatement env stmt fuel st = some st1 ∧
          Emitted st st1
            (codeC ++ ([OpCode.OP_JUMP_IF_FALSE, (codeT.length + 4) / 256,
              (codeT.length + 4) % 256, OpCode.OP_POP] ++ codeT ++
              [OpCode.OP_JUMP, 0, 1, OpCode.OP_POP])) (kC ++ kT)) ∧
      (∀ (s10 s11 : CompileState) (codeE : List Nat) (kE : List Value),
        Match TOKEN_ELSE s9 = some (true, s10) → Emitted s9 s10 [] [] →
        stmt s10 = some s11 → Emitted s10 s11 codeE kE → codeE.length + 1 ≤ 65535 →
        ∃ st1, ParseIfStatement env stmt fuel st = some st1 ∧
          Emitted st st1
            (codeC ++ ([OpCode.OP_JUMP_IF_FALSE, (codeT.length + 4) / 256,
              (codeT.length + 4) % 256, OpCode.OP_POP] ++ codeT ++
              [OpCode.OP_JUMP, (codeE.length + 1) / 256, (codeE.length + 1) % 256,
                OpCode.OP_POP] ++ codeE)) (kC ++ kT ++ kE))) ∧
    (∀ (venv : VMEnv) (m : Nat) (vm : VM) (f : ObjFunction) (p n : Nat) (v : Value)
        (rest : List Value),
      Executing vm f p → n + 1 ≤ 65535 →
      (f.Chunk.Code.drop p).take (codeT.length + 8) =
        [OpCode.OP_JUMP_IF_FALSE, (codeT.length + 4) / 256, (codeT.length + 4) % 256,
          OpCode.OP_POP] ++ codeT ++ [OpCode.OP_JUMP, (n + 1) / 256, (n + 1) % 256,
          OpCode.OP_POP] →
      vm.Stack = v :: rest →
      (IsFalsey v = false →
        RunLoop venv (m + 2) vm = RunLoop venv m (vm.resume (p + 4) rest)) ∧
      (IsFalsey v = true →
        RunLoop venv (m + 2) vm = RunLoop venv m (vm.resume (p + codeT.length + 8) rest)) ∧
      (∀ (vm1 : VM), Executing vm1 f (p + 4 + codeT.length) →
        RunStep venv vm1 =
          some (Continue (vm1.resume (p + codeT.length + 8 + n) vm1.Stack)))) ∧
    compileSummary (Compile sampleEnv 10 sampleVM (chars "if (a) b; else c;")) =
      some (some 5000, [],
        [OpCode.OP_GET_GLOBAL, 0, OpCode.OP_JUMP_IF_FALSE, 0, 7, OpCode.OP_POP,
          OpCode.OP_GET_GLOBAL, 1, OpCode.OP_POP, OpCode.OP_JUMP, 0, 4, OpCode.OP_POP,
          OpCode.OP_GET_GLOBAL, 2, OpCode.OP_POP, OpCode.OP_NIL, OpCode.OP_RETURN]) ∧
    compileSummary (Compile sampleEnv 10 sampleVM (chars "if (a) b;")) =
      some (some 5000, [],
        [OpCode.OP_GET_GLOBAL, 0, OpCode.OP_JUMP_IF_FALSE, 0, 7, OpCode.OP_POP,
          OpCode.OP_GET_GLOBAL, 1, OpCode.OP_POP, OpCode.OP_JUMP, 0, 1, OpCode.OP_POP,
          OpCode.OP_NIL, OpCode.OP_RETURN]) ∧
    runSummary ((VM.InitVM sampleVMEnv).bind (fun vm => Interpret sampleVMEnv 100 vm
      (chars "if (true) print 1; else print 2; if (nil) print 1; else print 2; if (false) print 3; print 1;"))) =
      some (INTERPRET_OK, [0x3ff0000000000000, 0x4000000000000000, 0x3ff0000000000000], [],
        []) := by
  refine ⟨ParseIfStatement_emitted env stmt fuel st s1 s2 s3 s6 codeC codeT kC kT h1 e1 h2 e2 h3
    e3 h6 e6 hlen, ?_, by decide, by decide, by rfl⟩
  intro venv m vm f p n v rest hex hn hcode hst
  have hat : ∀ i, i < codeT.length + 8 → f.Chunk.Code[p + i]? =
      ([OpCode.OP_JUMP_IF_FALSE, (codeT.length + 4) / 256, (codeT.length + 4) % 256,
        OpCode.OP_POP] ++ codeT ++ [OpCode.OP_JUMP, (n + 1) / 256, (n + 1) % 256,
        OpCode.OP_POP])[i]? :=
    fun i hi => code_at _ _ p _ i hcode (by simp; omega)
  have htail : ∀ i, i < 4 → f.Chunk.Code[p + 4 + codeT.length + i]? =
      [OpCode.OP_JUMP, (n + 1) / 256, (n + 1) % 256, OpCode.OP_POP][i]? := by
    intro i hi
    rw [show p + 4 + codeT.length + i = p + (4 + codeT.length + i) by omega,
      hat _ (by omega), List.getElem?_append_right (by simp; omega)]
    congr 1
    simp
    omega
  have hfront : ∀ i, i < 4 → f.Chunk.Code[p + i]? =
      [OpCode.OP_JUMP_IF_FALSE, (codeT.length + 4) / 256, (codeT.length + 4) % 256,
        OpCode.OP_POP][i]? := by
    intro i hi
    rw [hat i (by omega), List.append_assoc, List.getElem?_append_left (by simp; omega)]
  have s1' := step_OP_JUMP_IF_FALSE venv vm f p (codeT.length + 4) v rest hex hlen
    (hfront 0 (by omega)) (hfront 1 (by omega)) (hfront 2 (by omega)) hst
  refine ⟨fun hv => ?_, fun hv => ?_, fun vm1 hex1 => ?_⟩
  · rw [if_neg (by rw [hv]; decide)] at s1'
    have s2' := step_OP_POP venv _ f (p + 3) v rest (hex.resume (p + 3) (v :: rest))
      (hfront 3 (by omega)) (resume_Stack _ _ _)
    rw [resume_resume] at s2'
    rw [RunLoop_continue venv (m + 1) _ _ s1', RunLoop_continue venv m _ _ s2']
  · rw [if_pos hv] at s1'
    have s2' := step_OP_POP venv _ f (p + 3 + (codeT.length + 4)) v rest
      (hex.resume _ (v :: rest))
      (by
        rw [show p + 3 + (codeT.length + 4) = p + 4 + codeT.length + 3 by omega]
        exact htail 3 (by omega))
      (resume_Stack _ _ _)
    rw [resume_resume, show p + 3 + (codeT.length + 4) + 1 = p + codeT.length + 8 by omega] at s2'
    rw [RunLoop_continue venv (m + 1) _ _ s1', RunLoop_continue venv m _ _ s2']
  · have s := step_OP_JUMP venv vm1 f (p + 4 + codeT.length) (n + 1) hex1 hn
      (htail 0 (by omega)) (htail 1 (by omega)) (htail 2 (by omega))
    rw [show p + 4 + codeT.length + 3 + (n + 1) = p + codeT.length + 8 + n by omega] at s
    exact s

/-- Witness for C28: the statement `if (a) b;`. -/
theorem C28_if_lowering_witness :
    ∃ st1, ParseIfStatement sampleEnv (ParseStatement sampleEnv 3) 3 ifStart = some st1 ∧
      Emitted ifStart st1
        ([OpCode.OP_GET_GLOBAL, 0] ++ ([OpCode.OP_JUMP_IF_FALSE, (3 + 4) / 256, (3 + 4) % 256,
          OpCode.OP_POP] ++ [OpCode.OP_GET_GLOBAL, 1, OpCode.OP_POP] ++
          [OpCode.OP_JUMP, 0, 1, OpCode.OP_POP])) ([OBJ_VAL 5008] ++ [OBJ_VAL 5016]) :=
  have c := (C28_if_lowering sampleEnv (ParseStatement sampleEnv 3) 3 ifStart ifState1 ifState2
    ifState3 ifState6 [OpCode.OP_GET_GLOBAL, 0] [OpCode.OP_GET_GLOBAL, 1, OpCode.OP_POP]
    [OBJ_VAL 5008] [OBJ_VAL 5016] rfl
    ⟨fun e => absurd (congrArg List.isEmpty e) (by decide), rfl, rfl, rfl, rfl, rfl, rfl⟩
    rfl
    ⟨fun e => absurd (congrArg List.isEmpty e) (by decide), rfl, rfl, rfl, rfl, rfl, rfl⟩
    rfl
    ⟨fun e => absurd (congrArg List.isEmpty e) (by decide), rfl, rfl, rfl, rfl, rfl, rfl⟩
    rfl
    ⟨fun e => absurd (congrArg List.isEmpty e) (by decide), rfl, rfl, rfl, rfl, rfl, rfl⟩
    (by decide)).1
  let ⟨_, _, _, _, hno, _⟩ := c
  hno (by decide)

/-! ### The end of a scope -/

theorem afterScope_self (st : CompileState) (c : Compiler) (cs : List Compiler)
    (h : st.current = c :: cs) : st.afterScope c cs c.Locals [] = st := by
  obtain ⟨sc, pa, cur, cls, vm, fns, al, se⟩ := st
  simp only at h
  subst h
  simp [CompileState.afterScope]

theorem EndScopeLoop_spec :
    ∀ (n : Nat) (st : CompileState) (c : Compiler) (cs : List Compiler),
      st.current = c :: cs → c.Locals.length < n →
      EndScopeLoop n st = some
        (st.afterScope c cs (c.Locals.rdropWhile (fun l => decide (l.Depth > c.ScopeDepth)))
          ((c.Locals.reverse.takeWhile (fun l => decide (l.Depth > c.ScopeDepth))).map
            scopeExitInstruction)) := by
  intro n
  induction n with
  | zero => intro st c cs _ hn; omega
  | succ n ih =>
    intro st c cs hc hn
    unfold EndScopeLoop
    rw [hc]
    dsimp only
    rcases List.eq_nil_or_concat c.Locals with hl | ⟨init, l, hl⟩
    · rw [hl]
      simp only [List.getLast?_nil, List.rdropWhile_nil, List.reverse_nil, List.takeWhile_nil,
        List.map_nil]
      rw [← hl, afterScope_self st c cs hc]
    · rw [List.concat_eq_append] at hl
      have hgl : (init ++ [l]).getLast? = some l := by simp
      rw [hl, hgl]
      dsimp only
      by_cases hp : l.Depth > c.ScopeDepth
      · rw [if_pos hp]
        have hne : st.current ≠ [] := by rw [hc]; simp
        have hem : (if l.IsCaptured = true then EmitByte OpCode.OP_CLOSE_UPVALUE st
            else EmitByte OpCode.OP_POP st) = some (st.emit [scopeExitInstruction l]) := by
          unfold scopeExitInstruction
          split
          · rw [EmitByte_eq _ st hne]; rfl
          · rw [EmitByte_eq _ st hne]; rfl
        rw [hem]
        dsimp only
        have hcur : (st.emit [scopeExitInstruction l]).current =
            { c with Function := { c.Function with Chunk :=
              { c.Function.Chunk with
                Code := c.Function.Chunk.Code ++ [scopeExitInstruction l]
                Lines := c.Function.Chunk.Lines ++
                  List.replicate 1 st.parser.Previous.Line } } } :: cs := by
          obtain ⟨sc, pa, cur, cls, vm, fns, al, se⟩ := st
          simp only at hc
          subst hc
          rfl
        rw [hcur]
        dsimp only
        rw [ih _ _ cs rfl (by
          simp only [hl, List.dropLast_concat]
          rw [hl] at hn
          simp at hn
          omega)]
        simp only [hl, List.dropLast_concat, List.reverse_append, List.reverse_singleton,
          List.singleton_append, List.rdropWhile_concat, decide_eq_true_eq, hp, if_true,
          List.takeWhile_cons, List.map_cons]
        obtain ⟨sc, pa, cur, cls, vm, fns, al, se⟩ := st
        simp only at hc
        subst hc
        simp [CompileState.afterScope, CompileState.emit, CompileState.withChunk,
          CompileState.chunk]
        rw [← List.replicate_succ, List.replicate_succ']
      · rw [if_neg hp]
        simp only [List.rdropWhile_concat, decide_eq_true_eq, hp, if_false, List.reverse_append,
          List.reverse_singleton, List.singleton_append, List.takeWhile_cons, List.map_nil]
        rw [← hl, afterScope_self st c cs hc]

theorem EndScope_spec (st : CompileState) (c : Compiler) (cs : List Compiler)
    (h : st.current = c :: cs) :
    EndScope st = some
      (st.afterScope { c with ScopeDepth := c.ScopeDepth - 1 } cs
        (c.Locals.rdropWhile (fun l => decide (l.Depth > c.ScopeDepth - 1)))
        ((c.Locals.rtakeWhile (fun l => decide (l.Depth > c.ScopeDepth - 1))).reverse.map
          scopeExitInstruction)) := by
  unfold EndScope
  rw [h]
  dsimp only
  rw [EndScopeLoop_spec _ _ { c with ScopeDepth := c.ScopeDepth - 1 } cs rfl (by simp)]
  simp only [List.rtakeWhile, List.reverse_reverse]
  rfl

theorem rdropWhile_append_rtakeWhile {α : Type} (p : α → Bool) (l : List α) :
    l.rdropWhile p ++ l.rtakeWhile p = l := by
  rw [List.rdropWhile, List.rtakeWhile, ← List.reverse_append, List.takeWhile_append_dropWhile,
    List.reverse_reverse]

theorem rdropWhile_getLast_not {α : Type} (p : α → Bool) (l : List α) (x : α)
    (h : (l.rdropWhile p).getLast? = some x) : p x = false := by
  have hne : l.rdropWhile p ≠ [] := by
    intro e
    rw [e] at h
    simp at h
  have := List.rdropWhile_last_not p l hne
  rw [List.getLast?_eq_getLast _ hne] at h
  cases h
  simpa using this

/-- In a list of locals ordered by depth the trailing locals deeper than `d`
are all the locals deeper than `d`. -/
theorem rdropWhile_sorted (d : Int) :
    ∀ (l : List Local), l.Pairwise (fun a b => a.Depth ≤ b.Depth) →
      l.rdropWhile (fun x => decide (x.Depth > d)) = l.filter (fun x => decide (x.Depth ≤ d)) ∧
      l.rtakeWhile (fun x => decide (x.Depth > d)) = l.filter (fun x => decide (x.Depth > d)) := by
  intro l
  induction l using List.reverseRecOn with
  | nil => intro _; simp
  | append_singleton init x ih =>
    intro hs
    rw [List.pairwise_append] at hs
    obtain ⟨hi, _, hx⟩ := hs
    by_cases hp : x.Depth > d
    · rw [List.rdropWhile_concat_pos _ _ _ (by simpa using hp),
        List.rtakeWhile_concat_pos _ _ _ (by simpa using hp), List.filter_append,
        List.filter_append, (ih hi).1, (ih hi).2]
      have h1 : [x].filter (fun x => decide (x.Depth ≤ d)) = [] := by
        rw [List.filter_eq_nil_iff]
        intro y hy
        simp at hy
        subst hy
        simp
        omega
      have h2 : [x].filter (fun x => decide (x.Depth > d)) = [x] := by
        rw [List.filter_eq_self]
        intro y hy
        simp at hy
        subst hy
        simpa using hp
      rw [h1, h2]
      simp
    · rw [List.rdropWhile_concat_neg _ _ _ (by simpa using hp),
        List.rtakeWhile_concat_neg _ _ _ (by simpa using hp)]
      have hall : ∀ y ∈ init ++ [x], y.Depth ≤ d := by
        intro y hy
        rw [List.mem_append] at hy
        rcases hy with hy | hy
        · have := hx y hy x (by simp)
          omega
        · simp at hy
          subst hy
          omega
      constructor
      · symm
        rw [List.filter_eq_self]
        intro y hy
        simpa using hall y hy
      · symm
        rw [List.filter_eq_nil_iff]
        intro y hy
        have := hall y hy
        simp
        omega

theorem ResolveLocalLoop_lt (source : List Nat) (locals : List Local) (name : Token) :
    ∀ (n i : Nat) (u : Bool), ResolveLocalLoop source locals name n = some (i, u) →
      i < n ∧ ∃ l, locals[i]? = some l ∧ IdentifiersEqual source name l.Name = true := by
  intro n
  induction n with
  | zero => intro i u h; simp [ResolveLocalLoop] at h
  | succ n ih =>
    intro i u h
    unfold ResolveLocalLoop at h
    cases hl : locals[n]? with
    | none =>
      rw [hl] at h
      obtain ⟨h1, h2⟩ := ih i u h
      exact ⟨by omega, h2⟩
    | some l =>
      rw [hl] at h
      dsimp only at h
      split at h
      · cases h
        exact ⟨by omega, l, hl, by assumption⟩
      · obtain ⟨h1, h2⟩ := ih i u h
        exact ⟨by omega, h2⟩

/-- Claim C30: `EndScope` always returns for a state with a current compiler;
it decrements `ScopeDepth`, keeps the locals up to the last one whose `Depth`
is at most the new `ScopeDepth` and removes the locals after it, all of them
deeper than the new `ScopeDepth` (these are exactly the locals deeper than the
new `ScopeDepth` when the locals are ordered by depth, as declarations leave
them), and appends to the chunk one instruction per removed local, last
declared first: `OP_CLOSE_UPVALUE` for a captured local and `OP_POP`
otherwise.  Afterwards the last remaining local has `Depth <= ScopeDepth`, and
`ResolveLocal` answers `-1` or the index of a remaining local with the name,
never one of the removed locals. -/
theorem C30_end_scope (st : CompileState) (c : Compiler) (cs : List Compiler)
    (name : Token) (h : st.current = c :: cs) :
    ∃ kept removed st1 c1,
      EndScope st = some st1 ∧ st1.current = c1 :: cs ∧
      c1.ScopeDepth = c.ScopeDepth - 1 ∧ c1.Locals = kept ∧
      c.Locals = kept ++ removed ∧
      (∀ l ∈ removed, l.Depth > c1.ScopeDepth) ∧
      (∀ l, kept.getLast? = some l → l.Depth ≤ c1.ScopeDepth) ∧
      (c.Locals.Pairwise (fun a b => a.Depth ≤ b.Depth) →
        kept = c.Locals.filter (fun l => decide (l.Depth ≤ c1.ScopeDepth)) ∧
        removed = c.Locals.filter (fun l => decide (l.Depth > c1.ScopeDepth))) ∧
      st1.code = (st.code ++ removed.reverse.map
        (fun l => if l.IsCaptured then OpCode.OP_CLOSE_UPVALUE else OpCode.OP_POP)) ∧
      st1.constants = st.constants ∧ st1.parser = st.parser ∧
      ((ResolveLocal c1 name st1).1 = -1 ∨
        ∃ (i : Nat) (l : Local), (ResolveLocal c1 name st1).1 = (i : Int) ∧ i < kept.length ∧
          kept[i]? = some l ∧ c.Locals[i]? = some l ∧
          IdentifiersEqual st.scanner.Source name l.Name = true) := by
  refine ⟨c.Locals.rdropWhile (fun l => decide (l.Depth > c.ScopeDepth - 1)),
    c.Locals.rtakeWhile (fun l => decide (l.Depth > c.ScopeDepth - 1)), _, _,
    EndScope_spec st c cs h, rfl, rfl, rfl, (rdropWhile_append_rtakeWhile _ _).symm, ?_, ?_, ?_,
    ?_, ?_, rfl, ?_⟩
  · intro l hl
    simpa using List.mem_rtakeWhile_imp hl
  · intro l hl
    have := rdropWhile_getLast_not _ _ _ hl
    simp at this
    exact this
  · intro hs
    exact rdropWhile_sorted _ _ hs
  · simp only [CompileState.code, CompileState.chunk, CompileState.afterScope, h]
    rfl
  · simp only [CompileState.constants, CompileState.chunk, CompileState.afterScope, h]
  · unfold ResolveLocal
    dsimp only
    cases hr : ResolveLocalLoop (st.afterScope { c with ScopeDepth := c.ScopeDepth - 1 } cs
        (c.Locals.rdropWhile (fun l => decide (l.Depth > c.ScopeDepth - 1)))
        ((c.Locals.rtakeWhile (fun l => decide (l.Depth > c.ScopeDepth - 1))).reverse.map
          scopeExitInstruction)).scanner.Source
        (c.Locals.rdropWhile (fun l => decide (l.Depth > c.ScopeDepth - 1))) name
        (Compiler.LocalCount _) with
    | none => left; rfl
    | some r =>
      obtain ⟨i, u⟩ := r
      right
      obtain ⟨h1, l, h2, h3⟩ := ResolveLocalLoop_lt _ _ _ _ _ _ hr
      refine ⟨i, l, rfl, h1, h2, ?_, h3⟩
      have hpre := rdropWhile_append_rtakeWhile (fun l => decide (l.Depth > c.ScopeDepth - 1))
        c.Locals
      rw [← hpre, List.getElem?_append_left h1]
      exact h2

/-- At the end of the inner block of `{ var a; { var b; var c; } }` with `b`
captured, `c` and `b` are removed with `OP_POP` and `OP_CLOSE_UPVALUE`, and
`b` no longer resolves. -/
theorem C30_end_scope_witness :
    scopeEndState.current = scopeEndCompiler :: [] ∧
    (EndScope scopeEndState).map (fun s => (s.code, s.current.map (fun c => c.Locals.length),
      s.current.map (fun c => c.ScopeDepth))) =
      some ([OpCode.OP_POP, OpCode.OP_CLOSE_UPVALUE], [2], [1]) ∧
    ∃ kept removed st1 c1,
      EndScope scopeEndState = some st1 ∧ st1.current = c1 :: [] ∧
      c1.ScopeDepth = scopeEndCompiler.ScopeDepth - 1 ∧ c1.Locals = kept ∧
      scopeEndCompiler.Locals = kept ++ removed ∧
      (∀ l ∈ removed, l.Depth > c1.ScopeDepth) ∧
      (∀ l, kept.getLast? = some l → l.Depth ≤ c1.ScopeDepth) ∧
      (scopeEndCompiler.Locals.Pairwise (fun a b => a.Depth ≤ b.Depth) →
        kept = scopeEndCompiler.Locals.filter (fun l => decide (l.Depth ≤ c1.ScopeDepth)) ∧
        removed = scopeEndCompiler.Locals.filter (fun l => decide (l.Depth > c1.ScopeDepth))) ∧
      st1.code = (scopeEndState.code ++ removed.reverse.map
        (fun l => if l.IsCaptured then OpCode.OP_CLOSE_UPVALUE else OpCode.OP_POP)) ∧
      st1.constants = scopeEndState.constants ∧ st1.parser = scopeEndState.parser ∧
      ((ResolveLocal c1 ⟨TOKEN_IDENTIFIER, CharPtr.src 15, 1, 1⟩ st1).1 = -1 ∨
        ∃ (i : Nat) (l : Local), (ResolveLocal c1 ⟨TOKEN_IDENTIFIER, CharPtr.src 15, 1, 1⟩ st1).1 = (i : Int) ∧
          i < kept.length ∧
          kept[i]? = some l ∧ scopeEndCompiler.Locals[i]? = some l ∧
          IdentifiersEqual scopeEndState.scanner.Source ⟨TOKEN_IDENTIFIER, CharPtr.src 15, 1, 1⟩
            l.Name = true) :=
  ⟨rfl, by decide, C30_end_scope scopeEndState scopeEndCompiler []
    ⟨TOKEN_IDENTIFIER, CharPtr.src 15, 1, 1⟩ rfl⟩

/-! ### Calling a class -/

theorem TableGet_congr (heap1 heap2 : Nat → ObjString) (table : Table) (key : Nat)
    (h : heap1 key = heap2 key) : TableGet heap1 table key = TableGet heap2 table key := by
  unfold TableGet FindEntry
  rw [h]

theorem Call_eq (vm : VM) (c fn : Nat) (ups : List (Option Nat)) (f : ObjFunction) (n : Nat)
    (hc : vm.Heap c = some (Obj.Closure fn ups)) (hf : vm.Heap fn = some (Obj.Function f)) :
    Call c n vm =
      if n ≠ f.Arity then
        some (false,
          RuntimeError (chars "Expected %d arguments, but got %d.") [f.Arity, n] [] vm)
      else if vm.Frames.length = FRAMES_MAX then
        some (false, RuntimeError (chars "Stack overflow.") [] [] vm)
      else
        some (true, { vm with Frames := ⟨c, 0, vm.Stack.length - n - 1⟩ :: vm.Frames }) := by
  unfold Call
  rw [hc]
  dsimp only
  rw [hf]

theorem CallValue_class (env : VMEnv) (vm : VM) (callee : Value) (name : Nat) (methods : Table)
    (initString n : Nat)
    (hobj : IS_OBJ callee = true)
    (hk : vm.Heap (AS_OBJ callee) = some (Obj.Class name methods))
    (hinit : vm.InitString = some initString) (hlive : initString ∈ vm.Objects)
    (hn : n < vm.Stack.length) (hfresh : env.alloc vm.Allocs ∉ vm.Objects) :
    CallValue env callee n vm =
      match TableGet vm.strings methods initString with
      | none => none
      | some (some initializer) =>
        Call (AS_OBJ initializer) n (vm.withInstance (env.alloc vm.Allocs) (AS_OBJ callee) n)
      | some none =>
        if n ≠ 0 then
          some (false, RuntimeError (chars "Expected 0 arguments but got %d.") [n] []
            (vm.withInstance (env.alloc vm.Allocs) (AS_OBJ callee) n))
        else some (true, vm.withInstance (env.alloc vm.Allocs) (AS_OBJ callee) n) := by
  have hne : initString ≠ env.alloc vm.Allocs := fun e => hfresh (e ▸ hlive)
  obtain ⟨fr, stk, gl, strs, ini, ou, objs, hp, al, so, se⟩ := vm
  simp only at hinit hk hn hfresh hne
  subst hinit
  have hget2 : TableGet ((VM.mk fr stk gl strs (some initString) ou objs hp al so se).withInstance
      (env.alloc al) (AS_OBJ callee) n).strings methods
      initString = TableGet (VM.mk fr stk gl strs (some initString) ou objs hp al so
        se).strings methods initString := by
    apply TableGet_congr
    simp [VM.strings, VM.withInstance, hne]
  rw [← hget2]
  unfold CallValue
  rw [if_pos hobj]
  dsimp only
  rw [hk]
  dsimp only
  unfold AllocateObject
  dsimp only
  rw [if_neg hfresh]
  dsimp only
  rw [setBelowArgs_eq _ _ _ hn]
  rfl

/-- Claim C23 (calling a class): when the callee is a class `k`, the `init`
string is a live object, the callee slot exists and the allocator returns,
`CallValue(k, n)` stores a new instance in the callee slot, and nothing else on
the stack changes; the instance is a new object whose class is `k` and whose
field table is empty, and no other object changes.  If `TableGet` finds the
`init` string in `k.Methods`, the result is that of `Call` on the closure
found, with `n` arguments: the arity error, `Stack overflow.` at 64 frames, or
`true` with the frame of the initializer pushed.  Otherwise the result is
`true` without a new frame when `n = 0`, and `false` with the runtime error
`Expected 0 arguments but got %d.` for `n` when `n != 0`. -/
theorem C23_call_class (env : VMEnv) (vm : VM) (callee : Value) (name : Nat) (methods : Table)
    (initString n : Nat) (r : Option Value)
    (hobj : IS_OBJ callee = true)
    (hk : vm.Heap (AS_OBJ callee) = some (Obj.Class name methods))
    (hinit : vm.InitString = some initString) (hlive : initString ∈ vm.Objects)
    (hn : n < vm.Stack.length) (hfresh : env.alloc vm.Allocs ∉ vm.Objects)
    (hget : TableGet vm.strings methods initString = some r) :
    ∃ (p : Nat) (vm2 : VM),
      p ∉ vm.Objects ∧ vm2.Objects = p :: vm.Objects ∧
      vm2.Heap p = some (Obj.Instance (AS_OBJ callee) InitTable) ∧
      (∀ heap key, TableGet heap InitTable key = some none) ∧
      (∀ q, q ≠ p → vm2.Heap q = vm.Heap q) ∧
      vm2.Stack[n]? = some (OBJ_VAL p) ∧ vm2.Stack.length = vm.Stack.length ∧
      (∀ i, i ≠ n → vm2.Stack[i]? = vm.Stack[i]?) ∧
      vm2.Frames = vm.Frames ∧ vm2.stderr = vm.stderr ∧ vm2.stdout = vm.stdout ∧
      vm2.Globals = vm.Globals ∧
      (∀ initializer, r = some initializer →
        CallValue env callee n vm = Call (AS_OBJ initializer) n vm2 ∧
        ∀ fn ups f, vm.Heap (AS_OBJ initializer) = some (Obj.Closure fn ups) →
          vm.Heap fn = some (Obj.Function f) →
          AS_OBJ initializer ∈ vm.Objects → fn ∈ vm.Objects →
          CallValue env callee n vm =
            if n ≠ f.Arity then
              some (false,
                RuntimeError (chars "Expected %d arguments, but got %d.") [f.Arity, n] [] vm2)
            else if vm.Frames.length = FRAMES_MAX then
              some (false, RuntimeError (chars "Stack overflow.") [] [] vm2)
            else
              some (true,
                { vm2 with
                  Frames := ⟨AS_OBJ initializer, 0, vm.Stack.length - n - 1⟩ :: vm.Frames })) ∧
      (r = none → n = 0 → CallValue env callee n vm = some (true, vm2)) ∧
      (r = none → n ≠ 0 →
        CallValue env callee n vm = some (false,
          RuntimeError (chars "Expected 0 arguments but got %d.") [n] [] vm2) ∧
        (RuntimeError (chars "Expected 0 arguments but got %d.") [n] [] vm2).stderr =
          vm.stderr ++ [⟨chars "Expected 0 arguments but got %d.", [n], []⟩]) := by
  have hcv := CallValue_class env vm callee name methods initString n hobj hk hinit hlive hn
    hfresh
  rw [hget] at hcv
  refine ⟨env.alloc vm.Allocs, vm.withInstance (env.alloc vm.Allocs) (AS_OBJ callee) n, hfresh,
    rfl, ?_, ?_, ?_, ?_, ?_, ?_, rfl, rfl, rfl, rfl, ?_, ?_, ?_⟩
  · simp [VM.withInstance]
  · intro heap key
    rfl
  · intro q hq
    simp [VM.withInstance, hq]
  · simp [VM.withInstance, hn]
  · simp [VM.withInstance]
  · intro i hi
    simp only [VM.withInstance]
    rw [List.getElem?_set_ne (Ne.symm hi)]
  · intro initializer hr
    subst hr
    refine ⟨hcv, ?_⟩
    intro fn ups f hc hf hco hfo
    have hc2 : (vm.withInstance (env.alloc vm.Allocs) (AS_OBJ callee) n).Heap (AS_OBJ initializer) =
        some (Obj.Closure fn ups) := by
      have : AS_OBJ initializer ≠ env.alloc vm.Allocs := fun e => hfresh (e ▸ hco)
      simp [VM.withInstance, this, hc]
    have hf2 : (vm.withInstance (env.alloc vm.Allocs) (AS_OBJ callee) n).Heap fn =
        some (Obj.Function f) := by
      have : fn ≠ env.alloc vm.Allocs := fun e => hfresh (e ▸ hfo)
      simp [VM.withInstance, this, hf]
    rw [hcv]
    dsimp only
    rw [Call_eq _ _ fn ups f n hc2 hf2]
    have hl : (vm.withInstance (env.alloc vm.Allocs) (AS_OBJ callee) n).Stack.length =
        vm.Stack.length := by simp [VM.withInstance]
    rw [hl]
    rfl
  · intro hr h0
    subst hr
    rw [hcv]
    dsimp only
    rw [if_neg (not_not.mpr h0)]
  · intro hr h0
    subst hr
    rw [hcv]
    dsimp only
    rw [if_pos h0]
    exact ⟨rfl, rfl⟩

/-- Calling the class without methods of `classVM` with one argument stores
the new instance in the callee slot and is the runtime error
`Expected 0 arguments but got %d.` with 1. -/
theorem C23_call_class_witness :
    CallValue sampleVMEnv (OBJ_VAL 16) 1 classVM =
      some (false, RuntimeError (chars "Expected 0 arguments but got %d.") [1] []
        (classVM.withInstance 5016 16 1)) ∧
    ∃ (p : Nat) (vm2 : VM),
      p ∉ classVM.Objects ∧ vm2.Objects = p :: classVM.Objects ∧
      vm2.Heap p = some (Obj.Instance (AS_OBJ (OBJ_VAL 16)) InitTable) ∧
      (∀ heap key, TableGet heap InitTable key = some none) ∧
      (∀ q, q ≠ p → vm2.Heap q = classVM.Heap q) ∧
      vm2.Stack[1]? = some (OBJ_VAL p) ∧ vm2.Stack.length = classVM.Stack.length ∧
      (∀ i, i ≠ 1 → vm2.Stack[i]? = classVM.Stack[i]?) ∧
      vm2.Frames = classVM.Frames ∧ vm2.stderr = classVM.stderr ∧
      vm2.stdout = classVM.stdout ∧ vm2.Globals = classVM.Globals ∧
      (∀ initializer, (none : Option Value) = some initializer →
        CallValue sampleVMEnv (OBJ_VAL 16) 1 classVM = Call (AS_OBJ initializer) 1 vm2 ∧
        ∀ fn ups f, classVM.Heap (AS_OBJ initializer) = some (Obj.Closure fn ups) →
          classVM.Heap fn = some (Obj.Function f) →
          AS_OBJ initializer ∈ classVM.Objects → fn ∈ classVM.Objects →
          CallValue sampleVMEnv (OBJ_VAL 16) 1 classVM =
            if 1 ≠ f.Arity then
              some (false,
                RuntimeError (chars "Expected %d arguments, but got %d.") [f.Arity, 1] [] vm2)
            else if classVM.Frames.length = FRAMES_MAX then
              some (false, RuntimeError (chars "Stack overflow.") [] [] vm2)
            else
              some (true,
                { vm2 with
                  Frames := ⟨AS_OBJ initializer, 0, classVM.Stack.length - 1 - 1⟩ ::
                    classVM.Frames })) ∧
      ((none : Option Value) = none → 1 = 0 →
        CallValue sampleVMEnv (OBJ_VAL 16) 1 classVM = some (true, vm2)) ∧
      ((none : Option Value) = none → 1 ≠ 0 →
        CallValue sampleVMEnv (OBJ_VAL 16) 1 classVM = some (false,
          RuntimeError (chars "Expected 0 arguments but got %d.") [1] [] vm2) ∧
        (RuntimeError (chars "Expected 0 arguments but got %d.") [1] [] vm2).stderr =
          classVM.stderr ++ [⟨chars "Expected 0 arguments but got %d.", [1], []⟩]) :=
  ⟨rfl, C23_call_class sampleVMEnv classVM (OBJ_VAL 16) 8 InitTable 8 1 none (by decide) rfl rfl
    (by decide) (by decide) (by decide) rfl⟩

/-! ### Changes that keep the frames and the open upvalues -/

theorem Keeps.self (vm : VM) : Keeps vm vm := ⟨rfl, rfl, fun _ h => h, fun _ _ _ _ _ _ => rfl⟩

theorem Keeps.andThen {vm vm1 vm2 : VM} (h1 : Keeps vm vm1) (h2 : Keeps vm1 vm2) : Keeps vm vm2 := by
  refine ⟨h2.frames.trans h1.frames, h2.openUpValues.trans h1.openUpValues,
    fun p hp => h2.objects p (h1.objects p hp), ?_⟩
  intro p slot closed next hp hh
  have e1 := h1.heap p slot closed next hp hh
  rw [← e1]
  exact h2.heap p slot closed next (h1.objects p hp) (e1.trans hh)

theorem Keeps.frameCount {vm vm1 : VM} (hk : Keeps vm vm1) :
    vm1.Frames.length = vm.Frames.length := by
  have := congrArg List.length hk.frames
  simpa using this

theorem Keeps.of_eq {vm vm1 : VM}
    (hf : vm1.Frames.map (fun f => (f.Closure, f.Slots)) =
      vm.Frames.map (fun f => (f.Closure, f.Slots)))
    (ho : vm1.OpenUpValues = vm.OpenUpValues) (hob : vm1.Objects = vm.Objects)
    (hh : vm1.Heap = vm.Heap) : Keeps vm vm1 :=
  ⟨hf, ho, fun p hp => hob ▸ hp, fun p _ _ _ _ _ => by rw [hh]⟩

theorem Keeps_Push {v : Value} {vm vm1 : VM} (h : Push v vm = some vm1) : Keeps vm vm1 := by
  unfold Push at h
  split at h
  · cases h
    exact Keeps.of_eq rfl rfl rfl rfl
  · cases h

theorem Keeps_Pop {v : Value} {vm vm1 : VM} (h : Pop vm = some (v, vm1)) : Keeps vm vm1 := by
  unfold Pop at h
  split at h
  · cases h
  · cases h
    exact Keeps.of_eq rfl rfl rfl rfl

theorem Keeps_setSlot {v : Value} {slot : Nat} {vm vm1 : VM} (h : vm.setSlot slot v = some vm1) :
    Keeps vm vm1 := by
  unfold VM.setSlot at h
  split at h
  · cases h
    exact Keeps.of_eq rfl rfl rfl rfl
  · cases h

theorem Keeps_setBelowArgs {v : Value} {n : Nat} {vm vm1 : VM}
    (h : vm.setBelowArgs n v = some vm1) : Keeps vm vm1 := by
  unfold VM.setBelowArgs at h
  split at h
  · cases h
    exact Keeps.of_eq rfl rfl rfl rfl
  · cases h

theorem Keeps_setIP (vm : VM) (ip : Nat) : Keeps vm (vm.setIP ip) := by
  unfold VM.setIP
  split
  · exact Keeps.self vm
  · rename_i frame frames hfr
    refine Keeps.of_eq ?_ rfl rfl rfl
    rw [hfr]
    rfl

theorem Keeps_READ_BYTE {b : Nat} {vm vm1 : VM} (h : READ_BYTE vm = some (b, vm1)) :
    Keeps vm vm1 := by
  unfold READ_BYTE at h
  simp only [Option.bind_eq_bind, Option.bind_eq_some, Option.some.injEq, Prod.mk.injEq] at h
  obtain ⟨frame, _, f, _, byte, _, _, rfl⟩ := h
  exact Keeps_setIP vm _

theorem Keeps_READ_CONSTANT {c : Value} {vm vm1 : VM} (h : READ_CONSTANT vm = some (c, vm1)) :
    Keeps vm vm1 := by
  unfold READ_CONSTANT at h
  simp only [Option.bind_eq_bind, Option.bind_eq_some, Option.some.injEq, Prod.mk.injEq,
    Prod.exists] at h
  obtain ⟨index, vm2, hb, f, _, constant, _, _, rfl⟩ := h
  exact Keeps_READ_BYTE hb

theorem Keeps_READ_STRING {s : Nat} {vm vm1 : VM} (h : READ_STRING vm = some (s, vm1)) :
    Keeps vm vm1 := by
  unfold READ_STRING at h
  simp only [Option.map_eq_some', Prod.mk.injEq, Prod.exists] at h
  obtain ⟨c, vm2, hc, _, rfl⟩ := h
  exact Keeps_READ_CONSTANT hc

theorem Keeps_AllocateObject {env : VMEnv} {object : Obj} {p : Nat} {vm vm1 : VM}
    (h : AllocateObject env object vm = some (p, vm1)) : Keeps vm vm1 := by
  unfold AllocateObject at h
  split at h
  · cases h
  · rename_i hno
    simp only [Option.some.injEq, Prod.mk.injEq] at h
    obtain ⟨rfl, rfl⟩ := h
    refine ⟨rfl, rfl, fun p hp => List.mem_cons_of_mem _ hp, ?_⟩
    intro q slot closed next hq _
    have : q ≠ env.alloc vm.Allocs := fun e => hno (e ▸ hq)
    simp [this]

theorem Keeps_store (vm : VM) (p : Nat) (object : Obj)
    (h : ∀ slot closed next,
      vm.Heap p ≠ some (Obj.UpValue (UpValueLocation.Stack slot) closed next)) :
    Keeps vm (vm.store p object) := by
  refine ⟨rfl, rfl, fun _ hp => hp, ?_⟩
  intro q slot closed next _ hq
  have : q ≠ p := fun e => h slot closed next (e ▸ hq)
  simp [VM.store, this]

theorem isOpenList_congr (heap heap1 : Nat → Option Obj) (objects : List Nat) :
    ∀ (l : List (Nat × Nat)) (head : Option Nat),
      (∀ x ∈ l, x.1 ∈ objects) →
      (∀ p slot closed next, p ∈ objects →
        heap p = some (Obj.UpValue (UpValueLocation.Stack slot) closed next) →
        heap1 p = heap p) →
      isOpenList heap head l = true → isOpenList heap1 head l = true := by
  intro l
  induction l with
  | nil => intro head _ _ h; exact h
  | cons x rest ih =>
    intro head hobj hheap h
    obtain ⟨a, slot⟩ := x
    unfold isOpenList at h ⊢
    simp only [Bool.and_eq_true] at h ⊢
    refine ⟨h.1, ?_⟩
    have h2 := h.2
    cases hh : heap a with
    | none => rw [hh] at h2; cases h2
    | some o =>
      rw [hh] at h2
      cases o with
      | UpValue loc closed next =>
        cases loc with
        | Stack s =>
          rw [hheap a s closed next (hobj (a, slot) (List.mem_cons_self _ _)) hh, hh]
          simp only [Bool.and_eq_true] at h2 ⊢
          exact ⟨h2.1, ih next (fun x hx => hobj x (List.mem_cons_of_mem _ hx)) hheap h2.2⟩
        | Closed => cases h2
      | _ => cases h2

theorem OpenSorted.kept {vm vm1 : VM} {l : List (Nat × Nat)} (h : OpenSorted vm l)
    (hk : Keeps vm vm1) : OpenSorted vm1 l := by
  obtain ⟨h1, h2, h3⟩ := h
  refine ⟨?_, h2, fun x hx => hk.objects _ (h3 x hx)⟩
  rw [hk.openUpValues]
  exact isOpenList_congr vm.Heap vm1.Heap vm.Objects l _ h3 hk.heap h1

theorem getLast?_map_slots (l l1 : List CallFrame)
    (h : l1.map (fun f => (f.Closure, f.Slots)) = l.map (fun f => (f.Closure, f.Slots)))
    (f1 : CallFrame) (h1 : l1.getLast? = some f1) :
    ∃ f, l.getLast? = some f ∧ f.Slots = f1.Slots := by
  have e := congrArg List.getLast? h
  rw [List.getLast?_map, List.getLast?_map, h1] at e
  cases hl : l.getLast? with
  | none => rw [hl] at e; cases e
  | some f =>
    rw [hl] at e
    simp only [Option.map_some', Option.some.injEq, Prod.mk.injEq] at e
    exact ⟨f, rfl, e.2.symm⟩

theorem FramesInv.framesKept {vm vm1 : VM} (h : FramesInv vm) (hk : Keeps vm vm1) : FramesInv vm1 := by
  obtain ⟨h1, h2⟩ := h
  constructor
  · have := congrArg List.length hk.frames
    simp only [List.length_map] at this
    omega
  · intro f1 hf1
    obtain ⟨f, hf, e⟩ := getLast?_map_slots _ _ hk.frames f1 hf1
    rw [← e]
    exact h2 f hf

theorem RunInv.keeps {vm vm1 : VM} (h : RunInv vm) (hk : Keeps vm vm1) : RunInv vm1 := by
  obtain ⟨h1, l, h2⟩ := h
  exact ⟨h1.framesKept hk, l, h2.kept hk⟩

theorem RunInv_ResetStack (vm : VM) : RunInv (ResetStack vm) :=
  ⟨⟨by simp [ResetStack], by simp [ResetStack]⟩, [], rfl, by simp, by simp⟩

theorem RunInv_RuntimeError (format ints text : List Nat) (vm : VM) :
    RunInv (RuntimeError format ints text vm) := RunInv_ResetStack _

theorem EntryInv_RuntimeError (format ints text : List Nat) (vm : VM) :
    EntryInv (RuntimeError format ints text vm) := ⟨rfl, rfl⟩

/-! ### Calls -/

theorem CallOutcome.afterKeeps {vm vm1 vm2 : VM} {b : Bool} (hk : Keeps vm vm1)
    (h : CallOutcome vm1 b vm2) : CallOutcome vm b vm2 := by
  rcases h with h | ⟨hb, vm3, hk3, h3⟩
  · exact Or.inl h
  · exact Or.inr ⟨hb, vm3, hk.andThen hk3, h3⟩

theorem Call_outcome {c n : Nat} {vm vm2 : VM} {b : Bool} (h : Call c n vm = some (b, vm2)) :
    CallOutcome vm b vm2 := by
  unfold Call at h
  split at h
  · split at h
    · split at h
      · cases h
        exact Or.inl ⟨rfl, _, _, _, _, rfl⟩
      · split at h
        · cases h
          exact Or.inl ⟨rfl, _, _, _, _, rfl⟩
        · rename_i hne
          cases h
          exact Or.inr ⟨rfl, vm, Keeps.self vm, Or.inr ⟨_, hne, rfl⟩⟩
    · cases h
  · cases h

theorem CallValue_outcome {env : VMEnv} {callee : Value} {n : Nat} {vm vm2 : VM} {b : Bool}
    (h : CallValue env callee n vm = some (b, vm2)) : CallOutcome vm b vm2 := by
  unfold CallValue at h
  split at h
  · split at h
    · cases h
    · simp only [Option.bind_eq_some] at h
      obtain ⟨vm1, h1, h2⟩ := h
      exact (Call_outcome h2).afterKeeps (Keeps_setBelowArgs h1)
    · split at h
      · cases h
      · rename_i newInstance vm1 ha
        split at h
        · rename_i vm3 initString hs hi
          split at h
          · cases h
          · exact (Call_outcome h).afterKeeps ((Keeps_AllocateObject ha).andThen (Keeps_setBelowArgs hs))
          · split at h
            · cases h
              exact Or.inl ⟨rfl, _, _, _, _, rfl⟩
            · cases h
              exact Or.inr ⟨rfl, _, (Keeps_AllocateObject ha).andThen (Keeps_setBelowArgs hs),
                Or.inl rfl⟩
        · cases h
    · exact Call_outcome h
    · split at h
      · simp only [Option.map_eq_some', Prod.mk.injEq] at h
        obtain ⟨vm1, h1, rfl, rfl⟩ := h
        refine Or.inr ⟨rfl, vm1, ?_, Or.inl rfl⟩
        exact (Keeps.of_eq rfl rfl rfl rfl : Keeps vm
          { vm with Stack := vm.Stack.drop (n + 1) }).andThen (Keeps_Push h1)
      · cases h
    · cases h
      exact Or.inl ⟨rfl, _, _, _, _, rfl⟩
  · cases h
    exact Or.inl ⟨rfl, _, _, _, _, rfl⟩

theorem InvokeFromClass_outcome {klass name n : Nat} {vm vm2 : VM} {b : Bool}
    (h : InvokeFromClass klass name n vm = some (b, vm2)) : CallOutcome vm b vm2 := by
  unfold InvokeFromClass at h
  split at h
  · split at h
    · cases h
    · cases h
      exact Or.inl ⟨rfl, _, _, _, _, rfl⟩
    · exact Call_outcome h
  · cases h

theorem Invoke_outcome {env : VMEnv} {name n : Nat} {vm vm2 : VM} {b : Bool}
    (h : Invoke env name n vm = some (b, vm2)) : CallOutcome vm b vm2 := by
  unfold Invoke at h
  split at h
  · cases h
  · split at h
    · split at h
      · cases h
      · split at h
        · cases h
        · simp only [Option.bind_eq_some] at h
          obtain ⟨vm1, h1, h2⟩ := h
          exact (CallValue_outcome h2).afterKeeps (Keeps_setBelowArgs h1)
        · exact InvokeFromClass_outcome h
      · cases h
        exact Or.inl ⟨rfl, _, _, _, _, rfl⟩
    · cases h
      exact Or.inl ⟨rfl, _, _, _, _, rfl⟩

theorem getLast?_cons_of_ne {α : Type} (a : α) (l : List α) (h : l ≠ []) :
    (a :: l).getLast? = l.getLast? := by
  cases l with
  | nil => exact absurd rfl h
  | cons b t => rfl

theorem Keeps.frames_ne {vm vm1 : VM} (hk : Keeps vm vm1) (h : vm.Frames ≠ []) :
    vm1.Frames ≠ [] := by
  intro e
  have := congrArg List.length hk.frames
  rw [e] at this
  simp only [List.map_nil, List.length_nil, List.length_map] at this
  exact h (List.length_eq_zero.mp this.symm)

theorem CallOutcome.callInv {vm vm2 : VM} {b : Bool} (h : CallOutcome vm b vm2) (hi : RunInv vm)
    (hne : vm.Frames ≠ []) : RunInv vm2 := by
  rcases h with ⟨_, format, ints, text, vm0, rfl⟩ | ⟨_, vm1, hk, h2⟩
  · exact RunInv_RuntimeError _ _ _ _
  · have hi1 := hi.keeps hk
    rcases h2 with rfl | ⟨frame, hlen, rfl⟩
    · exact hi1
    · obtain ⟨⟨hl, hlast⟩, l, ho⟩ := hi1
      refine ⟨⟨?_, ?_⟩, l, ho⟩
      · simp only [List.length_cons]
        omega
      · intro f hf
        simp only at hf
        rw [getLast?_cons_of_ne _ _ (hk.frames_ne hne)] at hf
        exact hlast f hf

/-! ### The list of open upvalues -/

theorem isOpenList_head (heap : Nat → Option Obj) (head : Option Nat) (l : List (Nat × Nat))
    (h : isOpenList heap head l = true) : head = headOf l := by
  cases l with
  | nil =>
    unfold isOpenList at h
    cases head with
    | none => rfl
    | some a => cases h
  | cons x rest =>
    obtain ⟨a, slot⟩ := x
    unfold isOpenList at h
    simp only [Bool.and_eq_true, beq_iff_eq] at h
    exact h.1

theorem isOpenList_cons (heap : Nat → Option Obj) (head : Option Nat) (a slot : Nat)
    (rest : List (Nat × Nat)) :
    isOpenList heap head ((a, slot) :: rest) = true ↔
      head = some a ∧ ∃ closed,
        heap a = some (Obj.UpValue (UpValueLocation.Stack slot) closed (headOf rest)) ∧
        isOpenList heap (headOf rest) rest = true := by
  constructor
  · intro h
    unfold isOpenList at h
    simp only [Bool.and_eq_true, beq_iff_eq] at h
    refine ⟨h.1, ?_⟩
    have h2 := h.2
    cases hh : heap a with
    | none => rw [hh] at h2; cases h2
    | some o =>
      rw [hh] at h2
      cases o with
      | UpValue loc closed next =>
        cases loc with
        | Stack s =>
          simp only [Bool.and_eq_true, beq_iff_eq] at h2
          have e := isOpenList_head heap next rest h2.2
          subst e
          rw [h2.1]
          exact ⟨closed, rfl, h2.2⟩
        | Closed => cases h2
      | _ => cases h2
  · rintro ⟨rfl, closed, hh, hr⟩
    unfold isOpenList
    rw [hh]
    simp [hr]

theorem isOpenList_agree (heap heap1 : Nat → Option Obj) :
    ∀ (l : List (Nat × Nat)) (head : Option Nat),
      (∀ x ∈ l, heap1 x.1 = heap x.1) →
      isOpenList heap head l = true → isOpenList heap1 head l = true := by
  intro l
  induction l with
  | nil => intro head _ h; exact h
  | cons x rest ih =>
    intro head hag h
    obtain ⟨a, slot⟩ := x
    rw [isOpenList_cons] at h ⊢
    obtain ⟨h1, closed, h2, h3⟩ := h
    refine ⟨h1, closed, ?_, ih _ (fun x hx => hag x (List.mem_cons_of_mem _ hx)) h3⟩
    rw [hag (a, slot) (List.mem_cons_self _ _)]
    exact h2

theorem isOpenList_mem (heap : Nat → Option Obj) :
    ∀ (l : List (Nat × Nat)) (head : Option Nat), isOpenList heap head l = true →
      ∀ a slot, (a, slot) ∈ l →
        ∃ closed next, heap a = some (Obj.UpValue (UpValueLocation.Stack slot) closed next) := by
  intro l
  induction l with
  | nil => intro head _ a slot hm; cases hm
  | cons x rest ih =>
    intro head h a slot hm
    obtain ⟨b, s⟩ := x
    rw [isOpenList_cons] at h
    obtain ⟨_, closed, h2, h3⟩ := h
    rcases List.mem_cons.mp hm with e | hm
    · cases e
      exact ⟨closed, _, h2⟩
    · exact ih _ h3 a slot hm

theorem isOpenList_append (heap : Nat → Option Obj) :
    ∀ (l1 l2 : List (Nat × Nat)) (head : Option Nat), isOpenList heap head (l1 ++ l2) = true →
      isOpenList heap (headOf l2) l2 = true := by
  intro l1
  induction l1 with
  | nil =>
    intro l2 head h
    have := isOpenList_head heap head l2 h
    subst this
    exact h
  | cons x rest ih =>
    intro l2 head h
    obtain ⟨b, s⟩ := x
    rw [List.cons_append, isOpenList_cons] at h
    obtain ⟨_, closed, h2, h3⟩ := h
    exact ih l2 _ h3

/-- The addresses of a sorted list of open upvalues are distinct. -/
theorem OpenSorted.nodup {vm : VM} {l : List (Nat × Nat)} (h : OpenSorted vm l) :
    (l.map Prod.fst).Nodup := by
  obtain ⟨h1, h2, _⟩ := h
  rw [List.pairwise_map] at h2
  rw [List.Nodup, List.pairwise_map]
  refine h2.imp_of_mem ?_
  intro x y hx hy hgt e
  obtain ⟨c1, n1, e1⟩ := isOpenList_mem vm.Heap l _ h1 x.1 x.2 hx
  obtain ⟨c2, n2, e2⟩ := isOpenList_mem vm.Heap l _ h1 y.1 y.2 hy
  rw [e, e2] at e1
  simp only [Option.some.injEq, Obj.UpValue.injEq, UpValueLocation.Stack.injEq] at e1
  omega

theorem OpenSorted.length_le {vm : VM} {l : List (Nat × Nat)} (h : OpenSorted vm l) :
    l.length ≤ vm.Objects.length := by
  have hn := h.nodup
  have hs : l.map Prod.fst ⊆ vm.Objects := by
    intro a ha
    rw [List.mem_map] at ha
    obtain ⟨x, hx, rfl⟩ := ha
    exact h.2.2 x hx
  have := (List.subperm_of_subset hn hs).length_le
  simpa using this

theorem prevOf_cons (x : Nat × Nat) (above : List (Nat × Nat)) (prev : Option Nat) :
    prevOf (x :: above) prev = prevOf above (some x.1) := by
  unfold prevOf
  cases above with
  | nil => rfl
  | cons y t =>
    rw [List.getLast?_cons_cons]
    cases hl : (y :: t).getLast? with
    | none => simp at hl
    | some z => rfl

theorem CaptureUpValueLoop_spec (vm : VM) (local_ : Nat) :
    ∀ (l : List (Nat × Nat)) (head prev : Option Nat) (fuel : Nat),
      isOpenList vm.Heap head l = true → l.length < fuel →
      CaptureUpValueLoop vm local_ fuel prev head =
        some (prevOf (aboveSlot local_ l) prev, headOf (fromSlot local_ l)) := by
  intro l
  induction l with
  | nil =>
    intro head prev fuel h hf
    have := isOpenList_head _ _ _ h
    subst this
    cases fuel with
    | zero => omega
    | succ n => rfl
  | cons x t ih =>
    intro head prev fuel h hf
    obtain ⟨a, s⟩ := x
    rw [isOpenList_cons] at h
    obtain ⟨rfl, closed, hh, ht⟩ := h
    cases fuel with
    | zero => omega
    | succ n =>
      unfold CaptureUpValueLoop
      dsimp only
      rw [hh]
      dsimp only
      by_cases hs : s > local_
      · rw [if_pos hs, ih _ _ _ ht (by simpa using hf)]
        have e1 : aboveSlot local_ ((a, s) :: t) = (a, s) :: aboveSlot local_ t := by
          simp [aboveSlot, List.takeWhile_cons, hs]
        have e2 : fromSlot local_ ((a, s) :: t) = fromSlot local_ t := by
          simp [fromSlot, List.dropWhile_cons, hs]
        rw [e1, e2, prevOf_cons]
      · rw [if_neg hs]
        have e1 : aboveSlot local_ ((a, s) :: t) = [] := by
          simp [aboveSlot, List.takeWhile_cons, hs]
        have e2 : fromSlot local_ ((a, s) :: t) = (a, s) :: t := by
          simp [fromSlot, List.dropWhile_cons, hs]
        rw [e1, e2]
        rfl

theorem aboveSlot_append_fromSlot (local_ : Nat) (l : List (Nat × Nat)) :
    aboveSlot local_ l ++ fromSlot local_ l = l := List.takeWhile_append_dropWhile _ _

/-- Splicing a new upvalue into the list after the upvalues `above`. -/
theorem isOpenList_insert (heap heap1 : Nat → Option Obj) (created local_ : Nat)
    (rest : List (Nat × Nat))
    (hc : heap1 created =
      some (Obj.UpValue (UpValueLocation.Stack local_) NIL_VAL (headOf rest)))
    (hrest : ∀ x ∈ rest, heap1 x.1 = heap x.1) :
    ∀ (above : List (Nat × Nat)) (head : Option Nat),
      isOpenList heap head (above ++ rest) = true →
      (∀ x ∈ above.dropLast, heap1 x.1 = heap x.1) →
      (∀ p s, above.getLast? = some (p, s) → ∀ closed next,
        heap p = some (Obj.UpValue (UpValueLocation.Stack s) closed next) →
        heap1 p = some (Obj.UpValue (UpValueLocation.Stack s) closed (some created))) →
      isOpenList heap1 (if above = [] then some created else head)
        (above ++ (created, local_) :: rest) = true := by
  intro above
  induction above with
  | nil =>
    intro head h _ _
    rw [if_pos rfl, List.nil_append, isOpenList_cons]
    refine ⟨rfl, NIL_VAL, hc, ?_⟩
    exact isOpenList_agree heap heap1 rest _ hrest (isOpenList_append heap [] rest head h)
  | cons x t ih =>
    intro head h habove hlast
    obtain ⟨a, s⟩ := x
    rw [List.cons_append, isOpenList_cons] at h
    obtain ⟨rfl, closed, hh, ht⟩ := h
    rw [if_neg (by simp), List.cons_append, isOpenList_cons]
    refine ⟨rfl, ?_⟩
    cases t with
    | nil =>
      refine ⟨closed, ?_, ?_⟩
      · rw [hlast a s rfl closed _ hh]
        rfl
      · have := ih (headOf ([] ++ rest)) ht (by simp) (by simp)
        rw [if_pos rfl] at this
        exact this
    | cons y t2 =>
      refine ⟨closed, ?_, ?_⟩
      · rw [habove (a, s) (by simp [List.dropLast])]
        exact hh
      · have := ih (headOf ((y :: t2) ++ rest)) ht
          (fun x hx => habove x (by
            rw [List.dropLast_cons_of_ne_nil (by simp)]
            exact List.mem_cons_of_mem _ hx))
          (fun p s hp => hlast p s (by rw [List.getLast?_cons_cons]; exact hp))
        rw [if_neg (by simp)] at this
        exact this

theorem aboveSlot_gt (local_ : Nat) (l : List (Nat × Nat)) :
    ∀ x ∈ aboveSlot local_ l, x.2 > local_ := by
  intro x hx
  simpa using List.mem_takeWhile_imp hx

theorem fromSlot_le (local_ : Nat) (l : List (Nat × Nat))
    (hs : (l.map Prod.snd).Pairwise (fun a b => a > b)) :
    ∀ x ∈ fromSlot local_ l, x.2 ≤ local_ := by
  have hsub : (fromSlot local_ l).Sublist l := List.dropWhile_sublist _
  have hs2 : ((fromSlot local_ l).map Prod.snd).Pairwise (fun a b => a > b) :=
    hs.sublist (hsub.map _)
  cases hf : fromSlot local_ l with
  | nil => intro x hx; cases hx
  | cons y t =>
    have hy : ¬ (y.2 > local_) := by
      have := List.head_dropWhile_not (fun x : Nat × Nat => decide (x.2 > local_)) l
        (by unfold fromSlot at hf; rw [hf]; simp)
      unfold fromSlot at hf
      simp only [hf, List.head_cons] at this
      simpa using this
    rw [hf] at hs2
    simp only [List.map_cons, List.pairwise_cons, List.mem_map] at hs2
    intro x hx
    rcases List.mem_cons.mp hx with rfl | hx
    · omega
    · have := hs2.1 x.2 ⟨x, hx, rfl⟩
      omega

theorem fromSlot_of_mem (local_ a : Nat) (l : List (Nat × Nat))
    (hs : (l.map Prod.snd).Pairwise (fun a b => a > b)) (hm : (a, local_) ∈ l) :
    ∃ t, fromSlot local_ l = (a, local_) :: t := by
  induction l with
  | nil => cases hm
  | cons x t ih =>
    simp only [List.map_cons, List.pairwise_cons, List.mem_map] at hs
    rcases List.mem_cons.mp hm with e | hm
    · subst e
      exact ⟨t, by simp [fromSlot, List.dropWhile_cons]⟩
    · have hgt := hs.1 local_ ⟨(a, local_), hm, rfl⟩
      obtain ⟨t2, ht2⟩ := ih hs.2 hm
      refine ⟨t2, ?_⟩
      rw [← ht2]
      simp [fromSlot, List.dropWhile_cons, hgt]

theorem fromSlot_mem (local_ : Nat) (l : List (Nat × Nat)) :
    ∀ x ∈ fromSlot local_ l, x ∈ l :=
  fun _ hx => (List.dropWhile_sublist _).subset hx

theorem aboveSlot_mem (local_ : Nat) (l : List (Nat × Nat)) :
    ∀ x ∈ aboveSlot local_ l, x ∈ l :=
  fun _ hx => (List.takeWhile_sublist _).subset hx

theorem CaptureUpValue_found (env : VMEnv) (vm : VM) (local_ a : Nat) (l : List (Nat × Nat))
    (h : OpenSorted vm l) (hm : (a, local_) ∈ l) :
    CaptureUpValue env local_ vm = some (a, vm) := by
  obtain ⟨t, ht⟩ := fromSlot_of_mem local_ a l h.2.1 hm
  obtain ⟨closed, next, hh⟩ := isOpenList_mem vm.Heap l _ h.1 a local_ hm
  unfold CaptureUpValue
  rw [CaptureUpValueLoop_spec vm local_ l _ _ _ h.1 (by have := h.length_le; omega), ht]
  simp only [headOf, List.head?_cons, Option.map_some']
  rw [hh]
  simp

/-- The list of open upvalues after a new upvalue for the slot `local_` at the
address `created` has been spliced in. -/
theorem insert_sorted (local_ created : Nat) (l : List (Nat × Nat))
    (hs : (l.map Prod.snd).Pairwise (fun a b => a > b)) (hno : ∀ x ∈ l, x.2 ≠ local_) :
    ((aboveSlot local_ l ++ (created, local_) :: fromSlot local_ l).map Prod.snd).Pairwise
      (fun a b => a > b) := by
  have hsplit := aboveSlot_append_fromSlot local_ l
  rw [← hsplit, List.map_append, List.pairwise_append] at hs
  obtain ⟨h1, h2, h3⟩ := hs
  rw [List.map_append, List.map_cons, List.pairwise_append, List.pairwise_cons]
  refine ⟨h1, ⟨?_, h2⟩, ?_⟩
  · intro b hb
    rw [List.mem_map] at hb
    obtain ⟨x, hx, rfl⟩ := hb
    have h4 := fromSlot_le local_ l (by
      have := aboveSlot_append_fromSlot local_ l
      rw [← this, List.map_append, List.pairwise_append]
      exact ⟨h1, h2, h3⟩) x hx
    have h5 := hno x (fromSlot_mem local_ l x hx)
    show local_ > x.2
    omega
  · intro a ha b hb
    rw [List.mem_map] at ha
    obtain ⟨x, hx, rfl⟩ := ha
    have hgt := aboveSlot_gt local_ l x hx
    rcases List.mem_cons.mp hb with rfl | hb
    · exact hgt
    · exact h3 _ (List.mem_map.mpr ⟨x, hx, rfl⟩) _ hb

theorem fromSlot_head_open (vm : VM) (local_ : Nat) (l : List (Nat × Nat))
    (h : OpenSorted vm l) (hno : ∀ x ∈ l, x.2 ≠ local_) (u : Nat)
    (hu : headOf (fromSlot local_ l) = some u) :
    ∃ s closed next, vm.Heap u = some (Obj.UpValue (UpValueLocation.Stack s) closed next) ∧
      s ≠ local_ := by
  cases hf : fromSlot local_ l with
  | nil => rw [hf] at hu; cases hu
  | cons x t =>
    obtain ⟨a, s⟩ := x
    rw [hf] at hu
    simp only [headOf, List.head?_cons, Option.map_some', Option.some.injEq] at hu
    subst hu
    have hm : (a, s) ∈ l := fromSlot_mem local_ l _ (by rw [hf]; exact List.mem_cons_self _ _)
    obtain ⟨closed, next, hh⟩ := isOpenList_mem vm.Heap l _ h.1 a s hm
    exact ⟨s, closed, next, hh, hno _ hm⟩

theorem CaptureUpValue_new (env : VMEnv) (vm : VM) (local_ : Nat) (l : List (Nat × Nat))
    (h : OpenSorted vm l) (hno : ∀ x ∈ l, x.2 ≠ local_)
    (hfresh : env.alloc vm.Allocs ∉ vm.Objects) :
    ∃ vm1, CaptureUpValue env local_ vm = some (env.alloc vm.Allocs, vm1) ∧
      OpenSorted vm1
        (aboveSlot local_ l ++ (env.alloc vm.Allocs, local_) :: fromSlot local_ l) ∧
      vm1.Frames = vm.Frames ∧ vm1.Stack = vm.Stack ∧
      vm1.Objects = env.alloc vm.Allocs :: vm.Objects ∧
      vm1.Heap (env.alloc vm.Allocs) =
        some (Obj.UpValue (UpValueLocation.Stack local_) NIL_VAL
          (headOf (fromSlot local_ l))) ∧
      (∀ q, q ≠ env.alloc vm.Allocs → (∀ x ∈ l, q ≠ x.1) → vm1.Heap q = vm.Heap q) ∧
      vm1.Allocs = vm.Allocs + 1 ∧ vm1.Globals = vm.Globals ∧ vm1.Strings = vm.Strings ∧
      vm1.InitString = vm.InitString ∧ vm1.stdout = vm.stdout ∧ vm1.stderr = vm.stderr := by
  have hsplit := aboveSlot_append_fromSlot local_ l
  have hnd := h.nodup
  have hobj : ∀ x ∈ l, x.1 ≠ env.alloc vm.Allocs := fun x hx e => hfresh (e ▸ h.2.2 x hx)
  have hsorted := insert_sorted local_ (env.alloc vm.Allocs) l h.2.1 hno
  have hlive : ∀ x ∈ aboveSlot local_ l ++ (env.alloc vm.Allocs, local_) :: fromSlot local_ l,
      x.1 ∈ env.alloc vm.Allocs :: vm.Objects := by
    intro x hx
    rcases List.mem_append.mp hx with hx | hx
    · exact List.mem_cons_of_mem _ (h.2.2 x (aboveSlot_mem local_ l x hx))
    · rcases List.mem_cons.mp hx with rfl | hx
      · exact List.mem_cons_self _ _
      · exact List.mem_cons_of_mem _ (h.2.2 x (fromSlot_mem local_ l x hx))
  have hopen : isOpenList vm.Heap vm.OpenUpValues (aboveSlot local_ l ++ fromSlot local_ l) =
      true := by rw [hsplit]; exact h.1
  unfold CaptureUpValue
  rw [CaptureUpValueLoop_spec vm local_ l _ _ _ h.1 (by have := h.length_le; omega)]
  dsimp only
  have hchk := fromSlot_head_open vm local_ l h hno
  split
  · rename_i heq
    exfalso
    cases hu : headOf (fromSlot local_ l) with
    | none => rw [hu] at heq; cases heq
    | some u =>
      obtain ⟨s, closed, next, hh, hs⟩ := hchk u hu
      rw [hu] at heq
      dsimp only at heq
      rw [hh] at heq
      cases heq
  · rename_i heq
    exfalso
    cases hu : headOf (fromSlot local_ l) with
    | none => rw [hu] at heq; cases heq
    | some u =>
      obtain ⟨s, closed, next, hh, hs⟩ := hchk u hu
      rw [hu] at heq
      dsimp only at heq
      rw [hh] at heq
      simp [hs] at heq
  clear hchk
  unfold AllocateObject
  rw [if_neg hfresh]
  dsimp only
  rcases List.eq_nil_or_concat (aboveSlot local_ l) with ha | ⟨init, last, ha⟩
  · rw [ha]
    refine ⟨_, rfl, ⟨?_, ?_, ?_⟩, rfl, rfl, rfl, ?_, ?_, rfl, rfl, rfl, rfl, rfl, rfl⟩
    · have := isOpenList_insert vm.Heap
        (fun p => if p = env.alloc vm.Allocs then
          some (Obj.UpValue (UpValueLocation.Stack local_) NIL_VAL (headOf (fromSlot local_ l)))
          else vm.Heap p) (env.alloc vm.Allocs) local_ (fromSlot local_ l) (by simp)
        (fun x hx => by simp [hobj x (fromSlot_mem local_ l x hx)]) [] vm.OpenUpValues
        (by rw [ha] at hopen; exact hopen) (by simp) (by simp)
      rw [if_pos rfl] at this
      exact this
    · rw [ha] at hsorted; exact hsorted
    · rw [ha] at hlive; exact hlive
    · simp
    · intro q hq _
      simp [hq]
  · rw [List.concat_eq_append] at ha
    obtain ⟨p, s⟩ := last
    have hpm : (p, s) ∈ l := aboveSlot_mem local_ l _ (by rw [ha]; simp)
    obtain ⟨closed, next, hh⟩ := isOpenList_mem vm.Heap l _ h.1 p s hpm
    have hpne : p ≠ env.alloc vm.Allocs := hobj _ hpm
    have hprev : prevOf (aboveSlot local_ l) none = some p := by
      rw [ha]
      simp [prevOf]
    rw [hprev]
    dsimp only
    simp only [hpne, if_false, hh]
    rw [← hsplit, ha, List.map_append, List.map_append, List.map_cons, List.map_nil] at hnd
    have hnd1 := List.nodup_append.mp hnd
    have hnd2 := List.nodup_append.mp hnd1.1
    have hp_init : ∀ x ∈ init, x.1 ≠ p := by
      intro x hx e
      exact hnd2.2.2 (List.mem_map.mpr ⟨x, hx, rfl⟩) (by simp [e])
    have hp_rest : ∀ x ∈ fromSlot local_ l, x.1 ≠ p := by
      intro x hx e
      exact hnd1.2.2 (by simp) (List.mem_map.mpr ⟨x, hx, e⟩)
    refine ⟨_, rfl, ⟨?_, hsorted, hlive⟩, rfl, rfl, rfl, ?_, ?_, rfl, rfl, rfl, rfl, rfl, rfl⟩
    · have := isOpenList_insert vm.Heap
        (fun q => if q = p then
            some (Obj.UpValue (UpValueLocation.Stack s) closed (some (env.alloc vm.Allocs)))
          else if q = env.alloc vm.Allocs then
            some (Obj.UpValue (UpValueLocation.Stack local_) NIL_VAL
              (headOf (fromSlot local_ l)))
          else vm.Heap q) (env.alloc vm.Allocs) local_ (fromSlot local_ l)
        (by simp [hpne.symm])
        (fun x hx => by
          simp [hobj x (fromSlot_mem local_ l x hx), hp_rest x hx])
        (aboveSlot local_ l) vm.OpenUpValues hopen
        (fun x hx => by
          rw [ha, List.dropLast_concat] at hx
          have hxl : x ∈ l := aboveSlot_mem local_ l x (by rw [ha]; simp [hx])
          simp [hobj x hxl, hp_init x hx])
        (fun p2 s2 hp2 closed2 next2 hh2 => by
          rw [ha] at hp2
          simp at hp2
          obtain ⟨rfl, rfl⟩ := hp2
          rw [hh] at hh2
          cases hh2
          simp)
      rw [if_neg (by rw [ha]; simp)] at this
      exact this
    · simp [VM.store, hpne.symm]
    · intro q hq hql
      have : q ≠ p := hql _ hpm
      simp [VM.store, this, hq]

theorem CaptureUpValue_fresh (env : VMEnv) (vm : VM) (local_ : Nat) (l : List (Nat × Nat))
    (h : OpenSorted vm l) (hno : ∀ x ∈ l, x.2 ≠ local_) (r : Nat × VM)
    (hc : CaptureUpValue env local_ vm = some r) : env.alloc vm.Allocs ∉ vm.Objects := by
  intro hin
  unfold CaptureUpValue at hc
  rw [CaptureUpValueLoop_spec vm local_ l _ _ _ h.1 (by have := h.length_le; omega)] at hc
  dsimp only at hc
  have hchk := fromSlot_head_open vm local_ l h hno
  split at hc
  · cases hc
  · rename_i heq
    cases hu : headOf (fromSlot local_ l) with
    | none => rw [hu] at heq; cases heq
    | some u =>
      obtain ⟨s, closed, next, hh, hs⟩ := hchk u hu
      rw [hu] at heq
      dsimp only at heq
      rw [hh] at heq
      simp [hs] at heq
  · unfold AllocateObject at hc
    rw [if_pos hin] at hc
    cases hc

/-- Function `CaptureUpValue` keeps the list of open upvalues sorted. -/
theorem CaptureUpValue_sorted (env : VMEnv) (vm vm1 : VM) (local_ u : Nat)
    (l : List (Nat × Nat)) (h : OpenSorted vm l)
    (hc : CaptureUpValue env local_ vm = some (u, vm1)) :
    (∃ l1, OpenSorted vm1 l1) ∧ vm1.Frames = vm.Frames ∧ vm1.Stack = vm.Stack := by
  by_cases hf : ∃ a, (a, local_) ∈ l
  · obtain ⟨a, ha⟩ := hf
    rw [CaptureUpValue_found env vm local_ a l h ha] at hc
    cases hc
    exact ⟨⟨l, h⟩, rfl, rfl⟩
  · have hno : ∀ x ∈ l, x.2 ≠ local_ := by
      intro x hx e
      exact hf ⟨x.1, by rw [← e]; exact hx⟩
    have hfresh := CaptureUpValue_fresh env vm local_ l h hno _ hc
    obtain ⟨vm2, h2, hs, hfr, hst, _⟩ := CaptureUpValue_new env vm local_ l h hno hfresh
    rw [h2] at hc
    cases hc
    exact ⟨⟨_, hs⟩, hfr, hst⟩

/-! ### Closing upvalues -/

theorem OpenSorted.tail_closed {vm : VM} {u s : Nat} {t : List (Nat × Nat)}
    (h : OpenSorted vm ((u, s) :: t)) (object : Obj) :
    OpenSorted { vm.store u object with OpenUpValues := headOf t } t := by
  have hnd := h.nodup
  obtain ⟨h1, h2, h3⟩ := h
  rw [isOpenList_cons] at h1
  obtain ⟨_, closed, hh, ht⟩ := h1
  simp only [List.map_cons, List.pairwise_cons, List.nodup_cons, List.mem_map] at h2 hnd
  refine ⟨?_, h2.2, fun x hx => h3 x (List.mem_cons_of_mem _ hx)⟩
  refine isOpenList_agree vm.Heap _ t _ ?_ ht
  intro x hx
  have : x.1 ≠ u := fun e => hnd.1 ⟨x, hx, e⟩
  simp [VM.store, this]

theorem getSlot_isSome (vm : VM) (slot : Nat) (h : slot < vm.Stack.length) :
    ∃ v, vm.getSlot slot = some v := by
  unfold VM.getSlot
  rw [if_pos h]
  have : vm.Stack.length - 1 - slot < vm.Stack.length := by omega
  exact ⟨vm.Stack[vm.Stack.length - 1 - slot], List.getElem?_eq_getElem this⟩

/-- The upvalues `CloseUpValues(last)` closes. -/
theorem CloseUpValuesLoop_spec (last : Nat) :
    ∀ (l : List (Nat × Nat)) (vm vm1 : VM) (fuel : Nat), OpenSorted vm l →
      CloseUpValuesLoop last fuel vm = some vm1 →
      OpenSorted vm1 (l.dropWhile (fun x => decide (x.2 ≥ last))) ∧
      vm1.Stack = vm.Stack ∧ vm1.Frames = vm.Frames ∧ vm1.Objects = vm.Objects ∧
      vm1.Globals = vm.Globals ∧ vm1.Strings = vm.Strings ∧ vm1.InitString = vm.InitString ∧
      vm1.Allocs = vm.Allocs ∧ vm1.stdout = vm.stdout ∧ vm1.stderr = vm.stderr ∧
      (∀ a s, (a, s) ∈ l.takeWhile (fun x => decide (x.2 ≥ last)) →
        ∃ closed next value,
          vm.Heap a = some (Obj.UpValue (UpValueLocation.Stack s) closed next) ∧
          vm.getSlot s = some value ∧
          vm1.Heap a = some (Obj.UpValue UpValueLocation.Closed value next)) ∧
      (∀ q, (∀ x ∈ l.takeWhile (fun x => decide (x.2 ≥ last)), q ≠ x.1) →
        vm1.Heap q = vm.Heap q) := by
  intro l
  induction l with
  | nil =>
    intro vm vm1 fuel h hc
    have hnone : vm.OpenUpValues = none := isOpenList_head _ _ _ h.1
    cases fuel with
    | zero => cases hc
    | succ n =>
      unfold CloseUpValuesLoop at hc
      rw [hnone] at hc
      cases hc
      exact ⟨h, rfl, rfl, rfl, rfl, rfl, rfl, rfl, rfl, rfl, fun a s hm => (by simp at hm),
        fun q _ => rfl⟩
  | cons x t ih =>
    intro vm vm1 fuel h hc
    obtain ⟨u, s⟩ := x
    have hnd := h.nodup
    have h1 := h.1
    rw [isOpenList_cons] at h1
    obtain ⟨hhead, closed, hh, ht⟩ := h1
    cases fuel with
    | zero => cases hc
    | succ n =>
      unfold CloseUpValuesLoop at hc
      rw [hhead] at hc
      dsimp only at hc
      rw [hh] at hc
      dsimp only at hc
      by_cases hs : s ≥ last
      · rw [if_pos hs] at hc
        cases hv : vm.getSlot s with
        | none => rw [hv] at hc; cases hc
        | some value =>
          rw [hv] at hc
          dsimp only at hc
          have htail := h.tail_closed (Obj.UpValue UpValueLocation.Closed value (headOf t))
          obtain ⟨i1, i2, i3, i4, i5, i6, i7, i8, i9, i10, i11, i12⟩ := ih _ vm1 n htail hc
          have e1 : ((u, s) :: t).dropWhile (fun x => decide (x.2 ≥ last)) =
              t.dropWhile (fun x => decide (x.2 ≥ last)) := by
            simp [List.dropWhile_cons, hs]
          have e2 : ((u, s) :: t).takeWhile (fun x => decide (x.2 ≥ last)) =
              (u, s) :: t.takeWhile (fun x => decide (x.2 ≥ last)) := by
            simp [List.takeWhile_cons, hs]
          rw [e1, e2]
          simp only [List.map_cons, List.nodup_cons, List.mem_map] at hnd
          have hu_t : ∀ x ∈ t, x.1 ≠ u := fun x hx e => hnd.1 ⟨x, hx, e⟩
          refine ⟨i1, i2, i3, i4, i5, i6, i7, i8, i9, i10, ?_, ?_⟩
          · intro a s2 hm
            rcases List.mem_cons.mp hm with e | hm
            · cases e
              refine ⟨closed, headOf t, value, hh, hv, ?_⟩
              rw [i12 u (fun x hx => (hu_t x ((List.takeWhile_sublist _).subset hx)).symm)]
              simp [VM.store]
            · obtain ⟨c2, n2, v2, j1, j2, j3⟩ := i11 a s2 hm
              have hne : a ≠ u := hu_t _ ((List.takeWhile_sublist _).subset hm)
              refine ⟨c2, n2, v2, ?_, j2, j3⟩
              simpa [VM.store, hne] using j1
          · intro q hq
            have hqu : q ≠ u := hq (u, s) (List.mem_cons_self _ _)
            rw [i12 q (fun x hx => hq x (List.mem_cons_of_mem _ hx))]
            simp [VM.store, hqu]
      · rw [if_neg hs] at hc
        cases hc
        have e1 : ((u, s) :: t).dropWhile (fun x => decide (x.2 ≥ last)) = (u, s) :: t := by
          simp [List.dropWhile_cons, hs]
        have e2 : ((u, s) :: t).takeWhile (fun x => decide (x.2 ≥ last)) = [] := by
          simp [List.takeWhile_cons, hs]
        rw [e1, e2]
        exact ⟨h, rfl, rfl, rfl, rfl, rfl, rfl, rfl, rfl, rfl, fun a s hm => (by simp at hm),
          fun q _ => rfl⟩

theorem CloseUpValuesLoop_isSome (last : Nat) :
    ∀ (l : List (Nat × Nat)) (vm : VM) (fuel : Nat), OpenSorted vm l → l.length < fuel →
      (∀ x ∈ l, x.2 ≥ last → x.2 < vm.Stack.length) →
      ∃ vm1, CloseUpValuesLoop last fuel vm = some vm1 := by
  intro l
  induction l with
  | nil =>
    intro vm fuel h hf _
    have hnone : vm.OpenUpValues = none := isOpenList_head _ _ _ h.1
    cases fuel with
    | zero => omega
    | succ n =>
      unfold CloseUpValuesLoop
      rw [hnone]
      exact ⟨vm, rfl⟩
  | cons x t ih =>
    intro vm fuel h hf hlive
    obtain ⟨u, s⟩ := x
    have h1 := h.1
    rw [isOpenList_cons] at h1
    obtain ⟨hhead, closed, hh, ht⟩ := h1
    cases fuel with
    | zero => omega
    | succ n =>
      unfold CloseUpValuesLoop
      rw [hhead]
      dsimp only
      rw [hh]
      dsimp only
      by_cases hs : s ≥ last
      · rw [if_pos hs]
        obtain ⟨value, hv⟩ := getSlot_isSome vm s (hlive (u, s) (List.mem_cons_self _ _) hs)
        rw [hv]
        dsimp only
        exact ih _ n (h.tail_closed _) (by simpa using hf)
          (fun x hx hx2 => hlive x (List.mem_cons_of_mem _ hx) hx2)
      · rw [if_neg hs]
        exact ⟨vm, rfl⟩

/-! ### The instructions keep the invariant -/

theorem SimpleResult.of_keeps {vm vm1 : VM} {r : StepResult} (hk : Keeps vm vm1)
    (h : SimpleResult vm1 r) : SimpleResult vm r := by
  cases r with
  | Continue vm2 => exact hk.andThen h
  | Return res vm2 => exact h

theorem SimpleResult.runInv {vm : VM} {r : StepResult} (h : SimpleResult vm r) (hi : RunInv vm) :
    RunInv r.vm := by
  cases r with
  | Continue vm1 => exact hi.keeps h
  | Return res vm1 =>
    obtain ⟨format, ints, text, vm0, rfl⟩ := h
    exact RunInv_RuntimeError _ _ _ _

theorem SimpleResult.push {v : Value} {vm : VM} {r : StepResult}
    (h : (Push v vm).map Continue = some r) : SimpleResult vm r := by
  simp only [Option.map_eq_some'] at h
  obtain ⟨vm1, h1, rfl⟩ := h
  exact Keeps_Push h1

theorem SimpleResult.pop {vm : VM} {r : StepResult}
    (h : (Pop vm).map (fun r => Continue r.2) = some r) : SimpleResult vm r := by
  simp only [Option.map_eq_some', Prod.exists] at h
  obtain ⟨v, vm1, h1, rfl⟩ := h
  exact Keeps_Pop h1

theorem SimpleResult.error (vm vm0 : VM) (res : InterpretResult) (format ints text : List Nat) :
    SimpleResult vm (Return res (RuntimeError format ints text vm0)) :=
  ⟨format, ints, text, vm0, rfl⟩

theorem OP_CONSTANT_simple {vm : VM} {r : StepResult} (h : Run.OP_CONSTANT vm = some r) :
    SimpleResult vm r := by
  unfold Run.OP_CONSTANT at h
  simp only [Option.bind_eq_bind, Option.bind_eq_some, Prod.exists] at h
  obtain ⟨c, vm1, h1, h2⟩ := h
  exact (SimpleResult.push h2).of_keeps (Keeps_READ_CONSTANT h1)

theorem OP_NIL_simple {vm : VM} {r : StepResult} (h : Run.OP_NIL vm = some r) :
    SimpleResult vm r := SimpleResult.push h

theorem OP_TRUE_simple {vm : VM} {r : StepResult} (h : Run.OP_TRUE vm = some r) :
    SimpleResult vm r := SimpleResult.push h

theorem OP_FALSE_simple {vm : VM} {r : StepResult} (h : Run.OP_FALSE vm = some r) :
    SimpleResult vm r := SimpleResult.push h

theorem OP_POP_simple {vm : VM} {r : StepResult} (h : Run.OP_POP vm = some r) :
    SimpleResult vm r := SimpleResult.pop h

theorem OP_GET_LOCAL_simple {vm : VM} {r : StepResult} (h : Run.OP_GET_LOCAL vm = some r) :
    SimpleResult vm r := by
  unfold Run.OP_GET_LOCAL at h
  simp only [Option.bind_eq_bind, Option.bind_eq_some, Prod.exists] at h
  obtain ⟨slot, vm1, h1, frame, _, value, _, h2⟩ := h
  exact (SimpleResult.push h2).of_keeps (Keeps_READ_BYTE h1)

theorem OP_SET_LOCAL_simple {vm : VM} {r : StepResult} (h : Run.OP_SET_LOCAL vm = some r) :
    SimpleResult vm r := by
  unfold Run.OP_SET_LOCAL at h
  simp only [Option.bind_eq_bind, Option.bind_eq_some, Prod.exists, Option.map_eq_some'] at h
  obtain ⟨slot, vm1, h1, frame, _, value, _, vm2, h2, rfl⟩ := h
  exact (Keeps_READ_BYTE h1).andThen (Keeps_setSlot h2)

theorem OP_GET_GLOBAL_simple {vm : VM} {r : StepResult} (h : Run.OP_GET_GLOBAL vm = some r) :
    SimpleResult vm r := by
  unfold Run.OP_GET_GLOBAL at h
  simp only [Option.bind_eq_bind, Option.bind_eq_some, Prod.exists] at h
  obtain ⟨name, vm1, h1, g, _, h2⟩ := h
  refine SimpleResult.of_keeps (Keeps_READ_STRING h1) ?_
  cases g with
  | none =>
    simp only [Option.some.injEq] at h2
    subst h2
    exact SimpleResult.error _ _ _ _ _ _
  | some value => exact SimpleResult.push h2

theorem Keeps_Globals (vm : VM) (globals : Table) : Keeps vm { vm with Globals := globals } :=
  Keeps.of_eq rfl rfl rfl rfl

theorem OP_DEFINE_GLOBAL_simple {vm : VM} {r : StepResult}
    (h : Run.OP_DEFINE_GLOBAL vm = some r) : SimpleResult vm r := by
  unfold Run.OP_DEFINE_GLOBAL at h
  simp only [Option.bind_eq_bind, Option.bind_eq_some, Prod.exists] at h
  obtain ⟨name, vm1, h1, value, _, b, globals, _, h2⟩ := h
  exact ((SimpleResult.pop h2).of_keeps (Keeps_Globals vm1 globals)).of_keeps
    (Keeps_READ_STRING h1)

theorem OP_SET_GLOBAL_simple {vm : VM} {r : StepResult} (h : Run.OP_SET_GLOBAL vm = some r) :
    SimpleResult vm r := by
  unfold Run.OP_SET_GLOBAL at h
  simp only [Option.bind_eq_bind, Option.bind_eq_some, Prod.exists] at h
  obtain ⟨name, vm1, h1, value, _, b, globals, _, h2⟩ := h
  refine SimpleResult.of_keeps (Keeps_READ_STRING h1) ?_
  split at h2
  · simp only [Option.bind_eq_some, Prod.exists, Option.some.injEq] at h2
    obtain ⟨b2, globals1, _, rfl⟩ := h2
    exact SimpleResult.error _ _ _ _ _ _
  · simp only [Option.some.injEq] at h2
    subst h2
    exact Keeps_Globals vm1 globals

theorem OP_GET_UPVALUE_simple {vm : VM} {r : StepResult} (h : Run.OP_GET_UPVALUE vm = some r) :
    SimpleResult vm r := by
  unfold Run.OP_GET_UPVALUE at h
  simp only [Option.bind_eq_bind, Option.bind_eq_some, Prod.exists] at h
  obtain ⟨slot, vm1, h1, upValues, _, upValue, _, h2⟩ := h
  refine SimpleResult.of_keeps (Keeps_READ_BYTE h1) ?_
  split at h2
  · simp only [Option.bind_eq_some] at h2
    obtain ⟨value, _, h3⟩ := h2
    exact SimpleResult.push h3
  · exact SimpleResult.push h2
  · cases h2

theorem OP_SET_UPVALUE_simple {vm : VM} {r : StepResult} (h : Run.OP_SET_UPVALUE vm = some r) :
    SimpleResult vm r := by
  unfold Run.OP_SET_UPVALUE at h
  simp only [Option.bind_eq_bind, Option.bind_eq_some, Prod.exists] at h
  obtain ⟨slot, vm1, h1, upValues, _, upValue, _, value, _, h2⟩ := h
  refine SimpleResult.of_keeps (Keeps_READ_BYTE h1) ?_
  split at h2
  · simp only [Option.map_eq_some'] at h2
    obtain ⟨vm2, h3, rfl⟩ := h2
    exact Keeps_setSlot h3
  · rename_i u closed next hu heq
    simp only [Option.some.injEq] at h2
    subst h2
    refine Keeps_store vm1 u _ ?_
    intro s c n e
    change vm1.Heap u = _ at heq
    rw [e] at heq
    cases heq
  · cases h2

theorem TableFindStringLoop_found (heap : Nat → ObjString) (table : Table) (chars : List Nat)
    (length hash : Nat) :
    ∀ (fuel index k : Nat),
      TableFindStringLoop heap table chars length hash fuel index = some (some k) →
      (heap k).Length = length ∧ (heap k).Hash = hash := by
  intro fuel
  induction fuel with
  | zero => intro index k h; cases h
  | succ n ih =>
    intro index k h
    unfold TableFindStringLoop at h
    split at h
    · cases h
    · split at h
      · split at h
        · cases h
        · exact ih _ _ h
      · split at h
        · rename_i hm
          cases h
          exact ⟨hm.1, hm.2.1⟩
        · exact ih _ _ h

theorem TableFindString_found (heap : Nat → ObjString) (table : Table) (chars : List Nat)
    (length hash k : Nat) (h : TableFindString heap table chars length hash = some (some k)) :
    (heap k).Length = length ∧ (heap k).Hash = hash := by
  unfold TableFindString at h
  split at h
  · cases h
  · exact TableFindStringLoop_found heap table chars length hash _ _ _ h

theorem Keeps_TakeString {env : VMEnv} {text : List Nat} {length p : Nat} {vm vm1 : VM}
    (h : vm.TakeString env text length = some (p, vm1)) : Keeps vm vm1 := by
  unfold VM.TakeString at h
  split at h
  · cases h
  · rename_i string vms ht
    simp only [Option.some.injEq, Prod.mk.injEq] at h
    obtain ⟨rfl, rfl⟩ := h
    unfold CLox.TakeString at ht
    split at ht
    · cases ht
    · rename_i hash hh
      obtain ⟨hlen, hhash⟩ := HashString_some hh
      split at ht
      · cases ht
      · rename_i interned hf
        simp only [Option.some.injEq, Prod.mk.injEq] at ht
        obtain ⟨rfl, rfl⟩ := ht
        obtain ⟨f1, f2⟩ := TableFindString_found _ _ _ _ _ _ hf
        refine ⟨rfl, rfl, fun _ hp => hp, ?_⟩
        intro q slot closed next _ hq
        have hne : q ≠ interned := by
          rintro rfl
          simp only [VM.strings, hq] at f1 f2
          subst f1
          rw [← f2] at hhash
          simp [FNV1a32] at hhash
        simp [hne]
      · unfold AllocateString ReallocateGrow at ht
        dsimp only at ht
        split at ht
        · cases ht
        · rename_i hno
          unfold TableSetStrings ReallocateGrow at ht
          simp only [Option.map_none'] at ht
          split at ht
          · cases ht
          · rename_i vm2 hvm2
            simp only [Option.some.injEq, Prod.mk.injEq] at ht
            obtain ⟨rfl, rfl⟩ := ht
            have hobj : vm2.Objects = env.alloc vm.Allocs :: vm.Objects := by
              simp only [ite_self] at hvm2
              split at hvm2
              · cases hvm2
              · cases hvm2
                rfl
            refine ⟨rfl, rfl, fun q hq => ?_, ?_⟩
            · show q ∈ vm2.Objects
              rw [hobj]
              exact List.mem_cons_of_mem _ hq
            · intro q slot closed next hq _
              have : q ≠ env.alloc vm.Allocs := fun e => hno (e ▸ hq)
              simp [this]

theorem Keeps_Concatenate {env : VMEnv} {vm vm1 : VM} (h : Concatenate env vm = some vm1) :
    Keeps vm vm1 := by
  unfold Concatenate at h
  simp only [Option.bind_eq_bind, Option.bind_eq_some] at h
  obtain ⟨b, _, a, _, h2⟩ := h
  split at h2
  · simp only [Option.bind_eq_some, Prod.exists] at h2
    obtain ⟨result, vm2, h3, v1, vm3, h4, v2, vm4, h5, h6⟩ := h2
    exact (((Keeps_TakeString h3).andThen (Keeps_Pop h4)).andThen (Keeps_Pop h5)).andThen (Keeps_Push h6)
  · cases h2

theorem BindMethod_simple {env : VMEnv} {klass name : Nat} {vm vm1 : VM} {ok : Bool}
    (h : BindMethod env klass name vm = some (ok, vm1)) :
    SimpleResult vm (if ok then Continue vm1 else Return INTERPRET_RUNTIME_ERROR vm1) := by
  unfold BindMethod at h
  split at h
  · split at h
    · cases h
    · cases h
      exact SimpleResult.error _ _ _ _ _ _
    · simp only [Option.bind_eq_bind, Option.bind_eq_some, Prod.exists, Option.some.injEq,
        Prod.mk.injEq] at h
      obtain ⟨receiver, _, bound, vm2, h2, v, vm3, h3, vm4, h4, rfl, rfl⟩ := h
      exact ((Keeps_AllocateObject h2).andThen (Keeps_Pop h3)).andThen (Keeps_Push h4)
  · cases h

theorem SimpleResult.of_ok {vm vm1 : VM} {ok : Bool} {r : StepResult}
    (h : SimpleResult vm (if ok then Continue vm1 else Return INTERPRET_RUNTIME_ERROR vm1))
    (hr : (if ok = true then some (Continue vm1) else some (Return INTERPRET_RUNTIME_ERROR vm1)) =
      some r) : SimpleResult vm r := by
  cases ok with
  | true =>
    simp at hr
    subst hr
    exact h
  | false =>
    simp at hr
    subst hr
    exact h

theorem OP_GET_PROPERTY_simple {env : VMEnv} {vm : VM} {r : StepResult}
    (h : Run.OP_GET_PROPERTY env vm = some r) : SimpleResult vm r := by
  unfold Run.OP_GET_PROPERTY at h
  simp only [Option.bind_eq_bind, Option.bind_eq_some] at h
  obtain ⟨receiver, _, b, _, h2⟩ := h
  split at h2
  · simp only [Option.bind_eq_some, Prod.exists] at h2
    obtain ⟨name, vm1, h3, g, _, h4⟩ := h2
    refine SimpleResult.of_keeps (Keeps_READ_STRING h3) ?_
    split at h4
    · simp only [Option.bind_eq_some, Prod.exists] at h4
      obtain ⟨v, vm2, h5, h6⟩ := h4
      exact (SimpleResult.push h6).of_keeps (Keeps_Pop h5)
    · simp only [Option.bind_eq_some, Prod.exists] at h4
      obtain ⟨ok, vm2, h5, h6⟩ := h4
      exact (BindMethod_simple h5).of_ok h6
  · simp only [Option.some.injEq] at h2
    subst h2
    exact SimpleResult.error _ _ _ _ _ _

theorem OP_SET_PROPERTY_simple {vm : VM} {r : StepResult}
    (h : Run.OP_SET_PROPERTY vm = some r) : SimpleResult vm r := by
  unfold Run.OP_SET_PROPERTY at h
  simp only [Option.bind_eq_bind, Option.bind_eq_some] at h
  obtain ⟨receiver, _, b, _, h2⟩ := h
  split at h2
  · rename_i klass fields hinst hobj
    simp only [Option.bind_eq_some, Prod.exists] at h2
    obtain ⟨name, vm1, h3, value, _, b2, fields1, _, v1, vm3, h4, v2, vm4, h5, h6⟩ := h2
    have hk1 := Keeps_READ_STRING h3
    have hheap : vm1.Heap = vm.Heap := by
      unfold READ_STRING READ_CONSTANT READ_BYTE at h3
      simp only [Option.bind_eq_bind, Option.map_eq_some', Option.bind_eq_some, Prod.exists,
        Option.some.injEq, Prod.mk.injEq] at h3
      obtain ⟨c, vm2, ⟨i, vm5, ⟨fr, _, f, _, byte, _, _, rfl⟩, f2, _, c2, _, _, rfl⟩, _, rfl⟩ := h3
      exact setIP_Heap _ _
    refine SimpleResult.of_keeps hk1 ?_
    have hst : Keeps vm1 (vm1.store (AS_OBJ receiver) (Obj.Instance klass fields1)) := by
      refine Keeps_store vm1 (AS_OBJ receiver) _ ?_
      intro s c n e
      rw [hheap, hinst] at e
      cases e
    exact (SimpleResult.push h6).of_keeps ((hst.andThen (Keeps_Pop h4)).andThen (Keeps_Pop h5))
  · simp only [Option.some.injEq] at h2
    subst h2
    exact SimpleResult.error _ _ _ _ _ _

theorem OP_GET_SUPER_simple {env : VMEnv} {vm : VM} {r : StepResult}
    (h : Run.OP_GET_SUPER env vm = some r) : SimpleResult vm r := by
  unfold Run.OP_GET_SUPER at h
  simp only [Option.bind_eq_bind, Option.bind_eq_some, Prod.exists] at h
  obtain ⟨name, vm1, h1, superClass, vm2, h2, ok, vm3, h3, h4⟩ := h
  exact ((BindMethod_simple h3).of_ok h4).of_keeps ((Keeps_READ_STRING h1).andThen (Keeps_Pop h2))

theorem OP_EQUAL_simple {vm : VM} {r : StepResult} (h : Run.OP_EQUAL vm = some r) :
    SimpleResult vm r := by
  unfold Run.OP_EQUAL at h
  simp only [Option.bind_eq_bind, Option.bind_eq_some, Prod.exists] at h
  obtain ⟨b, vm1, h1, a, vm2, h2, equal, _, h3⟩ := h
  exact (SimpleResult.push h3).of_keeps ((Keeps_Pop h1).andThen (Keeps_Pop h2))

theorem BINARY_OP_simple {op : Value → Value → Value} {vm : VM} {r : StepResult}
    (h : BINARY_OP op vm = some r) : SimpleResult vm r := by
  unfold BINARY_OP at h
  simp only [Option.bind_eq_bind, Option.bind_eq_some] at h
  obtain ⟨b, _, a, _, h2⟩ := h
  split at h2
  · simp only [Option.some.injEq] at h2
    subst h2
    exact SimpleResult.error _ _ _ _ _ _
  · simp only [Option.bind_eq_some, Prod.exists] at h2
    obtain ⟨v1, vm1, h3, v2, vm2, h4, h5⟩ := h2
    exact (SimpleResult.push h5).of_keeps ((Keeps_Pop h3).andThen (Keeps_Pop h4))

theorem OP_ADD_tail {env : VMEnv} {vm : VM} {r : StepResult} {a b : Value} {y : Bool}
    (h2 : (if y = true then Option.map Continue (Concatenate env vm)
        else
          if (IS_NUMBER b && IS_NUMBER a) = true then
            (Pop vm).bind fun __discr =>
              (Pop __discr.2).bind fun __discr =>
                Option.map Continue (Push (env.add a b) __discr.2)
          else
            some
              (Return INTERPRET_RUNTIME_ERROR
                (RuntimeError (chars "Operands must be two numbers or two strings.") [] []
                  vm))) = some r) : SimpleResult vm r := by
  split at h2
  · simp only [Option.map_eq_some'] at h2
    obtain ⟨vm1, h3, rfl⟩ := h2
    exact Keeps_Concatenate h3
  · split at h2
    · simp only [Option.bind_eq_some, Prod.exists] at h2
      obtain ⟨v1, vm1, h3, v2, vm2, h4, h5⟩ := h2
      exact (SimpleResult.push h5).of_keeps ((Keeps_Pop h3).andThen (Keeps_Pop h4))
    · simp only [Option.some.injEq] at h2
      subst h2
      exact SimpleResult.error _ _ _ _ _ _

theorem OP_ADD_simple {env : VMEnv} {vm : VM} {r : StepResult} (h : Run.OP_ADD env vm = some r) :
    SimpleResult vm r := by
  unfold Run.OP_ADD at h
  simp only [Option.bind_eq_bind, Option.bind_eq_some] at h
  obtain ⟨b, _, a, _, h2⟩ := h
  split at h2
  · cases h2
  · exact OP_ADD_tail (y := false) h2
  · simp only [Option.bind_eq_some] at h2
    obtain ⟨y, _, h3⟩ := h2
    exact OP_ADD_tail h3

theorem OP_NOT_simple {vm : VM} {r : StepResult} (h : Run.OP_NOT vm = some r) :
    SimpleResult vm r := by
  unfold Run.OP_NOT at h
  simp only [Option.map_eq_some'] at h
  obtain ⟨stack, _, rfl⟩ := h
  exact Keeps.of_eq rfl rfl rfl rfl

theorem OP_NEGATE_simple {env : VMEnv} {vm : VM} {r : StepResult}
    (h : Run.OP_NEGATE env vm = some r) : SimpleResult vm r := by
  unfold Run.OP_NEGATE at h
  simp only [Option.bind_eq_bind, Option.bind_eq_some] at h
  obtain ⟨value, _, h2⟩ := h
  split at h2
  · simp only [Option.some.injEq] at h2
    subst h2
    exact SimpleResult.error _ _ _ _ _ _
  · simp only [Option.bind_eq_some, Prod.exists] at h2
    obtain ⟨v1, vm1, h3, h5⟩ := h2
    exact (SimpleResult.push h5).of_keeps (Keeps_Pop h3)

theorem OP_PRINT_simple {vm : VM} {r : StepResult} (h : Run.OP_PRINT vm = some r) :
    SimpleResult vm r := by
  unfold Run.OP_PRINT at h
  simp only [Option.map_eq_some', Prod.exists] at h
  obtain ⟨v, vm1, h1, rfl⟩ := h
  exact (Keeps_Pop h1).andThen (Keeps.of_eq rfl rfl rfl rfl)

theorem OP_JUMP_simple {vm : VM} {r : StepResult} (h : Run.OP_JUMP vm = some r) :
    SimpleResult vm r := by
  unfold Run.OP_JUMP at h
  simp only [Option.bind_eq_bind, Option.bind_eq_some, Option.map_eq_some'] at h
  obtain ⟨frame, _, f, _, ip, _, rfl⟩ := h
  exact Keeps_setIP _ _

theorem OP_JUMP_IF_FALSE_simple {vm : VM} {r : StepResult}
    (h : Run.OP_JUMP_IF_FALSE vm = some r) : SimpleResult vm r := by
  unfold Run.OP_JUMP_IF_FALSE at h
  simp only [Option.bind_eq_bind, Option.bind_eq_some, Option.map_eq_some'] at h
  obtain ⟨frame, _, f, _, ip, _, rfl⟩ := h
  exact Keeps_setIP _ _

theorem OP_LOOP_simple {vm : VM} {r : StepResult} (h : Run.OP_LOOP vm = some r) :
    SimpleResult vm r := by
  unfold Run.OP_LOOP at h
  simp only [Option.bind_eq_bind, Option.bind_eq_some, Option.map_eq_some'] at h
  obtain ⟨frame, _, f, _, ip, _, rfl⟩ := h
  exact Keeps_setIP _ _

theorem OP_CLASS_simple {env : VMEnv} {vm : VM} {r : StepResult}
    (h : Run.OP_CLASS env vm = some r) : SimpleResult vm r := by
  unfold Run.OP_CLASS at h
  simp only [Option.bind_eq_bind, Option.bind_eq_some, Prod.exists] at h
  obtain ⟨name, vm1, h1, klass, vm2, h2, h3⟩ := h
  exact (SimpleResult.push h3).of_keeps ((Keeps_READ_STRING h1).andThen (Keeps_AllocateObject h2))

theorem OP_INHERIT_simple {vm : VM} {r : StepResult} (h : Run.OP_INHERIT vm = some r) :
    SimpleResult vm r := by
  unfold Run.OP_INHERIT at h
  simp only [Option.bind_eq_bind, Option.bind_eq_some] at h
  obtain ⟨superClass, _, b, _, h2⟩ := h
  split at h2
  · simp only [Option.bind_eq_some] at h2
    obtain ⟨subClass, _, h3⟩ := h2
    split at h3
    · rename_i name methods hsub
      simp only [Option.bind_eq_some] at h3
      obtain ⟨methods1, _, h4⟩ := h3
      refine (SimpleResult.pop h4).of_keeps (Keeps_store vm _ _ ?_)
      intro s c n e
      rw [hsub] at e
      cases e
    · cases h3
  · simp only [Option.some.injEq] at h2
    subst h2
    exact SimpleResult.error _ _ _ _ _ _

theorem Keeps_DefineClassMethod {name : Nat} {vm vm1 : VM}
    (h : DefineClassMethod name vm = some vm1) : Keeps vm vm1 := by
  unfold DefineClassMethod at h
  simp only [Option.bind_eq_bind, Option.bind_eq_some] at h
  obtain ⟨method, _, klass, _, h2⟩ := h
  split at h2
  · rename_i className methods hk
    simp only [Option.bind_eq_some, Prod.exists, Option.some.injEq] at h2
    obtain ⟨b, methods1, _, v, vm2, h3, rfl⟩ := h2
    refine (Keeps_store vm _ _ ?_).andThen (Keeps_Pop h3)
    intro s c n e
    rw [hk] at e
    cases e
  · cases h2

theorem OP_METHOD_simple {vm : VM} {r : StepResult} (h : Run.OP_METHOD vm = some r) :
    SimpleResult vm r := by
  unfold Run.OP_METHOD at h
  simp only [Option.bind_eq_bind, Option.bind_eq_some, Prod.exists, Option.map_eq_some'] at h
  obtain ⟨name, vm1, h1, vm2, h2, rfl⟩ := h
  exact (Keeps_READ_STRING h1).andThen (Keeps_DefineClassMethod h2)

theorem SimpleResult.stepInv {vm : VM} {r : StepResult} (h : SimpleResult vm r)
    (hi : RunInv vm) (hne : vm.Frames ≠ []) : StepInv r := by
  cases r with
  | Continue vm1 => exact ⟨hi.keeps h, Keeps.frames_ne h hne⟩
  | Return res vm1 =>
    obtain ⟨format, ints, text, vm0, rfl⟩ := h
    exact ⟨EntryInv_RuntimeError _ _ _ _, RunInv_RuntimeError _ _ _ _, fun _ => rfl⟩

theorem CallOutcome.callStepInv {vm vm1 : VM} {ok : Bool} {r : StepResult}
    (h : CallOutcome vm ok vm1) (hi : RunInv vm) (hne : vm.Frames ≠ [])
    (hr : (if ok = true then some (Continue vm1) else some (Return INTERPRET_RUNTIME_ERROR vm1)) =
      some r) : StepInv r := by
  have hinv := h.callInv hi hne
  cases ok with
  | true =>
    simp at hr
    subst hr
    refine ⟨hinv, ?_⟩
    rcases h with ⟨hb, _⟩ | ⟨_, vm2, hk, h2⟩
    · cases hb
    · rcases h2 with rfl | ⟨frame, _, rfl⟩
      · exact hk.frames_ne hne
      · simp
  | false =>
    simp at hr
    subst hr
    rcases h with ⟨_, format, ints, text, vm0, rfl⟩ | ⟨hb, _⟩
    · exact ⟨EntryInv_RuntimeError _ _ _ _, hinv, fun _ => rfl⟩
    · cases hb

theorem READ_BYTE_frames {b : Nat} {vm vm1 : VM} (h : READ_BYTE vm = some (b, vm1)) :
    vm.Frames ≠ [] ∧ vm1.Frames ≠ [] := by
  have hk := Keeps_READ_BYTE h
  unfold READ_BYTE at h
  simp only [Option.bind_eq_bind, Option.bind_eq_some, Option.some.injEq, Prod.mk.injEq] at h
  obtain ⟨frame, hf, _⟩ := h
  have hne : vm.Frames ≠ [] := by
    intro e
    rw [e] at hf
    cases hf
  exact ⟨hne, hk.frames_ne hne⟩

theorem OP_CALL_inv {env : VMEnv} {vm : VM} {r : StepResult} (hi : RunInv vm)
    (hne : vm.Frames ≠ []) (h : Run.OP_CALL env vm = some r) : StepInv r := by
  unfold Run.OP_CALL at h
  simp only [Option.bind_eq_bind, Option.bind_eq_some, Prod.exists] at h
  obtain ⟨argCount, vm1, h1, callee, _, ok, vm2, h2, h3⟩ := h
  have hk := Keeps_READ_BYTE h1
  exact (CallValue_outcome h2).callStepInv (hi.keeps hk) (hk.frames_ne hne) h3

theorem OP_INVOKE_inv {env : VMEnv} {vm : VM} {r : StepResult} (hi : RunInv vm)
    (hne : vm.Frames ≠ []) (h : Run.OP_INVOKE env vm = some r) : StepInv r := by
  unfold Run.OP_INVOKE at h
  simp only [Option.bind_eq_bind, Option.bind_eq_some, Prod.exists] at h
  obtain ⟨method, vm1, h1, argCount, vm2, h2, ok, vm3, h3, h4⟩ := h
  have hk := (Keeps_READ_STRING h1).andThen (Keeps_READ_BYTE h2)
  exact (Invoke_outcome h3).callStepInv (hi.keeps hk) (hk.frames_ne hne) h4

theorem OP_SUPER_INVOKE_inv {vm : VM} {r : StepResult} (hi : RunInv vm)
    (hne : vm.Frames ≠ []) (h : Run.OP_SUPER_INVOKE vm = some r) : StepInv r := by
  unfold Run.OP_SUPER_INVOKE at h
  simp only [Option.bind_eq_bind, Option.bind_eq_some, Prod.exists] at h
  obtain ⟨method, vm1, h1, argCount, vm2, h2, superClass, vm3, h3, ok, vm4, h4, h5⟩ := h
  have hk := ((Keeps_READ_STRING h1).andThen (Keeps_READ_BYTE h2)).andThen (Keeps_Pop h3)
  exact (InvokeFromClass_outcome h4).callStepInv (hi.keeps hk) (hk.frames_ne hne) h5

theorem OpenSorted.congr {vm vm1 : VM} {l : List (Nat × Nat)} (h : OpenSorted vm l)
    (hh : vm1.Heap = vm.Heap) (ho : vm1.OpenUpValues = vm.OpenUpValues)
    (hob : vm1.Objects = vm.Objects) : OpenSorted vm1 l := by
  unfold OpenSorted at h ⊢
  rw [hh, ho, hob]
  exact h

theorem CaptureUpValue_inv {env : VMEnv} {vm vm1 : VM} {local_ u : Nat} (hi : RunInv vm)
    (hc : CaptureUpValue env local_ vm = some (u, vm1)) :
    RunInv vm1 ∧ vm1.Frames = vm.Frames := by
  obtain ⟨hf, l, hs⟩ := hi
  obtain ⟨⟨l1, h1⟩, h2, _⟩ := CaptureUpValue_sorted env vm vm1 local_ u l hs hc
  refine ⟨⟨?_, l1, h1⟩, h2⟩
  unfold FramesInv
  rw [h2]
  exact hf

theorem ClosureUpValuesLoop_inv (env : VMEnv) (closure slots : Nat) :
    ∀ (n i : Nat) (vm vm1 : VM), RunInv vm →
      ClosureUpValuesLoop env closure slots n i vm = some vm1 →
      RunInv vm1 ∧ vm1.Frames.length = vm.Frames.length := by
  intro n
  induction n with
  | zero =>
    intro i vm vm1 hi h
    unfold ClosureUpValuesLoop at h
    cases h
    exact ⟨hi, rfl⟩
  | succ n ih =>
    intro i vm vm1 hi h
    unfold ClosureUpValuesLoop at h
    simp only [Option.bind_eq_bind] at h
    obtain ⟨⟨isLocal, vm2⟩, h1, h⟩ := Option.bind_eq_some.mp h
    dsimp only at h
    obtain ⟨⟨index, vm3⟩, h2, h⟩ := Option.bind_eq_some.mp h
    dsimp only at h
    have hk3 := (Keeps_READ_BYTE h1).andThen (Keeps_READ_BYTE h2)
    have hi3 := hi.keeps hk3
    have key : ∀ (upValue : Option Nat) (vm4 : VM), RunInv vm4 →
        vm4.Frames.length = vm.Frames.length →
        (match vm4.Heap closure with
          | some (Obj.Closure function upValues) =>
            ClosureUpValuesLoop env closure slots n (i + 1)
              (vm4.store closure (Obj.Closure function (upValues.set i upValue)))
          | _ => none) = some vm1 → RunInv vm1 ∧ vm1.Frames.length = vm.Frames.length := by
      intro upValue vm4 hi4 hl4 h4
      split at h4
      · rename_i function upValues hcl
        have hks : Keeps vm4 (vm4.store closure (Obj.Closure function (upValues.set i upValue))) := by
          refine Keeps_store vm4 closure _ ?_
          intro s c n2 e
          rw [hcl] at e
          cases e
        obtain ⟨h5, h6⟩ := ih _ _ _ (hi4.keeps hks) h4
        refine ⟨h5, ?_⟩
        rw [h6]
        exact hl4
      · cases h4
    have hl3 : vm3.Frames.length = vm.Frames.length := by
      have := congrArg List.length hk3.frames
      simpa using this
    split at h
    · obtain ⟨⟨upValue, vm4⟩, h3, h4⟩ := Option.bind_eq_some.mp h
      simp only [Option.map_eq_some', Prod.mk.injEq, Prod.exists] at h3
      obtain ⟨u, vm5, h5, _, rfl⟩ := h3
      obtain ⟨h6, h7⟩ := CaptureUpValue_inv hi3 h5
      exact key _ _ h6 (by rw [h7]; exact hl3) h4
    · obtain ⟨upValues, _, h⟩ := Option.bind_eq_some.mp h
      obtain ⟨u, _, h⟩ := Option.bind_eq_some.mp h
      exact key _ _ hi3 hl3 h

theorem OP_CLOSURE_inv {env : VMEnv} {vm : VM} {r : StepResult} (hi : RunInv vm)
    (hne : vm.Frames ≠ []) (h : Run.OP_CLOSURE env vm = some r) : StepInv r := by
  unfold Run.OP_CLOSURE at h
  simp only [Option.bind_eq_bind, Option.bind_eq_some, Prod.exists] at h
  obtain ⟨constant, vm1, h1, h2⟩ := h
  split at h2
  · simp only [Option.bind_eq_some, Prod.exists, Option.map_eq_some'] at h2
    obtain ⟨closure, vm2, h3, vm3, h4, frame, _, vm4, h5, rfl⟩ := h2
    have hk := ((Keeps_READ_CONSTANT h1).andThen (Keeps_AllocateObject h3)).andThen (Keeps_Push h4)
    obtain ⟨h6, h7⟩ := ClosureUpValuesLoop_inv env closure _ _ _ _ _ (hi.keeps hk) h5
    refine ⟨h6, ?_⟩
    intro e
    change vm4.Frames = [] at e
    rw [e, hk.frameCount] at h7
    exact hne (List.length_eq_zero.mp h7.symm)
  · cases h2

theorem CloseUpValues_inv {last : Nat} {vm vm1 : VM} (hi : RunInv vm)
    (h : CloseUpValues last vm = some vm1) :
    RunInv vm1 ∧ vm1.Frames = vm.Frames ∧ (last = 0 → vm1.OpenUpValues = none) := by
  obtain ⟨hf, l, hs⟩ := hi
  obtain ⟨h1, _, h3, _⟩ := CloseUpValuesLoop_spec last l vm vm1 _ hs h
  refine ⟨⟨?_, _, h1⟩, h3, ?_⟩
  · unfold FramesInv
    rw [h3]
    exact hf
  · intro h0
    have : l.dropWhile (fun x => decide (x.2 ≥ last)) = [] := by
      rw [List.dropWhile_eq_nil_iff]
      intro x _
      simp [h0]
    rw [this] at h1
    exact isOpenList_head _ _ _ h1.1

theorem OP_CLOSE_UPVALUE_inv {vm : VM} {r : StepResult} (hi : RunInv vm)
    (hne : vm.Frames ≠ []) (h : Run.OP_CLOSE_UPVALUE vm = some r) : StepInv r := by
  unfold Run.OP_CLOSE_UPVALUE at h
  simp only [Option.bind_eq_bind] at h
  split at h
  · cases h
  · obtain ⟨vm1, h1, h⟩ := Option.bind_eq_some.mp h
    simp only [Option.map_eq_some', Prod.exists] at h
    obtain ⟨v, vm2, h2, rfl⟩ := h
    obtain ⟨h3, h4, _⟩ := CloseUpValues_inv hi h1
    refine ⟨h3.keeps (Keeps_Pop h2), (Keeps_Pop h2).frames_ne ?_⟩
    rw [h4]
    exact hne

theorem OP_RETURN_inv {vm : VM} {r : StepResult} (hi : RunInv vm)
    (h : Run.OP_RETURN vm = some r) : StepInv r := by
  unfold Run.OP_RETURN at h
  simp only [Option.bind_eq_bind, Option.bind_eq_some, Prod.exists] at h
  obtain ⟨result, vm1, h1, frame, hfr, vm2, h2, h3⟩ := h
  have hi1 := hi.keeps (Keeps_Pop h1)
  obtain ⟨hi2, hfr2, hnone⟩ := CloseUpValues_inv hi1 h2
  obtain ⟨⟨hlen, hlast⟩, l, hs⟩ := hi2
  have hframes : vm2.Frames = frame :: vm2.Frames.tail := by
    rw [hfr2]
    cases hv : vm1.Frames with
    | nil => rw [hv] at hfr; cases hfr
    | cons f t =>
      rw [hv] at hfr
      cases hfr
      rfl
  have hi3 : RunInv { vm2 with Frames := vm2.Frames.tail } := by
    refine ⟨⟨?_, ?_⟩, l, hs.congr rfl rfl rfl⟩
    · rw [hframes] at hlen
      simp only [List.length_cons] at hlen
      show vm2.Frames.tail.length ≤ FRAMES_MAX
      omega
    · intro f hf
      apply hlast
      rw [hframes]
      by_cases ht : vm2.Frames.tail = []
      · simp only at hf
        rw [ht] at hf
        cases hf
      · rw [getLast?_cons_of_ne _ _ ht]
        exact hf
  split at h3
  · rename_i h0
    simp only [Option.map_eq_some', Prod.exists] at h3
    obtain ⟨v, vm4, h4, rfl⟩ := h3
    have hk := Keeps_Pop h4
    have htail : vm2.Frames.tail = [] := List.length_eq_zero.mp h0
    refine ⟨⟨?_, ?_⟩, hi3.keeps hk, fun hne => absurd rfl hne⟩
    · have := congrArg List.length hk.frames
      simp only [List.length_map] at this
      rw [htail] at this
      exact List.length_eq_zero.mp this
    · rw [hk.openUpValues]
      apply hnone
      apply hlast
      rw [hframes, htail]
      rfl
  · split at h3
    · rename_i h0 _
      simp only [Option.map_eq_some'] at h3
      obtain ⟨vm4, h4, rfl⟩ := h3
      have hk4 := (Keeps.of_eq rfl rfl rfl rfl : Keeps { vm2 with Frames := vm2.Frames.tail }
        { vm2 with Frames := vm2.Frames.tail,
                   Stack := vm2.Stack.drop (vm2.Stack.length - frame.Slots) }).andThen
        (Keeps_Push h4)
      refine ⟨hi3.keeps hk4, hk4.frames_ne ?_⟩
      intro e
      change vm2.Frames.tail = [] at e
      exact h0 (by rw [e]; rfl)
    · cases h3

/-- Every instruction keeps the invariant of `Run`. -/
theorem RunStep_inv {env : VMEnv} {vm : VM} {r : StepResult} (hi : RunInv vm)
    (h : RunStep env vm = some r) : StepInv r := by
  unfold RunStep at h
  split at h
  · cases h
  · rename_i instruction vm1 hb
    have hk := Keeps_READ_BYTE hb
    have hi1 := hi.keeps hk
    have hne := (READ_BYTE_frames hb).2
    by_cases c0 : instruction = OpCode.OP_CONSTANT
    · rw [if_pos c0] at h
      exact (OP_CONSTANT_simple h).stepInv hi1 hne
    rw [if_neg c0] at h
    by_cases c1 : instruction = OpCode.OP_NIL
    · rw [if_pos c1] at h
      exact (OP_NIL_simple h).stepInv hi1 hne
    rw [if_neg c1] at h
    by_cases c2 : instruction = OpCode.OP_TRUE
    · rw [if_pos c2] at h
      exact (OP_TRUE_simple h).stepInv hi1 hne
    rw [if_neg c2] at h
    by_cases c3 : instruction = OpCode.OP_FALSE
    · rw [if_pos c3] at h
      exact (OP_FALSE_simple h).stepInv hi1 hne
    rw [if_neg c3] at h
    by_cases c4 : instruction = OpCode.OP_POP
    · rw [if_pos c4] at h
      exact (OP_POP_simple h).stepInv hi1 hne
    rw [if_neg c4] at h
    by_cases c5 : instruction = OpCode.OP_GET_LOCAL
    · rw [if_pos c5] at h
      exact (OP_GET_LOCAL_simple h).stepInv hi1 hne
    rw [if_neg c5] at h
    by_cases c6 : instruction = OpCode.OP_SET_LOCAL
    · rw [if_pos c6] at h
      exact (OP_SET_LOCAL_simple h).stepInv hi1 hne
    rw [if_neg c6] at h
    by_cases c7 : instruction = OpCode.OP_GET_GLOBAL
    · rw [if_pos c7] at h
      exact (OP_GET_GLOBAL_simple h).stepInv hi1 hne
    rw [if_neg c7] at h
    by_cases c8 : instruction = OpCode.OP_DEFINE_GLOBAL
    · rw [if_pos c8] at h
      exact (OP_DEFINE_GLOBAL_simple h).stepInv hi1 hne
    rw [if_neg c8] at h
    by_cases c9 : instruction = OpCode.OP_SET_GLOBAL
    · rw [if_pos c9] at h
      exact (OP_SET_GLOBAL_simple h).stepInv hi1 hne
    rw [if_neg c9] at h
    by_cases c10 : instruction = OpCode.OP_GET_UPVALUE
    · rw [if_pos c10] at h
      exact (OP_GET_UPVALUE_simple h).stepInv hi1 hne
    rw [if_neg c10] at h
    by_cases c11 : instruction = OpCode.OP_SET_UPVALUE
    · rw [if_pos c11] at h
      exact (OP_SET_UPVALUE_simple h).stepInv hi1 hne
    rw [if_neg c11] at h
    by_cases c12 : instruction = OpCode.OP_GET_PROPERTY
    · rw [if_pos c12] at h
      exact (OP_GET_PROPERTY_simple h).stepInv hi1 hne
    rw [if_neg c12] at h
    by_cases c13 : instruction = OpCode.OP_SET_PROPERTY
    · rw [if_pos c13] at h
      exact (OP_SET_PROPERTY_simple h).stepInv hi1 hne
    rw [if_neg c13] at h
    by_cases c14 : instruction = OpCode.OP_GET_SUPER
    · rw [if_pos c14] at h
      exact (OP_GET_SUPER_simple h).stepInv hi1 hne
    rw [if_neg c14] at h
    by_cases c15 : instruction = OpCode.OP_EQUAL
    · rw [if_pos c15] at h
      exact (OP_EQUAL_simple h).stepInv hi1 hne
    rw [if_neg c15] at h
    by_cases c16 : instruction = OpCode.OP_GREATER
    · rw [if_pos c16] at h
      exact (BINARY_OP_simple h).stepInv hi1 hne
    rw [if_neg c16] at h
    by_cases c17 : instruction = OpCode.OP_LESS
    · rw [if_pos c17] at h
      exact (BINARY_OP_simple h).stepInv hi1 hne
    rw [if_neg c17] at h
    by_cases c18 : instruction = OpCode.OP_ADD
    · rw [if_pos c18] at h
      exact (OP_ADD_simple h).stepInv hi1 hne
    rw [if_neg c18] at h
    by_cases c19 : instruction = OpCode.OP_SUBTRACT
    · rw [if_pos c19] at h
      exact (BINARY_OP_simple h).stepInv hi1 hne
    rw [if_neg c19] at h
    by_cases c20 : instruction = OpCode.OP_MULTIPLY
    · rw [if_pos c20] at h
      exact (BINARY_OP_simple h).stepInv hi1 hne
    rw [if_neg c20] at h
    by_cases c21 : instruction = OpCode.OP_DIVIDE
    · rw [if_pos c21] at h
      exact (BINARY_OP_simple h).stepInv hi1 hne
    rw [if_neg c21] at h
    by_cases c22 : instruction = OpCode.OP_NOT
    · rw [if_pos c22] at h
      exact (OP_NOT_simple h).stepInv hi1 hne
    rw [if_neg c22] at h
    by_cases c23 : instruction = OpCode.OP_NEGATE
    · rw [if_pos c23] at h
      exact (OP_NEGATE_simple h).stepInv hi1 hne
    rw [if_neg c23] at h
    by_cases c24 : instruction = OpCode.OP_PRINT
    · rw [if_pos c24] at h
      exact (OP_PRINT_simple h).stepInv hi1 hne
    rw [if_neg c24] at h
    by_cases c25 : instruction = OpCode.OP_JUMP
    · rw [if_pos c25] at h
      exact (OP_JUMP_simple h).stepInv hi1 hne
    rw [if_neg c25] at h
    by_cases c26 : instruction = OpCode.OP_JUMP_IF_FALSE
    · rw [if_pos c26] at h
      exact (OP_JUMP_IF_FALSE_simple h).stepInv hi1 hne
    rw [if_neg c26] at h
    by_cases c27 : instruction = OpCode.OP_LOOP
    · rw [if_pos c27] at h
      exact (OP_LOOP_simple h).stepInv hi1 hne
    rw [if_neg c27] at h
    by_cases c28 : instruction = OpCode.OP_CALL
    · rw [if_pos c28] at h
      exact OP_CALL_inv hi1 hne h
    rw [if_neg c28] at h
    by_cases c29 : instruction = OpCode.OP_INVOKE
    · rw [if_pos c29] at h
      exact OP_INVOKE_inv hi1 hne h
    rw [if_neg c29] at h
    by_cases c30 : instruction = OpCode.OP_SUPER_INVOKE
    · rw [if_pos c30] at h
      exact OP_SUPER_INVOKE_inv hi1 hne h
    rw [if_neg c30] at h
    by_cases c31 : instruction = OpCode.OP_CLOSURE
    · rw [if_pos c31] at h
      exact OP_CLOSURE_inv hi1 hne h
    rw [if_neg c31] at h
    by_cases c32 : instruction = OpCode.OP_CLOSE_UPVALUE
    · rw [if_pos c32] at h
      exact OP_CLOSE_UPVALUE_inv hi1 hne h
    rw [if_neg c32] at h
    by_cases c33 : instruction = OpCode.OP_RETURN
    · rw [if_pos c33] at h
      exact OP_RETURN_inv hi1 h
    rw [if_neg c33] at h
    by_cases c34 : instruction = OpCode.OP_CLASS
    · rw [if_pos c34] at h
      exact (OP_CLASS_simple h).stepInv hi1 hne
    rw [if_neg c34] at h
    by_cases c35 : instruction = OpCode.OP_INHERIT
    · rw [if_pos c35] at h
      exact (OP_INHERIT_simple h).stepInv hi1 hne
    rw [if_neg c35] at h
    by_cases c36 : instruction = OpCode.OP_METHOD
    · rw [if_pos c36] at h
      exact (OP_METHOD_simple h).stepInv hi1 hne
    rw [if_neg c36] at h
    cases h
    exact ⟨hi1, hne⟩

/-! ### The number of frames -/

theorem FrameEffect.afterKept {vm vm1 vm2 : VM} (hk : Keeps vm vm1) (h : FrameEffect vm1 vm2) :
    FrameEffect vm vm2 := by
  unfold FrameEffect at h ⊢
  rw [← hk.frameCount]
  exact h

theorem FrameEffect.same {vm vm1 : VM} (h : vm1.Frames.length = vm.Frames.length) :
    FrameEffect vm vm1 := Or.inl (le_of_eq h)

theorem FrameEffect.bounded {vm vm1 : VM} (h : FrameEffect vm vm1)
    (hb : vm.Frames.length ≤ FRAMES_MAX) : vm1.Frames.length ≤ FRAMES_MAX := by
  rcases h with h | ⟨h1, h2⟩
  · omega
  · omega

theorem SimpleResult.frameEffect {vm : VM} {r : StepResult} (h : SimpleResult vm r) :
    FrameEffect vm r.vm := by
  cases r with
  | Continue vm1 => exact FrameEffect.same h.frameCount
  | Return res vm1 =>
    obtain ⟨format, ints, text, vm0, rfl⟩ := h
    exact Or.inl (Nat.zero_le _)

theorem CallOutcome.callFrames {vm vm1 : VM} {ok : Bool} (h : CallOutcome vm ok vm1) :
    FrameEffect vm vm1 := by
  rcases h with ⟨_, format, ints, text, vm0, rfl⟩ | ⟨_, vm2, hk, h2⟩
  · exact Or.inl (Nat.zero_le _)
  · rcases h2 with rfl | ⟨frame, hlen, rfl⟩
    · exact FrameEffect.same hk.frameCount
    · refine Or.inr ⟨?_, ?_⟩
      · rw [← hk.frameCount]
        exact hlen
      · simp only [List.length_cons, hk.frameCount]

theorem CallOutcome.frames_ok {vm vm1 : VM} {ok : Bool} {r : StepResult}
    (h : CallOutcome vm ok vm1)
    (hr : (if ok = true then some (Continue vm1) else some (Return INTERPRET_RUNTIME_ERROR vm1)) =
      some r) : FrameEffect vm r.vm := by
  have := h.callFrames
  cases ok with
  | true =>
    simp at hr
    subst hr
    exact this
  | false =>
    simp at hr
    subst hr
    exact this

theorem CaptureUpValue_frames {env : VMEnv} {local_ u : Nat} {vm vm1 : VM}
    (h : CaptureUpValue env local_ vm = some (u, vm1)) : vm1.Frames = vm.Frames := by
  unfold CaptureUpValue at h
  split at h
  · cases h
  · split at h
    · cases h
    · simp only [Option.map_eq_some', Prod.mk.injEq] at h
      obtain ⟨_, _, _, rfl⟩ := h
      rfl
    · split at h
      · cases h
      · rename_i created vm2 ha
        have hf : vm2.Frames = vm.Frames := by
          unfold AllocateObject at ha
          split at ha
          · cases ha
          · simp only [Option.some.injEq, Prod.mk.injEq] at ha
            obtain ⟨_, rfl⟩ := ha
            rfl
        split at h
        · simp only [Option.some.injEq, Prod.mk.injEq] at h
          obtain ⟨_, rfl⟩ := h
          exact hf
        · split at h
          · simp only [Option.some.injEq, Prod.mk.injEq] at h
            obtain ⟨_, rfl⟩ := h
            exact hf
          · cases h

theorem CloseUpValuesLoop_frames (last : Nat) :
    ∀ (fuel : Nat) (vm vm1 : VM), CloseUpValuesLoop last fuel vm = some vm1 →
      vm1.Frames = vm.Frames := by
  intro fuel
  induction fuel with
  | zero => intro vm vm1 h; cases h
  | succ n ih =>
    intro vm vm1 h
    unfold CloseUpValuesLoop at h
    split at h
    · cases h
      rfl
    · split at h
      · split at h
        · split at h
          · cases h
          · rw [ih _ _ h]
            rfl
        · cases h
          rfl
      · cases h

theorem ClosureUpValuesLoop_frames (env : VMEnv) (closure slots : Nat) :
    ∀ (n i : Nat) (vm vm1 : VM),
      ClosureUpValuesLoop env closure slots n i vm = some vm1 →
      vm1.Frames.length = vm.Frames.length := by
  intro n
  induction n with
  | zero =>
    intro i vm vm1 h
    unfold ClosureUpValuesLoop at h
    cases h
    rfl
  | succ n ih =>
    intro i vm vm1 h
    unfold ClosureUpValuesLoop at h
    simp only [Option.bind_eq_bind] at h
    obtain ⟨⟨isLocal, vm2⟩, h1, h⟩ := Option.bind_eq_some.mp h
    dsimp only at h
    obtain ⟨⟨index, vm3⟩, h2, h⟩ := Option.bind_eq_some.mp h
    dsimp only at h
    have hl3 : vm3.Frames.length = vm.Frames.length :=
      ((Keeps_READ_BYTE h1).andThen (Keeps_READ_BYTE h2)).frameCount
    have key : ∀ (upValue : Option Nat) (vm4 : VM), vm4.Frames.length = vm.Frames.length →
        (match vm4.Heap closure with
          | some (Obj.Closure function upValues) =>
            ClosureUpValuesLoop env closure slots n (i + 1)
              (vm4.store closure (Obj.Closure function (upValues.set i upValue)))
          | _ => none) = some vm1 → vm1.Frames.length = vm.Frames.length := by
      intro upValue vm4 hl4 h4
      split at h4
      · rw [ih _ _ _ h4]
        exact hl4
      · cases h4
    split at h
    · obtain ⟨⟨upValue, vm4⟩, h3, h4⟩ := Option.bind_eq_some.mp h
      simp only [Option.map_eq_some', Prod.mk.injEq, Prod.exists] at h3
      obtain ⟨u, vm5, h5, _, rfl⟩ := h3
      exact key _ _ (by rw [CaptureUpValue_frames h5]; exact hl3) h4
    · obtain ⟨upValues, _, h⟩ := Option.bind_eq_some.mp h
      obtain ⟨u, _, h⟩ := Option.bind_eq_some.mp h
      exact key _ _ hl3 h

theorem OP_CLOSURE_frames {env : VMEnv} {vm : VM} {r : StepResult}
    (h : Run.OP_CLOSURE env vm = some r) : FrameEffect vm r.vm := by
  unfold Run.OP_CLOSURE at h
  simp only [Option.bind_eq_bind, Option.bind_eq_some, Prod.exists] at h
  obtain ⟨constant, vm1, h1, h2⟩ := h
  split at h2
  · simp only [Option.bind_eq_some, Prod.exists, Option.map_eq_some'] at h2
    obtain ⟨closure, vm2, h3, vm3, h4, frame, _, vm4, h5, rfl⟩ := h2
    refine FrameEffect.same ?_
    rw [show (Continue vm4).vm = vm4 from rfl, ClosureUpValuesLoop_frames env _ _ _ _ _ _ h5]
    exact (((Keeps_READ_CONSTANT h1).andThen (Keeps_AllocateObject h3)).andThen
      (Keeps_Push h4)).frameCount
  · cases h2

theorem OP_CLOSE_UPVALUE_frames {vm : VM} {r : StepResult}
    (h : Run.OP_CLOSE_UPVALUE vm = some r) : FrameEffect vm r.vm := by
  unfold Run.OP_CLOSE_UPVALUE at h
  simp only [Option.bind_eq_bind] at h
  split at h
  · cases h
  · obtain ⟨vm1, h1, h⟩ := Option.bind_eq_some.mp h
    simp only [Option.map_eq_some', Prod.exists] at h
    obtain ⟨v, vm2, h2, rfl⟩ := h
    refine FrameEffect.same ?_
    rw [show (Continue vm2).vm = vm2 from rfl, (Keeps_Pop h2).frameCount,
      CloseUpValuesLoop_frames _ _ _ _ h1]

theorem OP_RETURN_frames {vm : VM} {r : StepResult}
    (h : Run.OP_RETURN vm = some r) : FrameEffect vm r.vm := by
  unfold Run.OP_RETURN at h
  simp only [Option.bind_eq_bind, Option.bind_eq_some, Prod.exists] at h
  obtain ⟨result, vm1, h1, frame, hfr, vm2, h2, h3⟩ := h
  have e2 : vm2.Frames.length = vm.Frames.length := by
    rw [CloseUpValuesLoop_frames _ _ _ _ h2, (Keeps_Pop h1).frameCount]
  have e3 : vm2.Frames.tail.length ≤ vm.Frames.length := by
    rw [List.length_tail]
    omega
  split at h3
  · simp only [Option.map_eq_some', Prod.exists] at h3
    obtain ⟨v, vm4, h4, rfl⟩ := h3
    refine Or.inl ?_
    rw [show (Return INTERPRET_OK vm4).vm = vm4 from rfl, (Keeps_Pop h4).frameCount]
    exact e3
  · split at h3
    · simp only [Option.map_eq_some'] at h3
      obtain ⟨vm4, h4, rfl⟩ := h3
      refine Or.inl ?_
      rw [show (Continue vm4).vm = vm4 from rfl, (Keeps_Push h4).frameCount]
      exact e3
    · cases h3

theorem OP_CALL_frames {env : VMEnv} {vm : VM} {r : StepResult}
    (h : Run.OP_CALL env vm = some r) : FrameEffect vm r.vm := by
  unfold Run.OP_CALL at h
  simp only [Option.bind_eq_bind, Option.bind_eq_some, Prod.exists] at h
  obtain ⟨argCount, vm1, h1, callee, _, ok, vm2, h2, h3⟩ := h
  exact ((CallValue_outcome h2).frames_ok h3).afterKept (Keeps_READ_BYTE h1)

theorem OP_INVOKE_frames {env : VMEnv} {vm : VM} {r : StepResult}
    (h : Run.OP_INVOKE env vm = some r) : FrameEffect vm r.vm := by
  unfold Run.OP_INVOKE at h
  simp only [Option.bind_eq_bind, Option.bind_eq_some, Prod.exists] at h
  obtain ⟨method, vm1, h1, argCount, vm2, h2, ok, vm3, h3, h4⟩ := h
  exact ((Invoke_outcome h3).frames_ok h4).afterKept
    ((Keeps_READ_STRING h1).andThen (Keeps_READ_BYTE h2))

theorem OP_SUPER_INVOKE_frames {vm : VM} {r : StepResult}
    (h : Run.OP_SUPER_INVOKE vm = some r) : FrameEffect vm r.vm := by
  unfold Run.OP_SUPER_INVOKE at h
  simp only [Option.bind_eq_bind, Option.bind_eq_some, Prod.exists] at h
  obtain ⟨method, vm1, h1, argCount, vm2, h2, superClass, vm3, h3, ok, vm4, h4, h5⟩ := h
  exact ((InvokeFromClass_outcome h4).frames_ok h5).afterKept
    (((Keeps_READ_STRING h1).andThen (Keeps_READ_BYTE h2)).andThen (Keeps_Pop h3))

/-- Every instruction leaves the number of frames as it is, lowers it, or
raises it by one from a number other than `FRAMES_MAX`. -/
theorem RunStep_frames {env : VMEnv} {vm : VM} {r : StepResult}
    (h : RunStep env vm = some r) : FrameEffect vm r.vm := by
  unfold RunStep at h
  split at h
  · cases h
  · rename_i instruction vm1 hb
    have hk := Keeps_READ_BYTE hb
    by_cases c0 : instruction = OpCode.OP_CONSTANT
    · rw [if_pos c0] at h
      exact ((OP_CONSTANT_simple h).frameEffect).afterKept hk
    rw [if_neg c0] at h
    by_cases c1 : instruction = OpCode.OP_NIL
    · rw [if_pos c1] at h
      exact ((OP_NIL_simple h).frameEffect).afterKept hk
    rw [if_neg c1] at h
    by_cases c2 : instruction = OpCode.OP_TRUE
    · rw [if_pos c2] at h
      exact ((OP_TRUE_simple h).frameEffect).afterKept hk
    rw [if_neg c2] at h
    by_cases c3 : instruction = OpCode.OP_FALSE
    · rw [if_pos c3] at h
      exact ((OP_FALSE_simple h).frameEffect).afterKept hk
    rw [if_neg c3] at h
    by_cases c4 : instruction = OpCode.OP_POP
    · rw [if_pos c4] at h
      exact ((OP_POP_simple h).frameEffect).afterKept hk
    rw [if_neg c4] at h
    by_cases c5 : instruction = OpCode.OP_GET_LOCAL
    · rw [if_pos c5] at h
      exact ((OP_GET_LOCAL_simple h).frameEffect).afterKept hk
    rw [if_neg c5] at h
    by_cases c6 : instruction = OpCode.OP_SET_LOCAL
    · rw [if_pos c6] at h
      exact ((OP_SET_LOCAL_simple h).frameEffect).afterKept hk
    rw [if_neg c6] at h
    by_cases c7 : instruction = OpCode.OP_GET_GLOBAL
    · rw [if_pos c7] at h
      exact ((OP_GET_GLOBAL_simple h).frameEffect).afterKept hk
    rw [if_neg c7] at h
    by_cases c8 : instruction = OpCode.OP_DEFINE_GLOBAL
    · rw [if_pos c8] at h
      exact ((OP_DEFINE_GLOBAL_simple h).frameEffect).afterKept hk
    rw [if_neg c8] at h
    by_cases c9 : instruction = OpCode.OP_SET_GLOBAL
    · rw [if_pos c9] at h
      exact ((OP_SET_GLOBAL_simple h).frameEffect).afterKept hk
    rw [if_neg c9] at h
    by_cases c10 : instruction = OpCode.OP_GET_UPVALUE
    · rw [if_pos c10] at h
      exact ((OP_GET_UPVALUE_simple h).frameEffect).afterKept hk
    rw [if_neg c10] at h
    by_cases c11 : instruction = OpCode.OP_SET_UPVALUE
    · rw [if_pos c11] at h
      exact ((OP_SET_UPVALUE_simple h).frameEffect).afterKept hk
    rw [if_neg c11] at h
    by_cases c12 : instruction = OpCode.OP_GET_PROPERTY
    · rw [if_pos c12] at h
      exact ((OP_GET_PROPERTY_simple h).frameEffect).afterKept hk
    rw [if_neg c12] at h
    by_cases c13 : instruction = OpCode.OP_SET_PROPERTY
    · rw [if_pos c13] at h
      exact ((OP_SET_PROPERTY_simple h).frameEffect).afterKept hk
    rw [if_neg c13] at h
    by_cases c14 : instruction = OpCode.OP_GET_SUPER
    · rw [if_pos c14] at h
      exact ((OP_GET_SUPER_simple h).frameEffect).afterKept hk
    rw [if_neg c14] at h
    by_cases c15 : instruction = OpCode.OP_EQUAL
    · rw [if_pos c15] at h
      exact ((OP_EQUAL_simple h).frameEffect).afterKept hk
    rw [if_neg c15] at h
    by_cases c16 : instruction = OpCode.OP_GREATER
    · rw [if_pos c16] at h
      exact ((BINARY_OP_simple h).frameEffect).afterKept hk
    rw [if_neg c16] at h
    by_cases c17 : instruction = OpCode.OP_LESS
    · rw [if_pos c17] at h
      exact ((BINARY_OP_simple h).frameEffect).afterKept hk
    rw [if_neg c17] at h
    by_cases c18 : instruction = OpCode.OP_ADD
    · rw [if_pos c18] at h
      exact ((OP_ADD_simple h).frameEffect).afterKept hk
    rw [if_neg c18] at h
    by_cases c19 : instruction = OpCode.OP_SUBTRACT
    · rw [if_pos c19] at h
      exact ((BINARY_OP_simple h).frameEffect).afterKept hk
    rw [if_neg c19] at h
    by_cases c20 : instruction = OpCode.OP_MULTIPLY
    · rw [if_pos c20] at h
      exact ((BINARY_OP_simple h).frameEffect).afterKept hk
    rw [if_neg c20] at h
    by_cases c21 : instruction = OpCode.OP_DIVIDE
    · rw [if_pos c21] at h
      exact ((BINARY_OP_simple h).frameEffect).afterKept hk
    rw [if_neg c21] at h
    by_cases c22 : instruction = OpCode.OP_NOT
    · rw [if_pos c22] at h
      exact ((OP_NOT_simple h).frameEffect).afterKept hk
    rw [if_neg c22] at h
    by_cases c23 : instruction = OpCode.OP_NEGATE
    · rw [if_pos c23] at h
      exact ((OP_NEGATE_simple h).frameEffect).afterKept hk
    rw [if_neg c23] at h
    by_cases c24 : instruction = OpCode.OP_PRINT
    · rw [if_pos c24] at h
      exact ((OP_PRINT_simple h).frameEffect).afterKept hk
    rw [if_neg c24] at h
    by_cases c25 : instruction = OpCode.OP_JUMP
    · rw [if_pos c25] at h
      exact ((OP_JUMP_simple h).frameEffect).afterKept hk
    rw [if_neg c25] at h
    by_cases c26 : instruction = OpCode.OP_JUMP_IF_FALSE
    · rw [if_pos c26] at h
      exact ((OP_JUMP_IF_FALSE_simple h).frameEffect).afterKept hk
    rw [if_neg c26] at h
    by_cases c27 : instruction = OpCode.OP_LOOP
    · rw [if_pos c27] at h
      exact ((OP_LOOP_simple h).frameEffect).afterKept hk
    rw [if_neg c27] at h
    by_cases c28 : instruction = OpCode.OP_CALL
    · rw [if_pos c28] at h
      exact (OP_CALL_frames h).afterKept hk
    rw [if_neg c28] at h
    by_cases c29 : instruction = OpCode.OP_INVOKE
    · rw [if_pos c29] at h
      exact (OP_INVOKE_frames h).afterKept hk
    rw [if_neg c29] at h
    by_cases c30 : instruction = OpCode.OP_SUPER_INVOKE
    · rw [if_pos c30] at h
      exact (OP_SUPER_INVOKE_frames h).afterKept hk
    rw [if_neg c30] at h
    by_cases c31 : instruction = OpCode.OP_CLOSURE
    · rw [if_pos c31] at h
      exact (OP_CLOSURE_frames h).afterKept hk
    rw [if_neg c31] at h
    by_cases c32 : instruction = OpCode.OP_CLOSE_UPVALUE
    · rw [if_pos c32] at h
      exact (OP_CLOSE_UPVALUE_frames h).afterKept hk
    rw [if_neg c32] at h
    by_cases c33 : instruction = OpCode.OP_RETURN
    · rw [if_pos c33] at h
      exact (OP_RETURN_frames h).afterKept hk
    rw [if_neg c33] at h
    by_cases c34 : instruction = OpCode.OP_CLASS
    · rw [if_pos c34] at h
      exact ((OP_CLASS_simple h).frameEffect).afterKept hk
    rw [if_neg c34] at h
    by_cases c35 : instruction = OpCode.OP_INHERIT
    · rw [if_pos c35] at h
      exact ((OP_INHERIT_simple h).frameEffect).afterKept hk
    rw [if_neg c35] at h
    by_cases c36 : instruction = OpCode.OP_METHOD
    · rw [if_pos c36] at h
      exact ((OP_METHOD_simple h).frameEffect).afterKept hk
    rw [if_neg c36] at h
    cases h
    exact FrameEffect.same hk.frameCount

theorem Keeps_CopyString {env : VMEnv} {text : List Nat} {length p : Nat} {vm vm1 : VM}
    (h : vm.CopyString env text length = some (p, vm1)) : Keeps vm vm1 := by
  unfold VM.CopyString at h
  split at h
  · cases h
  · rename_i string vms ht
    simp only [Option.some.injEq, Prod.mk.injEq] at h
    obtain ⟨rfl, rfl⟩ := h
    unfold CLox.CopyString at ht
    split at ht
    · cases ht
    · rename_i hash hh
      obtain ⟨hlen, hhash⟩ := HashString_some hh
      split at ht
      · cases ht
      · rename_i interned hf
        simp only [Option.some.injEq, Prod.mk.injEq] at ht
        obtain ⟨rfl, rfl⟩ := ht
        obtain ⟨f1, f2⟩ := TableFindString_found _ _ _ _ _ _ hf
        refine ⟨rfl, rfl, fun _ hp => hp, ?_⟩
        intro q slot closed next _ hq
        have hne : q ≠ interned := by
          rintro rfl
          simp only [VM.strings, hq] at f1 f2
          subst f1
          rw [← f2] at hhash
          simp [FNV1a32] at hhash
        simp [hne]
      · unfold ReallocateGrow at ht
        dsimp only at ht
        unfold AllocateString ReallocateGrow at ht
        dsimp only at ht
        split at ht
        · cases ht
        · rename_i hno
          unfold TableSetStrings ReallocateGrow at ht
          simp only [Option.map_none'] at ht
          split at ht
          · cases ht
          · rename_i vm2 hvm2
            simp only [Option.some.injEq, Prod.mk.injEq] at ht
            obtain ⟨rfl, rfl⟩ := ht
            have hobj : vm2.Objects = env.alloc vm.Allocs :: vm.Objects := by
              simp only [ite_self] at hvm2
              split at hvm2
              · cases hvm2
              · cases hvm2
                rfl
            refine ⟨rfl, rfl, fun q hq => ?_, ?_⟩
            · show q ∈ vm2.Objects
              rw [hobj]
              exact List.mem_cons_of_mem _ hq
            · intro q slot closed next hq _
              have : q ≠ env.alloc vm.Allocs := fun e => hno (e ▸ hq)
              simp [this]

theorem Keeps_DefineNativeFunction {env : VMEnv} {name : List Nat} {function : NativeFn}
    {vm vm1 : VM} (h : DefineNativeFunction env name function vm = some vm1) : Keeps vm vm1 := by
  unfold DefineNativeFunction at h
  simp only [Option.bind_eq_bind, Option.bind_eq_some, Prod.exists, Option.some.injEq] at h
  obtain ⟨string, vm2, h1, vm3, h2, native, vm4, h3, vm5, h4, key, _, value, _, b, globals, _,
    v1, vm6, h5, v2, vm7, h6, rfl⟩ := h
  exact (((((Keeps_CopyString h1).andThen (Keeps_Push h2)).andThen (Keeps_AllocateObject h3)).andThen
    (Keeps_Push h4)).andThen ((Keeps_Globals vm5 globals).andThen (Keeps_Pop h5))).andThen (Keeps_Pop h6)

theorem CopyString_Stack {env : VMEnv} {text : List Nat} {length p : Nat} {vm vm1 : VM}
    (h : vm.CopyString env text length = some (p, vm1)) : vm1.Stack = vm.Stack := by
  unfold VM.CopyString at h
  split at h
  · cases h
  · simp only [Option.some.injEq, Prod.mk.injEq] at h
    obtain ⟨_, rfl⟩ := h
    rfl

theorem AllocateObject_Stack {env : VMEnv} {object : Obj} {p : Nat} {vm vm1 : VM}
    (h : AllocateObject env object vm = some (p, vm1)) : vm1.Stack = vm.Stack := by
  unfold AllocateObject at h
  split at h
  · cases h
  · simp only [Option.some.injEq, Prod.mk.injEq] at h
    obtain ⟨_, rfl⟩ := h
    rfl

theorem Push_Stack {v : Value} {vm vm1 : VM} (h : Push v vm = some vm1) :
    vm1.Stack = v :: vm.Stack := by
  unfold Push at h
  split at h
  · cases h
    rfl
  · cases h

theorem Pop_Stack {v : Value} {vm vm1 : VM} (h : Pop vm = some (v, vm1)) :
    vm.Stack = v :: vm1.Stack := by
  unfold Pop at h
  split at h
  · cases h
  · rename_i value rest hs
    cases h
    exact hs

theorem DefineNativeFunction_Stack {env : VMEnv} {name : List Nat} {function : NativeFn}
    {vm vm1 : VM} (h : DefineNativeFunction env name function vm = some vm1) :
    vm1.Stack = vm.Stack := by
  unfold DefineNativeFunction at h
  simp only [Option.bind_eq_bind, Option.bind_eq_some, Prod.exists, Option.some.injEq] at h
  obtain ⟨string, vm2, h1, vm3, h2, native, vm4, h3, vm5, h4, key, _, value, _, b, globals, _,
    v1, vm6, h5, v2, vm7, h6, rfl⟩ := h
  have e1 := CopyString_Stack h1
  have e2 := Push_Stack h2
  have e3 := AllocateObject_Stack h3
  have e4 := Push_Stack h4
  have e5 := Pop_Stack h5
  have e6 := Pop_Stack h6
  simp only at e5
  rw [e4, e3, e2, e1, e6] at e5
  simp only [List.cons.injEq] at e5
  exact e5.2.2.symm

theorem InitVM_entry {env : VMEnv} {vm : VM} (h : VM.InitVM env = some vm) :
    vm.Frames = [] ∧ vm.OpenUpValues = none ∧ vm.Stack = [] := by
  unfold VM.InitVM at h
  simp only [Option.bind_eq_bind, Option.bind_eq_some, Prod.exists] at h
  obtain ⟨initString, vm1, h1, h2⟩ := h
  have hk := (Keeps_CopyString h1).andThen
    ((Keeps.of_eq rfl rfl rfl rfl : Keeps vm1 { vm1 with InitString := some initString }).andThen
      (Keeps_DefineNativeFunction h2))
  refine ⟨List.length_eq_zero.mp hk.frameCount, hk.openUpValues, ?_⟩
  rw [DefineNativeFunction_Stack h2]
  exact CopyString_Stack h1

/-- Every reachable state has at most `FRAMES_MAX` frames. -/
theorem RunReachable.frames_le {env : VMEnv} {vm : VM} (h : RunReachable env vm) :
    vm.Frames.length ≤ FRAMES_MAX := by
  induction h with
  | init h => rw [(InitVM_entry h).1]; exact Nat.zero_le _
  | compiled st _ ih => exact ih
  | push _ h ih => rw [(Keeps_Push h).frameCount]; exact ih
  | pop _ h ih => rw [(Keeps_Pop h).frameCount]; exact ih
  | closure _ h ih =>
    unfold NewClosure at h
    split at h
    · rw [(Keeps_AllocateObject h).frameCount]; exact ih
    · cases h
  | call _ h ih => exact (Call_outcome h).callFrames.bounded ih
  | step _ h ih => exact (RunStep_frames h).bounded ih

theorem RunLoop_reachable (env : VMEnv) :
    ∀ (fuel : Nat) (vm vm1 : VM) (res : InterpretResult), RunReachable env vm →
      RunLoop env fuel vm = some (res, vm1) → RunReachable env vm1 := by
  intro fuel
  induction fuel with
  | zero => intro vm vm1 res _ h; cases h
  | succ n ih =>
    intro vm vm1 res hr h
    unfold RunLoop at h
    split at h
    · cases h
    · rename_i result vm2 hs
      cases h
      exact RunReachable.step hr hs
    · rename_i vm2 hs
      exact ih _ _ _ (RunReachable.step hr hs) h

theorem Interpret_reachable {env : VMEnv} {fuel : Nat} {vm vm1 : VM} {source : List Nat}
    {res : InterpretResult} {errs : List (Token × List Nat)} (hr : RunReachable env vm)
    (h : Interpret env fuel vm source = some (res, vm1, errs)) : RunReachable env vm1 := by
  unfold Interpret at h
  split at h
  · cases h
  · rename_i st _
    cases h
    exact RunReachable.compiled st hr
  · rename_i function st _
    simp only [Option.bind_eq_bind, Option.bind_eq_some, Prod.exists, Option.some.injEq,
      Prod.mk.injEq] at h
    obtain ⟨vm2, h1, closure, vm3, h2, v, vm4, h3, vm5, h4, ok, vm6, h5, res2, vm7, h6, rfl, rfl,
      rfl⟩ := h
    exact RunLoop_reachable env _ _ _ _
      (RunReachable.call (RunReachable.push (RunReachable.pop (RunReachable.closure
        (RunReachable.push (RunReachable.compiled st hr) h1) h2) h3) h4) h5) h6

set_option maxRecDepth 1000000 in
/-- The recursion `fun f() { f(); } f();` ends with the runtime error
`Stack overflow.`. -/
theorem recursion_overflow :
    (VM.InitVM sampleVMEnv).bind (fun vm =>
      runSummary (Interpret sampleVMEnv 400 vm (chars "fun f() \x7b f(); \x7d f();"))) =
      some (INTERPRET_RUNTIME_ERROR, [], [⟨chars "Stack overflow.", [], []⟩], []) := by
  decide

/-- Claim C21 (frame bound): `InitVM` leaves no frame; every state that
`InitVM` and `Interpret` can produce (`RunReachable`: after a compilation,
between the steps of `Interpret`, and after each instruction of `Run`, for any
number of calls of `Interpret`) has at most `FRAMES_MAX = 64` frames; no
instruction raises the number of frames above 64; and `Call` with the right
number of arguments at 64 frames reports `Stack overflow.`, resets the stack
(no frame is left, none is written) and returns `false`. -/
theorem C21_frame_bound (env : VMEnv) :
    FRAMES_MAX = 64 ∧
    (∀ vm, VM.InitVM env = some vm → vm.Frames.length = 0) ∧
    (∀ vm, RunReachable env vm → vm.Frames.length ≤ 64) ∧
    (∀ vm fuel source res vm1 errs, RunReachable env vm →
      Interpret env fuel vm source = some (res, vm1, errs) → RunReachable env vm1) ∧
    (∀ vm r, vm.Frames.length ≤ 64 → RunStep env vm = some r → r.vm.Frames.length ≤ 64) ∧
    (∀ vm c fn ups f, vm.Heap c = some (Obj.Closure fn ups) →
      vm.Heap fn = some (Obj.Function f) → vm.Frames.length = 64 →
      Call c f.Arity vm = some (false, RuntimeError (chars "Stack overflow.") [] [] vm) ∧
      (RuntimeError (chars "Stack overflow.") [] [] vm).Frames = [] ∧
      (RuntimeError (chars "Stack overflow.") [] [] vm).stderr =
        vm.stderr ++ [⟨chars "Stack overflow.", [], []⟩]) := by
  refine ⟨rfl, ?_, ?_, ?_, ?_, ?_⟩
  · intro vm h
    rw [(InitVM_entry h).1]
    rfl
  · intro vm h
    exact h.frames_le
  · intro vm fuel source res vm1 errs hr h
    exact Interpret_reachable hr h
  · intro vm r hb h
    exact (RunStep_frames h).bounded hb
  · intro vm c fn ups f hc hf hl
    refine ⟨?_, rfl, rfl⟩
    rw [Call_eq vm c fn ups f f.Arity hc hf, if_neg (by simp),
      if_pos (show vm.Frames.length = FRAMES_MAX from hl)]

/-- Witness for C21: the recursion `fun f() { f(); } f();` ends with the
runtime error `Stack overflow.`, and `Call` at 64 frames pushes none. -/
theorem C21_frame_bound_witness :
    (VM.InitVM sampleVMEnv).bind (fun vm =>
      runSummary (Interpret sampleVMEnv 400 vm (chars "fun f() \x7b f(); \x7d f();"))) =
      some (INTERPRET_RUNTIME_ERROR, [], [⟨chars "Stack overflow.", [], []⟩], []) ∧
    fullFramesVM.Frames.length = 64 ∧
    Call 8 1 fullFramesVM =
      some (false, RuntimeError (chars "Stack overflow.") [] [] fullFramesVM) ∧
    (RuntimeError (chars "Stack overflow.") [] [] fullFramesVM).Frames = [] ∧
    (RuntimeError (chars "Stack overflow.") [] [] fullFramesVM).stderr =
      fullFramesVM.stderr ++ [⟨chars "Stack overflow.", [], []⟩] :=
  ⟨recursion_overflow, rfl,
    (C21_frame_bound sampleVMEnv).2.2.2.2.2 fullFramesVM 8 16 [] ⟨1, 0, InitChunk, none⟩ rfl rfl
      rfl⟩

/-! ### `CloseUpValues` on a sorted list -/

theorem sorted_split (last : Nat) :
    ∀ (l : List (Nat × Nat)), (l.map Prod.snd).Pairwise (fun a b => a > b) →
      l.dropWhile (fun x => decide (x.2 ≥ last)) = l.filter (fun x => decide (x.2 < last)) ∧
      l.takeWhile (fun x => decide (x.2 ≥ last)) = l.filter (fun x => decide (x.2 ≥ last)) := by
  intro l
  induction l with
  | nil => intro _; simp
  | cons x t ih =>
    intro hs
    simp only [List.map_cons, List.pairwise_cons, List.mem_map] at hs
    obtain ⟨h1, h2⟩ := hs
    by_cases hx : x.2 ≥ last
    · have hx2 : ¬ x.2 < last := by omega
      simp only [List.dropWhile_cons, List.takeWhile_cons, List.filter_cons, hx, hx2,
        decide_True, decide_False, if_true, if_false, Bool.false_eq_true]
      obtain ⟨i1, i2⟩ := ih h2
      exact ⟨i1, by rw [i2]⟩
    · have hx2 : x.2 < last := by omega
      have hall : ∀ y ∈ t, y.2 < last := by
        intro y hy
        have := h1 y.2 ⟨y, hy, rfl⟩
        omega
      simp only [List.dropWhile_cons, List.takeWhile_cons, List.filter_cons, hx, hx2,
        decide_True, decide_False, if_true, if_false, Bool.false_eq_true]
      constructor
      · congr 1
        symm
        rw [List.filter_eq_self]
        intro y hy
        simpa using hall y hy
      · symm
        rw [List.filter_eq_nil_iff]
        intro y hy
        have := hall y hy
        simp
        omega

/-- Claim C25: in a machine whose open upvalues are the sorted list `l`, each
pointing to a live stack slot, `CloseUpValues(last)` returns; every upvalue of
`l` with slot `>= last` is closed afterwards (`Location` points to its own
`Closed` field, which holds the value its stack slot held) and is no longer on
the list of open upvalues; the upvalues with slot `< last` are the list of
open upvalues afterwards, in the same order and unchanged; no other object and
no other part of the machine changes. -/
theorem C25_close_upvalues (vm : VM) (l : List (Nat × Nat)) (last : Nat)
    (h : OpenSorted vm l) (hlive : ∀ x ∈ l, x.2 ≥ last → x.2 < vm.Stack.length) :
    ∃ vm1, CloseUpValues last vm = some vm1 ∧
      OpenSorted vm1 (l.filter (fun x => decide (x.2 < last))) ∧
      (∀ a s, (a, s) ∈ l → s ≥ last →
        ∃ closed next value,
          vm.Heap a = some (Obj.UpValue (UpValueLocation.Stack s) closed next) ∧
          vm.getSlot s = some value ∧
          vm1.Heap a = some (Obj.UpValue UpValueLocation.Closed value next) ∧
          ∀ x ∈ l.filter (fun x => decide (x.2 < last)), x.1 ≠ a) ∧
      (∀ a s, (a, s) ∈ l → s < last → vm1.Heap a = vm.Heap a) ∧
      (∀ q, (∀ x ∈ l, q ≠ x.1) → vm1.Heap q = vm.Heap q) ∧
      vm1.Stack = vm.Stack ∧ vm1.Frames = vm.Frames ∧ vm1.Objects = vm.Objects ∧
      vm1.Globals = vm.Globals ∧ vm1.Strings = vm.Strings ∧
      vm1.InitString = vm.InitString ∧ vm1.stdout = vm.stdout ∧ vm1.stderr = vm.stderr := by
  obtain ⟨vm1, hc⟩ := CloseUpValuesLoop_isSome last l vm (vm.Objects.length + 1) h
    (by have := h.length_le; omega) hlive
  obtain ⟨i1, i2, i3, i4, i5, i6, i7, _, i9, i10, i11, i12⟩ :=
    CloseUpValuesLoop_spec last l vm vm1 _ h hc
  obtain ⟨e1, e2⟩ := sorted_split last l h.2.1
  rw [e1] at i1
  rw [e2] at i11 i12
  have hnd := h.nodup
  refine ⟨vm1, hc, i1, ?_, ?_, ?_, i2, i3, i4, i5, i6, i7, i9, i10⟩
  · intro a s hm hs
    obtain ⟨closed, next, value, j1, j2, j3⟩ :=
      i11 a s (List.mem_filter.mpr ⟨hm, by simpa using hs⟩)
    refine ⟨closed, next, value, j1, j2, j3, ?_⟩
    intro x hx e
    obtain ⟨hxl, hxs⟩ := List.mem_filter.mp hx
    simp only [decide_eq_true_eq] at hxs
    obtain ⟨c2, n2, k1⟩ := isOpenList_mem vm.Heap l _ h.1 x.1 x.2 hxl
    rw [e, j1] at k1
    simp only [Option.some.injEq, Obj.UpValue.injEq, UpValueLocation.Stack.injEq] at k1
    omega
  · intro a s hm hs
    apply i12
    intro x hx e
    obtain ⟨hxl, hxs⟩ := List.mem_filter.mp hx
    simp only [decide_eq_true_eq] at hxs
    obtain ⟨c1, n1, k1⟩ := isOpenList_mem vm.Heap l _ h.1 a s hm
    obtain ⟨c2, n2, k2⟩ := isOpenList_mem vm.Heap l _ h.1 x.1 x.2 hxl
    rw [← e, k1] at k2
    simp only [Option.some.injEq, Obj.UpValue.injEq, UpValueLocation.Stack.injEq] at k2
    omega
  · intro q hq
    apply i12
    intro x hx
    exact hq x (List.mem_filter.mp hx).1

/-- Witness for C25: `CloseUpValues(1)` on `closeVM` closes the upvalue for
slot 2 with the value on top of the stack and leaves the one for slot 0 open. -/
theorem C25_close_upvalues_witness :
    OpenSorted closeVM [(8, 2), (16, 0)] ∧
    (CloseUpValues 1 closeVM).map (fun vm1 => (vm1.OpenUpValues, closedUpValue vm1 8,
      openUpValue vm1 16)) =
      some (some 16, some (BOOL_VAL true, some 16), some (0, none)) ∧
    ∃ vm1, CloseUpValues 1 closeVM = some vm1 ∧
      OpenSorted vm1 ([(8, 2), (16, 0)].filter (fun x => decide (x.2 < 1))) ∧
      (∀ a s, (a, s) ∈ [(8, 2), (16, 0)] → s ≥ 1 →
        ∃ closed next value,
          closeVM.Heap a = some (Obj.UpValue (UpValueLocation.Stack s) closed next) ∧
          closeVM.getSlot s = some value ∧
          vm1.Heap a = some (Obj.UpValue UpValueLocation.Closed value next) ∧
          ∀ x ∈ [(8, 2), (16, 0)].filter (fun x => decide (x.2 < 1)), x.1 ≠ a) ∧
      (∀ a s, (a, s) ∈ [(8, 2), (16, 0)] → s < 1 → vm1.Heap a = closeVM.Heap a) ∧
      (∀ q, (∀ x ∈ [(8, 2), (16, 0)], q ≠ x.1) → vm1.Heap q = closeVM.Heap q) ∧
      vm1.Stack = closeVM.Stack ∧ vm1.Frames = closeVM.Frames ∧
      vm1.Objects = closeVM.Objects ∧
      vm1.Globals = closeVM.Globals ∧ vm1.Strings = closeVM.Strings ∧
      vm1.InitString = closeVM.InitString ∧ vm1.stdout = closeVM.stdout ∧
      vm1.stderr = closeVM.stderr :=
  ⟨⟨rfl, by decide, by decide⟩, by decide,
    C25_close_upvalues closeVM [(8, 2), (16, 0)] 1 ⟨rfl, by decide, by decide⟩ (by decide)⟩

/-! ### The open upvalues of the reachable states -/

theorem RunInv_of_entry {vm : VM} (hf : vm.Frames = []) (ho : vm.OpenUpValues = none) :
    RunInv vm := by
  refine ⟨⟨?_, ?_⟩, [], ?_, by simp, by simp⟩
  · rw [hf]; exact Nat.zero_le _
  · intro f h
    rw [hf] at h
    cases h
  · rw [ho]
    rfl

theorem OpenInv_of_entry {vm : VM} (hf : vm.Frames = []) (ho : vm.OpenUpValues = none) :
    OpenInv vm := ⟨RunInv_of_entry hf ho, fun _ => ho⟩

theorem StepInv.openInv {r : StepResult} (h : StepInv r) : OpenInv r.vm := by
  cases r with
  | Continue vm1 => exact ⟨h.1, fun e => absurd e h.2⟩
  | Return res vm1 => exact ⟨h.2.1, fun _ => h.1.2⟩

theorem InterpretStart_inv {env : VMEnv} {fuel : Nat} {vm vm5 : VM} {source : List Nat}
    {errs : List (Token × List Nat)} (hf : vm.Frames = []) (ho : vm.OpenUpValues = none)
    (hs : vm.Stack = []) (h : InterpretStart env fuel vm source = some (vm5, errs)) :
    OpenInv vm5 := by
  unfold InterpretStart at h
  split at h
  · rename_i function st _
    simp only [Option.bind_eq_bind, Option.bind_eq_some, Prod.exists, Option.some.injEq,
      Prod.mk.injEq] at h
    obtain ⟨vm1, h1, closure, vm2, h2, v, vm3, h3, vm4, h4, ok, vm6, h5, rfl, _⟩ := h
    have hc : ∃ p, AllocateObject env p vm1 = some (closure, vm2) := by
      unfold NewClosure at h2
      split at h2
      · exact ⟨_, h2⟩
      · cases h2
    obtain ⟨p, hc⟩ := hc
    have hk : Keeps (vm.afterCompile st) vm4 :=
      (((Keeps_Push h1).andThen (Keeps_AllocateObject hc)).andThen (Keeps_Pop h3)).andThen
        (Keeps_Push h4)
    have hstack : vm4.Stack.length = 1 := by
      have e1 := Push_Stack h1
      have e2 := AllocateObject_Stack hc
      have e3 := Pop_Stack h3
      have e4 := Push_Stack h4
      rw [e2, e1] at e3
      simp only [List.cons.injEq] at e3
      rw [e4, ← e3.2]
      show ([OBJ_VAL closure] ++ vm.Stack).length = 1
      rw [hs]
      rfl
    have hf4 : vm4.Frames = [] := List.length_eq_zero.mp (by rw [hk.frameCount]; simp [VM.afterCompile, hf])
    have ho4 : vm4.OpenUpValues = none := by rw [hk.openUpValues]; exact ho
    unfold Call at h5
    split at h5
    · split at h5
      · split at h5
        · cases h5
          exact OpenInv_of_entry rfl rfl
        · split at h5
          · cases h5
            exact OpenInv_of_entry rfl rfl
          · cases h5
            refine ⟨⟨⟨?_, ?_⟩, [], ?_, by simp, by simp⟩, ?_⟩
            · simp [hf4, FRAMES_MAX]
            · intro f hfl
              simp only [hf4, List.getLast?_singleton, Option.some.injEq] at hfl
              subst hfl
              simp only
              omega
            · show isOpenList vm4.Heap vm4.OpenUpValues [] = true
              rw [ho4]
              rfl
            · intro e
              simp at e
      · cases h5
    · cases h5
  · cases h

theorem OpenReachable.invariant {env : VMEnv} {vm : VM} (h : OpenReachable env vm) : OpenInv vm := by
  induction h with
  | init h =>
    obtain ⟨h1, h2, _⟩ := InitVM_entry h
    exact OpenInv_of_entry h1 h2
  | compiled st _ hf ih => exact OpenInv_of_entry hf (ih.2 hf)
  | start _ hf hs h ih => exact InterpretStart_inv hf (ih.2 hf) hs h
  | step _ h ih => exact (RunStep_inv ih.1 h).openInv

theorem RunLoop_open (env : VMEnv) :
    ∀ (fuel : Nat) (vm vm1 : VM) (res : InterpretResult), OpenReachable env vm →
      RunLoop env fuel vm = some (res, vm1) →
      OpenReachable env vm1 ∧ vm1.Frames = [] ∧ vm1.OpenUpValues = none ∧
        (res ≠ INTERPRET_OK → vm1.Stack = []) := by
  intro fuel
  induction fuel with
  | zero => intro vm vm1 res _ h; cases h
  | succ n ih =>
    intro vm vm1 res hr h
    unfold RunLoop at h
    split at h
    · cases h
    · rename_i result vm2 hs
      cases h
      have := RunStep_inv hr.invariant.1 hs
      exact ⟨OpenReachable.step hr hs, this.1.1, this.1.2, this.2.2⟩
    · rename_i vm2 hs
      exact ih _ _ _ (OpenReachable.step hr hs) h

theorem Interpret_open {env : VMEnv} {fuel : Nat} {vm vm1 : VM} {source : List Nat}
    {res : InterpretResult} {errs : List (Token × List Nat)} (hr : OpenReachable env vm)
    (hf : vm.Frames = []) (hs : vm.Stack = [])
    (h : Interpret env fuel vm source = some (res, vm1, errs)) :
    OpenReachable env vm1 ∧ vm1.Frames = [] ∧ vm1.OpenUpValues = none ∧
      (res ≠ INTERPRET_OK → vm1.Stack = []) := by
  have hstart : ∀ vm5 errs2, InterpretStart env fuel vm source = some (vm5, errs2) →
      OpenReachable env vm5 := fun vm5 errs2 h5 => OpenReachable.start hr hf hs h5
  unfold Interpret at h
  unfold InterpretStart at hstart
  split at h
  · cases h
  · rename_i st _
    cases h
    exact ⟨OpenReachable.compiled st hr hf, hf, hr.invariant.2 hf, fun _ => hs⟩
  · rename_i function st hcomp
    rw [hcomp] at hstart
    simp only [Option.bind_eq_bind, Option.bind_eq_some, Prod.exists, Option.some.injEq,
      Prod.mk.injEq] at h hstart
    obtain ⟨vm2, h1, closure, vm3, h2, v, vm4, h3, vm5, h4, ok, vm6, h5, res2, vm7, h6, rfl, rfl,
      rfl⟩ := h
    exact RunLoop_open env _ _ _ _
      (hstart vm6 st.stderr ⟨vm2, h1, closure, vm3, h2, v, vm4, h3, vm5, h4, ok, vm6, h5, rfl,
        rfl⟩) h6

/-- Claim C24 (open upvalues): in every state reached from `InitVM` through
calls of `Interpret` entered with an empty value stack (`OpenReachable`) the
upvalues on `vm.OpenUpValues` are open, their slots strictly decrease from
head to tail, and each is a live object; such a call of `Interpret` ends with
no frame and no open upvalue, and after an error with an empty stack.  In a
sorted list no two upvalues share a slot or an address.  On a sorted list
`CaptureUpValue(local)` returns the open upvalue of the slot `local` and
changes nothing when there is one; otherwise, when the allocator returns, it
returns a new object and the list is the old one with the new upvalue between
the upvalues above `local` and those below; and whenever it returns, the list
is sorted afterwards. -/
theorem C24_open_upvalues (env : VMEnv) :
    (∀ vm, OpenReachable env vm → ∃ l, OpenSorted vm l) ∧
    (∀ vm fuel source res vm1 errs, OpenReachable env vm → vm.Frames = [] → vm.Stack = [] →
      Interpret env fuel vm source = some (res, vm1, errs) →
      OpenReachable env vm1 ∧ vm1.Frames = [] ∧ vm1.OpenUpValues = none ∧
        (res ≠ INTERPRET_OK → vm1.Stack = [])) ∧
    (∀ vm r l, OpenSorted vm l → vm.Frames.length ≤ FRAMES_MAX →
      (∀ f, vm.Frames.getLast? = some f → f.Slots = 0) →
      RunStep env vm = some r → ∃ l1, OpenSorted r.vm l1) ∧
    (∀ vm l, OpenSorted vm l → (l.map Prod.snd).Nodup ∧ (l.map Prod.fst).Nodup) ∧
    (∀ vm l local_ a, OpenSorted vm l → (a, local_) ∈ l →
      CaptureUpValue env local_ vm = some (a, vm)) ∧
    (∀ vm l local_, OpenSorted vm l → (∀ x ∈ l, x.2 ≠ local_) →
      env.alloc vm.Allocs ∉ vm.Objects →
      ∃ vm1 above below, CaptureUpValue env local_ vm = some (env.alloc vm.Allocs, vm1) ∧
        l = above ++ below ∧ (∀ x ∈ above, x.2 > local_) ∧ (∀ x ∈ below, x.2 < local_) ∧
        OpenSorted vm1 (above ++ (env.alloc vm.Allocs, local_) :: below) ∧
        vm1.Objects = env.alloc vm.Allocs :: vm.Objects ∧
        vm1.Stack = vm.Stack ∧ vm1.Frames = vm.Frames) ∧
    (∀ vm l local_ u vm1, OpenSorted vm l → CaptureUpValue env local_ vm = some (u, vm1) →
      ∃ l1, OpenSorted vm1 l1) := by
  refine ⟨?_, ?_, ?_, ?_, ?_, ?_, ?_⟩
  · intro vm h
    exact h.invariant.1.2
  · intro vm fuel source res vm1 errs hr hf hs h
    exact Interpret_open hr hf hs h
  · intro vm r l hs hl hlast h
    have := RunStep_inv ⟨⟨hl, hlast⟩, l, hs⟩ h
    exact this.openInv.1.2
  · intro vm l h
    refine ⟨?_, h.nodup⟩
    exact h.2.1.imp (fun hab => Nat.ne_of_gt hab)
  · intro vm l local_ a h hm
    exact CaptureUpValue_found env vm local_ a l h hm
  · intro vm l local_ h hno hfresh
    obtain ⟨vm1, h1, h2, h3, h4, h5, _⟩ := CaptureUpValue_new env vm local_ l h hno hfresh
    refine ⟨vm1, aboveSlot local_ l, fromSlot local_ l, h1,
      (aboveSlot_append_fromSlot local_ l).symm, aboveSlot_gt local_ l, ?_, h2, h5, h4, h3⟩
    intro x hx
    have h6 := fromSlot_le local_ l h.2.1 x hx
    have h7 := hno x (fromSlot_mem local_ l x hx)
    omega
  · intro vm l local_ u vm1 h hc
    exact (CaptureUpValue_sorted env vm vm1 local_ u l h hc).1

/-- Witness for C24: on `captureVM`, whose only open upvalue is the one at
address 8 for slot 1, capturing slot 1 returns it, and capturing slot 2 puts a
new upvalue in front of it. -/
theorem C24_open_upvalues_witness :
    OpenSorted captureVM [(8, 1)] ∧
    CaptureUpValue sampleVMEnv 1 captureVM = some (8, captureVM) ∧
    ∃ vm1 above below, CaptureUpValue sampleVMEnv 2 captureVM = some (5008, vm1) ∧
      [(8, 1)] = above ++ below ∧ (∀ x ∈ above, x.2 > 2) ∧ (∀ x ∈ below, x.2 < 2) ∧
      OpenSorted vm1 (above ++ (5008, 2) :: below) ∧
      vm1.Objects = 5008 :: captureVM.Objects ∧
      vm1.Stack = captureVM.Stack ∧ vm1.Frames = captureVM.Frames :=
  ⟨⟨rfl, by decide, by decide⟩,
    (C24_open_upvalues sampleVMEnv).2.2.2.2.1 captureVM [(8, 1)] 1 8 ⟨rfl, by decide, by decide⟩
      (by decide),
    (C24_open_upvalues sampleVMEnv).2.2.2.2.2.1 captureVM [(8, 1)] 2 ⟨rfl, by decide, by decide⟩
      (by decide) (by decide)⟩

/-! ### The marking phase of the collector -/

theorem markAll_nil (gc : Collector) : markAll [] gc = gc := rfl

theorem markAll_cons (p : Nat) (ps : List Nat) (gc : Collector) :
    markAll (p :: ps) gc = markAll ps (markOne gc p) := rfl

theorem markAll_append (ps qs : List Nat) (gc : Collector) :
    markAll (ps ++ qs) gc = markAll qs (markAll ps gc) := by
  unfold markAll
  rw [List.foldl_append]

theorem MarkObject_some (heap : Nat → Option Obj) (p : Nat) (gc : Collector)
    (h : heap p ≠ none) : MarkObject heap (some p) gc = some (markOne gc p) := by
  unfold MarkObject markOne
  cases hh : heap p with
  | none => exact absurd hh h
  | some o =>
    dsimp only
    by_cases hm : p ∈ gc.Marked
    · rw [if_pos hm, if_pos hm, hh]
    · rw [if_neg hm, if_neg hm, hh]

theorem MarkObject_opt (heap : Nat → Option Obj) (object : Option Nat) (gc : Collector)
    (h : ∀ p ∈ object.toList, heap p ≠ none) :
    MarkObject heap object gc = some (markAll object.toList gc) := by
  cases object with
  | none => rfl
  | some p => exact MarkObject_some heap p gc (h p (by simp))

theorem MarkValue_eq (heap : Nat → Option Obj) (value : Value) (gc : Collector)
    (h : ∀ p ∈ objOf value, heap p ≠ none) :
    MarkValue heap value gc = some (markAll (objOf value) gc) := by
  unfold MarkValue objOf at *
  split
  · rename_i hv
    rw [if_pos hv] at h
    exact MarkObject_some heap _ gc (h _ (by simp))
  · rfl

theorem MarkArray_eq (heap : Nat → Option Obj) :
    ∀ (values : List Value) (gc : Collector),
      (∀ p ∈ values.flatMap objOf, heap p ≠ none) →
      MarkArray heap values gc = some (markAll (values.flatMap objOf) gc) := by
  intro values
  induction values with
  | nil => intro gc _; rfl
  | cons v vs ih =>
    intro gc h
    unfold MarkArray
    rw [MarkValue_eq heap v gc (fun p hp => h p (by simp [hp])), Option.some_bind,
      ih _ (fun p hp => h p (by
        rw [List.flatMap_cons]
        exact List.mem_append_right _ hp)),
      List.flatMap_cons, markAll_append]

theorem MarkObjects_eq (heap : Nat → Option Obj) :
    ∀ (objects : List (Option Nat)) (gc : Collector),
      (∀ p ∈ objects.flatMap Option.toList, heap p ≠ none) →
      MarkObjects heap objects gc = some (markAll (objects.flatMap Option.toList) gc) := by
  intro objects
  induction objects with
  | nil => intro gc _; rfl
  | cons o os ih =>
    intro gc h
    unfold MarkObjects
    rw [MarkObject_opt heap o gc (fun p hp => h p (by
        rw [List.flatMap_cons]
        exact List.mem_append_left _ hp)), Option.some_bind,
      ih _ (fun p hp => h p (by
        rw [List.flatMap_cons]
        exact List.mem_append_right _ hp)),
      List.flatMap_cons, markAll_append]

theorem MarkTableLoop_eq (heap : Nat → Option Obj) (entries : List Entry) :
    ∀ (n i : Nat) (gc : Collector), i + n ≤ entries.length →
      (∀ p ∈ ((entries.drop i).take n).flatMap
          (fun entry => entry.Key.toList ++ objOf entry.Value), heap p ≠ none) →
      MarkTableLoop heap entries n i gc =
        some (markAll (((entries.drop i).take n).flatMap
          (fun entry => entry.Key.toList ++ objOf entry.Value)) gc) := by
  intro n
  induction n with
  | zero => intro i gc _ _; simp [MarkTableLoop, markAll]
  | succ n ih =>
    intro i gc hlen h
    have hi : i < entries.length := by omega
    have hd : entries.drop i = entries[i] :: entries.drop (i + 1) := List.drop_eq_getElem_cons hi
    rw [hd, List.take_succ_cons, List.flatMap_cons] at h ⊢
    unfold MarkTableLoop
    rw [List.getElem?_eq_getElem hi]
    dsimp only
    rw [MarkObject_opt heap _ gc (fun p hp => h p (by simp [hp])), Option.some_bind,
      MarkValue_eq heap _ _ (fun p hp => h p (by simp [hp])), Option.some_bind,
      ih (i + 1) _ (by omega) (fun p hp => h p (List.mem_append_right _ hp)),
      markAll_append, markAll_append]

theorem MarkTable_eq (heap : Nat → Option Obj) (table : Table) (gc : Collector)
    (hlen : table.Capacity ≤ table.Entries.length)
    (h : ∀ p ∈ tableRefs table, heap p ≠ none) :
    MarkTable heap table gc = some (markAll (tableRefs table) gc) := by
  unfold MarkTable
  have := MarkTableLoop_eq heap table.Entries table.Capacity 0 gc (by omega)
    (by simpa [tableRefs] using h)
  rw [this]
  simp [tableRefs]

theorem BlackenObject_eq (heap : Nat → Option Obj) (p : Nat) (object : Obj) (gc : Collector)
    (hp : heap p = some object) (hs : ObjSized object)
    (h : ∀ q ∈ references object, heap q ≠ none) :
    BlackenObject heap p gc = some (markAll (references object) gc) := by
  unfold BlackenObject
  rw [hp]
  cases object with
  | BoundMethod receiver method =>
    dsimp only
    simp only [references] at h ⊢
    rw [MarkValue_eq heap receiver gc (fun q hq => h q (by simp [hq])), Option.some_bind,
      MarkObject_some heap method _ (h method (by simp)), markAll_append]
    rfl
  | Class name methods =>
    dsimp only
    simp only [references] at h ⊢
    rw [MarkObject_some heap name gc (h name (by simp)), Option.some_bind,
      MarkTable_eq heap methods _ hs (fun q hq => h q (by simp [hq]))]
    rfl
  | Closure function upValues =>
    dsimp only
    simp only [references] at h ⊢
    rw [MarkObject_some heap function gc (h function (by simp)), Option.some_bind,
      MarkObjects_eq heap upValues _ (fun q hq => h q (List.mem_cons_of_mem _ hq))]
    rfl
  | Function function =>
    dsimp only
    simp only [references] at h ⊢
    rw [MarkObject_opt heap function.Name gc (fun q hq => h q (by simp [hq])), Option.some_bind,
      MarkArray_eq heap _ _ (fun q hq => h q (List.mem_append_right _ hq)), markAll_append]
  | Instance klass fields =>
    dsimp only
    simp only [references] at h ⊢
    rw [MarkObject_some heap klass gc (h klass (by simp)), Option.some_bind,
      MarkTable_eq heap fields _ hs (fun q hq => h q (by simp [hq]))]
    rfl
  | UpValue loc closed next =>
    dsimp only
    simp only [references] at h ⊢
    exact MarkValue_eq heap closed gc h
  | NativeFunction f => rfl
  | String s => rfl

theorem MarkOpenUpValues_eq (heap : Nat → Option Obj) :
    ∀ (l : List (Nat × Nat)) (fuel : Nat) (head : Option Nat) (gc : Collector),
      isOpenList heap head l = true → l.length < fuel →
      MarkOpenUpValues heap fuel head gc = some (markAll (l.map Prod.fst) gc) := by
  intro l
  induction l with
  | nil =>
    intro fuel head gc h hf
    have := isOpenList_head _ _ _ h
    subst this
    cases fuel with
    | zero => omega
    | succ n => rfl
  | cons x t ih =>
    intro fuel head gc h hf
    obtain ⟨a, s⟩ := x
    rw [isOpenList_cons] at h
    obtain ⟨rfl, closed, hh, ht⟩ := h
    cases fuel with
    | zero => omega
    | succ n =>
      unfold MarkOpenUpValues
      dsimp only
      rw [hh]
      dsimp only
      rw [MarkObject_some heap a gc (by rw [hh]; simp), Option.some_bind,
        ih n _ _ ht (by simpa using hf)]
      rfl

theorem MarkRoots_eq (vm : VM) (l : List (Nat × Nat)) (compilers : List Nat) (gc : Collector)
    (hopen : isOpenList vm.Heap vm.OpenUpValues l = true) (hlen : l.length ≤ vm.Objects.length)
    (hglob : vm.Globals.Capacity ≤ vm.Globals.Entries.length)
    (h : ∀ p ∈ gcRoots vm l compilers, vm.Heap p ≠ none) :
    MarkRoots vm compilers gc = some (markAll (gcRoots vm l compilers) gc) := by
  unfold MarkRoots gcRoots at *
  simp only [Option.bind_eq_bind]
  rw [MarkArray_eq vm.Heap _ gc (fun p hp => h p (by simp only [List.mem_append]; tauto)),
    Option.some_bind,
    MarkObjects_eq vm.Heap _ _ (fun p hp => h p (by
      simp only [List.mem_append]
      left; left; left; left; right
      simpa [List.flatMap_map] using hp)),
    Option.some_bind,
    MarkOpenUpValues_eq vm.Heap l _ _ _ hopen (by omega), Option.some_bind,
    MarkTable_eq vm.Heap vm.Globals _ hglob
      (fun p hp => h p (by simp only [List.mem_append]; tauto)),
    Option.some_bind,
    MarkObjects_eq vm.Heap _ _ (fun p hp => h p (by
      simp only [List.mem_append]
      left; right
      simpa [List.flatMap_map] using hp)),
    Option.some_bind,
    MarkObject_opt vm.Heap vm.InitString _ (fun p hp => h p (by
      simp only [List.mem_append]
      right
      exact hp))]
  have e1 : ∀ (xs : List Nat), (xs.map some).flatMap Option.toList = xs := by
    intro xs
    induction xs with
    | nil => rfl
    | cons x t ih => simp [List.flatMap_cons, ih]
  have e2 : (vm.Frames.reverse.map (fun frame => some frame.Closure)).flatMap Option.toList =
      vm.Frames.reverse.map (fun frame => frame.Closure) := by
    rw [← e1 (vm.Frames.reverse.map (fun frame => frame.Closure)), List.map_map]
    rfl
  simp only [markAll_append, e1, e2]

theorem markOne_Marked (gc : Collector) (p : Nat) :
    ∀ q ∈ gc.Marked, q ∈ (markOne gc p).Marked := by
  intro q hq
  unfold markOne
  split
  · exact hq
  · exact List.mem_cons_of_mem _ hq

theorem markOne_mem (gc : Collector) (p : Nat) : p ∈ (markOne gc p).Marked := by
  unfold markOne
  split
  · assumption
  · exact List.mem_cons_self _ _

theorem markOne_count (gc : Collector) (p : Nat) :
    (markOne gc p).Marked.length + gc.GrayStack.length =
      (markOne gc p).GrayStack.length + gc.Marked.length := by
  unfold markOne
  split
  · omega
  · simp only [List.length_cons]
    omega

theorem MarkInv.markOne {heap : Nat → Option Obj} {roots : List Nat} {except : Option Nat}
    {gc : Collector} (h : MarkInv heap roots except gc) (p : Nat) (hp : GCReach heap roots p) :
    MarkInv heap roots except (markOne gc p) := by
  unfold CLox.markOne
  split
  · exact h
  · rename_i hm
    refine ⟨List.nodup_cons.mpr ⟨hm, h.nodupMarked⟩,
      List.nodup_cons.mpr ⟨fun hg => hm (h.gray p hg), h.nodupGray⟩, ?_, ?_, ?_⟩
    · intro q hq
      rcases List.mem_cons.mp hq with rfl | hq
      · exact hp
      · exact h.reach q hq
    · intro q hq
      rcases List.mem_cons.mp hq with rfl | hq
      · exact List.mem_cons_self _ _
      · exact List.mem_cons_of_mem _ (h.gray q hq)
    · intro q hq hng hne r hr
      simp only [List.mem_cons, not_or] at hng
      rcases List.mem_cons.mp hq with rfl | hq
      · exact absurd rfl hng.1
      · exact List.mem_cons_of_mem _ (h.black q hq hng.2 hne r hr)

theorem markAll_spec {heap : Nat → Option Obj} {roots : List Nat} {except : Option Nat} :
    ∀ (ps : List Nat) (gc : Collector), MarkInv heap roots except gc →
      (∀ p ∈ ps, GCReach heap roots p) →
      MarkInv heap roots except (markAll ps gc) ∧
      (∀ q ∈ gc.Marked, q ∈ (markAll ps gc).Marked) ∧
      (∀ p ∈ ps, p ∈ (markAll ps gc).Marked) ∧
      (markAll ps gc).Marked.length + gc.GrayStack.length =
        (markAll ps gc).GrayStack.length + gc.Marked.length := by
  intro ps
  induction ps with
  | nil => intro gc h _; exact ⟨h, fun _ hq => hq, fun _ hp => (by simp at hp), Nat.add_comm _ _⟩
  | cons p ps ih =>
    intro gc h hr
    rw [markAll_cons]
    obtain ⟨i1, i2, i3, i4⟩ := ih (markOne gc p) (h.markOne p (hr p (List.mem_cons_self _ _)))
      (fun q hq => hr q (List.mem_cons_of_mem _ hq))
    refine ⟨i1, fun q hq => i2 q (markOne_Marked gc p q hq), ?_, ?_⟩
    · intro q hq
      rcases List.mem_cons.mp hq with rfl | hq
      · exact i2 _ (markOne_mem gc _)
      · exact i3 q hq
    · have := markOne_count gc p
      omega

/-- The loop of `TraceReferences` ends with an empty gray stack. -/
theorem TraceReferences_spec (heap : Nat → Option Obj) (objects roots : List Nat)
    (hlive : ∀ p, GCReach heap roots p → p ∈ objects ∧ ∃ o, heap p = some o ∧ ObjSized o) :
    ∀ (fuel : Nat) (gc : Collector), MarkInv heap roots none gc →
      objects.length + gc.GrayStack.length < fuel + gc.Marked.length →
      ∃ gc1, TraceReferences heap fuel gc = some gc1 ∧ MarkInv heap roots none gc1 ∧
        gc1.GrayStack = [] ∧ ∀ p ∈ gc.Marked, p ∈ gc1.Marked := by
  intro fuel
  induction fuel with
  | zero =>
    intro gc h hf
    exfalso
    have hsub : gc.Marked ⊆ objects := fun p hp => (hlive p (h.reach p hp)).1
    have := (List.subperm_of_subset h.nodupMarked hsub).length_le
    omega
  | succ n ih =>
    intro gc h hf
    unfold TraceReferences
    cases hg : gc.GrayStack with
    | nil => exact ⟨gc, rfl, h, hg, fun _ hp => hp⟩
    | cons p rest =>
      dsimp only
      have hpm : p ∈ gc.Marked := h.gray p (by rw [hg]; exact List.mem_cons_self _ _)
      have hpr := h.reach p hpm
      obtain ⟨_, o, ho, hsz⟩ := hlive p hpr
      have hrefs : ∀ q ∈ references o, GCReach heap roots q := by
        intro q hq
        refine GCReach.ref hpr ?_
        unfold referencesAt
        rw [ho]
        exact hq
      have hnd := h.nodupGray
      rw [hg, List.nodup_cons] at hnd
      have h0 : MarkInv heap roots (some p) { gc with GrayStack := rest } := by
        refine ⟨h.nodupMarked, hnd.2, h.reach, ?_, ?_⟩
        · intro q hq
          exact h.gray q (by rw [hg]; exact List.mem_cons_of_mem _ hq)
        · intro q hq hng hne r hr
          refine h.black q hq ?_ (by simp) r hr
          rw [hg]
          intro hc
          rcases List.mem_cons.mp hc with rfl | hc
          · exact hne rfl
          · exact hng hc
      obtain ⟨i1, i2, i3, i4⟩ := markAll_spec (references o) _ h0 hrefs
      rw [BlackenObject_eq heap p o _ ho hsz (fun q hq => by
        obtain ⟨_, o2, ho2, _⟩ := hlive q (hrefs q hq)
        rw [ho2]
        simp), Option.some_bind]
      have h1 : MarkInv heap roots none (markAll (references o) { gc with GrayStack := rest }) := by
        refine ⟨i1.nodupMarked, i1.nodupGray, i1.reach, i1.gray, ?_⟩
        intro q hq hng _ r hr
        by_cases hqp : q = p
        · subst hqp
          unfold referencesAt at hr
          rw [ho] at hr
          exact i3 r hr
        · exact i1.black q hq hng (by simpa using hqp) r hr
      obtain ⟨gc1, j1, j2, j3, j4⟩ := ih _ h1 (by
        simp only at i4
        rw [hg] at hf
        simp only [List.length_cons] at hf
        omega)
      exact ⟨gc1, j1, j2, j3, fun q hq => j4 q (i2 q hq)⟩

/-- With an empty gray stack the marked objects are the reachable ones. -/
theorem MarkInv.complete {heap : Nat → Option Obj} {roots : List Nat} {gc : Collector}
    (h : MarkInv heap roots none gc) (hg : gc.GrayStack = [])
    (hroots : ∀ p ∈ roots, p ∈ gc.Marked) (p : Nat) :
    p ∈ gc.Marked ↔ GCReach heap roots p := by
  constructor
  · exact h.reach p
  · intro hr
    induction hr with
    | root hp => exact hroots _ hp
    | ref _ hq ih => exact h.black _ ih (by rw [hg]; simp) (by simp) _ hq

theorem gcVM_reach (p : Nat) (h : GCReach gcVM.Heap (gcRoots gcVM [] []) p) :
    p = 8 ∨ p = 16 ∨ p = 24 ∨ p = 32 ∨ p = 40 ∨ p = 48 := by
  induction h with
  | root hp =>
    have : gcRoots gcVM [] [] = [8] := by decide
    rw [this] at hp
    simp at hp
    exact Or.inl hp
  | ref _ hq ih =>
    rcases ih with rfl | rfl | rfl | rfl | rfl | rfl
    · have : referencesAt gcVM.Heap 8 = [16, 24] := by decide
      rw [this] at hq
      simp at hq
      tauto
    · have : referencesAt gcVM.Heap 16 = [32] := by decide
      rw [this] at hq
      simp at hq
      tauto
    · have : referencesAt gcVM.Heap 24 = [40] := by decide
      rw [this] at hq
      simp at hq
      tauto
    · have : referencesAt gcVM.Heap 32 = [] := by decide
      rw [this] at hq
      simp at hq
    · have : referencesAt gcVM.Heap 40 = [48] := by decide
      rw [this] at hq
      simp at hq
      tauto
    · have : referencesAt gcVM.Heap 48 = [32] := by decide
      rw [this] at hq
      simp at hq
      tauto

theorem gcVM_live (p : Nat) (h : GCReach gcVM.Heap (gcRoots gcVM [] []) p) :
    p ∈ gcVM.Objects ∧ ∃ o, gcVM.Heap p = some o ∧ ObjSized o := by
  rcases gcVM_reach p h with rfl | rfl | rfl | rfl | rfl | rfl
  · exact ⟨by decide, _, rfl, trivial⟩
  · exact ⟨by decide, _, rfl, trivial⟩
  · exact ⟨by decide, _, rfl, trivial⟩
  · exact ⟨by decide, _, rfl, trivial⟩
  · exact ⟨by decide, _, rfl, Nat.le_refl _⟩
  · exact ⟨by decide, _, rfl, Nat.le_refl _⟩

/-- Claim C26 (reachability): in a machine whose open upvalues are the list
`l`, in which every reachable object is a live object with tables of the size
their capacity says, and whose tables `vm.Globals` and `vm.Strings` are well
formed, `MarkRoots` followed by `TraceReferences`, started with no object
marked and an empty gray stack, returns with an empty gray stack and the
marked objects are exactly the objects reachable from the roots through the
references `BlackenObject` follows.  `CollectGarbage` then returns: the
objects it leaves on `vm.Objects` are the reachable ones, unchanged, and every
live object that is not reachable is freed; no mark is left. -/
theorem C26_gc_reachability (vm : VM) (l : List (Nat × Nat)) (compilers : List Nat)
    (hopen : OpenSorted vm l)
    (hglob : vm.Globals.Capacity ≤ vm.Globals.Entries.length)
    (hstr : TableWF vm.strings vm.Strings)
    (hlive : ∀ p, GCReach vm.Heap (gcRoots vm l compilers) p →
      p ∈ vm.Objects ∧ ∃ o, vm.Heap p = some o ∧ ObjSized o) :
    ∃ gc1 gc2, MarkRoots vm compilers ⟨[], []⟩ = some gc1 ∧
      TraceReferences vm.Heap (vm.Objects.length + 1) gc1 = some gc2 ∧
      gc2.GrayStack = [] ∧
      (∀ p, p ∈ gc2.Marked ↔ GCReach vm.Heap (gcRoots vm l compilers) p) ∧
      ∃ vm1, vm.CollectGarbage compilers ⟨[], []⟩ = some (vm1, ⟨[], []⟩) ∧
        (∀ p, p ∈ vm1.Objects ↔
          p ∈ vm.Objects ∧ GCReach vm.Heap (gcRoots vm l compilers) p) ∧
        (∀ p, GCReach vm.Heap (gcRoots vm l compilers) p → vm1.Heap p = vm.Heap p) ∧
        (∀ p, p ∈ vm.Objects → ¬ GCReach vm.Heap (gcRoots vm l compilers) p →
          vm1.Heap p = none) ∧
        (∀ p, p ∉ vm.Objects → vm1.Heap p = vm.Heap p) ∧
        vm1.Stack = vm.Stack ∧ vm1.Frames = vm.Frames ∧ vm1.Globals = vm.Globals ∧
        vm1.OpenUpValues = vm.OpenUpValues ∧ vm1.InitString = vm.InitString := by
  have hroots_live : ∀ p ∈ gcRoots vm l compilers, vm.Heap p ≠ none := by
    intro p hp
    obtain ⟨_, o, ho, _⟩ := hlive p (GCReach.root hp)
    rw [ho]
    simp
  have hmr := MarkRoots_eq vm l compilers ⟨[], []⟩ hopen.1 hopen.length_le hglob hroots_live
  have h0 : MarkInv vm.Heap (gcRoots vm l compilers) none ⟨[], []⟩ :=
    ⟨List.nodup_nil, List.nodup_nil, fun p hp => (by simp at hp), fun p hp => (by simp at hp),
      fun p hp => (by simp at hp)⟩
  obtain ⟨i1, _, i3, i4⟩ := markAll_spec (gcRoots vm l compilers) ⟨[], []⟩ h0
    (fun p hp => GCReach.root hp)
  obtain ⟨gc2, j1, j2, j3, j4⟩ := TraceReferences_spec vm.Heap vm.Objects
    (gcRoots vm l compilers) hlive (vm.Objects.length + 1) _ i1 (by
      simp only [List.length_nil, Nat.add_zero] at i4
      omega)
  have hiff := j2.complete j3 (fun p hp => j4 p (i3 p hp))
  obtain ⟨t2, k1, _⟩ := TableRemoveWhite_spec (fun k => decide (k ∈ gc2.Marked)) hstr
  refine ⟨_, gc2, hmr, j1, j3, hiff, ?_⟩
  have hcg : vm.CollectGarbage compilers ⟨[], []⟩ =
      some (Sweep { vm with Strings := t2 } gc2) := by
    unfold VM.CollectGarbage
    simp only [Option.bind_eq_bind]
    rw [hmr, Option.some_bind, j1, Option.some_bind, k1, Option.some_bind]
  have hmarks : (Sweep { vm with Strings := t2 } gc2).2 = ⟨[], []⟩ := by
    unfold Sweep
    simp only [j3]
    congr 1
    rw [List.filter_eq_nil_iff]
    intro p hp
    have := (hlive p ((hiff p).mp hp)).1
    simpa using this
  refine ⟨(Sweep { vm with Strings := t2 } gc2).1, ?_, ?_, ?_, ?_, ?_, rfl, rfl, rfl, rfl, rfl⟩
  · rw [hcg, ← hmarks]
  · intro p
    simp only [Sweep, List.mem_filter, decide_eq_true_eq]
    rw [hiff p]
  · intro p hp
    simp only [Sweep]
    rw [if_neg]
    intro hc
    exact hc.2 ((hiff p).mpr hp)
  · intro p hp hn
    simp only [Sweep]
    rw [if_pos]
    exact ⟨hp, fun hc => hn ((hiff p).mp hc)⟩
  · intro p hp
    simp only [Sweep]
    rw [if_neg]
    intro hc
    exact hp hc.1

/-- Witness for C26: on `gcVM` the collection keeps the six objects the
closure on the stack reaches and frees the two others. -/
theorem C26_gc_reachability_witness :
    (gcVM.CollectGarbage [] ⟨[], []⟩).map (fun r => (r.1.Objects, r.2)) =
      some ([48, 40, 32, 24, 16, 8], ⟨[], []⟩) ∧
    ∃ gc1 gc2, MarkRoots gcVM [] ⟨[], []⟩ = some gc1 ∧
      TraceReferences gcVM.Heap (gcVM.Objects.length + 1) gc1 = some gc2 ∧
      gc2.GrayStack = [] ∧
      (∀ p, p ∈ gc2.Marked ↔ GCReach gcVM.Heap (gcRoots gcVM [] []) p) ∧
      ∃ vm1, gcVM.CollectGarbage [] ⟨[], []⟩ = some (vm1, ⟨[], []⟩) ∧
        (∀ p, p ∈ vm1.Objects ↔
          p ∈ gcVM.Objects ∧ GCReach gcVM.Heap (gcRoots gcVM [] []) p) ∧
        (∀ p, GCReach gcVM.Heap (gcRoots gcVM [] []) p → vm1.Heap p = gcVM.Heap p) ∧
        (∀ p, p ∈ gcVM.Objects → ¬ GCReach gcVM.Heap (gcRoots gcVM [] []) p →
          vm1.Heap p = none) ∧
        (∀ p, p ∉ gcVM.Objects → vm1.Heap p = gcVM.Heap p) ∧
        vm1.Stack = gcVM.Stack ∧ vm1.Frames = gcVM.Frames ∧ vm1.Globals = gcVM.Globals ∧
        vm1.OpenUpValues = gcVM.OpenUpValues ∧ vm1.InitString = gcVM.InitString :=
  ⟨by decide,
    C26_gc_reachability gcVM [] [] ⟨rfl, by decide, by decide⟩ (Nat.le_refl _)
      (TableWF_init _) gcVM_live⟩

/-! ### The scanner returns a token on every buffer -/

theorem charAt_pos (sc : Scanner) (i : Nat) (h : sc.charAt i ≠ 0) : i < sc.Source.length := by
  by_contra hcon
  apply h
  unfold Scanner.charAt
  exact List.getD_eq_default _ _ (by omega)

theorem IsDigit_ne_zero (c : Nat) (h : IsDigit c = true) : c ≠ 0 := by
  unfold IsDigit at h
  simp only [Bool.and_eq_true, decide_eq_true_eq] at h
  omega

theorem IsAlpha_ne_zero (c : Nat) (h : IsAlpha c = true) : c ≠ 0 := by
  unfold IsAlpha at h
  intro h0
  subst h0
  simp at h

theorem Scanner.Advance_Current_eq (sc : Scanner) : sc.Advance.2.Current = sc.Current + 1 :=
  Eq.refl _

theorem Scanner.Advance_source (sc : Scanner) : sc.Advance.2.Source = sc.Source :=
  Eq.refl _

theorem ScStep.rfl (sc : Scanner) (h : sc.Current ≤ sc.Source.length) : ScStep sc sc :=
  ⟨Eq.refl _, Eq.refl _, Nat.le_refl _, h⟩

theorem ScStep.sc_next {sc sc1 sc2 : Scanner} (h1 : ScStep sc sc1) (h2 : ScStep sc1 sc2) :
    ScStep sc sc2 :=
  ⟨h2.source.trans h1.source, h2.start.trans h1.start, Nat.le_trans h1.le h2.le, h2.pos⟩

theorem ScStep.advance (sc : Scanner) (h : sc.charAt sc.Current ≠ 0) :
    ScStep sc sc.Advance.2 :=
  ⟨Eq.refl _, Eq.refl _, Nat.le_succ _, charAt_pos sc _ h⟩

theorem ScStep.advanceLine (sc : Scanner) (h : sc.charAt sc.Current ≠ 0) :
    ScStep sc ({ sc with line := sc.line + 1 }).Advance.2 :=
  ⟨Eq.refl _, Eq.refl _, Nat.le_succ _, charAt_pos sc _ h⟩

theorem SkipDigits_total : ∀ (fuel : Nat) (sc : Scanner), sc.Current ≤ sc.Source.length →
    sc.Source.length + 1 - sc.Current ≤ fuel →
    ∃ sc1, Scanner.SkipDigits fuel sc = some sc1 ∧ ScStep sc sc1 := by
  intro fuel
  induction fuel with
  | zero => intro sc h1 h2; omega
  | succ n ih =>
    intro sc h1 h2
    unfold Scanner.SkipDigits
    by_cases hd : IsDigit sc.Peek = true
    · rw [if_pos hd]
      have hs := ScStep.advance sc (IsDigit_ne_zero _ hd)
      have hp := hs.pos
      obtain ⟨sc1, e1, s1⟩ := ih sc.Advance.2 hs.pos (by
        rw [Scanner.Advance_Current_eq, Scanner.Advance_source]
        omega)
      exact ⟨sc1, e1, hs.sc_next s1⟩
    · rw [if_neg hd]
      exact ⟨sc, Eq.refl _, ScStep.rfl sc h1⟩

theorem SkipIdentifier_total : ∀ (fuel : Nat) (sc : Scanner), sc.Current ≤ sc.Source.length →
    sc.Source.length + 1 - sc.Current ≤ fuel →
    ∃ sc1, Scanner.SkipIdentifier fuel sc = some sc1 ∧ ScStep sc sc1 := by
  intro fuel
  induction fuel with
  | zero => intro sc h1 h2; omega
  | succ n ih =>
    intro sc h1 h2
    unfold Scanner.SkipIdentifier
    by_cases hd : (IsAlpha sc.Peek || IsDigit sc.Peek) = true
    · rw [if_pos hd]
      have hne : sc.charAt sc.Current ≠ 0 := by
        rcases Bool.or_eq_true _ _ ▸ hd with h | h
        · exact IsAlpha_ne_zero _ h
        · exact IsDigit_ne_zero _ h
      have hs := ScStep.advance sc hne
      obtain ⟨sc1, e1, s1⟩ := ih sc.Advance.2 hs.pos (by
        rw [Scanner.Advance_Current_eq, Scanner.Advance_source]
        omega)
      exact ⟨sc1, e1, hs.sc_next s1⟩
    · rw [if_neg hd]
      exact ⟨sc, Eq.refl _, ScStep.rfl sc h1⟩

theorem IsAtEnd_false (sc : Scanner) (h : ¬ sc.IsAtEnd = true) : sc.charAt sc.Current ≠ 0 := by
  intro h0
  apply h
  unfold Scanner.IsAtEnd
  rw [h0]
  rfl

theorem SkipComment_total : ∀ (fuel : Nat) (sc : Scanner), sc.Current ≤ sc.Source.length →
    sc.Source.length + 1 - sc.Current ≤ fuel →
    ∃ sc1, Scanner.SkipComment fuel sc = some sc1 ∧ ScStep sc sc1 := by
  intro fuel
  induction fuel with
  | zero => intro sc h1 h2; omega
  | succ n ih =>
    intro sc h1 h2
    unfold Scanner.SkipComment
    by_cases hd : sc.Peek ≠ 10 ∧ ¬ sc.IsAtEnd = true
    · rw [if_pos hd]
      have hs := ScStep.advance sc (IsAtEnd_false sc hd.2)
      obtain ⟨sc1, e1, s1⟩ := ih sc.Advance.2 hs.pos (by
        rw [Scanner.Advance_Current_eq, Scanner.Advance_source]
        omega)
      exact ⟨sc1, e1, hs.sc_next s1⟩
    · rw [if_neg hd]
      exact ⟨sc, Eq.refl _, ScStep.rfl sc h1⟩

theorem StringLoop_total : ∀ (fuel : Nat) (sc : Scanner), sc.Current ≤ sc.Source.length →
    sc.Source.length + 1 - sc.Current ≤ fuel →
    ∃ sc1, Scanner.StringLoop fuel sc = some sc1 ∧ ScStep sc sc1 := by
  intro fuel
  induction fuel with
  | zero => intro sc h1 h2; omega
  | succ n ih =>
    intro sc h1 h2
    unfold Scanner.StringLoop
    by_cases hd : sc.Peek ≠ 34 ∧ ¬ sc.IsAtEnd = true
    · rw [if_pos hd]
      have hne := IsAtEnd_false sc hd.2
      have hs : ScStep sc
          (if sc.Peek == 10 then { sc with line := sc.line + 1 } else sc).Advance.2 := by
        split
        · exact ScStep.advanceLine sc hne
        · exact ScStep.advance sc hne
      have hcur : (if sc.Peek == 10 then { sc with line := sc.line + 1 } else sc).Advance.2.Current
          = sc.Current + 1 := by
        split <;> rfl
      obtain ⟨sc1, e1, s1⟩ := ih _ hs.pos (by
        rw [hcur, hs.source]
        omega)
      exact ⟨sc1, e1, hs.sc_next s1⟩
    · rw [if_neg hd]
      exact ⟨sc, Eq.refl _, ScStep.rfl sc h1⟩

theorem SkipWhiteSpaceLoop_total : ∀ (fuel : Nat) (sc : Scanner),
    sc.Current ≤ sc.Source.length → sc.Source.length + 1 - sc.Current ≤ fuel →
    ∃ sc1, Scanner.SkipWhiteSpaceLoop fuel sc = some sc1 ∧ ScStep sc sc1 ∧
      (sc.IsAtEnd = true → sc1 = sc) := by
  intro fuel
  induction fuel with
  | zero => intro sc h1 h2; omega
  | succ n ih =>
    intro sc h1 h2
    have hend : ∀ c : Nat, c ≠ 0 → sc.Peek = c → ¬ sc.IsAtEnd = true := by
      intro c hc hp he
      unfold Scanner.IsAtEnd at he
      unfold Scanner.Peek at hp
      rw [hp] at he
      simp at he
      exact hc he
    have step : ∀ sc2 : Scanner, ScStep sc sc2 → sc2.Current = sc.Current + 1 →
        ¬ sc.IsAtEnd = true →
        ∃ sc1, Scanner.SkipWhiteSpaceLoop n sc2 = some sc1 ∧ ScStep sc sc1 ∧
          (sc.IsAtEnd = true → sc1 = sc) := by
      intro sc2 hs hc hne
      obtain ⟨sc1, e1, s1, _⟩ := ih sc2 hs.pos (by rw [hc, hs.source]; omega)
      exact ⟨sc1, e1, hs.sc_next s1, fun h => absurd h hne⟩
    unfold Scanner.SkipWhiteSpaceLoop
    split
    · rename_i hp
      have hne := hend 32 (by decide) hp
      exact step _ (ScStep.advance sc (IsAtEnd_false sc hne)) (Eq.refl _) hne
    · rename_i hp
      have hne := hend 13 (by decide) hp
      exact step _ (ScStep.advance sc (IsAtEnd_false sc hne)) (Eq.refl _) hne
    · rename_i hp
      have hne := hend 9 (by decide) hp
      exact step _ (ScStep.advance sc (IsAtEnd_false sc hne)) (Eq.refl _) hne
    · rename_i hp
      have hne := hend 10 (by decide) hp
      exact step _ (ScStep.advanceLine sc (IsAtEnd_false sc hne)) (Eq.refl _) hne
    · rename_i hp
      have hne := hend 47 (by decide) hp
      split
      · obtain ⟨sc2, e2, s2⟩ := SkipComment_total sc.fuel sc h1 (Nat.le_refl _)
        rw [e2]
        dsimp only
        -- the comment starts with two slashes, so the position moves
        have hmove : sc.Current < sc2.Current := by
          unfold Scanner.fuel at e2
          obtain ⟨m, hm⟩ : ∃ m, sc.Source.length + 1 - sc.Current = m + 1 :=
            ⟨sc.Source.length - sc.Current, by omega⟩
          rw [hm] at e2
          unfold Scanner.SkipComment at e2
          have hc : sc.Peek ≠ 10 ∧ ¬ sc.IsAtEnd = true := ⟨by rw [hp]; decide, hne⟩
          rw [if_pos hc] at e2
          obtain ⟨sc3, e3, s3⟩ := SkipComment_total m sc.Advance.2
            (ScStep.advance sc (IsAtEnd_false sc hne)).pos (by
              rw [Scanner.Advance_Current_eq, Scanner.Advance_source]
              omega)
          rw [e3] at e2
          cases e2
          have := s3.le
          have : sc.Advance.2.Current = sc.Current + 1 := Eq.refl _
          omega
        obtain ⟨sc1, e1, s1, _⟩ := ih sc2 s2.pos (by rw [s2.source]; omega)
        exact ⟨sc1, e1, s2.sc_next s1, fun h => absurd h hne⟩
      · exact ⟨sc, Eq.refl _, ScStep.rfl sc h1, fun _ => Eq.refl _⟩
    · exact ⟨sc, Eq.refl _, ScStep.rfl sc h1, fun _ => Eq.refl _⟩

theorem TokOK_MakeToken (sc : Scanner) (type : TokenType) (h1 : sc.Start ≤ sc.Current)
    (h2 : sc.Current ≤ sc.Source.length) : TokOK sc.Source (sc.MakeToken type) := by
  unfold TokOK Scanner.MakeToken
  dsimp only
  omega

theorem TokOK_ErrorToken (src : List Nat) (sc : Scanner) (m : String) :
    TokOK src (sc.ErrorToken m) := by
  unfold TokOK Scanner.ErrorToken
  dsimp only
  exact Nat.le_refl _

theorem Scanned.of_step {sc0 sw sc2 : Scanner} {t : Token}
    (hw : ScStep sc0 sw)
    (h2 : ScStep (Scanner.Advance { sw with Start := sw.Current }).2 sc2)
    (hne : ¬ sw.IsAtEnd = true) (hend : sc0.IsAtEnd = true → sw = sc0)
    (ht : t.Type_ ≠ TOKEN_EOF) (hok : TokOK sc0.Source t) : Scanned sc0 t sc2 := by
  have hc : (Scanner.Advance { sw with Start := sw.Current }).2.Current = sw.Current + 1 :=
    Eq.refl _
  have hl := h2.le
  rw [hc] at hl
  refine ⟨h2.source.trans hw.source, ?_, h2.pos, hok, fun h => absurd h ht, fun _ => ?_,
    fun h => ?_⟩
  · have := hw.le
    omega
  · have := hw.le
    omega
  · have := hend h
    subst this
    exact absurd h hne

theorem ScanToken_total (sc0 : Scanner) (h0 : sc0.Current ≤ sc0.Source.length) :
    ∃ t sc1, ScanToken sc0 = some (t, sc1) ∧ Scanned sc0 t sc1 := by
  unfold ScanToken
  obtain ⟨sw, ew, hw, hend⟩ := SkipWhiteSpaceLoop_total sc0.fuel sc0 h0 (Nat.le_refl _)
  have ew2 : sc0.SkipWhiteSpace = some sw := ew
  rw [ew2]
  dsimp only
  by_cases he : Scanner.IsAtEnd { sw with Start := sw.Current } = true
  · rw [if_pos he]
    refine ⟨_, _, Eq.refl _, hw.source, hw.le, hw.pos, ?_, fun _ => he, fun h => absurd rfl h,
      fun _ => rfl⟩
    rw [← hw.source]
    exact TokOK_MakeToken { sw with Start := sw.Current } _ (Nat.le_refl _) hw.pos
  · rw [if_neg he]
    have hne : ¬ sw.IsAtEnd = true := he
    have hadv : ScStep { sw with Start := sw.Current }
        (Scanner.Advance { sw with Start := sw.Current }).2 :=
      ScStep.advance _ (IsAtEnd_false _ he)
    have hsrc : (Scanner.Advance { sw with Start := sw.Current }).2.Source = sc0.Source :=
      hw.source
    have hstart : (Scanner.Advance { sw with Start := sw.Current }).2.Start = sw.Current :=
      Eq.refl _
    have hcur : (Scanner.Advance { sw with Start := sw.Current }).2.Current = sw.Current + 1 :=
      Eq.refl _
    -- a token made at a position reached from the character after the start
    have mk : ∀ (sc2 : Scanner) (type : TokenType),
        ScStep (Scanner.Advance { sw with Start := sw.Current }).2 sc2 →
        TokOK sc0.Source (sc2.MakeToken type) := by
      intro sc2 type h2
      have := TokOK_MakeToken sc2 type (by rw [h2.start, hstart]; have := h2.le; omega) h2.pos
      rw [h2.source, hsrc] at this
      exact this
    have single : ∀ type : TokenType, type ≠ TOKEN_EOF →
        ∃ t sc1, some ((Scanner.Advance { sw with Start := sw.Current }).2.MakeToken type,
          (Scanner.Advance { sw with Start := sw.Current }).2) = some (t, sc1) ∧
          Scanned sc0 t sc1 := by
      intro type hty
      exact ⟨_, _, Eq.refl _, Scanned.of_step hw (ScStep.rfl _ hadv.pos) hne hend hty
        (mk _ _ (ScStep.rfl _ hadv.pos))⟩
    have hmatch : ∀ c : Nat,
        ScStep (Scanner.Advance { sw with Start := sw.Current }).2
          ((Scanner.Advance { sw with Start := sw.Current }).2.Match c).2 := by
      intro c
      unfold Scanner.Match
      split
      · exact ScStep.rfl _ hadv.pos
      · split
        · exact ScStep.rfl _ hadv.pos
        · rename_i h1 h2
          exact ScStep.advance _ (IsAtEnd_false _ h1)
    have double : ∀ (c : Nat) (a b : TokenType), a ≠ TOKEN_EOF → b ≠ TOKEN_EOF →
        ∃ t sc1, some (((Scanner.Advance { sw with Start := sw.Current }).2.Match c).2.MakeToken
            (if ((Scanner.Advance { sw with Start := sw.Current }).2.Match c).1 then a else b),
          ((Scanner.Advance { sw with Start := sw.Current }).2.Match c).2) = some (t, sc1) ∧
          Scanned sc0 t sc1 := by
      intro c a b ha hb
      refine ⟨_, _, Eq.refl _, Scanned.of_step hw (hmatch c) hne hend ?_ (mk _ _ (hmatch c))⟩
      unfold Scanner.MakeToken
      dsimp only
      split
      · exact ha
      · exact hb
    split
    · -- identifier
      unfold Scanner.Identifier
      obtain ⟨s2, e2, h2⟩ := SkipIdentifier_total
        (Scanner.Advance { sw with Start := sw.Current }).2.fuel _ hadv.pos (Nat.le_refl _)
      rw [e2]
      dsimp only
      refine ⟨_, _, Eq.refl _, Scanned.of_step hw h2 hne hend ?_ (mk _ _ h2)⟩
      unfold Scanner.MakeToken Scanner.IndentifierType Scanner.CheckKeyword
      dsimp only
      repeat' split
      all_goals decide
    · split
      · -- number
        unfold Scanner.Number
        obtain ⟨s2, e2, h2⟩ := SkipDigits_total
          (Scanner.Advance { sw with Start := sw.Current }).2.fuel _ hadv.pos (Nat.le_refl _)
        rw [e2]
        dsimp only
        split
        · rename_i hdot
          simp only [Bool.and_eq_true, beq_iff_eq] at hdot
          have hs3 : ScStep s2 s2.Advance.2 := ScStep.advance s2 (by
            have := hdot.1
            unfold Scanner.Peek at this
            rw [this]
            decide)
          obtain ⟨s4, e4, h4⟩ := SkipDigits_total s2.Advance.2.fuel _ hs3.pos (Nat.le_refl _)
          rw [e4]
          dsimp only
          exact ⟨_, _, Eq.refl _, Scanned.of_step hw (h2.sc_next (hs3.sc_next h4)) hne hend
            (by unfold Scanner.MakeToken; dsimp only; decide) (mk _ _ (h2.sc_next (hs3.sc_next h4)))⟩
        · exact ⟨_, _, Eq.refl _, Scanned.of_step hw h2 hne hend
            (by unfold Scanner.MakeToken; dsimp only; decide) (mk _ _ h2)⟩
      · split
        · exact single _ (by decide)
        · exact single _ (by decide)
        · exact single _ (by decide)
        · exact single _ (by decide)
        · exact single _ (by decide)
        · exact single _ (by decide)
        · exact single _ (by decide)
        · exact single _ (by decide)
        · exact single _ (by decide)
        · exact single _ (by decide)
        · exact single _ (by decide)
        · exact double _ _ _ (by decide) (by decide)
        · exact double _ _ _ (by decide) (by decide)
        · exact double _ _ _ (by decide) (by decide)
        · exact double _ _ _ (by decide) (by decide)
        · -- string
          unfold Scanner.String
          obtain ⟨s2, e2, h2⟩ := StringLoop_total
            (Scanner.Advance { sw with Start := sw.Current }).2.fuel _ hadv.pos (Nat.le_refl _)
          rw [e2]
          dsimp only
          split
          · exact ⟨_, _, Eq.refl _, Scanned.of_step hw h2 hne hend
              (by unfold Scanner.ErrorToken; dsimp only; decide) (TokOK_ErrorToken _ _ _)⟩
          · rename_i hq
            have hs3 : ScStep s2 s2.Advance.2 := ScStep.advance s2 (IsAtEnd_false s2 hq)
            exact ⟨_, _, Eq.refl _, Scanned.of_step hw (h2.sc_next hs3) hne hend
              (by unfold Scanner.MakeToken; dsimp only; decide) (mk _ _ (h2.sc_next hs3))⟩
        · exact ⟨_, _, Eq.refl _, Scanned.of_step hw (ScStep.rfl _ hadv.pos) hne hend
            (by unfold Scanner.ErrorToken; dsimp only; decide) (TokOK_ErrorToken _ _ _)⟩

/-! ### The size of the string table after an insertion -/

theorem TableSetGrow_size {heap : Nat → ObjString} {t t1 : Table} (hwf : TableWF heap t)
    (h1 : TableSetGrow heap t = some t1) :
    t1.Count ≤ t.Count ∧ (t1.Capacity = t.Capacity ∨
      (3 * t.Capacity < 4 * (t.Count + 1) ∧ t1.Capacity = GROW_CAPACITY t.Capacity)) := by
  unfold TableSetGrow at h1
  by_cases hg : 4 * (t.Count + 1) > 3 * t.Capacity
  · rw [if_pos hg] at h1
    by_cases hm : GROW_CAPACITY t.Capacity > INT_MAX
    · rw [if_pos hm] at h1
      cases h1
    · rw [if_neg hm] at h1
      have hpow := Pow2Cap_grow hwf.cap (by omega)
      have hlive : liveCount t.Entries ≤ t.Count := by
        rw [hwf.count_eq]; exact liveCount_le_slotsUsed _
      have hload := hwf.load
      have hgc : 8 ≤ GROW_CAPACITY t.Capacity ∧ 2 * t.Capacity ≤ GROW_CAPACITY t.Capacity := by
        unfold GROW_CAPACITY
        rcases hwf.cap with h0 | hp
        · rw [h0]; simp
        · have := hp.ge_eight
          split <;> omega
      obtain ⟨t2, e1, e2, _, _, _, e6, _⟩ := AdjustCapacity_spec hwf hpow (by omega)
      rw [e1] at h1
      cases h1
      exact ⟨by rw [e6]; exact hlive, Or.inr ⟨by omega, e2⟩⟩
  · rw [if_neg hg] at h1
    cases h1
    exact ⟨Nat.le_refl _, Or.inl (Eq.refl _)⟩

theorem TableSet_size {heap : Nat → ObjString} {t : Table} (hwf : TableWF heap t)
    {key : Nat} {value : Value} {r : Bool × Table}
    (h : TableSet heap t key value = some r) :
    r.2.Count ≤ t.Count + 1 ∧ (r.2.Capacity = t.Capacity ∨
      (3 * t.Capacity < 4 * (t.Count + 1) ∧ r.2.Capacity = GROW_CAPACITY t.Capacity)) := by
  unfold TableSet at h
  cases hg : TableSetGrow heap t with
  | none => rw [hg] at h; cases h
  | some t1 =>
    rw [hg] at h
    dsimp only at h
    obtain ⟨h1, h2⟩ := TableSetGrow_size hwf hg
    cases hf : FindEntry heap t1.Entries t1.Capacity key with
    | none => rw [hf] at h; cases h
    | some idx =>
      rw [hf] at h
      dsimp only at h
      cases he : t1.Entries[idx]? with
      | none => rw [he] at h; cases h
      | some entry =>
        rw [he] at h
        dsimp only at h
        cases h
        dsimp only
        refine ⟨?_, h2⟩
        split <;> omega

/-- A `CopyString` during which the collector does not run adds at most one
entry to the string table, grows it only when it is full to three quarters,
and adds at most the new string to the objects. -/
theorem CopyString_size {vm vm2 : VMState} (h : InternInv vm) {chars : List Nat}
    {length addr p : Nat}
    (hc : CopyString vm chars length addr none none none = some (p, vm2)) :
    vm2.Strings.Count ≤ vm.Strings.Count + 1 ∧
      (vm2.Strings.Capacity = vm.Strings.Capacity ∨
        (3 * vm.Strings.Capacity < 4 * (vm.Strings.Count + 1) ∧
          vm2.Strings.Capacity = GROW_CAPACITY vm.Strings.Capacity)) ∧
      (∀ a, a ∈ vm2.Objects → a = addr ∨ a ∈ vm.Objects) := by
  unfold CopyString at hc
  cases hh : HashString chars length with
  | none => rw [hh] at hc; cases hc
  | some hash =>
    rw [hh] at hc
    dsimp only at hc
    cases hf : TableFindString vm.Heap vm.Strings chars length hash with
    | none => rw [hf] at hc; cases hc
    | some r =>
      rw [hf] at hc
      cases r with
      | some k =>
        dsimp only at hc
        cases hc
        exact ⟨Nat.le_succ _, Or.inl (Eq.refl _), fun a ha => Or.inr ha⟩
      | none =>
        dsimp only [ReallocateGrow] at hc
        unfold AllocateString at hc
        dsimp only [ReallocateGrow] at hc
        by_cases hmem : addr ∈ vm.Objects
        · rw [if_pos hmem] at hc
          cases hc
        · rw [if_neg hmem] at hc
          obtain ⟨hinvA, _⟩ := InternInv_alloc h hmem ⟨length, chars.take length ++ [0], hash⟩
          unfold TableSetStrings at hc
          simp only [Option.map_none', ReallocateGrow, ite_self] at hc
          cases hs : TableSet (fun p => if p = addr then
              (⟨length, chars.take length ++ [0], hash⟩ : ObjString) else vm.Heap p)
              vm.Strings addr NIL_VAL with
          | none => rw [hs] at hc; cases hc
          | some r =>
            rw [hs] at hc
            dsimp only at hc
            cases hc
            obtain ⟨s1, s2⟩ := TableSet_size hinvA.wf hs
            refine ⟨s1, s2, fun a ha => ?_⟩
            rcases List.mem_cons.mp ha with e | e
            · exact Or.inl e
            · exact Or.inr e

/-! ### Steps of the compiler -/

theorem CompilerKept.kept_same (c : Compiler) : CompilerKept c c :=
  ⟨Eq.refl _, Eq.refl _, Eq.refl _, Nat.le_refl _⟩

theorem CompilerKept.kept_next {a b c : Compiler} (h1 : CompilerKept a b) (h2 : CompilerKept b c) :
    CompilerKept a c :=
  ⟨h2.1.trans h1.1, h2.2.1.trans h1.2.1, h2.2.2.1.trans h1.2.2.1,
    Nat.le_trans h1.2.2.2 h2.2.2.2⟩

theorem keptChain_same : ∀ l : List Compiler, List.Forall₂ CompilerKept l l
  | [] => List.Forall₂.nil
  | c :: cs => List.Forall₂.cons (CompilerKept.kept_same c) (keptChain_same cs)

theorem keptChain_next : ∀ {a b c : List Compiler}, List.Forall₂ CompilerKept a b →
    List.Forall₂ CompilerKept b c → List.Forall₂ CompilerKept a c
  | _, _, _, List.Forall₂.nil, List.Forall₂.nil => List.Forall₂.nil
  | _, _, _, List.Forall₂.cons h1 t1, List.Forall₂.cons h2 t2 =>
    List.Forall₂.cons (h1.kept_next h2) (keptChain_next t1 t2)

theorem keptChain_ne {a b : List Compiler} (h : List.Forall₂ CompilerKept a b) (ha : a ≠ []) :
    b ≠ [] := by
  cases h with
  | nil => exact absurd (Eq.refl _) ha
  | cons _ _ => exact List.cons_ne_nil _ _

theorem keptChain_code {st st1 : CompileState}
    (h : List.Forall₂ CompilerKept st.current st1.current) :
    st.code.length ≤ st1.code.length := by
  unfold CompileState.code CompileState.chunk
  revert h
  generalize st.current = a
  generalize st1.current = b
  intro h
  cases h with
  | nil => exact Nat.le_refl _
  | cons h1 _ => exact h1.2.2.2

theorem ErrStep.err_same (st : CompileState) : ErrStep st st :=
  ⟨Eq.refl _, Eq.refl _, Eq.refl _, keptChain_same _, Eq.refl _, Eq.refl _, Eq.refl _, id⟩

theorem ErrStep.err_next {a b c : CompileState} (h1 : ErrStep a b) (h2 : ErrStep b c) :
    ErrStep a c :=
  ⟨h2.scanner.trans h1.scanner, h2.cur.trans h1.cur, h2.prev.trans h1.prev,
    keptChain_next h1.shape h2.shape, h2.classes.trans h1.classes, h2.vm.trans h1.vm,
    h2.allocs.trans h1.allocs, fun h => h2.err (h1.err h)⟩

theorem ErrStep.current_ne {st st1 : CompileState} (h : ErrStep st st1) (hc : st.current ≠ []) :
    st1.current ≠ [] := keptChain_ne h.shape hc

theorem ErrStep.left {st st1 : CompileState} (h : ErrStep st st1) :
    tokensLeft st1 = tokensLeft st := by
  unfold tokensLeft
  rw [h.scanner, h.cur]

theorem ErrStep.potential_eq {st st1 : CompileState} (h : ErrStep st st1) :
    potential st1 = potential st := by
  unfold potential
  rw [h.left, h.allocs]

theorem ErrStep.err_code_le {st st1 : CompileState} (h : ErrStep st st1) :
    st.code.length ≤ st1.code.length := keptChain_code h.shape

theorem ErrStep.err_inv {P : CompileBound} {st st1 : CompileState} (h : ErrStep st st1)
    (hi : CompileInv P st) : CompileInv P st1 where
  source := by rw [h.scanner]; exact hi.source
  pos := by rw [h.scanner]; exact hi.pos
  eof := by rw [h.scanner, h.cur]; exact hi.eof
  cur := by rw [h.cur]; exact hi.cur
  prev := by rw [h.prev]; exact hi.prev
  current := h.current_ne hi.current
  intern := by rw [h.vm]; exact hi.intern
  cap := by rw [h.vm]; exact hi.cap
  cnt := by rw [h.vm, h.allocs]; exact hi.cnt
  fresh := by rw [h.vm, h.allocs]; exact hi.fresh
  inj := hi.inj
  room := hi.room
  err := h.err hi.err

theorem ErrStep.step {P : CompileBound} {st st1 : CompileState} (h : ErrStep st st1)
    (hi : CompileInv P st) : CompileStep P st st1 0 where
  inv := h.err_inv hi
  shape := h.shape
  classes := congrArg List.length h.classes
  left := Nat.le_of_eq h.left
  cost := Nat.le_of_eq h.potential_eq
  slack := fun hl => absurd hl (by rw [h.left]; exact Nat.lt_irrefl _)

theorem CompileStep.step_same {P : CompileBound} {st : CompileState} (hi : CompileInv P st) :
    CompileStep P st st 0 := (ErrStep.err_same st).step hi

theorem CompileStep.step_next {P : CompileBound} {a b c : CompileState} {c1 c2 : Nat}
    (h1 : CompileStep P a b c1) (h2 : CompileStep P b c c2) : CompileStep P a c (c1 + c2) where
  inv := h2.inv
  shape := keptChain_next h1.shape h2.shape
  classes := h2.classes.trans h1.classes
  left := Nat.le_trans h2.left h1.left
  cost := by have := h1.cost; have := h2.cost; omega
  slack := by
    intro hl
    have a1 := h1.cost
    have a2 := h2.cost
    have l1 := h1.left
    have l2 := h2.left
    by_cases hb : tokensLeft b < tokensLeft a
    · have := h1.slack hb
      omega
    · have := h2.slack (by omega)
      omega

theorem CompileStep.step_weaken {P : CompileBound} {a b : CompileState} {c1 c2 : Nat}
    (h : CompileStep P a b c1) (hc : c1 ≤ c2) : CompileStep P a b c2 where
  inv := h.inv
  shape := h.shape
  classes := h.classes
  left := h.left
  cost := by have := h.cost; omega
  slack := by intro hl; have := h.slack hl; omega

/-- A step that consumes a token pays for up to 16 allocations that follow. -/
theorem CompileStep.repaid {P : CompileBound} {a b c : CompileState} {c1 c2 : Nat}
    (h1 : CompileStep P a b c1) (hpay : potential b + 32 ≤ potential a + c1)
    (h2 : CompileStep P b c c2) (hk : c2 ≤ 16) : CompileStep P a c c1 where
  inv := h2.inv
  shape := keptChain_next h1.shape h2.shape
  classes := h2.classes.trans h1.classes
  left := Nat.le_trans h2.left h1.left
  cost := by have := h2.cost; omega
  slack := by intro _; have := h2.cost; omega

/-- The invariant on a state that differs in the chain of compilers, the chain
of classes and the functions recorded only. -/
theorem CompileInv.transfer {P : CompileBound} {st st1 : CompileState} (hi : CompileInv P st)
    (hs : st1.scanner = st.scanner) (hp : st1.parser = st.parser) (hc : st1.current ≠ [])
    (hvm : st1.vm = st.vm) (ha : st1.Allocs = st.Allocs) (he : st1.stderr = st.stderr) :
    CompileInv P st1 where
  source := by rw [hs]; exact hi.source
  pos := by rw [hs]; exact hi.pos
  eof := by rw [hs, hp]; exact hi.eof
  cur := by rw [hp]; exact hi.cur
  prev := by rw [hp]; exact hi.prev
  current := hc
  intern := by rw [hvm]; exact hi.intern
  cap := by rw [hvm]; exact hi.cap
  cnt := by rw [hvm, ha]; exact hi.cnt
  fresh := by rw [hvm, ha]; exact hi.fresh
  inj := hi.inj
  room := hi.room
  err := by rw [hp, he]; exact hi.err

theorem tokensLeft_congr {st st1 : CompileState} (hs : st1.scanner = st.scanner)
    (hp : st1.parser = st.parser) : tokensLeft st1 = tokensLeft st := by
  unfold tokensLeft
  rw [hs, hp]

theorem potential_congr {st st1 : CompileState} (hs : st1.scanner = st.scanner)
    (hp : st1.parser = st.parser) (ha : st1.Allocs = st.Allocs) :
    potential st1 = potential st := by
  unfold potential
  rw [tokensLeft_congr hs hp, ha]

theorem CompileStep.step_code_le {P : CompileBound} {st st1 : CompileState} {c : Nat}
    (h : CompileStep P st st1 c) : st.code.length ≤ st1.code.length := keptChain_code h.shape

theorem CompilePre.pre_weaken {P : CompileBound} {st : CompileState} {a b : Nat}
    (h : CompilePre P st a) (hb : b ≤ a) : CompilePre P st b :=
  ⟨h.1, by have := h.2; omega⟩

/-- The budget left after a step. -/
theorem CompileStep.pre {P : CompileBound} {st st1 : CompileState} {a b c : Nat}
    (h : CompileStep P st st1 c) (hp : CompilePre P st a) (hb : c + b ≤ a) :
    CompilePre P st1 b :=
  ⟨h.inv, by have := h.cost; have := hp.2; omega⟩

/-- The budget left after a step that has consumed a token. -/
theorem CompileStep.pre_used {P : CompileBound} {st st1 : CompileState} {a b c : Nat}
    (h : CompileStep P st st1 c) (hp : CompilePre P st a)
    (hl : tokensLeft st1 < tokensLeft st) (hb : c + b ≤ a + 16) :
    CompilePre P st1 b :=
  ⟨h.inv, by have := h.slack hl; have := hp.2; omega⟩

theorem tokensLeft_pos {P : CompileBound} {st : CompileState} (hi : CompileInv P st)
    (h : st.parser.Current.Type_ ≠ TOKEN_EOF) : 0 < tokensLeft st := by
  unfold tokensLeft
  rw [if_neg h, hi.source]
  have := hi.pos
  omega

theorem tokensLeft_zero {st : CompileState} (h : st.parser.Current.Type_ = TOKEN_EOF) :
    tokensLeft st = 0 := by
  unfold tokensLeft
  rw [if_pos h]

theorem tokensLeft_eof {P : CompileBound} {st : CompileState} (hi : CompileInv P st)
    (h : tokensLeft st = 0) : st.parser.Current.Type_ = TOKEN_EOF := by
  by_contra hne
  have := tokensLeft_pos hi hne
  omega

/-! ### Errors, code and constants -/

theorem ErrorAt_step (t : Token) (m : List Nat) (st : CompileState) :
    ErrStep st (ErrorAt t m st) := by
  unfold ErrorAt
  split
  · exact ErrStep.err_same st
  · exact ⟨Eq.refl _, Eq.refl _, Eq.refl _, keptChain_same _, Eq.refl _, Eq.refl _, Eq.refl _,
      fun _ => ⟨fun _ => by simp, fun _ => Eq.refl _⟩⟩

theorem Error_step (m : List Nat) (st : CompileState) : ErrStep st (Error m st) :=
  ErrorAt_step _ _ _

theorem ErrorAtCurrent_step (m : List Nat) (st : CompileState) :
    ErrStep st (ErrorAtCurrent m st) :=
  ErrorAt_step _ _ _

theorem ErrStep.ite (p : Prop) [Decidable p] {st a b : CompileState} (ha : ErrStep st a)
    (hb : ErrStep st b) : ErrStep st (if p then a else b) := by
  split
  · exact ha
  · exact hb

/-- Replacing the current compiler by one that `CompilerKept` allows. -/
theorem ErrStep.head {st : CompileState} {c c1 : Compiler} {cs : List Compiler}
    (h : st.current = c :: cs) (hk : CompilerKept c c1) :
    ErrStep st { st with current := c1 :: cs } :=
  ⟨Eq.refl _, Eq.refl _, Eq.refl _, by rw [h]; exact List.Forall₂.cons hk (keptChain_same cs),
    Eq.refl _, Eq.refl _, Eq.refl _, id⟩

theorem withChunk_step (st : CompileState) (chunk : Chunk)
    (h : st.code.length ≤ chunk.Code.length) : ErrStep st (st.withChunk chunk) := by
  unfold CompileState.withChunk
  cases hc : st.current with
  | nil => exact ErrStep.err_same st
  | cons c cs =>
    refine ErrStep.head hc ⟨Eq.refl _, Eq.refl _, Eq.refl _, ?_⟩
    unfold CompileState.code CompileState.chunk at h
    rw [hc] at h
    exact h

theorem emit_step (st : CompileState) (bytes : List Nat) : ErrStep st (st.emit bytes) := by
  unfold CompileState.emit
  apply withChunk_step
  unfold CompileState.code
  simp

theorem addConstant_step (st : CompileState) (v : Value) : ErrStep st (st.addConstant v) := by
  unfold CompileState.addConstant
  apply withChunk_step
  exact Nat.le_refl _

theorem EmitByte_step (byte : Nat) (st : CompileState) (h : st.current ≠ []) :
    ∃ st1, EmitByte byte st = some st1 ∧ ErrStep st st1 :=
  ⟨_, EmitByte_eq byte st h, emit_step st _⟩

theorem EmitBytes_step (b1 b2 : Nat) (st : CompileState) (h : st.current ≠ []) :
    ∃ st1, EmitBytes b1 b2 st = some st1 ∧ ErrStep st st1 :=
  ⟨_, EmitBytes_eq b1 b2 st h, emit_step st _⟩

theorem EmitJump_step (instruction : Nat) (st : CompileState) (h : st.current ≠ []) :
    ∃ o st1, EmitJump instruction st = some (o, st1) ∧ ErrStep st st1 ∧
      o + 2 ≤ st1.code.length := by
  refine ⟨_, _, EmitJump_eq instruction st h, emit_step st _, ?_⟩
  rw [emit_code st _ h]
  simp

theorem PatchJump_step (offset : Nat) (st : CompileState) (h : st.current ≠ [])
    (ho : offset + 2 ≤ st.code.length) :
    ∃ st1, PatchJump offset st = some st1 ∧ ErrStep st st1 := by
  refine ⟨_, PatchJump_eq offset st h ho, ?_⟩
  have h1 : ErrStep st (if st.code.length - offset - 2 > 65535 then
      Error (chars "Too much code to jump over.") st else st) :=
    ErrStep.ite _ (Error_step _ _) (ErrStep.err_same _)
  refine h1.err_next (withChunk_step _ _ ?_)
  have hcode : (if st.code.length - offset - 2 > 65535 then
      Error (chars "Too much code to jump over.") st else st).code = st.code := by
    unfold CompileState.code
    split
    · unfold Error; rw [ErrorAt_chunk]
    · rfl
  rw [hcode]
  unfold patchedCode
  simp

theorem MakeConstant_step (value : Value) (st : CompileState) (h : st.current ≠ []) :
    ∃ k st1, MakeConstant value st = some (k, st1) ∧ ErrStep st st1 := by
  rw [MakeConstant_eq value st h]
  split
  · exact ⟨_, _, Eq.refl _, (addConstant_step st value).err_next (Error_step _ _)⟩
  · exact ⟨_, _, Eq.refl _, addConstant_step st value⟩

theorem EmitConstant_step (value : Value) (st : CompileState) (h : st.current ≠ []) :
    ∃ st1, EmitConstant value st = some st1 ∧ ErrStep st st1 := by
  unfold EmitConstant
  obtain ⟨k, st1, e1, s1⟩ := MakeConstant_step value st h
  obtain ⟨st2, e2, s2⟩ := EmitBytes_step OpCode.OP_CONSTANT k st1 (s1.current_ne h)
  refine ⟨st2, ?_, s1.err_next s2⟩
  simp only [Option.bind_eq_bind, e1, Option.some_bind, e2]

theorem EmitLoop_step (loopStart : Nat) (st : CompileState) (h : st.current ≠ []) :
    ∃ st1, EmitLoop loopStart st = some st1 ∧ ErrStep st st1 := by
  unfold EmitLoop
  obtain ⟨st1, e1, s1⟩ := EmitByte_step OpCode.OP_LOOP st h
  have h1 := s1.current_ne h
  have s2 : ErrStep st1 (if st1.chunk.Count - loopStart + 2 > UINT16_MAX then
      Error (chars "Loop body contains too many instructions to jump over.") st1 else st1) :=
    ErrStep.ite _ (Error_step _ _) (ErrStep.err_same _)
  have h2 := s2.current_ne h1
  obtain ⟨st3, e3, s3⟩ := EmitByte_step (((st1.chunk.Count - loopStart + 2) >>> 8) &&& 0xff) _ h2
  obtain ⟨st4, e4, s4⟩ := EmitByte_step ((st1.chunk.Count - loopStart + 2) &&& 0xff) st3
    (s3.current_ne h2)
  refine ⟨st4, ?_, ((s1.err_next s2).err_next s3).err_next s4⟩
  simp only [Option.bind_eq_bind, e1, Option.some_bind, CurrentChunk_eq st1 h1, e3, e4]

theorem EmitReturn_step (st : CompileState) (h : st.current ≠ []) :
    ∃ st1, EmitReturn st = some st1 ∧ ErrStep st st1 := by
  obtain ⟨c, cs, hc⟩ := List.exists_cons_of_ne_nil h
  exact ⟨_, EmitReturn_eq st c cs hc, emit_step st _⟩

/-! ### Allocation -/

theorem InternInv_object {vm : VMState} (h : InternInv vm) (a : Nat) :
    InternInv { vm with Objects := a :: vm.Objects } :=
  ⟨h.wf, fun k hk => ⟨List.mem_cons_of_mem _ (h.objs k hk).1, (h.objs k hk).2⟩, h.uniq⟩

theorem NewFunction_ok (P : CompileBound) (st : CompileState) (hp : CompilePre P st 1) :
    ∃ st1, NewFunction P.env st = some (P.env.alloc st.Allocs, st1) ∧ CompileStep P st st1 1 ∧
      st1.current = st.current ∧ st1.parser = st.parser ∧ st1.scanner = st.scanner ∧
      st1.Functions = st.Functions ∧ st1.stderr = st.stderr := by
  obtain ⟨hi, hb⟩ := hp
  unfold NewFunction
  rw [if_neg (hi.fresh _ (Nat.le_refl _))]
  refine ⟨_, Eq.refl _, ⟨⟨hi.source, hi.pos, hi.eof, hi.cur, hi.prev, hi.current,
    InternInv_object hi.intern _, hi.cap, ?_, ?_, hi.inj, hi.room, hi.err⟩, keptChain_same _,
    Eq.refl _, Nat.le_refl _, ?_, fun hl => absurd hl (Nat.lt_irrefl _)⟩,
    Eq.refl _, Eq.refl _, Eq.refl _, Eq.refl _, Eq.refl _⟩
  · have := hi.cnt
    show st.vm.Strings.Count ≤ P.count0 + (st.Allocs + 1)
    omega
  · intro k hk hm
    have hk' : st.Allocs + 1 ≤ k := hk
    rcases List.mem_cons.mp hm with e | e
    · have := hi.inj _ _ e
      omega
    · exact hi.fresh k (by omega) e
  · show st.Allocs + 1 + 32 * tokensLeft st ≤ st.Allocs + 32 * tokensLeft st + 1
    omega

theorem CopyStringAt_ok (P : CompileBound) (st : CompileState) (text : List Nat) (length : Nat)
    (hp : CompilePre P st 1) (hlen : length ≤ text.length) :
    ∃ s st1, CopyStringAt P.env text length st = some (s, st1) ∧ CompileStep P st st1 1 ∧
      st1.current = st.current ∧ st1.parser = st.parser ∧ st1.scanner = st.scanner := by
  obtain ⟨hi, hb⟩ := hp
  unfold CopyStringAt
  obtain ⟨r, hr⟩ := CopyString_isSome hi.intern none none none hlen
    (hi.fresh st.Allocs (Nat.le_refl _)) hi.cap
  obtain ⟨s, vm2⟩ := r
  rw [hr]
  dsimp only
  obtain ⟨hinv2, _⟩ := CopyString_spec hi.intern none none none hr
  obtain ⟨hcount, hcap, hobj⟩ := CopyString_size hi.intern hr
  have hpot : st.Allocs + 1 ≤ P.budget := by
    unfold potential at hb
    omega
  have hroom := hi.room
  have hcnt := hi.cnt
  have hcap0 := hi.cap
  have e30 : (2 : Nat) ^ 30 = 1073741824 := by norm_num
  have e29 : (2 : Nat) ^ 29 = 536870912 := by norm_num
  rw [e29] at hroom
  rw [e30] at hcap0
  refine ⟨s, _, Eq.refl _, ⟨⟨hi.source, hi.pos, hi.eof, hi.cur, hi.prev, hi.current,
    hinv2, ?_, ?_, ?_, hi.inj, hi.room, hi.err⟩, keptChain_same _,
    Eq.refl _, Nat.le_refl _, ?_, fun hl => absurd hl (Nat.lt_irrefl _)⟩,
    Eq.refl _, Eq.refl _, Eq.refl _⟩
  · show vm2.Strings.Capacity < 2 ^ 30
    rw [e30]
    rcases hcap with e | ⟨e1, e2⟩
    · omega
    · rw [e2]
      unfold GROW_CAPACITY
      split <;> omega
  · show vm2.Strings.Count ≤ P.count0 + (st.Allocs + 1)
    omega
  · intro k hk hm
    have hk' : st.Allocs + 1 ≤ k := hk
    rcases hobj _ hm with e | e
    · have := hi.inj _ _ e
      omega
    · exact hi.fresh k (by omega) e
  · show st.Allocs + 1 + 32 * tokensLeft st ≤ st.Allocs + 32 * tokensLeft st + 1
    omega

theorem TokOK_read {src : List Nat} {t : Token} (h : TokOK src t) :
    t.Length ≤ (t.Start.read src).length := by
  unfold TokOK at h
  cases hs : t.Start with
  | src o =>
    rw [hs] at h
    have h1 : o + t.Length ≤ src.length := h
    show t.Length ≤ (src.drop o).length
    rw [List.length_drop]
    omega
  | lit cs =>
    rw [hs] at h
    exact h

theorem TokOK_synthetic (src : List Nat) (text : List Nat) : TokOK src (SyntheticToken text) :=
  Nat.le_refl _

theorem IdentifierConstant_ok (P : CompileBound) (name : Token) (st : CompileState)
    (hp : CompilePre P st 1) (hname : TokOK P.src name) :
    ∃ k st1, IdentifierConstant P.env name st = some (k, st1) ∧ CompileStep P st st1 1 := by
  unfold IdentifierConstant
  obtain ⟨s, st1, e1, s1, hc1, _, _⟩ := CopyStringAt_ok P st (st.textAt name) name.Length hp (by
    unfold CompileState.textAt
    rw [hp.1.source]
    exact TokOK_read hname)
  obtain ⟨k, st2, e2, s2⟩ := MakeConstant_step (OBJ_VAL s) st1 s1.inv.current
  refine ⟨k, st2, ?_, ?_⟩
  · simp only [Option.bind_eq_bind, e1, Option.some_bind, e2]
  · exact s1.step_next (s2.step s1.inv)

/-! ### Tokens -/

theorem AdvanceLoop_ok (src : List Nat) : ∀ (fuel : Nat) (st : CompileState),
    st.scanner.Source = src → st.scanner.Current ≤ src.length →
    src.length + 1 - st.scanner.Current ≤ fuel →
    ∃ st1, AdvanceLoop fuel st = some st1 ∧ Advanced st st1 := by
  intro fuel
  induction fuel with
  | zero => intro st h1 h2 h3; omega
  | succ n ih =>
    intro st h1 h2 h3
    unfold AdvanceLoop
    obtain ⟨t, sc1, e, hs⟩ := ScanToken_total st.scanner (by rw [h1]; exact h2)
    rw [e]
    dsimp only
    by_cases ht : t.Type_ ≠ TOKEN_ERROR
    · rw [if_pos ht]
      exact ⟨_, Eq.refl _, hs.source, hs.le, hs.pos, hs.tok, hs.eof, hs.moved, hs.atEnd,
        Eq.refl _, Eq.refl _, Eq.refl _, Eq.refl _, Eq.refl _, id⟩
    · rw [if_neg ht]
      have hte : t.Type_ = TOKEN_ERROR := by
        by_contra hne
        exact ht hne
      have hmoved := hs.moved (by rw [hte]; decide)
      have hsrc1 : sc1.Source = src := hs.source.trans h1
      have hpos1 : sc1.Current ≤ src.length := by rw [← hsrc1]; exact hs.pos
      obtain ⟨st2, e2, a2⟩ := ih
        (ErrorAtCurrent
          (CompileState.textAt { st with scanner := sc1, parser := { st.parser with Current := t } } t)
          { st with scanner := sc1, parser := { st.parser with Current := t } })
        (by unfold ErrorAtCurrent; rw [ErrorAt_scanner]; exact hsrc1)
        (by unfold ErrorAtCurrent; rw [ErrorAt_scanner]; exact hpos1)
        (by unfold ErrorAtCurrent; rw [ErrorAt_scanner]; show src.length + 1 - sc1.Current ≤ n;
            omega)
      have es := ErrorAtCurrent_step
        (CompileState.textAt { st with scanner := sc1, parser := { st.parser with Current := t } } t)
        { st with scanner := sc1, parser := { st.parser with Current := t } }
      have hsc : (ErrorAtCurrent
          (CompileState.textAt
            { st with scanner := sc1, parser := { st.parser with Current := t } } t)
          { st with scanner := sc1, parser := { st.parser with Current := t } }).scanner = sc1 :=
        es.scanner
      have hcur : (ErrorAtCurrent
          (CompileState.textAt
            { st with scanner := sc1, parser := { st.parser with Current := t } } t)
          { st with scanner := sc1, parser := { st.parser with Current := t } }).current =
            st.current := by
        unfold ErrorAtCurrent
        rw [ErrorAt_current]
      refine ⟨st2, e2, ?_, ?_, a2.pos, ?_, a2.eof, fun _ => ?_, fun hend => ?_, ?_, ?_, ?_, ?_,
        ?_, fun h => a2.err (es.err h)⟩
      · rw [a2.source, hsc]; exact hs.source
      · have := a2.le
        rw [hsc] at this
        have := hs.le
        omega
      · have := a2.tok
        rw [hsc, hs.source] at this
        exact this
      · have := a2.le
        rw [hsc] at this
        omega
      · have := hs.atEnd hend
        rw [hte] at this
        cases this
      · rw [a2.prev]; exact es.prev
      · rw [a2.current]; exact hcur
      · rw [a2.classes]; exact es.classes
      · rw [a2.vm]; exact es.vm
      · rw [a2.allocs]; exact es.allocs

theorem Advance_ok (P : CompileBound) (st : CompileState) (hi : CompileInv P st) :
    ∃ st1, Advance st = some st1 ∧ CompileStep P st st1 0 ∧
      st1.parser.Previous = st.parser.Current ∧ st1.current = st.current ∧
      (st.parser.Current.Type_ ≠ TOKEN_EOF →
        tokensLeft st1 < tokensLeft st ∧ potential st1 + 32 ≤ potential st) := by
  unfold Advance
  obtain ⟨st1, e1, a1⟩ := AdvanceLoop_ok P.src st.scanner.fuel
    { st with parser := { st.parser with Previous := st.parser.Current } } hi.source hi.pos (by
      show P.src.length + 1 - st.scanner.Current ≤ st.scanner.fuel
      unfold Scanner.fuel
      rw [hi.source])
  have hsrc : st1.scanner.Source = P.src := a1.source.trans hi.source
  have hpos : st1.scanner.Current ≤ P.src.length := by rw [← hsrc]; exact a1.pos
  have hle : st.scanner.Current ≤ st1.scanner.Current := a1.le
  have hleft : tokensLeft st1 ≤ tokensLeft st ∧
      (st.parser.Current.Type_ ≠ TOKEN_EOF → tokensLeft st1 < tokensLeft st) := by
    unfold tokensLeft
    rw [hsrc, hi.source]
    have hp0 := hi.pos
    by_cases h0 : st.parser.Current.Type_ = TOKEN_EOF
    · have := a1.atEnd (hi.eof h0)
      rw [if_pos this, if_pos h0]
      exact ⟨Nat.le_refl _, fun h => absurd h0 h⟩
    · rw [if_neg h0]
      by_cases h1 : st1.parser.Current.Type_ = TOKEN_EOF
      · rw [if_pos h1]
        exact ⟨Nat.zero_le _, fun _ => by omega⟩
      · rw [if_neg h1]
        have hm : st.scanner.Current < st1.scanner.Current := a1.moved h1
        exact ⟨by omega, fun _ => by omega⟩
  have hall : st1.Allocs = st.Allocs := a1.allocs
  refine ⟨st1, e1, ⟨⟨hsrc, hpos, a1.eof, ?_, ?_, ?_, ?_, ?_, ?_, ?_, hi.inj, hi.room,
    a1.err hi.err⟩, ?_, congrArg List.length a1.classes, hleft.1, ?_, ?_⟩, a1.prev, a1.current, fun h => ⟨hleft.2 h, ?_⟩⟩
  · have := a1.tok
    rw [show ({ st with parser := { st.parser with Previous := st.parser.Current } } :
      CompileState).scanner.Source = P.src from hi.source] at this
    exact this
  · rw [a1.prev]; exact hi.cur
  · rw [a1.current]; exact hi.current
  · rw [a1.vm]; exact hi.intern
  · rw [a1.vm]; exact hi.cap
  · rw [a1.vm, hall]; exact hi.cnt
  · rw [a1.vm, hall]; exact hi.fresh
  · rw [a1.current]; exact keptChain_same _
  · unfold potential
    rw [hall]
    have := hleft.1
    omega
  · intro hl
    unfold potential
    rw [hall]
    omega
  · unfold potential
    rw [hall]
    have := hleft.2 h
    omega

theorem Consume_ok (P : CompileBound) (type : TokenType) (m : List Nat) (st : CompileState)
    (hi : CompileInv P st) :
    ∃ st1, Consume type m st = some st1 ∧ CompileStep P st st1 0 ∧
      (st.parser.Current.Type_ = type → type ≠ TOKEN_EOF → tokensLeft st1 < tokensLeft st) := by
  unfold Consume
  by_cases h : st.parser.Current.Type_ = type
  · rw [if_pos h]
    obtain ⟨st1, e1, s1, _, _, h3⟩ := Advance_ok P st hi
    exact ⟨st1, e1, s1, fun _ hne => (h3 (by rw [h]; exact hne)).1⟩
  · rw [if_neg h]
    exact ⟨_, Eq.refl _, (ErrorAtCurrent_step m st).step hi, fun h' => absurd h' h⟩

theorem Match_ok (P : CompileBound) (type : TokenType) (st : CompileState)
    (hi : CompileInv P st) :
    ∃ b st1, Match type st = some (b, st1) ∧ CompileStep P st st1 0 ∧
      (b = false → st1 = st ∧ st.parser.Current.Type_ ≠ type) ∧
      (b = true → st.parser.Current.Type_ = type ∧ st1.parser.Previous = st.parser.Current ∧
        st1.current = st.current ∧
        (type ≠ TOKEN_EOF → tokensLeft st1 < tokensLeft st ∧ potential st1 + 32 ≤ potential st)) := by
  unfold Match Check
  by_cases h : st.parser.Current.Type_ = type
  · rw [if_neg (by simp [h])]
    obtain ⟨st1, e1, s1, h1, h2, h3⟩ := Advance_ok P st hi
    rw [e1]
    exact ⟨true, st1, Eq.refl _, s1, fun hb => Bool.noConfusion hb,
      fun _ => ⟨h, h1, h2, fun hne => h3 (by rw [h]; exact hne)⟩⟩
  · rw [if_pos (by simp [h])]
    exact ⟨false, st, Eq.refl _, CompileStep.step_same hi, fun _ => ⟨Eq.refl _, h⟩,
      fun hb => Bool.noConfusion hb⟩

/-! ### Scopes and variables -/

theorem BeginScope_step (st : CompileState) (h : st.current ≠ []) :
    ∃ st1, BeginScope st = some st1 ∧ ErrStep st st1 := by
  obtain ⟨c, cs, hc⟩ := List.exists_cons_of_ne_nil h
  unfold BeginScope
  rw [hc]
  dsimp only
  have := @ErrStep.head st c { c with ScopeDepth := c.ScopeDepth + 1 } cs hc
    ⟨Eq.refl _, Eq.refl _, Eq.refl _, Nat.le_refl _⟩
  exact ⟨_, Eq.refl _, this⟩

theorem emit_head (st : CompileState) (bytes : List Nat) {c : Compiler} {cs : List Compiler}
    (hc : st.current = c :: cs) :
    ∃ c1, (st.emit bytes).current = c1 :: cs ∧ c1.Locals = c.Locals ∧ CompilerKept c c1 := by
  unfold CompileState.emit CompileState.withChunk
  rw [hc]
  dsimp only
  refine ⟨_, Eq.refl _, Eq.refl _, Eq.refl _, Eq.refl _, Eq.refl _, ?_⟩
  unfold CompileState.chunk
  rw [hc]
  simp

theorem EndScopeLoop_step : ∀ (fuel : Nat) (st : CompileState) (c : Compiler)
    (cs : List Compiler), st.current = c :: cs → c.Locals.length < fuel →
    ∃ st1, EndScopeLoop fuel st = some st1 ∧ ErrStep st st1 := by
  intro fuel
  induction fuel with
  | zero => intro st c cs _ h; omega
  | succ n ih =>
    intro st c cs hc hl
    have hne : st.current ≠ [] := by rw [hc]; exact List.cons_ne_nil _ _
    unfold EndScopeLoop
    rw [hc]
    dsimp only
    cases hlast : c.Locals.getLast? with
    | none => exact ⟨st, Eq.refl _, ErrStep.err_same st⟩
    | some l =>
      dsimp only
      by_cases hd : l.Depth > c.ScopeDepth
      · rw [if_pos hd]
        have hemit : ∀ b : Nat, ∃ st1, EndScopeLoop n
            (match (st.emit [b % 256]).current with
              | [] => st.emit [b % 256]
              | c1 :: cs1 => { st.emit [b % 256] with
                  current := { c1 with Locals := c1.Locals.dropLast } :: cs1 }) = some st1 ∧
            ErrStep st st1 := by
          intro b
          obtain ⟨c1, h1, h2, h3⟩ := emit_head st [b % 256] hc
          rw [h1]
          dsimp only
          have hlen : c.Locals ≠ [] := by
            intro he
            rw [he] at hlast
            cases hlast
          have hpos : 0 < c.Locals.length := List.length_pos.mpr hlen
          obtain ⟨st2, e2, s2⟩ := ih
            { st.emit [b % 256] with current := { c1 with Locals := c1.Locals.dropLast } :: cs }
            { c1 with Locals := c1.Locals.dropLast } cs (Eq.refl _) (by
              show c1.Locals.dropLast.length < n
              rw [List.length_dropLast, h2]
              omega)
          refine ⟨st2, e2, ((emit_step st [b % 256]).err_next ?_).err_next s2⟩
          exact ErrStep.head h1 ⟨Eq.refl _, Eq.refl _, Eq.refl _, Nat.le_refl _⟩
        split
        · rename_i heq
          split at heq
          · rw [EmitByte_eq _ st hne] at heq
            cases heq
          · rw [EmitByte_eq _ st hne] at heq
            cases heq
        · rename_i st1 heq
          have hst1 : ∃ b : Nat, st1 = st.emit [b % 256] := by
            split at heq
            · rw [EmitByte_eq _ st hne] at heq
              exact ⟨_, (Option.some.inj heq).symm⟩
            · rw [EmitByte_eq _ st hne] at heq
              exact ⟨_, (Option.some.inj heq).symm⟩
          obtain ⟨b, hb⟩ := hst1
          subst hb
          obtain ⟨c1, h1, h2, h3⟩ := emit_head st [b % 256] hc
          obtain ⟨r, hr, sr⟩ := hemit b
          rw [h1] at hr ⊢
          exact ⟨r, hr, sr⟩
      · rw [if_neg hd]
        exact ⟨st, Eq.refl _, ErrStep.err_same st⟩

theorem EndScope_step (st : CompileState) (h : st.current ≠ []) :
    ∃ st1, EndScope st = some st1 ∧ ErrStep st st1 := by
  obtain ⟨c, cs, hc⟩ := List.exists_cons_of_ne_nil h
  unfold EndScope
  rw [hc]
  dsimp only
  obtain ⟨st1, e1, s1⟩ := EndScopeLoop_step (c.Locals.length + 1)
    { st with current := { c with ScopeDepth := c.ScopeDepth - 1 } :: cs }
    { c with ScopeDepth := c.ScopeDepth - 1 } cs (Eq.refl _) (Nat.lt_succ_self _)
  exact ⟨st1, e1, (@ErrStep.head st c { c with ScopeDepth := c.ScopeDepth - 1 } cs hc
    ⟨Eq.refl _, Eq.refl _, Eq.refl _, Nat.le_refl _⟩).err_next s1⟩

theorem AddLocal_step (name : Token) (st : CompileState) (h : st.current ≠ []) :
    ∃ st1, AddLocal name st = some st1 ∧ ErrStep st st1 := by
  obtain ⟨c, cs, hc⟩ := List.exists_cons_of_ne_nil h
  unfold AddLocal
  rw [hc]
  dsimp only
  split
  · exact ⟨_, Eq.refl _, Error_step _ _⟩
  · exact ⟨_, Eq.refl _, ErrStep.head hc ⟨Eq.refl _, Eq.refl _, Eq.refl _, Nat.le_refl _⟩⟩

theorem DeclareVariableLoop_step (name : Token) (locals : List Local) (scopeDepth : Int) :
    ∀ (i : Nat) (st : CompileState),
      ErrStep st (DeclareVariableLoop name locals scopeDepth i st) := by
  intro i
  induction i with
  | zero => intro st; exact ErrStep.err_same st
  | succ n ih =>
    intro st
    unfold DeclareVariableLoop
    split
    · exact ErrStep.err_same st
    · split
      · exact ErrStep.err_same st
      · exact (ErrStep.ite _ (Error_step _ _) (ErrStep.err_same st)).err_next (ih _)

theorem DeclareVariable_step (st : CompileState) (h : st.current ≠ []) :
    ∃ st1, DeclareVariable st = some st1 ∧ ErrStep st st1 := by
  obtain ⟨c, cs, hc⟩ := List.exists_cons_of_ne_nil h
  unfold DeclareVariable
  rw [hc]
  dsimp only
  split
  · exact ⟨st, Eq.refl _, ErrStep.err_same st⟩
  · have s1 := DeclareVariableLoop_step st.parser.Previous c.Locals c.ScopeDepth c.LocalCount st
    obtain ⟨st2, e2, s2⟩ := AddLocal_step st.parser.Previous _ (s1.current_ne h)
    exact ⟨st2, e2, s1.err_next s2⟩

theorem MarkInitialized_step (st : CompileState) (h : st.current ≠ []) :
    ∃ st1, MarkInitialized st = some st1 ∧ ErrStep st st1 := by
  obtain ⟨c, cs, hc⟩ := List.exists_cons_of_ne_nil h
  unfold MarkInitialized
  rw [hc]
  dsimp only
  split
  · exact ⟨st, Eq.refl _, ErrStep.err_same st⟩
  · exact ⟨_, Eq.refl _, ErrStep.head hc ⟨Eq.refl _, Eq.refl _, Eq.refl _, Nat.le_refl _⟩⟩

theorem DefineVariable_step (global : Nat) (st : CompileState) (h : st.current ≠ []) :
    ∃ st1, DefineVariable global st = some st1 ∧ ErrStep st st1 := by
  obtain ⟨c, cs, hc⟩ := List.exists_cons_of_ne_nil h
  unfold DefineVariable
  rw [hc]
  dsimp only
  split
  · exact MarkInitialized_step st h
  · exact EmitBytes_step _ _ st h

theorem ParseVariable_ok (P : CompileBound) (m : List Nat) (st : CompileState)
    (hp : CompilePre P st 1) :
    ∃ k st1, ParseVariable P.env m st = some (k, st1) ∧ CompileStep P st st1 1 := by
  unfold ParseVariable
  obtain ⟨st1, e1, s1, _⟩ := Consume_ok P TOKEN_IDENTIFIER m st hp.1
  obtain ⟨st2, e2, s2⟩ := DeclareVariable_step st1 s1.inv.current
  have s12 := s1.step_next (s2.step s1.inv)
  simp only [Option.bind_eq_bind, e1, Option.some_bind, e2]
  obtain ⟨c, cs, hc⟩ := List.exists_cons_of_ne_nil s12.inv.current
  rw [hc]
  dsimp only
  split
  · exact ⟨0, st2, Eq.refl _, s12.step_weaken (by omega)⟩
  · obtain ⟨k, st3, e3, s3⟩ := IdentifierConstant_ok P st2.parser.Previous st2
      (s12.pre hp (by omega)) s12.inv.prev
    exact ⟨k, st3, e3, (s12.step_next s3).step_weaken (by omega)⟩

/-! ### Resolving a name -/

theorem ResolveLocal_step (c : Compiler) (name : Token) (st : CompileState) :
    ErrStep st (ResolveLocal c name st).2 := by
  unfold ResolveLocal
  split
  · exact ErrStep.err_same st
  · exact ErrStep.ite _ (Error_step _ _) (ErrStep.err_same st)

theorem AddUpValue_step (c : Compiler) (index : Nat) (isLocal : Bool) (st : CompileState) :
    CompilerKept c (AddUpValue c index isLocal st).2.1 ∧
      ErrStep st (AddUpValue c index isLocal st).2.2 := by
  unfold AddUpValue
  split
  · exact ⟨CompilerKept.kept_same c, ErrStep.err_same st⟩
  · split
    · exact ⟨CompilerKept.kept_same c, Error_step _ _⟩
    · exact ⟨⟨Eq.refl _, Eq.refl _, Eq.refl _, Nat.le_refl _⟩, ErrStep.err_same st⟩

theorem ResolveUpValue_step (name : Token) : ∀ (chain : List Compiler) (st : CompileState),
    List.Forall₂ CompilerKept chain (ResolveUpValue name chain st).2.1 ∧
      ErrStep st (ResolveUpValue name chain st).2.2 := by
  intro chain
  induction chain with
  | nil =>
    intro st
    unfold ResolveUpValue
    exact ⟨List.Forall₂.nil, ErrStep.err_same st⟩
  | cons compiler chain ih =>
    intro st
    unfold ResolveUpValue
    cases chain with
    | nil => exact ⟨keptChain_same _, ErrStep.err_same st⟩
    | cons enclosing rest =>
      dsimp only
      have hl := ResolveLocal_step enclosing name st
      split
      · have ha := AddUpValue_step compiler
          ((ResolveLocal enclosing name st).1.toNat % 256) true (ResolveLocal enclosing name st).2
        exact ⟨List.Forall₂.cons ha.1 (List.Forall₂.cons
          ⟨Eq.refl _, Eq.refl _, Eq.refl _, Nat.le_refl _⟩ (keptChain_same rest)),
          hl.err_next ha.2⟩
      · have hr := ih (ResolveLocal enclosing name st).2
        split
        · have ha := AddUpValue_step compiler
            ((ResolveUpValue name (enclosing :: rest) (ResolveLocal enclosing name st).2).1.toNat
              % 256) false
            (ResolveUpValue name (enclosing :: rest) (ResolveLocal enclosing name st).2).2.2
          exact ⟨List.Forall₂.cons ha.1 hr.1, (hl.err_next hr.2).err_next ha.2⟩
        · exact ⟨List.Forall₂.cons (CompilerKept.kept_same _) hr.1, hl.err_next hr.2⟩

/-- Putting a chain of compilers that `CompilerKept` allows in place of the
current one. -/
theorem ErrStep.chain {st st1 : CompileState} (h : ErrStep st st1) (cs : List Compiler)
    (hk : List.Forall₂ CompilerKept st1.current cs) :
    ErrStep st { st1 with current := cs } :=
  ⟨h.scanner, h.cur, h.prev, keptChain_next h.shape hk, h.classes, h.vm, h.allocs, h.err⟩

/-! ### Expressions -/

theorem CompileStep.thenEmitByte {P : CompileBound} {st0 st : CompileState} {c : Nat}
    (h : CompileStep P st0 st c) (b : Nat) :
    ∃ st1, EmitByte b st = some st1 ∧ CompileStep P st0 st1 c ∧
      tokensLeft st1 = tokensLeft st := by
  obtain ⟨st1, e1, s1⟩ := EmitByte_step b st h.inv.current
  exact ⟨st1, e1, h.step_next (s1.step h.inv), s1.left⟩

theorem CompileStep.thenEmitBytes {P : CompileBound} {st0 st : CompileState} {c : Nat}
    (h : CompileStep P st0 st c) (b1 b2 : Nat) :
    ∃ st1, EmitBytes b1 b2 st = some st1 ∧ CompileStep P st0 st1 c ∧
      tokensLeft st1 = tokensLeft st := by
  obtain ⟨st1, e1, s1⟩ := EmitBytes_step b1 b2 st h.inv.current
  exact ⟨st1, e1, h.step_next (s1.step h.inv), s1.left⟩

theorem bind_returns {α β : Type} {x : Option α} {f : α → Option β} {R : β → Prop} (a : α)
    (hx : x = some a) (h : ∃ b, f a = some b ∧ R b) : ∃ b, x.bind f = some b ∧ R b := by
  subst hx
  exact h

theorem MatchIf_ok (P : CompileBound) (b : Bool) (type : TokenType) (st : CompileState)
    (hi : CompileInv P st) :
    ∃ r st1, (if b = true then Match type st else some (false, st)) = some (r, st1) ∧
      CompileStep P st st1 0 ∧
      (r = true → type ≠ TOKEN_EOF → tokensLeft st1 < tokensLeft st) := by
  cases b with
  | false => exact ⟨false, st, Eq.refl _, CompileStep.step_same hi, fun h => Bool.noConfusion h⟩
  | true =>
    obtain ⟨r, st1, e1, s1, _, h2⟩ := Match_ok P type st hi
    exact ⟨r, st1, e1, s1, fun hr hne => ((h2 hr).2.2.2 hne).1⟩

theorem ParseBinaryExpression_ok (P : CompileBound) (pp : ParsePrecedenceFn) (n : Nat)
    (canAssign : Bool) (st : CompileState) (hpp : ParsesExpressions P pp n)
    (hn : tokensLeft st < n) (hp : CompilePre P st 0) :
    ∃ st1, ParseBinaryExpression pp canAssign st = some st1 ∧ CompileStep P st st1 0 := by
  unfold ParseBinaryExpression
  obtain ⟨st1, e1, s1, _⟩ := hpp ((GetRule st.parser.Previous.Type_).Precedence + 1) st
    (Nat.le_add_left _ _) hp hn
  simp only [Option.bind_eq_bind, e1, Option.some_bind]
  split
  all_goals first
    | (obtain ⟨st2, e2, s2, _⟩ := s1.thenEmitByte _; exact ⟨st2, e2, s2⟩)
    | (obtain ⟨st2, e2, s2, _⟩ := s1.thenEmitBytes _ _; exact ⟨st2, e2, s2⟩)
    | exact ⟨st1, Eq.refl _, s1⟩

theorem ParseArgumentListLoop_ok (P : CompileBound) (pp : ParsePrecedenceFn) (n : Nat)
    (hpp : ParsesExpressions P pp n) : ∀ (fuel argCount : Nat) (st : CompileState),
    tokensLeft st < n → tokensLeft st < fuel → CompilePre P st 0 →
    ∃ k st1, ParseArgumentListLoop pp fuel argCount st = some (k, st1) ∧
      CompileStep P st st1 0 := by
  intro fuel
  induction fuel with
  | zero => intro _ st _ h; omega
  | succ f ih =>
    intro argCount st hn hf hp
    unfold ParseArgumentListLoop
    obtain ⟨st1, e1, s1, _⟩ := hpp PREC_ASSIGNMENT st (by decide) hp hn
    rw [e1]
    dsimp only
    have s2 : CompileStep P st (if argCount = 255 then
        Error (chars "Can\x27t have more than 255 function arguments.") st1 else st1) 0 :=
      s1.step_next ((ErrStep.ite _ (Error_step _ _) (ErrStep.err_same _)).step s1.inv)
    obtain ⟨b, st3, e3, s3, _, h3⟩ := Match_ok P TOKEN_COMMA _ s2.inv
    rw [e3]
    have s23 := s2.step_next s3
    cases b with
    | false => exact ⟨_, st3, Eq.refl _, s23⟩
    | true =>
      dsimp only
      have hl := ((h3 (Eq.refl _)).2.2.2 (by decide)).1
      have l2 := s2.left
      obtain ⟨k, st4, e4, s4⟩ := ih ((argCount + 1) % 256) st3 (by omega) (by omega)
        (s23.pre hp (by omega))
      exact ⟨k, st4, e4, s23.step_next s4⟩

theorem ParseArgumentList_ok (P : CompileBound) (pp : ParsePrecedenceFn) (n fuel : Nat)
    (st : CompileState) (hpp : ParsesExpressions P pp n)
    (hn : tokensLeft st < n) (hf : tokensLeft st < fuel) (hp : CompilePre P st 0) :
    ∃ r, ParseArgumentList pp fuel st = some r ∧ CompileStep P st r.2 0 := by
  unfold ParseArgumentList
  by_cases hc : ¬ Check TOKEN_RIGHT_PAREN st = true
  · obtain ⟨k, st1, e1, s1⟩ := ParseArgumentListLoop_ok P pp n hpp fuel 0 st hn hf hp
    obtain ⟨st2, e2, s2, _⟩ := Consume_ok P TOKEN_RIGHT_PAREN
      (chars "Expected \x27)\x27 after function arguments.") st1 s1.inv
    refine ⟨(k, st2), ?_, s1.step_next s2⟩
    simp only [Option.bind_eq_bind, if_pos hc, e1, Option.some_bind, e2]
  · obtain ⟨st2, e2, s2, _⟩ := Consume_ok P TOKEN_RIGHT_PAREN
      (chars "Expected \x27)\x27 after function arguments.") st hp.1
    refine ⟨(0, st2), ?_, s2⟩
    simp only [Option.bind_eq_bind, if_neg hc, Option.some_bind, e2]

theorem ParseCallExpression_ok (P : CompileBound) (pp : ParsePrecedenceFn) (n fuel : Nat)
    (canAssign : Bool) (st : CompileState) (hpp : ParsesExpressions P pp n)
    (hn : tokensLeft st < n) (hf : tokensLeft st < fuel) (hp : CompilePre P st 0) :
    ∃ st1, ParseCallExpression pp fuel canAssign st = some st1 ∧ CompileStep P st st1 0 := by
  unfold ParseCallExpression
  obtain ⟨r, e1, s1⟩ := ParseArgumentList_ok P pp n fuel st hpp hn hf hp
  obtain ⟨st2, e2, s2, _⟩ := s1.thenEmitBytes OpCode.OP_CALL r.1
  refine ⟨st2, ?_, s2⟩
  simp only [Option.bind_eq_bind, e1, Option.some_bind, e2]

theorem ParseDotExpression_ok (P : CompileBound) (pp : ParsePrecedenceFn) (n fuel : Nat)
    (canAssign : Bool) (st : CompileState) (hpp : ParsesExpressions P pp n)
    (hn : tokensLeft st < n) (hf : tokensLeft st < fuel) (hp : CompilePre P st 1) :
    ∃ st1, ParseDotExpression P.env pp fuel canAssign st = some st1 ∧
      CompileStep P st st1 1 := by
  unfold ParseDotExpression
  obtain ⟨st1, e1, s1, _⟩ := Consume_ok P TOKEN_IDENTIFIER
    (chars "Expected property name after \x27.\x27.") st hp.1
  obtain ⟨name, st2, e2, s2⟩ := IdentifierConstant_ok P st1.parser.Previous st1
    (s1.pre hp (by omega)) s1.inv.prev
  have s12 := s1.step_next s2
  simp only [Option.bind_eq_bind, e1, Option.some_bind, e2]
  -- the property is read or called
  have tail : ∀ st3, CompileStep P st st3 1 →
      ∃ b, ((Match TOKEN_LEFT_PAREN st3).bind fun a =>
        if a.1 = true then
          (ParseArgumentList pp fuel a.2).bind fun a =>
            (EmitBytes OpCode.OP_INVOKE name a.2).bind fun st6 => EmitByte a.1 st6
        else EmitBytes OpCode.OP_GET_PROPERTY name a.2) = some b ∧ CompileStep P st b 1 := by
    intro st3 s13
    have l13 := s13.left
    obtain ⟨isCall, st4, e4, s4, _⟩ := Match_ok P TOKEN_LEFT_PAREN st3 s13.inv
    have s14 := s13.step_next s4
    have l14 := s14.left
    refine bind_returns (isCall, st4) e4 ?_
    cases isCall with
    | true =>
      obtain ⟨r, e5, s5⟩ := ParseArgumentList_ok P pp n fuel st4 hpp (by omega) (by omega)
        (s14.pre hp (by omega))
      obtain ⟨st6, e6, s6, _⟩ := (s14.step_next s5).thenEmitBytes OpCode.OP_INVOKE name
      obtain ⟨st7, e7, s7, _⟩ := s6.thenEmitByte r.1
      refine ⟨st7, ?_, s7.step_weaken (by omega)⟩
      simp only [if_true, e5, Option.some_bind, e6, e7]
    | false =>
      obtain ⟨st5, e5, s5, _⟩ := s14.thenEmitBytes OpCode.OP_GET_PROPERTY name
      exact ⟨st5, by simp only [Bool.false_eq_true, if_false, e5], s5.step_weaken (by omega)⟩
  cases canAssign with
  | false =>
    simp only [Bool.false_eq_true, if_false]
    exact tail st2 (s12.step_weaken (by omega))
  | true =>
    simp only [if_true]
    obtain ⟨isSet, st3, e3, s3, _⟩ := Match_ok P TOKEN_EQUAL st2 s12.inv
    have s13 := s12.step_next s3
    have l13 := s13.left
    refine bind_returns (isSet, st3) e3 ?_
    cases isSet with
    | true =>
      obtain ⟨st4, e4, s4, _⟩ := hpp PREC_ASSIGNMENT st3 (by decide) (s13.pre hp (by omega))
        (by omega)
      obtain ⟨st5, e5, s5, _⟩ := (s13.step_next s4).thenEmitBytes OpCode.OP_SET_PROPERTY name
      exact ⟨st5, by simp only [if_true, e4, Option.some_bind, e5], s5.step_weaken (by omega)⟩
    | false =>
      simp only [Bool.false_eq_true, if_false]
      exact tail st3 (s13.step_weaken (by omega))

theorem ParseLiteralExpression_ok (P : CompileBound) (canAssign : Bool) (st : CompileState)
    (hp : CompilePre P st 0) :
    ∃ st1, ParseLiteralExpression canAssign st = some st1 ∧ CompileStep P st st1 0 := by
  unfold ParseLiteralExpression
  split
  all_goals first
    | (obtain ⟨st2, e2, s2, _⟩ := (CompileStep.step_same hp.1).thenEmitByte _; exact ⟨st2, e2, s2⟩)
    | exact ⟨st, Eq.refl _, CompileStep.step_same hp.1⟩

theorem ParseGroupingExpression_ok (P : CompileBound) (pp : ParsePrecedenceFn) (n : Nat)
    (canAssign : Bool) (st : CompileState) (hpp : ParsesExpressions P pp n)
    (hn : tokensLeft st < n) (hp : CompilePre P st 0) :
    ∃ st1, ParseGroupingExpression pp canAssign st = some st1 ∧ CompileStep P st st1 0 := by
  unfold ParseGroupingExpression
  obtain ⟨st1, e1, s1, _⟩ := hpp PREC_ASSIGNMENT st (by decide) hp hn
  obtain ⟨st2, e2, s2, _⟩ := Consume_ok P TOKEN_RIGHT_PAREN
    (chars "Expected \x27)\x27 after expression.") st1 s1.inv
  refine ⟨st2, ?_, s1.step_next s2⟩
  simp only [Option.bind_eq_bind, e1, Option.some_bind, e2]

theorem ParseNumberExpression_ok (P : CompileBound) (canAssign : Bool) (st : CompileState)
    (hp : CompilePre P st 0) :
    ∃ st1, ParseNumberExpression P.env canAssign st = some st1 ∧ CompileStep P st st1 0 := by
  unfold ParseNumberExpression
  obtain ⟨st1, e1, s1⟩ := EmitConstant_step (P.env.strtod (st.textAt st.parser.Previous)) st
    hp.1.current
  exact ⟨st1, e1, s1.step hp.1⟩

theorem ParseAnd_ok (P : CompileBound) (pp : ParsePrecedenceFn) (n : Nat)
    (canAssign : Bool) (st : CompileState) (hpp : ParsesExpressions P pp n)
    (hn : tokensLeft st < n) (hp : CompilePre P st 0) :
    ∃ st1, ParseAnd_ pp canAssign st = some st1 ∧ CompileStep P st st1 0 := by
  unfold ParseAnd_
  obtain ⟨o, st1, e1, s1, ho⟩ := EmitJump_step OpCode.OP_JUMP_IF_FALSE st hp.1.current
  obtain ⟨st2, e2, s2, l2⟩ := (s1.step hp.1).thenEmitByte OpCode.OP_POP
  have l1 := s1.left
  obtain ⟨st3, e3, s3, _⟩ := hpp PREC_AND st2 (by decide) (s2.pre hp (by omega)) (by omega)
  have hcode : o + 2 ≤ st3.code.length := by
    have a := s3.step_code_le
    have b := (keptChain_code (s2.shape) : st.code.length ≤ st2.code.length)
    obtain ⟨st2', e2', s2'⟩ := EmitByte_step OpCode.OP_POP st1 (s1.current_ne hp.1.current)
    rw [e2] at e2'
    cases e2'
    have c := s2'.err_code_le
    omega
  obtain ⟨st4, e4, s4⟩ := PatchJump_step o st3 s3.inv.current hcode
  refine ⟨st4, ?_, (s2.step_next s3).step_next (s4.step s3.inv)⟩
  simp only [Option.bind_eq_bind, e1, Option.some_bind, e2, e3, e4]

theorem ParseOr_ok (P : CompileBound) (pp : ParsePrecedenceFn) (n : Nat)
    (canAssign : Bool) (st : CompileState) (hpp : ParsesExpressions P pp n)
    (hn : tokensLeft st < n) (hp : CompilePre P st 0) :
    ∃ st1, ParseOr_ pp canAssign st = some st1 ∧ CompileStep P st st1 0 := by
  unfold ParseOr_
  have hc := hp.1.current
  obtain ⟨o1, st1, e1, s1, ho1⟩ := EmitJump_step OpCode.OP_JUMP_IF_FALSE st hc
  have hc1 := s1.current_ne hc
  obtain ⟨o2, st2, e2, s2, ho2⟩ := EmitJump_step OpCode.OP_JUMP st1 hc1
  have hc2 := s2.current_ne hc1
  obtain ⟨st3, e3, s3⟩ := PatchJump_step o1 st2 hc2 (by have := s2.err_code_le; omega)
  have hc3 := s3.current_ne hc2
  obtain ⟨st4, e4, s4⟩ := EmitByte_step OpCode.OP_POP st3 hc3
  have s04 : ErrStep st st4 := ((s1.err_next s2).err_next s3).err_next s4
  have c04 := s04.step hp.1
  have l4 := s04.left
  obtain ⟨st5, e5, s5, _⟩ := hpp PREC_OR st4 (by decide) (c04.pre hp (by omega)) (by omega)
  obtain ⟨st6, e6, s6⟩ := PatchJump_step o2 st5 s5.inv.current (by
    have := s5.step_code_le
    have := s4.err_code_le
    have := s3.err_code_le
    omega)
  refine ⟨st6, ?_, (c04.step_next s5).step_next (s6.step s5.inv)⟩
  simp only [Option.bind_eq_bind, e1, Option.some_bind, e2, e3, e4, e5, e6]

theorem ParseStringExpression_ok (P : CompileBound) (canAssign : Bool) (st : CompileState)
    (hp : CompilePre P st 1) :
    ∃ st1, ParseStringExpression P.env canAssign st = some st1 ∧ CompileStep P st st1 1 := by
  unfold ParseStringExpression
  obtain ⟨s, st1, e1, s1, _⟩ := CopyStringAt_ok P st ((st.textAt st.parser.Previous).drop 1)
    (st.parser.Previous.Length - 2) hp (by
      have := TokOK_read hp.1.prev
      unfold CompileState.textAt
      rw [hp.1.source, List.length_drop]
      omega)
  obtain ⟨st2, e2, s2⟩ := EmitConstant_step (OBJ_VAL s) st1 s1.inv.current
  refine ⟨st2, ?_, s1.step_next (s2.step s1.inv)⟩
  simp only [Option.bind_eq_bind, e1, Option.some_bind, e2]

theorem AddUpValue_current (c : Compiler) (index : Nat) (isLocal : Bool) (st : CompileState) :
    (AddUpValue c index isLocal st).2.2.current = st.current := by
  unfold AddUpValue
  split
  · rfl
  · split
    · unfold Error; rw [ErrorAt_current]
    · rfl

theorem ResolveLocal_current (c : Compiler) (name : Token) (st : CompileState) :
    (ResolveLocal c name st).2.current = st.current := by
  unfold ResolveLocal
  split
  · rfl
  · dsimp only
    split
    · unfold Error; rw [ErrorAt_current]
    · rfl

theorem ResolveUpValue_current (name : Token) : ∀ (chain : List Compiler) (st : CompileState),
    (ResolveUpValue name chain st).2.2.current = st.current := by
  intro chain
  induction chain with
  | nil => intro st; unfold ResolveUpValue; rfl
  | cons compiler chain ih =>
    intro st
    unfold ResolveUpValue
    cases chain with
    | nil => rfl
    | cons enclosing rest =>
      dsimp only
      split
      · rw [AddUpValue_current, ResolveLocal_current]
      · split
        · rw [AddUpValue_current, ih, ResolveLocal_current]
        · dsimp only
          rw [ih, ResolveLocal_current]

theorem NamedVariable_ok (P : CompileBound) (pp : ParsePrecedenceFn) (n : Nat) (name : Token)
    (canAssign : Bool) (st : CompileState) (hpp : ParsesExpressions P pp n)
    (hn : tokensLeft st < n) (hp : CompilePre P st 1) (hname : TokOK P.src name) :
    ∃ st1, NamedVariable P.env pp name canAssign st = some st1 ∧ CompileStep P st st1 1 := by
  unfold NamedVariable
  obtain ⟨c, cs, hc⟩ := List.exists_cons_of_ne_nil hp.1.current
  rw [hc]
  dsimp only
  have hl := ResolveLocal_step c name st
  have hu := ResolveUpValue_step name (ResolveLocal c name st).2.current (ResolveLocal c name st).2
  have hchain : ErrStep st
      { (ResolveUpValue name (ResolveLocal c name st).2.current (ResolveLocal c name st).2).2.2 with
        current :=
          (ResolveUpValue name (ResolveLocal c name st).2.current
            (ResolveLocal c name st).2).2.1 } := by
    refine ErrStep.chain (hl.err_next hu.2) _ ?_
    have hcur : (ResolveUpValue name (ResolveLocal c name st).2.current
        (ResolveLocal c name st).2).2.2.current = (ResolveLocal c name st).2.current := by
      have h1 := hu.2.shape
      exact ResolveUpValue_current name _ _
    rw [hcur]
    exact hu.1
  have h1 : ∃ r, (if (ResolveLocal c name st).1 ≠ -1 then
        some (OpCode.OP_GET_LOCAL, OpCode.OP_SET_LOCAL, (ResolveLocal c name st).1.toNat,
          (ResolveLocal c name st).2)
      else
        if (ResolveUpValue name (ResolveLocal c name st).2.current
            (ResolveLocal c name st).2).1 ≠ -1 then
          some (OpCode.OP_GET_UPVALUE, OpCode.OP_SET_UPVALUE,
            (ResolveUpValue name (ResolveLocal c name st).2.current
              (ResolveLocal c name st).2).1.toNat,
            { (ResolveUpValue name (ResolveLocal c name st).2.current
                (ResolveLocal c name st).2).2.2 with
              current := (ResolveUpValue name (ResolveLocal c name st).2.current
                (ResolveLocal c name st).2).2.1 })
        else
          (IdentifierConstant P.env name
            { (ResolveUpValue name (ResolveLocal c name st).2.current
                (ResolveLocal c name st).2).2.2 with
              current := (ResolveUpValue name (ResolveLocal c name st).2.current
                (ResolveLocal c name st).2).2.1 }).map
            (fun k => (OpCode.OP_GET_GLOBAL, OpCode.OP_SET_GLOBAL, k.1, k.2))) = some r ∧
      CompileStep P st r.2.2.2 1 := by
    split
    · exact ⟨_, Eq.refl _, (hl.step hp.1).step_weaken (by omega)⟩
    · split
      · exact ⟨_, Eq.refl _, (hchain.step hp.1).step_weaken (by omega)⟩
      · have c1 := hchain.step hp.1
        obtain ⟨k, st2, e2, s2⟩ := IdentifierConstant_ok P name _ (c1.pre hp (by omega)) hname
        rw [e2]
        exact ⟨_, Eq.refl _, (c1.step_next s2).step_weaken (by omega)⟩
  obtain ⟨⟨getOp, setOp, arg, st1⟩, e1, s1⟩ := h1
  rw [e1]
  dsimp only at s1 ⊢
  obtain ⟨b, st2, e2, s2, _⟩ := MatchIf_ok P canAssign TOKEN_EQUAL st1 s1.inv
  rw [e2]
  have s12 := s1.step_next s2
  have l12 := s12.left
  cases b with
  | true =>
    dsimp only
    obtain ⟨st3, e3, s3, _⟩ := hpp PREC_ASSIGNMENT st2 (by decide) (s12.pre hp (by omega))
      (by omega)
    obtain ⟨st4, e4, s4, _⟩ := (s12.step_next s3).thenEmitBytes setOp arg
    exact ⟨st4, by rw [e3]; exact e4, s4.step_weaken (by omega)⟩
  | false =>
    dsimp only
    obtain ⟨st4, e4, s4, _⟩ := s12.thenEmitBytes getOp arg
    exact ⟨st4, e4, s4.step_weaken (by omega)⟩

theorem ParseVariableExpression_ok (P : CompileBound) (pp : ParsePrecedenceFn) (n : Nat)
    (canAssign : Bool) (st : CompileState) (hpp : ParsesExpressions P pp n)
    (hn : tokensLeft st < n) (hp : CompilePre P st 1) :
    ∃ st1, ParseVariableExpression P.env pp canAssign st = some st1 ∧
      CompileStep P st st1 1 :=
  NamedVariable_ok P pp n st.parser.Previous canAssign st hpp hn hp hp.1.prev

theorem ParseThisExpression_ok (P : CompileBound) (pp : ParsePrecedenceFn) (n : Nat)
    (canAssign : Bool) (st : CompileState) (hpp : ParsesExpressions P pp n)
    (hn : tokensLeft st < n) (hp : CompilePre P st 1) :
    ∃ st1, ParseThisExpression P.env pp canAssign st = some st1 ∧ CompileStep P st st1 1 := by
  unfold ParseThisExpression
  split
  · exact ⟨_, Eq.refl _, ((Error_step _ st).step hp.1).step_weaken (by omega)⟩
  · exact ParseVariableExpression_ok P pp n false st hpp hn hp

theorem ParseUnaryExpression_ok (P : CompileBound) (pp : ParsePrecedenceFn) (n : Nat)
    (canAssign : Bool) (st : CompileState) (hpp : ParsesExpressions P pp n)
    (hn : tokensLeft st < n) (hp : CompilePre P st 0) :
    ∃ st1, ParseUnaryExpression pp canAssign st = some st1 ∧ CompileStep P st st1 0 := by
  unfold ParseUnaryExpression
  obtain ⟨st1, e1, s1, _⟩ := hpp PREC_UNARY st (by decide) hp hn
  simp only [Option.bind_eq_bind, e1, Option.some_bind]
  split
  all_goals first
    | (obtain ⟨st2, e2, s2, _⟩ := s1.thenEmitByte _; exact ⟨st2, e2, s2⟩)
    | exact ⟨st1, Eq.refl _, s1⟩

theorem ParseSuperExpression_ok (P : CompileBound) (pp : ParsePrecedenceFn) (n fuel : Nat)
    (canAssign : Bool) (st : CompileState) (hpp : ParsesExpressions P pp n)
    (hn : tokensLeft st < n) (hf : tokensLeft st < fuel) (hp : CompilePre P st 3) :
    ∃ st1, ParseSuperExpression P.env pp fuel canAssign st = some st1 ∧
      CompileStep P st st1 3 := by
  unfold ParseSuperExpression
  cases hcc : st.currentClass with
  | nil =>
    simp only [Option.bind_eq_bind]
    have h0 : ErrStep st (Error (chars "Can\x27t use \x27super\x27 outside of a class.") st) :=
      Error_step _ _
    have s0 := h0.step hp.1
    obtain ⟨st1, e1, s1, _⟩ := Consume_ok P TOKEN_DOT
      (chars "Expected \x27.\x27 after \x27super\x27.") _ s0.inv
    obtain ⟨st2, e2, s2, _⟩ := Consume_ok P TOKEN_IDENTIFIER
      (chars "Expected superclass method name.") st1 s1.inv
    have s02 := (s0.step_next s1).step_next s2
    obtain ⟨name, st3, e3, s3⟩ := IdentifierConstant_ok P st2.parser.Previous st2
      (s02.pre hp (by omega)) s2.inv.prev
    have s03 := s02.step_next s3
    have l03 := s03.left
    obtain ⟨st4, e4, s4⟩ := NamedVariable_ok P pp n (SyntheticToken (chars "this")) false st3 hpp
      (by omega) (s03.pre hp (by omega)) (TokOK_synthetic _ _)
    have s04 := s03.step_next s4
    obtain ⟨isCall, st5, e5, s5, _⟩ := Match_ok P TOKEN_LEFT_PAREN st4 s4.inv
    have s05 := s04.step_next s5
    have l05 := s05.left
    refine bind_returns st1 e1 ?_
    refine bind_returns st2 e2 ?_
    refine bind_returns (name, st3) e3 ?_
    refine bind_returns st4 e4 ?_
    refine bind_returns (isCall, st5) e5 ?_
    cases isCall with
    | true =>
      obtain ⟨r, e6, s6⟩ := ParseArgumentList_ok P pp n fuel st5 hpp (by omega) (by omega)
        (s05.pre hp (by omega))
      have s06 := s05.step_next s6
      have l06 := s06.left
      obtain ⟨st7, e7, s7⟩ := NamedVariable_ok P pp n (SyntheticToken (chars "super")) false r.2
        hpp (by omega) (s06.pre hp (by omega)) (TokOK_synthetic _ _)
      obtain ⟨st8, e8, s8, _⟩ := (s06.step_next s7).thenEmitBytes OpCode.OP_SUPER_INVOKE name
      obtain ⟨st9, e9, s9, _⟩ := s8.thenEmitByte r.1
      refine ⟨st9, ?_, s9.step_weaken (by omega)⟩
      simp only [if_true, e6, Option.some_bind, e7, e8, e9]
    | false =>
      obtain ⟨st6, e6, s6⟩ := NamedVariable_ok P pp n (SyntheticToken (chars "super")) false st5
        hpp (by omega) (s05.pre hp (by omega)) (TokOK_synthetic _ _)
      obtain ⟨st7, e7, s7, _⟩ := (s05.step_next s6).thenEmitBytes OpCode.OP_GET_SUPER name
      refine ⟨st7, ?_, s7.step_weaken (by omega)⟩
      simp only [Bool.false_eq_true, if_false, e6, Option.some_bind, e7]
  | cons k ks =>
    by_cases hk : ¬ k.HasSuperClass = true
    · simp only [Option.bind_eq_bind, if_pos hk]
      have h0 : ErrStep st
          (Error (chars "Can\x27t use \x27super\x27 in a class with no superclass.") st) :=
        Error_step _ _
      have s0 := h0.step hp.1
      obtain ⟨st1, e1, s1, _⟩ := Consume_ok P TOKEN_DOT
        (chars "Expected \x27.\x27 after \x27super\x27.") _ s0.inv
      obtain ⟨st2, e2, s2, _⟩ := Consume_ok P TOKEN_IDENTIFIER
        (chars "Expected superclass method name.") st1 s1.inv
      have s02 := (s0.step_next s1).step_next s2
      obtain ⟨name, st3, e3, s3⟩ := IdentifierConstant_ok P st2.parser.Previous st2
        (s02.pre hp (by omega)) s2.inv.prev
      have s03 := s02.step_next s3
      have l03 := s03.left
      obtain ⟨st4, e4, s4⟩ := NamedVariable_ok P pp n (SyntheticToken (chars "this")) false st3 hpp
        (by omega) (s03.pre hp (by omega)) (TokOK_synthetic _ _)
      have s04 := s03.step_next s4
      obtain ⟨isCall, st5, e5, s5, _⟩ := Match_ok P TOKEN_LEFT_PAREN st4 s4.inv
      have s05 := s04.step_next s5
      have l05 := s05.left
      refine bind_returns st1 e1 ?_
      refine bind_returns st2 e2 ?_
      refine bind_returns (name, st3) e3 ?_
      refine bind_returns st4 e4 ?_
      refine bind_returns (isCall, st5) e5 ?_
      cases isCall with
      | true =>
        obtain ⟨r, e6, s6⟩ := ParseArgumentList_ok P pp n fuel st5 hpp (by omega) (by omega)
          (s05.pre hp (by omega))
        have s06 := s05.step_next s6
        have l06 := s06.left
        obtain ⟨st7, e7, s7⟩ := NamedVariable_ok P pp n (SyntheticToken (chars "super")) false r.2
          hpp (by omega) (s06.pre hp (by omega)) (TokOK_synthetic _ _)
        obtain ⟨st8, e8, s8, _⟩ := (s06.step_next s7).thenEmitBytes OpCode.OP_SUPER_INVOKE name
        obtain ⟨st9, e9, s9, _⟩ := s8.thenEmitByte r.1
        refine ⟨st9, ?_, s9.step_weaken (by omega)⟩
        simp only [if_true, e6, Option.some_bind, e7, e8, e9]
      | false =>
        obtain ⟨st6, e6, s6⟩ := NamedVariable_ok P pp n (SyntheticToken (chars "super")) false st5
          hpp (by omega) (s05.pre hp (by omega)) (TokOK_synthetic _ _)
        obtain ⟨st7, e7, s7, _⟩ := (s05.step_next s6).thenEmitBytes OpCode.OP_GET_SUPER name
        refine ⟨st7, ?_, s7.step_weaken (by omega)⟩
        simp only [Bool.false_eq_true, if_false, e6, Option.some_bind, e7]
    · simp only [Option.bind_eq_bind, if_neg hk]
      have h0 : ErrStep st st := ErrStep.err_same st
      have s0 := h0.step hp.1
      obtain ⟨st1, e1, s1, _⟩ := Consume_ok P TOKEN_DOT
        (chars "Expected \x27.\x27 after \x27super\x27.") _ s0.inv
      obtain ⟨st2, e2, s2, _⟩ := Consume_ok P TOKEN_IDENTIFIER
        (chars "Expected superclass method name.") st1 s1.inv
      have s02 := (s0.step_next s1).step_next s2
      obtain ⟨name, st3, e3, s3⟩ := IdentifierConstant_ok P st2.parser.Previous st2
        (s02.pre hp (by omega)) s2.inv.prev
      have s03 := s02.step_next s3
      have l03 := s03.left
      obtain ⟨st4, e4, s4⟩ := NamedVariable_ok P pp n (SyntheticToken (chars "this")) false st3 hpp
        (by omega) (s03.pre hp (by omega)) (TokOK_synthetic _ _)
      have s04 := s03.step_next s4
      obtain ⟨isCall, st5, e5, s5, _⟩ := Match_ok P TOKEN_LEFT_PAREN st4 s4.inv
      have s05 := s04.step_next s5
      have l05 := s05.left
      refine bind_returns st1 e1 ?_
      refine bind_returns st2 e2 ?_
      refine bind_returns (name, st3) e3 ?_
      refine bind_returns st4 e4 ?_
      refine bind_returns (isCall, st5) e5 ?_
      cases isCall with
      | true =>
        obtain ⟨r, e6, s6⟩ := ParseArgumentList_ok P pp n fuel st5 hpp (by omega) (by omega)
          (s05.pre hp (by omega))
        have s06 := s05.step_next s6
        have l06 := s06.left
        obtain ⟨st7, e7, s7⟩ := NamedVariable_ok P pp n (SyntheticToken (chars "super")) false r.2
          hpp (by omega) (s06.pre hp (by omega)) (TokOK_synthetic _ _)
        obtain ⟨st8, e8, s8, _⟩ := (s06.step_next s7).thenEmitBytes OpCode.OP_SUPER_INVOKE name
        obtain ⟨st9, e9, s9, _⟩ := s8.thenEmitByte r.1
        refine ⟨st9, ?_, s9.step_weaken (by omega)⟩
        simp only [if_true, e6, Option.some_bind, e7, e8, e9]
      | false =>
        obtain ⟨st6, e6, s6⟩ := NamedVariable_ok P pp n (SyntheticToken (chars "super")) false st5
          hpp (by omega) (s05.pre hp (by omega)) (TokOK_synthetic _ _)
        obtain ⟨st7, e7, s7, _⟩ := (s05.step_next s6).thenEmitBytes OpCode.OP_GET_SUPER name
        refine ⟨st7, ?_, s7.step_weaken (by omega)⟩
        simp only [Bool.false_eq_true, if_false, e6, Option.some_bind, e7]

/-- Every parse function a rule can point to returns. -/
theorem callParseFunction_ok (P : CompileBound) (pp : ParsePrecedenceFn) (n fuel : Nat)
    (rule : ParseFunction) (canAssign : Bool) (st : CompileState)
    (hpp : ParsesExpressions P pp n) (hn : tokensLeft st < n) (hf : tokensLeft st < fuel)
    (hp : CompilePre P st 3) :
    ∃ st1, callParseFunction P.env pp fuel rule canAssign st = some st1 ∧
      CompileStep P st st1 3 := by
  have hp0 : CompilePre P st 0 := hp.pre_weaken (by omega)
  have hp1 : CompilePre P st 1 := hp.pre_weaken (by omega)
  have up : ∀ {k : Nat} {r : Option CompileState}, k ≤ 3 →
      (∃ st1, r = some st1 ∧ CompileStep P st st1 k) →
      ∃ st1, r = some st1 ∧ CompileStep P st st1 3 := by
    intro k r hk h
    obtain ⟨st1, e, s⟩ := h
    exact ⟨st1, e, s.step_weaken hk⟩
  cases rule with
  | ParseGroupingExpression =>
    exact up (by omega) (ParseGroupingExpression_ok P pp n canAssign st hpp hn hp0)
  | ParseCallExpression =>
    exact up (by omega) (ParseCallExpression_ok P pp n fuel canAssign st hpp hn hf hp0)
  | ParseDotExpression =>
    exact up (by omega) (ParseDotExpression_ok P pp n fuel canAssign st hpp hn hf hp1)
  | ParseUnaryExpression =>
    exact up (by omega) (ParseUnaryExpression_ok P pp n canAssign st hpp hn hp0)
  | ParseBinaryExpression =>
    exact up (by omega) (ParseBinaryExpression_ok P pp n canAssign st hpp hn hp0)
  | ParseVariableExpression =>
    exact up (by omega) (ParseVariableExpression_ok P pp n canAssign st hpp hn hp1)
  | ParseStringExpression =>
    exact up (by omega) (ParseStringExpression_ok P canAssign st hp1)
  | ParseNumberExpression =>
    exact up (by omega) (ParseNumberExpression_ok P canAssign st hp0)
  | ParseAnd_ => exact up (by omega) (ParseAnd_ok P pp n canAssign st hpp hn hp0)
  | ParseOr_ => exact up (by omega) (ParseOr_ok P pp n canAssign st hpp hn hp0)
  | ParseLiteralExpression =>
    exact up (by omega) (ParseLiteralExpression_ok P canAssign st hp0)
  | ParseSuperExpression =>
    exact ParseSuperExpression_ok P pp n fuel canAssign st hpp hn hf hp
  | ParseThisExpression =>
    exact up (by omega) (ParseThisExpression_ok P pp n canAssign st hpp hn hp1)

theorem GetRule_inside (t : TokenType) (h : 1 ≤ (GetRule t).Precedence) :
    ∃ r, (GetRule t).Infix = some r ∧ t ≠ TOKEN_EOF := by
  cases t <;> first
    | exact ⟨_, Eq.refl _, by decide⟩
    | exact absurd h (by decide)

theorem CompileStep.paid {P : CompileBound} {a b c : CompileState} {k : Nat}
    (h1 : CompileStep P a b 0) (hpay : potential b + 32 ≤ potential a)
    (h2 : CompileStep P b c k) (hk : k ≤ 16) : CompileStep P a c 0 :=
  h1.repaid (by omega) h2 hk

theorem ParseInfixLoop_ok (P : CompileBound) (pp : ParsePrecedenceFn) (n fuel : Nat)
    (precedence : Precedence) (canAssign : Bool) (hpp : ParsesExpressions P pp n)
    (hprec : 1 ≤ precedence) : ∀ (k : Nat) (st : CompileState),
    tokensLeft st < n → tokensLeft st < fuel → tokensLeft st < k → CompilePre P st 0 →
    ∃ st1, ParseInfixLoop P.env pp precedence canAssign fuel k st = some st1 ∧
      CompileStep P st st1 0 := by
  intro k
  induction k with
  | zero => intro st _ _ h; omega
  | succ m ih =>
    intro st hn hf hk hp
    unfold ParseInfixLoop
    by_cases hc : precedence ≤ (GetRule st.parser.Current.Type_).Precedence
    · rw [if_pos hc]
      obtain ⟨rule, hrule, hne⟩ := GetRule_inside st.parser.Current.Type_ (Nat.le_trans hprec hc)
      obtain ⟨st1, e1, s1, hprev, _, hused⟩ := Advance_ok P st hp.1
      obtain ⟨hl1, hpay⟩ := hused hne
      rw [e1]
      dsimp only
      rw [hprev, hrule]
      dsimp only
      obtain ⟨st2, e2, s2⟩ := callParseFunction_ok P pp n fuel rule canAssign st1 hpp (by omega)
        (by omega) ⟨s1.inv, by have := hp.2; omega⟩
      rw [e2]
      dsimp only
      have s12 := s1.paid hpay s2 (by omega)
      have l12 := s2.left
      obtain ⟨st3, e3, s3⟩ := ih st2 (by omega) (by omega) (by omega) (s12.pre hp (by omega))
      exact ⟨st3, e3, s12.step_next s3⟩
    · rw [if_neg hc]
      exact ⟨st, Eq.refl _, CompileStep.step_same hp.1⟩

theorem ParsePrecedenceBody_ok (P : CompileBound) (pp : ParsePrecedenceFn) (n fuel : Nat)
    (precedence : Precedence) (st : CompileState) (hpp : ParsesExpressions P pp n)
    (hprec : 1 ≤ precedence) (hn : tokensLeft st ≤ n) (hf : tokensLeft st ≤ fuel)
    (hp : CompilePre P st 0) :
    ∃ st1, ParsePrecedenceBody P.env pp fuel precedence st = some st1 ∧
      CompileStep P st st1 0 ∧ (0 < tokensLeft st → tokensLeft st1 < tokensLeft st) := by
  unfold ParsePrecedenceBody
  obtain ⟨st1, e1, s1, hprev, _, hused⟩ := Advance_ok P st hp.1
  simp only [Option.bind_eq_bind, e1, Option.some_bind]
  rw [hprev]
  cases hrule : (GetRule st.parser.Current.Type_).Prefix with
  | none =>
    dsimp only
    refine ⟨_, Eq.refl _, s1.step_next ((Error_step _ st1).step s1.inv), fun hpos => ?_⟩
    have := (hused (fun h => by rw [tokensLeft_zero h] at hpos; omega)).1
    rw [(Error_step (chars "Expected expression.") st1).left]
    exact this
  | some rule =>
    dsimp only
    have hne : st.parser.Current.Type_ ≠ TOKEN_EOF := by
      intro h
      rw [h] at hrule
      cases hrule
    obtain ⟨hl1, hpay⟩ := hused hne
    obtain ⟨st2, e2, s2⟩ := callParseFunction_ok P pp n fuel rule
      (decide (precedence ≤ PREC_ASSIGNMENT)) st1 hpp (by omega) (by omega)
      ⟨s1.inv, by have := hp.2; omega⟩
    have s12 := s1.paid hpay s2 (by omega)
    have l12 := s2.left
    obtain ⟨st3, e3, s3⟩ := ParseInfixLoop_ok P pp n fuel precedence
      (decide (precedence ≤ PREC_ASSIGNMENT)) hpp hprec fuel st2 (by omega) (by omega) (by omega)
      (s12.pre hp (by omega))
    have s13 := s12.step_next s3
    have l13 := s3.left
    refine bind_returns st2 e2 ?_
    refine bind_returns st3 e3 ?_
    by_cases hca : decide (precedence ≤ PREC_ASSIGNMENT) = true
    · simp only [hca, if_true]
      obtain ⟨b, st4, e4, s4, _⟩ := Match_ok P TOKEN_EQUAL st3 s3.inv
      have l4 := s4.left
      refine bind_returns (b, st4) e4 ?_
      cases b with
      | true =>
        refine ⟨Error (chars "Invalid assignment target.") st4, by simp only [if_true],
          (s13.step_next s4).step_next ((Error_step _ st4).step s4.inv), fun _ => ?_⟩
        rw [(Error_step (chars "Invalid assignment target.") st4).left]
        omega
      | false =>
        exact ⟨st4, by simp only [Bool.false_eq_true, if_false], s13.step_next s4, fun _ => by omega⟩
    · simp only [hca, Bool.false_eq_true, if_false, Option.some_bind]
      exact ⟨st3, Eq.refl _, s13, fun _ => by omega⟩

/-- Function `ParsePrecedence` returns on every state that has fewer tokens left
than the fuel. -/
theorem ParsePrecedence_ok (P : CompileBound) : ∀ fuel : Nat,
    ParsesExpressions P (ParsePrecedence P.env fuel) fuel := by
  intro fuel
  induction fuel with
  | zero => intro prec st _ _ h; omega
  | succ k ih =>
    intro prec st hprec hp hn
    rw [ParsePrecedence_succ]
    exact ParsePrecedenceBody_ok P (ParsePrecedence P.env k) k (k + 1) prec st ih hprec
      (by omega) (by omega) hp

theorem ParsesExpressions.mono {P : CompileBound} {pp : ParsePrecedenceFn} {n m : Nat}
    (h : ParsesExpressions P pp n) (hm : m ≤ n) : ParsesExpressions P pp m :=
  fun prec st hprec hp hn => h prec st hprec hp (by omega)

theorem ParseExpression_ok (P : CompileBound) (fuel : Nat) (st : CompileState)
    (hf : tokensLeft st < fuel) (hp : CompilePre P st 0) :
    ∃ st1, ParseExpression P.env fuel st = some st1 ∧ CompileStep P st st1 0 ∧
      (0 < tokensLeft st → tokensLeft st1 < tokensLeft st) :=
  ParsePrecedence_ok P fuel PREC_ASSIGNMENT st (by decide) hp hf

/-! ### Statements -/

theorem ite_bind_eq {α β : Type} (c : Prop) [Decidable c] (a b : Option α)
    (k : α → Option β) :
    (if c then a.bind k else b.bind k) = (if c then a else b).bind k := by
  split <;> rfl

theorem ParseBlockLoop_ok (P : CompileBound) (decl : ParseStatementFn) (nd : Nat)
    (hd : ParsesStatements P decl nd) : ∀ (k : Nat) (st : CompileState),
    tokensLeft st < nd → tokensLeft st < k → CompilePre P st 0 →
    ∃ st1, ParseBlockLoop decl k st = some st1 ∧ CompileStep P st st1 0 ∧
      (tokensLeft st1 < tokensLeft st ∨
        (st.parser.Current.Type_ = TOKEN_RIGHT_BRACE ∧ st1 = st) ∨ tokensLeft st = 0) := by
  intro k
  induction k with
  | zero => intro st _ h; omega
  | succ m ih =>
    intro st hn hk hp
    unfold ParseBlockLoop
    by_cases hc : ¬ Check TOKEN_RIGHT_BRACE st = true ∧ ¬ Check TOKEN_EOF st = true
    · rw [if_pos hc]
      have hne : st.parser.Current.Type_ ≠ TOKEN_EOF := by
        intro h
        apply hc.2
        unfold Check
        simp [h]
      have hpos := tokensLeft_pos hp.1 hne
      obtain ⟨st1, e1, s1, h1⟩ := hd st hp hn
      have hl := h1 hpos
      obtain ⟨st2, e2, s2, _⟩ := ih st1 (by omega) (by omega) (s1.pre hp (by omega))
      have l2 := s2.left
      rw [e1]
      exact ⟨st2, e2, s1.step_next s2, Or.inl (by omega)⟩
    · rw [if_neg hc]
      refine ⟨st, Eq.refl _, CompileStep.step_same hp.1, Or.inr ?_⟩
      by_cases he : st.parser.Current.Type_ = TOKEN_EOF
      · exact Or.inr (tokensLeft_zero he)
      · refine Or.inl ⟨?_, Eq.refl _⟩
        by_contra hb
        apply hc
        unfold Check
        simp [hb, he]

theorem ParseBlock_ok (P : CompileBound) (decl : ParseStatementFn) (nd fuel : Nat)
    (st : CompileState) (hd : ParsesStatements P decl nd) (hn : tokensLeft st < nd)
    (hf : tokensLeft st < fuel) (hp : CompilePre P st 0) :
    ∃ st1, ParseBlock decl fuel st = some st1 ∧ CompileStep P st st1 0 ∧
      (0 < tokensLeft st → tokensLeft st1 < tokensLeft st) := by
  unfold ParseBlock
  obtain ⟨st1, e1, s1, h1⟩ := ParseBlockLoop_ok P decl nd hd fuel st hn hf hp
  obtain ⟨st2, e2, s2, h2⟩ := Consume_ok P TOKEN_RIGHT_BRACE
    (chars "Expected \x27\x7d\x27 after block.") st1 s1.inv
  rw [e1]
  refine ⟨st2, e2, s1.step_next s2, fun hpos => ?_⟩
  have l2 := s2.left
  rcases h1 with h | ⟨hb, hst⟩ | h
  · omega
  · subst hst
    exact h2 hb (by decide)
  · omega

theorem ParseParameter_ok (P : CompileBound) (st : CompileState) (hp : CompilePre P st 1) :
    ∃ b st1, ParseParameter P.env st = some (b, st1) ∧ CompileStep P st st1 1 ∧
      (b = true → tokensLeft st1 < tokensLeft st ∧ potential st1 + 32 ≤ potential st + 1) := by
  unfold ParseParameter
  obtain ⟨c, cs, hc⟩ := List.exists_cons_of_ne_nil hp.1.current
  rw [hc]
  dsimp only
  have h1 : ErrStep st { st with
      current := { c with Function := { c.Function with Arity := c.Function.Arity + 1 } } :: cs } :=
    ErrStep.head hc ⟨Eq.refl _, Eq.refl _, Eq.refl _, Nat.le_refl _⟩
  have h2 : ErrStep st (if c.Function.Arity + 1 > 255 then
      ErrorAtCurrent (chars "Can\x27t have more than 255 function parameters.")
        { st with current :=
          { c with Function := { c.Function with Arity := c.Function.Arity + 1 } } :: cs }
      else { st with current :=
          { c with Function := { c.Function with Arity := c.Function.Arity + 1 } } :: cs }) :=
    h1.err_next (ErrStep.ite _ (ErrorAtCurrent_step _ _) (ErrStep.err_same _))
  have s2 := h2.step hp.1
  obtain ⟨k, st3, e3, s3⟩ := ParseVariable_ok P (chars "Expected function parameter name.") _
    (s2.pre hp (by omega))
  rw [e3]
  dsimp only
  obtain ⟨st4, e4, s4⟩ := DefineVariable_step k st3 s3.inv.current
  obtain ⟨b, st5, e5, s5, _, h5⟩ := Match_ok P TOKEN_COMMA st4 (s4.err_inv s3.inv)
  rw [e4]
  have s05 := ((s2.step_next s3).step_next (s4.step s3.inv)).step_next s5
  refine ⟨b, st5, e5, s05.step_weaken (by omega), fun hb => ?_⟩
  obtain ⟨_, _, _, h6⟩ := h5 hb
  obtain ⟨hl, hpay⟩ := h6 (by decide)
  have l4 := ((s2.step_next s3).step_next (s4.step s3.inv)).left
  have c4 := ((s2.step_next s3).step_next (s4.step s3.inv)).cost
  exact ⟨by omega, by omega⟩

theorem ParseParametersLoop_ok (P : CompileBound) : ∀ (k : Nat) (st : CompileState),
    tokensLeft st < k → CompilePre P st 1 →
    ∃ st1, ParseParametersLoop P.env k st = some st1 ∧ CompileStep P st st1 1 := by
  intro k
  induction k with
  | zero => intro st h; omega
  | succ m ih =>
    intro st hk hp
    unfold ParseParametersLoop
    obtain ⟨b, st1, e1, s1, h1⟩ := ParseParameter_ok P st hp
    rw [e1]
    cases b with
    | false => exact ⟨st1, Eq.refl _, s1⟩
    | true =>
      dsimp only
      obtain ⟨hl, hpay⟩ := h1 (Eq.refl _)
      obtain ⟨st2, e2, s2⟩ := ih st1 (by omega) ⟨s1.inv, by have := hp.2; omega⟩
      exact ⟨st2, e2, s1.repaid hpay s2 (by omega)⟩

theorem EmitUpValues_step : ∀ (us : List UpValue) (st : CompileState), st.current ≠ [] →
    ∃ st1, EmitUpValues us st = some st1 ∧ ErrStep st st1 := by
  intro us
  induction us with
  | nil => intro st _; exact ⟨st, Eq.refl _, ErrStep.err_same st⟩
  | cons u us ih =>
    intro st h
    unfold EmitUpValues
    obtain ⟨st1, e1, s1⟩ := EmitByte_step (if u.IsLocal = true then 1 else 0) st h
    obtain ⟨st2, e2, s2⟩ := EmitByte_step u.Index st1 (s1.current_ne h)
    obtain ⟨st3, e3, s3⟩ := ih st2 (s2.current_ne (s1.current_ne h))
    rw [e1, Option.some_bind, e2, Option.some_bind]
    exact ⟨st3, e3, (s1.err_next s2).err_next s3⟩

theorem InitCompiler_ok (P : CompileBound) (type : FunctionType) (st : CompileState)
    (hp : CompilePre P st 2) :
    ∃ st1 c0, InitCompiler P.env type st = some st1 ∧ CompileInv P st1 ∧
      st1.current = c0 :: st.current ∧ st1.currentClass = st.currentClass ∧
      tokensLeft st1 = tokensLeft st ∧ potential st1 ≤ potential st + 2 := by
  unfold InitCompiler
  obtain ⟨st1, e1, s1, hc1, hp1, hs1, _, _⟩ := NewFunction_ok P st (hp.pre_weaken (by omega))
  simp only [Option.bind_eq_bind, e1, Option.some_bind]
  have hcls1 : st1.currentClass = st.currentClass := by
    unfold NewFunction at e1
    split at e1
    · cases e1
    · cases e1
      rfl
  by_cases ht : type ≠ TYPE_SCRIPT
  · obtain ⟨s, st2, e2, s2, hc2, hp2, hs2⟩ := CopyStringAt_ok P st1
      (st1.textAt st1.parser.Previous) st1.parser.Previous.Length (s1.pre hp (by omega)) (by
        unfold CompileState.textAt
        rw [s1.inv.source]
        exact TokOK_read s1.inv.prev)
    have hcls2 : st2.currentClass = st1.currentClass := by
      unfold CopyStringAt at e2
      split at e2
      · cases e2
      · cases e2
        rfl
    simp only [if_pos ht, e2, Option.map_some', Option.some_bind]
    refine ⟨_, ⟨P.env.alloc st.Allocs, ⟨0, 0, InitChunk, some s⟩, type,
      [⟨SyntheticToken (if type ≠ TYPE_FUNCTION then chars "this" else []), 0, false⟩], [], 0⟩,
      Eq.refl _, ?_, ?_, hcls2.trans hcls1, ?_, ?_⟩
    · exact s2.inv.transfer (Eq.refl _) (Eq.refl _) (List.cons_ne_nil _ _) (Eq.refl _)
        (Eq.refl _) (Eq.refl _)
    · show _ :: st2.current = _ :: st.current
      rw [hc2, hc1]
    · exact (tokensLeft_congr hs2 hp2).trans (tokensLeft_congr hs1 hp1)
    · have a := s1.cost
      have b := s2.cost
      show potential st2 ≤ potential st + 2
      omega
  · simp only [if_neg ht, Option.some_bind]
    refine ⟨_, ⟨P.env.alloc st.Allocs, ⟨0, 0, InitChunk, none⟩, type,
      [⟨SyntheticToken (if type ≠ TYPE_FUNCTION then chars "this" else []), 0, false⟩], [], 0⟩,
      Eq.refl _, ?_, ?_, hcls1, ?_, ?_⟩
    · exact s1.inv.transfer (Eq.refl _) (Eq.refl _) (List.cons_ne_nil _ _) (Eq.refl _)
        (Eq.refl _) (Eq.refl _)
    · show _ :: st1.current = _ :: st.current
      rw [hc1]
    · exact tokensLeft_congr hs1 hp1
    · have a := s1.cost
      show potential st1 ≤ potential st + 2
      omega

theorem EndCompiler_ok (st : CompileState) (c0 : Compiler) (cs : List Compiler)
    (hc : st.current = c0 :: cs) :
    ∃ c st1, EndCompiler st = some (c, st1) ∧ CompilerKept c0 c ∧ st1.current = cs ∧
      st1.scanner = st.scanner ∧ st1.parser = st.parser ∧
      st1.currentClass = st.currentClass ∧ st1.vm = st.vm ∧ st1.Allocs = st.Allocs ∧
      st1.stderr = st.stderr ∧ st1.Functions = (c.FunctionAddr, c.Function) :: st.Functions := by
  unfold EndCompiler
  simp only [Option.bind_eq_bind]
  rw [EmitReturn_eq st c0 cs hc, Option.some_bind]
  obtain ⟨c1, h1, _, h3⟩ := emit_head st
    (if c0.Type_ = TYPE_INITIALIZER then [OpCode.OP_GET_LOCAL, 0, OpCode.OP_RETURN]
       else [OpCode.OP_NIL, OpCode.OP_RETURN]) hc
  rw [h1]
  dsimp only
  have es := emit_step st
    (if c0.Type_ = TYPE_INITIALIZER then [OpCode.OP_GET_LOCAL, 0, OpCode.OP_RETURN]
       else [OpCode.OP_NIL, OpCode.OP_RETURN])
  refine ⟨c1, _, Eq.refl _, h3, Eq.refl _, es.scanner, emit_parserEq _ _, es.classes, es.vm,
    es.allocs, emit_stderr _ _, ?_⟩
  show _ :: (st.emit _).Functions = _ :: st.Functions
  congr 1
  unfold CompileState.emit CompileState.withChunk
  rw [hc]

theorem keptChain_cons {c0 : Compiler} {l l1 : List Compiler}
    (h : List.Forall₂ CompilerKept (c0 :: l) l1) :
    ∃ c cs, l1 = c :: cs ∧ CompilerKept c0 c ∧ List.Forall₂ CompilerKept l cs := by
  cases h with
  | cons h1 h2 => exact ⟨_, _, Eq.refl _, h1, h2⟩

theorem ParseFunctionBody_ok (P : CompileBound) (decl : ParseStatementFn) (nd fuel : Nat)
    (type : FunctionType) (st : CompileState) (hd : ParsesStatements P decl nd)
    (hn : tokensLeft st < nd) (hf : tokensLeft st < fuel) (hp : CompilePre P st 3) :
    ∃ st1, ParseFunctionBody P.env decl fuel type st = some st1 ∧ CompileStep P st st1 3 ∧
      (0 < tokensLeft st → tokensLeft st1 < tokensLeft st) := by
  unfold ParseFunctionBody
  obtain ⟨sA, c0, eA, iA, hcA, hclsA, hlA, hpA⟩ := InitCompiler_ok P type st
    (hp.pre_weaken (by omega))
  have pA : CompilePre P sA 1 := ⟨iA, by have := hp.2; omega⟩
  obtain ⟨st2, e2, s2⟩ := BeginScope_step sA iA.current
  have c2 := s2.step iA
  obtain ⟨st3, e3, s3, _⟩ := Consume_ok P TOKEN_LEFT_PAREN
    (chars "Expected \x27(\x27 after function name.") st2 c2.inv
  have c3 := c2.step_next s3
  have l3 := c3.left
  have h4 : ∃ st4, (if ¬ Check TOKEN_RIGHT_PAREN st3 = true then
      ParseParametersLoop P.env fuel st3 else some st3) = some st4 ∧
      CompileStep P st3 st4 1 := by
    split
    · exact ParseParametersLoop_ok P fuel st3 (by omega) (c3.pre pA (by omega))
    · exact ⟨st3, Eq.refl _, (CompileStep.step_same c3.inv).step_weaken (by omega)⟩
  obtain ⟨st4, e4, s4⟩ := h4
  have c4 := c3.step_next s4
  obtain ⟨st5, e5, s5, _⟩ := Consume_ok P TOKEN_RIGHT_PAREN
    (chars "Expected \x27)\x27 after function parameters.") st4 s4.inv
  obtain ⟨st6, e6, s6, _⟩ := Consume_ok P TOKEN_LEFT_BRACE
    (chars "Expected \x27\x7b\x27 before function body.") st5 s5.inv
  have c6 := (c4.step_next s5).step_next s6
  have l6 := c6.left
  obtain ⟨st7, e7, s7, h7⟩ := ParseBlock_ok P decl nd fuel st6 hd (by omega) (by omega)
    (c6.pre pA (by omega))
  have c7 := c6.step_next s7
  have hshape := c7.shape
  rw [hcA] at hshape
  obtain ⟨c7c, cs7, hc7, _, htail⟩ := keptChain_cons hshape
  obtain ⟨c, st8, e8, _, hcur8, hsc8, hpar8, hcls8, hvm8, hal8, herr8, _⟩ :=
    EndCompiler_ok st7 c7c cs7 hc7
  have hne8 : st8.current ≠ [] := by rw [hcur8]; exact keptChain_ne htail hp.1.current
  have i8 : CompileInv P st8 := s7.inv.transfer hsc8 hpar8 hne8 hvm8 hal8 herr8
  obtain ⟨r9, st9, e9, s9⟩ := MakeConstant_step (OBJ_VAL c.FunctionAddr) st8 hne8
  obtain ⟨st10, e10, s10⟩ := EmitBytes_step OpCode.OP_CLOSURE r9 st9 (s9.current_ne hne8)
  obtain ⟨st11, e11, s11⟩ := EmitUpValues_step (c.UpValues.take c.Function.UpValueCount) st10
    (s10.current_ne (s9.current_ne hne8))
  have es : ErrStep st8 st11 := (s9.err_next s10).err_next s11
  have hl8 : tokensLeft st8 = tokensLeft st7 := tokensLeft_congr hsc8 hpar8
  have hp8 : potential st8 = potential st7 := potential_congr hsc8 hpar8 hal8
  have hl11 := es.left
  have hp11 := es.potential_eq
  have l7 := c7.left
  have k7 := c7.cost
  refine ⟨st11, ?_, ⟨es.err_inv i8, ?_, ?_, by omega, by omega, ?_⟩, fun hpos => ?_⟩
  · simp only [Option.bind_eq_bind, eA, Option.some_bind, e2, e3]
    by_cases hc : ¬ Check TOKEN_RIGHT_PAREN st3 = true
    · rw [if_pos hc] at e4 ⊢
      simp only [e4, Option.some_bind, e5, e6, e7, e8, e9, e10, e11]
    · rw [if_neg hc] at e4 ⊢
      cases e4
      simp only [Option.some_bind, e5, e6, e7, e8, e9, e10, e11]
  · have := es.shape
    rw [hcur8] at this
    exact keptChain_next htail this
  · rw [es.classes, hcls8, c7.classes, hclsA]
  · intro hl
    have := c7.slack (by omega)
    omega
  · have l76 := s7.left
    by_cases h6 : 0 < tokensLeft st6
    · have := h7 h6
      omega
    · omega

theorem ParseFunctionDeclaration_ok (P : CompileBound) (decl : ParseStatementFn)
    (nd fuel : Nat) (st : CompileState) (hd : ParsesStatements P decl nd)
    (hn : tokensLeft st < nd) (hf : tokensLeft st < fuel) (hp : CompilePre P st 4) :
    ∃ st1, ParseFunctionDeclaration P.env decl fuel st = some st1 ∧ CompileStep P st st1 4 := by
  unfold ParseFunctionDeclaration
  obtain ⟨g, st1, e1, s1⟩ := ParseVariable_ok P (chars "Expected function name.") st
    (hp.pre_weaken (by omega))
  obtain ⟨st2, e2, s2⟩ := MarkInitialized_step st1 s1.inv.current
  have c2 := s1.step_next (s2.step s1.inv)
  have l2 := c2.left
  obtain ⟨st3, e3, s3, _⟩ := ParseFunctionBody_ok P decl nd fuel TYPE_FUNCTION st2 hd (by omega)
    (by omega) (c2.pre hp (by omega))
  obtain ⟨st4, e4, s4⟩ := DefineVariable_step g st3 s3.inv.current
  refine ⟨st4, ?_, ((c2.step_next s3).step_next (s4.step s3.inv)).step_weaken (by omega)⟩
  simp only [Option.bind_eq_bind, e1, Option.some_bind, e2, e3, e4]

theorem ParseVarDeclarationStatement_ok (P : CompileBound) (fuel : Nat) (st : CompileState)
    (hf : tokensLeft st < fuel) (hp : CompilePre P st 1) :
    ∃ st1, ParseVarDeclarationStatement P.env fuel st = some st1 ∧ CompileStep P st st1 1 := by
  unfold ParseVarDeclarationStatement
  obtain ⟨g, st1, e1, s1⟩ := ParseVariable_ok P (chars "Expected variable name.") st hp
  obtain ⟨b, st2, e2, s2, _⟩ := Match_ok P TOKEN_EQUAL st1 s1.inv
  have c2 := s1.step_next s2
  have l2 := c2.left
  have h3 : ∃ st3, (if b = true then ParseExpression P.env fuel st2
      else EmitByte OpCode.OP_NIL st2) = some st3 ∧ CompileStep P st2 st3 0 := by
    split
    · obtain ⟨st3, e3, s3, _⟩ := ParseExpression_ok P fuel st2 (by omega) (c2.pre hp (by omega))
      exact ⟨st3, e3, s3⟩
    · obtain ⟨st3, e3, s3⟩ := EmitByte_step OpCode.OP_NIL st2 s2.inv.current
      exact ⟨st3, e3, s3.step s2.inv⟩
  obtain ⟨st3, e3, s3⟩ := h3
  obtain ⟨st4, e4, s4, _⟩ := Consume_ok P TOKEN_SEMICOLON
    (chars "Expected \x27;\x27 after variable declaration.") st3 s3.inv
  obtain ⟨st5, e5, s5⟩ := DefineVariable_step g st4 s4.inv.current
  refine ⟨st5, ?_, (((c2.step_next s3).step_next s4).step_next (s5.step s4.inv)).step_weaken (by omega)⟩
  simp only [Option.bind_eq_bind, e1, Option.some_bind, e2]
  cases b with
  | true =>
    simp only [if_true] at e3 ⊢
    simp only [e3, Option.some_bind, e4, e5]
  | false =>
    simp only [Bool.false_eq_true, if_false] at e3 ⊢
    simp only [e3, Option.some_bind, e4, e5]

theorem ParseExpressionStatement_ok (P : CompileBound) (fuel : Nat) (st : CompileState)
    (hf : tokensLeft st < fuel) (hp : CompilePre P st 0) :
    ∃ st1, ParseExpressionStatement P.env fuel st = some st1 ∧ CompileStep P st st1 0 ∧
      (0 < tokensLeft st → tokensLeft st1 < tokensLeft st) := by
  unfold ParseExpressionStatement
  obtain ⟨st1, e1, s1, h1⟩ := ParseExpression_ok P fuel st hf hp
  obtain ⟨st2, e2, s2, _⟩ := Consume_ok P TOKEN_SEMICOLON
    (chars "Expected \x27;\x27 after expression.") st1 s1.inv
  obtain ⟨st3, e3, s3, l3⟩ := (s1.step_next s2).thenEmitByte OpCode.OP_POP
  have l2 := s2.left
  refine ⟨st3, ?_, s3, fun hpos => ?_⟩
  · simp only [Option.bind_eq_bind, e1, Option.some_bind, e2, e3]
  · have := h1 hpos
    omega

theorem ParsePrintStatement_ok (P : CompileBound) (fuel : Nat) (st : CompileState)
    (hf : tokensLeft st < fuel) (hp : CompilePre P st 0) :
    ∃ st1, ParsePrintStatement P.env fuel st = some st1 ∧ CompileStep P st st1 0 := by
  unfold ParsePrintStatement
  obtain ⟨st1, e1, s1, h1⟩ := ParseExpression_ok P fuel st hf hp
  obtain ⟨st2, e2, s2, _⟩ := Consume_ok P TOKEN_SEMICOLON
    (chars "Expected \x27;\x27 after print statement value") st1 s1.inv
  obtain ⟨st3, e3, s3, l3⟩ := (s1.step_next s2).thenEmitByte OpCode.OP_PRINT
  refine ⟨st3, ?_, s3⟩
  simp only [Option.bind_eq_bind, e1, Option.some_bind, e2, e3]

theorem ParseReturnStatement_ok (P : CompileBound) (fuel : Nat) (st : CompileState)
    (hf : tokensLeft st < fuel) (hp : CompilePre P st 0) :
    ∃ st1, ParseReturnStatement P.env fuel st = some st1 ∧ CompileStep P st st1 0 := by
  unfold ParseReturnStatement
  obtain ⟨c, cs, hc⟩ := List.exists_cons_of_ne_nil hp.1.current
  rw [hc]
  dsimp only
  have h1 : ErrStep st (if c.Type_ = TYPE_SCRIPT then
      Error (chars "Can\x27t return from top-level code.") st else st) :=
    ErrStep.ite _ (Error_step _ _) (ErrStep.err_same _)
  have c1 := h1.step hp.1
  obtain ⟨b, st2, e2, s2, _⟩ := Match_ok P TOKEN_SEMICOLON _ c1.inv
  have c2 := c1.step_next s2
  have l2 := c2.left
  simp only [Option.bind_eq_bind]
  refine bind_returns (b, st2) e2 ?_
  cases b with
  | true =>
    obtain ⟨st3, e3, s3⟩ := EmitReturn_step st2 s2.inv.current
    exact ⟨st3, by simp only [if_true, e3], c2.step_next (s3.step s2.inv)⟩
  | false =>
    have h3 : ErrStep st2 (if c.Type_ = TYPE_INITIALIZER then
        Error (chars "Can\x27t return a value from a class initializer.") st2 else st2) :=
      ErrStep.ite _ (Error_step _ _) (ErrStep.err_same _)
    have c3 := c2.step_next (h3.step s2.inv)
    have l3 := c3.left
    obtain ⟨st4, e4, s4, _⟩ := ParseExpression_ok P fuel _ (by omega) (c3.pre hp (by omega))
    obtain ⟨st5, e5, s5, _⟩ := Consume_ok P TOKEN_SEMICOLON
      (chars "Expected \x27;\x27 after return value.") st4 s4.inv
    obtain ⟨st6, e6, s6, _⟩ := ((c3.step_next s4).step_next s5).thenEmitByte OpCode.OP_RETURN
    refine ⟨st6, ?_, s6⟩
    simp only [Bool.false_eq_true, if_false, e4, Option.some_bind, e5, e6]

theorem ParseIfStatement_ok (P : CompileBound) (stmt : ParseStatementFn) (ns fuel : Nat)
    (st : CompileState) (hs : ParsesStatements P stmt ns) (hn : tokensLeft st < ns)
    (hf : tokensLeft st < fuel) (hp : CompilePre P st 0) :
    ∃ st1, ParseIfStatement P.env stmt fuel st = some st1 ∧ CompileStep P st st1 0 := by
  unfold ParseIfStatement
  obtain ⟨st1, e1, s1, _⟩ := Consume_ok P TOKEN_LEFT_PAREN
    (chars "Expected \x27(\x27 after \x27if\x27.") st hp.1
  have l1 := s1.left
  obtain ⟨st2, e2, s2, _⟩ := ParseExpression_ok P fuel st1 (by omega) (s1.pre hp (by omega))
  obtain ⟨st3, e3, s3, _⟩ := Consume_ok P TOKEN_RIGHT_PAREN
    (chars "Expected \x27)\x27 after if condition.") st2 s2.inv
  have c3 := (s1.step_next s2).step_next s3
  obtain ⟨thenJump, st4, e4, s4, ho4⟩ := EmitJump_step OpCode.OP_JUMP_IF_FALSE st3 s3.inv.current
  obtain ⟨st5, e5, s5⟩ := EmitByte_step OpCode.OP_POP st4 (s4.current_ne s3.inv.current)
  have c5 := c3.step_next ((s4.err_next s5).step s3.inv)
  have l5 := c5.left
  obtain ⟨st6, e6, s6, _⟩ := hs st5 (c5.pre hp (by omega)) (by omega)
  obtain ⟨elseJump, st7, e7, s7, ho7⟩ := EmitJump_step OpCode.OP_JUMP st6 s6.inv.current
  have hc7 := s7.current_ne s6.inv.current
  obtain ⟨st8, e8, s8⟩ := PatchJump_step thenJump st7 hc7 (by
    have := s5.err_code_le
    have := s6.step_code_le
    have := s7.err_code_le
    omega)
  have hc8 := s8.current_ne hc7
  obtain ⟨st9, e9, s9⟩ := EmitByte_step OpCode.OP_POP st8 hc8
  have c9 := (c5.step_next s6).step_next (((s7.err_next s8).err_next s9).step s6.inv)
  obtain ⟨b, st10, e10, s10, _⟩ := Match_ok P TOKEN_ELSE st9 c9.inv
  have c10 := c9.step_next s10
  have l10 := c10.left
  have h11 : ∃ st11, (if b = true then stmt st10 else some st10) = some st11 ∧
      CompileStep P st10 st11 0 := by
    split
    · obtain ⟨st11, e11, s11, _⟩ := hs st10 (c10.pre hp (by omega)) (by omega)
      exact ⟨st11, e11, s11⟩
    · exact ⟨st10, Eq.refl _, CompileStep.step_same s10.inv⟩
  obtain ⟨st11, e11, s11⟩ := h11
  obtain ⟨st12, e12, s12⟩ := PatchJump_step elseJump st11 s11.inv.current (by
    have := s8.err_code_le
    have := s9.err_code_le
    have := s10.step_code_le
    have := s11.step_code_le
    omega)
  refine ⟨st12, ?_, (c10.step_next s11).step_next (s12.step s11.inv)⟩
  simp only [Option.bind_eq_bind, e1, Option.some_bind, e2, e3, e4, e5, e6, e7, e8, e9, e10]
  cases b with
  | true =>
    simp only [if_true] at e11 ⊢
    simp only [e11, Option.some_bind, e12]
  | false =>
    simp only [Bool.false_eq_true, if_false] at e11 ⊢
    cases e11
    simp only [Option.some_bind, e12]

theorem ParseWhileStatement_ok (P : CompileBound) (stmt : ParseStatementFn) (ns fuel : Nat)
    (st : CompileState) (hs : ParsesStatements P stmt ns) (hn : tokensLeft st < ns)
    (hf : tokensLeft st < fuel) (hp : CompilePre P st 0) :
    ∃ st1, ParseWhileStatement P.env stmt fuel st = some st1 ∧ CompileStep P st st1 0 := by
  unfold ParseWhileStatement
  obtain ⟨st1, e1, s1, _⟩ := Consume_ok P TOKEN_LEFT_PAREN
    (chars "Expected \x27(\x27 after \x27while\x27.") st hp.1
  have l1 := s1.left
  obtain ⟨st2, e2, s2, _⟩ := ParseExpression_ok P fuel st1 (by omega) (s1.pre hp (by omega))
  obtain ⟨st3, e3, s3, _⟩ := Consume_ok P TOKEN_RIGHT_PAREN
    (chars "Expected \x27)\x27 after while loop condition.") st2 s2.inv
  have c3 := (s1.step_next s2).step_next s3
  obtain ⟨exitJump, st4, e4, s4, ho4⟩ := EmitJump_step OpCode.OP_JUMP_IF_FALSE st3 s3.inv.current
  obtain ⟨st5, e5, s5⟩ := EmitByte_step OpCode.OP_POP st4 (s4.current_ne s3.inv.current)
  have c5 := c3.step_next ((s4.err_next s5).step s3.inv)
  have l5 := c5.left
  obtain ⟨st6, e6, s6, _⟩ := hs st5 (c5.pre hp (by omega)) (by omega)
  obtain ⟨st7, e7, s7⟩ := EmitLoop_step st.chunk.Count st6 s6.inv.current
  have hc7 := s7.current_ne s6.inv.current
  obtain ⟨st8, e8, s8⟩ := PatchJump_step exitJump st7 hc7 (by
    have := s5.err_code_le
    have := s6.step_code_le
    have := s7.err_code_le
    omega)
  obtain ⟨st9, e9, s9⟩ := EmitByte_step OpCode.OP_POP st8 (s8.current_ne hc7)
  refine ⟨st9, ?_, (c5.step_next s6).step_next (((s7.err_next s8).err_next s9).step s6.inv)⟩
  simp only [Option.bind_eq_bind, CurrentChunk_eq st hp.1.current, Option.some_bind, e1, e2, e3,
    e4, e5, e6, e7, e8, e9]

theorem SynchronizeLoop_ok (P : CompileBound) : ∀ (k : Nat) (st : CompileState),
    tokensLeft st < k → CompileInv P st →
    ∃ st1, SynchronizeLoop k st = some st1 ∧ CompileStep P st st1 0 := by
  intro k
  induction k with
  | zero => intro st h; omega
  | succ m ih =>
    intro st hk hi
    unfold SynchronizeLoop
    by_cases he : st.parser.Current.Type_ ≠ TOKEN_EOF
    · rw [if_pos he]
      by_cases hs : st.parser.Previous.Type_ = TOKEN_SEMICOLON
      · rw [if_pos hs]
        exact ⟨st, Eq.refl _, CompileStep.step_same hi⟩
      · rw [if_neg hs]
        split
        all_goals first
          | exact ⟨st, Eq.refl _, CompileStep.step_same hi⟩
          | skip
        obtain ⟨st1, e1, s1, _, _, h1⟩ := Advance_ok P st hi
        obtain ⟨hl, _⟩ := h1 he
        obtain ⟨st2, e2, s2⟩ := ih st1 (by omega) s1.inv
        rw [e1]
        exact ⟨st2, e2, s1.step_next s2⟩
    · rw [if_neg he]
      exact ⟨st, Eq.refl _, CompileStep.step_same hi⟩

theorem tokensLeft_le_fuel (st : CompileState) : tokensLeft st ≤ st.scanner.fuel := by
  unfold tokensLeft Scanner.fuel
  split
  · exact Nat.zero_le _
  · exact Nat.le_refl _

theorem Synchronize_ok (P : CompileBound) (st : CompileState) (hi : CompileInv P st) :
    ∃ st1, Synchronize st = some st1 ∧ CompileStep P st st1 0 := by
  unfold Synchronize
  have h0 : ErrStep st { st with parser := { st.parser with PanicMode := false } } :=
    ⟨Eq.refl _, Eq.refl _, Eq.refl _, keptChain_same _, Eq.refl _, Eq.refl _, Eq.refl _, id⟩
  have c0 := h0.step hi
  obtain ⟨st1, e1, s1⟩ := SynchronizeLoop_ok P (st.scanner.fuel + 1) _ (by
    have := tokensLeft_le_fuel st
    have := c0.left
    omega) c0.inv
  exact ⟨st1, e1, c0.step_next s1⟩

theorem ParseForInitializer_ok (P : CompileBound) (fuel : Nat) (st : CompileState)
    (hf : tokensLeft st < fuel) (hp : CompilePre P st 0) :
    ∃ st1, ParseForInitializer P.env fuel st = some st1 ∧ CompileStep P st st1 0 := by
  unfold ParseForInitializer
  obtain ⟨b1, st1, e1, s1, hf1, _⟩ := Match_ok P TOKEN_SEMICOLON st hp.1
  rw [e1]
  cases b1 with
  | true => exact ⟨st1, Eq.refl _, s1⟩
  | false =>
    dsimp only
    obtain ⟨hst, _⟩ := hf1 (Eq.refl _)
    subst hst
    obtain ⟨b2, st2, e2, s2, hf2, ht2⟩ := Match_ok P TOKEN_VAR st1 hp.1
    rw [e2]
    cases b2 with
    | true =>
      dsimp only
      obtain ⟨_, _, _, h⟩ := ht2 (Eq.refl _)
      obtain ⟨hl, hpay⟩ := h (by decide)
      obtain ⟨st3, e3, s3⟩ := ParseVarDeclarationStatement_ok P fuel st2 (by omega)
        ⟨s2.inv, by have := hp.2; omega⟩
      exact ⟨st3, e3, s2.paid hpay s3 (by omega)⟩
    | false =>
      dsimp only
      obtain ⟨hst, _⟩ := hf2 (Eq.refl _)
      subst hst
      obtain ⟨st3, e3, s3, _⟩ := ParseExpressionStatement_ok P fuel st2 hf hp
      exact ⟨st3, e3, s3⟩

theorem ParseForCondition_ok (P : CompileBound) (fuel : Nat) (st : CompileState)
    (hf : tokensLeft st < fuel) (hp : CompilePre P st 0) :
    ∃ r, ParseForCondition P.env fuel st = some r ∧ CompileStep P st r.2 0 ∧
      (∀ o, r.1 = some o → o + 2 ≤ r.2.code.length) := by
  unfold ParseForCondition
  obtain ⟨b1, st1, e1, s1, hf1, _⟩ := Match_ok P TOKEN_SEMICOLON st hp.1
  rw [e1]
  cases b1 with
  | true => exact ⟨_, Eq.refl _, s1, fun o h => by cases h⟩
  | false =>
    dsimp only
    obtain ⟨hst, _⟩ := hf1 (Eq.refl _)
    subst hst
    obtain ⟨st2, e2, s2, _⟩ := ParseExpression_ok P fuel st1 hf hp
    obtain ⟨st3, e3, s3, _⟩ := Consume_ok P TOKEN_SEMICOLON
      (chars "Expected \x27;\x27 after for loop condition.") st2 s2.inv
    obtain ⟨o, st4, e4, s4, ho⟩ := EmitJump_step OpCode.OP_JUMP_IF_FALSE st3 s3.inv.current
    obtain ⟨st5, e5, s5⟩ := EmitByte_step OpCode.OP_POP st4 (s4.current_ne s3.inv.current)
    rw [e2, Option.some_bind, e3, Option.some_bind, e4]
    dsimp only
    rw [e5]
    refine ⟨_, Eq.refl _, (s2.step_next s3).step_next ((s4.err_next s5).step s3.inv), fun o' h => ?_⟩
    cases h
    have := s5.err_code_le
    show o + 2 ≤ st5.code.length
    omega

theorem ParseForIncrement_ok (P : CompileBound) (fuel loopStart : Nat) (st : CompileState)
    (hf : tokensLeft st < fuel) (hp : CompilePre P st 0) :
    ∃ r, ParseForIncrement P.env fuel loopStart st = some r ∧ CompileStep P st r.2 0 := by
  unfold ParseForIncrement
  obtain ⟨b1, st1, e1, s1, hf1, _⟩ := Match_ok P TOKEN_RIGHT_PAREN st hp.1
  rw [e1]
  cases b1 with
  | true => exact ⟨_, Eq.refl _, s1⟩
  | false =>
    dsimp only
    obtain ⟨hst, _⟩ := hf1 (Eq.refl _)
    subst hst
    obtain ⟨o, st2, e2, s2, ho⟩ := EmitJump_step OpCode.OP_JUMP st1 hp.1.current
    have c2 := s2.step hp.1
    have l2 := c2.left
    rw [e2]
    dsimp only
    rw [CurrentChunk_eq st2 c2.inv.current]
    dsimp only
    obtain ⟨st3, e3, s3, _⟩ := ParseExpression_ok P fuel st2 (by omega) (c2.pre hp (by omega))
    obtain ⟨st4, e4, s4⟩ := EmitByte_step OpCode.OP_POP st3 s3.inv.current
    obtain ⟨st5, e5, s5, _⟩ := Consume_ok P TOKEN_RIGHT_PAREN
      (chars "Expected \x27)\x27 after for loop clauses.") st4 (s4.err_inv s3.inv)
    obtain ⟨st6, e6, s6⟩ := EmitLoop_step loopStart st5 s5.inv.current
    obtain ⟨st7, e7, s7⟩ := PatchJump_step o st6 (s6.current_ne s5.inv.current) (by
      have := s3.step_code_le
      have := s4.err_code_le
      have := s5.step_code_le
      have := s6.err_code_le
      omega)
    rw [e3, Option.some_bind, e4, Option.some_bind, e5, Option.some_bind, e6, Option.some_bind,
      e7]
    exact ⟨_, Eq.refl _,
      (((c2.step_next s3).step_next (s4.step s3.inv)).step_next s5).step_next ((s6.err_next s7).step s5.inv)⟩

theorem ParseForEnd_step (loopStart : Nat) (exitJump : Option Nat) (st : CompileState)
    (h : st.current ≠ []) (hex : ∀ o, exitJump = some o → o + 2 ≤ st.code.length) :
    ∃ st1, ParseForEnd loopStart exitJump st = some st1 ∧ ErrStep st st1 := by
  unfold ParseForEnd
  obtain ⟨st1, e1, s1⟩ := EmitLoop_step loopStart st h
  have h1 := s1.current_ne h
  rw [e1]
  dsimp only
  cases exitJump with
  | none =>
    dsimp only
    obtain ⟨st2, e2, s2⟩ := EndScope_step st1 h1
    exact ⟨st2, e2, s1.err_next s2⟩
  | some o =>
    dsimp only
    obtain ⟨st2, e2, s2⟩ := PatchJump_step o st1 h1 (by
      have := hex o (Eq.refl _)
      have := s1.err_code_le
      omega)
    have h2 := s2.current_ne h1
    obtain ⟨st3, e3, s3⟩ := EmitByte_step OpCode.OP_POP st2 h2
    obtain ⟨st4, e4, s4⟩ := EndScope_step st3 (s3.current_ne h2)
    rw [e2, Option.some_bind, e3, Option.some_bind]
    exact ⟨st4, e4, ((s1.err_next s2).err_next s3).err_next s4⟩

theorem ParseForStatement_ok (P : CompileBound) (stmt : ParseStatementFn) (ns fuel : Nat)
    (st : CompileState) (hs : ParsesStatements P stmt ns) (hn : tokensLeft st < ns)
    (hf : tokensLeft st < fuel) (hp : CompilePre P st 0) :
    ∃ st1, ParseForStatement P.env stmt fuel st = some st1 ∧ CompileStep P st st1 0 := by
  unfold ParseForStatement
  obtain ⟨sa, ea, ha⟩ := BeginScope_step st hp.1.current
  have ca := ha.step hp.1
  obtain ⟨sb, eb, hb, _⟩ := Consume_ok P TOKEN_LEFT_PAREN
    (chars "Expected \x27(\x27 after \x27for\x27.") sa ca.inv
  have cb := ca.step_next hb
  have lb := cb.left
  obtain ⟨st1, e1, s1⟩ := ParseForInitializer_ok P fuel sb (by omega) (cb.pre hp (by omega))
  have c1 := cb.step_next s1
  have l1 := c1.left
  rw [ea, Option.some_bind, eb, Option.some_bind, e1]
  dsimp only
  rw [CurrentChunk_eq st1 s1.inv.current]
  dsimp only
  obtain ⟨r2, e2, s2, hex⟩ := ParseForCondition_ok P fuel st1 (by omega) (c1.pre hp (by omega))
  obtain ⟨exitJump, st2⟩ := r2
  dsimp only at s2 hex
  have c2 := c1.step_next s2
  have l2 := c2.left
  rw [e2]
  dsimp only
  obtain ⟨r3, e3, s3⟩ := ParseForIncrement_ok P fuel st1.chunk.Count st2 (by omega)
    (c2.pre hp (by omega))
  obtain ⟨loopStart, st3⟩ := r3
  dsimp only at s3
  have c3 := c2.step_next s3
  have l3 := c3.left
  rw [e3]
  dsimp only
  obtain ⟨st4, e4, s4, _⟩ := hs st3 (c3.pre hp (by omega)) (by omega)
  obtain ⟨st5, e5, s5⟩ := ParseForEnd_step loopStart exitJump st4 s4.inv.current (by
    intro o ho
    have := hex o ho
    have := s3.step_code_le
    have := s4.step_code_le
    omega)
  rw [e4]
  exact ⟨st5, e5, (c3.step_next s4).step_next (s5.step s4.inv)⟩

/-! ### Classes -/

theorem ParseClassMethodDeclaration_ok (P : CompileBound) (decl : ParseStatementFn)
    (nd fuel : Nat) (st : CompileState) (hd : ParsesStatements P decl nd)
    (hn : tokensLeft st < nd) (hf : tokensLeft st < fuel) (hp : CompilePre P st 4) :
    ∃ st1, ParseClassMethodDeclaration P.env decl fuel st = some st1 ∧
      CompileStep P st st1 4 ∧ (0 < tokensLeft st → tokensLeft st1 < tokensLeft st) := by
  unfold ParseClassMethodDeclaration
  obtain ⟨st1, e1, s1, _⟩ := Consume_ok P TOKEN_IDENTIFIER
    (chars "Expected class method name.") st hp.1
  obtain ⟨k, st2, e2, s2⟩ := IdentifierConstant_ok P st1.parser.Previous st1
    (s1.pre hp (by omega)) s1.inv.prev
  have c2 := s1.step_next s2
  have l2 := c2.left
  obtain ⟨st3, e3, s3, h3⟩ := ParseFunctionBody_ok P decl nd fuel
    (if st2.parser.Previous.Length = 4 ∧
        (st2.textAt st2.parser.Previous).take 4 = chars "init" then TYPE_INITIALIZER
      else TYPE_METHOD) st2 hd (by omega) (by omega) (c2.pre hp (by omega))
  obtain ⟨st4, e4, s4, l4⟩ := (c2.step_next s3).thenEmitBytes OpCode.OP_METHOD k
  have l3 := s3.left
  refine ⟨st4, ?_, s4.step_weaken (by omega), fun hpos => ?_⟩
  · simp only [Option.bind_eq_bind, e1, Option.some_bind, e2, e3, e4]
  · by_cases h2 : 0 < tokensLeft st2
    · have := h3 h2
      omega
    · omega

theorem ParseMethodsLoop_ok (P : CompileBound) (decl : ParseStatementFn) (nd fuel : Nat)
    (hd : ParsesStatements P decl nd) : ∀ (k : Nat) (st : CompileState),
    tokensLeft st < nd → tokensLeft st < fuel → tokensLeft st < k → CompilePre P st 4 →
    ∃ st1, ParseMethodsLoop P.env decl fuel k st = some st1 ∧ CompileStep P st st1 4 ∧
      potential st1 ≤ potential st := by
  intro k
  induction k with
  | zero => intro st _ _ h; omega
  | succ m ih =>
    intro st hn hf hk hp
    unfold ParseMethodsLoop
    by_cases hc : ¬ Check TOKEN_RIGHT_BRACE st = true ∧ ¬ Check TOKEN_EOF st = true
    · rw [if_pos hc]
      have hne : st.parser.Current.Type_ ≠ TOKEN_EOF := by
        intro h
        apply hc.2
        unfold Check
        simp [h]
      have hpos := tokensLeft_pos hp.1 hne
      obtain ⟨st1, e1, s1, h1⟩ := ParseClassMethodDeclaration_ok P decl nd fuel st hd hn hf hp
      have hl := h1 hpos
      have hs := s1.slack hl
      obtain ⟨st2, e2, s2, h2⟩ := ih st1 (by omega) (by omega) (by omega)
        ⟨s1.inv, by have := hp.2; omega⟩
      rw [e1]
      refine ⟨st2, e2, ⟨s2.inv, keptChain_next s1.shape s2.shape, s2.classes.trans s1.classes,
        Nat.le_trans s2.left s1.left, by omega, fun _ => by omega⟩, by omega⟩
    · rw [if_neg hc]
      exact ⟨st, Eq.refl _, (CompileStep.step_same hp.1).step_weaken (by omega), Nat.le_refl _⟩

theorem ParseSuperClassClause_ok (P : CompileBound) (fuel : Nat) (className : Token)
    (st : CompileState) (hcls : st.currentClass ≠ []) (hname : TokOK P.src className)
    (hf : tokensLeft st < fuel) (hp : CompilePre P st 2) :
    ∃ st1, ParseSuperClassClause P.env fuel className st = some st1 ∧
      CompileStep P st st1 2 := by
  unfold ParseSuperClassClause
  have hpp := ParsePrecedence_ok P fuel
  obtain ⟨st1, e1, s1, _⟩ := Consume_ok P TOKEN_IDENTIFIER
    (chars "Expected superclass name.") st hp.1
  have l1 := s1.left
  obtain ⟨st2, e2, s2⟩ := ParseVariableExpression_ok P (ParsePrecedence P.env fuel) fuel false
    st1 hpp (by omega) (s1.pre hp (by omega))
  have c2 := s1.step_next s2
  have h3 : ErrStep st2 (if IdentifiersEqual st2.scanner.Source className st2.parser.Previous
      = true then Error (chars "A class can\x27t inherit from itself.") st2 else st2) :=
    ErrStep.ite _ (Error_step _ _) (ErrStep.err_same _)
  have hc3 := h3.current_ne s2.inv.current
  obtain ⟨st4, e4, s4⟩ := BeginScope_step _ hc3
  have hc4 := s4.current_ne hc3
  obtain ⟨st5, e5, s5⟩ := AddLocal_step (SyntheticToken (chars "super")) st4 hc4
  have hc5 := s5.current_ne hc4
  obtain ⟨st6, e6, s6⟩ := DefineVariable_step 0 st5 hc5
  have h36 : ErrStep st2 st6 := ((h3.err_next s4).err_next s5).err_next s6
  have c6 := c2.step_next (h36.step s2.inv)
  have l6 := c6.left
  obtain ⟨st7, e7, s7⟩ := NamedVariable_ok P (ParsePrecedence P.env fuel) fuel className false
    st6 hpp (by omega) (c6.pre hp (by omega)) hname
  obtain ⟨st8, e8, s8, _⟩ := (c6.step_next s7).thenEmitByte OpCode.OP_INHERIT
  have hlen : st8.currentClass.length = st.currentClass.length := s8.classes
  obtain ⟨k, ks, hk⟩ := List.exists_cons_of_ne_nil (l := st8.currentClass) (by
    intro h
    rw [h] at hlen
    exact hcls (List.length_eq_zero.mp hlen.symm))
  refine ⟨{ st8 with currentClass := ⟨true⟩ :: ks }, ?_,
    ⟨s8.inv.transfer (Eq.refl _) (Eq.refl _) s8.inv.current (Eq.refl _) (Eq.refl _) (Eq.refl _),
      s8.shape, ?_, s8.left, ?_, ?_⟩⟩
  · simp only [Option.bind_eq_bind, e1, Option.some_bind, e2, e4, e5, e6, e7, e8]
    rw [hk]
  · show (ClassCompiler.mk true :: ks).length = st.currentClass.length
    rw [← hlen, hk]
    rfl
  · have := s8.cost
    exact Nat.le_trans this (by omega)
  · intro hl
    have := s8.slack hl
    exact Nat.le_trans this (by omega)

theorem ParseClassEnd_ok (P : CompileBound) (st : CompileState) (hi : CompileInv P st)
    (hcls : st.currentClass ≠ []) :
    ∃ st1, ParseClassEnd st = some st1 ∧ CompileInv P st1 ∧
      List.Forall₂ CompilerKept st.current st1.current ∧
      st1.currentClass.length + 1 = st.currentClass.length ∧
      tokensLeft st1 = tokensLeft st ∧ potential st1 = potential st := by
  unfold ParseClassEnd
  obtain ⟨k, ks, hk⟩ := List.exists_cons_of_ne_nil hcls
  rw [hk]
  dsimp only
  have h1 : ∃ st1, (if k.HasSuperClass = true then EndScope st else some st) = some st1 ∧
      ErrStep st st1 := by
    split
    · exact EndScope_step st hi.current
    · exact ⟨st, Eq.refl _, ErrStep.err_same st⟩
  obtain ⟨st1, e1, s1⟩ := h1
  rw [e1]
  refine ⟨_, Eq.refl _, ?_, s1.shape, ?_, s1.left, s1.potential_eq⟩
  · exact (s1.err_inv hi).transfer (Eq.refl _) (Eq.refl _) (s1.current_ne hi.current) (Eq.refl _)
      (Eq.refl _) (Eq.refl _)
  · show ks.length + 1 = (k :: ks).length
    rfl

theorem ParseClassBody_ok (P : CompileBound) (decl : ParseStatementFn) (nd fuel : Nat)
    (className : Token) (st : CompileState) (hd : ParsesStatements P decl nd)
    (hn : tokensLeft st < nd) (hf : tokensLeft st < fuel) (hcls : st.currentClass ≠ [])
    (hname : TokOK P.src className) (hp : CompilePre P st 5) :
    ∃ st1, ParseClassBody P.env decl fuel className st = some st1 ∧
      CompileStep P st st1 5 := by
  unfold ParseClassBody
  obtain ⟨b, st1, e1, s1, hf1, ht1⟩ := Match_ok P TOKEN_LESS st hp.1
  rw [e1]
  dsimp only
  have h2 : ∃ st2, (if b = true then ParseSuperClassClause P.env fuel className st1
      else some st1) = some st2 ∧ CompileStep P st st2 0 := by
    cases b with
    | true =>
      obtain ⟨_, _, _, h⟩ := ht1 (Eq.refl _)
      obtain ⟨hl, hpay⟩ := h (by decide)
      obtain ⟨st2, e2, s2⟩ := ParseSuperClassClause_ok P fuel className st1 (by
          intro h0
          have := s1.classes
          rw [h0] at this
          exact hcls (List.length_eq_zero.mp this.symm)) hname (by omega)
        ⟨s1.inv, by have := hp.2; omega⟩
      exact ⟨st2, by simp only [if_true]; exact e2, s1.paid hpay s2 (by omega)⟩
    | false =>
      exact ⟨st1, by simp only [Bool.false_eq_true, if_false], s1⟩
  obtain ⟨st2, e2, s2⟩ := h2
  have l2 := s2.left
  rw [e2, Option.some_bind]
  obtain ⟨st3, e3, s3⟩ := NamedVariable_ok P (ParsePrecedence P.env fuel) fuel className false
    st2 (ParsePrecedence_ok P fuel) (by omega) (s2.pre hp (by omega)) hname
  obtain ⟨st4, e4, s4, _⟩ := Consume_ok P TOKEN_LEFT_BRACE
    (chars "Expected \x27\x7b\x27 before class body.") st3 s3.inv
  have c4 := (s2.step_next s3).step_next s4
  have l4 := c4.left
  obtain ⟨st5, e5, s5, _⟩ := ParseMethodsLoop_ok P decl nd fuel hd fuel st4 (by omega) (by omega)
    (by omega) (c4.pre hp (by omega))
  obtain ⟨st6, e6, s6, _⟩ := Consume_ok P TOKEN_RIGHT_BRACE
    (chars "Expected \x27\x7d\x27 after class body.") st5 s5.inv
  obtain ⟨st7, e7, s7, _⟩ := ((c4.step_next s5).step_next s6).thenEmitByte OpCode.OP_POP
  rw [e3, Option.some_bind, e4, Option.some_bind, e5, Option.some_bind, e6, Option.some_bind]
  exact ⟨st7, e7, s7.step_weaken (by omega)⟩

theorem ParseClassDeclaration_ok (P : CompileBound) (decl : ParseStatementFn) (nd fuel : Nat)
    (st : CompileState) (hd : ParsesStatements P decl nd)
    (hn : tokensLeft st < nd) (hf : tokensLeft st < fuel) (hp : CompilePre P st 6) :
    ∃ st1, ParseClassDeclaration P.env decl fuel st = some st1 ∧ CompileStep P st st1 6 := by
  unfold ParseClassDeclaration
  obtain ⟨st1, e1, s1, _⟩ := Consume_ok P TOKEN_IDENTIFIER (chars "Expected class name.") st hp.1
  rw [e1]
  dsimp only
  obtain ⟨k, st2, e2, s2⟩ := IdentifierConstant_ok P st1.parser.Previous st1
    (s1.pre hp (by omega)) s1.inv.prev
  rw [e2]
  dsimp only
  obtain ⟨st3, e3, s3⟩ := DeclareVariable_step st2 s2.inv.current
  have hc3 := s3.current_ne s2.inv.current
  obtain ⟨st4, e4, s4⟩ := EmitBytes_step OpCode.OP_CLASS k st3 hc3
  have hc4 := s4.current_ne hc3
  obtain ⟨st5, e5, s5⟩ := DefineVariable_step k st4 hc4
  have h25 : ErrStep st2 st5 := (s3.err_next s4).err_next s5
  have c5 := (s1.step_next s2).step_next (h25.step s2.inv)
  have l5 := c5.left
  rw [e3, Option.some_bind, e4, Option.some_bind, e5]
  dsimp only
  have i5 : CompileInv P { st5 with currentClass := ⟨false⟩ :: st5.currentClass } :=
    c5.inv.transfer (Eq.refl _) (Eq.refl _) c5.inv.current (Eq.refl _) (Eq.refl _) (Eq.refl _)
  have p5 := c5.pre hp (b := 5) (by omega)
  obtain ⟨st6, e6, s6⟩ := ParseClassBody_ok P decl nd fuel st1.parser.Previous
    { st5 with currentClass := ⟨false⟩ :: st5.currentClass } hd
    (show tokensLeft st5 < nd by omega) (show tokensLeft st5 < fuel by omega)
    (List.cons_ne_nil _ _) s1.inv.prev ⟨i5, p5.2⟩
  have hlen6 : st6.currentClass.length = st5.currentClass.length + 1 := s6.classes
  obtain ⟨st7, e7, i7, sh7, hlen7, hl7, hp7⟩ := ParseClassEnd_ok P st6 s6.inv (by
    intro h
    rw [h] at hlen6
    cases hlen6)
  rw [e6, Option.some_bind]
  have l6 : tokensLeft st6 ≤ tokensLeft st5 := s6.left
  have k6 : potential st6 ≤ potential st5 + 5 := s6.cost
  have sl6 : tokensLeft st6 < tokensLeft st5 → potential st6 + 16 ≤ potential st5 + 5 := s6.slack
  have k5 := c5.cost
  have sl5 := c5.slack
  refine ⟨st7, e7, i7, keptChain_next c5.shape (keptChain_next s6.shape sh7), ?_, by omega,
    by omega, fun hl => ?_⟩
  · have := c5.classes
    omega
  · by_cases h : tokensLeft st6 < tokensLeft st5
    · have := sl6 h
      omega
    · have := sl5 (by omega)
      omega

/-! ### Declarations and statements -/

theorem ParseStatementBody_ok (P : CompileBound) (decl stmt : ParseStatementFn)
    (nd ns fuel : Nat) (st : CompileState) (hd : ParsesStatements P decl nd)
    (hs : ParsesStatements P stmt ns) (hnd : tokensLeft st ≤ nd) (hns : tokensLeft st ≤ ns)
    (hf : tokensLeft st < fuel) (hp : CompilePre P st 0) :
    ∃ st1, ParseStatementBody P.env decl stmt fuel st = some st1 ∧ CompileStep P st st1 0 ∧
      (0 < tokensLeft st → tokensLeft st1 < tokensLeft st) := by
  unfold ParseStatementBody
  simp only [Option.bind_eq_bind]
  -- print
  obtain ⟨b1, st1, e1, s1, hf1, ht1⟩ := Match_ok P TOKEN_PRINT st hp.1
  refine bind_returns (b1, st1) e1 ?_
  cases b1 with
  | true =>
    obtain ⟨_, _, _, h⟩ := ht1 (Eq.refl _)
    obtain ⟨hl, _⟩ := h (by decide)
    obtain ⟨st2, e2, s2⟩ := ParsePrintStatement_ok P fuel st1 (by omega) (s1.pre hp (by omega))
    have l2 := s2.left
    exact ⟨st2, by simp only [if_true]; exact e2, s1.step_next s2, fun _ => by omega⟩
  | false =>
    obtain ⟨hst, _⟩ := hf1 (Eq.refl _)
    subst hst
    simp only [Bool.false_eq_true, if_false]
    -- for
    obtain ⟨b2, st2, e2, s2, hf2, ht2⟩ := Match_ok P TOKEN_FOR st1 hp.1
    refine bind_returns (b2, st2) e2 ?_
    cases b2 with
    | true =>
      obtain ⟨_, _, _, h⟩ := ht2 (Eq.refl _)
      obtain ⟨hl, _⟩ := h (by decide)
      obtain ⟨st3, e3, s3⟩ := ParseForStatement_ok P stmt ns fuel st2 hs (by omega) (by omega)
        (s2.pre hp (by omega))
      have l3 := s3.left
      exact ⟨st3, by simp only [if_true]; exact e3, s2.step_next s3, fun _ => by omega⟩
    | false =>
      obtain ⟨hst, _⟩ := hf2 (Eq.refl _)
      subst hst
      simp only [Bool.false_eq_true, if_false]
      -- if
      obtain ⟨b3, st3, e3, s3, hf3, ht3⟩ := Match_ok P TOKEN_IF st2 hp.1
      refine bind_returns (b3, st3) e3 ?_
      cases b3 with
      | true =>
        obtain ⟨_, _, _, h⟩ := ht3 (Eq.refl _)
        obtain ⟨hl, _⟩ := h (by decide)
        obtain ⟨st4, e4, s4⟩ := ParseIfStatement_ok P stmt ns fuel st3 hs (by omega) (by omega)
          (s3.pre hp (by omega))
        have l4 := s4.left
        exact ⟨st4, by simp only [if_true]; exact e4, s3.step_next s4, fun _ => by omega⟩
      | false =>
        obtain ⟨hst, _⟩ := hf3 (Eq.refl _)
        subst hst
        simp only [Bool.false_eq_true, if_false]
        -- return
        obtain ⟨b4, st4, e4, s4, hf4, ht4⟩ := Match_ok P TOKEN_RETURN st3 hp.1
        refine bind_returns (b4, st4) e4 ?_
        cases b4 with
        | true =>
          obtain ⟨_, _, _, h⟩ := ht4 (Eq.refl _)
          obtain ⟨hl, _⟩ := h (by decide)
          obtain ⟨st5, e5, s5⟩ := ParseReturnStatement_ok P fuel st4 (by omega)
            (s4.pre hp (by omega))
          have l5 := s5.left
          exact ⟨st5, by simp only [if_true]; exact e5, s4.step_next s5, fun _ => by omega⟩
        | false =>
          obtain ⟨hst, _⟩ := hf4 (Eq.refl _)
          subst hst
          simp only [Bool.false_eq_true, if_false]
          -- while
          obtain ⟨b5, st5, e5, s5, hf5, ht5⟩ := Match_ok P TOKEN_WHILE st4 hp.1
          refine bind_returns (b5, st5) e5 ?_
          cases b5 with
          | true =>
            obtain ⟨_, _, _, h⟩ := ht5 (Eq.refl _)
            obtain ⟨hl, _⟩ := h (by decide)
            obtain ⟨st6, e6, s6⟩ := ParseWhileStatement_ok P stmt ns fuel st5 hs (by omega)
              (by omega) (s5.pre hp (by omega))
            have l6 := s6.left
            exact ⟨st6, by simp only [if_true]; exact e6, s5.step_next s6, fun _ => by omega⟩
          | false =>
            obtain ⟨hst, _⟩ := hf5 (Eq.refl _)
            subst hst
            simp only [Bool.false_eq_true, if_false]
            -- block
            obtain ⟨b6, st6, e6, s6, hf6, ht6⟩ := Match_ok P TOKEN_LEFT_BRACE st5 hp.1
            refine bind_returns (b6, st6) e6 ?_
            cases b6 with
            | true =>
              obtain ⟨_, _, _, h⟩ := ht6 (Eq.refl _)
              obtain ⟨hl, _⟩ := h (by decide)
              obtain ⟨st7, e7, s7⟩ := BeginScope_step st6 s6.inv.current
              have c7 := s6.step_next (s7.step s6.inv)
              have l7 := s7.left
              obtain ⟨st8, e8, s8, _⟩ := ParseBlock_ok P decl nd fuel st7 hd (by omega)
                (by omega) (c7.pre hp (by omega))
              obtain ⟨st9, e9, s9⟩ := EndScope_step st8 s8.inv.current
              have l8 := s8.left
              have l9 := s9.left
              refine ⟨st9, ?_, (c7.step_next s8).step_next (s9.step s8.inv), fun _ => by omega⟩
              simp only [if_true, e7, Option.some_bind, e8, e9]
            | false =>
              obtain ⟨hst, _⟩ := hf6 (Eq.refl _)
              subst hst
              simp only [Bool.false_eq_true, if_false]
              exact ParseExpressionStatement_ok P fuel st6 hf hp

theorem ParseDeclarationStatementBody_ok (P : CompileBound) (decl stmt : ParseStatementFn)
    (nd ns fuel : Nat) (st : CompileState) (hd : ParsesStatements P decl nd)
    (hs : ParsesStatements P stmt ns) (hnd : tokensLeft st ≤ nd) (hns : tokensLeft st < ns)
    (hf : tokensLeft st < fuel) (hp : CompilePre P st 0) :
    ∃ st1, ParseDeclarationStatementBody P.env decl stmt fuel st = some st1 ∧
      CompileStep P st st1 0 ∧ (0 < tokensLeft st → tokensLeft st1 < tokensLeft st) := by
  unfold ParseDeclarationStatementBody
  simp only [Option.bind_eq_bind]
  have sync : ∀ st4, CompileStep P st st4 0 →
      (0 < tokensLeft st → tokensLeft st4 < tokensLeft st) →
      ∃ b, (if st4.parser.PanicMode = true then Synchronize st4 else some st4) = some b ∧
        CompileStep P st b 0 ∧ (0 < tokensLeft st → tokensLeft b < tokensLeft st) := by
    intro st4 s4 h4
    split
    · obtain ⟨st5, e5, s5⟩ := Synchronize_ok P st4 s4.inv
      have l5 := s5.left
      exact ⟨st5, e5, s4.step_next s5, fun hpos => by have := h4 hpos; omega⟩
    · exact ⟨st4, Eq.refl _, s4, h4⟩
  obtain ⟨b1, st1, e1, s1, hf1, ht1⟩ := Match_ok P TOKEN_CLASS st hp.1
  refine bind_returns (b1, st1) e1 ?_
  cases b1 with
  | true =>
    obtain ⟨_, _, _, h⟩ := ht1 (Eq.refl _)
    obtain ⟨hl, hpay⟩ := h (by decide)
    obtain ⟨st2, e2, s2⟩ := ParseClassDeclaration_ok P decl nd fuel st1 hd (by omega) (by omega)
      ⟨s1.inv, by have := hp.2; omega⟩
    have l2 := s2.left
    simp only [if_true]
    exact bind_returns st2 e2 (sync st2 (s1.paid hpay s2 (by omega)) (fun _ => by omega))
  | false =>
    obtain ⟨hst, _⟩ := hf1 (Eq.refl _)
    subst hst
    simp only [Bool.false_eq_true, if_false]
    obtain ⟨b2, st2, e2, s2, hf2, ht2⟩ := Match_ok P TOKEN_FUN st1 hp.1
    refine bind_returns (b2, st2) e2 ?_
    cases b2 with
    | true =>
      obtain ⟨_, _, _, h⟩ := ht2 (Eq.refl _)
      obtain ⟨hl, hpay⟩ := h (by decide)
      obtain ⟨st3, e3, s3⟩ := ParseFunctionDeclaration_ok P decl nd fuel st2 hd (by omega)
        (by omega) ⟨s2.inv, by have := hp.2; omega⟩
      have l3 := s3.left
      simp only [if_true]
      exact bind_returns st3 e3 (sync st3 (s2.paid hpay s3 (by omega)) (fun _ => by omega))
    | false =>
      obtain ⟨hst, _⟩ := hf2 (Eq.refl _)
      subst hst
      simp only [Bool.false_eq_true, if_false]
      obtain ⟨b3, st3, e3, s3, hf3, ht3⟩ := Match_ok P TOKEN_VAR st2 hp.1
      refine bind_returns (b3, st3) e3 ?_
      cases b3 with
      | true =>
        obtain ⟨_, _, _, h⟩ := ht3 (Eq.refl _)
        obtain ⟨hl, hpay⟩ := h (by decide)
        obtain ⟨st4, e4, s4⟩ := ParseVarDeclarationStatement_ok P fuel st3 (by omega)
          ⟨s3.inv, by have := hp.2; omega⟩
        have l4 := s4.left
        simp only [if_true]
        exact bind_returns st4 e4 (sync st4 (s3.paid hpay s4 (by omega)) (fun _ => by omega))
      | false =>
        obtain ⟨hst, _⟩ := hf3 (Eq.refl _)
        subst hst
        simp only [Bool.false_eq_true, if_false]
        obtain ⟨st4, e4, s4, h4⟩ := hs st3 hp hns
        exact bind_returns st4 e4 (sync st4 s4 h4)

/-- The functions `ParseDeclarationStatement` and `ParseStatement` return on
every state with fewer than half as many tokens left as the fuel. -/
theorem ParseStatements_ok (P : CompileBound) : ∀ fuel : Nat,
    ParsesStatements P (ParseDeclarationStatement P.env fuel) (fuel / 2) ∧
      ParsesStatements P (ParseStatement P.env fuel) ((fuel + 1) / 2) := by
  intro fuel
  induction fuel with
  | zero =>
    constructor
    · intro st _ h
      omega
    · intro st _ h
      omega
  | succ f ih =>
    obtain ⟨ihd, ihs⟩ := ih
    constructor
    · intro st hp hn
      exact ParseDeclarationStatementBody_ok P _ _ (f / 2) ((f + 1) / 2) (f + 1) st ihd ihs
        (by omega) (by omega) (by omega) hp
    · intro st hp hn
      exact ParseStatementBody_ok P _ _ (f / 2) ((f + 1) / 2) (f + 1) st ihd ihs
        (by omega) (by omega) (by omega) hp

theorem CompileLoop_ok (P : CompileBound) (fuel : Nat) : ∀ (k : Nat) (st : CompileState),
    tokensLeft st < fuel / 2 → tokensLeft st < k → CompilePre P st 0 →
    ∃ st1, CompileLoop P.env fuel k st = some st1 ∧ CompileStep P st st1 0 ∧
      st1.parser.Previous.Type_ = TOKEN_EOF ∧ st1.parser.Current.Type_ = TOKEN_EOF := by
  intro k
  induction k with
  | zero => intro st _ h; omega
  | succ m ih =>
    intro st hn hk hp
    unfold CompileLoop
    obtain ⟨b, st1, e1, s1, hf1, ht1⟩ := Match_ok P TOKEN_EOF st hp.1
    rw [e1]
    cases b with
    | true =>
      dsimp only
      obtain ⟨h1, h2, _, _⟩ := ht1 (Eq.refl _)
      have l1 := s1.left
      refine ⟨st1, Eq.refl _, s1, by rw [h2]; exact h1, ?_⟩
      apply tokensLeft_eof s1.inv
      have := tokensLeft_zero h1
      omega
    | false =>
      dsimp only
      obtain ⟨hst, hne⟩ := hf1 (Eq.refl _)
      subst hst
      have hpos := tokensLeft_pos hp.1 hne
      obtain ⟨st2, e2, s2, h2⟩ := (ParseStatements_ok P fuel).1 st1 hp hn
      have hl := h2 hpos
      obtain ⟨st3, e3, s3, h3⟩ := ih st2 (by omega) (by omega) (s2.pre hp (by omega))
      rw [e2]
      exact ⟨st3, e3, s2.step_next s3, h3⟩

/-! ### `Compile` returns -/

/-- Function `Compile` returns on every source text, with enough fuel and while
the string table has room: the tokens are consumed to the end-of-file token, the scanner stands at the
terminator of the text,
`HadError` is set exactly when a message has been written, the result is
`NULL` exactly then, and otherwise it is the script function, the first
object allocated, which is recorded last. -/
theorem Compile_ok (env : CompileEnv) (fuel : Nat) (vm : VMState) (source : List Nat)
    (hinv : InternInv vm) (hcap : vm.Strings.Capacity < 2 ^ 30)
    (hsize : vm.Strings.Count + 32 * source.length + 41 ≤ 3 * 2 ^ 27)
    (hfresh : ∀ k, env.alloc k ∉ vm.Objects)
    (hinj : ∀ j k, env.alloc j = env.alloc k → j = k)
    (hfuel : 2 * source.length + 4 ≤ fuel) :
    ∃ st, Compile env fuel vm source =
        some (if st.parser.HadError = true then none else some (env.alloc 0), st) ∧
      st.parser.Previous.Type_ = TOKEN_EOF ∧ st.parser.Current.Type_ = TOKEN_EOF ∧
      (st.parser.HadError = true ↔ st.stderr ≠ []) ∧ st.current = [] ∧
      (∃ f, st.Functions.head? = some (env.alloc 0, f) ∧ f.Name = none) ∧
      st.scanner.Source = source ∧ st.scanner.Current ≤ source.length ∧
      st.scanner.IsAtEnd = true := by
  unfold Compile
  have eI : InitCompiler env TYPE_SCRIPT
      ⟨InitScanner source, ⟨zeroToken, zeroToken, false, false⟩, [], [], vm, [], 0, []⟩ =
      some ⟨InitScanner source, ⟨zeroToken, zeroToken, false, false⟩,
        [⟨env.alloc 0, ⟨0, 0, InitChunk, none⟩, TYPE_SCRIPT,
          [⟨SyntheticToken (chars "this"), 0, false⟩], [], 0⟩], [],
        { vm with Objects := env.alloc 0 :: vm.Objects }, [], 1, []⟩ := by
    unfold InitCompiler NewFunction
    simp only [if_neg (hfresh 0), Option.bind_eq_bind, Option.some_bind, ne_eq,
      not_true_eq_false, if_false]
    rfl
  simp only [Option.bind_eq_bind, eI, Option.some_bind]
  have e27 : (2 : Nat) ^ 27 = 134217728 := by norm_num
  have e29 : (2 : Nat) ^ 29 = 536870912 := by norm_num
  rw [e27] at hsize
  have i2 : CompileInv (compileBound env source vm.Strings.Count)
      ⟨InitScanner source, ⟨zeroToken, zeroToken, false, false⟩,
        [⟨env.alloc 0, ⟨0, 0, InitChunk, none⟩, TYPE_SCRIPT,
          [⟨SyntheticToken (chars "this"), 0, false⟩], [], 0⟩], [],
        { vm with Objects := env.alloc 0 :: vm.Objects }, [], 1, []⟩ := by
    refine ⟨Eq.refl _, Nat.zero_le _, (fun h => absurd (show zeroToken.Type_ = TOKEN_EOF from h) (by decide)), Nat.le_refl _,
      Nat.le_refl _,
      List.cons_ne_nil _ _, InternInv_object hinv _, hcap, Nat.le_succ _, ?_, hinj, ?_, ?_⟩
    · intro k hk hm
      rcases List.mem_cons.mp hm with e | e
      · have := hinj _ _ e
        have hk' : 1 ≤ k := hk
        omega
      · exact hfresh k e
    · show 4 * (vm.Strings.Count + (32 * source.length + 40) + 1) ≤ 3 * 2 ^ 29
      rw [e29]
      omega
    · exact ⟨(fun h => Bool.noConfusion h), (fun h => absurd (Eq.refl _) h)⟩
  have p2 : CompilePre (compileBound env source vm.Strings.Count)
      ⟨InitScanner source, ⟨zeroToken, zeroToken, false, false⟩,
        [⟨env.alloc 0, ⟨0, 0, InitChunk, none⟩, TYPE_SCRIPT,
          [⟨SyntheticToken (chars "this"), 0, false⟩], [], 0⟩], [],
        { vm with Objects := env.alloc 0 :: vm.Objects }, [], 1, []⟩ 0 := by
    refine ⟨i2, ?_⟩
    show 1 + 32 * (if zeroToken.Type_ = TOKEN_EOF then 0 else source.length + 1 - 0) + 0 ≤
      32 * source.length + 40
    rw [if_neg (by decide)]
    omega
  have hl2 : tokensLeft (⟨InitScanner source, ⟨zeroToken, zeroToken, false, false⟩,
        [⟨env.alloc 0, ⟨0, 0, InitChunk, none⟩, TYPE_SCRIPT,
          [⟨SyntheticToken (chars "this"), 0, false⟩], [], 0⟩], [],
        { vm with Objects := env.alloc 0 :: vm.Objects }, [], 1, []⟩ : CompileState) ≤
      source.length + 1 := by
    show (if zeroToken.Type_ = TOKEN_EOF then 0 else source.length + 1 - 0) ≤ source.length + 1
    rw [if_neg (by decide)]
    omega
  obtain ⟨st3, e3, s3, _⟩ := Advance_ok (compileBound env source vm.Strings.Count) _ i2
  have l3 := s3.left
  obtain ⟨st4, e4, s4, hprev, hcur⟩ := CompileLoop_ok (compileBound env source vm.Strings.Count)
    fuel fuel st3 (by omega) (by omega) (s3.pre p2 (by omega))
  have hshape := keptChain_next s3.shape s4.shape
  obtain ⟨c4, cs4, hc4, hk4, htail⟩ := keptChain_cons hshape
  cases htail
  obtain ⟨c, st5, e5, hk5, hcur5, hsc5, hpar5, _, _, _, herr5, hfun5⟩ :=
    EndCompiler_ok st4 c4 [] hc4
  have hk := hk4.kept_next hk5
  have e3' : Advance ⟨InitScanner source, ⟨zeroToken, zeroToken, false, false⟩,
        [⟨env.alloc 0, ⟨0, 0, InitChunk, none⟩, TYPE_SCRIPT,
          [⟨SyntheticToken (chars "this"), 0, false⟩], [], 0⟩], [],
        { vm with Objects := env.alloc 0 :: vm.Objects }, [], 1, []⟩ = some st3 := e3
  have e4' : CompileLoop env fuel fuel st3 = some st4 := e4
  refine ⟨st5, ?_, by rw [hpar5]; exact hprev, by rw [hpar5]; exact hcur, ?_, hcur5,
    ⟨c.Function, ?_, hk.2.2.1⟩, by rw [hsc5]; exact s4.inv.source,
    by rw [hsc5]; exact s4.inv.pos, by rw [hsc5]; exact s4.inv.eof hcur⟩
  · rw [e3', Option.some_bind, e4', Option.some_bind, e5, Option.some_bind]
    have : c.FunctionAddr = env.alloc 0 := hk.1
    rw [this]
  · rw [hpar5, herr5]
    exact s4.inv.err
  · rw [hfun5, List.head?_cons]
    have : c.FunctionAddr = env.alloc 0 := hk.1
    rw [this]

theorem afterCompile_heap (vm : VM) (st : CompileState) (p : Nat) :
    (vm.afterCompile st).Heap p = vm.Heap p ∨
      (∃ f, (vm.afterCompile st).Heap p = some (Obj.Function f)) ∨
      ∃ s, (vm.afterCompile st).Heap p = some (Obj.String s) := by
  unfold VM.afterCompile
  dsimp only
  split
  · exact Or.inr (Or.inl ⟨_, Eq.refl _⟩)
  · split
    · exact Or.inr (Or.inr ⟨_, Eq.refl _⟩)
    · exact Or.inl (Eq.refl _)

theorem sampleVMEnv_alloc (j k : Nat) (h : sampleVMEnv.alloc j = sampleVMEnv.alloc k) :
    j = k := by
  have : 5000 + 8 * j = 5000 + 8 * k := h
  omega

theorem IsAtEnd_iff_of_no_nul (sc : Scanner) (hz : ∀ c ∈ sc.Source, c ≠ 0)
    (h0 : sc.Current ≤ sc.Source.length) :
    sc.IsAtEnd = true ↔ sc.Current = sc.Source.length := by
  unfold Scanner.IsAtEnd Scanner.charAt
  rw [beq_iff_eq]
  constructor
  · intro h
    by_contra hne
    have hlt : sc.Current < sc.Source.length := by omega
    rw [List.getD_eq_getElem _ _ hlt] at h
    exact hz _ (List.getElem_mem hlt) h
  · intro h
    rw [h, List.getD_eq_default _ _ (Nat.le_refl _)]

/-- Claim C27 (result of `Compile`): on every source text `Compile` returns,
provided the string table has room for the strings of the text (its `int`
capacity stays below 2^30; 32 entries per byte of the text are allowed for),
the allocator hands out addresses that are not in use, and the fuel of the
model covers the text.  When it returns, the whole text has been scanned: the
buffer of the scanner is the source text, the scanner stands at its
terminator (at offset `length` when the text contains no NUL), and the current
and the previous token are the end-of-file token; the result is `NULL` exactly
when `parser.HadError` is set, which is exactly when a message has been
written; and with no error the result is the script function: the first object
allocated, of no name, recorded as the function whose compilation ended last,
with no compiler left current.  When `Compile` returns `NULL`, `Interpret`
returns `INTERPRET_COMPILE_ERROR` together with the messages, and the machine
is the one before the call but for the objects of the compiler: the value
stack, the frames, the open upvalues, the globals and the output are
unchanged, and every object that is new or changed is a function or a string,
so no closure is created. -/
theorem C27_compile_result (env : VMEnv) (fuel : Nat) (vm : VM) (source : List Nat)
    (hinv : InternInv ⟨vm.strings, vm.Strings, vm.Objects⟩)
    (hcap : vm.Strings.Capacity < 2 ^ 30)
    (hsize : vm.Strings.Count + 32 * source.length + 41 ≤ 3 * 2 ^ 27)
    (hfresh : ∀ k, env.alloc (vm.Allocs + k) ∉ vm.Objects)
    (hinj : ∀ j k, env.alloc j = env.alloc k → j = k)
    (hfuel : 2 * source.length + 4 ≤ fuel) :
    ∃ r st,
      Compile ⟨fun k => env.alloc (vm.Allocs + k), env.strtod⟩ fuel
        ⟨vm.strings, vm.Strings, vm.Objects⟩ source = some (r, st) ∧
      st.parser.Current.Type_ = TOKEN_EOF ∧ st.parser.Previous.Type_ = TOKEN_EOF ∧
      st.scanner.Source = source ∧ st.scanner.IsAtEnd = true ∧
      st.scanner.Current ≤ source.length ∧
      ((∀ c ∈ source, c ≠ 0) → st.scanner.Current = source.length) ∧
      (r = none ↔ st.parser.HadError = true) ∧
      (st.parser.HadError = true ↔ st.stderr ≠ []) ∧
      (st.parser.HadError = false →
        r = some (env.alloc vm.Allocs) ∧ st.current = [] ∧
        ∃ f, st.Functions.head? = some (env.alloc vm.Allocs, f) ∧ f.Name = none) ∧
      (r = none →
        Interpret env fuel vm source =
          some (INTERPRET_COMPILE_ERROR, vm.afterCompile st, st.stderr) ∧
        (vm.afterCompile st).Stack = vm.Stack ∧ (vm.afterCompile st).Frames = vm.Frames ∧
        (vm.afterCompile st).OpenUpValues = vm.OpenUpValues ∧
        (vm.afterCompile st).Globals = vm.Globals ∧
        (vm.afterCompile st).stdout = vm.stdout ∧ (vm.afterCompile st).stderr = vm.stderr ∧
        ∀ p, (vm.afterCompile st).Heap p = vm.Heap p ∨
          (∃ f, (vm.afterCompile st).Heap p = some (Obj.Function f)) ∨
          ∃ s, (vm.afterCompile st).Heap p = some (Obj.String s)) := by
  obtain ⟨st, e, hprev, hcur, herr, hcurrent, ⟨f, hf, hname⟩, hsrc, hpos, hend⟩ :=
    Compile_ok ⟨fun k => env.alloc (vm.Allocs + k), env.strtod⟩ fuel
      ⟨vm.strings, vm.Strings, vm.Objects⟩ source hinv hcap hsize hfresh
      (fun j k h => by have := hinj _ _ h; omega) hfuel
  refine ⟨_, st, e, hcur, hprev, hsrc, hend, hpos, ?_, ?_, herr, ?_, ?_⟩
  · intro hz
    have h := (IsAtEnd_iff_of_no_nul st.scanner (by rw [hsrc]; exact hz)
      (by rw [hsrc]; exact hpos)).1 hend
    rw [h, hsrc]
  · cases hh : st.parser.HadError with
    | true => simp
    | false => simp
  · intro hh
    rw [hh]
    exact ⟨by simp, hcurrent, f, hf, hname⟩
  · intro hr
    refine ⟨?_, Eq.refl _, Eq.refl _, Eq.refl _, Eq.refl _, Eq.refl _, Eq.refl _,
      afterCompile_heap vm st⟩
    unfold Interpret
    rw [e, hr]

/-- Witness for C27, on a machine in which nothing has been allocated.  The text
`1 +` is scanned to its end (offset 3), `Compile` returns `NULL` with the
message `Expected expression.` at the end-of-file token, and `Interpret`
returns `INTERPRET_COMPILE_ERROR`.  The text `1;` is scanned to its end
(offset 2) and `Compile` returns the script function at the first address of
the allocator, with no message and the code `OP_CONSTANT 0`, `OP_POP`,
`OP_NIL`, `OP_RETURN`. -/
theorem C27_compile_result_witness :
    ((∃ r st,
      Compile ⟨fun k => sampleVMEnv.alloc (freshVM.Allocs + k), sampleVMEnv.strtod⟩ 10
        ⟨freshVM.strings, freshVM.Strings, freshVM.Objects⟩ (chars "1 +") = some (r, st) ∧
      st.parser.Current.Type_ = TOKEN_EOF ∧ st.parser.Previous.Type_ = TOKEN_EOF ∧
      st.scanner.Source = (chars "1 +") ∧ st.scanner.IsAtEnd = true ∧
      st.scanner.Current ≤ (chars "1 +").length ∧
      ((∀ c ∈ (chars "1 +"), c ≠ 0) → st.scanner.Current = (chars "1 +").length) ∧
      (r = none ↔ st.parser.HadError = true) ∧
      (st.parser.HadError = true ↔ st.stderr ≠ []) ∧
      (st.parser.HadError = false →
        r = some (sampleVMEnv.alloc freshVM.Allocs) ∧ st.current = [] ∧
        ∃ f, st.Functions.head? = some (sampleVMEnv.alloc freshVM.Allocs, f) ∧ f.Name = none) ∧
      (r = none →
        Interpret sampleVMEnv 10 freshVM (chars "1 +") =
          some (INTERPRET_COMPILE_ERROR, freshVM.afterCompile st, st.stderr) ∧
        (freshVM.afterCompile st).Stack = freshVM.Stack ∧ (freshVM.afterCompile st).Frames = freshVM.Frames ∧
        (freshVM.afterCompile st).OpenUpValues = freshVM.OpenUpValues ∧
        (freshVM.afterCompile st).Globals = freshVM.Globals ∧
        (freshVM.afterCompile st).stdout = freshVM.stdout ∧ (freshVM.afterCompile st).stderr = freshVM.stderr ∧
        ∀ p, (freshVM.afterCompile st).Heap p = freshVM.Heap p ∨
          (∃ f, (freshVM.afterCompile st).Heap p = some (Obj.Function f)) ∨
          ∃ s, (freshVM.afterCompile st).Heap p = some (Obj.String s))) ∧
      (Interpret sampleVMEnv 10 freshVM (chars "1 +")).map
          (fun x => (x.1, x.2.2.map (fun m => (m.1.Type_, m.2)))) =
        some (INTERPRET_COMPILE_ERROR, [(TOKEN_EOF, chars "Expected expression.")]) ∧
      (Compile ⟨fun k => sampleVMEnv.alloc (freshVM.Allocs + k), sampleVMEnv.strtod⟩ 10
          ⟨freshVM.strings, freshVM.Strings, freshVM.Objects⟩ (chars "1 +")).map
          (fun x => (x.1, x.2.scanner.Current)) = some (none, 3)) ∧
    ((∃ r st,
      Compile ⟨fun k => sampleVMEnv.alloc (freshVM.Allocs + k), sampleVMEnv.strtod⟩ 10
        ⟨freshVM.strings, freshVM.Strings, freshVM.Objects⟩ (chars "1;") = some (r, st) ∧
      st.parser.Current.Type_ = TOKEN_EOF ∧ st.parser.Previous.Type_ = TOKEN_EOF ∧
      st.scanner.Source = (chars "1;") ∧ st.scanner.IsAtEnd = true ∧
      st.scanner.Current ≤ (chars "1;").length ∧
      ((∀ c ∈ (chars "1;"), c ≠ 0) → st.scanner.Current = (chars "1;").length) ∧
      (r = none ↔ st.parser.HadError = true) ∧
      (st.parser.HadError = true ↔ st.stderr ≠ []) ∧
      (st.parser.HadError = false →
        r = some (sampleVMEnv.alloc freshVM.Allocs) ∧ st.current = [] ∧
        ∃ f, st.Functions.head? = some (sampleVMEnv.alloc freshVM.Allocs, f) ∧ f.Name = none) ∧
      (r = none →
        Interpret sampleVMEnv 10 freshVM (chars "1;") =
          some (INTERPRET_COMPILE_ERROR, freshVM.afterCompile st, st.stderr) ∧
        (freshVM.afterCompile st).Stack = freshVM.Stack ∧ (freshVM.afterCompile st).Frames = freshVM.Frames ∧
        (freshVM.afterCompile st).OpenUpValues = freshVM.OpenUpValues ∧
        (freshVM.afterCompile st).Globals = freshVM.Globals ∧
        (freshVM.afterCompile st).stdout = freshVM.stdout ∧ (freshVM.afterCompile st).stderr = freshVM.stderr ∧
        ∀ p, (freshVM.afterCompile st).Heap p = freshVM.Heap p ∨
          (∃ f, (freshVM.afterCompile st).Heap p = some (Obj.Function f)) ∨
          ∃ s, (freshVM.afterCompile st).Heap p = some (Obj.String s))) ∧
      (Compile ⟨fun k => sampleVMEnv.alloc (freshVM.Allocs + k), sampleVMEnv.strtod⟩ 10
          ⟨freshVM.strings, freshVM.Strings, freshVM.Objects⟩ (chars "1;")).map
          (fun x => (x.1, x.2.scanner.Current, x.2.stderr.length,
            x.2.Functions.map (fun f => (f.1, f.2.Chunk.Code)))) =
        some (some 5000, 2, 0,
          [(5000, [OpCode.OP_CONSTANT, 0, OpCode.OP_POP, OpCode.OP_NIL,
            OpCode.OP_RETURN])])) :=
  ⟨⟨C27_compile_result sampleVMEnv 10 freshVM (chars "1 +") (InternInv_empty _) (by decide)
      (by decide) (fun _ h => nomatch h) sampleVMEnv_alloc (by decide),
    by decide, by decide⟩,
   ⟨C27_compile_result sampleVMEnv 10 freshVM (chars "1;") (InternInv_empty _)
      (by decide) (by decide) (fun _ h => nomatch h) sampleVMEnv_alloc (by decide),
    by decide⟩⟩

/-! ### The tags of the NaN-boxed values -/

theorem lor_land_absorb (a p : Nat) : (a ||| p) &&& a = a := by
  apply Nat.eq_of_testBit_eq
  intro i
  simp only [Nat.testBit_land, Nat.testBit_lor]
  cases a.testBit i <;> cases p.testBit i <;> rfl

theorem land_of_land_eq {v a b : Nat} (h : v &&& a = a) (hb : a &&& b = b) : v &&& b = b := by
  rw [← hb, ← Nat.land_assoc, h]

theorem IS_OBJ_iff (v : Value) : IS_OBJ v = true ↔ v &&& (QNAN ||| SIGN_BIT) = QNAN ||| SIGN_BIT := by
  unfold IS_OBJ
  exact beq_iff_eq

theorem IS_NUMBER_iff (v : Value) : IS_NUMBER v = true ↔ v &&& QNAN ≠ QNAN := by
  unfold IS_NUMBER
  exact bne_iff_ne

theorem IS_NIL_iff (v : Value) : IS_NIL v = true ↔ v = NIL_VAL := by
  unfold IS_NIL
  exact beq_iff_eq

theorem IS_OBJ_not_number {v : Value} (h : IS_OBJ v = true) : IS_NUMBER v = false := by
  rw [IS_OBJ_iff] at h
  have h1 : v &&& QNAN = QNAN := land_of_land_eq h (by decide)
  cases hn : IS_NUMBER v with
  | false => rfl
  | true => exact absurd h1 ((IS_NUMBER_iff v).1 hn)

theorem IS_BOOL_only {v : Value} (h : IS_BOOL v = true) :
    IS_NUMBER v = false ∧ IS_NIL v = false ∧ IS_OBJ v = false := by
  rcases (IS_BOOL_iff v).1 h with e | e <;> subst e <;> decide

theorem IS_BOOL_not_number {v : Value} (h : IS_BOOL v = true) : IS_NUMBER v = false :=
  (IS_BOOL_only h).1

theorem IS_BOOL_not_obj {v : Value} (h : IS_BOOL v = true) : IS_OBJ v = false :=
  (IS_BOOL_only h).2.2

theorem IS_NIL_only {v : Value} (h : IS_NIL v = true) :
    IS_NUMBER v = false ∧ IS_BOOL v = false ∧ IS_OBJ v = false := by
  rw [IS_NIL_iff] at h
  subst h
  decide

theorem OBJ_VAL_testBit (p : Nat) : (OBJ_VAL p).testBit 63 = true := by
  unfold OBJ_VAL
  rw [Nat.testBit_lor, Nat.testBit_lor]
  have : SIGN_BIT.testBit 63 = true := by decide
  rw [this]
  rfl

theorem IS_OBJ_OBJ_VAL (p : Nat) : IS_OBJ (OBJ_VAL p) = true := by
  rw [IS_OBJ_iff]
  unfold OBJ_VAL
  have e : SIGN_BIT ||| QNAN = QNAN ||| SIGN_BIT := by decide
  rw [e]
  exact lor_land_absorb _ _

theorem OBJ_VAL_eq_add {p : Nat} (h : p < 2 ^ 50) : OBJ_VAL p = 16383 * 2 ^ 50 + p := by
  unfold OBJ_VAL
  have e : SIGN_BIT ||| QNAN = 2 ^ 50 * 16383 := by decide
  rw [e, ← Nat.mul_add_lt_is_or h, Nat.mul_comm]

/-- Claim C39 (the tags of the NaN boxing are unambiguous): for every bit
pattern `v` at most one of `IS_NUMBER(v)`, `IS_NIL(v)`, `IS_BOOL(v)`,
`IS_OBJ(v)` holds; `NIL_VAL` satisfies `IS_NIL` only; `BOOL_VAL(b)`, that is
`TRUE_VAL` and `FALSE_VAL`, satisfies `IS_BOOL` only and
`AS_BOOL(BOOL_VAL(b)) = b`; `OBJ_VAL(p)` satisfies `IS_OBJ` only, for every
pointer `p`; and `NIL_VAL`, `FALSE_VAL`, `TRUE_VAL` are pairwise distinct. -/
theorem C39_tags_unambiguous :
    (∀ v : Value,
      ¬ (IS_NUMBER v = true ∧ IS_NIL v = true) ∧ ¬ (IS_NUMBER v = true ∧ IS_BOOL v = true) ∧
      ¬ (IS_NUMBER v = true ∧ IS_OBJ v = true) ∧ ¬ (IS_NIL v = true ∧ IS_BOOL v = true) ∧
      ¬ (IS_NIL v = true ∧ IS_OBJ v = true) ∧ ¬ (IS_BOOL v = true ∧ IS_OBJ v = true)) ∧
    (IS_NIL NIL_VAL = true ∧ IS_NUMBER NIL_VAL = false ∧ IS_BOOL NIL_VAL = false ∧
      IS_OBJ NIL_VAL = false) ∧
    (∀ b : Bool, IS_BOOL (BOOL_VAL b) = true ∧ IS_NUMBER (BOOL_VAL b) = false ∧
      IS_NIL (BOOL_VAL b) = false ∧ IS_OBJ (BOOL_VAL b) = false ∧
      AS_BOOL (BOOL_VAL b) = b) ∧
    (∀ p : Nat, IS_OBJ (OBJ_VAL p) = true ∧ IS_NUMBER (OBJ_VAL p) = false ∧
      IS_NIL (OBJ_VAL p) = false ∧ IS_BOOL (OBJ_VAL p) = false) ∧
    NIL_VAL ≠ FALSE_VAL ∧ NIL_VAL ≠ TRUE_VAL ∧ FALSE_VAL ≠ TRUE_VAL := by
  refine ⟨fun v => ⟨?_, ?_, ?_, ?_, ?_, ?_⟩, by decide, fun b => by cases b <;> decide,
    fun p => ⟨IS_OBJ_OBJ_VAL p, IS_OBJ_not_number (IS_OBJ_OBJ_VAL p), ?_, ?_⟩,
    by decide, by decide, by decide⟩
  · rintro ⟨h1, h2⟩
    rw [(IS_NIL_only h2).1] at h1
    cases h1
  · rintro ⟨h1, h2⟩
    rw [IS_BOOL_not_number h2] at h1
    cases h1
  · rintro ⟨h1, h2⟩
    rw [IS_OBJ_not_number h2] at h1
    cases h1
  · rintro ⟨h1, h2⟩
    rw [(IS_NIL_only h1).2.1] at h2
    cases h2
  · rintro ⟨h1, h2⟩
    rw [(IS_NIL_only h1).2.2] at h2
    cases h2
  · rintro ⟨h1, h2⟩
    rw [IS_BOOL_not_obj h1] at h2
    cases h2
  · cases hn : IS_NIL (OBJ_VAL p) with
    | false => rfl
    | true =>
      have h := (IS_NIL_only hn).2.2
      rw [IS_OBJ_OBJ_VAL p] at h
      cases h
  · cases hn : IS_BOOL (OBJ_VAL p) with
    | false => rfl
    | true =>
      have h := IS_BOOL_not_obj hn
      rw [IS_OBJ_OBJ_VAL p] at h
      cases h

/-- Claim C40 (object pointers under NaN boxing): for every pointer `p` below
2^50 (bits 50 to 63 clear) `AS_OBJ(OBJ_VAL(p)) = p`, and `OBJ_VAL` is injective
on such pointers: two object values have the same bits exactly when they hold
the same pointer. -/
theorem C40_pointer_round_trip (p q : Nat) (hp : p < 2 ^ 50) (hq : q < 2 ^ 50) :
    AS_OBJ (OBJ_VAL p) = p ∧ (OBJ_VAL p = OBJ_VAL q ↔ p = q) := by
  have e : ∀ r : Nat, r < 2 ^ 50 → AS_OBJ (OBJ_VAL r) = r := by
    intro r hr
    unfold AS_OBJ
    have hm : (0x0003ffffffffffff : Nat) = 2 ^ 50 - 1 := by decide
    rw [hm, Nat.and_pow_two_sub_one_eq_mod, OBJ_VAL_eq_add hr, Nat.add_comm,
      Nat.add_mul_mod_self_right, Nat.mod_eq_of_lt hr]
  refine ⟨e p hp, fun h => ?_, fun h => by rw [h]⟩
  rw [← e p hp, ← e q hq, h]

/-- Witness for C40: the pointers 5000 and 5008. -/
theorem C40_pointer_round_trip_witness :
    AS_OBJ (OBJ_VAL 5000) = 5000 ∧ (OBJ_VAL 5000 = OBJ_VAL 5008 ↔ 5000 = 5008) :=
  C40_pointer_round_trip 5000 5008 (by norm_num) (by norm_num)

/-! ### Tombstones and the frame of `TableSet` -/

theorem probeIndex_eq (heap : Nat → ObjString) {c : Nat} (hc : Pow2Cap c) (key : Nat) :
    ∀ d, probeIndex heap c key d = ((heap key).Hash % c + d) % c := by
  intro d
  induction d with
  | zero =>
    show (heap key).Hash &&& mask32 c = _
    rw [and_mask32 hc, Nat.add_zero, Nat.mod_mod]
  | succ d ih =>
    show nextIndex (probeIndex heap c key d) c = _
    rw [ih, nextIndex_eq hc (Nat.mod_lt _ hc.pos), Nat.mod_add_mod, Nat.add_assoc]

theorem TableGet_of_arr {heap : Nat → ObjString} {t : Table}
    (hcount : t.Count = slotsUsed t.Entries) (harr : ArrWF heap t.Entries t.Capacity)
    (hroom : slotsUsed t.Entries < t.Capacity) (key : Nat) :
    ∃ r, TableGet heap t key = some r ∧ ∀ v, r = some v ↔ Holds t.Entries key v := by
  unfold TableGet
  by_cases hc : t.Count = 0
  · simp only [hc, if_true]
    refine ⟨none, rfl, fun v => ⟨fun h => (by cases h), fun h => ?_⟩⟩
    exact absurd h (not_Holds_of_slotsUsed_zero (by rw [← hcount]; exact hc) key v)
  · simp only [hc, if_false]
    obtain ⟨r, x, hr, hx, _, hcase⟩ := FindEntry_spec harr hroom key
    rw [hr]
    dsimp only
    rw [hx]
    dsimp only
    rcases hcase with ⟨hxk, honly⟩ | ⟨hxk, habs, _⟩
    · rw [hxk]
      refine ⟨some x.Value, rfl, fun v => ⟨fun h => ?_, fun h => ?_⟩⟩
      · cases h
        exact ⟨r, x, hx, hxk, rfl⟩
      · obtain ⟨i, y, hy, hyk, hyv⟩ := h
        have := honly i ⟨y, hy, hyk⟩
        subst this
        rw [hx] at hy
        cases hy
        rw [hyv]
    · rw [hxk]
      refine ⟨none, rfl, fun v => ⟨fun h => (by cases h), fun h => ?_⟩⟩
      obtain ⟨i, hi⟩ := h
      exact absurd hi.keyAt (habs i)

theorem option_eq_of_holds {p q : Value → Prop} {r r2 : Option Value}
    (h1 : ∀ v, r = some v ↔ p v) (h2 : ∀ v, r2 = some v ↔ q v) (h : ∀ v, q v ↔ p v) :
    r2 = r := by
  cases r2 with
  | none =>
    cases r with
    | none => rfl
    | some v => exact absurd ((h2 v).2 ((h v).2 ((h1 v).1 rfl))) (by simp)
  | some v => exact ((h1 v).2 ((h v).1 ((h2 v).1 rfl))).symm

/-- Tables that hold the same values for a key give the same `TableGet`. -/
theorem TableGet_same {heap : Nat → ObjString} {t t2 : Table} (hwf : TableWF heap t)
    (hwf2 : TableWF heap t2) (key : Nat)
    (h : ∀ v, Holds t2.Entries key v ↔ Holds t.Entries key v) :
    ∃ r, TableGet heap t key = some r ∧ TableGet heap t2 key = some r := by
  obtain ⟨r, e, hr⟩ := TableGet_spec hwf key
  obtain ⟨r2, e2, hr2⟩ := TableGet_spec hwf2 key
  have := option_eq_of_holds hr hr2 h
  subst this
  exact ⟨r2, e, e2⟩

theorem grow_le_of_cap {c : Nat} (h : c < 2 ^ 30) : GROW_CAPACITY c ≤ INT_MAX := by
  unfold GROW_CAPACITY INT_MAX
  have : (2:Nat) ^ 30 = 1073741824 := by norm_num
  split <;> omega

theorem TableSetGrow_same {heap : Nat → ObjString} {t : Table}
    (h : 4 * (t.Count + 1) ≤ 3 * t.Capacity) : TableSetGrow heap t = some t := by
  unfold TableSetGrow
  rw [if_neg (by omega)]

theorem tombTable_wf : TableWF sampleHeap tombTable := by
  have h1 : Reachable sampleHeap sampleTable :=
    Reachable.set 9 42 Reachable.init (b := true) (by decide)
  have h2 : Reachable sampleHeap ⟨2, 8, sampleEntries.set 2 ⟨some 1, 7⟩⟩ :=
    Reachable.set 1 7 h1 (b := true) (by decide)
  have h3 : Reachable sampleHeap
      ⟨3, 8, (sampleEntries.set 2 ⟨some 1, 7⟩).set 3 ⟨some 17, 3⟩⟩ :=
    Reachable.set 17 3 h2 (b := true) (by decide)
  have h4 : Reachable sampleHeap tombTable := Reachable.delete 1 h3 (b := true) (by decide)
  exact h4.wf

theorem keyless_cases {entries : List Entry} {i : Nat} {x : Entry}
    (hx : entries[i]? = some x) (hk : x.Key = none) :
    (TombAt entries i ∧ x.isEmpty = false) ∨ (EmptyAt entries i ∧ x.isEmpty = true) := by
  cases hn : IS_NIL x.Value with
  | true =>
    exact Or.inr ⟨⟨x, hx, by simp [Entry.isEmpty, hk, hn]⟩, by simp [Entry.isEmpty, hk, hn]⟩
  | false =>
    exact Or.inl ⟨⟨x, hx, by simp [Entry.isTombstone, hk, hn]⟩, by simp [Entry.isEmpty, hk, hn]⟩

theorem LiveAt.not_tomb {entries : List Entry} {i : Nat} (h : LiveAt entries i) :
    ¬ TombAt entries i ∧ ¬ EmptyAt entries i := by
  obtain ⟨e, k, he, hk⟩ := h
  constructor
  · rintro ⟨e2, he2, ht⟩
    rw [he] at he2
    cases he2
    simp [Entry.isTombstone, hk] at ht
  · rintro ⟨e2, he2, ht⟩
    rw [he] at he2
    cases he2
    simp [Entry.isEmpty, hk] at ht

/-- The slot `FindEntry` returns for an absent key is the first slot of the
probe sequence that holds no key. -/
theorem first_keyless {heap : Nat → ObjString} {entries : List Entry} {c key r d1 d0 : Nat}
    {x : Entry} (hc : Pow2Cap c) (hx : entries[r]? = some x) (hk : x.Key = none)
    (hr : r = ((heap key).Hash % c + d1) % c)
    (hlive : ∀ d, d < d1 → LiveAt entries (((heap key).Hash % c + d) % c))
    (hfirst : ∀ d, d < d0 → ¬ TombAt entries (probeIndex heap c key d) ∧
      ¬ EmptyAt entries (probeIndex heap c key d))
    (h0 : TombAt entries (probeIndex heap c key d0) ∨ EmptyAt entries (probeIndex heap c key d0)) :
    r = probeIndex heap c key d0 := by
  rcases Nat.lt_trichotomy d1 d0 with h | h | h
  · have := hfirst d1 h
    rw [probeIndex_eq heap hc, ← hr] at this
    rcases keyless_cases hx hk with ⟨h1, _⟩ | ⟨h1, _⟩
    · exact absurd h1 this.1
    · exact absurd h1 this.2
  · rw [probeIndex_eq heap hc, ← h, hr]
  · have := (hlive d0 h).not_tomb
    rw [← probeIndex_eq heap hc] at this
    rcases h0 with h0 | h0
    · exact absurd h0 this.1
    · exact absurd h0 this.2

theorem runSets_reachable (heap : Nat → ObjString) :
    ∀ (kvs : List (Nat × Value)) (t t2 : Table), Reachable heap t →
      runSets heap t kvs = some t2 → Reachable heap t2 := by
  intro kvs
  induction kvs with
  | nil =>
    intro t t2 h e
    cases e
    exact h
  | cons kv rest ih =>
    intro t t2 h e
    obtain ⟨k, v⟩ := kv
    unfold runSets at e
    cases hs : TableSet heap t k v with
    | none => rw [hs] at e; cases e
    | some r =>
      rw [hs] at e
      obtain ⟨b, t1⟩ := r
      exact ih t1 t2 (Reachable.set k v h hs) e

theorem runDeletes_reachable (heap : Nat → ObjString) :
    ∀ (ds : List Nat) (t t2 : Table), Reachable heap t →
      runDeletes heap t ds = some t2 → Reachable heap t2 := by
  intro ds
  induction ds with
  | nil =>
    intro t t2 h e
    cases e
    exact h
  | cons k rest ih =>
    intro t t2 h e
    unfold runDeletes at e
    cases hs : TableDelete heap t k with
    | none => rw [hs] at e; cases e
    | some r =>
      rw [hs] at e
      obtain ⟨b, t1⟩ := r
      exact ih t1 t2 (Reachable.delete k h hs) e

theorem setsThenDeletes_reachable {heap : Nat → ObjString} {kvs : List (Nat × Value)}
    {ds : List Nat} {t : Table} (e : setsThenDeletes heap kvs ds = some t) :
    Reachable heap t := by
  unfold setsThenDeletes at e
  cases hs : runSets heap InitTable kvs with
  | none => rw [hs] at e; cases e
  | some t1 =>
    rw [hs] at e
    exact runDeletes_reachable heap ds t1 t (runSets_reachable heap kvs _ t1 Reachable.init hs) e

theorem fullTombTable_wf : TableWF sampleHeap fullTombTable :=
  (setsThenDeletes_reachable
    (by decide : setsThenDeletes sampleHeap
      [(0, 7), (1, 7), (2, 7), (3, 7), (4, 7), (5, 7)] [2, 3] = some fullTombTable)).wf

/-- The slots counted by `Count` are the live entries and the tombstones. -/
theorem slotsUsed_eq_live_add_tombstones (l : List Entry) :
    slotsUsed l = liveCount l + l.countP (fun e => e.isTombstone) := by
  unfold slotsUsed liveCount
  induction l with
  | nil => rfl
  | cons e rest ih =>
    simp only [List.countP_cons, ih]
    cases hk : e.Key with
    | none =>
      cases hn : IS_NIL e.Value <;>
        (simp [Entry.isEmpty, Entry.isTombstone, hk, hn]; all_goals omega)
    | some k =>
      simp [Entry.isEmpty, Entry.isTombstone, hk]
      all_goals omega

/-- A call of `TableSet` that grows the table: the array is rebuilt without
tombstones first, and the key goes into the new array. -/
theorem TableSet_grow {heap : Nat → ObjString} {t : Table} (hwf : TableWF heap t)
    (key : Nat) (value : Value) (hgrow : 4 * (t.Count + 1) > 3 * t.Capacity)
    (hcap : t.Capacity < 2 ^ 30) :
    ∃ t1 r x b t2, AdjustCapacity heap t (GROW_CAPACITY t.Capacity) = some t1 ∧
      TableSetGrow heap t = some t1 ∧
      t1.Capacity = GROW_CAPACITY t.Capacity ∧ NoTomb t1.Entries ∧
      t1.Count = liveCount t.Entries ∧
      (∀ k v, Holds t1.Entries k v ↔ Holds t.Entries k v) ∧
      FindEntry heap t1.Entries t1.Capacity key = some r ∧ t1.Entries[r]? = some x ∧
      TableSet heap t key value = some (b, t2) ∧
      t2.Entries = t1.Entries.set r ⟨some key, value⟩ ∧ t2.Capacity = t1.Capacity ∧
      ((∃ v, Holds t.Entries key v) →
        x.Key = some key ∧ b = false ∧ t2.Count = liveCount t.Entries) ∧
      ((∀ v, ¬ Holds t.Entries key v) →
        x.isEmpty = true ∧ b = true ∧ t2.Count = liveCount t.Entries + 1) := by
  have hmax := grow_le_of_cap hcap
  have hpow : Pow2Cap (GROW_CAPACITY t.Capacity) := by
    refine Pow2Cap_grow ?_ hmax
    rcases hwf.arr with h | h
    · exact Or.inl h.1
    · exact Or.inr h.pow
  have hlive : liveCount t.Entries < GROW_CAPACITY t.Capacity := by
    have h1 := liveCount_le_slotsUsed t.Entries
    have h2 := hwf.count_eq
    have h3 := hwf.load
    unfold GROW_CAPACITY
    split <;> omega
  obtain ⟨t1, e1, hc1, harr, hnt, hcnt, hcl, _, hh⟩ := AdjustCapacity_spec hwf hpow hlive
  have eg : TableSetGrow heap t = some t1 := by
    unfold TableSetGrow
    rw [if_pos hgrow, if_neg (Nat.not_lt.2 hmax), e1]
  have hroom : slotsUsed t1.Entries < GROW_CAPACITY t.Capacity := by
    rw [← hcnt, hcl]
    exact hlive
  obtain ⟨r, x, hr, hx, _, _, hnew, _, _⟩ := insert_spec harr hroom key value
  have hset : TableSet heap t key value = some (x.Key.isNone,
      ⟨if x.Key.isNone && IS_NIL x.Value then t1.Count + 1 else t1.Count, t1.Capacity,
        t1.Entries.set r ⟨some key, value⟩⟩) := by
    unfold TableSet
    rw [eg]
    dsimp only
    rw [hc1, hr]
    dsimp only
    rw [hx]
  have hxmem : x ∈ t1.Entries := List.mem_iff_getElem?.2 ⟨r, hx⟩
  refine ⟨t1, r, x, _, _, e1, eg, hc1, hnt, hcl, hh, by rw [hc1]; exact hr, hx, hset, rfl, rfl,
    ?_, ?_⟩
  · rintro ⟨v, hv⟩
    have hsome : x.Key.isNone = false := by
      cases hn : x.Key.isNone with
      | false => rfl
      | true => exact absurd ((hh key v).2 hv) (hnew.1 hn v)
    have hkey : x.Key = some key := by
      obtain ⟨r2, x2, hr2, hx2, _, hcase⟩ := FindEntry_spec harr hroom key
      rw [hr] at hr2
      cases hr2
      rw [hx] at hx2
      cases hx2
      rcases hcase with ⟨hk, _⟩ | ⟨hk, _⟩
      · exact hk
      · rw [hk] at hsome
        cases hsome
    refine ⟨hkey, hsome, ?_⟩
    show (if x.Key.isNone && IS_NIL x.Value then t1.Count + 1 else t1.Count) = _
    rw [hsome, hcl]
    rfl
  · intro habs
    have hnone : x.Key.isNone = true := hnew.2 (fun v hv => habs v ((hh key v).1 hv))
    have hk : x.Key = none := Option.isNone_iff_eq_none.1 hnone
    have hemp : x.isEmpty = true := hnt x hxmem hk
    refine ⟨hemp, hnone, ?_⟩
    show (if x.Key.isNone && IS_NIL x.Value then t1.Count + 1 else t1.Count) = _
    unfold Entry.isEmpty at hemp
    rw [if_pos hemp, hcl]

/-- Claim C36 (frame of `TableSet`): on a well-formed table of capacity below
2^30, `TableSet(t, k, v)` returns and leaves the result of `TableGet` for every
other key unchanged, whether or not the call grows the table.  The growth step
is `AdjustCapacity` with the grown capacity; and `AdjustCapacity` with any
capacity `c` (a power of two above the number of live entries) returns an array
of `c` slots without tombstones that holds exactly the live entries of the old
array, with `Count` the number of live entries, so that `TableGet` has the same
result for every key. -/
theorem C36_TableSet_frame {heap : Nat → ObjString} {t : Table} (hwf : TableWF heap t)
    (key : Nat) (value : Value) (hcap : t.Capacity < 2 ^ 30) :
    (∃ b t2, TableSet heap t key value = some (b, t2) ∧ TableWF heap t2 ∧
      ∀ k, k ≠ key → ∃ r, TableGet heap t k = some r ∧ TableGet heap t2 k = some r) ∧
    (4 * (t.Count + 1) > 3 * t.Capacity →
      TableSetGrow heap t = AdjustCapacity heap t (GROW_CAPACITY t.Capacity)) ∧
    (∀ c, Pow2Cap c → liveCount t.Entries < c →
      ∃ t1, AdjustCapacity heap t c = some t1 ∧ t1.Capacity = c ∧ t1.Entries.length = c ∧
        NoTomb t1.Entries ∧ t1.Count = liveCount t.Entries ∧
        liveCount t1.Entries = liveCount t.Entries ∧
        (∀ k v, Holds t1.Entries k v ↔ Holds t.Entries k v) ∧
        ∀ k, ∃ r, TableGet heap t k = some r ∧ TableGet heap t1 k = some r) := by
  refine ⟨?_, ?_, ?_⟩
  · obtain ⟨b, t2, e, hwf2, hh, _⟩ := TableSet_spec hwf key value (fun _ => grow_le_of_cap hcap)
    refine ⟨b, t2, e, hwf2, fun k hk => TableGet_same hwf hwf2 k (fun v => ?_)⟩
    rw [hh k v]
    constructor
    · rintro (⟨h1, _⟩ | ⟨_, h2⟩)
      · exact absurd h1 hk
      · exact h2
    · intro h
      exact Or.inr ⟨hk, h⟩
  · intro hg
    unfold TableSetGrow
    rw [if_pos hg, if_neg (Nat.not_lt.2 (grow_le_of_cap hcap))]
  · intro c hc hroom
    obtain ⟨t1, e, h1, harr, hnt, hcnt, hlive, hl2, hh⟩ := AdjustCapacity_spec hwf hc hroom
    refine ⟨t1, e, h1, by rw [harr.len], hnt, hlive, hl2, hh, fun k => ?_⟩
    obtain ⟨r, er, hr⟩ := TableGet_spec hwf k
    obtain ⟨r2, er2, hr2⟩ := TableGet_of_arr hcnt (h1 ▸ harr)
      (by rw [← hcnt, hlive, h1]; exact hroom) k
    have := option_eq_of_holds hr hr2 (hh k)
    subst this
    exact ⟨r2, er, er2⟩

/-- Witness for C36: the table with the keys 9 and 17 and a tombstone, and the
key 25. -/
theorem C36_TableSet_frame_witness :
    (∃ b t2, TableSet sampleHeap tombTable 25 5 = some (b, t2) ∧ TableWF sampleHeap t2 ∧
      ∀ k, k ≠ 25 → ∃ r, TableGet sampleHeap tombTable k = some r ∧
        TableGet sampleHeap t2 k = some r) ∧
    (4 * (tombTable.Count + 1) > 3 * tombTable.Capacity →
      TableSetGrow sampleHeap tombTable =
        AdjustCapacity sampleHeap tombTable (GROW_CAPACITY tombTable.Capacity)) ∧
    (∀ c, Pow2Cap c → liveCount tombTable.Entries < c →
      ∃ t1, AdjustCapacity sampleHeap tombTable c = some t1 ∧ t1.Capacity = c ∧
        t1.Entries.length = c ∧
        NoTomb t1.Entries ∧ t1.Count = liveCount tombTable.Entries ∧
        liveCount t1.Entries = liveCount tombTable.Entries ∧
        (∀ k v, Holds t1.Entries k v ↔ Holds tombTable.Entries k v) ∧
        ∀ k, ∃ r, TableGet sampleHeap tombTable k = some r ∧
          TableGet sampleHeap t1 k = some r) :=
  C36_TableSet_frame tombTable_wf 25 5 (by decide)

/-- Counterexample to C35 as stated: in the table with the keys 0, 1, 4, 5 and
tombstones in the slots 2 and 3 (`Count` 6 of capacity 8), the probe of the
absent key 10 starts at the tombstone in slot 2, which `FindEntry` returns; but
`TableSet` first grows the table, which drops the tombstones: the key is stored
in slot 10 of the new array of 16 slots and `Count` goes from 6 to 5.
Overwriting the existing key 0 grows the table too, and `Count` goes from 6 to
4. -/
theorem C35_tombstone_counterexample :
    setsThenDeletes sampleHeap [(0, 7), (1, 7), (2, 7), (3, 7), (4, 7), (5, 7)] [2, 3] =
      some fullTombTable ∧
    fullTombTable.Count = 6 ∧
    fullTombTable.Entries[2]? = some ⟨none, TRUE_VAL⟩ ∧
    TableGet sampleHeap fullTombTable 10 = some none ∧
    probeIndex sampleHeap fullTombTable.Capacity 10 0 = 2 ∧
    FindEntry sampleHeap fullTombTable.Entries fullTombTable.Capacity 10 = some 2 ∧
    (TableSet sampleHeap fullTombTable 10 7).map
        (fun r => (r.1, r.2.Count, r.2.Capacity, r.2.Entries[2]?, r.2.Entries[10]?)) =
      some (true, 5, 16, some ⟨none, NIL_VAL⟩, some ⟨some 10, 7⟩) ∧
    TableGet sampleHeap fullTombTable 0 = some (some 7) ∧
    (TableSet sampleHeap fullTombTable 0 8).map (fun r => (r.1, r.2.Count)) =
      some (false, 4) := by
  decide

/-- Claim C35 (amended).  `Count` is the number of live entries plus the number
of tombstones.  For a call of `TableSet` that does not grow the table
(`4 * (Count + 1) <= 3 * Capacity`): `FindEntry` returns a slot `r` and
`TableSet` stores the key there, in the same array; `Count` increases by one
exactly when the slot was truly empty, and is unchanged otherwise; when the key
was present the slot is the one of the key, the result is `false` and `Count`
is unchanged; when the key was absent the result is `true`, and if the probe
sequence of the key reaches at position `d0` a tombstone with neither a
tombstone nor a truly empty slot before it, `r` is that tombstone and `Count`
is unchanged; if it reaches there a truly empty slot in the same way, `r` is
that slot and `Count` increases by one.  For a call that grows the table
(`4 * (Count + 1) > 3 * Capacity`, with the capacity below 2^30 so that the
grown capacity is an `int`): `AdjustCapacity` first rebuilds the array with the
grown capacity, without tombstones, with the same keys and values and with
`Count` the number of live entries; `FindEntry` returns a slot `r` of the new
array and `TableSet` stores the key there; when the key was present the slot is
the one of the key, the result is `false` and `Count` becomes the number of
live entries; when the key was absent the slot is truly empty, the result is
`true` and `Count` becomes the number of live entries plus one. -/
theorem C35_tombstone_reuse {heap : Nat → ObjString} {t : Table} (hwf : TableWF heap t)
    (key : Nat) (value : Value) :
    t.Count = liveCount t.Entries + t.Entries.countP (fun e => e.isTombstone) ∧
    (4 * (t.Count + 1) ≤ 3 * t.Capacity →
      ∃ r x b t2, FindEntry heap t.Entries t.Capacity key = some r ∧
        t.Entries[r]? = some x ∧ TableSet heap t key value = some (b, t2) ∧
        t2.Entries = t.Entries.set r ⟨some key, value⟩ ∧ t2.Capacity = t.Capacity ∧
        (t2.Count = t.Count + 1 ↔ x.isEmpty = true) ∧
        (x.isEmpty = false → t2.Count = t.Count) ∧
        ((∃ v, Holds t.Entries key v) → x.Key = some key ∧ b = false ∧ t2.Count = t.Count) ∧
        ((∀ v, ¬ Holds t.Entries key v) → b = true ∧
          ∀ d0, d0 < t.Capacity →
            (∀ d, d < d0 → ¬ TombAt t.Entries (probeIndex heap t.Capacity key d) ∧
              ¬ EmptyAt t.Entries (probeIndex heap t.Capacity key d)) →
            (TombAt t.Entries (probeIndex heap t.Capacity key d0) →
              r = probeIndex heap t.Capacity key d0 ∧ t2.Count = t.Count) ∧
            (EmptyAt t.Entries (probeIndex heap t.Capacity key d0) →
              r = probeIndex heap t.Capacity key d0 ∧ t2.Count = t.Count + 1))) ∧
    (4 * (t.Count + 1) > 3 * t.Capacity → t.Capacity < 2 ^ 30 →
      ∃ t1 r x b t2, AdjustCapacity heap t (GROW_CAPACITY t.Capacity) = some t1 ∧
        TableSetGrow heap t = some t1 ∧
        t1.Capacity = GROW_CAPACITY t.Capacity ∧ NoTomb t1.Entries ∧
        t1.Count = liveCount t.Entries ∧
        (∀ k v, Holds t1.Entries k v ↔ Holds t.Entries k v) ∧
        FindEntry heap t1.Entries t1.Capacity key = some r ∧ t1.Entries[r]? = some x ∧
        TableSet heap t key value = some (b, t2) ∧
        t2.Entries = t1.Entries.set r ⟨some key, value⟩ ∧ t2.Capacity = t1.Capacity ∧
        ((∃ v, Holds t.Entries key v) →
          x.Key = some key ∧ b = false ∧ t2.Count = liveCount t.Entries) ∧
        ((∀ v, ¬ Holds t.Entries key v) →
          x.isEmpty = true ∧ b = true ∧ t2.Count = liveCount t.Entries + 1)) := by
  refine ⟨by rw [hwf.count_eq]; exact slotsUsed_eq_live_add_tombstones _, fun hnogrow => ?_,
    fun hgrow hcap => TableSet_grow hwf key value hgrow hcap⟩

  obtain ⟨harr, hroom⟩ := hwf.arr_of_cap (by omega)
  obtain ⟨r, x, hr, hx, hrc, hcase⟩ := FindEntry_spec harr hroom key
  have hset : TableSet heap t key value = some (x.Key.isNone,
      ⟨if x.Key.isNone && IS_NIL x.Value then t.Count + 1 else t.Count, t.Capacity,
        t.Entries.set r ⟨some key, value⟩⟩) := by
    unfold TableSet
    rw [TableSetGrow_same hnogrow]
    dsimp only
    rw [hr]
    dsimp only
    rw [hx]
  have hcount1 : x.isEmpty = true →
      (if x.Key.isNone && IS_NIL x.Value then t.Count + 1 else t.Count) = t.Count + 1 := by
    intro h
    unfold Entry.isEmpty at h
    rw [if_pos h]
  have hcount0 : x.isEmpty = false →
      (if x.Key.isNone && IS_NIL x.Value then t.Count + 1 else t.Count) = t.Count := by
    intro h
    unfold Entry.isEmpty at h
    rw [h]
    rfl
  refine ⟨r, x, _, _, hr, hx, hset, rfl, rfl, ⟨fun h => ?_, hcount1⟩, hcount0, ?_, ?_⟩
  · cases he : x.isEmpty with
    | true => rfl
    | false =>
      have := hcount0 he
      dsimp only at h
      omega
  · rintro ⟨v, hv⟩
    rcases hcase with ⟨hxk, _⟩ | ⟨_, habs, _⟩
    · have he : x.isEmpty = false := by simp [Entry.isEmpty, hxk]
      exact ⟨hxk, by simp [hxk], hcount0 he⟩
    · obtain ⟨i, hi⟩ := hv
      exact absurd hi.keyAt (habs i)
  · intro habs
    rcases hcase with ⟨hxk, _⟩ | ⟨hxk, _, d1, _, hr1, hlive⟩
    · exact absurd ⟨r, x, hx, hxk, rfl⟩ (habs x.Value)
    · refine ⟨by simp [hxk], fun d0 _ hfirst => ⟨fun ht => ?_, fun he => ?_⟩⟩
      · have e := first_keyless harr.pow hx hxk hr1 hlive hfirst (Or.inl ht)
        refine ⟨e, ?_⟩
        rcases keyless_cases hx hxk with ⟨_, h2⟩ | ⟨h1, _⟩
        · exact hcount0 h2
        · rw [← e] at ht
          obtain ⟨y, hy, hyt⟩ := ht
          obtain ⟨z, hz, hze⟩ := h1
          rw [hy] at hz
          cases hz
          simp [Entry.isTombstone, Entry.isEmpty] at hyt hze
          rw [hze.2] at hyt
          simp at hyt
      · have e := first_keyless harr.pow hx hxk hr1 hlive hfirst (Or.inr he)
        refine ⟨e, ?_⟩
        rw [← e] at he
        obtain ⟨z, hz, hze⟩ := he
        rw [hx] at hz
        cases hz
        exact hcount1 hze


/-- Witness for C35.  Without growth: in the table with the keys 9 and 17 and a
tombstone between them, the key 25 is absent and its probe passes the key 9 and
reaches the tombstone, where it is stored with `Count` still 3.  With growth:
in the table with the keys 0, 1, 4, 5 and two tombstones (`Count` 6 of
capacity 8) the absent key 10 is stored in the array of 16 slots and `Count`
becomes 5. -/
theorem C35_tombstone_reuse_witness :
    (4 * (tombTable.Count + 1) ≤ 3 * tombTable.Capacity ∧
      (TableSet sampleHeap tombTable 25 5).map (fun r => (r.1, r.2.Count, r.2.Entries[2]?)) =
        some (true, 3, some ⟨some 25, 5⟩) ∧
      ∃ r x b t2, FindEntry sampleHeap tombTable.Entries tombTable.Capacity 25 = some r ∧
        tombTable.Entries[r]? = some x ∧ TableSet sampleHeap tombTable 25 5 = some (b, t2) ∧
        t2.Entries = tombTable.Entries.set r ⟨some 25, 5⟩ ∧ t2.Capacity = tombTable.Capacity ∧
        (t2.Count = tombTable.Count + 1 ↔ x.isEmpty = true) ∧
        (x.isEmpty = false → t2.Count = tombTable.Count) ∧
        ((∃ v, Holds tombTable.Entries 25 v) →
          x.Key = some 25 ∧ b = false ∧ t2.Count = tombTable.Count) ∧
        ((∀ v, ¬ Holds tombTable.Entries 25 v) → b = true ∧
          ∀ d0, d0 < tombTable.Capacity →
            (∀ d, d < d0 →
              ¬ TombAt tombTable.Entries (probeIndex sampleHeap tombTable.Capacity 25 d) ∧
              ¬ EmptyAt tombTable.Entries (probeIndex sampleHeap tombTable.Capacity 25 d)) →
            (TombAt tombTable.Entries (probeIndex sampleHeap tombTable.Capacity 25 d0) →
              r = probeIndex sampleHeap tombTable.Capacity 25 d0 ∧
                t2.Count = tombTable.Count) ∧
            (EmptyAt tombTable.Entries (probeIndex sampleHeap tombTable.Capacity 25 d0) →
              r = probeIndex sampleHeap tombTable.Capacity 25 d0 ∧
                t2.Count = tombTable.Count + 1))) ∧
    (4 * (fullTombTable.Count + 1) > 3 * fullTombTable.Capacity ∧
      fullTombTable.Capacity < 2 ^ 30 ∧
      fullTombTable.Count = 6 ∧ liveCount fullTombTable.Entries = 4 ∧
      (TableSet sampleHeap fullTombTable 10 7).map (fun r => (r.1, r.2.Count, r.2.Capacity)) =
        some (true, 5, 16) ∧
      ∃ t1 r x b t2,
        AdjustCapacity sampleHeap fullTombTable (GROW_CAPACITY fullTombTable.Capacity) =
          some t1 ∧
        TableSetGrow sampleHeap fullTombTable = some t1 ∧
        t1.Capacity = GROW_CAPACITY fullTombTable.Capacity ∧ NoTomb t1.Entries ∧
        t1.Count = liveCount fullTombTable.Entries ∧
        (∀ k v, Holds t1.Entries k v ↔ Holds fullTombTable.Entries k v) ∧
        FindEntry sampleHeap t1.Entries t1.Capacity 10 = some r ∧ t1.Entries[r]? = some x ∧
        TableSet sampleHeap fullTombTable 10 7 = some (b, t2) ∧
        t2.Entries = t1.Entries.set r ⟨some 10, 7⟩ ∧ t2.Capacity = t1.Capacity ∧
        ((∃ v, Holds fullTombTable.Entries 10 v) →
          x.Key = some 10 ∧ b = false ∧ t2.Count = liveCount fullTombTable.Entries) ∧
        ((∀ v, ¬ Holds fullTombTable.Entries 10 v) →
          x.isEmpty = true ∧ b = true ∧ t2.Count = liveCount fullTombTable.Entries + 1)) :=
  ⟨⟨by decide, by decide, (C35_tombstone_reuse tombTable_wf 25 5).2.1 (by decide)⟩,
    ⟨by decide, by decide, by decide, by decide, by decide,
      (C35_tombstone_reuse fullTombTable_wf 10 7).2.2 (by decide) (by decide)⟩⟩

/-! ### `OP_SET_GLOBAL` and `TableAddAll` -/

theorem TableGet_none_iff {heap : Nat → ObjString} {t : Table} (hwf : TableWF heap t)
    (key : Nat) : TableGet heap t key = some none ↔ ∀ v, ¬ Holds t.Entries key v := by
  obtain ⟨r, e, hr⟩ := TableGet_spec hwf key
  rw [e]
  constructor
  · intro h v hv
    have := (hr v).2 hv
    rw [this] at h
    cases h
  · intro h
    cases r with
    | none => rfl
    | some v => exact absurd ((hr v).1 rfl) (h v)

theorem TableGet_some_iff {heap : Nat → ObjString} {t : Table} (hwf : TableWF heap t)
    (key : Nat) (v : Value) : TableGet heap t key = some (some v) ↔ Holds t.Entries key v := by
  obtain ⟨r, e, hr⟩ := TableGet_spec hwf key
  rw [e]
  constructor
  · intro h
    exact (hr v).1 (Option.some.inj h)
  · intro h
    rw [(hr v).2 h]

theorem TableAddAllLoop_spec (heap : Nat → ObjString) (fromTable : Table)
    (huniq : ∀ i j k, KeyAt fromTable.Entries i k → KeyAt fromTable.Entries j k → i = j) :
    ∀ (n i : Nat) (toTable : Table), TableWF heap toTable →
      i + n = fromTable.Entries.length → toTable.Capacity < 2 ^ 30 →
      toTable.Count + n ≤ 3 * 2 ^ 27 →
      ∃ t2, TableAddAllLoop heap fromTable n i toTable = some t2 ∧ TableWF heap t2 ∧
        ∀ k v, Holds t2.Entries k v ↔
          (∃ j, i ≤ j ∧ ValAt fromTable.Entries j k v) ∨
            ((∀ j, i ≤ j → ¬ KeyAt fromTable.Entries j k) ∧ Holds toTable.Entries k v) := by
  intro n
  induction n with
  | zero =>
    intro i toTable hwf hlen _ _
    refine ⟨toTable, rfl, hwf, fun k v => ⟨fun h => Or.inr ⟨fun j hj hk => ?_, h⟩, ?_⟩⟩
    · obtain ⟨e, he, _⟩ := hk
      have := (List.getElem?_eq_some.1 he).1
      omega
    · rintro (⟨j, hj, e, he, _⟩ | ⟨_, h⟩)
      · have := (List.getElem?_eq_some.1 he).1
        omega
      · exact h
  | succ n ih =>
    intro i toTable hwf hlen hcap hsize
    rw [TableAddAllLoop_succ]
    have hi : i < fromTable.Entries.length := by omega
    have hx : fromTable.Entries[i]? = some fromTable.Entries[i] := List.getElem?_eq_getElem hi
    rw [hx]
    dsimp only
    cases hk : fromTable.Entries[i].Key with
    | none =>
      dsimp only
      obtain ⟨t2, e, hwf2, hh⟩ := ih (i + 1) toTable hwf (by omega) hcap (by omega)
      refine ⟨t2, e, hwf2, fun k v => ?_⟩
      rw [hh k v]
      have hne : ∀ j, i ≤ j → KeyAt fromTable.Entries j k → i + 1 ≤ j := by
        intro j hj ⟨y, hy, hyk⟩
        rcases Nat.eq_or_lt_of_le hj with h | h
        · subst h
          rw [hx] at hy
          cases hy
          rw [hk] at hyk
          cases hyk
        · exact h
      constructor
      · rintro (⟨j, hj, hv⟩ | ⟨h1, h2⟩)
        · exact Or.inl ⟨j, by omega, hv⟩
        · exact Or.inr ⟨fun j hj hkj => h1 j (hne j hj hkj) hkj, h2⟩
      · rintro (⟨j, hj, hv⟩ | ⟨h1, h2⟩)
        · exact Or.inl ⟨j, hne j hj hv.keyAt, hv⟩
        · exact Or.inr ⟨fun j hj => h1 j (by omega), h2⟩
    | some k0 =>
      dsimp only
      obtain ⟨b, t1, e1, hwf1, hh1, _⟩ :=
        TableSet_spec hwf k0 fromTable.Entries[i].Value (fun _ => grow_le_of_cap hcap)
      rw [e1]
      dsimp only
      obtain ⟨hs1, hs2⟩ := TableSet_size hwf e1
      dsimp only at hs1 hs2
      have hcap1 : t1.Capacity < 2 ^ 30 := by
        rcases hs2 with h | ⟨h1, h2⟩
        · rw [h]; exact hcap
        · rw [h2]
          unfold GROW_CAPACITY
          have : (2:Nat) ^ 30 = 1073741824 := by norm_num
          have : (2:Nat) ^ 27 = 134217728 := by norm_num
          split <;> omega
      obtain ⟨t2, e, hwf2, hh⟩ := ih (i + 1) t1 hwf1 (by omega) hcap1 (by omega)
      refine ⟨t2, e, hwf2, fun k v => ?_⟩
      rw [hh k v, hh1 k v]
      have hki : KeyAt fromTable.Entries i k0 := ⟨_, hx, hk⟩
      by_cases hkk : k = k0
      · subst hkk
        have hno : ∀ j, i + 1 ≤ j → ¬ KeyAt fromTable.Entries j k := by
          intro j hj hkj
          have := huniq i j k hki hkj
          omega
        constructor
        · rintro (⟨j, hj, hv⟩ | ⟨_, h2⟩)
          · exact absurd hv.keyAt (hno j hj)
          · rcases h2 with ⟨_, h3⟩ | ⟨h3, _⟩
            · exact Or.inl ⟨i, Nat.le_refl _, _, hx, hk, h3.symm⟩
            · exact absurd rfl h3
        · rintro (⟨j, hj, hv⟩ | ⟨h1, _⟩)
          · have := huniq i j k hki hv.keyAt
            subst this
            obtain ⟨y, hy, _, hyv⟩ := hv
            rw [hx] at hy
            cases hy
            exact Or.inr ⟨hno, Or.inl ⟨rfl, hyv.symm⟩⟩
          · exact absurd hki (h1 i (Nat.le_refl _))
      · have hne : ∀ j, i ≤ j → KeyAt fromTable.Entries j k → i + 1 ≤ j := by
          intro j hj ⟨y, hy, hyk⟩
          rcases Nat.eq_or_lt_of_le hj with h | h
          · subst h
            rw [hx] at hy
            cases hy
            rw [hk] at hyk
            cases hyk
            exact absurd rfl hkk
          · exact h
        constructor
        · rintro (⟨j, hj, hv⟩ | ⟨h1, h2⟩)
          · exact Or.inl ⟨j, by omega, hv⟩
          · rcases h2 with ⟨h3, _⟩ | ⟨_, h3⟩
            · exact absurd h3 hkk
            · exact Or.inr ⟨fun j hj hkj => h1 j (hne j hj hkj) hkj, h3⟩
        · rintro (⟨j, hj, hv⟩ | ⟨h1, h2⟩)
          · exact Or.inl ⟨j, hne j hj hv.keyAt, hv⟩
          · exact Or.inr ⟨fun j hj => h1 j (by omega), Or.inr ⟨hkk, h2⟩⟩

/-- Function `TableAddAll` on well-formed tables: it returns, and the result
holds the entries of `from` and, for the other keys, those of `to`. -/
theorem TableAddAll_spec {heap : Nat → ObjString} {fromTable toTable : Table}
    (hf : TableWF heap fromTable) (hwf : TableWF heap toTable)
    (hcap : toTable.Capacity < 2 ^ 30)
    (hsize : toTable.Count + fromTable.Capacity ≤ 3 * 2 ^ 27) :
    ∃ t2, TableAddAll heap fromTable toTable = some t2 ∧ TableWF heap t2 ∧
      ∀ k v, Holds t2.Entries k v ↔
        Holds fromTable.Entries k v ∨
          ((∀ w, ¬ Holds fromTable.Entries k w) ∧ Holds toTable.Entries k v) := by
  obtain ⟨t2, e, hwf2, hh⟩ := TableAddAllLoop_spec heap fromTable hf.uniq fromTable.Capacity 0
    toTable hwf (by rw [hf.length]; omega) hcap hsize
  refine ⟨t2, e, hwf2, fun k v => ?_⟩
  rw [hh k v]
  constructor
  · rintro (⟨j, _, hv⟩ | ⟨h1, h2⟩)
    · exact Or.inl ⟨j, hv⟩
    · exact Or.inr ⟨fun w ⟨j, hj⟩ => h1 j (Nat.zero_le _) hj.keyAt, h2⟩
  · rintro (⟨j, hv⟩ | ⟨h1, h2⟩)
    · exact Or.inl ⟨j, Nat.zero_le _, hv⟩
    · refine Or.inr ⟨fun j _ ⟨y, hy, hyk⟩ => h1 y.Value ⟨j, y, hy, hyk, rfl⟩, h2⟩

theorem superMethods_wf : TableWF inheritVM.strings superMethods := by
  have h : Reachable inheritVM.strings superMethods :=
    Reachable.set 8 (OBJ_VAL 32) Reachable.init (b := true) (by decide)
  exact h.wf

theorem stack_of_peeks {vm : VM} {a b : Value} (h0 : Peek 0 vm = some a)
    (h1 : Peek 1 vm = some b) : ∃ rest, vm.Stack = a :: b :: rest := by
  unfold Peek at h0 h1
  cases hs : vm.Stack with
  | nil => rw [hs] at h0; cases h0
  | cons x l =>
    rw [hs] at h0 h1
    cases l with
    | nil => cases h1
    | cons y l2 =>
      simp only [List.getElem?_cons_zero, List.getElem?_cons_succ, Option.some.injEq] at h0 h1
      subst h0
      subst h1
      exact ⟨l2, rfl⟩

theorem OP_INHERIT_class (vm : VM) (superClass subClass : Value) (sname name : Nat)
    (smethods methods methods1 : Table) (rest : List Value)
    (hs : vm.Stack = subClass :: superClass :: rest) (hobj : IS_OBJ superClass = true)
    (hsuper : vm.Heap (AS_OBJ superClass) = some (Obj.Class sname smethods))
    (hsub : vm.Heap (AS_OBJ subClass) = some (Obj.Class name methods))
    (hadd : TableAddAll vm.strings smethods methods = some methods1) :
    Run.OP_INHERIT vm = some (Continue
      { vm.store (AS_OBJ subClass) (Obj.Class name methods1) with
        Stack := superClass :: rest }) := by
  unfold Run.OP_INHERIT
  simp only [Peek, hs, IsObjType, hobj, hsuper, hsub, hadd, Option.bind_eq_bind,
    Option.some_bind, Option.map_some', if_true, Pop, VM.store, List.getElem?_cons_succ,
    List.getElem?_cons_zero]

theorem OP_INHERIT_not_class (vm : VM) (superClass : Value) (hp1 : Peek 1 vm = some superClass)
    (hnot : IS_OBJ superClass = false ∨
      ∃ o, vm.Heap (AS_OBJ superClass) = some o ∧ ∀ n m, o ≠ Obj.Class n m) :
    Run.OP_INHERIT vm = some (Return INTERPRET_RUNTIME_ERROR
      (RuntimeError (chars "Superclass must be a class.") [] [] vm)) := by
  unfold Run.OP_INHERIT
  rcases hnot with h | ⟨o, ho, hc⟩
  · simp [hp1, IsObjType, h]
  · cases hobj : IS_OBJ superClass with
    | false => simp [hp1, IsObjType, hobj]
    | true =>
      cases o with
      | Class n m => exact absurd rfl (hc n m)
      | _ => simp [hp1, IsObjType, hobj, ho]

theorem DefineClassMethod_class (vm : VM) (method klass : Value) (cname m : Nat)
    (cmethods cmethods1 : Table) (b : Bool) (rest : List Value)
    (hs : vm.Stack = method :: klass :: rest)
    (hk : vm.Heap (AS_OBJ klass) = some (Obj.Class cname cmethods))
    (hset : TableSet vm.strings cmethods m method = some (b, cmethods1)) :
    DefineClassMethod m vm = some
      { vm.store (AS_OBJ klass) (Obj.Class cname cmethods1) with Stack := klass :: rest } := by
  unfold DefineClassMethod
  simp only [Peek, hs, hk, hset, Option.bind_eq_bind, Option.some_bind, Pop, VM.store,
    List.getElem?_cons_succ, List.getElem?_cons_zero]

/-- Claim C33 (inheritance).  When `OP_INHERIT` runs with a class `S` at
`peek(1)` and the subclass `C`, another object, at `peek(0)`, both method
tables well formed and with room to grow, the instruction continues; only the
subclass is popped, so `S` is on top of the stack; `C` is the only object that
changes, so the entries of `S.Methods` are unchanged; and in `C.Methods`
afterwards `TableGet` yields for every method name of `S` the closure it
yields in `S`, and for every other name what it yielded in `C` before.  A later
`OP_METHOD` with a name `m`, the method on top of the stack and a class below
it, changes that class only, pops the method, and makes `TableGet` of `m` in
the class yield the method, with the other names unchanged.  When `peek(1)` is
no class, `OP_INHERIT` returns `INTERPRET_RUNTIME_ERROR` after
`RuntimeError("Superclass must be a class.")`, and no object changes. -/
theorem C33_inherit (vm : VM) (superClass subClass : Value) (sname name : Nat)
    (smethods methods : Table)
    (hp1 : Peek 1 vm = some superClass) (hp0 : Peek 0 vm = some subClass)
    (hobj : IS_OBJ superClass = true)
    (hsuper : vm.Heap (AS_OBJ superClass) = some (Obj.Class sname smethods))
    (hsub : vm.Heap (AS_OBJ subClass) = some (Obj.Class name methods))
    (hne : AS_OBJ superClass ≠ AS_OBJ subClass)
    (hwfs : TableWF vm.strings smethods) (hwf : TableWF vm.strings methods)
    (hcap : methods.Capacity < 2 ^ 30)
    (hsize : methods.Count + smethods.Capacity ≤ 3 * 2 ^ 27) :
    (∃ methods1 vm1, Run.OP_INHERIT vm = some (Continue vm1) ∧
      vm1.Stack = vm.Stack.tail ∧ Peek 0 vm1 = some superClass ∧ vm1.stderr = vm.stderr ∧
      vm1.Heap (AS_OBJ subClass) = some (Obj.Class name methods1) ∧
      (∀ p, p ≠ AS_OBJ subClass → vm1.Heap p = vm.Heap p) ∧
      vm1.Heap (AS_OBJ superClass) = some (Obj.Class sname smethods) ∧
      TableWF vm.strings methods1 ∧
      (∀ m closure, TableGet vm.strings smethods m = some (some closure) →
        TableGet vm.strings methods1 m = some (some closure)) ∧
      (∀ m, TableGet vm.strings smethods m = some none →
        ∃ r, TableGet vm.strings methods m = some r ∧
          TableGet vm.strings methods1 m = some r)) ∧
    (∀ (vm2 vm3 : VM) (method klass : Value) (cname m : Nat) (cmethods : Table),
      READ_STRING vm2 = some (m, vm3) → Peek 0 vm3 = some method → Peek 1 vm3 = some klass →
      vm3.Heap (AS_OBJ klass) = some (Obj.Class cname cmethods) →
      TableWF vm3.strings cmethods → cmethods.Capacity < 2 ^ 30 →
      ∃ cmethods1 vm4, Run.OP_METHOD vm2 = some (Continue vm4) ∧
        vm4.Stack = vm3.Stack.tail ∧
        vm4.Heap (AS_OBJ klass) = some (Obj.Class cname cmethods1) ∧
        (∀ p, p ≠ AS_OBJ klass → vm4.Heap p = vm3.Heap p) ∧
        TableGet vm3.strings cmethods1 m = some (some method) ∧
        ∀ k, k ≠ m → ∃ r, TableGet vm3.strings cmethods k = some r ∧
          TableGet vm3.strings cmethods1 k = some r) ∧
    (∀ (vm2 : VM) (value : Value), Peek 1 vm2 = some value →
      (IS_OBJ value = false ∨
        ∃ o, vm2.Heap (AS_OBJ value) = some o ∧ ∀ n m, o ≠ Obj.Class n m) →
      Run.OP_INHERIT vm2 = some (Return INTERPRET_RUNTIME_ERROR
        (RuntimeError (chars "Superclass must be a class.") [] [] vm2)) ∧
      (RuntimeError (chars "Superclass must be a class.") [] [] vm2).Heap = vm2.Heap ∧
      (RuntimeError (chars "Superclass must be a class.") [] [] vm2).stderr =
        vm2.stderr ++ [⟨chars "Superclass must be a class.", [], []⟩]) := by
  refine ⟨?_, ?_, ?_⟩
  · obtain ⟨rest, hs⟩ := stack_of_peeks hp0 hp1
    obtain ⟨methods1, hadd, hwf1, hh⟩ := TableAddAll_spec hwfs hwf hcap hsize
    refine ⟨methods1, _, OP_INHERIT_class vm superClass subClass sname name smethods methods
      methods1 rest hs hobj hsuper hsub hadd, by rw [hs]; rfl, by simp [Peek], rfl, ?_, ?_, ?_,
      hwf1, ?_, ?_⟩
    · simp [VM.store]
    · intro p hp
      simp [VM.store, hp]
    · simp [VM.store, hne, hsuper]
    · intro m closure hm
      rw [TableGet_some_iff hwfs] at hm
      rw [TableGet_some_iff hwf1]
      exact (hh m closure).2 (Or.inl hm)
    · intro m hm
      rw [TableGet_none_iff hwfs] at hm
      refine TableGet_same hwf hwf1 m (fun v => ?_)
      rw [hh m v]
      constructor
      · rintro (h | ⟨_, h⟩)
        · exact absurd h (hm v)
        · exact h
      · intro h
        exact Or.inr ⟨hm, h⟩
  · intro vm2 vm3 method klass cname m cmethods hread hq0 hq1 hk hwfc hcapc
    obtain ⟨rest, hs⟩ := stack_of_peeks hq0 hq1
    obtain ⟨b, cm1, e1, hwf1, hh1, _⟩ :=
      TableSet_spec hwfc m method (fun _ => grow_le_of_cap hcapc)
    have hd := DefineClassMethod_class vm3 method klass cname m cmethods cm1 b rest hs hk e1
    refine ⟨cm1,
      { vm3.store (AS_OBJ klass) (Obj.Class cname cm1) with Stack := klass :: rest }, ?_,
      by rw [hs]; rfl, ?_, ?_, ?_, ?_⟩
    · unfold Run.OP_METHOD
      simp only [hread, hd, Option.bind_eq_bind, Option.some_bind, Option.map_some']
    · simp [VM.store]
    · intro p hp
      simp [VM.store, hp]
    · rw [TableGet_some_iff hwf1]
      exact (hh1 m method).2 (Or.inl ⟨rfl, rfl⟩)
    · intro k hk2
      refine TableGet_same hwfc hwf1 k (fun v => ?_)
      rw [hh1 k v]
      constructor
      · rintro (⟨h, _⟩ | ⟨_, h⟩)
        · exact absurd h hk2
        · exact h
      · intro h
        exact Or.inr ⟨hk2, h⟩
  · intro vm2 value hq1 hnot
    exact ⟨OP_INHERIT_not_class vm2 value hq1 hnot, rfl, rfl⟩

/-- Witness for C33: in `inheritVM` the subclass at address 24 inherits the
method named by the string at address 8 from the class at address 16. -/
theorem C33_inherit_witness :
    ((runStepSummary (Run.OP_INHERIT inheritVM) = some (none, [OBJ_VAL 16], [])) ∧
      TableGet inheritVM.strings superMethods 8 = some (some (OBJ_VAL 32))) ∧
    (∃ methods1 vm1, Run.OP_INHERIT inheritVM = some (Continue vm1) ∧
      vm1.Stack = inheritVM.Stack.tail ∧ Peek 0 vm1 = some (OBJ_VAL 16) ∧ vm1.stderr = inheritVM.stderr ∧
      vm1.Heap (AS_OBJ (OBJ_VAL 24)) = some (Obj.Class 8 methods1) ∧
      (∀ p, p ≠ AS_OBJ (OBJ_VAL 24) → vm1.Heap p = inheritVM.Heap p) ∧
      vm1.Heap (AS_OBJ (OBJ_VAL 16)) = some (Obj.Class 8 superMethods) ∧
      TableWF inheritVM.strings methods1 ∧
      (∀ m closure, TableGet inheritVM.strings superMethods m = some (some closure) →
        TableGet inheritVM.strings methods1 m = some (some closure)) ∧
      (∀ m, TableGet inheritVM.strings superMethods m = some none →
        ∃ r, TableGet inheritVM.strings InitTable m = some r ∧
          TableGet inheritVM.strings methods1 m = some r)) ∧
    (∀ (vm2 vm3 : VM) (method klass : Value) (cname m : Nat) (cmethods : Table),
      READ_STRING vm2 = some (m, vm3) → Peek 0 vm3 = some method → Peek 1 vm3 = some klass →
      vm3.Heap (AS_OBJ klass) = some (Obj.Class cname cmethods) →
      TableWF vm3.strings cmethods → cmethods.Capacity < 2 ^ 30 →
      ∃ cmethods1 vm4, Run.OP_METHOD vm2 = some (Continue vm4) ∧
        vm4.Stack = vm3.Stack.tail ∧
        vm4.Heap (AS_OBJ klass) = some (Obj.Class cname cmethods1) ∧
        (∀ p, p ≠ AS_OBJ klass → vm4.Heap p = vm3.Heap p) ∧
        TableGet vm3.strings cmethods1 m = some (some method) ∧
        ∀ k, k ≠ m → ∃ r, TableGet vm3.strings cmethods k = some r ∧
          TableGet vm3.strings cmethods1 k = some r) ∧
    (∀ (vm2 : VM) (value : Value), Peek 1 vm2 = some value →
      (IS_OBJ value = false ∨
        ∃ o, vm2.Heap (AS_OBJ value) = some o ∧ ∀ n m, o ≠ Obj.Class n m) →
      Run.OP_INHERIT vm2 = some (Return INTERPRET_RUNTIME_ERROR
        (RuntimeError (chars "Superclass must be a class.") [] [] vm2)) ∧
      (RuntimeError (chars "Superclass must be a class.") [] [] vm2).Heap = vm2.Heap ∧
      (RuntimeError (chars "Superclass must be a class.") [] [] vm2).stderr =
        vm2.stderr ++ [⟨chars "Superclass must be a class.", [], []⟩]) :=
  ⟨⟨rfl, by decide⟩,
    C33_inherit inheritVM (OBJ_VAL 16) (OBJ_VAL 24) 8 8 superMethods InitTable rfl rfl
      (by decide) rfl rfl (by decide) superMethods_wf (TableWF_init _) (by decide) (by decide)⟩

/-- Claim C37 (`OP_SET_GLOBAL`): let the operand have been read as the string
`name`, with `value` on top of the stack and a well-formed globals table of
capacity below 2^30.  If `TableGet` finds no global `name`, the instruction
returns `INTERPRET_RUNTIME_ERROR` after `RuntimeError("Undefined variable
'%s'.", name->Chars)`, and in the globals table afterwards `TableGet` still
finds no `name` and has the result it had for every other name.  If `name` is
defined, the instruction continues without an error message, `TableGet` of
`name` then yields `value`, which is still on top of the stack, and `TableGet`
of every other name is unchanged. -/
theorem C37_set_global (vm vm1 : VM) (name : Nat) (value : Value)
    (hread : READ_STRING vm = some (name, vm1)) (hpeek : Peek 0 vm1 = some value)
    (hwf : TableWF vm1.strings vm1.Globals) (hcap : vm1.Globals.Capacity < 2 ^ 30) :
    (TableGet vm1.strings vm1.Globals name = some none →
      ∃ g, Run.OP_SET_GLOBAL vm = some (Return INTERPRET_RUNTIME_ERROR
          (RuntimeError (chars "Undefined variable \x27%s\x27.") [] (vm1.strings name).Chars
            { vm1 with Globals := g })) ∧
        (RuntimeError (chars "Undefined variable \x27%s\x27.") [] (vm1.strings name).Chars
            { vm1 with Globals := g }).Globals = g ∧
        (RuntimeError (chars "Undefined variable \x27%s\x27.") [] (vm1.strings name).Chars
            { vm1 with Globals := g }).stderr =
          vm1.stderr ++ [⟨chars "Undefined variable \x27%s\x27.", [], (vm1.strings name).Chars⟩] ∧
        TableWF vm1.strings g ∧ TableGet vm1.strings g name = some none ∧
        ∀ k, k ≠ name → ∃ r, TableGet vm1.strings vm1.Globals k = some r ∧
          TableGet vm1.strings g k = some r) ∧
    (∀ old, TableGet vm1.strings vm1.Globals name = some (some old) →
      ∃ g, Run.OP_SET_GLOBAL vm = some (Continue { vm1 with Globals := g }) ∧
        ({ vm1 with Globals := g } : VM).stderr = vm1.stderr ∧
        Peek 0 { vm1 with Globals := g } = some value ∧
        ({ vm1 with Globals := g } : VM).Stack = vm1.Stack ∧
        TableWF vm1.strings g ∧ TableGet vm1.strings g name = some (some value) ∧
        ∀ k, k ≠ name → ∃ r, TableGet vm1.strings vm1.Globals k = some r ∧
          TableGet vm1.strings g k = some r) := by
  obtain ⟨b, g1, e1, hwf1, hh1, hb, _⟩ :=
    TableSet_spec hwf name value (fun _ => grow_le_of_cap hcap)
  have hother : ∀ k v, k ≠ name → (Holds g1.Entries k v ↔ Holds vm1.Globals.Entries k v) := by
    intro k v hk
    rw [hh1 k v]
    constructor
    · rintro (⟨h, _⟩ | ⟨_, h⟩)
      · exact absurd h hk
      · exact h
    · intro h
      exact Or.inr ⟨hk, h⟩
  constructor
  · intro hnone
    have habs := (TableGet_none_iff hwf name).1 hnone
    have hbt : b = true := hb.2 habs
    subst hbt
    obtain ⟨b2, g2, e2, hwf2, _, hh2, _⟩ := TableDelete_spec hwf1 name
    refine ⟨g2, ?_, rfl, rfl, hwf2, ?_, fun k hk => ?_⟩
    · unfold Run.OP_SET_GLOBAL
      simp only [hread, hpeek, e1, e2, Option.bind_eq_bind, Option.some_bind, if_true]
    · rw [TableGet_none_iff hwf2]
      intro v hv
      exact ((hh2 name v).1 hv).1 rfl
    · refine TableGet_same hwf hwf2 k (fun v => ?_)
      rw [hh2 k v, hother k v hk]
      exact ⟨fun h => h.2, fun h => ⟨hk, h⟩⟩
  · intro old hold
    have hpres := (TableGet_some_iff hwf name old).1 hold
    have hbf : b = false := by
      cases b with
      | false => rfl
      | true => exact absurd hpres (hb.1 rfl old)
    subst hbf
    refine ⟨g1, ?_, rfl, hpeek, rfl, hwf1, ?_, fun k hk => ?_⟩
    · unfold Run.OP_SET_GLOBAL
      simp only [hread, hpeek, e1, Option.bind_eq_bind, Option.some_bind]
      rfl
    · rw [TableGet_some_iff hwf1]
      exact (hh1 name value).2 (Or.inl ⟨rfl, rfl⟩)
    · exact TableGet_same hwf hwf1 k (fun v => hother k v hk)

/-- Witness for C37: assigning to the undefined global `x` in `globalVM` is
the runtime error, and no global is defined afterwards. -/
theorem C37_set_global_witness :
    (runStepSummary (Run.OP_SET_GLOBAL globalVM) =
      some (some INTERPRET_RUNTIME_ERROR, [],
        [⟨chars "Undefined variable \x27%s\x27.", [], chars "x"⟩])) ∧
    (TableGet (globalVM.setIP 2).strings (globalVM.setIP 2).Globals 24 = some none →
      ∃ g, Run.OP_SET_GLOBAL globalVM = some (Return INTERPRET_RUNTIME_ERROR
          (RuntimeError (chars "Undefined variable \x27%s\x27.") []
            ((globalVM.setIP 2).strings 24).Chars { globalVM.setIP 2 with Globals := g })) ∧
        (RuntimeError (chars "Undefined variable \x27%s\x27.") []
            ((globalVM.setIP 2).strings 24).Chars
            { globalVM.setIP 2 with Globals := g }).Globals = g ∧
        (RuntimeError (chars "Undefined variable \x27%s\x27.") []
            ((globalVM.setIP 2).strings 24).Chars
            { globalVM.setIP 2 with Globals := g }).stderr =
          (globalVM.setIP 2).stderr ++
            [⟨chars "Undefined variable \x27%s\x27.", [], ((globalVM.setIP 2).strings 24).Chars⟩] ∧
        TableWF (globalVM.setIP 2).strings g ∧
        TableGet (globalVM.setIP 2).strings g 24 = some none ∧
        ∀ k, k ≠ 24 → ∃ r, TableGet (globalVM.setIP 2).strings (globalVM.setIP 2).Globals k =
            some r ∧ TableGet (globalVM.setIP 2).strings g k = some r) ∧
    (∀ old, TableGet (globalVM.setIP 2).strings (globalVM.setIP 2).Globals 24 =
        some (some old) →
      ∃ g, Run.OP_SET_GLOBAL globalVM = some (Continue { globalVM.setIP 2 with Globals := g }) ∧
        ({ globalVM.setIP 2 with Globals := g } : VM).stderr = (globalVM.setIP 2).stderr ∧
        Peek 0 { globalVM.setIP 2 with Globals := g } = some 0 ∧
        ({ globalVM.setIP 2 with Globals := g } : VM).Stack = (globalVM.setIP 2).Stack ∧
        TableWF (globalVM.setIP 2).strings g ∧
        TableGet (globalVM.setIP 2).strings g 24 = some (some 0) ∧
        ∀ k, k ≠ 24 → ∃ r, TableGet (globalVM.setIP 2).strings (globalVM.setIP 2).Globals k =
            some r ∧ TableGet (globalVM.setIP 2).strings g k = some r) :=
  ⟨rfl, C37_set_global globalVM (globalVM.setIP 2) 24 0 rfl rfl (TableWF_init _) (by decide)⟩

/-! ### The progress of the scanner -/

theorem placed_of_step {sc0 sw sc2 : Scanner} {t : Token} (hw : ScStep sc0 sw)
    (h2 : ScStep (Scanner.Advance { sw with Start := sw.Current }).2 sc2)
    (hne : ¬ sw.IsAtEnd = true) (hend : sc0.IsAtEnd = true → sw = sc0)
    (ht : t.Type_ ≠ TOKEN_EOF) (hok : TokOK sc0.Source t)
    (hs : t.Type_ ≠ TOKEN_ERROR → t = sc2.MakeToken t.Type_) :
    Scanned sc0 t sc2 ∧ Placed sc0 t sc2 := by
  have hc : (Scanner.Advance { sw with Start := sw.Current }).2.Current = sw.Current + 1 :=
    Eq.refl _
  have hst : (Scanner.Advance { sw with Start := sw.Current }).2.Start = sw.Current :=
    Eq.refl _
  have h1 := h2.le
  have h3 := h2.start
  have h4 := hw.le
  rw [hc] at h1
  rw [hst] at h3
  exact ⟨Scanned.of_step hw h2 hne hend ht hok,
    by omega, by omega, fun _ => by omega, hs, fun h => absurd h ht⟩

theorem ScanToken_placed (sc0 : Scanner) (h0 : sc0.Current ≤ sc0.Source.length) :
    ∃ t sc1, ScanToken sc0 = some (t, sc1) ∧ Scanned sc0 t sc1 ∧ Placed sc0 t sc1 := by
  unfold ScanToken
  obtain ⟨sw, ew, hw, hend⟩ := SkipWhiteSpaceLoop_total sc0.fuel sc0 h0 (Nat.le_refl _)
  have ew2 : sc0.SkipWhiteSpace = some sw := ew
  rw [ew2]
  dsimp only
  by_cases he : Scanner.IsAtEnd { sw with Start := sw.Current } = true
  · rw [if_pos he]
    refine ⟨_, _, Eq.refl _, ⟨hw.source, hw.le, hw.pos, ?_, fun _ => he, fun h => absurd rfl h,
      fun _ => rfl⟩, ⟨hw.le, Nat.le_refl _, fun h => absurd rfl h, fun _ => rfl, fun _ => rfl⟩⟩
    rw [← hw.source]
    exact TokOK_MakeToken { sw with Start := sw.Current } _ (Nat.le_refl _) hw.pos
  · rw [if_neg he]
    have hne : ¬ sw.IsAtEnd = true := he
    have hadv : ScStep { sw with Start := sw.Current }
        (Scanner.Advance { sw with Start := sw.Current }).2 :=
      ScStep.advance _ (IsAtEnd_false _ he)
    have hsrc : (Scanner.Advance { sw with Start := sw.Current }).2.Source = sc0.Source :=
      hw.source
    have hstart : (Scanner.Advance { sw with Start := sw.Current }).2.Start = sw.Current :=
      Eq.refl _
    have hcur : (Scanner.Advance { sw with Start := sw.Current }).2.Current = sw.Current + 1 :=
      Eq.refl _
    -- a token made at a position reached from the character after the start
    have mk : ∀ (sc2 : Scanner) (type : TokenType),
        ScStep (Scanner.Advance { sw with Start := sw.Current }).2 sc2 →
        TokOK sc0.Source (sc2.MakeToken type) := by
      intro sc2 type h2
      have := TokOK_MakeToken sc2 type (by rw [h2.start, hstart]; have := h2.le; omega) h2.pos
      rw [h2.source, hsrc] at this
      exact this
    have single : ∀ type : TokenType, type ≠ TOKEN_EOF →
        ∃ t sc1, some ((Scanner.Advance { sw with Start := sw.Current }).2.MakeToken type,
          (Scanner.Advance { sw with Start := sw.Current }).2) = some (t, sc1) ∧
          Scanned sc0 t sc1 ∧ Placed sc0 t sc1 := by
      intro type hty
      exact ⟨_, _, Eq.refl _, placed_of_step hw (ScStep.rfl _ hadv.pos) hne hend hty
        (mk _ _ (ScStep.rfl _ hadv.pos)) (fun _ => rfl)⟩
    have hmatch : ∀ c : Nat,
        ScStep (Scanner.Advance { sw with Start := sw.Current }).2
          ((Scanner.Advance { sw with Start := sw.Current }).2.Match c).2 := by
      intro c
      unfold Scanner.Match
      split
      · exact ScStep.rfl _ hadv.pos
      · split
        · exact ScStep.rfl _ hadv.pos
        · rename_i h1 h2
          exact ScStep.advance _ (IsAtEnd_false _ h1)
    have double : ∀ (c : Nat) (a b : TokenType), a ≠ TOKEN_EOF → b ≠ TOKEN_EOF →
        ∃ t sc1, some (((Scanner.Advance { sw with Start := sw.Current }).2.Match c).2.MakeToken
            (if ((Scanner.Advance { sw with Start := sw.Current }).2.Match c).1 then a else b),
          ((Scanner.Advance { sw with Start := sw.Current }).2.Match c).2) = some (t, sc1) ∧
          Scanned sc0 t sc1 ∧ Placed sc0 t sc1 := by
      intro c a b ha hb
      refine ⟨_, _, Eq.refl _, placed_of_step hw (hmatch c) hne hend ?_ (mk _ _ (hmatch c)) (fun _ => rfl)⟩
      unfold Scanner.MakeToken
      dsimp only
      split
      · exact ha
      · exact hb
    split
    · -- identifier
      unfold Scanner.Identifier
      obtain ⟨s2, e2, h2⟩ := SkipIdentifier_total
        (Scanner.Advance { sw with Start := sw.Current }).2.fuel _ hadv.pos (Nat.le_refl _)
      rw [e2]
      dsimp only
      refine ⟨_, _, Eq.refl _, placed_of_step hw h2 hne hend ?_ (mk _ _ h2) (fun _ => rfl)⟩
      unfold Scanner.MakeToken Scanner.IndentifierType Scanner.CheckKeyword
      dsimp only
      repeat' split
      all_goals decide
    · split
      · -- number
        unfold Scanner.Number
        obtain ⟨s2, e2, h2⟩ := SkipDigits_total
          (Scanner.Advance { sw with Start := sw.Current }).2.fuel _ hadv.pos (Nat.le_refl _)
        rw [e2]
        dsimp only
        split
        · rename_i hdot
          simp only [Bool.and_eq_true, beq_iff_eq] at hdot
          have hs3 : ScStep s2 s2.Advance.2 := ScStep.advance s2 (by
            have := hdot.1
            unfold Scanner.Peek at this
            rw [this]
            decide)
          obtain ⟨s4, e4, h4⟩ := SkipDigits_total s2.Advance.2.fuel _ hs3.pos (Nat.le_refl _)
          rw [e4]
          dsimp only
          exact ⟨_, _, Eq.refl _, placed_of_step hw (h2.sc_next (hs3.sc_next h4)) hne hend
            (by unfold Scanner.MakeToken; dsimp only; decide) (mk _ _ (h2.sc_next (hs3.sc_next h4))) (fun _ => rfl)⟩
        · exact ⟨_, _, Eq.refl _, placed_of_step hw h2 hne hend
            (by unfold Scanner.MakeToken; dsimp only; decide) (mk _ _ h2) (fun _ => rfl)⟩
      · split
        · exact single _ (by decide)
        · exact single _ (by decide)
        · exact single _ (by decide)
        · exact single _ (by decide)
        · exact single _ (by decide)
        · exact single _ (by decide)
        · exact single _ (by decide)
        · exact single _ (by decide)
        · exact single _ (by decide)
        · exact single _ (by decide)
        · exact single _ (by decide)
        · exact double _ _ _ (by decide) (by decide)
        · exact double _ _ _ (by decide) (by decide)
        · exact double _ _ _ (by decide) (by decide)
        · exact double _ _ _ (by decide) (by decide)
        · -- string
          unfold Scanner.String
          obtain ⟨s2, e2, h2⟩ := StringLoop_total
            (Scanner.Advance { sw with Start := sw.Current }).2.fuel _ hadv.pos (Nat.le_refl _)
          rw [e2]
          dsimp only
          split
          · exact ⟨_, _, Eq.refl _, placed_of_step hw h2 hne hend
              (by unfold Scanner.ErrorToken; dsimp only; decide) (TokOK_ErrorToken _ _ _) (fun h => absurd rfl h)⟩
          · rename_i hq
            have hs3 : ScStep s2 s2.Advance.2 := ScStep.advance s2 (IsAtEnd_false s2 hq)
            exact ⟨_, _, Eq.refl _, placed_of_step hw (h2.sc_next hs3) hne hend
              (by unfold Scanner.MakeToken; dsimp only; decide) (mk _ _ (h2.sc_next hs3)) (fun _ => rfl)⟩
        · exact ⟨_, _, Eq.refl _, placed_of_step hw (ScStep.rfl _ hadv.pos) hne hend
            (by unfold Scanner.ErrorToken; dsimp only; decide) (TokOK_ErrorToken _ _ _) (fun h => absurd rfl h)⟩


theorem scanAll_ends : ∀ (limit : Nat) (sc : Scanner), sc.Current ≤ sc.Source.length →
    sc.Source.length + 1 - sc.Current ≤ limit →
    ∃ toks s n, scanAll limit sc = toks ++ [(TOKEN_EOF, s, n)] ∧
      (∀ x ∈ toks, x.1 ≠ TOKEN_EOF) ∧ toks.length ≤ sc.Source.length - sc.Current := by
  intro limit
  induction limit with
  | zero => intro sc h1 h2; omega
  | succ limit ih =>
    intro sc h1 h2
    obtain ⟨t, sc1, e, hsc⟩ := ScanToken_total sc h1
    unfold scanAll
    rw [e]
    dsimp only
    by_cases ht : t.Type_ = TOKEN_EOF
    · rw [if_pos ht, ht]
      exact ⟨[], t.Start, t.Length, rfl, fun x hx => (by cases hx), Nat.zero_le _⟩
    · rw [if_neg ht]
      have hm := hsc.moved ht
      have hp := hsc.pos
      have hsrc := hsc.source
      rw [hsrc] at hp
      obtain ⟨toks, s, n, e2, h3, h4⟩ := ih sc1 (by rw [hsrc]; exact hp) (by rw [hsrc]; omega)
      rw [hsrc] at h4
      refine ⟨(t.Type_, t.Start, t.Length) :: toks, s, n, by rw [e2]; rfl, ?_, ?_⟩
      · intro x hx
        rcases List.mem_cons.1 hx with h | h
        · rw [h]; exact ht
        · exact h3 x h
      · rw [List.length_cons]
        omega

/-- Claim C38 (progress of the scanner): on a buffer without a NUL before its
terminator and at every position inside it, `ScanToken` returns, and the
position never moves beyond the terminator.  If the token is `TOKEN_EOF`, the
position is left at the terminator, the token is empty, and the next call
returns `TOKEN_EOF` again without moving; otherwise the position advances by at
least one character.  A token that is no error token is the text of the buffer
from its start, which is not before the old position, to the new position; it
has at least one character unless it is `TOKEN_EOF`; and the token of the next
call, if no error token, starts where this one ends or later.  So the tokens up
to the first `TOKEN_EOF` are at most as many as the characters left. -/
theorem C38_lexer_progress (sc : Scanner) (hz : ∀ c ∈ sc.Source, c ≠ 0)
    (h0 : sc.Current ≤ sc.Source.length) :
    ∃ t sc1, ScanToken sc = some (t, sc1) ∧ sc1.Source = sc.Source ∧
      sc1.Current ≤ sc1.Source.length ∧
      (t.Type_ = TOKEN_EOF → sc1.Current = sc.Source.length ∧ t.Length = 0 ∧
        ∃ t2 sc2, ScanToken sc1 = some (t2, sc2) ∧ t2.Type_ = TOKEN_EOF ∧
          sc2.Current = sc1.Current) ∧
      (t.Type_ ≠ TOKEN_EOF → sc.Current + 1 ≤ sc1.Current) ∧
      (t.Type_ ≠ TOKEN_ERROR → ∃ s, t.Start = CharPtr.src s ∧ sc.Current ≤ s ∧
        s + t.Length = sc1.Current ∧ (t.Type_ ≠ TOKEN_EOF → 1 ≤ t.Length) ∧
        ∀ t2 sc2, ScanToken sc1 = some (t2, sc2) → t2.Type_ ≠ TOKEN_ERROR →
          ∃ s2, t2.Start = CharPtr.src s2 ∧ s + t.Length ≤ s2) ∧
      ∀ limit, sc.Source.length + 1 - sc.Current ≤ limit →
        ∃ toks s n, scanAll limit sc = toks ++ [(TOKEN_EOF, s, n)] ∧
          (∀ x ∈ toks, x.1 ≠ TOKEN_EOF) ∧ toks.length ≤ sc.Source.length - sc.Current := by
  obtain ⟨t, sc1, e, hsc, hpl⟩ := ScanToken_placed sc h0
  have hsrc := hsc.source
  have hpos := hsc.pos
  have hz1 : ∀ c ∈ sc1.Source, c ≠ 0 := by rw [hsrc]; exact hz
  obtain ⟨t2, sc2, e2, hsc2, hpl2⟩ := ScanToken_placed sc1 hpos
  have hshape : ∀ (a : Scanner) (u : Token) (b : Scanner), Placed a u b →
      u.Type_ ≠ TOKEN_ERROR → u.Start = CharPtr.src b.Start ∧ b.Start + u.Length = b.Current := by
    intro a u b h hu
    have h1 := h.shape hu
    have h2 := h.start_le
    constructor
    · rw [h1]; rfl
    · have : u.Length = b.Current - b.Start := by rw [h1]; rfl
      omega
  refine ⟨t, sc1, e, hsrc, hpos, fun ht => ?_, fun ht => hsc.moved ht, fun ht => ?_,
    fun limit hl => scanAll_ends limit sc h0 hl⟩
  · have hend := hsc.eof ht
    have hcur := (IsAtEnd_iff_of_no_nul sc1 hz1 hpos).1 hend
    have ht2 : t2.Type_ = TOKEN_EOF := hsc2.atEnd hend
    have h3 := hsc2.le
    have h4 := hsc2.pos
    rw [hsc2.source] at h4
    have hlen : t.Length = 0 := by
      have hs := (hshape sc t sc1 hpl (by rw [ht]; decide)).2
      have := hpl.empty ht
      omega
    exact ⟨by rw [← hsrc]; exact hcur, hlen, t2, sc2, e2, ht2, by omega⟩
  · obtain ⟨h1, h2⟩ := hshape sc t sc1 hpl ht
    refine ⟨sc1.Start, h1, hpl.start_ge, h2, fun hne => ?_, fun t3 sc3 e3 ht3 => ?_⟩
    · have := hpl.nonempty hne
      omega
    · rw [e2] at e3
      cases e3
      obtain ⟨h5, _⟩ := hshape sc1 t2 sc2 hpl2 ht3
      exact ⟨sc2.Start, h5, by rw [h2]; exact hpl2.start_ge⟩

/-- Witness for C38: the buffer `a+b` scanned from its start gives the three
tokens and `TOKEN_EOF`. -/
theorem C38_lexer_progress_witness :
    scanAll 4 (InitScanner (chars "a+b")) =
      [(TOKEN_IDENTIFIER, CharPtr.src 0, 1), (TOKEN_PLUS, CharPtr.src 1, 1),
        (TOKEN_IDENTIFIER, CharPtr.src 2, 1), (TOKEN_EOF, CharPtr.src 3, 0)] ∧
    ∃ t sc1, ScanToken (InitScanner (chars "a+b")) = some (t, sc1) ∧ sc1.Source = (InitScanner (chars "a+b")).Source ∧
      sc1.Current ≤ sc1.Source.length ∧
      (t.Type_ = TOKEN_EOF → sc1.Current = (InitScanner (chars "a+b")).Source.length ∧ t.Length = 0 ∧
        ∃ t2 sc2, ScanToken sc1 = some (t2, sc2) ∧ t2.Type_ = TOKEN_EOF ∧
          sc2.Current = sc1.Current) ∧
      (t.Type_ ≠ TOKEN_EOF → (InitScanner (chars "a+b")).Current + 1 ≤ sc1.Current) ∧
      (t.Type_ ≠ TOKEN_ERROR → ∃ s, t.Start = CharPtr.src s ∧ (InitScanner (chars "a+b")).Current ≤ s ∧
        s + t.Length = sc1.Current ∧ (t.Type_ ≠ TOKEN_EOF → 1 ≤ t.Length) ∧
        ∀ t2 sc2, ScanToken sc1 = some (t2, sc2) → t2.Type_ ≠ TOKEN_ERROR →
          ∃ s2, t2.Start = CharPtr.src s2 ∧ s + t.Length ≤ s2) ∧
      ∀ limit, (InitScanner (chars "a+b")).Source.length + 1 - (InitScanner (chars "a+b")).Current ≤ limit →
        ∃ toks s n, scanAll limit (InitScanner (chars "a+b")) = toks ++ [(TOKEN_EOF, s, n)] ∧
          (∀ x ∈ toks, x.1 ≠ TOKEN_EOF) ∧ toks.length ≤ (InitScanner (chars "a+b")).Source.length - (InitScanner (chars "a+b")).Current :=
  ⟨by decide, C38_lexer_progress (InitScanner (chars "a+b")) (by decide) (by decide)⟩

/-! ### `Sweep` -/

theorem Linked_congr {hd hd2 : Nat → Option ObjHeader} :
    ∀ (l : List Nat) (a b : Option Nat),
      (∀ p ∈ l, (hd2 p).map ObjHeader.Next = (hd p).map ObjHeader.Next) →
      Linked hd a l b → Linked hd2 a l b := by
  intro l
  induction l with
  | nil => intro a b _ h; exact h
  | cons p l ih =>
    intro a b hc h
    obtain ⟨ha, h1, hp, hl⟩ := h
    have := hc p (List.mem_cons_self _ _)
    rw [hp] at this
    cases h2 : hd2 p with
    | none => rw [h2] at this; cases this
    | some x =>
      rw [h2] at this
      have hx : x.Next = h1.Next := Option.some.inj this
      exact ⟨ha, x, h2, by rw [hx]; exact ih _ _ (fun q hq => hc q (List.mem_cons_of_mem _ hq)) hl⟩

theorem Linked_snoc {hd : Nat → Option ObjHeader} {p : Nat} {h : ObjHeader}
    (hp : hd p = some h) :
    ∀ (l : List Nat) (a : Option Nat), Linked hd a l (some p) → Linked hd a (l ++ [p]) h.Next := by
  intro l
  induction l with
  | nil =>
    intro a ha
    exact ⟨ha, h, hp, rfl⟩
  | cons q l ih =>
    intro a ha
    obtain ⟨h1, hq, h2, h3⟩ := ha
    exact ⟨h1, hq, h2, ih _ h3⟩

theorem Linked_append {hd : Nat → Option ObjHeader} :
    ∀ (l l2 : List Nat) (a b c : Option Nat), Linked hd a l b → Linked hd b l2 c →
      Linked hd a (l ++ l2) c := by
  intro l
  induction l with
  | nil =>
    intro l2 a b c h1 h2
    have : a = b := h1
    subst this
    exact h2
  | cons q l ih =>
    intro l2 a b c h1 h2
    obtain ⟨h3, hq, h4, h5⟩ := h1
    exact ⟨h3, hq, h4, ih _ _ _ _ h5 h2⟩

theorem Linked_split {hd : Nat → Option ObjHeader} :
    ∀ (l l2 : List Nat) (a c : Option Nat), Linked hd a (l ++ l2) c →
      ∃ b, Linked hd a l b ∧ Linked hd b l2 c := by
  intro l
  induction l with
  | nil =>
    intro l2 a c h
    exact ⟨a, rfl, h⟩
  | cons q l ih =>
    intro l2 a c h
    obtain ⟨h3, hq, h4, h5⟩ := h
    obtain ⟨b, h6, h7⟩ := ih _ _ _ h5
    exact ⟨b, ⟨h3, hq, h4, h6⟩, h7⟩

theorem Linked_unique {hd : Nat → Option ObjHeader} :
    ∀ (l l2 : List Nat) (a : Option Nat), Linked hd a l none → Linked hd a l2 none → l = l2 := by
  intro l
  induction l with
  | nil =>
    intro l2 a h1 h2
    have : a = none := h1
    subst this
    cases l2 with
    | nil => rfl
    | cons q l2 => exact absurd h2.1 (by simp)
  | cons p l ih =>
    intro l2 a h1 h2
    obtain ⟨h3, hp, h4, h5⟩ := h1
    cases l2 with
    | nil =>
      have : a = none := h2
      rw [this] at h3
      cases h3
    | cons q l2 =>
      obtain ⟨h6, hq, h7, h8⟩ := h2
      rw [h3] at h6
      cases h6
      rw [h4] at h7
      cases h7
      rw [ih _ _ h5 h8]

/-- A list that ends at `NULL` holds no object twice. -/
theorem Linked_nodup {hd : Nat → Option ObjHeader} :
    ∀ (l : List Nat) (a : Option Nat), Linked hd a l none → l.Nodup := by
  intro l
  induction l with
  | nil => intro a _; exact List.nodup_nil
  | cons p l ih =>
    intro a h
    obtain ⟨h3, hp, h4, h5⟩ := h
    refine List.nodup_cons.2 ⟨fun hmem => ?_, ih _ h5⟩
    obtain ⟨x, y, hxy⟩ := List.append_of_mem hmem
    rw [hxy] at h5
    obtain ⟨b, h6, h7⟩ := Linked_split _ _ _ _ h5
    have hb : b = some p := h7.1
    have h8 : Linked hd (some p) (p :: (x ++ p :: y)) none := by
      refine ⟨rfl, hp, h4, ?_⟩
      exact Linked_append _ _ _ _ _ h6 h7
    rw [hb] at h7
    have := Linked_unique _ _ _ h7 h8
    have hl := congrArg List.length this
    simp only [List.length_cons, List.length_append] at hl
    omega

theorem Linked_relink {hd : Nat → Option ObjHeader} {p : Nat} (hp : ObjHeader)
    (c : Option Nat) :
    ∀ (k : List Nat) (a b : Option Nat), Linked hd a (k ++ [p]) b → (k ++ [p]).Nodup →
      Linked (fun q => if q = p then some { hp with Next := c } else hd q) a (k ++ [p]) c := by
  intro k
  induction k with
  | nil =>
    intro a b h _
    exact ⟨h.1, _, if_pos rfl, rfl⟩
  | cons q k ih =>
    intro a b h hn
    obtain ⟨h3, hq, h4, h5⟩ := h
    have hn2 := List.nodup_cons.1 hn
    have hqp : q ≠ p := fun e => hn2.1 (by rw [e]; simp)
    exact ⟨h3, hq, by dsimp only; rw [if_neg hqp]; exact h4, ih _ _ h5 hn2.2⟩

theorem SweepLoop_spec (m : Nat → Bool) :
    ∀ (rem : List Nat) (fuel : Nat) (previous object : Option Nat) (st : ObjectList)
      (kept : List Nat),
      rem.length < fuel →
      Linked st.Header st.Objects kept object →
      Linked st.Header object rem none →
      (kept ++ rem).Nodup →
      previous = kept.getLast? →
      (∀ p ∈ rem, ∃ h, st.Header p = some h ∧ h.IsMarked = m p) →
      (∀ p ∈ kept, ∃ h, st.Header p = some h ∧ h.IsMarked = false) →
      ∃ st2, SweepLoop fuel previous object st = some st2 ∧
        Linked st2.Header st2.Objects (kept ++ rem.filter m) none ∧
        (∀ p ∈ kept ++ rem.filter m, ∃ h, st2.Header p = some h ∧ h.IsMarked = false) ∧
        st2.Freed = st.Freed ++ rem.filter (fun p => !m p) ∧
        (∀ p ∈ rem, m p = false → st2.Header p = none) ∧
        (∀ p, p ∉ kept → p ∉ rem → st2.Header p = st.Header p) := by
  intro rem
  induction rem with
  | nil =>
    intro fuel previous object st kept hf hk hr _ _ _ hkm
    have ho : object = none := hr
    subst ho
    obtain ⟨f, rfl⟩ : ∃ f, fuel = f + 1 := ⟨fuel - 1, by simp at hf; omega⟩
    refine ⟨st, rfl, ?_, ?_, ?_, ?_, ?_⟩
    · simpa using hk
    · simpa using hkm
    · simp
    · intro p hp; cases hp
    · intro p _ _; rfl
  | cons o rem ih =>
    intro fuel previous object st kept hf hk hr hn hprev hrm hkm
    obtain ⟨ho, h, hh, hrest⟩ := hr
    subst ho
    obtain ⟨f, rfl⟩ : ∃ f, fuel = f + 1 := ⟨fuel - 1, by simp at hf; omega⟩
    have hf2 : rem.length < f := by simp at hf; omega
    have hn1 : (kept ++ [o] ++ rem).Nodup := by simpa using hn
    have hn2 := List.nodup_append.1 hn
    have hn3 := List.nodup_cons.1 hn2.2.1
    have ho_kept : o ∉ kept := fun hm => hn2.2.2 hm (List.mem_cons_self _ _)
    have ho_rem : o ∉ rem := hn3.1
    have hmo : h.IsMarked = m o := by
      obtain ⟨h2, e2, e3⟩ := hrm o (List.mem_cons_self _ _)
      rw [hh] at e2
      cases e2
      exact e3
    unfold SweepLoop
    dsimp only
    rw [hh]
    dsimp only
    cases hmark : h.IsMarked with
    | true =>
      rw [if_pos rfl]
      have hmo2 : m o = true := by rw [← hmo, hmark]
      obtain ⟨st2, e, r1, r2, r3, r4, r5⟩ := ih f (some o) h.Next
        (st.setHeader o (some { h with IsMarked := false })) (kept ++ [o]) hf2
        (by
          have hk2 : Linked (st.setHeader o (some { h with IsMarked := false })).Header
              st.Objects kept (some o) := by
            refine Linked_congr _ _ _ (fun p hp => ?_) hk
            have : p ≠ o := fun e => ho_kept (e ▸ hp)
            simp [ObjectList.setHeader, this]
          exact Linked_snoc (h := { h with IsMarked := false })
            (by simp [ObjectList.setHeader]) _ _ hk2)
        (by
          refine Linked_congr _ _ _ (fun p hp => ?_) hrest
          have : p ≠ o := fun e => ho_rem (e ▸ hp)
          simp [ObjectList.setHeader, this])
        hn1 (by simp)
        (by
          intro p hp
          have : p ≠ o := fun e => ho_rem (e ▸ hp)
          obtain ⟨h2, e2, e3⟩ := hrm p (List.mem_cons_of_mem _ hp)
          exact ⟨h2, by simp [ObjectList.setHeader, this, e2], e3⟩)
        (by
          intro p hp
          rcases List.mem_append.1 hp with hp | hp
          · have : p ≠ o := fun e => ho_kept (e ▸ hp)
            obtain ⟨h2, e2, e3⟩ := hkm p hp
            exact ⟨h2, by simp [ObjectList.setHeader, this, e2], e3⟩
          · have : p = o := by simpa using hp
            subst this
            exact ⟨{ h with IsMarked := false }, by simp [ObjectList.setHeader], rfl⟩)
      have hfl : (o :: rem).filter m = o :: rem.filter m := by simp [List.filter_cons, hmo2]
      have hfl2 : (o :: rem).filter (fun p => !m p) = rem.filter (fun p => !m p) := by
        simp [List.filter_cons, hmo2]
      refine ⟨st2, e, ?_, ?_, ?_, ?_, ?_⟩
      · rw [hfl]; simpa using r1
      · rw [hfl]; simpa using r2
      · rw [hfl2]; exact r3
      · intro p hp hmp
        rcases List.mem_cons.1 hp with hp | hp
        · rw [hp, hmo2] at hmp; cases hmp
        · exact r4 p hp hmp
      · intro p hp1 hp2
        have hpo : p ≠ o := fun e => hp2 (e ▸ List.mem_cons_self _ _)
        rw [r5 p (by simp [hp1, hpo]) (fun hm => hp2 (List.mem_cons_of_mem _ hm))]
        simp [ObjectList.setHeader, hpo]
    | false =>
      rw [if_neg (by simp)]
      have hmo2 : m o = false := by rw [← hmo, hmark]
      have hfl : (o :: rem).filter m = rem.filter m := by simp [List.filter_cons, hmo2]
      have hfl2 : (o :: rem).filter (fun p => !m p) = o :: rem.filter (fun p => !m p) := by
        simp [List.filter_cons, hmo2]
      have hn4 : (kept ++ rem).Nodup := by
        refine List.nodup_append.2 ⟨hn2.1, hn3.2, fun a ha hb => hn2.2.2 ha (List.mem_cons_of_mem _ hb)⟩
      -- the state after unlinking and freeing, in both cases of `previous`
      have key : ∀ st1 : ObjectList,
          Linked st1.Header st1.Objects kept h.Next →
          (∀ p, p ∉ kept → p ≠ o → st1.Header p = st.Header p) →
          (∀ p ∈ kept, ∃ h, st1.Header p = some h ∧ h.IsMarked = false) →
          st1.Header o = none → st1.Freed = st.Freed ++ [o] →
          ∃ st2, SweepLoop f previous h.Next st1 = some st2 ∧
            Linked st2.Header st2.Objects (kept ++ (o :: rem).filter m) none ∧
            (∀ p ∈ kept ++ (o :: rem).filter m, ∃ h, st2.Header p = some h ∧ h.IsMarked = false) ∧
            st2.Freed = st.Freed ++ (o :: rem).filter (fun p => !m p) ∧
            (∀ p ∈ o :: rem, m p = false → st2.Header p = none) ∧
            (∀ p, p ∉ kept → p ∉ o :: rem → st2.Header p = st.Header p) := by
        intro st1 hl1 hsame hkm1 hfree hfreed
        have hrem_same : ∀ p ∈ rem, st1.Header p = st.Header p := by
          intro p hp
          exact hsame p (fun hm => hn2.2.2 hm (List.mem_cons_of_mem _ hp))
            (fun e => ho_rem (e ▸ hp))
        obtain ⟨st2, e, r1, r2, r3, r4, r5⟩ := ih f previous h.Next st1 kept hf2 hl1
          (Linked_congr _ _ _ (fun p hp => by rw [hrem_same p hp]) hrest) hn4 hprev
          (by
            intro p hp
            obtain ⟨h2, e2, e3⟩ := hrm p (List.mem_cons_of_mem _ hp)
            exact ⟨h2, by rw [hrem_same p hp]; exact e2, e3⟩)
          hkm1
        refine ⟨st2, e, ?_, ?_, ?_, ?_, ?_⟩
        · rw [hfl]; exact r1
        · rw [hfl]; exact r2
        · rw [hfl2, r3, hfreed]; simp
        · intro p hp hmp
          rcases List.mem_cons.1 hp with hp | hp
          · rw [hp, r5 o ho_kept ho_rem]; exact hfree
          · exact r4 p hp hmp
        · intro p hp1 hp2
          have hpo : p ≠ o := fun e => hp2 (e ▸ List.mem_cons_self _ _)
          rw [r5 p hp1 (fun hm => hp2 (List.mem_cons_of_mem _ hm))]
          exact hsame p hp1 hpo
      rcases List.eq_nil_or_concat kept with hk0 | ⟨k, p, hkp⟩
      · subst hk0
        have hp0 : previous = none := hprev
        subst hp0
        dsimp only
        exact key (FreeObject o { st with Objects := h.Next }) rfl
          (fun p _ hpo => by simp [FreeObject, ObjectList.setHeader, hpo])
          (fun p hp => by cases hp) (by simp [FreeObject, ObjectList.setHeader]) rfl
      · rw [List.concat_eq_append] at hkp
        subst hkp
        have hp0 : previous = some p := by rw [hprev]; simp
        subst hp0
        dsimp only
        obtain ⟨hp, hhp, hpm⟩ := hkm p (by simp)
        rw [hhp]
        dsimp only
        have hpo : p ≠ o := fun e => ho_kept (by rw [← e]; simp)
        refine key (FreeObject o (st.setHeader p (some { hp with Next := h.Next }))) ?_ ?_ ?_
          (by simp [FreeObject, ObjectList.setHeader]) rfl
        · have h1 := Linked_relink hp h.Next k _ _ hk hn2.1
          refine Linked_congr _ _ _ (fun q hq => ?_) h1
          have : q ≠ o := fun e => ho_kept (e ▸ hq)
          simp [FreeObject, ObjectList.setHeader, this]
        · intro q hq hqo
          have : q ≠ p := fun e => hq (by rw [e]; simp)
          simp [FreeObject, ObjectList.setHeader, hqo, this]
        · intro q hq
          have hqo : q ≠ o := fun e => ho_kept (e ▸ hq)
          by_cases hqp : q = p
          · subst hqp
            exact ⟨{ hp with Next := h.Next }, by simp [FreeObject, ObjectList.setHeader, hqo], hpm⟩
          · obtain ⟨h2, e2, e3⟩ := hkm q hq
            exact ⟨h2, by simp [FreeObject, ObjectList.setHeader, hqo, hqp, e2], e3⟩

theorem Linked_header {hd : Nat → Option ObjHeader} :
    ∀ (l : List Nat) (a b : Option Nat), Linked hd a l b → ∀ p ∈ l, ∃ h, hd p = some h := by
  intro l
  induction l with
  | nil => intro a b _ p hp; cases hp
  | cons q l ih =>
    intro a b h p hp
    obtain ⟨_, hq, h4, h5⟩ := h
    rcases List.mem_cons.1 hp with e | e
    · exact ⟨hq, by rw [e]; exact h4⟩
    · exact ih _ _ h5 p e

theorem sampleObjects_linked :
    Linked sampleObjects.Header sampleObjects.Objects [8, 16, 24, 32] none :=
  ⟨rfl, ⟨false, some 16⟩, rfl, rfl, ⟨true, some 24⟩, rfl, rfl, ⟨false, some 32⟩, rfl, rfl,
    ⟨true, none⟩, rfl, rfl⟩

/-- Claim C34 (`Sweep`): when the `Next` pointers lead from `vm.Objects`
through the objects `l` to `NULL`, `Sweep` returns (with one unit of fuel for
each object and one more); afterwards the list from `vm.Objects` consists of
the objects of `l` that were marked, in their order, each with `IsMarked`
false; the objects of `l` that were not marked have been passed to
`FreeObject` in their order, each once, and are no objects any more; no other
header changes.  An object allocated afterwards is unmarked and in front of
the list, so that no object of the list is marked.  The list is the one the
function `Sweep` of the collector model keeps. -/
theorem C34_sweep (st : ObjectList) (l : List Nat) (fuel : Nat)
    (hlist : Linked st.Header st.Objects l none) (hfuel : l.length < fuel) :
    ∃ st2, SweepObjects fuel st = some st2 ∧
      Linked st2.Header st2.Objects (l.filter st.marked) none ∧
      (∀ p ∈ l.filter st.marked, ∃ h, st2.Header p = some h ∧ h.IsMarked = false) ∧
      st2.Freed = st.Freed ++ l.filter (fun p => !st.marked p) ∧
      (l.filter (fun p => !st.marked p)).Nodup ∧
      (∀ p ∈ l, st.marked p = false → st2.Header p = none) ∧
      (∀ p, p ∉ l → st2.Header p = st.Header p) ∧
      (∀ p, p ∉ l.filter st.marked →
        Linked (AllocateHeader p st2).Header (AllocateHeader p st2).Objects
          (p :: l.filter st.marked) none ∧
        ∀ q ∈ p :: l.filter st.marked, (AllocateHeader p st2).marked q = false) ∧
      ∀ (vm : VM) (gc : Collector), vm.Objects = l →
        (∀ p ∈ l, st.marked p = decide (p ∈ gc.Marked)) →
        (Sweep vm gc).1.Objects = l.filter st.marked := by
  have hmarks : ∀ p ∈ l, ∃ h, st.Header p = some h ∧ h.IsMarked = st.marked p := by
    intro p hp
    obtain ⟨h, e⟩ := Linked_header _ _ _ hlist p hp
    exact ⟨h, e, by simp [ObjectList.marked, e]⟩
  have hnodup := Linked_nodup _ _ hlist
  obtain ⟨st2, e, r1, r2, r3, r4, r5⟩ := SweepLoop_spec st.marked l fuel none st.Objects st []
    hfuel rfl hlist (by simpa using hnodup) rfl hmarks (fun p hp => by cases hp)
  simp only [List.nil_append] at r1 r2
  refine ⟨st2, e, r1, r2, r3, hnodup.filter _, r4, fun p hp => r5 p (by simp) hp,
    fun p hp => ⟨?_, ?_⟩, fun vm gc hv hm => ?_⟩
  · refine ⟨rfl, ⟨false, st2.Objects⟩, by simp [AllocateHeader, ObjectList.setHeader], ?_⟩
    refine Linked_congr _ _ _ (fun q hq => ?_) r1
    have : q ≠ p := fun e => hp (e ▸ hq)
    simp [AllocateHeader, ObjectList.setHeader, this]
  · intro q hq
    rcases List.mem_cons.1 hq with e | e
    · simp [AllocateHeader, ObjectList.setHeader, ObjectList.marked, e]
    · have hqp : q ≠ p := fun e2 => hp (e2 ▸ e)
      obtain ⟨h, e3, e4⟩ := r2 q e
      simp [AllocateHeader, ObjectList.setHeader, ObjectList.marked, hqp, e3, e4]
  · show vm.Objects.filter (fun p => decide (p ∈ gc.Marked)) = _
    rw [hv]
    exact List.filter_congr (fun p hp => (hm p hp).symm)

/-- Witness for C34: of the four objects of `sampleObjects` the marked ones,
16 and 32, stay on the list, unmarked, and 8 and 24 are freed. -/
theorem C34_sweep_witness :
    (SweepObjects 5 sampleObjects).map
        (fun s => (s.Objects, s.Freed, [8, 16, 24, 32].map s.Header)) =
      some (some 16, [8, 24], [none, some ⟨false, some 32⟩, none, some ⟨false, none⟩]) ∧
    ∃ st2, SweepObjects 5 sampleObjects = some st2 ∧
      Linked st2.Header st2.Objects ([8, 16, 24, 32].filter sampleObjects.marked) none ∧
      (∀ p ∈ [8, 16, 24, 32].filter sampleObjects.marked, ∃ h, st2.Header p = some h ∧ h.IsMarked = false) ∧
      st2.Freed = sampleObjects.Freed ++ [8, 16, 24, 32].filter (fun p => !sampleObjects.marked p) ∧
      ([8, 16, 24, 32].filter (fun p => !sampleObjects.marked p)).Nodup ∧
      (∀ p ∈ [8, 16, 24, 32], sampleObjects.marked p = false → st2.Header p = none) ∧
      (∀ p, p ∉ [8, 16, 24, 32] → st2.Header p = sampleObjects.Header p) ∧
      (∀ p, p ∉ [8, 16, 24, 32].filter sampleObjects.marked →
        Linked (AllocateHeader p st2).Header (AllocateHeader p st2).Objects
          (p :: [8, 16, 24, 32].filter sampleObjects.marked) none ∧
        ∀ q ∈ p :: [8, 16, 24, 32].filter sampleObjects.marked, (AllocateHeader p st2).marked q = false) ∧
      ∀ (vm : VM) (gc : Collector), vm.Objects = [8, 16, 24, 32] →
        (∀ p ∈ [8, 16, 24, 32], sampleObjects.marked p = decide (p ∈ gc.Marked)) →
        (Sweep vm gc).1.Objects = [8, 16, 24, 32].filter sampleObjects.marked :=
  ⟨by decide, C34_sweep sampleObjects [8, 16, 24, 32] 5 sampleObjects_linked (by decide)⟩

/-! ### `DeclareVariable` -/

theorem DeclareVariableLoop_succ (name : Token) (locals : List Local) (scopeDepth : Int)
    (i : Nat) (st : CompileState) :
    DeclareVariableLoop name locals scopeDepth (i + 1) st =
      match locals[i]? with
      | none => st
      | some l =>
        if l.Depth ≠ -1 ∧ l.Depth < scopeDepth then st
        else
          DeclareVariableLoop name locals scopeDepth i
            (if IdentifiersEqual st.scanner.Source name l.Name then
              Error (chars "There is already a variable with this name in this scope.") st
             else st) := rfl

theorem getElem_append_cons_self {α : Type} (xs : List α) (y : α) (ys : List α) :
    (xs ++ y :: ys)[xs.length]? = some y := by
  rw [List.getElem?_append_right (Nat.le_refl _), Nat.sub_self, List.getElem?_cons_zero]

theorem Error_Error (m : List Nat) (st : CompileState) : Error m (Error m st) = Error m st := by
  unfold Error ErrorAt
  cases h : st.parser.PanicMode with
  | true => simp [h]
  | false => simp [h]

theorem Error_scanner (m : List Nat) (st : CompileState) : (Error m st).scanner = st.scanner := by
  unfold Error ErrorAt
  split <;> rfl

theorem Error_current (m : List Nat) (st : CompileState) : (Error m st).current = st.current := by
  unfold Error ErrorAt
  split <;> rfl

/-- The loop of `DeclareVariable` over the locals of the current scope
(`inner`), which an older local (the last of `outer`) or the bottom of the
array ends: `Error` is applied if one of them has the name. -/
theorem DeclareVariableLoop_spec (name : Token) (d : Int) (outer : List Local)
    (ho : ∀ l ∈ outer.getLast?, l.Depth ≠ -1 ∧ l.Depth < d) :
    ∀ (inner rest : List Local) (st : CompileState),
      (∀ l ∈ inner, ¬ (l.Depth ≠ -1 ∧ l.Depth < d)) →
      DeclareVariableLoop name (outer ++ inner ++ rest) d (outer.length + inner.length) st =
        if inner.any (fun l => IdentifiersEqual st.scanner.Source name l.Name) then
          Error (chars "There is already a variable with this name in this scope.") st
        else st := by
  intro inner
  induction inner using List.reverseRecOn with
  | nil =>
    intro rest st _
    simp only [List.any_nil, List.length_nil, Nat.add_zero, List.append_nil]
    rcases List.eq_nil_or_concat outer with h | ⟨os, o, h⟩
    · subst h
      rfl
    · rw [List.concat_eq_append] at h
      subst h
      have hlen : (os ++ [o]).length = os.length + 1 := by simp
      rw [hlen, DeclareVariableLoop_succ]
      have hget : (os ++ [o] ++ rest)[os.length]? = some o := by
        rw [List.append_assoc]
        exact getElem_append_cons_self os o rest
      rw [hget]
      dsimp only
      rw [if_pos (ho o (by simp))]
      rfl
  | append_singleton inner l ih =>
    intro rest st hi
    have hlen : outer.length + (inner ++ [l]).length = (outer.length + inner.length) + 1 := by
      simp; omega
    have hlist : outer ++ (inner ++ [l]) ++ rest = outer ++ inner ++ ([l] ++ rest) := by simp
    have hget : (outer ++ inner ++ ([l] ++ rest))[outer.length + inner.length]? = some l := by
      rw [← List.length_append]
      exact getElem_append_cons_self (outer ++ inner) l rest
    rw [hlen, hlist, DeclareVariableLoop_succ, hget]
    dsimp only
    rw [if_neg (hi l (by simp))]
    rw [ih ([l] ++ rest) _ (fun x hx => hi x (by simp [hx]))]
    cases he : IdentifiersEqual st.scanner.Source name l.Name with
    | true =>
      simp only [if_true, Error_scanner, Error_Error, ite_self, List.any_append, List.any_cons,
        he, List.any_nil, Bool.or_false, Bool.or_true]
    | false =>
      simp only [List.any_append, List.any_cons, he, List.any_nil, Bool.or_false]
      rfl

theorem AddLocal_eq (name : Token) (st : CompileState) (c : Compiler) (cs : List Compiler)
    (hc : st.current = c :: cs) :
    AddLocal name st =
      if c.LocalCount = UINT8_COUNT then
        some (Error (chars "There are too many local variables in this function.") st)
      else some { st with current := { c with Locals := c.Locals ++ [⟨name, -1, false⟩] } :: cs } := by
  unfold AddLocal
  rw [hc]

theorem Error_of_panic (m : List Nat) (st : CompileState) (h : st.parser.PanicMode = true) :
    Error m st = st := by
  unfold Error ErrorAt
  rw [if_pos h]

theorem getLast_mem_outer {α : Type} (outer : List α) (l : α) (h : l ∈ outer.getLast?) :
    l ∈ outer := by
  rcases List.eq_nil_or_concat outer with h0 | ⟨os, o, h0⟩
  · subst h0
    simp at h
  · rw [List.concat_eq_append] at h0
    subst h0
    simp at h
    subst h
    simp

set_option maxRecDepth 100000 in
theorem fullLocalsState_declare :
    fullLocalsState.current.map (fun c => (c.ScopeDepth, c.LocalCount)) = [(2, 256)] ∧
    fullLocalsState.parser.HadError = false ∧ fullLocalsState.stderr = [] ∧
    fullLocals.map (fun l => decide (l.Depth = 2 ∨ l.Depth = -1)) = List.replicate 256 false ∧
    (fullLocals[1]?).map (fun l => (IdentifiersEqual fullLocalsState.scanner.Source
      fullLocalsState.parser.Previous l.Name, l.Depth)) = some (true, 1) ∧
    (DeclareVariable fullLocalsState).map
        (fun s => (s.parser.HadError, s.stderr.map Prod.snd,
          s.current.map (fun c => c.LocalCount))) =
      some (true, [chars "There are too many local variables in this function."], [256]) := by
  decide

/-- Counterexample to C31 as stated: in a block of depth 2 of a function whose
256 local slots are in use, all by variables of the enclosing block of depth 1,
the declaration of `b`, a name that only the enclosing block has, is an error:
`DeclareVariable` finds no duplicate, and `AddLocal` reports
`There are too many local variables in this function.` -/
theorem C31_declare_counterexample :
    fullLocalsState.current.map (fun c => (c.ScopeDepth, c.LocalCount)) = [(2, 256)] ∧
    fullLocalsState.parser.HadError = false ∧ fullLocalsState.stderr = [] ∧
    fullLocals.map (fun l => decide (l.Depth = 2 ∨ l.Depth = -1)) = List.replicate 256 false ∧
    (fullLocals[1]?).map (fun l => (IdentifiersEqual fullLocalsState.scanner.Source
      fullLocalsState.parser.Previous l.Name, l.Depth)) = some (true, 1) ∧
    (DeclareVariable fullLocalsState).map
        (fun s => (s.parser.HadError, s.stderr.map Prod.snd,
          s.current.map (fun c => c.LocalCount))) =
      some (true, [chars "There are too many local variables in this function."], [256]) :=
  fullLocalsState_declare

/-- Claim C31 (amended: the error of a full local array is told apart).  Let
the locals of the current compiler be those of enclosing scopes (`outer`:
initialised, of smaller depth) followed by those of the current scope (`inner`:
of the current depth, or not yet initialised).  At scope depth 0
`DeclareVariable` changes nothing.  At another depth, if a local of the current
scope has the name of the previous token, `DeclareVariable` calls
`Error("There is already a variable with this name in this scope.")` and then
`AddLocal`; unless the parser is in panic mode the message is written and
`HadError` is set.  If no local of the current scope has the name, locals of
enclosing scopes with the name or not, `DeclareVariable` is `AddLocal` alone:
with fewer than 256 locals the local is added, uninitialised, and nothing else
changes, so no error is reported; with 256 locals `AddLocal` reports
`There are too many local variables in this function.` -/
theorem C31_declare_variable (st : CompileState) (c : Compiler) (cs : List Compiler)
    (outer inner : List Local)
    (hc : st.current = c :: cs) (hl : c.Locals = outer ++ inner)
    (ho : ∀ l ∈ outer, l.Depth ≠ -1 ∧ l.Depth < c.ScopeDepth)
    (hi : ∀ l ∈ inner, l.Depth = -1 ∨ l.Depth = c.ScopeDepth) :
    (c.ScopeDepth = 0 → DeclareVariable st = some st) ∧
    (c.ScopeDepth ≠ 0 →
      ((∃ l ∈ c.Locals, (l.Depth = -1 ∨ l.Depth = c.ScopeDepth) ∧
          IdentifiersEqual st.scanner.Source st.parser.Previous l.Name = true) →
        DeclareVariable st = AddLocal st.parser.Previous (Error (chars "There is already a variable with this name in this scope.") st) ∧
        (st.parser.PanicMode = false →
          ∃ st1, DeclareVariable st = some st1 ∧
            st1.stderr = st.stderr ++ [(st.parser.Previous, (chars "There is already a variable with this name in this scope."))] ∧
            st1.parser.HadError = true)) ∧
      ((¬ ∃ l ∈ c.Locals, (l.Depth = -1 ∨ l.Depth = c.ScopeDepth) ∧
          IdentifiersEqual st.scanner.Source st.parser.Previous l.Name = true) →
        DeclareVariable st = AddLocal st.parser.Previous st ∧
        (c.LocalCount < UINT8_COUNT →
          DeclareVariable st = some { st with
            current := { c with Locals := c.Locals ++ [⟨st.parser.Previous, -1, false⟩] } ::
              cs }) ∧
        (c.LocalCount = UINT8_COUNT → DeclareVariable st = some (Error (chars "There are too many local variables in this function.") st)))) := by
  constructor
  · intro h0
    unfold DeclareVariable
    rw [hc]
    dsimp only
    rw [if_pos h0]
  · intro h0
    have hloop := DeclareVariableLoop_spec st.parser.Previous c.ScopeDepth outer
      (fun l h => ho l (getLast_mem_outer outer l h)) inner [] st
      (fun l h => by
        rcases hi l h with e | e
        · intro hcon; exact hcon.1 e
        · intro hcon; have := hcon.2; omega)
    have hdv : DeclareVariable st = AddLocal st.parser.Previous
        (if inner.any (fun l => IdentifiersEqual st.scanner.Source st.parser.Previous l.Name)
          then Error (chars "There is already a variable with this name in this scope.") st
          else st) := by
      unfold DeclareVariable
      rw [hc]
      dsimp only
      rw [if_neg h0]
      unfold Compiler.LocalCount
      rw [← hloop, hl, List.length_append, List.append_nil]
    have hany : inner.any (fun l => IdentifiersEqual st.scanner.Source st.parser.Previous l.Name) =
        true ↔ ∃ l ∈ c.Locals, (l.Depth = -1 ∨ l.Depth = c.ScopeDepth) ∧
          IdentifiersEqual st.scanner.Source st.parser.Previous l.Name = true := by
      rw [List.any_eq_true, hl]
      constructor
      · rintro ⟨l, h1, h2⟩
        exact ⟨l, List.mem_append_right _ h1, hi l h1, h2⟩
      · rintro ⟨l, h1, h2, h3⟩
        rcases List.mem_append.1 h1 with h4 | h4
        · have := ho l h4
          rcases h2 with e | e
          · exact absurd e this.1
          · have := this.2; omega
        · exact ⟨l, h4, h3⟩
    constructor
    · intro hdup
      rw [hdv, if_pos (hany.2 hdup)]
      refine ⟨rfl, fun hp => ?_⟩
      have hcur : (Error (chars "There is already a variable with this name in this scope.")
          st).current = c :: cs := by rw [Error_current]; exact hc
      rw [AddLocal_eq _ _ c cs hcur]
      have hE : Error (chars "There is already a variable with this name in this scope.") st =
          { st with
            parser := { st.parser with PanicMode := true, HadError := true }
            stderr := st.stderr ++ [(st.parser.Previous,
              chars "There is already a variable with this name in this scope.")] } := by
        unfold Error ErrorAt
        rw [hp]
        rfl
      by_cases hfull : c.LocalCount = UINT8_COUNT
      · rw [if_pos hfull, Error_of_panic _ _ (by rw [hE])]
        exact ⟨_, rfl, by rw [hE], by rw [hE]⟩
      · rw [if_neg hfull]
        exact ⟨_, rfl, by rw [hE], by rw [hE]⟩
    · intro hnodup
      have hf : inner.any (fun l => IdentifiersEqual st.scanner.Source st.parser.Previous
          l.Name) = false := by
        cases h : inner.any (fun l => IdentifiersEqual st.scanner.Source st.parser.Previous
          l.Name) with
        | false => rfl
        | true => exact absurd (hany.1 h) hnodup
      have hd2 : DeclareVariable st = AddLocal st.parser.Previous st := by
        rw [hdv, hf]
        rfl
      refine ⟨hd2, fun h => ?_, fun h => ?_⟩
      · rw [hd2, AddLocal_eq _ _ c cs hc, if_neg (by omega)]
      · rw [hd2, AddLocal_eq _ _ c cs hc, if_pos h]

/-- Witness for C31: in the inner block of `{ var a; { var b; var c; } }` the
name `a` is held by a local of the enclosing block only and is declared
without an error, and the name `b`, a local of the block, is reported. -/
theorem C31_declare_variable_witness :
    ((DeclareVariable (declareState ⟨TOKEN_IDENTIFIER, CharPtr.src 6, 1, 1⟩)).map
        (fun s => (s.parser.HadError, s.stderr.map Prod.snd,
          s.current.map (fun c => c.LocalCount))) = some (false, [], [5]) ∧
      (DeclareVariable (declareState ⟨TOKEN_IDENTIFIER, CharPtr.src 15, 1, 1⟩)).map
        (fun s => (s.parser.HadError, s.stderr.map Prod.snd,
          s.current.map (fun c => c.LocalCount))) =
        some (true, [chars "There is already a variable with this name in this scope."],
          [5])) ∧
    (scopeEndCompiler.ScopeDepth = 0 → DeclareVariable (declareState ⟨TOKEN_IDENTIFIER, CharPtr.src 6, 1, 1⟩) = some (declareState ⟨TOKEN_IDENTIFIER, CharPtr.src 6, 1, 1⟩)) ∧
    (scopeEndCompiler.ScopeDepth ≠ 0 →
      ((∃ l ∈ scopeEndCompiler.Locals, (l.Depth = -1 ∨ l.Depth = scopeEndCompiler.ScopeDepth) ∧
          IdentifiersEqual (declareState ⟨TOKEN_IDENTIFIER, CharPtr.src 6, 1, 1⟩).scanner.Source (declareState ⟨TOKEN_IDENTIFIER, CharPtr.src 6, 1, 1⟩).parser.Previous l.Name = true) →
        DeclareVariable (declareState ⟨TOKEN_IDENTIFIER, CharPtr.src 6, 1, 1⟩) = AddLocal (declareState ⟨TOKEN_IDENTIFIER, CharPtr.src 6, 1, 1⟩).parser.Previous (Error (chars "There is already a variable with this name in this scope.") (declareState ⟨TOKEN_IDENTIFIER, CharPtr.src 6, 1, 1⟩)) ∧
        ((declareState ⟨TOKEN_IDENTIFIER, CharPtr.src 6, 1, 1⟩).parser.PanicMode = false →
          ∃ st1, DeclareVariable (declareState ⟨TOKEN_IDENTIFIER, CharPtr.src 6, 1, 1⟩) = some st1 ∧
            st1.stderr = (declareState ⟨TOKEN_IDENTIFIER, CharPtr.src 6, 1, 1⟩).stderr ++ [((declareState ⟨TOKEN_IDENTIFIER, CharPtr.src 6, 1, 1⟩).parser.Previous, (chars "There is already a variable with this name in this scope."))] ∧
            st1.parser.HadError = true)) ∧
      ((¬ ∃ l ∈ scopeEndCompiler.Locals, (l.Depth = -1 ∨ l.Depth = scopeEndCompiler.ScopeDepth) ∧
          IdentifiersEqual (declareState ⟨TOKEN_IDENTIFIER, CharPtr.src 6, 1, 1⟩).scanner.Source (declareState ⟨TOKEN_IDENTIFIER, CharPtr.src 6, 1, 1⟩).parser.Previous l.Name = true) →
        DeclareVariable (declareState ⟨TOKEN_IDENTIFIER, CharPtr.src 6, 1, 1⟩) = AddLocal (declareState ⟨TOKEN_IDENTIFIER, CharPtr.src 6, 1, 1⟩).parser.Previous (declareState ⟨TOKEN_IDENTIFIER, CharPtr.src 6, 1, 1⟩) ∧
        (scopeEndCompiler.LocalCount < UINT8_COUNT →
          DeclareVariable (declareState ⟨TOKEN_IDENTIFIER, CharPtr.src 6, 1, 1⟩) = some { (declareState ⟨TOKEN_IDENTIFIER, CharPtr.src 6, 1, 1⟩) with
            current := { scopeEndCompiler with Locals := scopeEndCompiler.Locals ++ [⟨(declareState ⟨TOKEN_IDENTIFIER, CharPtr.src 6, 1, 1⟩).parser.Previous, -1, false⟩] } ::
              [] }) ∧
        (scopeEndCompiler.LocalCount = UINT8_COUNT → DeclareVariable (declareState ⟨TOKEN_IDENTIFIER, CharPtr.src 6, 1, 1⟩) = some (Error (chars "There are too many local variables in this function.") (declareState ⟨TOKEN_IDENTIFIER, CharPtr.src 6, 1, 1⟩))))) :=
  ⟨by decide,
    C31_declare_variable (declareState ⟨TOKEN_IDENTIFIER, CharPtr.src 6, 1, 1⟩) scopeEndCompiler
      [] [⟨SyntheticToken (chars "this"), 0, false⟩,
        ⟨⟨TOKEN_IDENTIFIER, CharPtr.src 6, 1, 1⟩, 1, false⟩]
      [⟨⟨TOKEN_IDENTIFIER, CharPtr.src 15, 1, 1⟩, 2, true⟩,
        ⟨⟨TOKEN_IDENTIFIER, CharPtr.src 22, 1, 1⟩, 2, false⟩]
      rfl rfl (by decide) (by decide)⟩

/-! ### `Invoke` and the unfused path -/

theorem AS_OBJ_OBJ_VAL {p : Nat} (h : p < 2 ^ 50) : AS_OBJ (OBJ_VAL p) = p := by
  unfold AS_OBJ
  have hm : (0x0003ffffffffffff : Nat) = 2 ^ 50 - 1 := by decide
  rw [hm, Nat.and_pow_two_sub_one_eq_mod, OBJ_VAL_eq_add h, Nat.add_comm,
    Nat.add_mul_mod_self_right, Nat.mod_eq_of_lt h]

theorem READ_STRING_setIP {s : Nat} {vm vm1 : VM} (h : READ_STRING vm = some (s, vm1)) :
    ∃ ip, vm1 = vm.setIP ip := by
  unfold READ_STRING READ_CONSTANT READ_BYTE at h
  simp only [Option.bind_eq_bind, Option.map_eq_some', Option.bind_eq_some, Option.some.injEq,
    Prod.mk.injEq, Prod.exists] at h
  obtain ⟨c, vm2, ⟨index, vm3, ⟨frame, _, f, _, byte, _, _, rfl⟩, _, _, _, _, _, rfl⟩, _, rfl⟩ := h
  exact ⟨_, rfl⟩

theorem set_of_getElem? {α : Type} (l : List α) (i : Nat) (a b : α) (h : l[i]? = some a) :
    (l.set i b).set i a = l := by
  rw [List.set_set]
  apply List.ext_getElem?
  intro j
  by_cases hj : i = j
  · subst hj
    rw [List.getElem?_set_self (List.getElem?_eq_some.1 h).1, h]
  · rw [List.getElem?_set_ne hj]

/-- Function `Call` on a machine with one more object that is neither a
closure nor a function, at an address that held no object. -/
theorem Call_withObject (vm : VM) (p : Nat) (object : Obj) (c n : Nat)
    (hnone : vm.Heap p = none)
    (hobj : ∀ fn ups, object ≠ Obj.Closure fn ups) (hobj2 : ∀ f, object ≠ Obj.Function f) :
    Call c n (vm.withObject p object) =
      (Call c n vm).map (fun r => (r.1, r.2.withObject p object)) := by
  unfold Call
  by_cases hcp : c = p
  · subst hcp
    rw [hnone]
    have : (vm.withObject c object).Heap c = some object := by simp [VM.withObject]
    rw [this]
    cases object with
    | Closure fn ups => exact absurd rfl (hobj fn ups)
    | _ => rfl
  · have hc : (vm.withObject p object).Heap c = vm.Heap c := by simp [VM.withObject, hcp]
    rw [hc]
    cases h1 : vm.Heap c with
    | none => rfl
    | some o =>
      cases o with
      | Closure fn ups =>
        dsimp only
        by_cases hfp : fn = p
        · subst hfp
          rw [hnone]
          have : (vm.withObject fn object).Heap fn = some object := by simp [VM.withObject]
          rw [this]
          cases object with
          | Function f => exact absurd rfl (hobj2 f)
          | _ => rfl
        · have hf : (vm.withObject p object).Heap fn = vm.Heap fn := by
            simp [VM.withObject, hfp]
          rw [hf]
          cases h2 : vm.Heap fn with
          | none => rfl
          | some o2 =>
            cases o2 with
            | Function f =>
              dsimp only
              by_cases ha : n ≠ f.Arity
              · rw [if_pos ha, if_pos ha]
                rfl
              · rw [if_neg ha, if_neg ha]
                by_cases hb : vm.Frames.length = FRAMES_MAX
                · have hb2 : (vm.withObject p object).Frames.length = FRAMES_MAX := hb
                  rw [if_pos hb, if_pos hb2]
                  rfl
                · have hb2 : ¬ (vm.withObject p object).Frames.length = FRAMES_MAX := hb
                  rw [if_neg hb, if_neg hb2]
                  rfl
            | _ => rfl
      | _ => rfl

theorem Invoke_instance (env : VMEnv) (vm : VM) (name argCount : Nat) (receiver : Value)
    (klass : Nat) (fields : Table)
    (hpeek : Peek argCount vm = some receiver) (hobj : IS_OBJ receiver = true)
    (hinst : vm.Heap (AS_OBJ receiver) = some (Obj.Instance klass fields)) :
    Invoke env name argCount vm =
      match TableGet vm.strings fields name with
      | none => none
      | some (some value) =>
        (vm.setBelowArgs argCount value).bind (CallValue env value argCount)
      | some none => InvokeFromClass klass name argCount vm := by
  unfold Invoke
  rw [hpeek]
  dsimp only
  rw [if_pos hobj, hinst]

theorem AllocateObject_withObject (env : VMEnv) (object : Obj) (vm : VM)
    (h : env.alloc vm.Allocs ∉ vm.Objects) :
    AllocateObject env object vm =
      some (env.alloc vm.Allocs, vm.withObject (env.alloc vm.Allocs) object) := by
  unfold AllocateObject
  rw [if_neg h]
  rfl

/-- The unfused path with a bound method: the receiver is back in its slot when
the method is called, on the machine with the bound method. -/
theorem CallValue_bound (env : VMEnv) (vm : VM) (argCount b m : Nat) (receiver : Value)
    (hpeek : Peek argCount vm = some receiver) (hb : b < 2 ^ 50) :
    ((vm.withObject b (Obj.BoundMethod receiver m)).setBelowArgs argCount (OBJ_VAL b)).bind
        (CallValue env (OBJ_VAL b) argCount) =
      Call m argCount (vm.withObject b (Obj.BoundMethod receiver m)) := by
  have hlt : argCount < vm.Stack.length := (List.getElem?_eq_some.1 hpeek).1
  have hlt2 : argCount < (vm.withObject b (Obj.BoundMethod receiver m)).Stack.length := hlt
  unfold VM.setBelowArgs
  rw [if_pos hlt2, Option.some_bind]
  unfold CallValue
  rw [if_pos (IS_OBJ_OBJ_VAL b), AS_OBJ_OBJ_VAL hb]
  have hheap : ({ vm.withObject b (Obj.BoundMethod receiver m) with
      Stack := (vm.withObject b (Obj.BoundMethod receiver m)).Stack.set argCount (OBJ_VAL b) } :
        VM).Heap b = some (Obj.BoundMethod receiver m) := by
    simp [VM.withObject]
  rw [hheap]
  dsimp only
  unfold VM.setBelowArgs
  dsimp only
  have hlen : argCount < ((vm.withObject b (Obj.BoundMethod receiver m)).Stack.set argCount
      (OBJ_VAL b)).length := by
    rw [List.length_set]
    exact hlt
  rw [if_pos hlen, Option.some_bind]
  have hstack : ((vm.withObject b (Obj.BoundMethod receiver m)).Stack.set argCount
      (OBJ_VAL b)).set argCount receiver = (vm.withObject b (Obj.BoundMethod receiver m)).Stack :=
    set_of_getElem? _ _ _ _ hpeek
  rw [hstack]

/-- Claim C32 (`Invoke` against property-get followed by call).  Let the stack
slot at depth `argCount` hold an instance, and let the allocator return for the
bound method of the unfused path an address below 2^50 that holds no object.
If the instance has the field `name`, `Invoke` puts the value of the field in
the slot and calls `CallValue` on it, which is the unfused path itself.  If it
has no such field and its class has no such method, both are the runtime error
`Undefined property '%s'.` on the same machine.  If the class has the method,
`Invoke` is `Call` of the method's closure, and the unfused path has the same
result on the same machine with one more object, the bound method: the same
frame pushed or the same runtime error, and the same stack.  The value the
unfused path puts in the slot is the one `OP_GET_PROPERTY` pushes in place of
the instance. -/
theorem C32_invoke (env : VMEnv) (vm : VM) (name argCount : Nat) (receiver : Value)
    (klass : Nat) (fields : Table)
    (hpeek : Peek argCount vm = some receiver) (hobj : IS_OBJ receiver = true)
    (hinst : vm.Heap (AS_OBJ receiver) = some (Obj.Instance klass fields))
    (hfresh : env.alloc vm.Allocs ∉ vm.Objects)
    (hnone : vm.Heap (env.alloc vm.Allocs) = none) (hptr : env.alloc vm.Allocs < 2 ^ 50) :
    (∀ value, TableGet vm.strings fields name = some (some value) →
      Invoke env name argCount vm =
        (vm.setBelowArgs argCount value).bind (CallValue env value argCount) ∧
      InvokeUnfused env name argCount vm = Invoke env name argCount vm) ∧
    (TableGet vm.strings fields name = some none →
      ∀ cname methods, vm.Heap klass = some (Obj.Class cname methods) →
        (TableGet vm.strings methods name = some none →
          Invoke env name argCount vm = some (false,
            RuntimeError (chars "Undefined property \x27%s\x27.") [] (vm.strings name).Chars vm) ∧
          InvokeUnfused env name argCount vm = Invoke env name argCount vm) ∧
        (∀ method, TableGet vm.strings methods name = some (some method) →
          Invoke env name argCount vm = Call (AS_OBJ method) argCount vm ∧
          InvokeUnfused env name argCount vm =
            (Invoke env name argCount vm).map (fun r => (r.1,
              r.2.withObject (env.alloc vm.Allocs)
                (Obj.BoundMethod receiver (AS_OBJ method)))))) ∧
    (∀ (vm0 vm1 : VM), READ_STRING vm0 = some (name, vm1) → Peek 0 vm0 = some receiver →
      vm0.Heap (AS_OBJ receiver) = some (Obj.Instance klass fields) →
      Run.OP_GET_PROPERTY env vm0 =
        match GetPropertyValue env receiver name vm1 with
        | none => none
        | some (none, vm2) => some (Return INTERPRET_RUNTIME_ERROR vm2)
        | some (some value, vm2) =>
          ((Pop vm2).bind (fun r => Push value r.2)).map Continue) := by
  have hinv := Invoke_instance env vm name argCount receiver klass fields hpeek hobj hinst
  refine ⟨fun value hv => ?_, fun hno cname methods hk => ⟨fun hm => ?_, fun method hm => ?_⟩,
    fun vm0 vm1 hread hp0 hi0 => ?_⟩
  · rw [hv] at hinv
    refine ⟨hinv, ?_⟩
    rw [hinv]
    unfold InvokeUnfused GetPropertyValue
    rw [hpeek]
    dsimp only
    rw [hinst]
    dsimp only
    rw [hv]
  · rw [hno] at hinv
    have hi2 : Invoke env name argCount vm = some (false,
        RuntimeError (chars "Undefined property \x27%s\x27.") [] (vm.strings name).Chars vm) := by
      rw [hinv]
      unfold InvokeFromClass
      rw [hk]
      dsimp only
      rw [hm]
    refine ⟨hi2, ?_⟩
    rw [hi2]
    unfold InvokeUnfused GetPropertyValue
    rw [hpeek]
    dsimp only
    rw [hinst]
    dsimp only
    rw [hno]
    dsimp only
    rw [hk]
    dsimp only
    rw [hm]
  · rw [hno] at hinv
    have hi2 : Invoke env name argCount vm = Call (AS_OBJ method) argCount vm := by
      rw [hinv]
      unfold InvokeFromClass
      rw [hk]
      dsimp only
      rw [hm]
    refine ⟨hi2, ?_⟩
    rw [hi2, ← Call_withObject vm _ _ _ _ hnone (fun _ _ h => by cases h) (fun _ h => by cases h),
      ← CallValue_bound env vm argCount _ _ receiver hpeek hptr]
    unfold InvokeUnfused GetPropertyValue
    rw [hpeek]
    dsimp only
    rw [hinst]
    dsimp only
    rw [hno]
    dsimp only
    rw [hk]
    dsimp only
    rw [hm]
    dsimp only
    rw [AllocateObject_withObject env _ vm hfresh]
    rfl
  · obtain ⟨ip, rfl⟩ := READ_STRING_setIP hread
    have hheap : (vm0.setIP ip).Heap = vm0.Heap := setIP_Heap vm0 ip
    have hstack : (vm0.setIP ip).Stack = vm0.Stack := setIP_Stack vm0 ip
    have hstr : (vm0.setIP ip).strings = vm0.strings := by
      unfold VM.strings
      rw [hheap]
    have hp1 : Peek 0 (vm0.setIP ip) = some receiver := by
      unfold Peek
      rw [hstack]
      exact hp0
    unfold Run.OP_GET_PROPERTY GetPropertyValue
    rw [hheap, hi0]
    simp only [hp0, IsObjType, hobj, hi0, hread, Option.bind_eq_bind, Option.some_bind,
      Option.map_some', if_true]
    cases hg : TableGet (vm0.setIP ip).strings fields name with
    | none => rfl
    | some r =>
      cases r with
      | some value =>
        simp only [Option.some_bind]
        cases Pop (vm0.setIP ip) with
        | none => rfl
        | some r4 => rfl
      | none =>
        simp only [Option.some_bind]
        unfold BindMethod
        rw [hheap]
        cases hk : vm0.Heap klass with
        | none => rfl
        | some o =>
          cases o with
          | Class cname methods =>
            dsimp only
            cases hm : TableGet (vm0.setIP ip).strings methods name with
            | none => rfl
            | some r2 =>
              cases r2 with
              | none => rfl
              | some method =>
                simp only [hp1, Option.bind_eq_bind, Option.some_bind]
                cases ha : AllocateObject env (Obj.BoundMethod receiver (AS_OBJ method))
                    (vm0.setIP ip) with
                | none => rfl
                | some r3 =>
                  simp only [Option.some_bind, Option.map_some']
                  cases hpop : Pop r3.2 with
                  | none => rfl
                  | some r4 =>
                    simp only [Option.some_bind]
                    cases hpush : Push (OBJ_VAL r3.1) r4.2 with
                    | none => rfl
                    | some r5 => rfl
          | _ => rfl

/-- Witness for C32: in `invokeVM` the instance has no field, its class has the
method, and `Invoke` and the unfused path both push the frame of the method's
closure over the same stack. -/
theorem C32_invoke_witness :
    ((Invoke sampleVMEnv 8 0 invokeVM).map (fun r => (r.1, r.2.Frames, r.2.Stack)) =
        some (true, [⟨32, 0, 0⟩], [OBJ_VAL 48]) ∧
      (InvokeUnfused sampleVMEnv 8 0 invokeVM).map (fun r => (r.1, r.2.Frames, r.2.Stack)) =
        some (true, [⟨32, 0, 0⟩], [OBJ_VAL 48])) ∧
    (∀ value, TableGet invokeVM.strings InitTable 8 = some (some value) →
      Invoke sampleVMEnv 8 0 invokeVM =
        (invokeVM.setBelowArgs 0 value).bind (CallValue sampleVMEnv value 0) ∧
      InvokeUnfused sampleVMEnv 8 0 invokeVM = Invoke sampleVMEnv 8 0 invokeVM) ∧
    (TableGet invokeVM.strings InitTable 8 = some none →
      ∀ cname methods, invokeVM.Heap 16 = some (Obj.Class cname methods) →
        (TableGet invokeVM.strings methods 8 = some none →
          Invoke sampleVMEnv 8 0 invokeVM = some (false,
            RuntimeError (chars "Undefined property \x27%s\x27.") [] (invokeVM.strings 8).Chars invokeVM) ∧
          InvokeUnfused sampleVMEnv 8 0 invokeVM = Invoke sampleVMEnv 8 0 invokeVM) ∧
        (∀ method, TableGet invokeVM.strings methods 8 = some (some method) →
          Invoke sampleVMEnv 8 0 invokeVM = Call (AS_OBJ method) 0 invokeVM ∧
          InvokeUnfused sampleVMEnv 8 0 invokeVM =
            (Invoke sampleVMEnv 8 0 invokeVM).map (fun r => (r.1,
              r.2.withObject (sampleVMEnv.alloc invokeVM.Allocs)
                (Obj.BoundMethod (OBJ_VAL 48) (AS_OBJ method)))))) ∧
    (∀ (vm0 vm1 : VM), READ_STRING vm0 = some (8, vm1) → Peek 0 vm0 = some (OBJ_VAL 48) →
      vm0.Heap (AS_OBJ (OBJ_VAL 48)) = some (Obj.Instance 16 InitTable) →
      Run.OP_GET_PROPERTY sampleVMEnv vm0 =
        match GetPropertyValue sampleVMEnv (OBJ_VAL 48) 8 vm1 with
        | none => none
        | some (none, vm2) => some (Return INTERPRET_RUNTIME_ERROR vm2)
        | some (some value, vm2) =>
          ((Pop vm2).bind (fun r => Push value r.2)).map Continue) :=
  ⟨by decide, C32_invoke sampleVMEnv invokeVM 8 0 (OBJ_VAL 48) 16 InitTable rfl (by decide)
    rfl (by decide) rfl (by decide)⟩

/-! ### The value stack is not bounded by the frames -/

theorem flatten_pairs_even (a b : Nat) (rest : List Nat) :
    ∀ (n j : Nat), j < n → ((List.replicate n [a, b]).flatten ++ rest)[2 * j]? = some a ∧
      ((List.replicate n [a, b]).flatten ++ rest)[2 * j + 1]? = some b := by
  intro n
  induction n with
  | zero => intro j hj; omega
  | succ n ih =>
    intro j hj
    rw [List.replicate_succ, List.flatten_cons]
    cases j with
    | zero => simp
    | succ j =>
      have h := ih j (by omega)
      have e1 : 2 * (j + 1) = (2 * j) + 1 + 1 := by omega
      rw [e1]
      simp only [List.cons_append, List.nil_append, List.getElem?_cons_succ]
      exact h

theorem flatten_pairs_length (a b : Nat) (n : Nat) :
    (List.replicate n [a, b]).flatten.length = 2 * n := by
  induction n with
  | zero => rfl
  | succ n ih =>
    rw [List.replicate_succ, List.flatten_cons, List.length_append, ih]
    simp
    omega

theorem deepCode_get (d j : Nat) (h : j ≤ d) :
    (deepCode d)[2 * j]? = some OpCode.OP_GET_LOCAL ∧ (deepCode d)[2 * j + 1]? = some 1 :=
  flatten_pairs_even _ _ _ (d + 1) j (by omega)

theorem deepCode_call (d : Nat) (h : 0 < d) :
    (deepCode d)[2 * (d + 1)]? = some OpCode.OP_CALL ∧
      (deepCode d)[2 * (d + 1) + 1]? = some 1 := by
  unfold deepCode
  have hl := flatten_pairs_length OpCode.OP_GET_LOCAL 1 (d + 1)
  have h0 := flatten_pairs_even OpCode.OP_CALL 1
    [OpCode.OP_POP, OpCode.OP_NIL, OpCode.OP_RETURN] d 0 h
  constructor
  · rw [List.getElem?_append_right (by omega), hl, Nat.sub_self]
    exact h0.1
  · rw [List.getElem?_append_right (by omega), hl, Nat.add_sub_cancel_left]
    exact h0.2

theorem deepState_executing (d k j : Nat) :
    Executing (deepState d k j)
      (deepFunction d) (2 * j) :=
  ⟨⟨_, _, rfl, rfl⟩, rfl⟩

theorem RunStep_OP_GET_LOCAL (env : VMEnv) (vm : VM) (f : ObjFunction) (ip : Nat)
    (h : Executing vm f ip) (hb : f.Chunk.Code[ip]? = some OpCode.OP_GET_LOCAL) :
    RunStep env vm = Run.OP_GET_LOCAL (vm.resume (ip + 1) vm.Stack) := by
  unfold RunStep
  rw [READ_BYTE_eq vm f ip _ h hb]
  rfl

theorem deepState_resume (d k j ip : Nat) :
    (deepState d k j).resume ip (deepState d k j).Stack =
      { deepState d k j with Frames := ⟨5056, ip, 1 + k * (d + 1)⟩ :: deepFrames d k } := rfl

theorem deepState_slot (d k j : Nat) :
    (deepState d k j).getSlot (1 + k * (d + 1) + 1) = some (OBJ_VAL 5056) := by
  unfold VM.getSlot deepState
  simp only [List.length_append, List.length_replicate, List.length_singleton]
  rw [if_pos (by omega)]
  have e : 2 + k * (d + 1) + j + 1 - 1 - (1 + k * (d + 1) + 1) = j := by omega
  rw [e, List.getElem?_append_left (by simp)]
  simp

/-- One more callee is pushed while the stack has room. -/
theorem deepState_push (env : VMEnv) (d k j : Nat) (hj : j ≤ d)
    (hroom : 3 + k * (d + 1) + j < STACK_MAX) :
    RunStep env (deepState d k j) = some (Continue (deepState d k (j + 1))) := by
  have hex := deepState_executing d k j
  rw [RunStep_OP_GET_LOCAL env _ _ _ hex (deepCode_get d j hj).1]
  unfold Run.OP_GET_LOCAL
  have hex2 : Executing ((deepState d k j).resume (2 * j + 1) (deepState d k j).Stack)
      (deepFunction d) (2 * j + 1) :=
    ⟨⟨_, _, rfl, rfl⟩, rfl⟩
  rw [READ_BYTE_eq _ _ _ _ hex2 (deepCode_get d j hj).2]
  simp only [Option.bind_eq_bind, Option.some_bind]
  have hfr : ((((deepState d k j).resume (2 * j + 1) (deepState d k j).Stack).resume
      (2 * j + 1 + 1) ((deepState d k j).resume (2 * j + 1) (deepState d k j).Stack).Stack) :
        VM) = { deepState d k j with Frames := ⟨5056, 2 * j + 2, 1 + k * (d + 1)⟩ :: deepFrames d k } :=
    rfl
  rw [hfr]
  have hslot : ({ deepState d k j with
      Frames := ⟨5056, 2 * j + 2, 1 + k * (d + 1)⟩ :: deepFrames d k } : VM).getSlot
        (1 + k * (d + 1) + 1) = some (OBJ_VAL 5056) := deepState_slot d k j
  simp only [List.head?_cons, Option.some_bind]
  rw [hslot]
  simp only [Option.some_bind]
  unfold Push
  have hlen : ({ deepState d k j with
      Frames := ⟨5056, 2 * j + 2, 1 + k * (d + 1)⟩ :: deepFrames d k } : VM).Stack.length =
        3 + k * (d + 1) + j := by
    simp [deepState]
    omega
  rw [if_pos (by rw [hlen]; exact hroom)]
  simp only [Option.map_some']
  rfl

/-- With the stack full, the next `OP_GET_LOCAL` has no slot to write to. -/
theorem deepState_full (env : VMEnv) (d k j : Nat) (hj : j ≤ d)
    (hfull : 3 + k * (d + 1) + j = STACK_MAX) :
    RunStep env (deepState d k j) = none := by
  have hex := deepState_executing d k j
  rw [RunStep_OP_GET_LOCAL env _ _ _ hex (deepCode_get d j hj).1]
  unfold Run.OP_GET_LOCAL
  have hex2 : Executing ((deepState d k j).resume (2 * j + 1) (deepState d k j).Stack)
      (deepFunction d) (2 * j + 1) :=
    ⟨⟨_, _, rfl, rfl⟩, rfl⟩
  rw [READ_BYTE_eq _ _ _ _ hex2 (deepCode_get d j hj).2]
  simp only [Option.bind_eq_bind, Option.some_bind]
  have hfr : ((((deepState d k j).resume (2 * j + 1) (deepState d k j).Stack).resume
      (2 * j + 1 + 1) ((deepState d k j).resume (2 * j + 1) (deepState d k j).Stack).Stack) :
        VM) = { deepState d k j with Frames := ⟨5056, 2 * j + 2, 1 + k * (d + 1)⟩ :: deepFrames d k } :=
    rfl
  rw [hfr]
  have hslot : ({ deepState d k j with
      Frames := ⟨5056, 2 * j + 2, 1 + k * (d + 1)⟩ :: deepFrames d k } : VM).getSlot
        (1 + k * (d + 1) + 1) = some (OBJ_VAL 5056) := deepState_slot d k j
  simp only [List.head?_cons, Option.some_bind]
  rw [hslot]
  simp only [Option.some_bind]
  unfold Push
  have hlen : ({ deepState d k j with
      Frames := ⟨5056, 2 * j + 2, 1 + k * (d + 1)⟩ :: deepFrames d k } : VM).Stack.length =
        3 + k * (d + 1) + j := by
    simp [deepState]
    omega
  rw [if_neg (by rw [hlen, hfull]; exact Nat.lt_irrefl _)]
  rfl

theorem deepFrames_length (d k : Nat) : (deepFrames d k).length = k + 1 := by
  induction k with
  | zero => rfl
  | succ k ih => simp [deepFrames, ih]

theorem deepState_stack_length (d k j : Nat) :
    (deepState d k j).Stack.length = 3 + k * (d + 1) + j := by
  simp [deepState]
  omega

theorem deepState_frames_length (d k j : Nat) :
    (deepState d k j).Frames.length = k + 2 := by
  simp [deepState, deepFrames_length]

/-- The innermost call enters the next frame of the function while fewer than
`FRAMES_MAX` frames are in use. -/
theorem deepState_call (env : VMEnv) (d k : Nat) (hd : 0 < d) (hk : k + 2 < FRAMES_MAX) :
    RunStep env (deepState d k (d + 1)) = some (Continue (deepState d (k + 1) 0)) := by
  have hex := deepState_executing d k (d + 1)
  rw [RunStep_OP_CALL env _ _ _ hex (deepCode_call d hd).1]
  unfold Run.OP_CALL
  simp only [Option.bind_eq_bind]
  rw [READ_BYTE_eq _ _ (2 * (d + 1) + 1) 1 (hex.resume _ _) (deepCode_call d hd).2,
    Option.some_bind, resume_resume, resume_Stack]
  unfold Peek
  have hp : (deepState d k (d + 1)).Stack[1]? = some (OBJ_VAL 5056) := by
    unfold deepState
    dsimp only
    rw [List.getElem?_append_left (by rw [List.length_replicate]; omega)]
    rw [List.getElem?_replicate, if_pos (by omega)]
  rw [resume_Stack, hp, Option.some_bind]
  unfold CallValue
  rw [if_pos (IS_OBJ_OBJ_VAL 5056), AS_OBJ_OBJ_VAL (by decide)]
  have hh : ((deepState d k (d + 1)).resume (2 * (d + 1) + 1 + 1)
      (deepState d k (d + 1)).Stack).Heap 5056 = some (Obj.Closure 5016 []) := rfl
  rw [hh]
  dsimp only
  rw [Call_eq _ 5056 5016 [] (deepFunction d) 1
    hh rfl]
  rw [if_neg (fun h => h rfl)]
  have hfl : ((deepState d k (d + 1)).resume (2 * (d + 1) + 1 + 1)
      (deepState d k (d + 1)).Stack).Frames.length = k + 2 := by
    rw [resume_Frames _ _ _ _ _ rfl]
    simp [deepFrames_length]
  rw [if_neg (by rw [hfl]; omega)]
  simp only [Option.some_bind]
  have hsl : ((deepState d k (d + 1)).resume (2 * (d + 1) + 1 + 1)
      (deepState d k (d + 1)).Stack).Stack.length - 1 - 1 = 1 + (k + 1) * (d + 1) := by
    rw [resume_Stack, deepState_stack_length]
    rw [Nat.add_mul]
    omega
  rw [hsl]
  have hst : 2 + k * (d + 1) + (d + 1) = 2 + (k + 1) * (d + 1) + 0 := by
    rw [Nat.add_mul]
    omega
  simp only [if_true]
  congr 2
  unfold deepState
  rw [hst]
  rfl

theorem RunSteps_succ (env : VMEnv) (n : Nat) (vm : VM) :
    RunSteps env (n + 1) vm =
      match RunStep env vm with
      | some (Continue vm1) => RunSteps env n vm1
      | _ => none := rfl

theorem RunSteps_add (env : VMEnv) (m n : Nat) (vm : VM) :
    RunSteps env (m + n) vm = (RunSteps env m vm).bind (RunSteps env n) := by
  induction m generalizing vm with
  | zero => rw [Nat.zero_add]; rfl
  | succ m ih =>
    rw [Nat.add_right_comm, RunSteps_succ, RunSteps_succ]
    cases hs : RunStep env vm with
    | none => rfl
    | some r =>
      cases r with
      | Continue vm1 => exact ih vm1
      | Return res vm1 => rfl

/-- The pushes of one frame, as long as the stack has room. -/
theorem deepState_pushes (env : VMEnv) (d k : Nat) :
    ∀ (n j : Nat), j + n ≤ d + 1 → 3 + k * (d + 1) + j + n ≤ STACK_MAX →
      RunSteps env n (deepState d k j) = some (deepState d k (j + n)) := by
  intro n
  induction n with
  | zero => intro j _ _; rfl
  | succ n ih =>
    intro j hj hroom
    rw [RunSteps_succ, deepState_push env d k j (by omega) (by omega)]
    dsimp only
    rw [ih (j + 1) (by omega) (by omega)]
    congr 2
    omega

/-- One whole frame: `d + 1` pushes and the innermost call. -/
theorem deepState_frame (env : VMEnv) (d k : Nat) (hd : 0 < d) (hk : k + 2 < FRAMES_MAX)
    (hroom : 3 + (k + 1) * (d + 1) ≤ STACK_MAX) :
    RunSteps env (d + 2) (deepState d k 0) = some (deepState d (k + 1) 0) := by
  have e : d + 2 = (d + 1) + 1 := rfl
  rw [e, RunSteps_add, deepState_pushes env d k (d + 1) 0 (by omega)
    (by rw [Nat.add_mul] at hroom; omega), Option.some_bind, Nat.zero_add]
  rw [RunSteps_succ, deepState_call env d k hd hk]
  rfl

/-- The frames of the function pile up: after `k` rounds the `k`-th nested
frame starts. -/
theorem deepState_frames (env : VMEnv) (d : Nat) (hd : 0 < d) :
    ∀ k : Nat, k + 1 < FRAMES_MAX → 3 + k * (d + 1) ≤ STACK_MAX →
      RunSteps env (k * (d + 2)) (deepState d 0 0) = some (deepState d k 0) := by
  intro k
  induction k with
  | zero => intro _ _; rw [Nat.zero_mul]; rfl
  | succ k ih =>
    intro hk hroom
    have hle : k * (d + 1) ≤ (k + 1) * (d + 1) := Nat.mul_le_mul_right _ (Nat.le_succ k)
    rw [Nat.succ_mul, RunSteps_add, ih (by omega) (by omega), Option.some_bind]
    exact deepState_frame env d k hd hk hroom

theorem STACK_MAX_eq : STACK_MAX = 16384 := by decide

theorem FRAMES_MAX_eq : FRAMES_MAX = 64 := rfl

theorem deepState_overflow (env : VMEnv) :
    RunSteps env (62 * 262 + 199) (deepState 260 0 0) = some (deepState 260 62 199) ∧
      RunStep env (deepState 260 62 199) = none := by
  constructor
  · rw [RunSteps_add, deepState_frames env 260 (by omega) 62 (by have h := FRAMES_MAX_eq; omega)
      (by have h := STACK_MAX_eq; omega), Option.some_bind]
    exact deepState_pushes env 260 62 199 0 (by omega) (by have h := STACK_MAX_eq; omega)
  · exact deepState_full env 260 62 199 (by omega) (by have h := STACK_MAX_eq; omega)

set_option maxRecDepth 100000 in
/-- With two nested calls, `Interpret` reaches the state `deepState 2 0 0` in
what the recursion reads. -/
theorem deepStart_small :
    (deepStart sampleVMEnv 10 freshVM (deepSource 2)).map deepSummary =
      some (deepSummary (deepState 2 0 0)) := by
  decide

/-- Claim C22, which the code does not meet: the value stack can outgrow
`STACK_MAX` slots. In the program `fun f(g){g(g( ... g(g) ... ));}f(f);`
with 260 nested calls, `f` calls itself with the stack 261 slots higher each
time, `Call` accepts the 63 frames of `f`, and after `62 * 262 + 199`
instructions of `f` all `STACK_MAX = 16384` slots are occupied while the next
instruction is another `OP_GET_LOCAL`, whose `Push` has no slot left in the
array: the step has no defined result. With two nested calls the machine of
`Interpret` agrees with the start state in the frames, the stack and the
function running. -/
theorem C22_stack_overflow (env : VMEnv) :
    RunSteps env (62 * 262 + 199) (deepState 260 0 0) = some (deepState 260 62 199) ∧
      (deepState 260 62 199).Stack.length = STACK_MAX ∧
      (deepState 260 62 199).Frames.length = FRAMES_MAX ∧
      Executing (deepState 260 62 199) (deepFunction 260) (2 * 199) ∧
      (deepFunction 260).Chunk.Code[2 * 199]? = some OpCode.OP_GET_LOCAL ∧
      Push (OBJ_VAL 5056) (deepState 260 62 199) = none ∧
      RunStep env (deepState 260 62 199) = none ∧
      (deepStart sampleVMEnv 10 freshVM (deepSource 2)).map deepSummary =
        some (deepSummary (deepState 2 0 0)) := by
  have h := deepState_overflow env
  have hl : (deepState 260 62 199).Stack.length = STACK_MAX := by
    rw [deepState_stack_length, STACK_MAX_eq]
  refine ⟨h.1, hl, ?_, deepState_executing 260 62 199, (deepCode_get 260 199 (by omega)).1, ?_,
    h.2, deepStart_small⟩
  · rw [deepState_frames_length, FRAMES_MAX_eq]
  · unfold Push
    rw [if_neg (by rw [hl]; exact Nat.lt_irrefl _)]

/-! ### Instructions of the compiled code -/

theorem getElem?_mid (pre ins post : List Nat) (k : Nat) (h : k < ins.length) :
    (pre ++ (ins ++ post))[pre.length + k]? = ins[k]? := by
  rw [List.getElem?_append_right (by omega), Nat.add_sub_cancel_left,
    List.getElem?_append_left h]

theorem getElem?_mid_zero (pre ins post : List Nat) (h : 0 < ins.length) :
    (pre ++ (ins ++ post))[pre.length]? = ins[0]? :=
  getElem?_mid pre ins post 0 h

theorem DisassembleInstruction_functions {f f1 : Nat → Option ObjFunction}
    (hf : ∀ a g, f a = some g → f1 a = some g) {chunk : Chunk} {offset n : Nat}
    (h : DisassembleInstruction f chunk offset = some n) :
    DisassembleInstruction f1 chunk offset = some n := by
  unfold DisassembleInstruction at h ⊢
  cases hc : chunk.Code[offset]? with
  | none => rw [hc] at h; cases h
  | some instruction =>
    rw [hc] at h
    dsimp only at h ⊢
    by_cases hcl : instruction = OpCode.OP_CLOSURE
    · subst hcl
      simp only [OpCode.OP_CLOSURE, OpCode.OP_CONSTANT, OpCode.OP_NIL, OpCode.OP_TRUE,
        OpCode.OP_FALSE, OpCode.OP_POP, OpCode.OP_GET_LOCAL, OpCode.OP_SET_LOCAL,
        OpCode.OP_GET_GLOBAL, OpCode.OP_DEFINE_GLOBAL, OpCode.OP_SET_GLOBAL,
        OpCode.OP_GET_UPVALUE, OpCode.OP_SET_UPVALUE, OpCode.OP_GET_PROPERTY,
        OpCode.OP_SET_PROPERTY, OpCode.OP_GET_SUPER, OpCode.OP_EQUAL, OpCode.OP_GREATER,
        OpCode.OP_LESS, OpCode.OP_ADD, OpCode.OP_SUBTRACT, OpCode.OP_MULTIPLY,
        OpCode.OP_DIVIDE, OpCode.OP_NOT, OpCode.OP_NEGATE, OpCode.OP_PRINT, OpCode.OP_JUMP,
        OpCode.OP_JUMP_IF_FALSE, OpCode.OP_LOOP, OpCode.OP_CALL, OpCode.OP_INVOKE,
        OpCode.OP_SUPER_INVOKE, Nat.reduceEqDiff, if_false, if_true] at h ⊢
      unfold ClosureInstruction at h ⊢
      cases h1 : chunk.Code[offset + 1]? with
      | none => rw [h1] at h; cases h
      | some constant =>
        rw [h1] at h
        dsimp only at h ⊢
        cases h2 : chunk.Constants[constant]? with
        | none => rw [h2] at h; cases h
        | some value =>
          rw [h2] at h
          dsimp only at h ⊢
          cases h3 : f (AS_OBJ value) with
          | none => rw [h3] at h; cases h
          | some g =>
            rw [h3] at h
            rw [hf _ _ h3]
            exact h
    · rw [if_neg hcl] at h
      rw [if_neg hcl]
      exact h

theorem code_at_zero (pre post : List Nat) (a : Nat) (rest : List Nat) :
    (pre ++ ((a :: rest) ++ post))[pre.length]? = some a := by
  rw [getElem?_mid_zero pre (a :: rest) post (by simp)]
  simp

theorem code_at_one (pre post : List Nat) (a b : Nat) (rest : List Nat) :
    (pre ++ ((a :: b :: rest) ++ post))[pre.length + 1]? = some b := by
  rw [getElem?_mid pre (a :: b :: rest) post 1 (by simp)]
  simp

theorem code_at_two (pre post : List Nat) (a b c : Nat) (rest : List Nat) :
    (pre ++ ((a :: b :: c :: rest) ++ post))[pre.length + 2]? = some c := by
  rw [getElem?_mid pre (a :: b :: c :: rest) post 2 (by simp)]
  simp

/-- The jumps, whatever their operand. -/
theorem InstrOK_jump (functions : Nat → Option ObjFunction) (constants : List Value)
    (op a b : Nat) (h : op ∈ [OpCode.OP_JUMP, OpCode.OP_JUMP_IF_FALSE, OpCode.OP_LOOP]) :
    InstrOK functions constants [op, a, b] := by
  refine ⟨by simp, fun pre post lines more => ?_⟩
  unfold DisassembleInstruction
  dsimp only
  rw [code_at_zero]
  dsimp only
  simp only [List.mem_cons, List.mem_singleton, List.not_mem_nil, or_false] at h
  have hb : JumpInstruction ⟨pre ++ ([op, a, b] ++ post), lines, constants ++ more⟩
      pre.length = some (pre.length + [op, a, b].length) := by
    unfold JumpInstruction
    dsimp only
    rw [code_at_one]
    dsimp only
    rw [code_at_two]
    rfl
  rcases h with rfl | rfl | rfl <;> exact hb

theorem InstrOK.instr_mono {f f1 : Nat → Option ObjFunction} {constants : List Value}
    {ins : List Nat} (h : InstrOK f constants ins)
    (hf : ∀ a g, f a = some g → f1 a = some g) (more : List Value) :
    InstrOK f1 (constants ++ more) ins := by
  refine ⟨h.1, fun pre post lines more1 => ?_⟩
  rw [List.append_assoc]
  exact DisassembleInstruction_functions hf (h.2 pre post lines (more ++ more1))

theorem CodeOK.nil (f : Nat → Option ObjFunction) (constants : List Value) :
    CodeOK f constants [] :=
  ⟨[], rfl, fun _ h => nomatch h⟩

theorem CodeOK.single {f : Nat → Option ObjFunction} {constants : List Value}
    {ins : List Nat} (h : InstrOK f constants ins) : CodeOK f constants ins :=
  ⟨[ins], by simp, fun i hi => by rw [List.mem_singleton.1 hi]; exact h⟩

theorem CodeOK.code_mono {f f1 : Nat → Option ObjFunction} {constants : List Value}
    {code : List Nat} (h : CodeOK f constants code)
    (hf : ∀ a g, f a = some g → f1 a = some g) (more : List Value) :
    CodeOK f1 (constants ++ more) code := by
  obtain ⟨I, rfl, hI⟩ := h
  exact ⟨I, rfl, fun ins hi => (hI ins hi).instr_mono hf more⟩

/-! ### The disassembler on a sequence of instructions -/

theorem HeadExt.head_same (f : Nat → Option ObjFunction) (c : Compiler) : HeadExt f c c :=
  ⟨rfl, ⟨[], by simp, CodeOK.nil _ _⟩, ⟨[], by simp⟩⟩

theorem HeadExt.functions {f f1 : Nat → Option ObjFunction} {a b : Compiler}
    (h : HeadExt f a b) (hf : ∀ p g, f p = some g → f1 p = some g) : HeadExt f1 a b := by
  obtain ⟨ha, ⟨t1, hc1, ho1⟩, hm⟩ := h
  refine ⟨ha, ⟨t1, hc1, ?_⟩, hm⟩
  have := ho1.code_mono hf []
  rw [List.append_nil] at this
  exact this

theorem TailExt.tail_same (c : Compiler) : TailExt c c := ⟨rfl, rfl, rfl⟩

theorem tailChain_same : ∀ l : List Compiler, List.Forall₂ TailExt l l
  | [] => List.Forall₂.nil
  | c :: cs => List.Forall₂.cons (TailExt.tail_same c) (tailChain_same cs)

theorem Ext.ext_same {st : CompileState} (d : Bool) (h : OpInv st) : Ext d st st := by
  obtain ⟨c, cs, hc⟩ := List.exists_cons_of_ne_nil h.current
  exact ⟨h, ⟨c, cs, c, cs, hc, hc, HeadExt.head_same _ c, fun _ => rfl, tailChain_same cs⟩,
    fun _ _ h => h, fun p hp => Or.inl hp, fun _ h => h⟩

theorem Ext.ext_weaken {d : Bool} {a b : CompileState} (h : Ext d a b) : Ext false a b := by
  obtain ⟨x, xs, y, ys, hx, hy, hh1, _, ht1⟩ := h.chain
  exact ⟨h.inv, ⟨x, xs, y, ys, hx, hy, hh1, fun hd => Bool.noConfusion hd, ht1⟩, h.fns, h.recorded,
    h.objs⟩

theorem Ext.ext_weaken_true {d : Bool} {a b : CompileState} (h : Ext true a b) : Ext d a b := by
  cases d with
  | true => exact h
  | false => exact h.ext_weaken

theorem Track.track_weaken_true {d : Bool} {a b : CompileState} (h : Track true a b) :
    Track d a b :=
  ⟨h.1, h.2.1, fun hi hc hf => (h.2.2 hi hc hf).ext_weaken_true⟩

/-- The invariant on a state whose chain of compilers has the same function
objects. -/
theorem OpInv.of_chain {st st1 : CompileState} (h : OpInv st)
    (haddr : st1.current.map (fun c => c.FunctionAddr) =
      st.current.map (fun c => c.FunctionAddr))
    (hfn : st1.Functions = st.Functions)
    (hobj : ∀ a ∈ st.vm.Objects, a ∈ st1.vm.Objects)
    (hpanic : st1.parser.PanicMode = true → st1.parser.HadError = true)
    (hups : ∀ c ∈ st1.current, c.Function.UpValueCount ≤ c.UpValues.length) : OpInv st1 := by
  have hmem : ∀ c ∈ st1.current, ∃ c0 ∈ st.current, c0.FunctionAddr = c.FunctionAddr := by
    intro c hc
    have : c.FunctionAddr ∈ st1.current.map (fun c => c.FunctionAddr) :=
      List.mem_map.2 ⟨c, hc, rfl⟩
    rw [haddr] at this
    obtain ⟨c0, h0, e0⟩ := List.mem_map.1 this
    exact ⟨c0, h0, e0⟩
  refine ⟨?_, hpanic, ?_, by rw [haddr]; exact h.nodup, ?_, ?_, hups⟩
  · intro hn
    rw [hn] at haddr
    have hc := h.current
    cases hs : st.current with
    | nil => exact hc hs
    | cons x xs => rw [hs] at haddr; cases haddr
  · intro c hc
    obtain ⟨c0, h0, e0⟩ := hmem c hc
    rw [← e0]
    exact hobj _ (h.addrs c0 h0)
  · intro p hp
    rw [hfn] at hp
    exact hobj _ (h.keys p hp)
  · intro c hc
    obtain ⟨c0, h0, e0⟩ := hmem c hc
    rw [hfn, ← e0]
    exact h.pending c0 h0

theorem ErrorAtCurrent_flagged {m : List Nat} {st : CompileState} (h : OpInv st) :
    (ErrorAtCurrent m st).parser.HadError = true :=
  ErrorAt_hadError _ m st h.panic

theorem withChunk_current {st : CompileState} {c : Compiler} {cs : List Compiler}
    (h : st.current = c :: cs) (chunk : Chunk) :
    (st.withChunk chunk).current =
      { c with Function := { c.Function with Chunk := chunk } } :: cs := by
  unfold CompileState.withChunk
  rw [h]

theorem withChunk_fns (st : CompileState) (chunk : Chunk) :
    (st.withChunk chunk).Functions = st.Functions := by
  obtain ⟨sc, pa, cur, cls, vm, fns, al, se⟩ := st
  cases cur <;> rfl

theorem withChunk_vm (st : CompileState) (chunk : Chunk) :
    (st.withChunk chunk).vm = st.vm := by
  obtain ⟨sc, pa, cur, cls, vm, fns, al, se⟩ := st
  cases cur <;> rfl

theorem chunk_of_current {st : CompileState} {c : Compiler} {cs : List Compiler}
    (h : st.current = c :: cs) : st.chunk = c.Function.Chunk := by
  unfold CompileState.chunk
  rw [h]

/-- The current chunk is replaced by one with more instructions and more
constants. -/
theorem Ext.of_chunk {st : CompileState} (h : OpInv st) (chunk : Chunk)
    (tail : List Nat) (more : List Value)
    (hc : chunk.Code = st.code ++ tail) (hk : chunk.Constants = st.constants ++ more)
    (ho : CodeOK st.functionAt chunk.Constants tail) : Ext true st (st.withChunk chunk) := by
  obtain ⟨c, cs, hcur⟩ := List.exists_cons_of_ne_nil h.current
  have hcur1 := withChunk_current hcur chunk
  have hi : OpInv (st.withChunk chunk) := by
    refine h.of_chain (by rw [hcur1, hcur]; rfl) (withChunk_fns _ _)
      (by rw [withChunk_vm]; exact fun _ h => h) (by rw [withChunk_parserEq]; exact h.panic) ?_
    intro x hx
    rw [hcur1] at hx
    rcases List.mem_cons.1 hx with e | e
    · rw [e]
      exact h.ups c (by rw [hcur]; exact List.mem_cons_self _ _)
    · exact h.ups x (by rw [hcur]; exact List.mem_cons_of_mem _ e)
  have hch := chunk_of_current hcur
  unfold CompileState.code at hc
  unfold CompileState.constants at hk
  rw [hch] at hc hk
  refine ⟨hi, ⟨c, cs, _, cs, hcur, hcur1, ⟨rfl, ⟨tail, hc, ?_⟩, ⟨more, hk⟩⟩, fun _ => rfl,
    tailChain_same cs⟩, ?_, ?_, ?_⟩
  · unfold CompileState.functionAt at ho ⊢
    rw [withChunk_fns]
    exact ho
  · intro a f hf
    unfold CompileState.functionAt at hf ⊢
    rw [withChunk_fns]
    exact hf
  · intro p hp
    rw [withChunk_fns] at hp
    exact Or.inl hp
  · rw [withChunk_vm]
    exact fun _ h => h

theorem emit_ext {st : CompileState} (h : OpInv st) (bytes : List Nat)
    (ho : CodeOK st.functionAt st.constants bytes) : Ext true st (st.emit bytes) := by
  unfold CompileState.emit
  exact Ext.of_chunk h _ bytes [] rfl (by rw [List.append_nil]; rfl) ho

theorem ErrorAtCurrent_not_clean {m : List Nat} {st : CompileState}
    (h : OpInv (ErrorAtCurrent m st)) : (ErrorAtCurrent m st).parser.HadError = true :=
  h.panic (ErrorAt_panic _ m st)

theorem jump_codeOK (f : Nat → Option ObjFunction) (constants : List Value) {op : Nat}
    (x y : Nat) (h : op ∈ jumpOpcodes) : CodeOK f constants [op, x, y] :=
  CodeOK.single (InstrOK_jump f constants op x y h)

theorem Pending.start {op o : Nat} {st st1 : CompileState} (d : Bool) (hi : OpInv st)
    (h : EmitJump op st = some (o, st1)) (hop : op % 256 ∈ jumpOpcodes) :
    Pending d st st1 o := by
  rw [EmitJump_eq op st hi.current] at h
  simp only [Option.some.injEq, Prod.mk.injEq] at h
  obtain ⟨rfl, rfl⟩ := h
  exact ⟨hi, rfl, op % 256, 0xff, 0xff, hop,
    Ext.ext_same d (emit_ext hi _ (jump_codeOK _ _ _ _ hop)).inv⟩

end CLox
